import Mathlib

set_option maxRecDepth 100000

namespace OUI

/-!
# OUI layout and interaction core (`oui.h`): shallow embedding and verified properties

The C implementation keeps one ambient context (`ui_context`); here the context is an
explicit value threaded through every operation.

* C `int` values are modelled as unbounded `Int` (signed overflow is undefined behaviour in C,
  so no wrap-around is modelled); `unsigned long long` handles and button masks are `Nat`.
* `UIitem *` pointers into the item arena are modelled as `Nat` indices that have passed the
  range assertion of `uiItemPtr`; every read through a pointer reads the current context, so
  aliasing between pointers behaves as in C.
* The arena `items[UI_MAX_ITEMS]` together with `count` is modelled as the list of the live
  items `items[0 .. count)`, so `count` is the length of that list.
* A failing `assert` is the error `UIerror.assertion`; recursion and loops that C runs without
  bound take a fuel argument and report `UIerror.fuel` when it runs out.
* Handler callbacks are modelled by the list of `(item, event)` pairs they are invoked with.
-/

/-! ## Constants -/

/-- the item is inactive -/
abbrev UI_COLD : Int := 0

/-- the item is inactive, but the cursor is hovering over this item -/
abbrev UI_HOT : Int := 1

/-- the item is toggled or activated -/
abbrev UI_ACTIVE : Int := 2

/-- the item is unresponsive -/
abbrev UI_FROZEN : Int := 3

/-- maximum number of items that may be added -/
abbrev UI_MAX_ITEMS : Nat := 4096

/-- maximum size in bytes reserved for storage of application dependent data -/
abbrev UI_MAX_BUFFERSIZE : Int := 1048576

/-- maximum size in bytes of a single data buffer passed to uiAllocData -/
abbrev UI_MAX_DATASIZE : Int := 4096

abbrev UI_LEFT : Int := 1

abbrev UI_RIGHT : Int := 4

abbrev UI_HFILL : Int := 5

abbrev UI_VFILL : Int := 10

abbrev UI_HCENTER : Int := 0

abbrev UI_FILL : Int := 15

abbrev UI_BUTTON0_DOWN : Int := 1

abbrev UI_BUTTON0_UP : Int := 2

abbrev UI_BUTTON0_HOT_UP : Int := 4

abbrev UI_BUTTON0_CAPTURE : Int := 8

/-! ## Data model -/

/-- How an operation can fail: an `assert` of the C code fails, or the fuel of a modelled
loop or recursion is exhausted. -/
inductive UIerror where
  | assertion
  | fuel
deriving DecidableEq, Repr

/-- The struct `UIvec2`: `v[0] = x`, `v[1] = y`. -/
structure UIvec2 where
  x : Int
  y : Int
deriving DecidableEq, Repr, Inhabited

/-- Read `v[i]` of a `UIvec2`. -/
def UIvec2.v (p : UIvec2) (i : Nat) : Int :=
  if i = 0 then p.x else p.y

/-- The struct `UIrect`: `v[0] = x`, `v[1] = y`, `v[2] = w`, `v[3] = h`. -/
structure UIrect where
  x : Int
  y : Int
  w : Int
  h : Int
deriving DecidableEq, Repr, Inhabited

/-- Read `v[i]` of a `UIrect`. -/
def UIrect.v (r : UIrect) (i : Nat) : Int :=
  if i = 0 then r.x else if i = 1 then r.y else if i = 2 then r.w else r.h

/-- Write `v[i] = a` in a `UIrect`. -/
def UIrect.setV (r : UIrect) (i : Nat) (a : Int) : UIrect :=
  if i = 0 then { r with x := a } else if i = 1 then { r with y := a }
  else if i = 2 then { r with w := a } else { r with h := a }

/-- An `int[4]` array (the fields `margins` and `relto`). -/
structure UIint4 where
  v0 : Int
  v1 : Int
  v2 : Int
  v3 : Int
deriving DecidableEq, Repr, Inhabited

/-- Read entry `i` of an `int[4]`. -/
def UIint4.v (a : UIint4) (i : Nat) : Int :=
  if i = 0 then a.v0 else if i = 1 then a.v1 else if i = 2 then a.v2 else a.v3

/-- The struct `UIitem`. `handler` is the callback pointer, `0` being `NULL`. -/
structure UIitem where
  handle : Nat
  handler : Nat
  numkids : Int
  firstkid : Int
  lastkid : Int
  parent : Int
  kidid : Int
  nextitem : Int
  layout_flags : Int
  size : UIvec2
  visited : Nat
  margins : UIint4
  relto : UIint4
  rect : UIrect
  data : Int
  datasize : Int
  event_flags : Int
deriving DecidableEq, Repr

/-- An item after `memset(item, 0, sizeof(UIitem))`. -/
def UIitem.zero : UIitem :=
  { handle := 0, handler := 0, numkids := 0, firstkid := 0, lastkid := 0, parent := 0,
    kidid := 0, nextitem := 0, layout_flags := 0, size := ⟨0, 0⟩, visited := 0,
    margins := ⟨0, 0, 0, 0⟩, relto := ⟨0, 0, 0, 0⟩, rect := ⟨0, 0, 0, 0⟩,
    data := 0, datasize := 0, event_flags := 0 }

instance : Inhabited UIitem := ⟨UIitem.zero⟩

/-- The enum `UIstate`. -/
inductive UIstate where
  | UI_STATE_IDLE
  | UI_STATE_CAPTURE
deriving DecidableEq, Repr

/-- The struct `UIcontext`; `items` holds the live items `items[0 .. count)`. The bytes of
the data buffer are not modelled, only the number of bytes in use. -/
structure UIcontext where
  buttons : Nat
  last_buttons : Nat
  start_cursor : UIvec2
  last_cursor : UIvec2
  cursor : UIvec2
  hot_handle : Nat
  active_handle : Nat
  hot_item : Int
  active_item : Int
  state : UIstate
  items : List UIitem
  datasize : Int
deriving DecidableEq, Repr

/-- The field `count`: the number of live items. -/
def UIcontext.count (c : UIcontext) : Nat := c.items.length

/-- Read the item a pointer refers to. -/
def UIcontext.get (c : UIcontext) (p : Nat) : UIitem := c.items.getD p default

/-- Overwrite the item a pointer refers to. -/
def UIcontext.put (c : UIcontext) (p : Nat) (it : UIitem) : UIcontext :=
  { c with items := c.items.set p it }

/-- Update the item a pointer refers to. -/
def UIcontext.modify (c : UIcontext) (p : Nat) (f : UIitem → UIitem) : UIcontext :=
  c.put p (f (c.get p))

/-- One handler invocation `handler(item, event)`. -/
structure UIdispatch where
  item : Int
  event : Int
deriving DecidableEq, Repr

def ui_max (a b : Int) : Int := if a > b then a else b

def ui_min (a b : Int) : Int := if a < b then a else b

/-! ## Context, input and declaration operations -/

/-- The result of `uiCreateContext`: a context filled with zero bytes. -/
def uiCreateContext : UIcontext :=
  { buttons := 0, last_buttons := 0, start_cursor := ⟨0, 0⟩, last_cursor := ⟨0, 0⟩,
    cursor := ⟨0, 0⟩, hot_handle := 0, active_handle := 0, hot_item := 0, active_item := 0,
    state := .UI_STATE_IDLE, items := [], datasize := 0 }

/-- The 64-bit mask `1ull << button`. -/
def uiButtonMask (button : Nat) : Nat := (1 <<< button) % 2 ^ 64

def uiSetButton (c : UIcontext) (button : Nat) (enabled : Int) : UIcontext :=
  let mask := uiButtonMask button
  { c with buttons := if enabled ≠ 0 then c.buttons ||| mask
                      else c.buttons &&& (2 ^ 64 - 1 - mask) }

def uiGetLastButton (c : UIcontext) (button : Nat) : Int :=
  if c.last_buttons &&& uiButtonMask button ≠ 0 then 1 else 0

def uiGetButton (c : UIcontext) (button : Nat) : Int :=
  if c.buttons &&& uiButtonMask button ≠ 0 then 1 else 0

def uiSetCursor (c : UIcontext) (x y : Int) : UIcontext :=
  { c with cursor := ⟨x, y⟩ }

def uiGetCursor (c : UIcontext) : UIvec2 := c.cursor

/-- The function `uiItemPtr`: assert that `item` is the index of a live item and return the
pointer to it. -/
def uiItemPtr (c : UIcontext) (item : Int) : Except UIerror Nat :=
  if 0 ≤ item ∧ item < c.count then .ok item.toNat else .error .assertion

/-- The root item as `uiClear` initialises it (`relto` stays zero). -/
def UIitem.root : UIitem :=
  { UIitem.zero with parent := -1, firstkid := -1, lastkid := -1, nextitem := -1, data := -1 }

/-- An item as `uiItem` initialises it. -/
def UIitem.fresh : UIitem :=
  { UIitem.zero with parent := -1, firstkid := -1, lastkid := -1, nextitem := -1, data := -1,
                     relto := ⟨-1, -1, -1, -1⟩ }

def uiClear (c : UIcontext) : UIcontext :=
  { c with items := [UIitem.root], datasize := 0, hot_item := -1, active_item := -1 }

/-- The function `uiMakeCurrent` for a non-null context. -/
def uiMakeCurrent (c : UIcontext) : UIcontext := uiClear c

/-- The function `uiItem`: returns the context with the new item and the new item's index. -/
def uiItem (c : UIcontext) : Except UIerror (UIcontext × Int) :=
  if c.count < UI_MAX_ITEMS then
    .ok ({ c with items := c.items ++ [UIitem.fresh] }, (c.count : Int))
  else .error .assertion

def uiFirstChild (c : UIcontext) (item : Int) : Except UIerror Int := do
  let p ← uiItemPtr c item
  pure (c.get p).firstkid

def uiLastChild (c : UIcontext) (item : Int) : Except UIerror Int := do
  let p ← uiItemPtr c item
  pure (c.get p).lastkid

def uiNextSibling (c : UIcontext) (item : Int) : Except UIerror Int := do
  let p ← uiItemPtr c item
  pure (c.get p).nextitem

def uiParent (c : UIcontext) (item : Int) : Except UIerror Int := do
  let p ← uiItemPtr c item
  pure (c.get p).parent

def uiGetRect (c : UIcontext) (item : Int) : Except UIerror UIrect := do
  let p ← uiItemPtr c item
  pure (c.get p).rect

def uiGetHandle (c : UIcontext) (item : Int) : Except UIerror Nat := do
  let p ← uiItemPtr c item
  pure (c.get p).handle

def uiGetChildId (c : UIcontext) (item : Int) : Except UIerror Int := do
  let p ← uiItemPtr c item
  pure (c.get p).kidid

def uiGetChildCount (c : UIcontext) (item : Int) : Except UIerror Int := do
  let p ← uiItemPtr c item
  pure (c.get p).numkids

def uiGetHandler (c : UIcontext) (item : Int) : Except UIerror Nat := do
  let p ← uiItemPtr c item
  pure (c.get p).handler

def uiGetHandlerFlags (c : UIcontext) (item : Int) : Except UIerror Int := do
  let p ← uiItemPtr c item
  pure (c.get p).event_flags

def uiSetParent (c : UIcontext) (item parent : Int) : Except UIerror UIcontext := do
  if ¬ item > 0 then throw .assertion
  let par ← uiParent c item
  if par ≠ -1 then throw .assertion
  let pitem ← uiItemPtr c item
  let pparent ← uiItemPtr c parent
  let c := c.modify pitem (fun i => { i with parent := parent })
  let numkids := (c.get pparent).numkids
  let c := c.modify pitem (fun i => { i with kidid := numkids })
  let c := c.modify pparent (fun i => { i with numkids := numkids + 1 })
  if (c.get pparent).lastkid < 0 then
    let c := c.modify pparent (fun i => { i with firstkid := item })
    pure (c.modify pparent (fun i => { i with lastkid := item }))
  else
    let plast ← uiItemPtr c (c.get pparent).lastkid
    let c := c.modify plast (fun i => { i with nextitem := item })
    pure (c.modify pparent (fun i => { i with lastkid := item }))

def uiSetSize (c : UIcontext) (item w h : Int) : Except UIerror UIcontext := do
  let pitem ← uiItemPtr c item
  pure (c.modify pitem (fun i => { i with size := ⟨w, h⟩ }))

def uiSetLayout (c : UIcontext) (item flags : Int) : Except UIerror UIcontext := do
  let pitem ← uiItemPtr c item
  pure (c.modify pitem (fun i => { i with layout_flags := flags }))

def uiSetMargins (c : UIcontext) (item l t r b : Int) : Except UIerror UIcontext := do
  let pitem ← uiItemPtr c item
  pure (c.modify pitem (fun i => { i with margins := ⟨l, t, r, b⟩ }))

def uiSetRelativeTo (c : UIcontext) (item litem titem ritem bitem : Int) :
    Except UIerror UIcontext := do
  let pitem ← uiItemPtr c item
  pure (c.modify pitem (fun i => { i with relto := ⟨litem, titem, ritem, bitem⟩ }))

/-- The function `uiAllocData`; the returned pointer into the data buffer is the offset
stored in the item. -/
def uiAllocData (c : UIcontext) (item size : Int) : Except UIerror UIcontext := do
  if ¬ (size > 0 ∧ size < UI_MAX_DATASIZE) then throw .assertion
  let pitem ← uiItemPtr c item
  if ¬ (c.get pitem).data < 0 then throw .assertion
  if ¬ c.datasize + size ≤ UI_MAX_BUFFERSIZE then throw .assertion
  let c := c.modify pitem (fun i => { i with data := c.datasize })
  pure { c with datasize := c.datasize + size }

def uiSetHandle (c : UIcontext) (item : Int) (handle : Nat) : Except UIerror UIcontext := do
  let pitem ← uiItemPtr c item
  let c := c.modify pitem (fun i => { i with handle := handle })
  if handle ≠ 0 then
    let c := if handle = c.hot_handle then { c with hot_item := item } else c
    let c := if handle = c.active_handle then { c with active_item := item } else c
    pure c
  else pure c

def uiSetHandler (c : UIcontext) (item : Int) (handler : Nat) (flags : Int) :
    Except UIerror UIcontext := do
  let pitem ← uiItemPtr c item
  let c := c.modify pitem (fun i => { i with handler := handler })
  pure (c.modify pitem (fun i => { i with event_flags := flags }))

/-! ## Size solver -/

/-- One of the two `while` loops of `uiComputeChainSize`: follow the neighbors on the edge
`edge` (`dim` for the left walk, `dim+2` for the right walk) while the item has the flag
`flag` (`UI_LEFT` or `UI_RIGHT`) in dimension `dim`. `it` is the iteration counter of the
C loop, whose assertion `it < 1000000` bounds the walk. -/
def uiChainWalk (dim : Nat) (flag : Int) (edge : Nat) :
    Nat → UIcontext → Nat → Int → Nat → Except UIerror (UIcontext × Int)
  | 0, _, _, _, _ => .error .fuel
  | fuel + 1, c, pitem, size, it =>
    if Int.land ((c.get pitem).layout_flags >>> dim) flag ≠ 0 then
      let size := size + (c.get pitem).margins.v edge
      if (c.get pitem).relto.v edge < 0 then .ok (c, size)
      else
        match uiItemPtr c ((c.get pitem).relto.v edge) with
        | .error e => .error e
        | .ok pnext =>
          let c := c.modify pnext (fun i => { i with visited := i.visited ||| (1 <<< dim) })
          let size := size + (c.get pnext).rect.v (dim + 2)
          if it + 1 < 1000000 then uiChainWalk dim flag edge fuel c pnext size (it + 1)
          else .error .assertion
    else .ok (c, size)

def uiComputeChainSize (c : UIcontext) (pkid : Nat) (dim : Nat) :
    Except UIerror (UIcontext × Int) :=
  let wdim := dim + 2
  let size := (c.get pkid).rect.v wdim
  let c := c.modify pkid (fun i => { i with visited := i.visited ||| (1 <<< dim) })
  -- traverse along left neighbors
  match uiChainWalk dim UI_LEFT dim 1000000 c pkid size 0 with
  | .error e => .error e
  | .ok (c, size) =>
    -- traverse along right neighbors
    uiChainWalk dim UI_RIGHT wdim 1000000 c pkid size 0

/-- The `while (kid > 0)` loop of `uiComputeSizeDim`. -/
def uiComputeSizeDimKids (dim : Nat) :
    Nat → UIcontext → Int → Int → Except UIerror (UIcontext × Int)
  | 0, _, _, _ => .error .fuel
  | fuel + 1, c, kid, size =>
    if kid > 0 then
      match uiItemPtr c kid with
      | .error e => .error e
      | .ok pkid =>
        if (c.get pkid).visited &&& (1 <<< dim) = 0 then
          match uiComputeChainSize c pkid dim with
          | .error e => .error e
          | .ok (c, chain) =>
            match uiNextSibling c kid with
            | .error e => .error e
            | .ok next => uiComputeSizeDimKids dim fuel c next (ui_max size chain)
        else
          match uiNextSibling c kid with
          | .error e => .error e
          | .ok next => uiComputeSizeDimKids dim fuel c next size
    else .ok (c, size)

def uiComputeSizeDim (fuel : Nat) (c : UIcontext) (pitem : Nat) (dim : Nat) :
    Except UIerror UIcontext :=
  let wdim := dim + 2
  if (c.get pitem).size.v dim ≠ 0 then
    .ok (c.modify pitem (fun i => { i with rect := i.rect.setV wdim (i.size.v dim) }))
  else
    match uiComputeSizeDimKids dim fuel c (c.get pitem).firstkid 0 with
    | .error e => .error e
    | .ok (c, size) => .ok (c.modify pitem (fun i => { i with rect := i.rect.setV wdim size }))

mutual
/-- The function `uiComputeBestSize`. -/
def uiComputeBestSize : Nat → UIcontext → Int → Except UIerror UIcontext
  | 0, _, _ => .error .fuel
  | fuel + 1, c, item =>
    match uiItemPtr c item with
    | .error e => .error e
    | .ok pitem =>
      let c := c.modify pitem (fun i => { i with visited := 0 })
      -- children expand the size
      match uiFirstChild c item with
      | .error e => .error e
      | .ok kid =>
        match uiComputeBestSizeKids fuel c kid with
        | .error e => .error e
        | .ok c =>
          match uiComputeSizeDim fuel c pitem 0 with
          | .error e => .error e
          | .ok c => uiComputeSizeDim fuel c pitem 1
/-- The `while (kid > 0)` loop of `uiComputeBestSize`. -/
def uiComputeBestSizeKids : Nat → UIcontext → Int → Except UIerror UIcontext
  | 0, _, _ => .error .fuel
  | fuel + 1, c, kid =>
    if kid > 0 then
      match uiComputeBestSize fuel c kid with
      | .error e => .error e
      | .ok c =>
        match uiNextSibling c kid with
        | .error e => .error e
        | .ok next => uiComputeBestSizeKids fuel c next
    else .ok c
end

/-! ## Position solver -/

/-- The `switch (flags & UI_HFILL)` of `uiLayoutChildItem`: place the item in the span that
starts at `wl` and is `wr` wide. -/
def uiLayoutPlace (c : UIcontext) (pitem : Nat) (dim : Nat) (wl wr : Int) : UIcontext :=
  let wdim := dim + 2
  let sel := Int.land ((c.get pitem).layout_flags >>> dim) UI_HFILL
  if sel = UI_LEFT then
    c.modify pitem (fun i => { i with rect := i.rect.setV dim (wl + i.margins.v dim) })
  else if sel = UI_RIGHT then
    c.modify pitem (fun i =>
      { i with rect := i.rect.setV dim (wl + wr - i.rect.v wdim - i.margins.v wdim) })
  else if sel = UI_HFILL then
    let c := c.modify pitem (fun i => { i with rect := i.rect.setV dim (wl + i.margins.v dim) })
    c.modify pitem (fun i =>
      { i with rect := i.rect.setV wdim (wr - i.margins.v dim - i.margins.v wdim) })
  else
    -- `default:` and `case UI_HCENTER:`
    c.modify pitem (fun i =>
      { i with rect :=
          i.rect.setV dim (wl + Int.tdiv (wr - i.rect.v wdim) 2 + i.margins.v dim) })

/-- The function `uiLayoutChildItem`. -/
def uiLayoutChildItem : Nat → UIcontext → Nat → Nat → Nat → Except UIerror UIcontext
  | 0, _, _, _, _ => .error .fuel
  | fuel + 1, c, pparent, pitem, dim =>
    if (c.get pitem).visited &&& (4 <<< dim) ≠ 0 then .ok c
    else
      let c := c.modify pitem (fun i => { i with visited := i.visited ||| (4 <<< dim) })
      let wdim := dim + 2
      let wl : Int := 0
      let wr : Int := (c.get pparent).rect.v wdim
      let flags := (c.get pitem).layout_flags >>> dim
      -- the left neighbor, when followed
      let r1 : Except UIerror (UIcontext × Int × Int) :=
        if Int.land flags UI_LEFT ≠ 0 ∧ (c.get pitem).relto.v dim > 0 then
          match uiItemPtr c ((c.get pitem).relto.v dim) with
          | .error e => .error e
          | .ok pl =>
            match uiLayoutChildItem fuel c pparent pl dim with
            | .error e => .error e
            | .ok c =>
              let wl := (c.get pl).rect.v dim + (c.get pl).rect.v wdim
              .ok (c, wl, wr - wl)
        else .ok (c, wl, wr)
      match r1 with
      | .error e => .error e
      | .ok (c, wl, wr) =>
        -- the right neighbor, when followed
        let r2 : Except UIerror (UIcontext × Int) :=
          if Int.land ((c.get pitem).layout_flags >>> dim) UI_RIGHT ≠ 0
              ∧ (c.get pitem).relto.v wdim > 0 then
            match uiItemPtr c ((c.get pitem).relto.v wdim) with
            | .error e => .error e
            | .ok pl =>
              match uiLayoutChildItem fuel c pparent pl dim with
              | .error e => .error e
              | .ok c => .ok (c, (c.get pl).rect.v dim - wl)
          else .ok (c, wr)
        match r2 with
        | .error e => .error e
        | .ok (c, wr) => .ok (uiLayoutPlace c pitem dim wl wr)

/-- The `while (kid > 0)` loop of `uiLayoutItemDim`. -/
def uiLayoutItemDimKids (lfuel : Nat) (pitem : Nat) (dim : Nat) :
    Nat → UIcontext → Int → Except UIerror UIcontext
  | 0, _, _ => .error .fuel
  | fuel + 1, c, kid =>
    if kid > 0 then
      match uiItemPtr c kid with
      | .error e => .error e
      | .ok pkid =>
        match uiLayoutChildItem lfuel c pitem pkid dim with
        | .error e => .error e
        | .ok c =>
          match uiNextSibling c kid with
          | .error e => .error e
          | .ok next => uiLayoutItemDimKids lfuel pitem dim fuel c next
    else .ok c

/-- The function `uiLayoutItemDim`; `lfuel` is the fuel of the neighbor recursion of
`uiLayoutChildItem` and `fuel` that of the loop over the children. -/
def uiLayoutItemDim (lfuel fuel : Nat) (c : UIcontext) (pitem : Nat) (dim : Nat) :
    Except UIerror UIcontext :=
  uiLayoutItemDimKids lfuel pitem dim fuel c (c.get pitem).firstkid

mutual
/-- The function `uiLayoutItem`. -/
def uiLayoutItem (lfuel : Nat) : Nat → UIcontext → Int → Except UIerror UIcontext
  | 0, _, _ => .error .fuel
  | fuel + 1, c, item =>
    match uiItemPtr c item with
    | .error e => .error e
    | .ok pitem =>
      match uiLayoutItemDim lfuel fuel c pitem 0 with
      | .error e => .error e
      | .ok c =>
        match uiLayoutItemDim lfuel fuel c pitem 1 with
        | .error e => .error e
        | .ok c =>
          match uiFirstChild c item with
          | .error e => .error e
          | .ok kid => uiLayoutItemKids lfuel fuel c kid
/-- The `while (kid > 0)` loop of `uiLayoutItem`. -/
def uiLayoutItemKids (lfuel : Nat) : Nat → UIcontext → Int → Except UIerror UIcontext
  | 0, _, _ => .error .fuel
  | fuel + 1, c, kid =>
    if kid > 0 then
      match uiLayoutItem lfuel fuel c kid with
      | .error e => .error e
      | .ok c =>
        match uiNextSibling c kid with
        | .error e => .error e
        | .ok next => uiLayoutItemKids lfuel fuel c next
    else .ok c
end

/-! ## Hit test -/

mutual
/-- The function `uiFindItem`. -/
def uiFindItem : Nat → UIcontext → Int → Int → Int → Except UIerror Int
  | 0, _, _, _, _ => .error .fuel
  | fuel + 1, c, item, x, y =>
    match uiGetRect c item with
    | .error e => .error e
    | .ok rect =>
      let x := x - rect.x
      let y := y - rect.y
      if x ≥ 0 ∧ y ≥ 0 ∧ x < rect.w ∧ y < rect.h then
        match uiFirstChild c item with
        | .error e => .error e
        | .ok kid =>
          match uiFindItemKids fuel c kid x y with
          | .error e => .error e
          | .ok (some best_hit) => .ok best_hit
          | .ok none => .ok item
      else .ok (-1)
/-- The `while (kid > 0)` loop of `uiFindItem`: `some best_hit` when the loop returns from
the function with a hit, `none` when it runs to its end. -/
def uiFindItemKids : Nat → UIcontext → Int → Int → Int → Except UIerror (Option Int)
  | 0, _, _, _, _ => .error .fuel
  | fuel + 1, c, kid, x, y =>
    if kid > 0 then
      match uiFindItem fuel c kid x y with
      | .error e => .error e
      | .ok best_hit =>
        if best_hit ≥ 0 then .ok (some best_hit)
        else
          match uiNextSibling c kid with
          | .error e => .error e
          | .ok next => uiFindItemKids fuel c next x y
    else .ok none
end

/-! ## Interaction state machine -/

/-- The function `uiNotifyItem`: the handler invocations it makes. -/
def uiNotifyItem (c : UIcontext) (item : Int) (event : Int) :
    Except UIerror (List UIdispatch) :=
  match uiItemPtr c item with
  | .error e => .error e
  | .ok pitem =>
    if (c.get pitem).handler ≠ 0 ∧ Int.land (c.get pitem).event_flags event ≠ 0 then
      .ok [⟨item, event⟩]
    else .ok []

/-- The fuel given to the recursions of one `uiProcess` call. -/
def uiFuel (c : UIcontext) : Nat := 2 * c.count + 2

/-- The first part of `uiProcess`: both solver passes. -/
def uiProcessLayout (c : UIcontext) : Except UIerror UIcontext :=
  match uiComputeBestSize (uiFuel c) c 0 with
  | .error e => .error e
  | .ok c =>
    -- position root element rect
    match uiItemPtr c 0 with
    | .error e => .error e
    | .ok proot =>
      let c := c.modify proot (fun i => { i with rect := { i.rect with x := i.margins.v 0 } })
      let c := c.modify proot (fun i => { i with rect := { i.rect with y := i.margins.v 1 } })
      uiLayoutItem (uiFuel c) (uiFuel c) c 0

/-- The hit test `uiFindItem(0, cursor.x, cursor.y)` of `uiProcess`. -/
def uiProcessHot (c : UIcontext) : Except UIerror Int :=
  uiFindItem (uiFuel c) c 0 c.cursor.x c.cursor.y

/-- The `switch (ui_context->state)` of `uiProcess`, given the hit-test result `hot`. -/
def uiProcessState (c : UIcontext) (hot : Int) :
    Except UIerror (UIcontext × List UIdispatch) :=
  match c.state with
  | .UI_STATE_IDLE =>
    if uiGetButton c 0 ≠ 0 then
      let c := { c with start_cursor := c.cursor }
      let c := { c with last_cursor := c.cursor }
      let c := { c with hot_item := -1 }
      let c := { c with active_item := hot }
      if c.active_item ≥ 0 then
        match uiNotifyItem c c.active_item UI_BUTTON0_DOWN with
        | .error e => .error e
        | .ok evs => .ok ({ c with state := .UI_STATE_CAPTURE }, evs)
      else .ok ({ c with state := .UI_STATE_CAPTURE }, [])
    else .ok ({ c with hot_item := hot }, [])
  | .UI_STATE_CAPTURE =>
    if ¬ uiGetButton c 0 ≠ 0 then
      if c.active_item ≥ 0 then
        match uiNotifyItem c c.active_item UI_BUTTON0_UP with
        | .error e => .error e
        | .ok evs1 =>
          if c.active_item = hot then
            match uiNotifyItem c c.active_item UI_BUTTON0_HOT_UP with
            | .error e => .error e
            | .ok evs2 =>
              .ok ({ c with active_item := -1, state := .UI_STATE_IDLE }, evs1 ++ evs2)
          else .ok ({ c with active_item := -1, state := .UI_STATE_IDLE }, evs1)
      else .ok ({ c with active_item := -1, state := .UI_STATE_IDLE }, [])
    else
      if c.active_item ≥ 0 then
        match uiNotifyItem c c.active_item UI_BUTTON0_CAPTURE with
        | .error e => .error e
        | .ok evs =>
          if hot = c.active_item then .ok ({ c with hot_item := hot }, evs)
          else .ok ({ c with hot_item := -1 }, evs)
      else
        if hot = c.active_item then .ok ({ c with hot_item := hot }, [])
        else .ok ({ c with hot_item := -1 }, [])

/-- The end of `uiProcess`: remember the cursor and recompute the persistent handles. -/
def uiProcessHandles (c : UIcontext) : Except UIerror UIcontext :=
  let c := { c with last_cursor := c.cursor }
  match (if c.hot_item ≥ 0 then uiGetHandle c c.hot_item else .ok 0) with
  | .error e => .error e
  | .ok hot_handle =>
    let c := { c with hot_handle := hot_handle }
    match (if c.active_item ≥ 0 then uiGetHandle c c.active_item else .ok 0) with
    | .error e => .error e
    | .ok active_handle => .ok { c with active_handle := active_handle }

/-- The function `uiProcess`: the context afterwards and the handler invocations made, in
order. -/
def uiProcess (c : UIcontext) : Except UIerror (UIcontext × List UIdispatch) :=
  match uiProcessLayout c with
  | .error e => .error e
  | .ok c =>
    match uiProcessHot c with
    | .error e => .error e
    | .ok hot =>
      match uiProcessState c hot with
      | .error e => .error e
      | .ok (c, evs) =>
        match uiProcessHandles c with
        | .error e => .error e
        | .ok c => .ok (c, evs)

def uiIsActive (c : UIcontext) (item : Int) : Bool := c.active_item = item

def uiIsHot (c : UIcontext) (item : Int) : Bool := c.hot_item = item

def uiGetState (c : UIcontext) (item : Int) : Except UIerror Int :=
  match uiItemPtr c item with
  | .error e => .error e
  | .ok pitem =>
    if uiIsActive c item then
      if Int.land (c.get pitem).event_flags (Int.lor UI_BUTTON0_CAPTURE UI_BUTTON0_UP) ≠ 0 then
        .ok UI_ACTIVE
      else if Int.land (c.get pitem).event_flags UI_BUTTON0_HOT_UP ≠ 0 ∧ uiIsHot c item then
        .ok UI_ACTIVE
      else .ok UI_COLD
    else if uiIsHot c item then .ok UI_HOT
    else .ok UI_COLD

/-! ## API calls and frames -/

/-- One call of the public API. -/
inductive UIcall where
  | item
  | setParent (item parent : Int)
  | setSize (item w h : Int)
  | setLayout (item flags : Int)
  | setMargins (item l t r b : Int)
  | setRelativeTo (item litem titem ritem bitem : Int)
  | allocData (item size : Int)
  | setHandle (item : Int) (handle : Nat)
  | setHandler (item : Int) (handler : Nat) (flags : Int)
  | setButton (button : Nat) (enabled : Int)
  | setCursor (x y : Int)
  | clear
  | process
deriving DecidableEq, Repr

/-- Whether a call is a declaration or input call, that is neither `uiClear` nor
`uiProcess`. -/
def UIcall.isDecl : UIcall → Bool
  | .clear => false
  | .process => false
  | _ => true

/-- Run one API call. -/
def uiCall (c : UIcontext) : UIcall → Except UIerror UIcontext
  | .item => (uiItem c).map Prod.fst
  | .setParent item parent => uiSetParent c item parent
  | .setSize item w h => uiSetSize c item w h
  | .setLayout item flags => uiSetLayout c item flags
  | .setMargins item l t r b => uiSetMargins c item l t r b
  | .setRelativeTo item l t r b => uiSetRelativeTo c item l t r b
  | .allocData item size => uiAllocData c item size
  | .setHandle item handle => uiSetHandle c item handle
  | .setHandler item handler flags => uiSetHandler c item handler flags
  | .setButton button enabled => .ok (uiSetButton c button enabled)
  | .setCursor x y => .ok (uiSetCursor c x y)
  | .clear => .ok (uiClear c)
  | .process => (uiProcess c).map Prod.fst

/-- Run a sequence of API calls, stopping at the first failure. -/
def uiCalls : UIcontext → List UIcall → Except UIerror UIcontext
  | c, [] => .ok c
  | c, call :: rest =>
    match uiCall c call with
    | .error e => .error e
    | .ok c => uiCalls c rest

/-! ## Notions used in the statements and proofs -/

/-- the declaration part of an item: everything but `rect` and `visited` -/
def UIitem.decl (i : UIitem) : UIitem := { i with rect := ⟨0, 0, 0, 0⟩, visited := 0 }

/-- the declaration part of a context -/
def UIcontext.decl (c : UIcontext) : UIcontext := { c with items := c.items.map UIitem.decl }

/-- the point-in-rect test of `uiFindItem` -/
def uiInside (r : UIrect) (x y : Int) : Prop :=
  x - r.x ≥ 0 ∧ y - r.y ≥ 0 ∧ x - r.x < r.w ∧ y - r.y < r.h

instance (r : UIrect) (x y : Int) : Decidable (uiInside r x y) := by
  unfold uiInside; infer_instance

/-- the handler invocations `uiNotifyItem` makes for an item with the given record -/
def uiDispatched (i : UIitem) (item event : Int) : List UIdispatch :=
  if i.handler ≠ 0 ∧ Int.land i.event_flags event ≠ 0 then [⟨item, event⟩] else []

/-- A sibling list with the subtrees below it: `nil` is the end of the list, `node i kids next`
is item `i`, the list `kids` of its children and the rest `next` of its own sibling list. -/
inductive KTree where
  | nil
  | node (i : Nat) (kids next : KTree)
deriving DecidableEq, Repr

/-- the items of the sibling list itself, in order -/
def KTree.roots : KTree → List Nat
  | .nil => []
  | .node i _ next => i :: next.roots

/-- all items of the sibling list and of the subtrees below it -/
def KTree.indices : KTree → List Nat
  | .nil => []
  | .node i kids next => i :: (kids.indices ++ next.indices)

/-- the fuel that a loop over the sibling list needs when it descends into the subtrees -/
def KTree.need : KTree → Nat
  | .nil => 1
  | .node _ kids next => 1 + max (1 + kids.need) next.need

/-- `IsForest c kid t`: following `firstkid` and `nextitem` from the index `kid` reads off
exactly the tree `t`, every index met being a live item other than the root. -/
def IsForest (c : UIcontext) : Int → KTree → Prop
  | kid, .nil => kid ≤ 0
  | kid, .node i kids next =>
    kid = (i : Int) ∧ 0 < i ∧ i < c.count ∧
      IsForest c (c.get i).firstkid kids ∧ IsForest c (c.get i).nextitem next

/-- `Hierarchy c t`: the root is live and its children, followed through `firstkid` and
`nextitem`, form the finite tree `t` in which no item occurs twice. -/
structure Hierarchy (c : UIcontext) (t : KTree) : Prop where
  root : 0 < c.count
  forest : IsForest c (c.get 0).firstkid t
  nodup : t.indices.Nodup

/-- the hit test of a sibling list read off a tree: the hit of the first item of the list
whose rect contains the point, or `none` -/
def KTree.hit (c : UIcontext) : KTree → Int → Int → Option Int
  | .nil, _, _ => none
  | .node i kids next, x, y =>
    if uiInside (c.get i).rect x y then
      some ((kids.hit c (x - (c.get i).rect.x) (y - (c.get i).rect.y)).getD (i : Int))
    else next.hit c x y

/-- the first item of a sibling list whose rect contains the point -/
def KTree.firstInside (c : UIcontext) (t : KTree) (x y : Int) : Option Nat :=
  t.roots.find? (fun k => decide (uiInside (c.get k).rect x y))

/-- the subtree below an item of a sibling list (`nil` if it is not in the list) -/
def KTree.kidsOf : KTree → Nat → KTree
  | .nil, _ => .nil
  | .node i kids next, k => if k = i then kids else next.kidsOf k

/-- the part of an item that the solver passes read and write in dimension `d` -/
def UIitem.view (d : Nat) (i : UIitem) : Int × Int × Nat × Nat :=
  (i.rect.v d, i.rect.v (d + 2), i.visited &&& (1 <<< d), i.visited &&& (4 <<< d))

/-- the dimension-`d` part of all items -/
def UIcontext.view (d : Nat) (c : UIcontext) : List (Int × Int × Nat × Nat) :=
  c.items.map (UIitem.view d)

/-- the item has been positioned in dimension `dim` by the current position pass -/
def laidOut (c : UIcontext) (q dim : Nat) : Prop := (c.get q).visited &&& (4 <<< dim) ≠ 0

/-- `uiLayoutChildItem` follows the neighbor on the near edge -/
def uiFollowL (i : UIitem) (dim : Nat) : Prop :=
  Int.land (i.layout_flags >>> dim) UI_LEFT ≠ 0 ∧ i.relto.v dim > 0

/-- `uiLayoutChildItem` follows the neighbor on the far edge -/
def uiFollowR (i : UIitem) (dim : Nat) : Prop :=
  Int.land (i.layout_flags >>> dim) UI_RIGHT ≠ 0 ∧ i.relto.v (dim + 2) > 0

instance (i : UIitem) (dim : Nat) : Decidable (uiFollowL i dim) := by
  unfold uiFollowL; infer_instance

instance (i : UIitem) (dim : Nat) : Decidable (uiFollowR i dim) := by
  unfold uiFollowR; infer_instance

/-- the four placement rules of `uiLayoutChildItem` as equations between the span
(`wl`, `wr`), the margins `m`, `m2` and the resulting position `x` and extent `w` -/
def PlaceEq (sel wl wr m m2 x w : Int) : Prop :=
  if sel = UI_LEFT then x = wl + m
  else if sel = UI_RIGHT then x = wl + wr - w - m2
  else if sel = UI_HFILL then x = wl + m ∧ w = wr - m - m2
  else x = wl + Int.tdiv (wr - w) 2 + m

/-- the start of the span of an item, given the record of its near neighbor -/
def spanL (dim : Nat) (it nl : UIitem) : Int :=
  if uiFollowL it dim then nl.rect.v dim + nl.rect.v (dim + 2) else 0

/-- the width of the span of an item, given the records of its neighbors and parent -/
def spanW (dim : Nat) (it nl nr pp : UIitem) : Int :=
  if uiFollowR it dim then nr.rect.v dim - spanL dim it nl
  else if uiFollowL it dim then pp.rect.v (dim + 2) - spanL dim it nl
  else pp.rect.v (dim + 2)

/-- the placement equations of one item, given the records of its neighbors and parent -/
def PlacedAt (dim : Nat) (it nl nr pp : UIitem) : Prop :=
  PlaceEq (Int.land (it.layout_flags >>> dim) UI_HFILL) (spanL dim it nl) (spanW dim it nl nr pp)
    (it.margins.v dim) (it.margins.v (dim + 2)) (it.rect.v dim) (it.rect.v (dim + 2))

/-- the near neighbor reference of an item as a pointer -/
def UIcontext.nl (c : UIcontext) (q dim : Nat) : Nat := ((c.get q).relto.v dim).toNat

/-- the far neighbor reference of an item as a pointer -/
def UIcontext.nr (c : UIcontext) (q dim : Nat) : Nat := ((c.get q).relto.v (dim + 2)).toNat

/-- the parent of an item as a pointer -/
def UIcontext.par (c : UIcontext) (q : Nat) : Nat := (c.get q).parent.toNat

/-- `Placed c q dim`: item `q` sits where the placement rules put it relative to the current
rects of the neighbors it follows and of its parent, all of which have been positioned. -/
def Placed (c : UIcontext) (q dim : Nat) : Prop :=
  (uiFollowL (c.get q) dim → laidOut c (c.nl q dim) dim) ∧
  (uiFollowR (c.get q) dim → laidOut c (c.nr q dim) dim) ∧
  (c.par q = 0 ∨ laidOut c (c.par q) dim) ∧
  PlacedAt dim (c.get q) (c.get (c.nl q dim)) (c.get (c.nr q dim)) (c.get (c.par q))

/-- every neighbor reference of an attached item is `-1` or an earlier-created sibling -/
def SiblingRefs (c : UIcontext) : Prop :=
  ∀ i, i < c.count → 0 ≤ (c.get i).parent → ∀ e, e < 4 →
    (c.get i).relto.v e = -1 ∨
      (0 < (c.get i).relto.v e ∧ (c.get i).relto.v e < (i : Int) ∧
        (c.get ((c.get i).relto.v e).toNat).parent = (c.get i).parent)

/-- what one call of `uiLayoutChildItem` on item `p` with parent `pp` guarantees -/
def ChildPost (dim pp p : Nat) (c c' : UIcontext) : Prop :=
  c'.decl = c.decl ∧
  (∀ d, d < 2 → d ≠ dim → c'.view d = c.view d) ∧
  (∀ q, laidOut c q dim → c'.get q = c.get q) ∧
  (∀ q, ¬ laidOut c' q dim → c'.get q = c.get q) ∧
  c'.get 0 = c.get 0 ∧
  laidOut c' p dim ∧
  (∀ q, ¬ laidOut c q dim → laidOut c' q dim →
    q ≤ p ∧ (c.get q).parent = (pp : Int) ∧ Placed c' q dim)

/-- what following the neighbors of item `p` guarantees -/
def NbPost (dim pp p : Nat) (c c' : UIcontext) : Prop :=
  c'.decl = c.decl ∧
  (∀ d, d < 2 → d ≠ dim → c'.view d = c.view d) ∧
  (∀ q, laidOut c q dim → c'.get q = c.get q) ∧
  (∀ q, ¬ laidOut c' q dim → c'.get q = c.get q) ∧
  c'.get 0 = c.get 0 ∧
  (∀ q, ¬ laidOut c q dim → laidOut c' q dim →
    q < p ∧ (c.get q).parent = (pp : Int) ∧ Placed c' q dim)

/-- what any part of the position pass guarantees, for both dimensions -/
def LStep (c c' : UIcontext) : Prop :=
  c'.decl = c.decl ∧ c'.get 0 = c.get 0 ∧
  ∀ dim, dim < 2 →
    (∀ q, laidOut c q dim → (c'.get q).view dim = (c.get q).view dim) ∧
    (∀ q, ¬ laidOut c' q dim → (c'.get q).view dim = (c.get q).view dim) ∧
    (∀ q, ¬ laidOut c q dim → laidOut c' q dim → Placed c' q dim)

/-- `ParentOK c p t`: every item of the sibling list `t` has `p` in its `parent` field, and
so on below it. -/
def ParentOK (c : UIcontext) : Nat → KTree → Prop
  | _, .nil => True
  | p, .node i kids next => (c.get i).parent = (p : Int) ∧ ParentOK c i kids ∧ ParentOK c p next

/-- the position pass in dimension `dim` keeps the extent of every item that is not fill -/
def KeepsExtent (dim : Nat) (c c' : UIcontext) : Prop :=
  ∀ q, Int.land ((c.get q).layout_flags >>> dim) UI_HFILL ≠ UI_HFILL →
    (c'.get q).rect.v (dim + 2) = (c.get q).rect.v (dim + 2)

/-- both dimensions keep the extents of items that are not fill -/
def KeepsExtents (c c' : UIcontext) : Prop := ∀ dim, dim < 2 → KeepsExtent dim c c'

/-- no item becomes marked as positioned -/
def NoLay (c c' : UIcontext) : Prop := ∀ q d, d < 2 → ¬ laidOut c q d → ¬ laidOut c' q d

/-- the near end of the span of item `q` in dimension `dim`: the far edge of its near
neighbor, or `0` when it has none -/
def nearEdge (c c' : UIcontext) (q dim : Nat) : Int :=
  if (c.get q).relto.v dim = -1 then 0
  else (c'.get ((c.get q).relto.v dim).toNat).rect.v dim +
    (c'.get ((c.get q).relto.v dim).toNat).rect.v (dim + 2)

/-- the far end of the span of item `q` in dimension `dim`: the position of its far
neighbor, or the extent of its parent when it has none -/
def farEdge (c c' : UIcontext) (q dim : Nat) : Int :=
  if (c.get q).relto.v (dim + 2) = -1 then (c'.get (c.get q).parent.toNat).rect.v (dim + 2)
  else (c'.get ((c.get q).relto.v (dim + 2)).toNat).rect.v dim

/-- two runs of the size pass agree: on the declarations of all items, on the `visited`
field of the items in `Sv` and on the extent in dimension `d` of the items in `Sr d` -/
def SRel (Sv : Nat → Prop) (Sr : Nat → Nat → Prop) (a b : UIcontext) : Prop :=
  a.count = b.count ∧ (∀ q, (a.get q).decl = (b.get q).decl) ∧
  (∀ q, Sv q → (a.get q).visited = (b.get q).visited) ∧
  (∀ d q, d < 2 → Sr d q → (a.get q).rect.v (d + 2) = (b.get q).rect.v (d + 2))

/-- the neighbor references of the items of a sibling list stay inside the list -/
def ChainClosed (c : UIcontext) (t : KTree) : Prop :=
  ∀ k ∈ t.roots, ∀ e, e < 4 → 0 ≤ (c.get k).relto.v e → ((c.get k).relto.v e).toNat ∈ t.roots

/-- `ChainClosed` for the children of every item of the tree -/
def ClosedBelow (c : UIcontext) : KTree → Prop
  | .nil => True
  | .node _ kids next => ChainClosed c kids ∧ ClosedBelow c kids ∧ ClosedBelow c next

/-- every live item whose `parent` field is `p` is in the child list `ks` of `p` -/
def CompleteKids (c : UIcontext) (p : Nat) (ks : KTree) : Prop :=
  ∀ j, j < c.count → (c.get j).parent = (p : Int) → j ∈ ks.roots

/-- `CompleteKids` for every item of the tree -/
def CompleteBelow (c : UIcontext) : KTree → Prop
  | .nil => True
  | .node i kids next => CompleteKids c i kids ∧ CompleteBelow c kids ∧ CompleteBelow c next

/-- every item that becomes positioned belongs to `S` -/
def Fresh (S : Nat → Prop) (c c' : UIcontext) : Prop :=
  ∀ q dim, dim < 2 → ¬ laidOut c q dim → laidOut c' q dim → S q

/-- two records agree on position and extent in dimension `dim` -/
def Agree (dim : Nat) (a b : UIitem) : Prop :=
  a.rect.v dim = b.rect.v dim ∧ a.rect.v (dim + 2) = b.rect.v (dim + 2)

instance instDecidableEqExcept {ε α : Type} [DecidableEq ε] [DecidableEq α] :
    DecidableEq (Except ε α) := fun a b =>
  match a, b with
  | .ok x, .ok y =>
    if h : x = y then isTrue (by rw [h]) else isFalse (fun e => h (by injection e))
  | .error x, .error y =>
    if h : x = y then isTrue (by rw [h]) else isFalse (fun e => h (by injection e))
  | .ok _, .error _ => isFalse (fun e => by cases e)
  | .error _, .ok _ => isFalse (fun e => by cases e)

instance instDecidableIsForest (c : UIcontext) :
    ∀ (t : KTree) (kid : Int), Decidable (IsForest c kid t)
  | .nil, kid => inferInstanceAs (Decidable (kid ≤ 0))
  | .node i kids next, kid =>
    have := instDecidableIsForest c kids
    have := instDecidableIsForest c next
    inferInstanceAs (Decidable (kid = (i : Int) ∧ 0 < i ∧ i < c.count ∧
      IsForest c (c.get i).firstkid kids ∧ IsForest c (c.get i).nextitem next))

instance instDecidableParentOK (c : UIcontext) :
    ∀ (t : KTree) (p : Nat), Decidable (ParentOK c p t)
  | .nil, _ => inferInstanceAs (Decidable True)
  | .node i kids next, p =>
    have := instDecidableParentOK c kids
    have := instDecidableParentOK c next
    inferInstanceAs (Decidable ((c.get i).parent = (p : Int) ∧ ParentOK c i kids ∧
      ParentOK c p next))

instance instDecidableSiblingRefs (c : UIcontext) : Decidable (SiblingRefs c) := by
  unfold SiblingRefs; infer_instance

instance instDecidableCompleteKids (c : UIcontext) (p : Nat) (ks : KTree) :
    Decidable (CompleteKids c p ks) := by
  unfold CompleteKids; infer_instance

instance instDecidableCompleteBelow (c : UIcontext) :
    ∀ (t : KTree), Decidable (CompleteBelow c t)
  | .nil => inferInstanceAs (Decidable True)
  | .node i kids next =>
    have := instDecidableCompleteBelow c kids
    have := instDecidableCompleteBelow c next
    inferInstanceAs (Decidable (CompleteKids c i kids ∧ CompleteBelow c kids ∧
      CompleteBelow c next))

/-! ## Example contexts -/

/-- a 10 x 10 child of the auto-sized root, anchored left, that names the root (item 0) as
its left neighbor -/
def growCalls : List UIcall :=
  [.item, .setParent 1 0, .setSize 1 10 10, .setLayout 1 UI_LEFT,
  .setRelativeTo 1 0 (-1) (-1) (-1)]

/-- the context after `growCalls` -/
def growEx : UIcontext :=
  { buttons := 0, last_buttons := 0, start_cursor := ⟨0, 0⟩, last_cursor := ⟨0, 0⟩,
    cursor := ⟨0, 0⟩, hot_handle := 0, active_handle := 0, hot_item := -1, active_item := -1,
    state := .UI_STATE_IDLE,
    items := [
      { handle := 0, handler := 0, numkids := 1, firstkid := 1, lastkid := 1, parent := -1,
        kidid := 0, nextitem := -1, layout_flags := 0, size := ⟨0, 0⟩, visited := 0,
        margins := ⟨0, 0, 0, 0⟩, relto := ⟨0, 0, 0, 0⟩, rect := ⟨0, 0, 0, 0⟩, data := -1,
        datasize := 0, event_flags := 0 },
      { handle := 0, handler := 0, numkids := 0, firstkid := -1, lastkid := -1, parent := 0,
        kidid := 0, nextitem := -1, layout_flags := 1, size := ⟨10, 10⟩, visited := 0,
        margins := ⟨0, 0, 0, 0⟩, relto := ⟨0, -1, -1, -1⟩, rect := ⟨0, 0, 0, 0⟩, data := -1,
        datasize := 0, event_flags := 0 }],
    datasize := 0 }

/-- the context `growEx` after one `uiProcess` -/
def growOnce : UIcontext :=
  { buttons := 0, last_buttons := 0, start_cursor := ⟨0, 0⟩, last_cursor := ⟨0, 0⟩,
    cursor := ⟨0, 0⟩, hot_handle := 0, active_handle := 0, hot_item := 1, active_item := -1,
    state := .UI_STATE_IDLE,
    items := [
      { handle := 0, handler := 0, numkids := 1, firstkid := 1, lastkid := 1, parent := -1,
        kidid := 0, nextitem := -1, layout_flags := 0, size := ⟨0, 0⟩, visited := 1,
        margins := ⟨0, 0, 0, 0⟩, relto := ⟨0, 0, 0, 0⟩, rect := ⟨0, 0, 10, 10⟩, data := -1,
        datasize := 0, event_flags := 0 },
      { handle := 0, handler := 0, numkids := 0, firstkid := -1, lastkid := -1, parent := 0,
        kidid := 0, nextitem := -1, layout_flags := 1, size := ⟨10, 10⟩, visited := 15,
        margins := ⟨0, 0, 0, 0⟩, relto := ⟨0, -1, -1, -1⟩, rect := ⟨0, 0, 10, 10⟩, data := -1,
        datasize := 0, event_flags := 0 }],
    datasize := 0 }

/-- the context `growEx` after two `uiProcess` -/
def growTwice : UIcontext :=
  { buttons := 0, last_buttons := 0, start_cursor := ⟨0, 0⟩, last_cursor := ⟨0, 0⟩,
    cursor := ⟨0, 0⟩, hot_handle := 0, active_handle := 0, hot_item := 1, active_item := -1,
    state := .UI_STATE_IDLE,
    items := [
      { handle := 0, handler := 0, numkids := 1, firstkid := 1, lastkid := 1, parent := -1,
        kidid := 0, nextitem := -1, layout_flags := 0, size := ⟨0, 0⟩, visited := 1,
        margins := ⟨0, 0, 0, 0⟩, relto := ⟨0, 0, 0, 0⟩, rect := ⟨0, 0, 20, 10⟩, data := -1,
        datasize := 0, event_flags := 0 },
      { handle := 0, handler := 0, numkids := 0, firstkid := -1, lastkid := -1, parent := 0,
        kidid := 0, nextitem := -1, layout_flags := 1, size := ⟨10, 10⟩, visited := 15,
        margins := ⟨0, 0, 0, 0⟩, relto := ⟨0, -1, -1, -1⟩, rect := ⟨0, 0, 10, 10⟩, data := -1,
        datasize := 0, event_flags := 0 }],
    datasize := 0 }

/-- an auto-sized parent (item 1) with two children: A = item 2 (10 x 5, right margin 2) and
B = item 3 (20 x 5, left margin 0, anchored left, left neighbor A) -/
def chainCalls : List UIcall :=
  [.item, .setParent 1 0, .item, .setParent 2 1, .setSize 2 10 5, .setMargins 2 0 0 2 0, .item,
  .setParent 3 1, .setSize 3 20 5, .setLayout 3 UI_LEFT, .setRelativeTo 3 2 (-1) (-1) (-1)]

/-- the context after `chainCalls` -/
def chainEx : UIcontext :=
  { buttons := 0, last_buttons := 0, start_cursor := ⟨0, 0⟩, last_cursor := ⟨0, 0⟩,
    cursor := ⟨0, 0⟩, hot_handle := 0, active_handle := 0, hot_item := -1, active_item := -1,
    state := .UI_STATE_IDLE,
    items := [
      { handle := 0, handler := 0, numkids := 1, firstkid := 1, lastkid := 1, parent := -1,
        kidid := 0, nextitem := -1, layout_flags := 0, size := ⟨0, 0⟩, visited := 0,
        margins := ⟨0, 0, 0, 0⟩, relto := ⟨0, 0, 0, 0⟩, rect := ⟨0, 0, 0, 0⟩, data := -1,
        datasize := 0, event_flags := 0 },
      { handle := 0, handler := 0, numkids := 2, firstkid := 2, lastkid := 3, parent := 0,
        kidid := 0, nextitem := -1, layout_flags := 0, size := ⟨0, 0⟩, visited := 0,
        margins := ⟨0, 0, 0, 0⟩, relto := ⟨-1, -1, -1, -1⟩, rect := ⟨0, 0, 0, 0⟩, data := -1,
        datasize := 0, event_flags := 0 },
      { handle := 0, handler := 0, numkids := 0, firstkid := -1, lastkid := -1, parent := 1,
        kidid := 0, nextitem := 3, layout_flags := 0, size := ⟨10, 5⟩, visited := 0,
        margins := ⟨0, 0, 2, 0⟩, relto := ⟨-1, -1, -1, -1⟩, rect := ⟨0, 0, 0, 0⟩, data := -1,
        datasize := 0, event_flags := 0 },
      { handle := 0, handler := 0, numkids := 0, firstkid := -1, lastkid := -1, parent := 1,
        kidid := 1, nextitem := -1, layout_flags := 1, size := ⟨20, 5⟩, visited := 0,
        margins := ⟨0, 0, 0, 0⟩, relto := ⟨2, -1, -1, -1⟩, rect := ⟨0, 0, 0, 0⟩, data := -1,
        datasize := 0, event_flags := 0 }],
    datasize := 0 }

/-- a root of size 100 x 50 with one child that fills horizontally, with left margin 2 and
right margin 3 -/
def fillCalls : List UIcall :=
  [.setSize 0 100 50, .item, .setParent 1 0, .setLayout 1 UI_HFILL, .setMargins 1 2 0 3 0]

/-- the context after `fillCalls` -/
def fillEx : UIcontext :=
  { buttons := 0, last_buttons := 0, start_cursor := ⟨0, 0⟩, last_cursor := ⟨0, 0⟩,
    cursor := ⟨0, 0⟩, hot_handle := 0, active_handle := 0, hot_item := -1, active_item := -1,
    state := .UI_STATE_IDLE,
    items := [
      { handle := 0, handler := 0, numkids := 1, firstkid := 1, lastkid := 1, parent := -1,
        kidid := 0, nextitem := -1, layout_flags := 0, size := ⟨100, 50⟩, visited := 0,
        margins := ⟨0, 0, 0, 0⟩, relto := ⟨0, 0, 0, 0⟩, rect := ⟨0, 0, 0, 0⟩, data := -1,
        datasize := 0, event_flags := 0 },
      { handle := 0, handler := 0, numkids := 0, firstkid := -1, lastkid := -1, parent := 0,
        kidid := 0, nextitem := -1, layout_flags := 5, size := ⟨0, 0⟩, visited := 0,
        margins := ⟨2, 0, 3, 0⟩, relto := ⟨-1, -1, -1, -1⟩, rect := ⟨0, 0, 0, 0⟩, data := -1,
        datasize := 0, event_flags := 0 }],
    datasize := 0 }

/-- a root of size 100 x 100 with one child of size 20 x 20 at (10, 10), which carries the
handle 42 and a handler subscribed to all four button events; the cursor is at (15, 15) -/
def pointerCalls : List UIcall :=
  [.setSize 0 100 100, .item, .setParent 1 0, .setSize 1 20 20, .setMargins 1 10 10 0 0,
  .setLayout 1 3, .setHandle 1 42, .setHandler 1 7 15, .setCursor 15 15]

/-- the context after `pointerCalls` -/
def overEx : UIcontext :=
  { buttons := 0, last_buttons := 0, start_cursor := ⟨0, 0⟩, last_cursor := ⟨0, 0⟩,
    cursor := ⟨15, 15⟩, hot_handle := 0, active_handle := 0, hot_item := -1, active_item := -1,
    state := .UI_STATE_IDLE,
    items := [
      { handle := 0, handler := 0, numkids := 1, firstkid := 1, lastkid := 1, parent := -1,
        kidid := 0, nextitem := -1, layout_flags := 0, size := ⟨100, 100⟩, visited := 0,
        margins := ⟨0, 0, 0, 0⟩, relto := ⟨0, 0, 0, 0⟩, rect := ⟨0, 0, 0, 0⟩, data := -1,
        datasize := 0, event_flags := 0 },
      { handle := 42, handler := 7, numkids := 0, firstkid := -1, lastkid := -1, parent := 0,
        kidid := 0, nextitem := -1, layout_flags := 3, size := ⟨20, 20⟩, visited := 0,
        margins := ⟨10, 10, 0, 0⟩, relto := ⟨-1, -1, -1, -1⟩, rect := ⟨0, 0, 0, 0⟩, data := -1,
        datasize := 0, event_flags := 15 }],
    datasize := 0 }

/-- the context `overEx` after one `uiProcess`: laid out, idle, the child hot -/
def idleEx : UIcontext :=
  { buttons := 0, last_buttons := 0, start_cursor := ⟨0, 0⟩, last_cursor := ⟨15, 15⟩,
    cursor := ⟨15, 15⟩, hot_handle := 42, active_handle := 0, hot_item := 1, active_item := -1,
    state := .UI_STATE_IDLE,
    items := [
      { handle := 0, handler := 0, numkids := 1, firstkid := 1, lastkid := 1, parent := -1,
        kidid := 0, nextitem := -1, layout_flags := 0, size := ⟨100, 100⟩, visited := 0,
        margins := ⟨0, 0, 0, 0⟩, relto := ⟨0, 0, 0, 0⟩, rect := ⟨0, 0, 100, 100⟩, data := -1,
        datasize := 0, event_flags := 0 },
      { handle := 42, handler := 7, numkids := 0, firstkid := -1, lastkid := -1, parent := 0,
        kidid := 0, nextitem := -1, layout_flags := 3, size := ⟨20, 20⟩, visited := 12,
        margins := ⟨10, 10, 0, 0⟩, relto := ⟨-1, -1, -1, -1⟩, rect := ⟨10, 10, 20, 20⟩,
        data := -1, datasize := 0, event_flags := 15 }],
    datasize := 0 }

/-- the context `idleEx` with button 0 pressed -/
def pressEx : UIcontext := uiSetButton idleEx 0 1

/-- the context `pressEx` after one `uiProcess`: the child is captured -/
def heldEx : UIcontext :=
  { buttons := 1, last_buttons := 0, start_cursor := ⟨15, 15⟩, last_cursor := ⟨15, 15⟩,
    cursor := ⟨15, 15⟩, hot_handle := 0, active_handle := 42, hot_item := -1, active_item := 1,
    state := .UI_STATE_CAPTURE,
    items := [
      { handle := 0, handler := 0, numkids := 1, firstkid := 1, lastkid := 1, parent := -1,
        kidid := 0, nextitem := -1, layout_flags := 0, size := ⟨100, 100⟩, visited := 0,
        margins := ⟨0, 0, 0, 0⟩, relto := ⟨0, 0, 0, 0⟩, rect := ⟨0, 0, 100, 100⟩, data := -1,
        datasize := 0, event_flags := 0 },
      { handle := 42, handler := 7, numkids := 0, firstkid := -1, lastkid := -1, parent := 0,
        kidid := 0, nextitem := -1, layout_flags := 3, size := ⟨20, 20⟩, visited := 12,
        margins := ⟨10, 10, 0, 0⟩, relto := ⟨-1, -1, -1, -1⟩, rect := ⟨10, 10, 20, 20⟩,
        data := -1, datasize := 0, event_flags := 15 }],
    datasize := 0 }

/-- the context `heldEx` with button 0 released -/
def releaseEx : UIcontext := uiSetButton heldEx 0 0

/-- the declarations of a next frame: two new items below the root -/
def nextCalls : List UIcall :=
  [.item, .item, .setParent 1 0, .setParent 2 0]

/-- the context `idleEx` after `uiClear` and `nextCalls` -/
def nextEx : UIcontext :=
  { buttons := 0, last_buttons := 0, start_cursor := ⟨0, 0⟩, last_cursor := ⟨15, 15⟩,
    cursor := ⟨15, 15⟩, hot_handle := 42, active_handle := 0, hot_item := -1, active_item := -1,
    state := .UI_STATE_IDLE,
    items := [
      { handle := 0, handler := 0, numkids := 2, firstkid := 1, lastkid := 2, parent := -1,
        kidid := 0, nextitem := -1, layout_flags := 0, size := ⟨0, 0⟩, visited := 0,
        margins := ⟨0, 0, 0, 0⟩, relto := ⟨0, 0, 0, 0⟩, rect := ⟨0, 0, 0, 0⟩, data := -1,
        datasize := 0, event_flags := 0 },
      { handle := 0, handler := 0, numkids := 0, firstkid := -1, lastkid := -1, parent := 0,
        kidid := 0, nextitem := 2, layout_flags := 0, size := ⟨0, 0⟩, visited := 0,
        margins := ⟨0, 0, 0, 0⟩, relto := ⟨-1, -1, -1, -1⟩, rect := ⟨0, 0, 0, 0⟩, data := -1,
        datasize := 0, event_flags := 0 },
      { handle := 0, handler := 0, numkids := 0, firstkid := -1, lastkid := -1, parent := 0,
        kidid := 1, nextitem := -1, layout_flags := 0, size := ⟨0, 0⟩, visited := 0,
        margins := ⟨0, 0, 0, 0⟩, relto := ⟨-1, -1, -1, -1⟩, rect := ⟨0, 0, 0, 0⟩, data := -1,
        datasize := 0, event_flags := 0 }],
    datasize := 0 }

/-- the hierarchy of `chainEx` -/
def chainTree : KTree := .node 1 (.node 2 .nil (.node 3 .nil .nil)) .nil

/-- the hierarchy of a root with one child -/
def oneChild : KTree := .node 1 .nil .nil

/-! ## Failing calls: the context at the failed assertion -/

/-- The function `uiSetParent` together with the context it stops in: the context and `none`
when it returns, and when an assertion fails the context as written up to that assertion
and the failure. -/
def uiSetParentStop (c : UIcontext) (item parent : Int) : UIcontext × Option UIerror :=
  if ¬ item > 0 then (c, some .assertion)
  else
    match uiParent c item with
    | .error e => (c, some e)
    | .ok par =>
      if par ≠ -1 then (c, some .assertion)
      else
        match uiItemPtr c item with
        | .error e => (c, some e)
        | .ok pitem =>
          match uiItemPtr c parent with
          | .error e => (c, some e)
          | .ok pparent =>
            let c := c.modify pitem (fun i => { i with parent := parent })
            let numkids := (c.get pparent).numkids
            let c := c.modify pitem (fun i => { i with kidid := numkids })
            let c := c.modify pparent (fun i => { i with numkids := numkids + 1 })
            if (c.get pparent).lastkid < 0 then
              let c := c.modify pparent (fun i => { i with firstkid := item })
              (c.modify pparent (fun i => { i with lastkid := item }), none)
            else
              match uiItemPtr c (c.get pparent).lastkid with
              | .error e => (c, some e)
              | .ok plast =>
                let c := c.modify plast (fun i => { i with nextitem := item })
                (c.modify pparent (fun i => { i with lastkid := item }), none)

/-- The function `uiAllocData` together with the context it stops in: the context and `none`
when it returns, and when an assertion fails the context as written up to that assertion
and the failure. -/
def uiAllocDataStop (c : UIcontext) (item size : Int) : UIcontext × Option UIerror :=
  if ¬ (size > 0 ∧ size < UI_MAX_DATASIZE) then (c, some .assertion)
  else
    match uiItemPtr c item with
    | .error e => (c, some e)
    | .ok pitem =>
      if ¬ (c.get pitem).data < 0 then (c, some .assertion)
      else if ¬ c.datasize + size ≤ UI_MAX_BUFFERSIZE then (c, some .assertion)
      else
        let c := c.modify pitem (fun i => { i with data := c.datasize })
        ({ c with datasize := c.datasize + size }, none)

/-- What a call that stopped in `r.1` with the failure `r.2` returns. -/
def stopResult (r : UIcontext × Option UIerror) : Except UIerror UIcontext :=
  match r.2 with
  | none => .ok r.1
  | some e => .error e

/-! ## Further notions used in the statements and proofs -/

/-- the tree links of an item: the fields that only `uiSetParent` writes -/
def UIitem.links (i : UIitem) : Int × Int × Int × Int × Int × Int :=
  (i.numkids, i.firstkid, i.lastkid, i.parent, i.kidid, i.nextitem)

/-- the `lastkid` field of every live item is below the item count -/
def LastKidOK (c : UIcontext) : Prop := ∀ p, p < c.count → (c.get p).lastkid < c.count

instance instDecidableLastKidOK (c : UIcontext) : Decidable (LastKidOK c) := by
  unfold LastKidOK; infer_instance

/-- the context after a successful `uiSetParent`, given the pointers -/
def uiAttached (c : UIcontext) (item : Int) (parent : Int) : UIcontext :=
  let pitem := item.toNat
  let pparent := parent.toNat
  let c := c.modify pitem (fun i => { i with parent := parent })
  let numkids := (c.get pparent).numkids
  let c := c.modify pitem (fun i => { i with kidid := numkids })
  let c := c.modify pparent (fun i => { i with numkids := numkids + 1 })
  if (c.get pparent).lastkid < 0 then
    let c := c.modify pparent (fun i => { i with firstkid := item })
    c.modify pparent (fun i => { i with lastkid := item })
  else
    let c := c.modify ((c.get pparent).lastkid).toNat (fun i => { i with nextitem := item })
    c.modify pparent (fun i => { i with lastkid := item })

/-- the number with the bits `x0 .. x3` -/
def bits4 (x0 x1 x2 x3 : Bool) : Nat :=
  (if x0 then 1 else 0) + (if x1 then 2 else 0) + (if x2 then 4 else 0) + (if x3 then 8 else 0)

/-! ## Example contexts for the presentation state and the anchors -/

/-- a root of size 100 x 100 with one child of size 20 x 20 anchored right and down, with right
margin 3 and bottom margin 4 -/
def farCalls : List UIcall :=
  [.setSize 0 100 100, .item, .setParent 1 0, .setSize 1 20 20, .setMargins 1 0 0 3 4,
  .setLayout 1 12]

/-- the context after `farCalls` -/
def farEx : UIcontext :=
  { buttons := 0, last_buttons := 0, start_cursor := ⟨0, 0⟩, last_cursor := ⟨0, 0⟩,
    cursor := ⟨0, 0⟩, hot_handle := 0, active_handle := 0, hot_item := -1, active_item := -1,
    state := .UI_STATE_IDLE,
    items := [
      { handle := 0, handler := 0, numkids := 1, firstkid := 1, lastkid := 1, parent := -1,
        kidid := 0, nextitem := -1, layout_flags := 0, size := ⟨100, 100⟩, visited := 0,
        margins := ⟨0, 0, 0, 0⟩, relto := ⟨0, 0, 0, 0⟩, rect := ⟨0, 0, 0, 0⟩, data := -1,
        datasize := 0, event_flags := 0 },
      { handle := 0, handler := 0, numkids := 0, firstkid := -1, lastkid := -1, parent := 0,
        kidid := 0, nextitem := -1, layout_flags := 12, size := ⟨20, 20⟩, visited := 0,
        margins := ⟨0, 0, 3, 4⟩, relto := ⟨-1, -1, -1, -1⟩, rect := ⟨0, 0, 0, 0⟩, data := -1,
        datasize := 0, event_flags := 0 }],
    datasize := 0 }

/-- a root of size 100 x 100 with one child of size 20 x 20 without anchor flags, with left
margin 10 -/
def centreCalls : List UIcall :=
  [.setSize 0 100 100, .item, .setParent 1 0, .setSize 1 20 20, .setMargins 1 10 0 0 0]

/-- the context after `centreCalls` -/
def centreEx : UIcontext :=
  { buttons := 0, last_buttons := 0, start_cursor := ⟨0, 0⟩, last_cursor := ⟨0, 0⟩,
    cursor := ⟨0, 0⟩, hot_handle := 0, active_handle := 0, hot_item := -1, active_item := -1,
    state := .UI_STATE_IDLE,
    items := [
      { handle := 0, handler := 0, numkids := 1, firstkid := 1, lastkid := 1, parent := -1,
        kidid := 0, nextitem := -1, layout_flags := 0, size := ⟨100, 100⟩, visited := 0,
        margins := ⟨0, 0, 0, 0⟩, relto := ⟨0, 0, 0, 0⟩, rect := ⟨0, 0, 0, 0⟩, data := -1,
        datasize := 0, event_flags := 0 },
      { handle := 0, handler := 0, numkids := 0, firstkid := -1, lastkid := -1, parent := 0,
        kidid := 0, nextitem := -1, layout_flags := 0, size := ⟨20, 20⟩, visited := 0,
        margins := ⟨10, 0, 0, 0⟩, relto := ⟨-1, -1, -1, -1⟩, rect := ⟨0, 0, 0, 0⟩, data := -1,
        datasize := 0, event_flags := 0 }],
    datasize := 0 }

/-- the context `centreEx` after one `uiProcess` -/
def centreDone : UIcontext :=
  { buttons := 0, last_buttons := 0, start_cursor := ⟨0, 0⟩, last_cursor := ⟨0, 0⟩,
    cursor := ⟨0, 0⟩, hot_handle := 0, active_handle := 0, hot_item := 0, active_item := -1,
    state := .UI_STATE_IDLE,
    items := [
      { handle := 0, handler := 0, numkids := 1, firstkid := 1, lastkid := 1, parent := -1,
        kidid := 0, nextitem := -1, layout_flags := 0, size := ⟨100, 100⟩, visited := 0,
        margins := ⟨0, 0, 0, 0⟩, relto := ⟨0, 0, 0, 0⟩, rect := ⟨0, 0, 100, 100⟩, data := -1,
        datasize := 0, event_flags := 0 },
      { handle := 0, handler := 0, numkids := 0, firstkid := -1, lastkid := -1, parent := 0,
        kidid := 0, nextitem := -1, layout_flags := 0, size := ⟨20, 20⟩, visited := 12,
        margins := ⟨10, 0, 0, 0⟩, relto := ⟨-1, -1, -1, -1⟩, rect := ⟨50, 40, 20, 20⟩, data := -1,
        datasize := 0, event_flags := 0 }],
    datasize := 0 }

/-- the pointer example with a handler subscribed to `UI_BUTTON0_DOWN` only and button 0
pressed over the child -/
def downCalls : List UIcall :=
  [.setSize 0 100 100, .item, .setParent 1 0, .setSize 1 20 20, .setMargins 1 10 10 0 0,
  .setLayout 1 3, .setHandler 1 7 1, .setCursor 15 15, .setButton 0 1]

/-- the context after `downCalls` -/
def downEx : UIcontext :=
  { buttons := 1, last_buttons := 0, start_cursor := ⟨0, 0⟩, last_cursor := ⟨0, 0⟩,
    cursor := ⟨15, 15⟩, hot_handle := 0, active_handle := 0, hot_item := -1, active_item := -1,
    state := .UI_STATE_IDLE,
    items := [
      { handle := 0, handler := 0, numkids := 1, firstkid := 1, lastkid := 1, parent := -1,
        kidid := 0, nextitem := -1, layout_flags := 0, size := ⟨100, 100⟩, visited := 0,
        margins := ⟨0, 0, 0, 0⟩, relto := ⟨0, 0, 0, 0⟩, rect := ⟨0, 0, 0, 0⟩, data := -1,
        datasize := 0, event_flags := 0 },
      { handle := 0, handler := 7, numkids := 0, firstkid := -1, lastkid := -1, parent := 0,
        kidid := 0, nextitem := -1, layout_flags := 3, size := ⟨20, 20⟩, visited := 0,
        margins := ⟨10, 10, 0, 0⟩, relto := ⟨-1, -1, -1, -1⟩, rect := ⟨0, 0, 0, 0⟩, data := -1,
        datasize := 0, event_flags := 1 }],
    datasize := 0 }

/-- the context `downEx` after one `uiProcess`: the child is captured -/
def downHeld : UIcontext :=
  { buttons := 1, last_buttons := 0, start_cursor := ⟨15, 15⟩, last_cursor := ⟨15, 15⟩,
    cursor := ⟨15, 15⟩, hot_handle := 0, active_handle := 0, hot_item := -1, active_item := 1,
    state := .UI_STATE_CAPTURE,
    items := [
      { handle := 0, handler := 0, numkids := 1, firstkid := 1, lastkid := 1, parent := -1,
        kidid := 0, nextitem := -1, layout_flags := 0, size := ⟨100, 100⟩, visited := 0,
        margins := ⟨0, 0, 0, 0⟩, relto := ⟨0, 0, 0, 0⟩, rect := ⟨0, 0, 100, 100⟩, data := -1,
        datasize := 0, event_flags := 0 },
      { handle := 0, handler := 7, numkids := 0, firstkid := -1, lastkid := -1, parent := 0,
        kidid := 0, nextitem := -1, layout_flags := 3, size := ⟨20, 20⟩, visited := 12,
        margins := ⟨10, 10, 0, 0⟩, relto := ⟨-1, -1, -1, -1⟩, rect := ⟨10, 10, 20, 20⟩,
        data := -1, datasize := 0, event_flags := 1 }],
    datasize := 0 }

/-- the context `downEx` after two `uiProcess`: the child is the active and the hot item -/
def downBoth : UIcontext :=
  { buttons := 1, last_buttons := 0, start_cursor := ⟨15, 15⟩, last_cursor := ⟨15, 15⟩,
    cursor := ⟨15, 15⟩, hot_handle := 0, active_handle := 0, hot_item := 1, active_item := 1,
    state := .UI_STATE_CAPTURE,
    items := [
      { handle := 0, handler := 0, numkids := 1, firstkid := 1, lastkid := 1, parent := -1,
        kidid := 0, nextitem := -1, layout_flags := 0, size := ⟨100, 100⟩, visited := 0,
        margins := ⟨0, 0, 0, 0⟩, relto := ⟨0, 0, 0, 0⟩, rect := ⟨0, 0, 100, 100⟩, data := -1,
        datasize := 0, event_flags := 0 },
      { handle := 0, handler := 7, numkids := 0, firstkid := -1, lastkid := -1, parent := 0,
        kidid := 0, nextitem := -1, layout_flags := 3, size := ⟨20, 20⟩, visited := 12,
        margins := ⟨10, 10, 0, 0⟩, relto := ⟨-1, -1, -1, -1⟩, rect := ⟨10, 10, 20, 20⟩,
        data := -1, datasize := 0, event_flags := 1 }],
    datasize := 0 }

/-- a root of size 100 x 100 with two children: item 1 of size 50 x 50, anchored left and top,
which has the child item 2 of size 10 x 10 without flags, margins or neighbors, and item 3 of
size 10 x 10, anchored left, which names item 2, a child of item 1, as its left neighbor -/
def crossCalls : List UIcall :=
  [.setSize 0 100 100, .item, .setParent 1 0, .setSize 1 50 50, .setLayout 1 3, .item,
  .setParent 2 1, .setSize 2 10 10, .item, .setParent 3 0, .setSize 3 10 10, .setLayout 3 1,
  .setRelativeTo 3 2 (-1) (-1) (-1)]

/-- the context after `crossCalls` -/
def crossEx : UIcontext :=
  { buttons := 0, last_buttons := 0, start_cursor := ⟨0, 0⟩, last_cursor := ⟨0, 0⟩,
    cursor := ⟨0, 0⟩, hot_handle := 0, active_handle := 0, hot_item := -1, active_item := -1,
    state := .UI_STATE_IDLE,
    items := [
      { handle := 0, handler := 0, numkids := 2, firstkid := 1, lastkid := 3, parent := -1,
        kidid := 0, nextitem := -1, layout_flags := 0, size := ⟨100, 100⟩, visited := 0,
        margins := ⟨0, 0, 0, 0⟩, relto := ⟨0, 0, 0, 0⟩, rect := ⟨0, 0, 0, 0⟩, data := -1,
        datasize := 0, event_flags := 0 },
      { handle := 0, handler := 0, numkids := 1, firstkid := 2, lastkid := 2, parent := 0,
        kidid := 0, nextitem := 3, layout_flags := 3, size := ⟨50, 50⟩, visited := 0,
        margins := ⟨0, 0, 0, 0⟩, relto := ⟨-1, -1, -1, -1⟩, rect := ⟨0, 0, 0, 0⟩, data := -1,
        datasize := 0, event_flags := 0 },
      { handle := 0, handler := 0, numkids := 0, firstkid := -1, lastkid := -1, parent := 1,
        kidid := 0, nextitem := -1, layout_flags := 0, size := ⟨10, 10⟩, visited := 0,
        margins := ⟨0, 0, 0, 0⟩, relto := ⟨-1, -1, -1, -1⟩, rect := ⟨0, 0, 0, 0⟩, data := -1,
        datasize := 0, event_flags := 0 },
      { handle := 0, handler := 0, numkids := 0, firstkid := -1, lastkid := -1, parent := 0,
        kidid := 1, nextitem := -1, layout_flags := 1, size := ⟨10, 10⟩, visited := 0,
        margins := ⟨0, 0, 0, 0⟩, relto := ⟨2, -1, -1, -1⟩, rect := ⟨0, 0, 0, 0⟩, data := -1,
        datasize := 0, event_flags := 0 }],
    datasize := 0 }

/-- the context `crossEx` after the size pass of `uiProcess` -/
def crossSized : UIcontext :=
  { buttons := 0, last_buttons := 0, start_cursor := ⟨0, 0⟩, last_cursor := ⟨0, 0⟩,
    cursor := ⟨0, 0⟩, hot_handle := 0, active_handle := 0, hot_item := -1, active_item := -1,
    state := .UI_STATE_IDLE,
    items := [
      { handle := 0, handler := 0, numkids := 2, firstkid := 1, lastkid := 3, parent := -1,
        kidid := 0, nextitem := -1, layout_flags := 0, size := ⟨100, 100⟩, visited := 0,
        margins := ⟨0, 0, 0, 0⟩, relto := ⟨0, 0, 0, 0⟩, rect := ⟨0, 0, 100, 100⟩, data := -1,
        datasize := 0, event_flags := 0 },
      { handle := 0, handler := 0, numkids := 1, firstkid := 2, lastkid := 2, parent := 0,
        kidid := 0, nextitem := 3, layout_flags := 3, size := ⟨50, 50⟩, visited := 0,
        margins := ⟨0, 0, 0, 0⟩, relto := ⟨-1, -1, -1, -1⟩, rect := ⟨0, 0, 50, 50⟩, data := -1,
        datasize := 0, event_flags := 0 },
      { handle := 0, handler := 0, numkids := 0, firstkid := -1, lastkid := -1, parent := 1,
        kidid := 0, nextitem := -1, layout_flags := 0, size := ⟨10, 10⟩, visited := 0,
        margins := ⟨0, 0, 0, 0⟩, relto := ⟨-1, -1, -1, -1⟩, rect := ⟨0, 0, 10, 10⟩, data := -1,
        datasize := 0, event_flags := 0 },
      { handle := 0, handler := 0, numkids := 0, firstkid := -1, lastkid := -1, parent := 0,
        kidid := 1, nextitem := -1, layout_flags := 1, size := ⟨10, 10⟩, visited := 0,
        margins := ⟨0, 0, 0, 0⟩, relto := ⟨2, -1, -1, -1⟩, rect := ⟨0, 0, 10, 10⟩, data := -1,
        datasize := 0, event_flags := 0 }],
    datasize := 0 }

/-- the hierarchy of `crossEx` -/
def crossTree : KTree := .node 1 (.node 2 .nil .nil) (.node 3 .nil .nil)

/-! ## Notions used in the statements on spans, chains and child lists -/

/-- the start of the span that `uiLayoutChildItem` gives item `q` in dimension `dim`: the
far edge of the near neighbor when the item has the near flag, and `0` otherwise -/
def spanStart (c c' : UIcontext) (q dim : Nat) : Int :=
  if Int.land ((c.get q).layout_flags >>> dim) UI_LEFT ≠ 0 then nearEdge c c' q dim else 0

/-- the end of the span that `uiLayoutChildItem` gives item `q` in dimension `dim`: the
position of the far neighbor when the item has the far flag, and the extent of the parent
otherwise -/
def spanEnd (c c' : UIcontext) (q dim : Nat) : Int :=
  if Int.land ((c.get q).layout_flags >>> dim) UI_RIGHT ≠ 0 then farEdge c c' q dim
  else (c'.get (c.get q).parent.toNat).rect.v (dim + 2)

/-- `Dangling c k dim`: on a side of dimension `dim` where item `k` has the anchor flag, its
neighbor reference is at or above the item count, so that it names no live item -/
def Dangling (c : UIcontext) (k dim : Nat) : Prop :=
  (Int.land ((c.get k).layout_flags >>> dim) UI_LEFT ≠ 0 ∧
    (c.count : Int) ≤ (c.get k).relto.v dim) ∨
  (Int.land ((c.get k).layout_flags >>> dim) UI_RIGHT ≠ 0 ∧
    (c.count : Int) ≤ (c.get k).relto.v (dim + 2))

instance instDecidableDangling (c : UIcontext) (k dim : Nat) : Decidable (Dangling c k dim) := by
  unfold Dangling; infer_instance

/-- `ChainLoop c dim flag edge S`: every item of `S` is live, has the anchor flag `flag` in
dimension `dim`, and names an item of `S` as its neighbor on the edge `edge`; a walk along that
edge which starts in `S` therefore stays in `S` and revisits an item -/
def ChainLoop (c : UIcontext) (dim : Nat) (flag : Int) (edge : Nat) (S : List Nat) : Prop :=
  ∀ q ∈ S, q < c.count ∧ Int.land ((c.get q).layout_flags >>> dim) flag ≠ 0 ∧
    0 ≤ (c.get q).relto.v edge ∧ (c.get q).relto.v edge < c.count ∧
    ((c.get q).relto.v edge).toNat ∈ S

instance instDecidableChainLoop (c : UIcontext) (dim : Nat) (flag : Int) (edge : Nat)
    (S : List Nat) : Decidable (ChainLoop c dim flag edge S) := by
  unfold ChainLoop; infer_instance

/-- the items that the calls attach to item `p`, in the order of the calls -/
def attachedTo (p : Int) : List UIcall → List Int
  | [] => []
  | .setParent item parent :: rest =>
    if parent = p then item :: attachedTo p rest else attachedTo p rest
  | _ :: rest => attachedTo p rest

/-- `IsChain c kid l`: starting at `kid` and following `uiNextSibling` yields the items of `l`,
in order, and then -1 -/
def IsChain (c : UIcontext) : Int → List Int → Prop
  | kid, [] => kid = -1
  | kid, x :: xs =>
    kid = x ∧
      match uiNextSibling c x with
      | .ok next => IsChain c next xs
      | .error _ => False

/-- the chain extent of item `k` as the specification words it: the extent of `k` plus its near
margin, plus the chain extent of its near-side neighbor if it names one (`fuel` bounds the number
of neighbors followed) -/
def chainExtent (c : UIcontext) (dim : Nat) : Nat → Nat → Int
  | 0, _ => 0
  | fuel + 1, k =>
    (c.get k).rect.v (dim + 2) + (c.get k).margins.v dim +
      (if (c.get k).relto.v dim ≠ -1 then
        chainExtent c dim fuel ((c.get k).relto.v dim).toNat
      else 0)

/-- the maximum of 0 and of the chain extents of the items of `l` -/
def maxChain (c : UIcontext) (dim : Nat) (l : List Nat) : Int :=
  l.foldl (fun m k => max m (chainExtent c dim c.count k)) 0

/-- `NearChained c dim pre l`: every item of `l` is anchored in dimension `dim` to the near side
only, and its near-side neighbor reference is -1 or names an item that comes before it, that is
an item of `pre` or an earlier item of `l` -/
def NearChained (c : UIcontext) (dim : Nat) : List Nat → List Nat → Prop
  | _, [] => True
  | pre, k :: rest =>
    (Int.land ((c.get k).layout_flags >>> dim) UI_LEFT ≠ 0 ∧
      Int.land ((c.get k).layout_flags >>> dim) UI_RIGHT = 0 ∧
      ((c.get k).relto.v dim = -1 ∨
        (0 ≤ (c.get k).relto.v dim ∧ ((c.get k).relto.v dim).toNat ∈ pre))) ∧
    NearChained c dim (k :: pre) rest

instance instDecidableNearChained (c : UIcontext) (dim : Nat) :
    ∀ (pre l : List Nat), Decidable (NearChained c dim pre l)
  | _, [] => isTrue trivial
  | pre, k :: rest =>
    have := instDecidableNearChained c dim (k :: pre) rest
    by unfold NearChained; infer_instance

/-- what the solver reads of an item's declaration in dimension `d`: the size hint, the two
margins, the two neighbor references and the two anchor flags of that dimension, and the links
to the first child and the next sibling -/
def UIitem.inputs (d : Nat) (i : UIitem) : List Int :=
  [i.size.v d, i.margins.v d, i.margins.v (d + 2), i.relto.v d, i.relto.v (d + 2),
    Int.land (i.layout_flags >>> d) UI_LEFT, Int.land (i.layout_flags >>> d) UI_RIGHT,
    i.firstkid, i.nextitem]

/-- the dimension-`d` inputs of all items -/
def UIcontext.inputs (d : Nat) (c : UIcontext) : List (List Int) :=
  c.items.map (UIitem.inputs d)

/-! ## Example contexts for spans, sizes, failures and frames -/

/-- a root of size 100 x 100 with two children: item 1 of size 30 x 10, anchored left and top,
and item 2 of size 10 x 10 without flags, which names item 1 as its left neighbor -/
def besideCalls : List UIcall :=
  [.setSize 0 100 100, .item, .setParent 1 0, .setSize 1 30 10, .setLayout 1 3, .item,
  .setParent 2 0, .setSize 2 10 10, .setRelativeTo 2 1 (-1) (-1) (-1)]

/-- the context after `besideCalls` -/
def besideEx : UIcontext :=
  { buttons := 0, last_buttons := 0, start_cursor := ⟨0, 0⟩, last_cursor := ⟨0, 0⟩,
    cursor := ⟨0, 0⟩, hot_handle := 0, active_handle := 0, hot_item := -1, active_item := -1,
    state := .UI_STATE_IDLE,
    items := [
      { handle := 0, handler := 0, numkids := 2, firstkid := 1, lastkid := 2, parent := -1,
        kidid := 0, nextitem := -1, layout_flags := 0, size := ⟨100, 100⟩, visited := 0,
        margins := ⟨0, 0, 0, 0⟩, relto := ⟨0, 0, 0, 0⟩, rect := ⟨0, 0, 0, 0⟩, data := -1,
        datasize := 0, event_flags := 0 },
      { handle := 0, handler := 0, numkids := 0, firstkid := -1, lastkid := -1, parent := 0,
        kidid := 0, nextitem := 2, layout_flags := 3, size := ⟨30, 10⟩, visited := 0,
        margins := ⟨0, 0, 0, 0⟩, relto := ⟨-1, -1, -1, -1⟩, rect := ⟨0, 0, 0, 0⟩, data := -1,
        datasize := 0, event_flags := 0 },
      { handle := 0, handler := 0, numkids := 0, firstkid := -1, lastkid := -1, parent := 0,
        kidid := 1, nextitem := -1, layout_flags := 0, size := ⟨10, 10⟩, visited := 0,
        margins := ⟨0, 0, 0, 0⟩, relto := ⟨1, -1, -1, -1⟩, rect := ⟨0, 0, 0, 0⟩, data := -1,
        datasize := 0, event_flags := 0 }],
    datasize := 0 }

/-- the hierarchy of `besideEx`: two children of the root -/
def besideTree : KTree := .node 1 .nil (.node 2 .nil .nil)

/-- the context `idleEx` after `pressCalls` -/
def pushEx : UIcontext :=
  { buttons := 1, last_buttons := 0, start_cursor := ⟨0, 0⟩, last_cursor := ⟨15, 15⟩,
    cursor := ⟨15, 15⟩, hot_handle := 42, active_handle := 0, hot_item := 1, active_item := -1,
    state := .UI_STATE_IDLE,
    items := [
      { handle := 0, handler := 0, numkids := 1, firstkid := 1, lastkid := 1, parent := -1,
        kidid := 0, nextitem := -1, layout_flags := 0, size := ⟨100, 100⟩, visited := 0,
        margins := ⟨0, 0, 0, 0⟩, relto := ⟨0, 0, 0, 0⟩, rect := ⟨0, 0, 0, 0⟩, data := -1,
        datasize := 0, event_flags := 0 },
      { handle := 42, handler := 7, numkids := 0, firstkid := -1, lastkid := -1, parent := 0,
        kidid := 0, nextitem := -1, layout_flags := 3, size := ⟨20, 20⟩, visited := 0,
        margins := ⟨10, 10, 0, 0⟩, relto := ⟨-1, -1, -1, -1⟩, rect := ⟨0, 0, 0, 0⟩, data := -1,
        datasize := 0, event_flags := 15 }],
    datasize := 0 }

/-- the context `dragEx` after `dropCalls`: `uiSetHandle` has resolved the hot and the active
item to item 1 again -/
def dropEx : UIcontext :=
  { buttons := 0, last_buttons := 0, start_cursor := ⟨15, 15⟩, last_cursor := ⟨15, 15⟩,
    cursor := ⟨50, 50⟩, hot_handle := 42, active_handle := 42, hot_item := 1, active_item := 1,
    state := .UI_STATE_CAPTURE,
    items := [
      { handle := 0, handler := 0, numkids := 1, firstkid := 1, lastkid := 1, parent := -1,
        kidid := 0, nextitem := -1, layout_flags := 0, size := ⟨100, 100⟩, visited := 0,
        margins := ⟨0, 0, 0, 0⟩, relto := ⟨0, 0, 0, 0⟩, rect := ⟨0, 0, 0, 0⟩, data := -1,
        datasize := 0, event_flags := 0 },
      { handle := 42, handler := 7, numkids := 0, firstkid := -1, lastkid := -1, parent := 0,
        kidid := 0, nextitem := -1, layout_flags := 3, size := ⟨20, 20⟩, visited := 0,
        margins := ⟨10, 10, 0, 0⟩, relto := ⟨-1, -1, -1, -1⟩, rect := ⟨0, 0, 0, 0⟩, data := -1,
        datasize := 0, event_flags := 15 }],
    datasize := 0 }

/-- the context `dropEx` after one `uiProcess`: the drag has ended -/
def droppedEx : UIcontext :=
  { buttons := 0, last_buttons := 0, start_cursor := ⟨15, 15⟩, last_cursor := ⟨50, 50⟩,
    cursor := ⟨50, 50⟩, hot_handle := 42, active_handle := 0, hot_item := 1, active_item := -1,
    state := .UI_STATE_IDLE,
    items := [
      { handle := 0, handler := 0, numkids := 1, firstkid := 1, lastkid := 1, parent := -1,
        kidid := 0, nextitem := -1, layout_flags := 0, size := ⟨100, 100⟩, visited := 0,
        margins := ⟨0, 0, 0, 0⟩, relto := ⟨0, 0, 0, 0⟩, rect := ⟨0, 0, 100, 100⟩, data := -1,
        datasize := 0, event_flags := 0 },
      { handle := 42, handler := 7, numkids := 0, firstkid := -1, lastkid := -1, parent := 0,
        kidid := 0, nextitem := -1, layout_flags := 3, size := ⟨20, 20⟩, visited := 12,
        margins := ⟨10, 10, 0, 0⟩, relto := ⟨-1, -1, -1, -1⟩, rect := ⟨10, 10, 20, 20⟩,
        data := -1, datasize := 0, event_flags := 15 }],
    datasize := 0 }

/-- a root of size 100 x 100 with one child of size 10 x 10 that is anchored to the top only and
names item 99, which does not exist, as its left neighbor and -5 as its top neighbor -/
def looseCalls : List UIcall :=
  [.setSize 0 100 100, .item, .setParent 1 0, .setSize 1 10 10, .setLayout 1 2,
  .setRelativeTo 1 99 (-5) (-1) (-1)]

/-- the context after `looseCalls` -/
def looseEx : UIcontext :=
  { buttons := 0, last_buttons := 0, start_cursor := ⟨0, 0⟩, last_cursor := ⟨0, 0⟩,
    cursor := ⟨0, 0⟩, hot_handle := 0, active_handle := 0, hot_item := -1, active_item := -1,
    state := .UI_STATE_IDLE,
    items := [
      { handle := 0, handler := 0, numkids := 1, firstkid := 1, lastkid := 1, parent := -1,
        kidid := 0, nextitem := -1, layout_flags := 0, size := ⟨100, 100⟩, visited := 0,
        margins := ⟨0, 0, 0, 0⟩, relto := ⟨0, 0, 0, 0⟩, rect := ⟨0, 0, 0, 0⟩, data := -1,
        datasize := 0, event_flags := 0 },
      { handle := 0, handler := 0, numkids := 0, firstkid := -1, lastkid := -1, parent := 0,
        kidid := 0, nextitem := -1, layout_flags := 2, size := ⟨10, 10⟩, visited := 0,
        margins := ⟨0, 0, 0, 0⟩, relto := ⟨99, -5, -1, -1⟩, rect := ⟨0, 0, 0, 0⟩, data := -1,
        datasize := 0, event_flags := 0 }],
    datasize := 0 }

/-- the context `looseEx` after `uiProcess`: the child is centred horizontally and sits at the
top -/
def looseDone : UIcontext :=
  { buttons := 0, last_buttons := 0, start_cursor := ⟨0, 0⟩, last_cursor := ⟨0, 0⟩,
    cursor := ⟨0, 0⟩, hot_handle := 0, active_handle := 0, hot_item := 0, active_item := -1,
    state := .UI_STATE_IDLE,
    items := [
      { handle := 0, handler := 0, numkids := 1, firstkid := 1, lastkid := 1, parent := -1,
        kidid := 0, nextitem := -1, layout_flags := 0, size := ⟨100, 100⟩, visited := 0,
        margins := ⟨0, 0, 0, 0⟩, relto := ⟨0, 0, 0, 0⟩, rect := ⟨0, 0, 100, 100⟩, data := -1,
        datasize := 0, event_flags := 0 },
      { handle := 0, handler := 0, numkids := 0, firstkid := -1, lastkid := -1, parent := 0,
        kidid := 0, nextitem := -1, layout_flags := 2, size := ⟨10, 10⟩, visited := 12,
        margins := ⟨0, 0, 0, 0⟩, relto := ⟨99, -5, -1, -1⟩, rect := ⟨45, 0, 10, 10⟩, data := -1,
        datasize := 0, event_flags := 0 }],
    datasize := 0 }

/-- a root of size 100 x 100 with one child of size 10 x 10 that is anchored to the left and names
item 99, which does not exist, as its left neighbor -/
def danglingCalls : List UIcall :=
  [.setSize 0 100 100, .item, .setParent 1 0, .setSize 1 10 10, .setLayout 1 1,
  .setRelativeTo 1 99 (-1) (-1) (-1)]

/-- the context after `danglingCalls` -/
def danglingEx : UIcontext :=
  { buttons := 0, last_buttons := 0, start_cursor := ⟨0, 0⟩, last_cursor := ⟨0, 0⟩,
    cursor := ⟨0, 0⟩, hot_handle := 0, active_handle := 0, hot_item := -1, active_item := -1,
    state := .UI_STATE_IDLE,
    items := [
      { handle := 0, handler := 0, numkids := 1, firstkid := 1, lastkid := 1, parent := -1,
        kidid := 0, nextitem := -1, layout_flags := 0, size := ⟨100, 100⟩, visited := 0,
        margins := ⟨0, 0, 0, 0⟩, relto := ⟨0, 0, 0, 0⟩, rect := ⟨0, 0, 0, 0⟩, data := -1,
        datasize := 0, event_flags := 0 },
      { handle := 0, handler := 0, numkids := 0, firstkid := -1, lastkid := -1, parent := 0,
        kidid := 0, nextitem := -1, layout_flags := 1, size := ⟨10, 10⟩, visited := 0,
        margins := ⟨0, 0, 0, 0⟩, relto := ⟨99, -1, -1, -1⟩, rect := ⟨0, 0, 0, 0⟩, data := -1,
        datasize := 0, event_flags := 0 }],
    datasize := 0 }

/-- a root of size 100 x 100 with two children of size 10 x 10, both anchored to the left, that
name each other as left neighbor -/
def ringCalls : List UIcall :=
  [.setSize 0 100 100, .item, .setParent 1 0, .setSize 1 10 10, .setLayout 1 1, .item,
  .setParent 2 0, .setSize 2 10 10, .setLayout 2 1, .setRelativeTo 1 2 (-1) (-1) (-1),
  .setRelativeTo 2 1 (-1) (-1) (-1)]

/-- the context after `ringCalls` -/
def ringEx : UIcontext :=
  { buttons := 0, last_buttons := 0, start_cursor := ⟨0, 0⟩, last_cursor := ⟨0, 0⟩,
    cursor := ⟨0, 0⟩, hot_handle := 0, active_handle := 0, hot_item := -1, active_item := -1,
    state := .UI_STATE_IDLE,
    items := [
      { handle := 0, handler := 0, numkids := 2, firstkid := 1, lastkid := 2, parent := -1,
        kidid := 0, nextitem := -1, layout_flags := 0, size := ⟨100, 100⟩, visited := 0,
        margins := ⟨0, 0, 0, 0⟩, relto := ⟨0, 0, 0, 0⟩, rect := ⟨0, 0, 0, 0⟩, data := -1,
        datasize := 0, event_flags := 0 },
      { handle := 0, handler := 0, numkids := 0, firstkid := -1, lastkid := -1, parent := 0,
        kidid := 0, nextitem := 2, layout_flags := 1, size := ⟨10, 10⟩, visited := 0,
        margins := ⟨0, 0, 0, 0⟩, relto := ⟨2, -1, -1, -1⟩, rect := ⟨0, 0, 0, 0⟩, data := -1,
        datasize := 0, event_flags := 0 },
      { handle := 0, handler := 0, numkids := 0, firstkid := -1, lastkid := -1, parent := 0,
        kidid := 1, nextitem := -1, layout_flags := 1, size := ⟨10, 10⟩, visited := 0,
        margins := ⟨0, 0, 0, 0⟩, relto := ⟨1, -1, -1, -1⟩, rect := ⟨0, 0, 0, 0⟩, data := -1,
        datasize := 0, event_flags := 0 }],
    datasize := 0 }

/-- the context `ringEx` after the size pass of `uiProcess` -/
def ringSized : UIcontext :=
  { buttons := 0, last_buttons := 0, start_cursor := ⟨0, 0⟩, last_cursor := ⟨0, 0⟩,
    cursor := ⟨0, 0⟩, hot_handle := 0, active_handle := 0, hot_item := -1, active_item := -1,
    state := .UI_STATE_IDLE,
    items := [
      { handle := 0, handler := 0, numkids := 2, firstkid := 1, lastkid := 2, parent := -1,
        kidid := 0, nextitem := -1, layout_flags := 0, size := ⟨100, 100⟩, visited := 0,
        margins := ⟨0, 0, 0, 0⟩, relto := ⟨0, 0, 0, 0⟩, rect := ⟨0, 0, 100, 100⟩, data := -1,
        datasize := 0, event_flags := 0 },
      { handle := 0, handler := 0, numkids := 0, firstkid := -1, lastkid := -1, parent := 0,
        kidid := 0, nextitem := 2, layout_flags := 1, size := ⟨10, 10⟩, visited := 0,
        margins := ⟨0, 0, 0, 0⟩, relto := ⟨2, -1, -1, -1⟩, rect := ⟨0, 0, 10, 10⟩, data := -1,
        datasize := 0, event_flags := 0 },
      { handle := 0, handler := 0, numkids := 0, firstkid := -1, lastkid := -1, parent := 0,
        kidid := 1, nextitem := -1, layout_flags := 1, size := ⟨10, 10⟩, visited := 0,
        margins := ⟨0, 0, 0, 0⟩, relto := ⟨1, -1, -1, -1⟩, rect := ⟨0, 0, 10, 10⟩, data := -1,
        datasize := 0, event_flags := 0 }],
    datasize := 0 }

/-- the context `ringEx` after `uiProcess` -/
def ringDone : UIcontext :=
  { buttons := 0, last_buttons := 0, start_cursor := ⟨0, 0⟩, last_cursor := ⟨0, 0⟩,
    cursor := ⟨0, 0⟩, hot_handle := 0, active_handle := 0, hot_item := 0, active_item := -1,
    state := .UI_STATE_IDLE,
    items := [
      { handle := 0, handler := 0, numkids := 2, firstkid := 1, lastkid := 2, parent := -1,
        kidid := 0, nextitem := -1, layout_flags := 0, size := ⟨100, 100⟩, visited := 0,
        margins := ⟨0, 0, 0, 0⟩, relto := ⟨0, 0, 0, 0⟩, rect := ⟨0, 0, 100, 100⟩, data := -1,
        datasize := 0, event_flags := 0 },
      { handle := 0, handler := 0, numkids := 0, firstkid := -1, lastkid := -1, parent := 0,
        kidid := 0, nextitem := 2, layout_flags := 1, size := ⟨10, 10⟩, visited := 12,
        margins := ⟨0, 0, 0, 0⟩, relto := ⟨2, -1, -1, -1⟩, rect := ⟨20, 45, 10, 10⟩, data := -1,
        datasize := 0, event_flags := 0 },
      { handle := 0, handler := 0, numkids := 0, firstkid := -1, lastkid := -1, parent := 0,
        kidid := 1, nextitem := -1, layout_flags := 1, size := ⟨10, 10⟩, visited := 12,
        margins := ⟨0, 0, 0, 0⟩, relto := ⟨1, -1, -1, -1⟩, rect := ⟨10, 45, 10, 10⟩, data := -1,
        datasize := 0, event_flags := 0 }],
    datasize := 0 }

/-- the calls of `ringCalls` without the size of the root: the root is sized from its children -/
def cycleCalls : List UIcall :=
  [.item, .setParent 1 0, .setSize 1 10 10, .setLayout 1 1, .item, .setParent 2 0,
  .setSize 2 10 10, .setLayout 2 1, .setRelativeTo 1 2 (-1) (-1) (-1),
  .setRelativeTo 2 1 (-1) (-1) (-1)]

/-- the context after `cycleCalls` -/
def cycleEx : UIcontext :=
  { buttons := 0, last_buttons := 0, start_cursor := ⟨0, 0⟩, last_cursor := ⟨0, 0⟩,
    cursor := ⟨0, 0⟩, hot_handle := 0, active_handle := 0, hot_item := -1, active_item := -1,
    state := .UI_STATE_IDLE,
    items := [
      { handle := 0, handler := 0, numkids := 2, firstkid := 1, lastkid := 2, parent := -1,
        kidid := 0, nextitem := -1, layout_flags := 0, size := ⟨0, 0⟩, visited := 0,
        margins := ⟨0, 0, 0, 0⟩, relto := ⟨0, 0, 0, 0⟩, rect := ⟨0, 0, 0, 0⟩, data := -1,
        datasize := 0, event_flags := 0 },
      { handle := 0, handler := 0, numkids := 0, firstkid := -1, lastkid := -1, parent := 0,
        kidid := 0, nextitem := 2, layout_flags := 1, size := ⟨10, 10⟩, visited := 0,
        margins := ⟨0, 0, 0, 0⟩, relto := ⟨2, -1, -1, -1⟩, rect := ⟨0, 0, 0, 0⟩, data := -1,
        datasize := 0, event_flags := 0 },
      { handle := 0, handler := 0, numkids := 0, firstkid := -1, lastkid := -1, parent := 0,
        kidid := 1, nextitem := -1, layout_flags := 1, size := ⟨10, 10⟩, visited := 0,
        margins := ⟨0, 0, 0, 0⟩, relto := ⟨1, -1, -1, -1⟩, rect := ⟨0, 0, 0, 0⟩, data := -1,
        datasize := 0, event_flags := 0 }],
    datasize := 0 }

/-- the hierarchy of `ringEx` and `cycleEx`: two children of the root -/
def twoKids : KTree := .node 1 .nil (.node 2 .nil .nil)

/-- a root without size hint with two children anchored left only: item 1 of size 10 x 10 with a
left margin of 100, and item 2 without width hint, whose child item 3, of size 5 x 5 and
anchored right, names item 1 as its right neighbor -/
def maskCalls : List UIcall :=
  [.item, .setParent 1 0, .setSize 1 10 10, .setLayout 1 1, .setMargins 1 100 0 0 0, .item,
  .setParent 2 0, .setSize 2 0 10, .setLayout 2 1, .item, .setParent 3 2, .setSize 3 5 5,
  .setLayout 3 4, .setRelativeTo 3 (-1) (-1) 1 (-1)]

/-- the context after `maskCalls` -/
def maskEx : UIcontext :=
  { buttons := 0, last_buttons := 0, start_cursor := ⟨0, 0⟩, last_cursor := ⟨0, 0⟩,
    cursor := ⟨0, 0⟩, hot_handle := 0, active_handle := 0, hot_item := -1, active_item := -1,
    state := .UI_STATE_IDLE,
    items := [
      { handle := 0, handler := 0, numkids := 2, firstkid := 1, lastkid := 2, parent := -1,
        kidid := 0, nextitem := -1, layout_flags := 0, size := ⟨0, 0⟩, visited := 0,
        margins := ⟨0, 0, 0, 0⟩, relto := ⟨0, 0, 0, 0⟩, rect := ⟨0, 0, 0, 0⟩, data := -1,
        datasize := 0, event_flags := 0 },
      { handle := 0, handler := 0, numkids := 0, firstkid := -1, lastkid := -1, parent := 0,
        kidid := 0, nextitem := 2, layout_flags := 1, size := ⟨10, 10⟩, visited := 0,
        margins := ⟨100, 0, 0, 0⟩, relto := ⟨-1, -1, -1, -1⟩, rect := ⟨0, 0, 0, 0⟩, data := -1,
        datasize := 0, event_flags := 0 },
      { handle := 0, handler := 0, numkids := 1, firstkid := 3, lastkid := 3, parent := 0,
        kidid := 1, nextitem := -1, layout_flags := 1, size := ⟨0, 10⟩, visited := 0,
        margins := ⟨0, 0, 0, 0⟩, relto := ⟨-1, -1, -1, -1⟩, rect := ⟨0, 0, 0, 0⟩, data := -1,
        datasize := 0, event_flags := 0 },
      { handle := 0, handler := 0, numkids := 0, firstkid := -1, lastkid := -1, parent := 2,
        kidid := 0, nextitem := -1, layout_flags := 4, size := ⟨5, 5⟩, visited := 0,
        margins := ⟨0, 0, 0, 0⟩, relto := ⟨-1, -1, 1, -1⟩, rect := ⟨0, 0, 0, 0⟩, data := -1,
        datasize := 0, event_flags := 0 }],
    datasize := 0 }

/-- the context `maskEx` after the size pass of `uiProcess` -/
def maskSized : UIcontext :=
  { buttons := 0, last_buttons := 0, start_cursor := ⟨0, 0⟩, last_cursor := ⟨0, 0⟩,
    cursor := ⟨0, 0⟩, hot_handle := 0, active_handle := 0, hot_item := -1, active_item := -1,
    state := .UI_STATE_IDLE,
    items := [
      { handle := 0, handler := 0, numkids := 2, firstkid := 1, lastkid := 2, parent := -1,
        kidid := 0, nextitem := -1, layout_flags := 0, size := ⟨0, 0⟩, visited := 0,
        margins := ⟨0, 0, 0, 0⟩, relto := ⟨0, 0, 0, 0⟩, rect := ⟨0, 0, 15, 10⟩, data := -1,
        datasize := 0, event_flags := 0 },
      { handle := 0, handler := 0, numkids := 0, firstkid := -1, lastkid := -1, parent := 0,
        kidid := 0, nextitem := 2, layout_flags := 1, size := ⟨10, 10⟩, visited := 3,
        margins := ⟨100, 0, 0, 0⟩, relto := ⟨-1, -1, -1, -1⟩, rect := ⟨0, 0, 10, 10⟩, data := -1,
        datasize := 0, event_flags := 0 },
      { handle := 0, handler := 0, numkids := 1, firstkid := 3, lastkid := 3, parent := 0,
        kidid := 1, nextitem := -1, layout_flags := 1, size := ⟨0, 10⟩, visited := 3,
        margins := ⟨0, 0, 0, 0⟩, relto := ⟨-1, -1, -1, -1⟩, rect := ⟨0, 0, 15, 10⟩, data := -1,
        datasize := 0, event_flags := 0 },
      { handle := 0, handler := 0, numkids := 0, firstkid := -1, lastkid := -1, parent := 2,
        kidid := 0, nextitem := -1, layout_flags := 4, size := ⟨5, 5⟩, visited := 1,
        margins := ⟨0, 0, 0, 0⟩, relto := ⟨-1, -1, 1, -1⟩, rect := ⟨0, 0, 5, 5⟩, data := -1,
        datasize := 0, event_flags := 0 }],
    datasize := 0 }

/-- the context `maskEx` after both solver passes of `uiProcess` -/
def maskLaid : UIcontext :=
  { buttons := 0, last_buttons := 0, start_cursor := ⟨0, 0⟩, last_cursor := ⟨0, 0⟩,
    cursor := ⟨0, 0⟩, hot_handle := 0, active_handle := 0, hot_item := -1, active_item := -1,
    state := .UI_STATE_IDLE,
    items := [
      { handle := 0, handler := 0, numkids := 2, firstkid := 1, lastkid := 2, parent := -1,
        kidid := 0, nextitem := -1, layout_flags := 0, size := ⟨0, 0⟩, visited := 0,
        margins := ⟨0, 0, 0, 0⟩, relto := ⟨0, 0, 0, 0⟩, rect := ⟨0, 0, 15, 10⟩, data := -1,
        datasize := 0, event_flags := 0 },
      { handle := 0, handler := 0, numkids := 0, firstkid := -1, lastkid := -1, parent := 0,
        kidid := 0, nextitem := 2, layout_flags := 1, size := ⟨10, 10⟩, visited := 15,
        margins := ⟨100, 0, 0, 0⟩, relto := ⟨-1, -1, -1, -1⟩, rect := ⟨100, 0, 10, 10⟩,
        data := -1, datasize := 0, event_flags := 0 },
      { handle := 0, handler := 0, numkids := 1, firstkid := 3, lastkid := 3, parent := 0,
        kidid := 1, nextitem := -1, layout_flags := 1, size := ⟨0, 10⟩, visited := 15,
        margins := ⟨0, 0, 0, 0⟩, relto := ⟨-1, -1, -1, -1⟩, rect := ⟨0, 0, 15, 10⟩, data := -1,
        datasize := 0, event_flags := 0 },
      { handle := 0, handler := 0, numkids := 0, firstkid := -1, lastkid := -1, parent := 2,
        kidid := 0, nextitem := -1, layout_flags := 4, size := ⟨5, 5⟩, visited := 13,
        margins := ⟨0, 0, 0, 0⟩, relto := ⟨-1, -1, 1, -1⟩, rect := ⟨95, 2, 5, 5⟩, data := -1,
        datasize := 0, event_flags := 0 }],
    datasize := 0 }

/-- the context `maskEx` after `uiProcess`: the root is 15 wide -/
def maskDone : UIcontext :=
  { buttons := 0, last_buttons := 0, start_cursor := ⟨0, 0⟩, last_cursor := ⟨0, 0⟩,
    cursor := ⟨0, 0⟩, hot_handle := 0, active_handle := 0, hot_item := 2, active_item := -1,
    state := .UI_STATE_IDLE,
    items := [
      { handle := 0, handler := 0, numkids := 2, firstkid := 1, lastkid := 2, parent := -1,
        kidid := 0, nextitem := -1, layout_flags := 0, size := ⟨0, 0⟩, visited := 0,
        margins := ⟨0, 0, 0, 0⟩, relto := ⟨0, 0, 0, 0⟩, rect := ⟨0, 0, 15, 10⟩, data := -1,
        datasize := 0, event_flags := 0 },
      { handle := 0, handler := 0, numkids := 0, firstkid := -1, lastkid := -1, parent := 0,
        kidid := 0, nextitem := 2, layout_flags := 1, size := ⟨10, 10⟩, visited := 15,
        margins := ⟨100, 0, 0, 0⟩, relto := ⟨-1, -1, -1, -1⟩, rect := ⟨100, 0, 10, 10⟩,
        data := -1, datasize := 0, event_flags := 0 },
      { handle := 0, handler := 0, numkids := 1, firstkid := 3, lastkid := 3, parent := 0,
        kidid := 1, nextitem := -1, layout_flags := 1, size := ⟨0, 10⟩, visited := 15,
        margins := ⟨0, 0, 0, 0⟩, relto := ⟨-1, -1, -1, -1⟩, rect := ⟨0, 0, 15, 10⟩, data := -1,
        datasize := 0, event_flags := 0 },
      { handle := 0, handler := 0, numkids := 0, firstkid := -1, lastkid := -1, parent := 2,
        kidid := 0, nextitem := -1, layout_flags := 4, size := ⟨5, 5⟩, visited := 13,
        margins := ⟨0, 0, 0, 0⟩, relto := ⟨-1, -1, 1, -1⟩, rect := ⟨95, 2, 5, 5⟩, data := -1,
        datasize := 0, event_flags := 0 }],
    datasize := 0 }

/-- the hierarchy of `maskEx`: item 3 is a child of item 2 -/
def maskTree : KTree := .node 1 .nil (.node 2 (.node 3 .nil .nil) .nil)

/-- a root without size hint with two children anchored left only: item 1 of size 10 x 10 with a
left margin of 3, and item 2 of size 20 x 10 with a left margin of 4 and item 1 as left
neighbor -/
def rowCalls : List UIcall :=
  [.item, .setParent 1 0, .setSize 1 10 10, .setLayout 1 1, .setMargins 1 3 0 0 0, .item,
  .setParent 2 0, .setSize 2 20 10, .setLayout 2 1, .setMargins 2 4 0 0 0,
  .setRelativeTo 2 1 (-1) (-1) (-1)]

/-- the context after `rowCalls` -/
def rowEx : UIcontext :=
  { buttons := 0, last_buttons := 0, start_cursor := ⟨0, 0⟩, last_cursor := ⟨0, 0⟩,
    cursor := ⟨0, 0⟩, hot_handle := 0, active_handle := 0, hot_item := -1, active_item := -1,
    state := .UI_STATE_IDLE,
    items := [
      { handle := 0, handler := 0, numkids := 2, firstkid := 1, lastkid := 2, parent := -1,
        kidid := 0, nextitem := -1, layout_flags := 0, size := ⟨0, 0⟩, visited := 0,
        margins := ⟨0, 0, 0, 0⟩, relto := ⟨0, 0, 0, 0⟩, rect := ⟨0, 0, 0, 0⟩, data := -1,
        datasize := 0, event_flags := 0 },
      { handle := 0, handler := 0, numkids := 0, firstkid := -1, lastkid := -1, parent := 0,
        kidid := 0, nextitem := 2, layout_flags := 1, size := ⟨10, 10⟩, visited := 0,
        margins := ⟨3, 0, 0, 0⟩, relto := ⟨-1, -1, -1, -1⟩, rect := ⟨0, 0, 0, 0⟩, data := -1,
        datasize := 0, event_flags := 0 },
      { handle := 0, handler := 0, numkids := 0, firstkid := -1, lastkid := -1, parent := 0,
        kidid := 1, nextitem := -1, layout_flags := 1, size := ⟨20, 10⟩, visited := 0,
        margins := ⟨4, 0, 0, 0⟩, relto := ⟨1, -1, -1, -1⟩, rect := ⟨0, 0, 0, 0⟩, data := -1,
        datasize := 0, event_flags := 0 }],
    datasize := 0 }

/-- a root of size 100 x 100 with one child of size 10 x 10, anchored left, with a left margin
of 7 -/
def flatCalls : List UIcall :=
  [.setSize 0 100 100, .item, .setParent 1 0, .setSize 1 10 10, .setLayout 1 1,
  .setMargins 1 7 0 0 0]

/-- the context after `flatCalls` -/
def flatEx : UIcontext :=
  { buttons := 0, last_buttons := 0, start_cursor := ⟨0, 0⟩, last_cursor := ⟨0, 0⟩,
    cursor := ⟨0, 0⟩, hot_handle := 0, active_handle := 0, hot_item := -1, active_item := -1,
    state := .UI_STATE_IDLE,
    items := [
      { handle := 0, handler := 0, numkids := 1, firstkid := 1, lastkid := 1, parent := -1,
        kidid := 0, nextitem := -1, layout_flags := 0, size := ⟨100, 100⟩, visited := 0,
        margins := ⟨0, 0, 0, 0⟩, relto := ⟨0, 0, 0, 0⟩, rect := ⟨0, 0, 0, 0⟩, data := -1,
        datasize := 0, event_flags := 0 },
      { handle := 0, handler := 0, numkids := 0, firstkid := -1, lastkid := -1, parent := 0,
        kidid := 0, nextitem := -1, layout_flags := 1, size := ⟨10, 10⟩, visited := 0,
        margins := ⟨7, 0, 0, 0⟩, relto := ⟨-1, -1, -1, -1⟩, rect := ⟨0, 0, 0, 0⟩, data := -1,
        datasize := 0, event_flags := 0 }],
    datasize := 0 }

/-- the context `flatEx` after `uiProcess` -/
def flatDone : UIcontext :=
  { buttons := 0, last_buttons := 0, start_cursor := ⟨0, 0⟩, last_cursor := ⟨0, 0⟩,
    cursor := ⟨0, 0⟩, hot_handle := 0, active_handle := 0, hot_item := 0, active_item := -1,
    state := .UI_STATE_IDLE,
    items := [
      { handle := 0, handler := 0, numkids := 1, firstkid := 1, lastkid := 1, parent := -1,
        kidid := 0, nextitem := -1, layout_flags := 0, size := ⟨100, 100⟩, visited := 0,
        margins := ⟨0, 0, 0, 0⟩, relto := ⟨0, 0, 0, 0⟩, rect := ⟨0, 0, 100, 100⟩, data := -1,
        datasize := 0, event_flags := 0 },
      { handle := 0, handler := 0, numkids := 0, firstkid := -1, lastkid := -1, parent := 0,
        kidid := 0, nextitem := -1, layout_flags := 1, size := ⟨10, 10⟩, visited := 12,
        margins := ⟨7, 0, 0, 0⟩, relto := ⟨-1, -1, -1, -1⟩, rect := ⟨7, 45, 10, 10⟩, data := -1,
        datasize := 0, event_flags := 0 }],
    datasize := 0 }

/-- the calls of `flatCalls` with other inputs of the y dimension: the root is 60 high, the child
is 20 high, also anchored to the top and the bottom, with a top margin of 8 and a bottom
margin of 9 -/
def tallCalls : List UIcall :=
  [.setSize 0 100 60, .item, .setParent 1 0, .setSize 1 10 20, .setLayout 1 11,
  .setMargins 1 7 8 0 9]

/-- the context after `tallCalls` -/
def tallEx : UIcontext :=
  { buttons := 0, last_buttons := 0, start_cursor := ⟨0, 0⟩, last_cursor := ⟨0, 0⟩,
    cursor := ⟨0, 0⟩, hot_handle := 0, active_handle := 0, hot_item := -1, active_item := -1,
    state := .UI_STATE_IDLE,
    items := [
      { handle := 0, handler := 0, numkids := 1, firstkid := 1, lastkid := 1, parent := -1,
        kidid := 0, nextitem := -1, layout_flags := 0, size := ⟨100, 60⟩, visited := 0,
        margins := ⟨0, 0, 0, 0⟩, relto := ⟨0, 0, 0, 0⟩, rect := ⟨0, 0, 0, 0⟩, data := -1,
        datasize := 0, event_flags := 0 },
      { handle := 0, handler := 0, numkids := 0, firstkid := -1, lastkid := -1, parent := 0,
        kidid := 0, nextitem := -1, layout_flags := 11, size := ⟨10, 20⟩, visited := 0,
        margins := ⟨7, 8, 0, 9⟩, relto := ⟨-1, -1, -1, -1⟩, rect := ⟨0, 0, 0, 0⟩, data := -1,
        datasize := 0, event_flags := 0 }],
    datasize := 0 }

/-- the context `tallEx` after `uiProcess` -/
def tallDone : UIcontext :=
  { buttons := 0, last_buttons := 0, start_cursor := ⟨0, 0⟩, last_cursor := ⟨0, 0⟩,
    cursor := ⟨0, 0⟩, hot_handle := 0, active_handle := 0, hot_item := 0, active_item := -1,
    state := .UI_STATE_IDLE,
    items := [
      { handle := 0, handler := 0, numkids := 1, firstkid := 1, lastkid := 1, parent := -1,
        kidid := 0, nextitem := -1, layout_flags := 0, size := ⟨100, 60⟩, visited := 0,
        margins := ⟨0, 0, 0, 0⟩, relto := ⟨0, 0, 0, 0⟩, rect := ⟨0, 0, 100, 60⟩, data := -1,
        datasize := 0, event_flags := 0 },
      { handle := 0, handler := 0, numkids := 0, firstkid := -1, lastkid := -1, parent := 0,
        kidid := 0, nextitem := -1, layout_flags := 11, size := ⟨10, 20⟩, visited := 12,
        margins := ⟨7, 8, 0, 9⟩, relto := ⟨-1, -1, -1, -1⟩, rect := ⟨7, 8, 10, 43⟩, data := -1,
        datasize := 0, event_flags := 0 }],
    datasize := 0 }

/-- the effect of a position step of dimension `dim` on the marks -/
def MStepD (dim : Nat) (c c' : UIcontext) : Prop :=
  c'.decl = c.decl ∧
  (∀ q d, laidOut c q d → laidOut c' q d) ∧
  (∀ q d, d ≠ dim → laidOut c' q d → laidOut c q d) ∧
  (∀ k, Dangling c k dim → ¬ laidOut c k dim → ¬ laidOut c' k dim)

/-- the effect of position steps of both dimensions on the marks -/
def MStep (c c' : UIcontext) : Prop :=
  c'.decl = c.decl ∧
  (∀ q d, laidOut c q d → laidOut c' q d) ∧
  (∀ k dim, dim < 2 → Dangling c k dim → ¬ laidOut c k dim → ¬ laidOut c' k dim)

/-- the live items that the position pass of dimension `dim` has not marked yet -/
def unmarked (c : UIcontext) (dim : Nat) : Finset Nat :=
  (Finset.range c.count).filter (fun q => (c.get q).visited &&& (4 <<< dim) = 0)

/-- the size pass has marked item `q` as part of a chain of dimension `dim` -/
def chained (c : UIcontext) (q dim : Nat) : Prop := (c.get q).visited &&& (1 <<< dim) ≠ 0

/-- no item of `S` becomes marked as part of a chain of dimension `dim` -/
def KeepsUnchained (dim : Nat) (S : List Nat) (c c' : UIcontext) : Prop :=
  c'.decl = c.decl ∧ ∀ q ∈ S, chained c' q dim → chained c q dim

/-- the edge along which the walk with flag `f` follows the neighbors in dimension `dim` -/
def WalkEdge (dim : Nat) (f : Int) (e : Nat) : Prop :=
  (UI_LEFT = f ∧ e = dim) ∨ (UI_RIGHT = f ∧ e = dim + 2)

/-- the items of `S` form a loop for the walk with flag `fA` along edge `eA`, and the other
walk, the one with flag `fB`, steps from no item to an item of `S` -/
def Loops (c : UIcontext) (dim : Nat) (fA : Int) (eA : Nat) (fB : Int) (S : List Nat) : Prop :=
  ChainLoop c dim fA eA S ∧
  ∀ q e, Int.land ((c.get q).layout_flags >>> dim) fB ≠ 0 → WalkEdge dim fB e →
    0 ≤ (c.get q).relto.v e → ((c.get q).relto.v e).toNat ∉ S

/-- the two walks of `uiComputeChainSize` are the looping walk and the other walk -/
def Adm (dim : Nat) (fA : Int) (eA : Nat) (fB : Int) : Prop :=
  ((UI_LEFT = fA ∧ dim = eA) ∨ UI_LEFT = fB) ∧ ((UI_RIGHT = fA ∧ dim + 2 = eA) ∨ UI_RIGHT = fB)

/-- an item of the tree without size hint in dimension `dim` has the child `k` -/
def KTree.under (c : UIcontext) (dim k : Nat) : KTree → Prop
  | .nil => False
  | .node i kids next =>
    ((c.get i).size.v dim = 0 ∧ k ∈ kids.roots) ∨ kids.under c dim k ∨ next.under c dim k

/-- the item that a loop of `uiComputeChainSize` visits after the item `p`: the neighbor that
`p` names on the edge `edge`, when `p` has the flag `flag` in dimension `dim` and the reference
names a live item; `none` when the loop ends at `p`, by the test of the flag, by the `break` on
a negative reference, or by the assertion of `uiItemPtr` -/
def chainNext (c : UIcontext) (dim : Nat) (flag : Int) (edge : Nat) (p : Nat) : Option Nat :=
  if Int.land ((c.get p).layout_flags >>> dim) flag ≠ 0 ∧ 0 ≤ (c.get p).relto.v edge ∧
      (c.get p).relto.v edge < c.count then
    some ((c.get p).relto.v edge).toNat
  else none

/-- the item that the loop visits `i` steps after it has started at the item `p` -/
def chainVisit (c : UIcontext) (dim : Nat) (flag : Int) (edge : Nat) (p : Nat) : Nat → Option Nat
  | 0 => some p
  | i + 1 => (chainVisit c dim flag edge p i).bind (chainNext c dim flag edge)

/-- the loop that starts at the item `p` visits the item `x` -/
def Reaches (c : UIcontext) (dim : Nat) (flag : Int) (edge : Nat) (p x : Nat) : Prop :=
  ∃ i, chainVisit c dim flag edge p i = some x

/-- the neighbor references that the loop follows from the item `p` revisit an item: the loop
is at the same item after `i` steps and after `j > i` steps, so the references it follows form
a cycle -/
def Revisits (c : UIcontext) (dim : Nat) (flag : Int) (edge : Nat) (p : Nat) : Prop :=
  ∃ i j x, i < j ∧ chainVisit c dim flag edge p i = some x ∧
    chainVisit c dim flag edge p j = some x

/-- the neighbor references that `uiComputeChainSize` follows from the item `p` in dimension
`dim` revisit an item, in the loop along the left neighbors or in the loop along the right
neighbors. An item that both loops reach, each once, is not revisited: no cycle leads to it -/
def WalkRevisits (c : UIcontext) (dim p : Nat) : Prop :=
  Revisits c dim UI_LEFT dim p ∨ Revisits c dim UI_RIGHT (dim + 2) p

/-- no item that has the flag `fB` in dimension `dim` names, on the edge `eB`, an item that the
loop with flag `fA` along the edge `eA` visits from the item `p` -/
def Unmasked (c : UIcontext) (dim : Nat) (fA : Int) (eA : Nat) (fB : Int) (eB : Nat)
    (p : Nat) : Prop :=
  ∀ a, a < c.count → Int.land ((c.get a).layout_flags >>> dim) fB ≠ 0 →
    0 ≤ (c.get a).relto.v eB → ¬ Reaches c dim fA eA p ((c.get a).relto.v eB).toNat

/-- the calls of `uiComputeChainSize` that the `while (kid > 0)` loop of `uiComputeSizeDim`
makes, in order: the item and the dimension of each call, up to the first call that fails -/
def walksOfSizeDimKids (dim : Nat) : Nat → UIcontext → Int → List (Nat × Nat)
  | 0, _, _ => []
  | fuel + 1, c, kid =>
    if kid > 0 then
      match uiItemPtr c kid with
      | .error _ => []
      | .ok pkid =>
        if (c.get pkid).visited &&& (1 <<< dim) = 0 then
          (pkid, dim) ::
            match uiComputeChainSize c pkid dim with
            | .error _ => []
            | .ok (c, _) =>
              match uiNextSibling c kid with
              | .error _ => []
              | .ok next => walksOfSizeDimKids dim fuel c next
        else
          match uiNextSibling c kid with
          | .error _ => []
          | .ok next => walksOfSizeDimKids dim fuel c next
    else []

/-- the calls of `uiComputeChainSize` that `uiComputeSizeDim` makes: none when the item has a
size hint in the dimension -/
def walksOfSizeDim (fuel : Nat) (c : UIcontext) (pitem : Nat) (dim : Nat) : List (Nat × Nat) :=
  if (c.get pitem).size.v dim ≠ 0 then []
  else walksOfSizeDimKids dim fuel c (c.get pitem).firstkid

mutual
/-- the calls of `uiComputeChainSize` that `uiComputeBestSize` makes, in order -/
def walksOfBestSize : Nat → UIcontext → Int → List (Nat × Nat)
  | 0, _, _ => []
  | fuel + 1, c, item =>
    match uiItemPtr c item with
    | .error _ => []
    | .ok pitem =>
      let c := c.modify pitem (fun i => { i with visited := 0 })
      match uiFirstChild c item with
      | .error _ => []
      | .ok kid =>
        walksOfBestSizeKids fuel c kid ++
          match uiComputeBestSizeKids fuel c kid with
          | .error _ => []
          | .ok c =>
            walksOfSizeDim fuel c pitem 0 ++
              match uiComputeSizeDim fuel c pitem 0 with
              | .error _ => []
              | .ok c => walksOfSizeDim fuel c pitem 1
/-- the calls of `uiComputeChainSize` that the `while (kid > 0)` loop of `uiComputeBestSize`
makes, in order -/
def walksOfBestSizeKids : Nat → UIcontext → Int → List (Nat × Nat)
  | 0, _, _ => []
  | fuel + 1, c, kid =>
    if kid > 0 then
      walksOfBestSize fuel c kid ++
        match uiComputeBestSize fuel c kid with
        | .error _ => []
        | .ok c =>
          match uiNextSibling c kid with
          | .error _ => []
          | .ok next => walksOfBestSizeKids fuel c next
    else []
end

/-- the chain walks that `uiProcess` runs: the item and the dimension of every call of
`uiComputeChainSize`, in order, up to the first call that fails. Only the size pass calls
`uiComputeChainSize` -/
def walksOfProcess (c : UIcontext) : List (Nat × Nat) := walksOfBestSize (uiFuel c) c 0

/-- the calls of `cycleCalls`, then two more items: item 3, a child of the root that is
anchored to the right and has no size hint, and its child item 4 of size 5 x 5, which is
anchored to both sides; neither names a neighbor -/
def cycleMoreCalls : List UIcall :=
  [.item, .setParent 1 0, .setSize 1 10 10, .setLayout 1 1, .item, .setParent 2 0,
  .setSize 2 10 10, .setLayout 2 1, .setRelativeTo 1 2 (-1) (-1) (-1),
  .setRelativeTo 2 1 (-1) (-1) (-1), .item, .setParent 3 0, .setLayout 3 4, .item,
  .setParent 4 3, .setSize 4 5 5, .setLayout 4 5]

/-- the context after `cycleMoreCalls` -/
def cycleMoreEx : UIcontext :=
  { buttons := 0, last_buttons := 0, start_cursor := ⟨0, 0⟩, last_cursor := ⟨0, 0⟩,
    cursor := ⟨0, 0⟩, hot_handle := 0, active_handle := 0, hot_item := -1, active_item := -1,
    state := .UI_STATE_IDLE,
    items := [
      { handle := 0, handler := 0, numkids := 3, firstkid := 1, lastkid := 3, parent := -1,
        kidid := 0, nextitem := -1, layout_flags := 0, size := ⟨0, 0⟩, visited := 0,
        margins := ⟨0, 0, 0, 0⟩, relto := ⟨0, 0, 0, 0⟩, rect := ⟨0, 0, 0, 0⟩, data := -1,
        datasize := 0, event_flags := 0 },
      { handle := 0, handler := 0, numkids := 0, firstkid := -1, lastkid := -1, parent := 0,
        kidid := 0, nextitem := 2, layout_flags := 1, size := ⟨10, 10⟩, visited := 0,
        margins := ⟨0, 0, 0, 0⟩, relto := ⟨2, -1, -1, -1⟩, rect := ⟨0, 0, 0, 0⟩, data := -1,
        datasize := 0, event_flags := 0 },
      { handle := 0, handler := 0, numkids := 0, firstkid := -1, lastkid := -1, parent := 0,
        kidid := 1, nextitem := 3, layout_flags := 1, size := ⟨10, 10⟩, visited := 0,
        margins := ⟨0, 0, 0, 0⟩, relto := ⟨1, -1, -1, -1⟩, rect := ⟨0, 0, 0, 0⟩, data := -1,
        datasize := 0, event_flags := 0 },
      { handle := 0, handler := 0, numkids := 1, firstkid := 4, lastkid := 4, parent := 0,
        kidid := 2, nextitem := -1, layout_flags := 4, size := ⟨0, 0⟩, visited := 0,
        margins := ⟨0, 0, 0, 0⟩, relto := ⟨-1, -1, -1, -1⟩, rect := ⟨0, 0, 0, 0⟩, data := -1,
        datasize := 0, event_flags := 0 },
      { handle := 0, handler := 0, numkids := 0, firstkid := -1, lastkid := -1, parent := 3,
        kidid := 0, nextitem := -1, layout_flags := 5, size := ⟨5, 5⟩, visited := 0,
        margins := ⟨0, 0, 0, 0⟩, relto := ⟨-1, -1, -1, -1⟩, rect := ⟨0, 0, 0, 0⟩, data := -1,
        datasize := 0, event_flags := 0 }],
    datasize := 0 }

/-- the hierarchy of `cycleMoreEx`: three children of the root, the third with one child -/
def moreKids : KTree := .node 1 .nil (.node 2 .nil (.node 3 (.node 4 .nil .nil) .nil))

/-- the sibling list from `kid` on, read from the fields -/
def Chain (c : UIcontext) : Int → List Int → Prop
  | kid, [] => kid = -1
  | kid, x :: xs => kid = x ∧ 0 < x ∧ x < c.count ∧ Chain c (c.get x.toNat).nextitem xs

/-- the invariant of the child lists: `log p` is the list of the items attached to `p` -/
structure KidsInv (c : UIcontext) (log : Int → List Int) : Prop where
  live : 0 < c.count
  chain : ∀ p : Nat, p < c.count → Chain c (c.get p).firstkid (log p)
  last : ∀ p : Nat, p < c.count → (c.get p).lastkid = ((log p).getLast?).getD (-1)
  num : ∀ p : Nat, p < c.count → (c.get p).numkids = ((log p).length : Int)
  elem : ∀ (p : Int) (i : Nat) (x : Int), (log p)[i]? = some x →
    0 < x ∧ x < c.count ∧ (c.get x.toNat).kidid = (i : Int) ∧ (c.get x.toNat).parent = p
  dead : ∀ p : Int, ¬ (0 ≤ p ∧ p < c.count) → log p = []
  loose : ∀ x : Nat, x < c.count → (c.get x).parent = -1 → (c.get x).nextitem = -1
  root : (c.get 0).parent = -1
  nodup : ∀ p, (log p).Nodup

/-- every item of the list is anchored near only, and its near neighbor reference is -1 or
names an item further down the list -/
def Back (c : UIcontext) (dim : Nat) : List Nat → Prop
  | [] => True
  | k :: pre =>
    (Int.land ((c.get k).layout_flags >>> dim) UI_LEFT ≠ 0 ∧
      Int.land ((c.get k).layout_flags >>> dim) UI_RIGHT = 0 ∧
      ((c.get k).relto.v dim = -1 ∨
        (0 ≤ (c.get k).relto.v dim ∧ ((c.get k).relto.v dim).toNat ∈ pre))) ∧
    Back c dim pre

/-- the context `cF` has the extents, margins and neighbors of `c` on the items of `l` -/
def SameChain (dim : Nat) (cF c : UIcontext) (l : List Nat) : Prop :=
  ∀ q ∈ l, (cF.get q).rect.v (dim + 2) = (c.get q).rect.v (dim + 2) ∧
    (cF.get q).margins = (c.get q).margins ∧ (cF.get q).relto = (c.get q).relto

/-- two items agree on the inputs and on the state of dimension `d` -/
def IRel (d : Nat) (i j : UIitem) : Prop := i.inputs d = j.inputs d ∧ i.view d = j.view d

/-- two contexts agree on the inputs and on the state of dimension `d` -/
def DRel (d : Nat) (a b : UIcontext) : Prop :=
  a.count = b.count ∧ ∀ q, IRel d (a.get q) (b.get q)

/-! ## The drawing helper `bndSelectCorners` and the button queries -/

abbrev BND_CORNER_NONE : Int := 0

abbrev BND_CORNER_TOP_LEFT : Int := 1

abbrev BND_CORNER_TOP_RIGHT : Int := 2

abbrev BND_CORNER_DOWN_RIGHT : Int := 4

abbrev BND_CORNER_DOWN_LEFT : Int := 8

abbrev BND_CORNER_ALL : Int := 15

/-- The function `bndSelectCorners` of `blendish.h`. The array `radiuses` is a list; the type
of the radii, `float` in the source, is a parameter, since the function only stores `r` and
the constant 0. -/
def bndSelectCorners {α : Type} [OfNat α 0] (radiuses : List α) (r : α) (flags : Int) :
    List α :=
  let radiuses := radiuses.set 0 (if Int.land flags BND_CORNER_TOP_LEFT ≠ 0 then 0 else r)
  let radiuses := radiuses.set 1 (if Int.land flags BND_CORNER_TOP_RIGHT ≠ 0 then 0 else r)
  let radiuses := radiuses.set 2 (if Int.land flags BND_CORNER_DOWN_RIGHT ≠ 0 then 0 else r)
  radiuses.set 3 (if Int.land flags BND_CORNER_DOWN_LEFT ≠ 0 then 0 else r)

/-- The function `uiButtonPressed`: `!uiGetLastButton(button) && uiGetButton(button)`. -/
def uiButtonPressed (c : UIcontext) (button : Nat) : Int :=
  if ¬ uiGetLastButton c button ≠ 0 ∧ uiGetButton c button ≠ 0 then 1 else 0

/-- The function `uiButtonReleased`: `uiGetLastButton(button) && !uiGetButton(button)`. -/
def uiButtonReleased (c : UIcontext) (button : Nat) : Int :=
  if uiGetLastButton c button ≠ 0 ∧ ¬ uiGetButton c button ≠ 0 then 1 else 0

/-! ## Notions used in the statements on data blobs, hit tests and reachable contexts -/

/-- the allocations of a call sequence: the item and the size of every `uiAllocData` call, in
the order of the calls -/
def allocations : List UIcall → List (Int × Int)
  | [] => []
  | .allocData item size :: rest => (item, size) :: allocations rest
  | _ :: rest => allocations rest

/-- the number of bytes handed out before allocation number `i` of the list -/
def offsetOf (l : List (Int × Int)) (i : Nat) : Int := ((l.take i).map Prod.snd).sum

/-- the point lies in the rect, the bounds being half-open: `x0 ≤ x < x0 + w` and
`y0 ≤ y < y0 + h` -/
def inRect (r : UIrect) (x y : Int) : Prop :=
  r.x ≤ x ∧ x < r.x + r.w ∧ r.y ≤ y ∧ y < r.y + r.h

instance (r : UIrect) (x y : Int) : Decidable (inRect r x y) := by
  unfold inRect; infer_instance

/-- item `b` is in the child list of item `a`: it is one of the items met when following
`firstkid` of `a` and then `nextitem` -/
def ChildOf (c : UIcontext) (a b : Nat) : Prop :=
  ∃ ks, IsForest c (c.get a).firstkid ks ∧ b ∈ ks.roots

/-- the point after translation by the rect origins of the items of the list -/
def translated (c : UIcontext) : List Nat → Int → Int → Int × Int
  | [], x, y => (x, y)
  | a :: rest, x, y => translated c rest (x - (c.get a).rect.x) (y - (c.get a).rect.y)

/-- `HitPath c path x y`: every item of the path is a child of the item before it, and its
rect contains the point translated by the rect origins of the items before it -/
def HitPath (c : UIcontext) : List Nat → Int → Int → Prop
  | [], _, _ => True
  | [a], x, y => inRect (c.get a).rect x y
  | a :: b :: rest, x, y =>
    inRect (c.get a).rect x y ∧ ChildOf c a b ∧
      HitPath c (b :: rest) (x - (c.get a).rect.x) (y - (c.get a).rect.y)

/-- the sibling list `l` as a tree, with the subtree `sub x` below item `x` -/
def forestOf (sub : Int → KTree) (l : List Int) : KTree :=
  l.foldr (fun x rest => .node x.toNat (sub x) rest) .nil

/-- the tree below a sibling list `l`, read from the lists `log p` of the items attached to
each item `p`, down to depth `n` -/
def buildForest (log : Int → List Int) : Nat → List Int → KTree
  | 0, _ => .nil
  | n + 1, l => forestOf (fun x => buildForest log n (log x)) l

/-- item `x` lies `d` parent links below the root -/
def AtDepth (c : UIcontext) : Nat → Nat → Prop
  | 0, x => x = 0
  | d + 1, x => x < c.count ∧ 0 ≤ (c.get x).parent ∧ AtDepth c d (c.get x).parent.toNat

/-- the item `j` parent links above item `x` -/
def up (c : UIcontext) : Nat → Nat → Nat
  | 0, x => x
  | j + 1, x => up c j (c.get x).parent.toNat

/-- the items on the way from item `x` up to the root, the root left out -/
def ancestors (c : UIcontext) : Nat → Nat → List Nat
  | 0, _ => []
  | d + 1, x => x :: ancestors c d (c.get x).parent.toNat

/-- `Built c`: the child lists of `c` are the lists of the items attached to each item, and
every item with a parent is in the list of its parent; this holds in every context that API
calls build -/
def Built (c : UIcontext) : Prop :=
  ∃ log : Int → List Int, KidsInv c log ∧
    ∀ x : Nat, x < c.count → 0 ≤ (c.get x).parent → (x : Int) ∈ log (c.get x).parent

/-- the declarations of `a` with the rects and the marks of `b`, item by item -/
def withState (a b : UIcontext) : UIcontext :=
  { a with items :=
      List.zipWith (fun i j => { i with rect := j.rect, visited := j.visited }) a.items b.items }

/-- the invariant of the data buffer: `log` lists the allocations made since `uiClear` -/
structure DataInv (c : UIcontext) (log : List (Int × Int)) : Prop where
  size : c.datasize = offsetOf log log.length
  bound : c.datasize ≤ UI_MAX_BUFFERSIZE
  entry : ∀ (i : Nat) (item s : Int), log[i]? = some (item, s) →
    0 ≤ item ∧ item < c.count ∧ 0 < s ∧ s < UI_MAX_DATASIZE ∧
      (c.get item.toNat).data = offsetOf log i

/-! ## Example contexts for data blobs, hit tests and reachable contexts -/

/-- three items, of which the item created last, the root and the first item allocate 16, 8 and
100 bytes, in this order -/
def blobCalls : List UIcall :=
  [.item, .item, .setParent 1 0, .allocData 2 16, .allocData 0 8, .setSize 1 5 5,
  .allocData 1 100]

/-- the context after `blobCalls` -/
def blobEx : UIcontext :=
  { buttons := 0, last_buttons := 0, start_cursor := ⟨0, 0⟩, last_cursor := ⟨0, 0⟩,
    cursor := ⟨0, 0⟩, hot_handle := 0, active_handle := 0, hot_item := -1, active_item := -1,
    state := .UI_STATE_IDLE,
    items := [
      { handle := 0, handler := 0, numkids := 1, firstkid := 1, lastkid := 1, parent := -1,
        kidid := 0, nextitem := -1, layout_flags := 0, size := ⟨0, 0⟩, visited := 0,
        margins := ⟨0, 0, 0, 0⟩, relto := ⟨0, 0, 0, 0⟩, rect := ⟨0, 0, 0, 0⟩, data := 16,
        datasize := 0, event_flags := 0 },
      { handle := 0, handler := 0, numkids := 0, firstkid := -1, lastkid := -1, parent := 0,
        kidid := 0, nextitem := -1, layout_flags := 0, size := ⟨5, 5⟩, visited := 0,
        margins := ⟨0, 0, 0, 0⟩, relto := ⟨-1, -1, -1, -1⟩, rect := ⟨0, 0, 0, 0⟩, data := 24,
        datasize := 0, event_flags := 0 },
      { handle := 0, handler := 0, numkids := 0, firstkid := -1, lastkid := -1, parent := -1,
        kidid := 0, nextitem := -1, layout_flags := 0, size := ⟨0, 0⟩, visited := 0,
        margins := ⟨0, 0, 0, 0⟩, relto := ⟨-1, -1, -1, -1⟩, rect := ⟨0, 0, 0, 0⟩, data := 0,
        datasize := 0, event_flags := 0 }],
    datasize := 124 }

/-- a root without size hint with two children anchored left: item 1 with the size hint
-50 x 10, and item 2 of size 10 x 10 with item 1 as left neighbor; all margins are zero -/
def negCalls : List UIcall :=
  [.item, .setParent 1 0, .setSize 1 (-50) 10, .setLayout 1 1, .item, .setParent 2 0,
  .setSize 2 10 10, .setLayout 2 1, .setRelativeTo 2 1 (-1) (-1) (-1)]

/-- the context after `negCalls` -/
def negEx : UIcontext :=
  { buttons := 0, last_buttons := 0, start_cursor := ⟨0, 0⟩, last_cursor := ⟨0, 0⟩,
    cursor := ⟨0, 0⟩, hot_handle := 0, active_handle := 0, hot_item := -1, active_item := -1,
    state := .UI_STATE_IDLE,
    items := [
      { handle := 0, handler := 0, numkids := 2, firstkid := 1, lastkid := 2, parent := -1,
        kidid := 0, nextitem := -1, layout_flags := 0, size := ⟨0, 0⟩, visited := 0,
        margins := ⟨0, 0, 0, 0⟩, relto := ⟨0, 0, 0, 0⟩, rect := ⟨0, 0, 0, 0⟩, data := -1,
        datasize := 0, event_flags := 0 },
      { handle := 0, handler := 0, numkids := 0, firstkid := -1, lastkid := -1, parent := 0,
        kidid := 0, nextitem := 2, layout_flags := 1, size := ⟨-50, 10⟩, visited := 0,
        margins := ⟨0, 0, 0, 0⟩, relto := ⟨-1, -1, -1, -1⟩, rect := ⟨0, 0, 0, 0⟩, data := -1,
        datasize := 0, event_flags := 0 },
      { handle := 0, handler := 0, numkids := 0, firstkid := -1, lastkid := -1, parent := 0,
        kidid := 1, nextitem := -1, layout_flags := 1, size := ⟨10, 10⟩, visited := 0,
        margins := ⟨0, 0, 0, 0⟩, relto := ⟨1, -1, -1, -1⟩, rect := ⟨0, 0, 0, 0⟩, data := -1,
        datasize := 0, event_flags := 0 }],
    datasize := 0 }

/-- the context `negEx` after the size pass of `uiProcess` -/
def negSized : UIcontext :=
  { buttons := 0, last_buttons := 0, start_cursor := ⟨0, 0⟩, last_cursor := ⟨0, 0⟩,
    cursor := ⟨0, 0⟩, hot_handle := 0, active_handle := 0, hot_item := -1, active_item := -1,
    state := .UI_STATE_IDLE,
    items := [
      { handle := 0, handler := 0, numkids := 2, firstkid := 1, lastkid := 2, parent := -1,
        kidid := 0, nextitem := -1, layout_flags := 0, size := ⟨0, 0⟩, visited := 0,
        margins := ⟨0, 0, 0, 0⟩, relto := ⟨0, 0, 0, 0⟩, rect := ⟨0, 0, 0, 10⟩, data := -1,
        datasize := 0, event_flags := 0 },
      { handle := 0, handler := 0, numkids := 0, firstkid := -1, lastkid := -1, parent := 0,
        kidid := 0, nextitem := 2, layout_flags := 1, size := ⟨-50, 10⟩, visited := 3,
        margins := ⟨0, 0, 0, 0⟩, relto := ⟨-1, -1, -1, -1⟩, rect := ⟨0, 0, -50, 10⟩, data := -1,
        datasize := 0, event_flags := 0 },
      { handle := 0, handler := 0, numkids := 0, firstkid := -1, lastkid := -1, parent := 0,
        kidid := 1, nextitem := -1, layout_flags := 1, size := ⟨10, 10⟩, visited := 3,
        margins := ⟨0, 0, 0, 0⟩, relto := ⟨1, -1, -1, -1⟩, rect := ⟨0, 0, 10, 10⟩, data := -1,
        datasize := 0, event_flags := 0 }],
    datasize := 0 }

/-- the context `negEx` after `uiProcess` -/
def negDone : UIcontext :=
  { buttons := 0, last_buttons := 0, start_cursor := ⟨0, 0⟩, last_cursor := ⟨0, 0⟩,
    cursor := ⟨0, 0⟩, hot_handle := 0, active_handle := 0, hot_item := -1, active_item := -1,
    state := .UI_STATE_IDLE,
    items := [
      { handle := 0, handler := 0, numkids := 2, firstkid := 1, lastkid := 2, parent := -1,
        kidid := 0, nextitem := -1, layout_flags := 0, size := ⟨0, 0⟩, visited := 0,
        margins := ⟨0, 0, 0, 0⟩, relto := ⟨0, 0, 0, 0⟩, rect := ⟨0, 0, 0, 10⟩, data := -1,
        datasize := 0, event_flags := 0 },
      { handle := 0, handler := 0, numkids := 0, firstkid := -1, lastkid := -1, parent := 0,
        kidid := 0, nextitem := 2, layout_flags := 1, size := ⟨-50, 10⟩, visited := 15,
        margins := ⟨0, 0, 0, 0⟩, relto := ⟨-1, -1, -1, -1⟩, rect := ⟨0, 0, -50, 10⟩, data := -1,
        datasize := 0, event_flags := 0 },
      { handle := 0, handler := 0, numkids := 0, firstkid := -1, lastkid := -1, parent := 0,
        kidid := 1, nextitem := -1, layout_flags := 1, size := ⟨10, 10⟩, visited := 15,
        margins := ⟨0, 0, 0, 0⟩, relto := ⟨1, -1, -1, -1⟩, rect := ⟨-50, 0, 10, 10⟩, data := -1,
        datasize := 0, event_flags := 0 }],
    datasize := 0 }

/-- the context `overEx` with other contents in the fields `rect` and `visited` of both items,
and with another handle for item 1 -/
def staleEx : UIcontext :=
  { buttons := 0, last_buttons := 0, start_cursor := ⟨0, 0⟩, last_cursor := ⟨0, 0⟩,
    cursor := ⟨15, 15⟩, hot_handle := 0, active_handle := 0, hot_item := -1, active_item := -1,
    state := .UI_STATE_IDLE,
    items := [
      { handle := 0, handler := 0, numkids := 1, firstkid := 1, lastkid := 1, parent := -1,
        kidid := 0, nextitem := -1, layout_flags := 0, size := ⟨100, 100⟩, visited := 3,
        margins := ⟨0, 0, 0, 0⟩, relto := ⟨0, 0, 0, 0⟩, rect := ⟨5, 6, 7, 8⟩, data := -1,
        datasize := 0, event_flags := 0 },
      { handle := 5, handler := 7, numkids := 0, firstkid := -1, lastkid := -1, parent := 0,
        kidid := 0, nextitem := -1, layout_flags := 3, size := ⟨20, 20⟩, visited := 15,
        margins := ⟨10, 10, 0, 0⟩, relto := ⟨-1, -1, -1, -1⟩, rect := ⟨77, 88, 99, 11⟩,
        data := -1, datasize := 0, event_flags := 15 }],
    datasize := 0 }

/-- the context `staleEx` after `uiProcess` -/
def staleDone : UIcontext :=
  { buttons := 0, last_buttons := 0, start_cursor := ⟨0, 0⟩, last_cursor := ⟨15, 15⟩,
    cursor := ⟨15, 15⟩, hot_handle := 5, active_handle := 0, hot_item := 1, active_item := -1,
    state := .UI_STATE_IDLE,
    items := [
      { handle := 0, handler := 0, numkids := 1, firstkid := 1, lastkid := 1, parent := -1,
        kidid := 0, nextitem := -1, layout_flags := 0, size := ⟨100, 100⟩, visited := 0,
        margins := ⟨0, 0, 0, 0⟩, relto := ⟨0, 0, 0, 0⟩, rect := ⟨0, 0, 100, 100⟩, data := -1,
        datasize := 0, event_flags := 0 },
      { handle := 5, handler := 7, numkids := 0, firstkid := -1, lastkid := -1, parent := 0,
        kidid := 0, nextitem := -1, layout_flags := 3, size := ⟨20, 20⟩, visited := 12,
        margins := ⟨10, 10, 0, 0⟩, relto := ⟨-1, -1, -1, -1⟩, rect := ⟨10, 10, 20, 20⟩,
        data := -1, datasize := 0, event_flags := 15 }],
    datasize := 0 }

/-- a root of size 100 x 100 with the child item 1, which is anchored left and names itself as
left neighbor; item 2 is attached to itself, and items 3 and 4 are attached to each other -/
def loopCalls : List UIcall :=
  [.setSize 0 100 100, .item, .setParent 1 0, .setSize 1 10 10, .setLayout 1 1,
  .setRelativeTo 1 1 (-1) (-1) (-1), .item, .setParent 2 2, .item, .item, .setParent 3 4,
  .setParent 4 3]

/-- the context after `loopCalls` -/
def loopEx : UIcontext :=
  { buttons := 0, last_buttons := 0, start_cursor := ⟨0, 0⟩, last_cursor := ⟨0, 0⟩,
    cursor := ⟨0, 0⟩, hot_handle := 0, active_handle := 0, hot_item := -1, active_item := -1,
    state := .UI_STATE_IDLE,
    items := [
      { handle := 0, handler := 0, numkids := 1, firstkid := 1, lastkid := 1, parent := -1,
        kidid := 0, nextitem := -1, layout_flags := 0, size := ⟨100, 100⟩, visited := 0,
        margins := ⟨0, 0, 0, 0⟩, relto := ⟨0, 0, 0, 0⟩, rect := ⟨0, 0, 0, 0⟩, data := -1,
        datasize := 0, event_flags := 0 },
      { handle := 0, handler := 0, numkids := 0, firstkid := -1, lastkid := -1, parent := 0,
        kidid := 0, nextitem := -1, layout_flags := 1, size := ⟨10, 10⟩, visited := 0,
        margins := ⟨0, 0, 0, 0⟩, relto := ⟨1, -1, -1, -1⟩, rect := ⟨0, 0, 0, 0⟩, data := -1,
        datasize := 0, event_flags := 0 },
      { handle := 0, handler := 0, numkids := 1, firstkid := 2, lastkid := 2, parent := 2,
        kidid := 0, nextitem := -1, layout_flags := 0, size := ⟨0, 0⟩, visited := 0,
        margins := ⟨0, 0, 0, 0⟩, relto := ⟨-1, -1, -1, -1⟩, rect := ⟨0, 0, 0, 0⟩, data := -1,
        datasize := 0, event_flags := 0 },
      { handle := 0, handler := 0, numkids := 1, firstkid := 4, lastkid := 4, parent := 4,
        kidid := 0, nextitem := -1, layout_flags := 0, size := ⟨0, 0⟩, visited := 0,
        margins := ⟨0, 0, 0, 0⟩, relto := ⟨-1, -1, -1, -1⟩, rect := ⟨0, 0, 0, 0⟩, data := -1,
        datasize := 0, event_flags := 0 },
      { handle := 0, handler := 0, numkids := 1, firstkid := 3, lastkid := 3, parent := 3,
        kidid := 0, nextitem := -1, layout_flags := 0, size := ⟨0, 0⟩, visited := 0,
        margins := ⟨0, 0, 0, 0⟩, relto := ⟨-1, -1, -1, -1⟩, rect := ⟨0, 0, 0, 0⟩, data := -1,
        datasize := 0, event_flags := 0 }],
    datasize := 0 }

/-- the context `loopEx` after the size pass of `uiProcess` -/
def loopSized : UIcontext :=
  { buttons := 0, last_buttons := 0, start_cursor := ⟨0, 0⟩, last_cursor := ⟨0, 0⟩,
    cursor := ⟨0, 0⟩, hot_handle := 0, active_handle := 0, hot_item := -1, active_item := -1,
    state := .UI_STATE_IDLE,
    items := [
      { handle := 0, handler := 0, numkids := 1, firstkid := 1, lastkid := 1, parent := -1,
        kidid := 0, nextitem := -1, layout_flags := 0, size := ⟨100, 100⟩, visited := 0,
        margins := ⟨0, 0, 0, 0⟩, relto := ⟨0, 0, 0, 0⟩, rect := ⟨0, 0, 100, 100⟩, data := -1,
        datasize := 0, event_flags := 0 },
      { handle := 0, handler := 0, numkids := 0, firstkid := -1, lastkid := -1, parent := 0,
        kidid := 0, nextitem := -1, layout_flags := 1, size := ⟨10, 10⟩, visited := 0,
        margins := ⟨0, 0, 0, 0⟩, relto := ⟨1, -1, -1, -1⟩, rect := ⟨0, 0, 10, 10⟩, data := -1,
        datasize := 0, event_flags := 0 },
      { handle := 0, handler := 0, numkids := 1, firstkid := 2, lastkid := 2, parent := 2,
        kidid := 0, nextitem := -1, layout_flags := 0, size := ⟨0, 0⟩, visited := 0,
        margins := ⟨0, 0, 0, 0⟩, relto := ⟨-1, -1, -1, -1⟩, rect := ⟨0, 0, 0, 0⟩, data := -1,
        datasize := 0, event_flags := 0 },
      { handle := 0, handler := 0, numkids := 1, firstkid := 4, lastkid := 4, parent := 4,
        kidid := 0, nextitem := -1, layout_flags := 0, size := ⟨0, 0⟩, visited := 0,
        margins := ⟨0, 0, 0, 0⟩, relto := ⟨-1, -1, -1, -1⟩, rect := ⟨0, 0, 0, 0⟩, data := -1,
        datasize := 0, event_flags := 0 },
      { handle := 0, handler := 0, numkids := 1, firstkid := 3, lastkid := 3, parent := 3,
        kidid := 0, nextitem := -1, layout_flags := 0, size := ⟨0, 0⟩, visited := 0,
        margins := ⟨0, 0, 0, 0⟩, relto := ⟨-1, -1, -1, -1⟩, rect := ⟨0, 0, 0, 0⟩, data := -1,
        datasize := 0, event_flags := 0 }],
    datasize := 0 }

/-- the context `loopEx` after `uiProcess` -/
def loopDone : UIcontext :=
  { buttons := 0, last_buttons := 0, start_cursor := ⟨0, 0⟩, last_cursor := ⟨0, 0⟩,
    cursor := ⟨0, 0⟩, hot_handle := 0, active_handle := 0, hot_item := 0, active_item := -1,
    state := .UI_STATE_IDLE,
    items := [
      { handle := 0, handler := 0, numkids := 1, firstkid := 1, lastkid := 1, parent := -1,
        kidid := 0, nextitem := -1, layout_flags := 0, size := ⟨100, 100⟩, visited := 0,
        margins := ⟨0, 0, 0, 0⟩, relto := ⟨0, 0, 0, 0⟩, rect := ⟨0, 0, 100, 100⟩, data := -1,
        datasize := 0, event_flags := 0 },
      { handle := 0, handler := 0, numkids := 0, firstkid := -1, lastkid := -1, parent := 0,
        kidid := 0, nextitem := -1, layout_flags := 1, size := ⟨10, 10⟩, visited := 12,
        margins := ⟨0, 0, 0, 0⟩, relto := ⟨1, -1, -1, -1⟩, rect := ⟨10, 45, 10, 10⟩, data := -1,
        datasize := 0, event_flags := 0 },
      { handle := 0, handler := 0, numkids := 1, firstkid := 2, lastkid := 2, parent := 2,
        kidid := 0, nextitem := -1, layout_flags := 0, size := ⟨0, 0⟩, visited := 0,
        margins := ⟨0, 0, 0, 0⟩, relto := ⟨-1, -1, -1, -1⟩, rect := ⟨0, 0, 0, 0⟩, data := -1,
        datasize := 0, event_flags := 0 },
      { handle := 0, handler := 0, numkids := 1, firstkid := 4, lastkid := 4, parent := 4,
        kidid := 0, nextitem := -1, layout_flags := 0, size := ⟨0, 0⟩, visited := 0,
        margins := ⟨0, 0, 0, 0⟩, relto := ⟨-1, -1, -1, -1⟩, rect := ⟨0, 0, 0, 0⟩, data := -1,
        datasize := 0, event_flags := 0 },
      { handle := 0, handler := 0, numkids := 1, firstkid := 3, lastkid := 3, parent := 3,
        kidid := 0, nextitem := -1, layout_flags := 0, size := ⟨0, 0⟩, visited := 0,
        margins := ⟨0, 0, 0, 0⟩, relto := ⟨-1, -1, -1, -1⟩, rect := ⟨0, 0, 0, 0⟩, data := -1,
        datasize := 0, event_flags := 0 }],
    datasize := 0 }

/-- in state idle there is no active item and no active handle -/
def IdleClean (c : UIcontext) : Prop :=
  c.state = .UI_STATE_IDLE → c.active_item = -1 ∧ c.active_handle = 0

/-! ## Theorems -/

/-! ### Reading and writing items -/

theorem count_put (c : UIcontext) (p : Nat) (it : UIitem) : (c.put p it).count = c.count := by
  simp [UIcontext.put, UIcontext.count]

theorem count_modify (c : UIcontext) (p : Nat) (f : UIitem → UIitem) :
    (c.modify p f).count = c.count := by
  simp [UIcontext.modify, count_put]

theorem get_modify (c : UIcontext) (p q : Nat) (f : UIitem → UIitem) :
    (c.modify p f).get q = if q = p ∧ p < c.count then f (c.get p) else c.get q := by
  unfold UIcontext.modify UIcontext.put UIcontext.get UIcontext.count
  by_cases h : q = p
  · subst h
    by_cases hp : q < c.items.length
    · simp [hp, List.getD_eq_getElem?_getD]
    · simp [hp, List.getD_eq_getElem?_getD]
      rw [List.getElem?_eq_none (by simpa using hp)]
      rw [List.getElem?_eq_none (by simpa using hp)]
  · simp [h, List.getD_eq_getElem?_getD, List.getElem?_set_ne (Ne.symm h)]

theorem get_modify_self (c : UIcontext) (p : Nat) (f : UIitem → UIitem) (hp : p < c.count) :
    (c.modify p f).get p = f (c.get p) := by
  simp [get_modify, hp]

theorem get_modify_ne (c : UIcontext) (p q : Nat) (f : UIitem → UIitem) (h : q ≠ p) :
    (c.modify p f).get q = c.get q := by
  simp [get_modify, h]

theorem decl_modify (c : UIcontext) (p : Nat) (f : UIitem → UIitem)
    (hf : ∀ i, (f i).decl = i.decl) : (c.modify p f).decl = c.decl := by
  unfold UIcontext.modify UIcontext.put UIcontext.decl UIcontext.get
  simp only [List.map_set, hf]
  congr 1
  apply List.ext_getElem?
  intro n
  by_cases h : n = p
  · subst h
    by_cases hn : n < c.items.length
    · simp [List.getElem?_set, hn, List.getD_eq_getElem?_getD]
    · simp [List.getElem?_set, hn, List.getElem?_eq_none (not_lt.mp hn)]
  · simp [List.getElem?_set_ne (Ne.symm h)]

theorem uiItemPtr_ok {c : UIcontext} {item : Int} {p : Nat} (h : uiItemPtr c item = .ok p) :
    0 ≤ item ∧ item < c.count ∧ (p : Int) = item ∧ p < c.count := by
  unfold uiItemPtr at h
  split at h
  · rename_i hv
    injection h with h
    subst h
    refine ⟨hv.1, hv.2, ?_, ?_⟩ <;> omega
  · cases h

theorem uiItemPtr_of_valid {c : UIcontext} {item : Int} (h0 : 0 ≤ item) (h1 : item < c.count) :
    uiItemPtr c item = .ok item.toNat := by
  simp [uiItemPtr, h0, h1]

theorem uiItemPtr_nat {c : UIcontext} {p : Nat} (h1 : p < c.count) :
    uiItemPtr c (p : Int) = .ok p := by
  simp [uiItemPtr, h1]

/-! ### Declarations are not changed by the solver passes; inversion of the solver functions -/

theorem count_of_decl {c c' : UIcontext} (h : c'.decl = c.decl) : c'.count = c.count := by
  have := congrArg (fun x => x.items.length) h
  simpa [UIcontext.decl, UIcontext.count] using this

theorem get_decl_of_decl {c c' : UIcontext} (h : c'.decl = c.decl) (p : Nat) :
    (c'.get p).decl = (c.get p).decl := by
  have h2 := congrArg (fun x => x.items[p]?) h
  simp only [UIcontext.decl, List.getElem?_map] at h2
  unfold UIcontext.get
  rw [List.getD_eq_getElem?_getD, List.getD_eq_getElem?_getD]
  cases h1 : c'.items[p]? <;> cases h3 : c.items[p]? <;> simp_all

theorem decl_visited (i : UIitem) (v : Nat) : ({ i with visited := v } : UIitem).decl = i.decl := rfl

theorem decl_rect (i : UIitem) (r : UIrect) : ({ i with rect := r } : UIitem).decl = i.decl := rfl

theorem decl_uiChainWalk (dim : Nat) (flag : Int) (edge : Nat) :
    ∀ (fuel : Nat) (c : UIcontext) (p : Nat) (s : Int) (it : Nat) (c' : UIcontext) (s' : Int),
      uiChainWalk dim flag edge fuel c p s it = .ok (c', s') → c'.decl = c.decl := by
  intro fuel
  induction fuel with
  | zero => intro c p s it c' s' h; simp [uiChainWalk] at h
  | succ n ih =>
    intro c p s it c' s' h
    simp only [uiChainWalk] at h
    split at h
    · split at h
      · injection h with h; injection h with h1 h2; rw [← h1]
      · split at h
        · cases h
        · split at h
          · rw [ih _ _ _ _ _ _ h]; exact decl_modify _ _ _ (fun i => decl_visited i _)
          · cases h
    · injection h with h; injection h with h1 h2; rw [← h1]

theorem decl_uiComputeChainSize {c : UIcontext} {p dim : Nat} {c' : UIcontext} {s' : Int}
    (h : uiComputeChainSize c p dim = .ok (c', s')) : c'.decl = c.decl := by
  simp only [uiComputeChainSize] at h
  split at h
  · cases h
  · rename_i c1 s1 h1
    rw [decl_uiChainWalk _ _ _ _ _ _ _ _ _ _ h, decl_uiChainWalk _ _ _ _ _ _ _ _ _ _ h1]
    exact decl_modify _ _ _ (fun i => decl_visited i _)

theorem uiNextSibling_ok {c : UIcontext} {item next : Int} (h : uiNextSibling c item = .ok next) :
    0 ≤ item ∧ item < c.count ∧ next = (c.get item.toNat).nextitem := by
  unfold uiNextSibling at h
  cases hp : uiItemPtr c item with
  | error e => simp [hp, bind, Except.bind] at h
  | ok p =>
    obtain ⟨h0, h1, h2, -⟩ := uiItemPtr_ok hp
    simp [hp, bind, Except.bind, pure, Except.pure] at h
    have : item.toNat = p := by omega
    exact ⟨h0, h1, by rw [this, h]⟩

theorem uiFirstChild_ok {c : UIcontext} {item kid : Int} (h : uiFirstChild c item = .ok kid) :
    0 ≤ item ∧ item < c.count ∧ kid = (c.get item.toNat).firstkid := by
  unfold uiFirstChild at h
  cases hp : uiItemPtr c item with
  | error e => simp [hp, bind, Except.bind] at h
  | ok p =>
    obtain ⟨h0, h1, h2, -⟩ := uiItemPtr_ok hp
    simp [hp, bind, Except.bind, pure, Except.pure] at h
    have : item.toNat = p := by omega
    exact ⟨h0, h1, by rw [this, h]⟩

theorem uiGetRect_ok {c : UIcontext} {item : Int} {r : UIrect} (h : uiGetRect c item = .ok r) :
    0 ≤ item ∧ item < c.count ∧ r = (c.get item.toNat).rect := by
  unfold uiGetRect at h
  cases hp : uiItemPtr c item with
  | error e => simp [hp, bind, Except.bind] at h
  | ok p =>
    obtain ⟨h0, h1, h2, -⟩ := uiItemPtr_ok hp
    simp [hp, bind, Except.bind, pure, Except.pure] at h
    have : item.toNat = p := by omega
    exact ⟨h0, h1, by rw [this, h]⟩

theorem uiGetRect_valid {c : UIcontext} {item : Int} (h0 : 0 ≤ item) (h1 : item < c.count) :
    uiGetRect c item = .ok (c.get item.toNat).rect := by
  unfold uiGetRect
  rw [uiItemPtr_of_valid h0 h1]
  rfl

theorem uiFirstChild_valid {c : UIcontext} {item : Int} (h0 : 0 ≤ item) (h1 : item < c.count) :
    uiFirstChild c item = .ok (c.get item.toNat).firstkid := by
  unfold uiFirstChild
  rw [uiItemPtr_of_valid h0 h1]
  rfl

theorem uiNextSibling_valid {c : UIcontext} {item : Int} (h0 : 0 ≤ item) (h1 : item < c.count) :
    uiNextSibling c item = .ok (c.get item.toNat).nextitem := by
  unfold uiNextSibling
  rw [uiItemPtr_of_valid h0 h1]
  rfl

theorem decl_uiComputeSizeDimKids (dim : Nat) :
    ∀ (fuel : Nat) (c : UIcontext) (kid s : Int) (c' : UIcontext) (s' : Int),
      uiComputeSizeDimKids dim fuel c kid s = .ok (c', s') → c'.decl = c.decl := by
  intro fuel
  induction fuel with
  | zero => intro c kid s c' s' h; simp [uiComputeSizeDimKids] at h
  | succ n ih =>
    intro c kid s c' s' h
    simp only [uiComputeSizeDimKids] at h
    split at h
    · split at h
      · cases h
      · split at h
        · split at h
          · cases h
          · rename_i c1 s1 h1
            split at h
            · cases h
            · rw [ih _ _ _ _ _ h]; exact decl_uiComputeChainSize h1
        · split at h
          · cases h
          · exact ih _ _ _ _ _ h
    · injection h with h; injection h with h1 h2; rw [← h1]

theorem decl_uiComputeSizeDim {fuel : Nat} {c : UIcontext} {p dim : Nat} {c' : UIcontext}
    (h : uiComputeSizeDim fuel c p dim = .ok c') : c'.decl = c.decl := by
  simp only [uiComputeSizeDim] at h
  split at h
  · injection h with h; rw [← h]; exact decl_modify _ _ _ (fun i => decl_rect i _)
  · split at h
    · cases h
    · rename_i c1 s1 h1
      injection h with h; rw [← h, decl_modify _ _ _ (fun i => decl_rect i _)]
      exact decl_uiComputeSizeDimKids _ _ _ _ _ _ _ h1

theorem decl_uiComputeBestSize :
    ∀ (fuel : Nat),
      (∀ (c : UIcontext) (item : Int) (c' : UIcontext),
        uiComputeBestSize fuel c item = .ok c' → c'.decl = c.decl) ∧
      (∀ (c : UIcontext) (kid : Int) (c' : UIcontext),
        uiComputeBestSizeKids fuel c kid = .ok c' → c'.decl = c.decl) := by
  intro fuel
  induction fuel with
  | zero =>
    constructor
    · intro c item c' h; simp [uiComputeBestSize] at h
    · intro c kid c' h; simp [uiComputeBestSizeKids] at h
  | succ n ih =>
    constructor
    · intro c item c' h
      simp only [uiComputeBestSize] at h
      split at h
      · cases h
      · split at h
        · cases h
        · split at h
          · cases h
          · rename_i c1 h1
            split at h
            · cases h
            · rename_i c2 h2
              rw [decl_uiComputeSizeDim h, decl_uiComputeSizeDim h2, ih.2 _ _ _ h1]
              exact decl_modify _ _ _ (fun i => decl_visited i _)
    · intro c kid c' h
      simp only [uiComputeBestSizeKids] at h
      split at h
      · split at h
        · cases h
        · rename_i c1 h1
          split at h
          · cases h
          · rw [ih.2 _ _ _ h, ih.1 _ _ _ h1]
      · injection h with h; rw [← h]

theorem uiChainWalk_inv {dim : Nat} {flag : Int} {edge n : Nat} {c : UIcontext} {p : Nat}
    {s : Int} {it : Nat} {c' : UIcontext} {s' : Int}
    (h : uiChainWalk dim flag edge (n + 1) c p s it = .ok (c', s')) :
    (Int.land ((c.get p).layout_flags >>> dim) flag = 0 ∧ c' = c ∧ s' = s) ∨
    (Int.land ((c.get p).layout_flags >>> dim) flag ≠ 0 ∧ (c.get p).relto.v edge < 0 ∧
      c' = c ∧ s' = s + (c.get p).margins.v edge) ∨
    (Int.land ((c.get p).layout_flags >>> dim) flag ≠ 0 ∧ 0 ≤ (c.get p).relto.v edge ∧
      it + 1 < 1000000 ∧
      ∃ q, uiItemPtr c ((c.get p).relto.v edge) = .ok q ∧
        uiChainWalk dim flag edge n
          (c.modify q (fun i => { i with visited := i.visited ||| (1 <<< dim) })) q
          (s + (c.get p).margins.v edge +
            ((c.modify q (fun i => { i with visited := i.visited ||| (1 <<< dim) })).get q).rect.v
              (dim + 2))
          (it + 1) = .ok (c', s')) := by
  simp only [uiChainWalk] at h
  split at h
  · rename_i hf
    right
    split at h
    · rename_i hr
      left
      injection h with h; injection h with h1 h2
      exact ⟨hf, hr, h1.symm, h2.symm⟩
    · rename_i hr
      right
      split at h
      · cases h
      · rename_i q hq
        split at h
        · rename_i hit
          exact ⟨hf, not_lt.mp hr, hit, q, hq, h⟩
        · cases h
  · rename_i hf
    left
    injection h with h; injection h with h1 h2
    exact ⟨not_not.mp hf, h1.symm, h2.symm⟩

theorem uiComputeSizeDimKids_inv {dim n : Nat} {c : UIcontext} {kid s : Int}
    {c' : UIcontext} {s' : Int}
    (h : uiComputeSizeDimKids dim (n + 1) c kid s = .ok (c', s')) :
    (kid ≤ 0 ∧ c' = c ∧ s' = s) ∨
    (0 < kid ∧ ∃ pkid, uiItemPtr c kid = .ok pkid ∧
      (((c.get pkid).visited &&& (1 <<< dim) = 0 ∧
          ∃ c1 chain, uiComputeChainSize c pkid dim = .ok (c1, chain) ∧
            uiComputeSizeDimKids dim n c1 (c1.get pkid).nextitem (ui_max s chain) = .ok (c', s')) ∨
        ((c.get pkid).visited &&& (1 <<< dim) ≠ 0 ∧
          uiComputeSizeDimKids dim n c (c.get pkid).nextitem s = .ok (c', s')))) := by
  simp only [uiComputeSizeDimKids] at h
  split at h
  · rename_i hk
    right
    refine ⟨hk, ?_⟩
    split at h
    · cases h
    · rename_i pkid hp
      have hpk := uiItemPtr_ok hp
      have htn : kid.toNat = pkid := by omega
      refine ⟨pkid, hp, ?_⟩
      split at h
      · rename_i hv
        left
        split at h
        · cases h
        · rename_i c1 chain h1
          split at h
          · cases h
          · rename_i next hn
            have := (uiNextSibling_ok hn).2.2
            rw [htn] at this
            exact ⟨hv, c1, chain, h1, this ▸ h⟩
      · rename_i hv
        right
        split at h
        · cases h
        · rename_i next hn
          have := (uiNextSibling_ok hn).2.2
          rw [htn] at this
          exact ⟨hv, this ▸ h⟩
  · rename_i hk
    left
    injection h with h; injection h with h1 h2
    exact ⟨not_lt.mp hk, h1.symm, h2.symm⟩

theorem uiLayoutChildItem_inv {n : Nat} {c : UIcontext} {pp p dim : Nat} {c' : UIcontext}
    (h : uiLayoutChildItem (n + 1) c pp p dim = .ok c') :
    ((c.get p).visited &&& (4 <<< dim) ≠ 0 ∧ c' = c) ∨
    ((c.get p).visited &&& (4 <<< dim) = 0 ∧
      ∃ c0 c1 c2 wl wr wr2,
        c0 = c.modify p (fun i => { i with visited := i.visited ||| (4 <<< dim) }) ∧
        ((Int.land ((c0.get p).layout_flags >>> dim) UI_LEFT ≠ 0 ∧ (c0.get p).relto.v dim > 0 ∧
            ∃ pl, uiItemPtr c0 ((c0.get p).relto.v dim) = .ok pl ∧
              uiLayoutChildItem n c0 pp pl dim = .ok c1 ∧
              wl = (c1.get pl).rect.v dim + (c1.get pl).rect.v (dim + 2) ∧
              wr = (c0.get pp).rect.v (dim + 2) - wl) ∨
          (¬ (Int.land ((c0.get p).layout_flags >>> dim) UI_LEFT ≠ 0 ∧
                (c0.get p).relto.v dim > 0) ∧
            c1 = c0 ∧ wl = 0 ∧ wr = (c0.get pp).rect.v (dim + 2))) ∧
        ((Int.land ((c1.get p).layout_flags >>> dim) UI_RIGHT ≠ 0 ∧
            (c1.get p).relto.v (dim + 2) > 0 ∧
            ∃ pl, uiItemPtr c1 ((c1.get p).relto.v (dim + 2)) = .ok pl ∧
              uiLayoutChildItem n c1 pp pl dim = .ok c2 ∧
              wr2 = (c2.get pl).rect.v dim - wl) ∨
          (¬ (Int.land ((c1.get p).layout_flags >>> dim) UI_RIGHT ≠ 0 ∧
                (c1.get p).relto.v (dim + 2) > 0) ∧
            c2 = c1 ∧ wr2 = wr)) ∧
        c' = uiLayoutPlace c2 p dim wl wr2) := by
  simp only [uiLayoutChildItem] at h
  split at h
  · rename_i hv
    left
    injection h with h
    exact ⟨hv, h.symm⟩
  · rename_i hv
    right
    refine ⟨not_not.mp hv, ?_⟩
    split at h
    · cases h
    · rename_i c1 wl wr h1
      split at h
      · cases h
      · rename_i c2 wr2 h2
        injection h with h
        refine ⟨_, c1, c2, wl, wr, wr2, rfl, ?_, ?_, h.symm⟩
        · split at h1
          · rename_i hc
            left
            split at h1
            · cases h1
            · rename_i pl hpl
              split at h1
              · cases h1
              · rename_i c1b hc1
                injection h1 with h1; injection h1 with h1 h3; injection h3 with h3 h4
                subst h1
                exact ⟨hc.1, hc.2, pl, hpl, hc1, h3.symm, by rw [← h4, h3]⟩
          · rename_i hc
            right
            injection h1 with h1; injection h1 with h1 h3; injection h3 with h3 h4
            exact ⟨hc, h1.symm, h3.symm, h4.symm⟩
        · split at h2
          · rename_i hc
            left
            split at h2
            · cases h2
            · rename_i pl hpl
              split at h2
              · cases h2
              · rename_i c2b hc2
                injection h2 with h2; injection h2 with h2 h3
                subst h2
                exact ⟨hc.1, hc.2, pl, hpl, hc2, h3.symm⟩
          · rename_i hc
            right
            injection h2 with h2; injection h2 with h2 h3
            exact ⟨hc, h2.symm, h3.symm⟩

theorem decl_uiLayoutPlace (c : UIcontext) (p dim : Nat) (wl wr : Int) :
    (uiLayoutPlace c p dim wl wr).decl = c.decl := by
  unfold uiLayoutPlace
  simp only
  split
  · exact decl_modify _ _ _ (fun i => decl_rect i _)
  · split
    · exact decl_modify _ _ _ (fun i => decl_rect i _)
    · split
      · rw [decl_modify _ _ _ (fun i => decl_rect i _)]
        exact decl_modify _ _ _ (fun i => decl_rect i _)
      · exact decl_modify _ _ _ (fun i => decl_rect i _)

theorem decl_uiLayoutChildItem :
    ∀ (fuel : Nat) (c : UIcontext) (pp p dim : Nat) (c' : UIcontext),
      uiLayoutChildItem fuel c pp p dim = .ok c' → c'.decl = c.decl := by
  intro fuel
  induction fuel with
  | zero => intro c pp p dim c' h; simp [uiLayoutChildItem] at h
  | succ n ih =>
    intro c pp p dim c' h
    rcases uiLayoutChildItem_inv h with ⟨-, rfl⟩ | ⟨-, c0, c1, c2, wl, wr, wr2, h0, hl, hr, rfl⟩
    · rfl
    · have hc0 : c0.decl = c.decl := by
        rw [h0]; exact decl_modify _ _ _ (fun i => decl_visited i _)
      have hc1 : c1.decl = c.decl := by
        rcases hl with ⟨-, -, pl, -, hrec, -, -⟩ | ⟨-, rfl, -, -⟩
        · rw [ih _ _ _ _ _ hrec, hc0]
        · exact hc0
      have hc2 : c2.decl = c.decl := by
        rcases hr with ⟨-, -, pl, -, hrec, -⟩ | ⟨-, rfl, -⟩
        · rw [ih _ _ _ _ _ hrec, hc1]
        · exact hc1
      rw [decl_uiLayoutPlace, hc2]

theorem uiComputeBestSize_inv {n : Nat} {c : UIcontext} {item : Int} {c' : UIcontext}
    (h : uiComputeBestSize (n + 1) c item = .ok c') :
    ∃ p c0 c1 c2, uiItemPtr c item = .ok p ∧
      c0 = c.modify p (fun i => { i with visited := 0 }) ∧
      uiComputeBestSizeKids n c0 (c0.get p).firstkid = .ok c1 ∧
      uiComputeSizeDim n c1 p 0 = .ok c2 ∧ uiComputeSizeDim n c2 p 1 = .ok c' := by
  simp only [uiComputeBestSize] at h
  split at h
  · cases h
  · rename_i p hp
    split at h
    · cases h
    · rename_i kid hk
      split at h
      · cases h
      · rename_i c1 h1
        split at h
        · cases h
        · rename_i c2 h2
          have hpk := uiItemPtr_ok hp
          have htn : item.toNat = p := by omega
          have := (uiFirstChild_ok hk).2.2
          rw [htn] at this
          exact ⟨p, _, c1, c2, hp, rfl, this ▸ h1, h2, h⟩

theorem uiComputeBestSizeKids_inv {n : Nat} {c : UIcontext} {kid : Int} {c' : UIcontext}
    (h : uiComputeBestSizeKids (n + 1) c kid = .ok c') :
    (kid ≤ 0 ∧ c' = c) ∨
    (0 < kid ∧ ∃ c1, uiComputeBestSize n c kid = .ok c1 ∧ kid < c1.count ∧
      uiComputeBestSizeKids n c1 (c1.get kid.toNat).nextitem = .ok c') := by
  simp only [uiComputeBestSizeKids] at h
  split at h
  · rename_i hk
    right
    split at h
    · cases h
    · rename_i c1 h1
      split at h
      · cases h
      · rename_i next hn
        obtain ⟨-, h3, h4⟩ := uiNextSibling_ok hn
        exact ⟨hk, c1, h1, h3, h4 ▸ h⟩
  · rename_i hk
    left
    injection h with h
    exact ⟨not_lt.mp hk, h.symm⟩

theorem uiLayoutItemDimKids_inv {lfuel pitem dim n : Nat} {c : UIcontext} {kid : Int}
    {c' : UIcontext} (h : uiLayoutItemDimKids lfuel pitem dim (n + 1) c kid = .ok c') :
    (kid ≤ 0 ∧ c' = c) ∨
    (0 < kid ∧ ∃ pkid c1, uiItemPtr c kid = .ok pkid ∧
      uiLayoutChildItem lfuel c pitem pkid dim = .ok c1 ∧ pkid < c1.count ∧
      uiLayoutItemDimKids lfuel pitem dim n c1 (c1.get pkid).nextitem = .ok c') := by
  simp only [uiLayoutItemDimKids] at h
  split at h
  · rename_i hk
    right
    split at h
    · cases h
    · rename_i pkid hp
      split at h
      · cases h
      · rename_i c1 h1
        split at h
        · cases h
        · rename_i next hn
          obtain ⟨-, h3, h4⟩ := uiNextSibling_ok hn
          have hpk := uiItemPtr_ok hp
          have htn : kid.toNat = pkid := by omega
          rw [htn] at h4
          exact ⟨hk, pkid, c1, hp, h1, by omega, h4 ▸ h⟩
  · rename_i hk
    left
    injection h with h
    exact ⟨not_lt.mp hk, h.symm⟩

theorem uiLayoutItem_inv {lfuel n : Nat} {c : UIcontext} {item : Int} {c' : UIcontext}
    (h : uiLayoutItem lfuel (n + 1) c item = .ok c') :
    ∃ p c1 c2, uiItemPtr c item = .ok p ∧
      uiLayoutItemDim lfuel n c p 0 = .ok c1 ∧ uiLayoutItemDim lfuel n c1 p 1 = .ok c2 ∧
      uiLayoutItemKids lfuel n c2 (c2.get p).firstkid = .ok c' := by
  simp only [uiLayoutItem] at h
  split at h
  · cases h
  · rename_i p hp
    split at h
    · cases h
    · rename_i c1 h1
      split at h
      · cases h
      · rename_i c2 h2
        split at h
        · cases h
        · rename_i kid hk
          have hpk := uiItemPtr_ok hp
          have htn : item.toNat = p := by omega
          have := (uiFirstChild_ok hk).2.2
          rw [htn] at this
          exact ⟨p, c1, c2, hp, h1, h2, this ▸ h⟩

theorem uiLayoutItemKids_inv {lfuel n : Nat} {c : UIcontext} {kid : Int} {c' : UIcontext}
    (h : uiLayoutItemKids lfuel (n + 1) c kid = .ok c') :
    (kid ≤ 0 ∧ c' = c) ∨
    (0 < kid ∧ ∃ c1, uiLayoutItem lfuel n c kid = .ok c1 ∧ kid < c1.count ∧
      uiLayoutItemKids lfuel n c1 (c1.get kid.toNat).nextitem = .ok c') := by
  simp only [uiLayoutItemKids] at h
  split at h
  · rename_i hk
    right
    split at h
    · cases h
    · rename_i c1 h1
      split at h
      · cases h
      · rename_i next hn
        obtain ⟨-, h3, h4⟩ := uiNextSibling_ok hn
        exact ⟨hk, c1, h1, h3, h4 ▸ h⟩
  · rename_i hk
    left
    injection h with h
    exact ⟨not_lt.mp hk, h.symm⟩

theorem decl_uiLayoutItemDimKids (lfuel pitem dim : Nat) :
    ∀ (fuel : Nat) (c : UIcontext) (kid : Int) (c' : UIcontext),
      uiLayoutItemDimKids lfuel pitem dim fuel c kid = .ok c' → c'.decl = c.decl := by
  intro fuel
  induction fuel with
  | zero => intro c kid c' h; simp [uiLayoutItemDimKids] at h
  | succ n ih =>
    intro c kid c' h
    rcases uiLayoutItemDimKids_inv h with ⟨-, rfl⟩ | ⟨-, pkid, c1, -, h1, -, h2⟩
    · rfl
    · rw [ih _ _ _ h2, decl_uiLayoutChildItem _ _ _ _ _ _ h1]

theorem decl_uiLayoutItem (lfuel : Nat) :
    ∀ (fuel : Nat),
      (∀ (c : UIcontext) (item : Int) (c' : UIcontext),
        uiLayoutItem lfuel fuel c item = .ok c' → c'.decl = c.decl) ∧
      (∀ (c : UIcontext) (kid : Int) (c' : UIcontext),
        uiLayoutItemKids lfuel fuel c kid = .ok c' → c'.decl = c.decl) := by
  intro fuel
  induction fuel with
  | zero =>
    constructor
    · intro c item c' h; simp [uiLayoutItem] at h
    · intro c kid c' h; simp [uiLayoutItemKids] at h
  | succ n ih =>
    constructor
    · intro c item c' h
      obtain ⟨p, c1, c2, -, h1, h2, h3⟩ := uiLayoutItem_inv h
      rw [ih.2 _ _ _ h3, decl_uiLayoutItemDimKids _ _ _ _ _ _ _ h2,
        decl_uiLayoutItemDimKids _ _ _ _ _ _ _ h1]
    · intro c kid c' h
      rcases uiLayoutItemKids_inv h with ⟨-, rfl⟩ | ⟨-, c1, h1, -, h2⟩
      · rfl
      · rw [ih.2 _ _ _ h2, ih.1 _ _ _ h1]

theorem uiProcessLayout_inv {c c' : UIcontext} (h : uiProcessLayout c = .ok c') :
    ∃ c1 c2, uiComputeBestSize (uiFuel c) c 0 = .ok c1 ∧ 0 < c1.count ∧
      c2 = (c1.modify 0 (fun i => { i with rect := { i.rect with x := i.margins.v 0 } })).modify 0
        (fun i => { i with rect := { i.rect with y := i.margins.v 1 } }) ∧
      uiLayoutItem (uiFuel c2) (uiFuel c2) c2 0 = .ok c' := by
  simp only [uiProcessLayout] at h
  split at h
  · cases h
  · rename_i c1 h1
    split at h
    · cases h
    · rename_i proot hp
      have hpk := uiItemPtr_ok hp
      have : proot = 0 := by omega
      subst this
      exact ⟨c1, _, h1, hpk.2.2.2, rfl, h⟩

theorem decl_uiProcessLayout {c c' : UIcontext} (h : uiProcessLayout c = .ok c') :
    c'.decl = c.decl := by
  obtain ⟨c1, c2, h1, -, h2, h3⟩ := uiProcessLayout_inv h
  rw [(decl_uiLayoutItem _ _).1 _ _ _ h3, h2, decl_modify _ _ _ (fun i => decl_rect i _),
    decl_modify _ _ _ (fun i => decl_rect i _), (decl_uiComputeBestSize _).1 _ _ _ h1]

theorem ctx_of_decl {c c' : UIcontext} (h : c'.decl = c.decl) :
    c'.buttons = c.buttons ∧ c'.last_buttons = c.last_buttons ∧
    c'.start_cursor = c.start_cursor ∧ c'.last_cursor = c.last_cursor ∧
    c'.cursor = c.cursor ∧ c'.hot_handle = c.hot_handle ∧
    c'.active_handle = c.active_handle ∧ c'.hot_item = c.hot_item ∧
    c'.active_item = c.active_item ∧ c'.state = c.state ∧ c'.datasize = c.datasize := by
  have e : ∀ {α : Type} (f : UIcontext → α), (∀ x : UIcontext, f x.decl = f x) → f c' = f c :=
    fun f hf => by rw [← hf c', ← hf c, h]
  exact ⟨e UIcontext.buttons (fun _ => rfl), e UIcontext.last_buttons (fun _ => rfl),
    e UIcontext.start_cursor (fun _ => rfl), e UIcontext.last_cursor (fun _ => rfl),
    e UIcontext.cursor (fun _ => rfl), e UIcontext.hot_handle (fun _ => rfl),
    e UIcontext.active_handle (fun _ => rfl), e UIcontext.hot_item (fun _ => rfl),
    e UIcontext.active_item (fun _ => rfl), e UIcontext.state (fun _ => rfl),
    e UIcontext.datasize (fun _ => rfl)⟩

/-! ### Event dispatch and handles -/

theorem uiNotifyItem_valid {c : UIcontext} {item : Int} (event : Int)
    (h0 : 0 ≤ item) (h1 : item < c.count) :
    uiNotifyItem c item event =
      .ok (if (c.get item.toNat).handler ≠ 0 ∧
              Int.land (c.get item.toNat).event_flags event ≠ 0
           then [⟨item, event⟩] else []) := by
  unfold uiNotifyItem
  rw [uiItemPtr_of_valid h0 h1]
  simp only
  split <;> rfl

theorem uiGetHandle_valid {c : UIcontext} {item : Int} (h0 : 0 ≤ item) (h1 : item < c.count) :
    uiGetHandle c item = .ok (c.get item.toNat).handle := by
  unfold uiGetHandle
  rw [uiItemPtr_of_valid h0 h1]
  rfl

theorem uiProcessHandles_valid {c : UIcontext} (hh : c.hot_item < c.count)
    (ha : c.active_item < c.count) :
    uiProcessHandles c = .ok
      { c with last_cursor := c.cursor,
               hot_handle := if c.hot_item ≥ 0 then (c.get c.hot_item.toNat).handle else 0,
               active_handle :=
                 if c.active_item ≥ 0 then (c.get c.active_item.toNat).handle else 0 } := by
  unfold UIcontext.count at hh ha
  by_cases h1 : c.hot_item ≥ 0 <;> by_cases h2 : c.active_item ≥ 0 <;>
    simp [uiProcessHandles, uiGetHandle, uiItemPtr, UIcontext.count, UIcontext.get, h1, h2, hh, ha,
      bind, Except.bind, pure, Except.pure]

/-! ### Hit test: unfolding -/

theorem uiFindItem_succ (n : Nat) (c : UIcontext) (item x y : Int)
    (h0 : 0 ≤ item) (h1 : item < c.count) :
    uiFindItem (n + 1) c item x y =
      if uiInside (c.get item.toNat).rect x y then
        match uiFindItemKids n c (c.get item.toNat).firstkid
            (x - (c.get item.toNat).rect.x) (y - (c.get item.toNat).rect.y) with
        | .error e => .error e
        | .ok (some best_hit) => .ok best_hit
        | .ok none => .ok item
      else .ok (-1) := by
  simp only [uiFindItem, uiGetRect_valid h0 h1, uiFirstChild_valid h0 h1, uiInside]

theorem uiFindItem_invalid (n : Nat) (c : UIcontext) (item x y : Int)
    (h : ¬ (0 ≤ item ∧ item < c.count)) :
    uiFindItem (n + 1) c item x y = .error .assertion := by
  simp [uiFindItem, uiGetRect, uiItemPtr, h, bind, Except.bind]

theorem uiFindItemKids_succ (n : Nat) (c : UIcontext) (kid x y : Int) :
    uiFindItemKids (n + 1) c kid x y =
      if kid > 0 then
        match uiFindItem n c kid x y with
        | .error e => .error e
        | .ok best_hit =>
          if best_hit ≥ 0 then .ok (some best_hit)
          else
            match uiNextSibling c kid with
            | .error e => .error e
            | .ok next => uiFindItemKids n c next x y
      else .ok none := by
  simp only [uiFindItemKids]

theorem uiFindItem_range :
    ∀ (fuel : Nat),
      (∀ (c : UIcontext) (item x y r : Int), uiFindItem fuel c item x y = .ok r →
        0 ≤ item ∧ item < c.count ∧
          ((r = -1 ∧ ¬ uiInside (c.get item.toNat).rect x y) ∨
           (0 ≤ r ∧ r < c.count ∧ uiInside (c.get item.toNat).rect x y))) ∧
      (∀ (c : UIcontext) (kid x y r : Int), uiFindItemKids fuel c kid x y = .ok (some r) →
        0 ≤ r ∧ r < c.count) := by
  intro fuel
  induction fuel with
  | zero =>
    constructor
    · intro c item x y r h; simp [uiFindItem] at h
    · intro c kid x y r h; simp [uiFindItemKids] at h
  | succ n ih =>
    constructor
    · intro c item x y r h
      by_cases hv : 0 ≤ item ∧ item < c.count
      · rw [uiFindItem_succ n c item x y hv.1 hv.2] at h
        refine ⟨hv.1, hv.2, ?_⟩
        split at h
        · rename_i hin
          right
          split at h
          · cases h
          · rename_i b hb
            injection h with h
            subst h
            have := ih.2 _ _ _ _ _ hb
            exact ⟨this.1, this.2, hin⟩
          · injection h with h
            subst h
            exact ⟨hv.1, hv.2, hin⟩
        · rename_i hin
          left
          injection h with h
          exact ⟨h.symm, hin⟩
      · rw [uiFindItem_invalid n c item x y hv] at h
        cases h
    · intro c kid x y r h
      rw [uiFindItemKids_succ] at h
      split at h
      · split at h
        · cases h
        · rename_i b hb
          split at h
          · rename_i hge
            injection h with h; injection h with h
            subst h
            rcases (ih.1 _ _ _ _ _ hb).2.2 with ⟨h1, -⟩ | ⟨h1, h2, -⟩
            · omega
            · exact ⟨h1, h2⟩
          · split at h
            · cases h
            · exact ih.2 _ _ _ _ _ h
      · cases h

theorem uiProcessHot_range {c : UIcontext} {hot : Int} (h : uiProcessHot c = .ok hot) :
    0 < c.count ∧
      ((hot = -1 ∧ ¬ uiInside (c.get 0).rect c.cursor.x c.cursor.y) ∨
       (0 ≤ hot ∧ hot < c.count ∧ uiInside (c.get 0).rect c.cursor.x c.cursor.y)) := by
  have := (uiFindItem_range _).1 _ _ _ _ _ h
  refine ⟨by omega, ?_⟩
  simpa using this.2.2

/-! ### Interaction state machine (C6 to C9) -/

theorem uiNotifyItem_eq {c : UIcontext} {item : Int} (event : Int)
    (h0 : 0 ≤ item) (h1 : item < c.count) :
    uiNotifyItem c item event = .ok (uiDispatched (c.get item.toNat) item event) :=
  uiNotifyItem_valid event h0 h1

theorem uiGetButton_of_decl {c c' : UIcontext} (h : c'.decl = c.decl) (b : Nat) :
    uiGetButton c' b = uiGetButton c b := by
  unfold uiGetButton
  rw [(ctx_of_decl h).1]

theorem handler_of_decl {c c' : UIcontext} (h : c'.decl = c.decl) (p : Nat) :
    (c'.get p).handler = (c.get p).handler ∧ (c'.get p).event_flags = (c.get p).event_flags ∧
    (c'.get p).handle = (c.get p).handle := by
  have := get_decl_of_decl h p
  have e : ∀ {α : Type} (f : UIitem → α), (∀ x : UIitem, f x.decl = f x) →
      f (c'.get p) = f (c.get p) := fun f hf => by rw [← hf (c'.get p), ← hf (c.get p), this]
  exact ⟨e UIitem.handler (fun _ => rfl), e UIitem.event_flags (fun _ => rfl),
    e UIitem.handle (fun _ => rfl)⟩

theorem uiDispatched_of_decl {c c' : UIcontext} (h : c'.decl = c.decl) (p : Nat)
    (item event : Int) :
    uiDispatched (c'.get p) item event = uiDispatched (c.get p) item event := by
  unfold uiDispatched
  rw [(handler_of_decl h p).1, (handler_of_decl h p).2.1]

theorem uiNotifyItem_items (c : UIcontext) (item event : Int)
    (h0 : 0 ≤ item) (h1 : item < c.items.length) :
    uiNotifyItem c item event =
      .ok (uiDispatched (c.items.getD item.toNat default) item event) := by
  have := uiNotifyItem_valid (c := c) event h0 h1
  rw [this]; rfl

theorem uiProcessHandles_items (c : UIcontext) (hh : c.hot_item < c.items.length)
    (ha : c.active_item < c.items.length) :
    uiProcessHandles c = .ok
      { c with last_cursor := c.cursor,
               hot_handle :=
                 if c.hot_item ≥ 0 then (c.items.getD c.hot_item.toNat default).handle else 0,
               active_handle :=
                 if c.active_item ≥ 0 then (c.items.getD c.active_item.toNat default).handle
                 else 0 } :=
  uiProcessHandles_valid hh ha

/-- the part of `uiProcess` that follows the hit test, when the items named by `hot_item`
and `active_item` after the state switch are live -/
theorem uiProcess_eq {c cl cs : UIcontext} {hot : Int} {evs : List UIdispatch}
    (hlay : uiProcessLayout c = .ok cl) (hhit : uiProcessHot cl = .ok hot)
    (hstate : uiProcessState cl hot = .ok (cs, evs))
    (hh : cs.hot_item < cs.items.length) (ha : cs.active_item < cs.items.length) :
    uiProcess c = .ok
      ({ cs with last_cursor := cs.cursor,
                 hot_handle :=
                   if cs.hot_item ≥ 0 then (cs.items.getD cs.hot_item.toNat default).handle
                   else 0,
                 active_handle :=
                   if cs.active_item ≥ 0 then (cs.items.getD cs.active_item.toNat default).handle
                   else 0 }, evs) := by
  simp only [uiProcess, hlay, hhit, hstate]
  rw [uiProcessHandles_items _ hh ha]

theorem hot_lt_of_hit {cl : UIcontext} {hot : Int} (hhit : uiProcessHot cl = .ok hot) :
    hot < cl.items.length ∧ (-1 : Int) < cl.items.length := by
  have hr := uiProcessHot_range hhit
  unfold UIcontext.count at hr
  rcases hr.2 with ⟨h, -⟩ | ⟨-, h, -⟩ <;> omega

/-- C6: press transition. When `uiProcess` runs in state idle with button 0 down, the layout
passes giving `cl` and the hit test giving `hot`, it succeeds; it dispatches `BUTTON0_DOWN` to
the hit item if that is valid, has a handler and subscribes to the event, and nothing
otherwise; afterwards the state is capture, the drag-start cursor is the current cursor,
`hot_item` is none and `active_item` is the hit-test result. -/
theorem press_transition (c cl : UIcontext) (hot : Int)
    (hlay : uiProcessLayout c = .ok cl) (hhit : uiProcessHot cl = .ok hot)
    (hst : c.state = .UI_STATE_IDLE) (hbtn : uiGetButton c 0 ≠ 0) :
    ∃ c', uiProcess c =
        .ok (c', if 0 ≤ hot then uiDispatched (c.get hot.toNat) hot UI_BUTTON0_DOWN else []) ∧
      c'.state = .UI_STATE_CAPTURE ∧ c'.start_cursor = c.cursor ∧ c'.hot_item = -1 ∧
      c'.active_item = hot := by
  have hd := decl_uiProcessLayout hlay
  have hctx := ctx_of_decl hd
  have hb : uiGetButton cl 0 ≠ 0 := by rw [uiGetButton_of_decl hd]; exact hbtn
  have hs : cl.state = .UI_STATE_IDLE := by rw [hctx.2.2.2.2.2.2.2.2.2.1, hst]
  obtain ⟨h1, hm1⟩ := hot_lt_of_hit hhit
  have hstate : uiProcessState cl hot = .ok
      ({ cl with start_cursor := cl.cursor, last_cursor := cl.cursor, hot_item := -1,
                 active_item := hot, state := .UI_STATE_CAPTURE },
        if 0 ≤ hot then uiDispatched (c.get hot.toNat) hot UI_BUTTON0_DOWN else []) := by
    rw [← uiDispatched_of_decl hd]
    by_cases h0 : 0 ≤ hot
    · simp [uiProcessState, hs, if_pos hb, h0, uiNotifyItem, uiItemPtr, UIcontext.count, h1,
        uiDispatched, UIcontext.get]
      split_ifs <;> rfl
    · simp [uiProcessState, hs, if_pos hb, h0]
  exact ⟨_, uiProcess_eq hlay hhit hstate hm1 h1, rfl, hctx.2.2.2.2.1, rfl, rfl⟩

/-- C7: release transition. When `uiProcess` runs in state capture with button 0 up and a
valid active item, it succeeds; it dispatches `BUTTON0_UP` to the active item and then, only
if the hit-test result is the active item, `BUTTON0_HOT_UP` to it, each subject to the
handler and subscription mask of the item; afterwards `active_item` is none and the state is
idle. -/
theorem release_transition (c cl : UIcontext) (hot : Int)
    (hlay : uiProcessLayout c = .ok cl) (hhit : uiProcessHot cl = .ok hot)
    (hst : c.state = .UI_STATE_CAPTURE) (hbtn : uiGetButton c 0 = 0)
    (ha0 : 0 ≤ c.active_item) (ha1 : c.active_item < c.count) (hh : c.hot_item < c.count) :
    ∃ c', uiProcess c =
        .ok (c', uiDispatched (c.get c.active_item.toNat) c.active_item UI_BUTTON0_UP ++
              (if hot = c.active_item then
                uiDispatched (c.get c.active_item.toNat) c.active_item UI_BUTTON0_HOT_UP
               else [])) ∧
      c'.active_item = -1 ∧ c'.state = .UI_STATE_IDLE := by
  have hd := decl_uiProcessLayout hlay
  have hctx := ctx_of_decl hd
  have hcnt := count_of_decl hd
  have hb : uiGetButton cl 0 = 0 := by rw [uiGetButton_of_decl hd]; exact hbtn
  have hs : cl.state = .UI_STATE_CAPTURE := by rw [hctx.2.2.2.2.2.2.2.2.2.1, hst]
  have hai : cl.active_item = c.active_item := hctx.2.2.2.2.2.2.2.2.1
  have hhi : cl.hot_item = c.hot_item := hctx.2.2.2.2.2.2.2.1
  obtain ⟨h1, hm1⟩ := hot_lt_of_hit hhit
  unfold UIcontext.count at hcnt ha1 hh
  have ha1l : cl.active_item < cl.items.length := by rw [hai, hcnt]; exact ha1
  have ha0l : 0 ≤ cl.active_item := by rw [hai]; exact ha0
  have hstate : uiProcessState cl hot = .ok
      ({ cl with active_item := -1, state := .UI_STATE_IDLE },
        uiDispatched (c.get c.active_item.toNat) c.active_item UI_BUTTON0_UP ++
          (if hot = c.active_item then
            uiDispatched (c.get c.active_item.toNat) c.active_item UI_BUTTON0_HOT_UP
           else [])) := by
    rw [← uiDispatched_of_decl hd, ← uiDispatched_of_decl hd, ← hai]
    by_cases he : hot = cl.active_item
    · have he2 : cl.active_item = hot := he.symm
      simp [uiProcessState, hs, hb, ha0l, he2, uiNotifyItem, uiItemPtr, UIcontext.count, h1,
        uiDispatched, UIcontext.get, (he2 ▸ ha0l : 0 ≤ hot)]
      split_ifs <;> rfl
    · have he2 : ¬ cl.active_item = hot := fun h => he h.symm
      simp [uiProcessState, hs, hb, ha0l, he, he2, uiNotifyItem, uiItemPtr, UIcontext.count, ha1l,
        uiDispatched, UIcontext.get]
      split_ifs <;> rfl
  exact ⟨_, uiProcess_eq hlay hhit hstate (by show cl.hot_item < _; rw [hhi, hcnt]; exact hh) hm1,
    rfl, rfl⟩

/-- C8: hold transition. When `uiProcess` runs in state capture with button 0 still down, it
succeeds; it dispatches `BUTTON0_CAPTURE` to the active item, if that is valid, has a handler
and subscribes to the event, and nothing else; `active_item` and the state stay as they are,
and `hot_item` becomes `active_item` if the hit-test result is the active item and none
otherwise. -/
theorem hold_transition (c cl : UIcontext) (hot : Int)
    (hlay : uiProcessLayout c = .ok cl) (hhit : uiProcessHot cl = .ok hot)
    (hst : c.state = .UI_STATE_CAPTURE) (hbtn : uiGetButton c 0 ≠ 0)
    (ha1 : c.active_item < c.count) :
    ∃ c', uiProcess c =
        .ok (c', if 0 ≤ c.active_item then
                   uiDispatched (c.get c.active_item.toNat) c.active_item UI_BUTTON0_CAPTURE
                 else []) ∧
      c'.active_item = c.active_item ∧ c'.state = .UI_STATE_CAPTURE ∧
      c'.hot_item = if hot = c.active_item then c.active_item else -1 := by
  have hd := decl_uiProcessLayout hlay
  have hctx := ctx_of_decl hd
  have hcnt := count_of_decl hd
  have hb : uiGetButton cl 0 ≠ 0 := by rw [uiGetButton_of_decl hd]; exact hbtn
  have hs : cl.state = .UI_STATE_CAPTURE := by rw [hctx.2.2.2.2.2.2.2.2.2.1, hst]
  have hai : cl.active_item = c.active_item := hctx.2.2.2.2.2.2.2.2.1
  obtain ⟨h1, hm1⟩ := hot_lt_of_hit hhit
  unfold UIcontext.count at hcnt ha1
  have ha1l : cl.active_item < cl.items.length := by rw [hai, hcnt]; exact ha1
  have hstate : uiProcessState cl hot = .ok
      ({ cl with hot_item := if hot = c.active_item then c.active_item else -1 },
        if 0 ≤ c.active_item then
          uiDispatched (c.get c.active_item.toNat) c.active_item UI_BUTTON0_CAPTURE
        else []) := by
    rw [← uiDispatched_of_decl hd, ← hai]
    by_cases ha0 : 0 ≤ cl.active_item <;> by_cases he : hot = cl.active_item
    · simp [uiProcessState, hs, if_pos hb, hb, ha0, he, uiNotifyItem, uiItemPtr, UIcontext.count, ha1l,
        uiDispatched, UIcontext.get]
      split_ifs <;> rfl
    · simp [uiProcessState, hs, if_pos hb, hb, ha0, he, uiNotifyItem, uiItemPtr, UIcontext.count, ha1l,
        uiDispatched, UIcontext.get]
      split_ifs <;> rfl
    · simp [uiProcessState, hs, if_pos hb, hb, ha0, he]
    · simp [uiProcessState, hs, if_pos hb, hb, ha0, he]
  refine ⟨_, uiProcess_eq hlay hhit hstate ?_ ha1l, hai, hs, rfl⟩
  show (if hot = c.active_item then c.active_item else -1) < (cl.items.length : Int)
  split_ifs <;> omega

/-- C9: hover transition. When `uiProcess` runs in state idle with button 0 up, it succeeds
and dispatches no event; the state stays idle, `active_item` is unchanged, and `hot_item` is
the hit-test result, which is none when the cursor is outside the rect of the root. -/
theorem hover_transition (c cl : UIcontext) (hot : Int)
    (hlay : uiProcessLayout c = .ok cl) (hhit : uiProcessHot cl = .ok hot)
    (hst : c.state = .UI_STATE_IDLE) (hbtn : uiGetButton c 0 = 0)
    (ha1 : c.active_item < c.count) :
    ∃ c', uiProcess c = .ok (c', []) ∧
      c'.state = .UI_STATE_IDLE ∧ c'.active_item = c.active_item ∧ c'.hot_item = hot ∧
      (¬ uiInside (cl.get 0).rect c.cursor.x c.cursor.y → c'.hot_item = -1) := by
  have hd := decl_uiProcessLayout hlay
  have hctx := ctx_of_decl hd
  have hcnt := count_of_decl hd
  have hb : uiGetButton cl 0 = 0 := by rw [uiGetButton_of_decl hd]; exact hbtn
  have hs : cl.state = .UI_STATE_IDLE := by rw [hctx.2.2.2.2.2.2.2.2.2.1, hst]
  have hai : cl.active_item = c.active_item := hctx.2.2.2.2.2.2.2.2.1
  obtain ⟨h1, hm1⟩ := hot_lt_of_hit hhit
  unfold UIcontext.count at hcnt ha1
  have ha1l : cl.active_item < cl.items.length := by rw [hai, hcnt]; exact ha1
  have hstate : uiProcessState cl hot = .ok ({ cl with hot_item := hot }, []) := by
    simp [uiProcessState, hs, hb]
  refine ⟨_, uiProcess_eq hlay hhit hstate h1 ha1l, hs, hai, rfl, ?_⟩
  intro hout
  show hot = -1
  have hr := uiProcessHot_range hhit
  rw [hctx.2.2.2.2.1] at hr
  rcases hr.2 with ⟨h, -⟩ | ⟨-, -, h⟩
  · exact h
  · exact absurd h hout

/-! ### Handles across frames (C10) -/

theorem uiProcessHandles_ok {cs c1 : UIcontext} (h : uiProcessHandles cs = .ok c1) :
    c1.items = cs.items ∧ c1.hot_item = cs.hot_item ∧ c1.active_item = cs.active_item ∧
    (0 ≤ c1.hot_item → c1.hot_handle = (c1.get c1.hot_item.toNat).handle) ∧
    (0 ≤ c1.active_item → c1.active_handle = (c1.get c1.active_item.toNat).handle) := by
  unfold uiProcessHandles at h
  simp only at h
  split at h
  · cases h
  · rename_i hh hhot
    split at h
    · cases h
    · rename_i ah hact
      injection h with h
      subst h
      refine ⟨rfl, rfl, rfl, ?_, ?_⟩
      · intro h0
        simp only [ge_iff_le, h0, if_true] at hhot
        unfold uiGetHandle at hhot
        cases hp : uiItemPtr { cs with last_cursor := cs.cursor } cs.hot_item with
        | error e => simp [hp, bind, Except.bind] at hhot
        | ok p =>
          obtain ⟨-, -, h2, -⟩ := uiItemPtr_ok hp
          simp [hp, bind, Except.bind, pure, Except.pure] at hhot
          have : cs.hot_item.toNat = p := by omega
          show hh = _
          rw [← hhot, this]; rfl
      · intro h0
        simp only [ge_iff_le, h0, if_true] at hact
        unfold uiGetHandle at hact
        cases hp : uiItemPtr { cs with last_cursor := cs.cursor, hot_handle := hh }
            cs.active_item with
        | error e => simp [hp, bind, Except.bind] at hact
        | ok p =>
          obtain ⟨-, -, h2, -⟩ := uiItemPtr_ok hp
          simp [hp, bind, Except.bind, pure, Except.pure] at hact
          have : cs.active_item.toNat = p := by omega
          show ah = _
          rw [← hact, this]; rfl

theorem uiProcess_handles {c c1 : UIcontext} {evs : List UIdispatch}
    (h : uiProcess c = .ok (c1, evs)) :
    (0 ≤ c1.hot_item → c1.hot_handle = (c1.get c1.hot_item.toNat).handle) ∧
    (0 ≤ c1.active_item → c1.active_handle = (c1.get c1.active_item.toNat).handle) := by
  unfold uiProcess at h
  split at h
  · cases h
  · split at h
    · cases h
    · split at h
      · cases h
      · split at h
        · cases h
        · rename_i c2 hc2
          injection h with h; injection h with h1 h2
          subst h1
          exact (uiProcessHandles_ok hc2).2.2.2

theorem handles_modify (c : UIcontext) (p : Nat) (f : UIitem → UIitem) :
    (c.modify p f).hot_handle = c.hot_handle ∧ (c.modify p f).active_handle = c.active_handle ∧
    (c.modify p f).hot_item = c.hot_item ∧ (c.modify p f).active_item = c.active_item :=
  ⟨rfl, rfl, rfl, rfl⟩

theorem uiSetHandle_ok {c c' : UIcontext} {item : Int} {h : Nat}
    (hs : uiSetHandle c item h = .ok c') :
    0 ≤ item ∧ item < c.count ∧
    c'.hot_handle = c.hot_handle ∧ c'.active_handle = c.active_handle ∧
    c'.hot_item = (if h ≠ 0 ∧ h = c.hot_handle then item else c.hot_item) ∧
    c'.active_item = (if h ≠ 0 ∧ h = c.active_handle then item else c.active_item) := by
  unfold uiSetHandle at hs
  cases hp : uiItemPtr c item with
  | error e => simp [hp, bind, Except.bind] at hs
  | ok p =>
    obtain ⟨h0, h1, -, -⟩ := uiItemPtr_ok hp
    simp only [hp, bind, Except.bind, pure, Except.pure] at hs
    refine ⟨h0, h1, ?_⟩
    generalize hcm : c.modify p (fun i => { i with handle := h }) = cm at hs
    have e1 : cm.hot_handle = c.hot_handle := by rw [← hcm]; rfl
    have e2 : cm.active_handle = c.active_handle := by rw [← hcm]; rfl
    have e3 : cm.hot_item = c.hot_item := by rw [← hcm]; rfl
    have e4 : cm.active_item = c.active_item := by rw [← hcm]; rfl
    rw [← e1, ← e2, ← e3, ← e4]
    clear hcm e1 e2 e3 e4
    split_ifs at hs <;> injection hs with hs <;> subst hs <;> simp_all

theorem uiSetHandle_valid {c : UIcontext} {item : Int} (h : Nat)
    (h0 : 0 ≤ item) (h1 : item < c.count) : ∃ c', uiSetHandle c item h = .ok c' := by
  unfold uiSetHandle
  rw [uiItemPtr_of_valid h0 h1]
  simp only [bind, Except.bind, pure, Except.pure]
  split <;> exact ⟨_, rfl⟩

theorem hot_handle_modify (c : UIcontext) (p : Nat) (f : UIitem → UIitem) :
    (c.modify p f).hot_handle = c.hot_handle := rfl

theorem active_handle_modify (c : UIcontext) (p : Nat) (f : UIitem → UIitem) :
    (c.modify p f).active_handle = c.active_handle := rfl

theorem uiCall_decl_handles {c c' : UIcontext} {call : UIcall} (hd : call.isDecl = true)
    (h : uiCall c call = .ok c') :
    c'.hot_handle = c.hot_handle ∧ c'.active_handle = c.active_handle := by
  cases call with
  | item =>
    simp only [uiCall, uiItem] at h
    split at h
    · simp only [Except.map] at h
      injection h with h; subst h; exact ⟨rfl, rfl⟩
    · simp [Except.map] at h
  | setParent item parent =>
    simp only [uiCall, uiSetParent, uiParent, bind, Except.bind, pure, Except.pure] at h
    repeat' split at h
    all_goals first | (injection h with h; subst h; exact ⟨by simp only [hot_handle_modify], by simp only [active_handle_modify]⟩) | cases h
  | setSize item w hh =>
    simp only [uiCall, uiSetSize, bind, Except.bind, pure, Except.pure] at h
    repeat' split at h
    all_goals first | (injection h with h; subst h; exact ⟨by simp only [hot_handle_modify], by simp only [active_handle_modify]⟩) | cases h
  | setLayout item flags =>
    simp only [uiCall, uiSetLayout, bind, Except.bind, pure, Except.pure] at h
    repeat' split at h
    all_goals first | (injection h with h; subst h; exact ⟨by simp only [hot_handle_modify], by simp only [active_handle_modify]⟩) | cases h
  | setMargins item l t r b =>
    simp only [uiCall, uiSetMargins, bind, Except.bind, pure, Except.pure] at h
    repeat' split at h
    all_goals first | (injection h with h; subst h; exact ⟨by simp only [hot_handle_modify], by simp only [active_handle_modify]⟩) | cases h
  | setRelativeTo item l t r b =>
    simp only [uiCall, uiSetRelativeTo, bind, Except.bind, pure, Except.pure] at h
    repeat' split at h
    all_goals first | (injection h with h; subst h; exact ⟨by simp only [hot_handle_modify], by simp only [active_handle_modify]⟩) | cases h
  | allocData item size =>
    simp only [uiCall, uiAllocData, bind, Except.bind, pure, Except.pure] at h
    repeat' split at h
    all_goals first | (injection h with h; subst h; exact ⟨by simp only [hot_handle_modify], by simp only [active_handle_modify]⟩) | cases h
  | setHandle item handle =>
    have := uiSetHandle_ok h
    exact ⟨this.2.2.1, this.2.2.2.1⟩
  | setHandler item handler flags =>
    simp only [uiCall, uiSetHandler, bind, Except.bind, pure, Except.pure] at h
    repeat' split at h
    all_goals first | (injection h with h; subst h; exact ⟨by simp only [hot_handle_modify], by simp only [active_handle_modify]⟩) | cases h
  | setButton b e =>
    simp only [uiCall] at h
    injection h with h; subst h; exact ⟨rfl, rfl⟩
  | setCursor x y =>
    simp only [uiCall] at h
    injection h with h; subst h; exact ⟨rfl, rfl⟩
  | clear => cases hd
  | process => cases hd

theorem uiCalls_decl_handles :
    ∀ (calls : List UIcall) (c c' : UIcontext), (∀ call ∈ calls, call.isDecl = true) →
      uiCalls c calls = .ok c' →
      c'.hot_handle = c.hot_handle ∧ c'.active_handle = c.active_handle := by
  intro calls
  induction calls with
  | nil =>
    intro c c' _ h
    simp only [uiCalls] at h
    injection h with h; subst h; exact ⟨rfl, rfl⟩
  | cons call rest ih =>
    intro c c' hd h
    simp only [uiCalls] at h
    split at h
    · cases h
    · rename_i c1 h1
      have e1 := uiCall_decl_handles (hd call (List.mem_cons_self _ _)) h1
      have e2 := ih c1 c' (fun x hx => hd x (List.mem_cons_of_mem _ hx)) h
      exact ⟨e2.1.trans e1.1, e2.2.trans e1.2⟩

/-- C10: handle continuity. Let `uiProcess` end frame N in `c1`, and let frame N+1 consist of
`uiClear` and declaration or input calls leading to `c2`, in which `j` is a live item. If the
hot item of `c1` carries the handle `H`, not zero, then `uiSetHandle(j, H)` succeeds on `c2`
and makes `j` the hot item; the same holds for the active item. And whenever `uiSetHandle`
succeeds with a handle that is zero or is not the stored hot handle, `hot_item` is unchanged,
and likewise for `active_item` and the stored active handle. -/
theorem handle_continuity (c c1 : UIcontext) (evs : List UIdispatch) (calls : List UIcall)
    (c2 : UIcontext) (j : Int)
    (hp : uiProcess c = .ok (c1, evs)) (hdecl : ∀ call ∈ calls, call.isDecl = true)
    (hrun : uiCalls (uiClear c1) calls = .ok c2) (hj0 : 0 ≤ j) (hj1 : j < c2.count) :
    (∀ H : Nat, H ≠ 0 → 0 ≤ c1.hot_item → (c1.get c1.hot_item.toNat).handle = H →
      ∃ c3, uiSetHandle c2 j H = .ok c3 ∧ c3.hot_item = j) ∧
    (∀ H : Nat, H ≠ 0 → 0 ≤ c1.active_item → (c1.get c1.active_item.toNat).handle = H →
      ∃ c3, uiSetHandle c2 j H = .ok c3 ∧ c3.active_item = j) ∧
    (∀ (cx cx' : UIcontext) (item : Int) (h : Nat), uiSetHandle cx item h = .ok cx' →
      ((h = 0 ∨ h ≠ cx.hot_handle) → cx'.hot_item = cx.hot_item) ∧
      ((h = 0 ∨ h ≠ cx.active_handle) → cx'.active_item = cx.active_item)) := by
  have hh := uiProcess_handles hp
  have hk := uiCalls_decl_handles calls _ _ hdecl hrun
  have hk1 : c2.hot_handle = c1.hot_handle := hk.1
  have hk2 : c2.active_handle = c1.active_handle := hk.2
  refine ⟨?_, ?_, ?_⟩
  · intro H hH h0 hhd
    obtain ⟨c3, h3⟩ := uiSetHandle_valid H hj0 hj1
    refine ⟨c3, h3, ?_⟩
    rw [(uiSetHandle_ok h3).2.2.2.2.1, hk1, hh.1 h0, hhd]
    simp [hH]
  · intro H hH h0 hhd
    obtain ⟨c3, h3⟩ := uiSetHandle_valid H hj0 hj1
    refine ⟨c3, h3, ?_⟩
    rw [(uiSetHandle_ok h3).2.2.2.2.2, hk2, hh.2 h0, hhd]
    simp [hH]
  · intro cx cx' item h hs
    have := uiSetHandle_ok hs
    refine ⟨fun hc => ?_, fun hc => ?_⟩
    · rw [this.2.2.2.2.1]
      rcases hc with hc | hc <;> simp [hc]
    · rw [this.2.2.2.2.2]
      rcases hc with hc | hc <;> simp [hc]

/-! ### Hierarchies as trees -/

theorem need_le (t : KTree) : t.need ≤ 2 * t.indices.length + 1 := by
  induction t with
  | nil => simp [KTree.need, KTree.indices]
  | node i kids next ih1 ih2 =>
    simp only [KTree.need, KTree.indices, List.length_cons, List.length_append]
    omega

theorem roots_sub_indices (t : KTree) : ∀ x ∈ t.roots, x ∈ t.indices := by
  induction t with
  | nil => simp [KTree.roots]
  | node i kids next ih1 ih2 =>
    intro x hx
    simp only [KTree.roots, List.mem_cons] at hx
    simp only [KTree.indices, List.mem_cons, List.mem_append]
    rcases hx with hx | hx
    · exact Or.inl hx
    · exact Or.inr (Or.inr (ih2 x hx))

theorem roots_length_lt_need (t : KTree) : t.roots.length < t.need := by
  induction t with
  | nil => simp [KTree.need, KTree.roots]
  | node i kids next ih1 ih2 =>
    simp only [KTree.need, KTree.roots, List.length_cons]
    omega

theorem IsForest_range {c : UIcontext} :
    ∀ (t : KTree) (kid : Int), IsForest c kid t → ∀ x ∈ t.indices, 0 < x ∧ x < c.count := by
  intro t
  induction t with
  | nil => intro kid _ x hx; simp [KTree.indices] at hx
  | node i kids next ih1 ih2 =>
    intro kid h x hx
    obtain ⟨-, h0, h1, hk, hn⟩ := h
    simp only [KTree.indices, List.mem_cons, List.mem_append] at hx
    rcases hx with hx | hx | hx
    · subst hx; exact ⟨h0, h1⟩
    · exact ih1 _ hk x hx
    · exact ih2 _ hn x hx

theorem length_le_of_nodup_range {l : List Nat} {n : Nat} (hn : l.Nodup)
    (hr : ∀ x ∈ l, 0 < x ∧ x < n) : l.length ≤ n - 1 := by
  have h1 : l.toFinset ⊆ Finset.Ico 1 n := by
    intro x hx
    rw [List.mem_toFinset] at hx
    rw [Finset.mem_Ico]
    exact ⟨(hr x hx).1, (hr x hx).2⟩
  have h2 := Finset.card_le_card h1
  rw [List.toFinset_card_of_nodup hn, Nat.card_Ico] at h2
  exact h2

theorem Hierarchy.need_lt {c : UIcontext} {t : KTree} (h : Hierarchy c t) :
    t.need < uiFuel c := by
  have h1 := need_le t
  have h2 := length_le_of_nodup_range h.nodup (IsForest_range t _ h.forest)
  have h3 := h.root
  unfold uiFuel
  omega

theorem IsForest_of_decl {c c' : UIcontext} (hd : c'.decl = c.decl) :
    ∀ (t : KTree) (kid : Int), IsForest c kid t → IsForest c' kid t := by
  intro t
  induction t with
  | nil => intro kid h; exact h
  | node i kids next ih1 ih2 =>
    intro kid h
    obtain ⟨hk, h0, h1, hf, hn⟩ := h
    have hi := get_decl_of_decl hd i
    have e1 : (c'.get i).firstkid = (c.get i).firstkid := by
      have := congrArg UIitem.firstkid hi; exact this
    have e2 : (c'.get i).nextitem = (c.get i).nextitem := by
      have := congrArg UIitem.nextitem hi; exact this
    refine ⟨hk, h0, by rw [count_of_decl hd]; exact h1, ?_, ?_⟩
    · rw [e1]; exact ih1 _ hf
    · rw [e2]; exact ih2 _ hn

/-! ### Hit test on a hierarchy (C4, C5) -/

theorem uiFindItemKids_eq_hit (c : UIcontext) :
    ∀ (t : KTree) (kid x y : Int) (fuel : Nat), IsForest c kid t → t.need ≤ fuel →
      uiFindItemKids fuel c kid x y = .ok (t.hit c x y) := by
  intro t
  induction t with
  | nil =>
    intro kid x y fuel h hf
    simp only [KTree.need] at hf
    obtain ⟨n, rfl⟩ : ∃ n, fuel = n + 1 := ⟨fuel - 1, by omega⟩
    have h' : kid ≤ 0 := h
    rw [uiFindItemKids_succ]
    simp [not_lt.mpr h', KTree.hit]
  | node i kids next ih1 ih2 =>
    intro kid x y fuel h hf
    obtain ⟨hk, h0, h1, hkids, hnext⟩ := h
    simp only [KTree.need] at hf
    obtain ⟨n, rfl⟩ : ∃ n, fuel = n + 1 := ⟨fuel - 1, by omega⟩
    obtain ⟨m, rfl⟩ : ∃ m, n = m + 1 := ⟨n - 1, by omega⟩
    have hkpos : kid > 0 := by omega
    have hv0 : 0 ≤ kid := by omega
    have hv1 : kid < c.count := by omega
    have htn : kid.toNat = i := by omega
    rw [uiFindItemKids_succ, if_pos hkpos, uiFindItem_succ _ _ _ _ _ hv0 hv1, htn]
    simp only [KTree.hit]
    by_cases hin : uiInside (c.get i).rect x y
    · simp only [hin, if_true]
      rw [ih1 _ _ _ m hkids (by omega)]
      cases hh : kids.hit c (x - (c.get i).rect.x) (y - (c.get i).rect.y) with
      | none =>
        simp only [Option.getD_none]
        rw [if_pos (by omega), hk]
      | some b =>
        simp only [Option.getD_some]
        have := (uiFindItem_range m).2 c _ _ _ b
          ((ih1 _ _ _ m hkids (by omega)).trans (by rw [hh]))
        rw [if_pos (by omega)]
    · simp only [hin, if_false]
      rw [if_neg (by omega), uiNextSibling_valid hv0 hv1, htn]
      simp only []
      exact ih2 _ _ _ _ hnext (by omega)

theorem uiFindItem_eq_hit (c : UIcontext) (item : Nat) (ks : KTree) (x y : Int) (fuel : Nat)
    (hv : item < c.count) (hks : IsForest c (c.get item).firstkid ks) (hf : ks.need < fuel) :
    uiFindItem fuel c item x y =
      .ok (if uiInside (c.get item).rect x y then
             (ks.hit c (x - (c.get item).rect.x) (y - (c.get item).rect.y)).getD (item : Int)
           else -1) := by
  obtain ⟨n, rfl⟩ : ∃ n, fuel = n + 1 := ⟨fuel - 1, by omega⟩
  rw [uiFindItem_succ _ _ _ _ _ (by omega) (by omega)]
  simp only [Int.toNat_ofNat]
  split
  · rw [uiFindItemKids_eq_hit c ks _ _ _ n hks (by omega)]
    cases ks.hit c (x - (c.get item).rect.x) (y - (c.get item).rect.y) <;> rfl
  · rfl

theorem hit_eq_firstInside (c : UIcontext) :
    ∀ (t : KTree) (x y : Int),
      t.hit c x y =
        match t.firstInside c x y with
        | some k => some (((t.kidsOf k).hit c (x - (c.get k).rect.x)
            (y - (c.get k).rect.y)).getD (k : Int))
        | none => none := by
  intro t
  induction t with
  | nil => intro x y; rfl
  | node i kids next ih1 ih2 =>
    intro x y
    simp only [KTree.hit, KTree.firstInside, KTree.roots, List.find?_cons]
    by_cases hin : uiInside (c.get i).rect x y
    · simp [hin, KTree.kidsOf]
    · simp only [hin, if_false, decide_False]
      rw [ih2]
      simp only [KTree.firstInside]
      cases hk : List.find? (fun k => decide (uiInside (c.get k).rect x y)) next.roots with
      | none => rfl
      | some k =>
        simp only [KTree.kidsOf]
        have hne : k ≠ i := by
          intro he
          have := List.find?_some hk
          simp only [decide_eq_true_eq] at this
          rw [he] at this
          exact hin this
        rw [if_neg hne]

theorem IsForest_kidsOf {c : UIcontext} :
    ∀ (t : KTree) (kid : Int) (k : Nat), IsForest c kid t → k ∈ t.roots →
      k < c.count ∧ IsForest c (c.get k).firstkid (t.kidsOf k) ∧ (t.kidsOf k).need + 2 ≤ t.need := by
  intro t
  induction t with
  | nil => intro kid k _ hk; simp [KTree.roots] at hk
  | node i kids next ih1 ih2 =>
    intro kid k h hk
    obtain ⟨-, h0, h1, hkids, hnext⟩ := h
    simp only [KTree.kidsOf, KTree.need]
    by_cases he : k = i
    · subst he
      simp only [if_true]
      exact ⟨h1, hkids, by omega⟩
    · simp only [he, if_false]
      simp only [KTree.roots, List.mem_cons] at hk
      rcases hk with hk | hk
      · exact absurd hk he
      · obtain ⟨a, b, d⟩ := ih2 _ k hnext hk
        exact ⟨a, b, by omega⟩

/-- C4: hit-test priority. For a live item whose children form the sibling list `ks` and a
point inside the rect of the item, `uiFindItem` on the item returns what `uiFindItem` returns
on the first child, in sibling order, whose rect contains the point translated into the
coordinates of the item, and returns the item itself when the rect of no child contains
it. -/
theorem hit_test_priority (c : UIcontext) (item : Nat) (ks : KTree) (x y : Int) (fuel : Nat)
    (hv : item < c.count) (hks : IsForest c (c.get item).firstkid ks) (hf : ks.need < fuel)
    (hin : uiInside (c.get item).rect x y) :
    uiFindItem fuel c item x y =
      match ks.firstInside c (x - (c.get item).rect.x) (y - (c.get item).rect.y) with
      | some k => uiFindItem fuel c k (x - (c.get item).rect.x) (y - (c.get item).rect.y)
      | none => .ok item := by
  rw [uiFindItem_eq_hit c item ks x y fuel hv hks hf, if_pos hin, hit_eq_firstInside]
  cases hk : ks.firstInside c (x - (c.get item).rect.x) (y - (c.get item).rect.y) with
  | none => rfl
  | some k =>
    simp only [Option.getD_some]
    have hmem : k ∈ ks.roots := List.mem_of_find?_eq_some hk
    have hink : uiInside (c.get k).rect (x - (c.get item).rect.x) (y - (c.get item).rect.y) := by
      have := List.find?_some hk
      simpa using this
    obtain ⟨hkv, hkf, hkn⟩ := IsForest_kidsOf ks _ k hks hmem
    rw [uiFindItem_eq_hit c k (ks.kidsOf k) _ _ fuel hkv hkf (by omega), if_pos hink]

/-- C5: the hit test returns none exactly outside the root. On a hierarchy
`uiFindItem(0, x, y)` succeeds, and its result is `-1` if and only if the point is not inside
the rect of the root. -/
theorem hit_test_none_iff_outside_root (c : UIcontext) (t : KTree) (h : Hierarchy c t)
    (x y : Int) :
    ∃ r, uiFindItem (uiFuel c) c 0 x y = .ok r ∧
      (r = -1 ↔ ¬ ((c.get 0).rect.x ≤ x ∧ x < (c.get 0).rect.x + (c.get 0).rect.w ∧
                    (c.get 0).rect.y ≤ y ∧ y < (c.get 0).rect.y + (c.get 0).rect.h)) := by
  obtain ⟨r, he⟩ : ∃ r, uiFindItem (uiFuel c) c 0 x y = .ok r :=
    ⟨_, uiFindItem_eq_hit c 0 t x y (uiFuel c) h.root h.forest h.need_lt⟩
  refine ⟨r, he, ?_⟩
  have hr := (uiFindItem_range _).1 _ _ _ _ _ he
  have hiff : uiInside (c.get 0).rect x y ↔
      ((c.get 0).rect.x ≤ x ∧ x < (c.get 0).rect.x + (c.get 0).rect.w ∧
        (c.get 0).rect.y ≤ y ∧ y < (c.get 0).rect.y + (c.get 0).rect.h) := by
    unfold uiInside
    constructor
    · rintro ⟨a, b, d, e⟩; exact ⟨by omega, by omega, by omega, by omega⟩
    · rintro ⟨a, b, d, e⟩; exact ⟨by omega, by omega, by omega, by omega⟩
  rw [← hiff]
  simp only [Int.toNat_zero, Nat.cast_zero] at hr
  rcases hr.2.2 with ⟨h1, h2⟩ | ⟨h1, -, h2⟩
  · exact ⟨fun _ => h2, fun _ => h1⟩
  · exact ⟨fun e => absurd h1 (by omega), fun e => absurd h2 e⟩

/-! ### The bits of `visited`; the part of an item one dimension reads and writes -/

theorem one_shl (d : Nat) : 1 <<< d = 2 ^ d := by
  rw [Nat.shiftLeft_eq, one_mul]

theorem four_shl (d : Nat) : 4 <<< d = 2 ^ (d + 2) := by
  rw [Nat.shiftLeft_eq, pow_succ, pow_succ]; omega

theorem or_pow_and_pow_ne (v a b : Nat) (h : a ≠ b) : (v ||| 2 ^ a) &&& 2 ^ b = v &&& 2 ^ b := by
  apply Nat.eq_of_testBit_eq
  intro i
  simp only [Nat.testBit_and, Nat.testBit_or, Nat.testBit_two_pow]
  by_cases hb : b = i
  · subst hb
    simp [h]
  · simp [hb]

theorem or_pow_and_pow_self (v a : Nat) : (v ||| 2 ^ a) &&& 2 ^ a ≠ 0 := by
  intro h
  have := congrArg (fun x => Nat.testBit x a) h
  simp [Nat.testBit_and, Nat.testBit_or, Nat.testBit_two_pow] at this

theorem and_pow_or_pow_of_ne_zero (v a : Nat) (h : v &&& 2 ^ a ≠ 0) : v ||| 2 ^ a = v := by
  apply Nat.eq_of_testBit_eq
  intro i
  simp only [Nat.testBit_or, Nat.testBit_two_pow]
  by_cases hb : a = i
  · subst hb
    have : v.testBit a = true := by
      by_contra hc
      apply h
      apply Nat.eq_of_testBit_eq
      intro j
      simp only [Nat.testBit_and, Nat.testBit_two_pow, Nat.zero_testBit]
      by_cases hj : a = j
      · subst hj; simp [hc]
      · simp [hj]
    simp [this]
  · simp [hb]

theorem view_modify (d : Nat) (c : UIcontext) (p : Nat) (f : UIitem → UIitem)
    (hf : ∀ i, (f i).view d = i.view d) : (c.modify p f).view d = c.view d := by
  unfold UIcontext.modify UIcontext.put UIcontext.view UIcontext.get
  simp only [List.map_set, hf]
  apply List.ext_getElem?
  intro n
  by_cases h : n = p
  · subst h
    by_cases hn : n < c.items.length
    · simp [List.getElem?_set, hn, List.getD_eq_getElem?_getD]
    · simp [List.getElem?_set, hn, List.getElem?_eq_none (not_lt.mp hn)]
  · simp [List.getElem?_set_ne (Ne.symm h)]

theorem get_view_of_view {d : Nat} {c c' : UIcontext} (h : c'.view d = c.view d) (p : Nat) :
    (c'.get p).view d = (c.get p).view d := by
  have h2 := congrArg (fun x => x[p]?) h
  simp only [UIcontext.view, List.getElem?_map] at h2
  unfold UIcontext.get
  rw [List.getD_eq_getElem?_getD, List.getD_eq_getElem?_getD]
  have hlen : c'.items.length = c.items.length := by
    have := congrArg List.length h
    simpa [UIcontext.view] using this
  cases h1 : c'.items[p]? <;> cases h3 : c.items[p]? <;> simp_all

theorem rect_setV_v (r : UIrect) (i j : Nat) (a : Int) (hi : i < 4) (hj : j < 4) :
    (r.setV i a).v j = if j = i then a else r.v j := by
  unfold UIrect.setV UIrect.v
  have : i = 0 ∨ i = 1 ∨ i = 2 ∨ i = 3 := by omega
  have : j = 0 ∨ j = 1 ∨ j = 2 ∨ j = 3 := by omega
  rcases ‹i = 0 ∨ i = 1 ∨ i = 2 ∨ i = 3› with rfl | rfl | rfl | rfl <;>
    rcases ‹j = 0 ∨ j = 1 ∨ j = 2 ∨ j = 3› with rfl | rfl | rfl | rfl <;> simp

theorem view_visited_or_one (d d' : Nat) (i : UIitem) (h : d ≠ d') (hd : d < 2) (hd' : d' < 2) :
    ({ i with visited := i.visited ||| (1 <<< d') } : UIitem).view d = i.view d := by
  unfold UIitem.view
  simp only [one_shl, four_shl]
  rw [or_pow_and_pow_ne _ _ _ (by omega), or_pow_and_pow_ne _ _ _ (by omega)]

theorem view_visited_or_four (d d' : Nat) (i : UIitem) (h : d ≠ d') (hd : d < 2)
    (hd' : d' < 2) :
    ({ i with visited := i.visited ||| (4 <<< d') } : UIitem).view d = i.view d := by
  unfold UIitem.view
  simp only [one_shl, four_shl]
  rw [or_pow_and_pow_ne _ _ _ (by omega), or_pow_and_pow_ne _ _ _ (by omega)]

theorem view_rect_setV (d e : Nat) (i : UIitem) (a : Int) (h1 : e ≠ d) (h2 : e ≠ d + 2)
    (hd : d < 2) (he : e < 4) :
    ({ i with rect := i.rect.setV e a } : UIitem).view d = i.view d := by
  unfold UIitem.view
  simp only [rect_setV_v _ _ _ _ he (show d < 4 by omega), rect_setV_v _ _ _ _ he
    (show d + 2 < 4 by omega), if_neg (Ne.symm h1), if_neg (Ne.symm h2)]

/-! ### The placement equations -/

theorem view_fields {d : Nat} {a b : UIitem} (h : a.view d = b.view d) :
    a.rect.v d = b.rect.v d ∧ a.rect.v (d + 2) = b.rect.v (d + 2) ∧
    a.visited &&& (1 <<< d) = b.visited &&& (1 <<< d) ∧
    a.visited &&& (4 <<< d) = b.visited &&& (4 <<< d) := by
  unfold UIitem.view at h
  simp only [Prod.mk.injEq] at h
  exact h

theorem decl_fields {a b : UIitem} (h : a.decl = b.decl) :
    a.layout_flags = b.layout_flags ∧ a.relto = b.relto ∧ a.margins = b.margins ∧
    a.parent = b.parent ∧ a.size = b.size ∧ a.firstkid = b.firstkid ∧
    a.nextitem = b.nextitem := by
  have e : ∀ {α : Type} (f : UIitem → α), (∀ x : UIitem, f x.decl = f x) → f a = f b :=
    fun f hf => by rw [← hf a, ← hf b, h]
  exact ⟨e UIitem.layout_flags (fun _ => rfl), e UIitem.relto (fun _ => rfl),
    e UIitem.margins (fun _ => rfl), e UIitem.parent (fun _ => rfl),
    e UIitem.size (fun _ => rfl), e UIitem.firstkid (fun _ => rfl),
    e UIitem.nextitem (fun _ => rfl)⟩

theorem uiFollowL_congr {a b : UIitem} (h : a.decl = b.decl) (dim : Nat) :
    uiFollowL a dim ↔ uiFollowL b dim := by
  unfold uiFollowL
  rw [(decl_fields h).1, (decl_fields h).2.1]

theorem uiFollowR_congr {a b : UIitem} (h : a.decl = b.decl) (dim : Nat) :
    uiFollowR a dim ↔ uiFollowR b dim := by
  unfold uiFollowR
  rw [(decl_fields h).1, (decl_fields h).2.1]

theorem PlacedAt_congr {dim : Nat} {it nl nr pp it' nl' nr' pp' : UIitem}
    (hd : it'.decl = it.decl) (hv : it'.view dim = it.view dim)
    (hl : uiFollowL it dim → nl'.view dim = nl.view dim)
    (hr : uiFollowR it dim → nr'.view dim = nr.view dim)
    (hp : pp'.view dim = pp.view dim) :
    PlacedAt dim it' nl' nr' pp' ↔ PlacedAt dim it nl nr pp := by
  have hL : spanL dim it' nl' = spanL dim it nl := by
    unfold spanL
    by_cases h : uiFollowL it dim
    · rw [if_pos h, if_pos ((uiFollowL_congr hd dim).mpr h), (view_fields (hl h)).1,
        (view_fields (hl h)).2.1]
    · rw [if_neg h, if_neg (fun h' => h ((uiFollowL_congr hd dim).mp h'))]
  have hW : spanW dim it' nl' nr' pp' = spanW dim it nl nr pp := by
    unfold spanW
    rw [hL]
    by_cases h : uiFollowR it dim
    · rw [if_pos h, if_pos ((uiFollowR_congr hd dim).mpr h), (view_fields (hr h)).1]
    · rw [if_neg h, if_neg (fun h' => h ((uiFollowR_congr hd dim).mp h'))]
      by_cases h2 : uiFollowL it dim
      · rw [if_pos h2, if_pos ((uiFollowL_congr hd dim).mpr h2), (view_fields hp).2.1]
      · rw [if_neg h2, if_neg (fun h' => h2 ((uiFollowL_congr hd dim).mp h')),
          (view_fields hp).2.1]
  unfold PlacedAt
  rw [hL, hW, (decl_fields hd).1, (decl_fields hd).2.2.1, (view_fields hv).1,
    (view_fields hv).2.1]

theorem laidOut_congr {dim : Nat} {c c' : UIcontext} {q : Nat}
    (h : (c'.get q).view dim = (c.get q).view dim) : laidOut c' q dim ↔ laidOut c q dim := by
  unfold laidOut
  rw [(view_fields h).2.2.2]

/-- `Placed` only depends on the declarations and on the dimension-`dim` part of the item,
its followed neighbors and its parent. -/
theorem Placed_congr {dim : Nat} {c c' : UIcontext} {q : Nat}
    (hd : c'.decl = c.decl)
    (hq : (c'.get q).view dim = (c.get q).view dim)
    (hl : uiFollowL (c.get q) dim → (c'.get (c.nl q dim)).view dim = (c.get (c.nl q dim)).view dim)
    (hr : uiFollowR (c.get q) dim → (c'.get (c.nr q dim)).view dim = (c.get (c.nr q dim)).view dim)
    (hp : (c'.get (c.par q)).view dim = (c.get (c.par q)).view dim) :
    Placed c' q dim ↔ Placed c q dim := by
  have hdq := get_decl_of_decl hd q
  have enl : c'.nl q dim = c.nl q dim := by
    unfold UIcontext.nl; rw [(decl_fields hdq).2.1]
  have enr : c'.nr q dim = c.nr q dim := by
    unfold UIcontext.nr; rw [(decl_fields hdq).2.1]
  have epar : c'.par q = c.par q := by
    unfold UIcontext.par; rw [(decl_fields hdq).2.2.2.1]
  unfold Placed
  rw [enl, enr, epar, uiFollowL_congr hdq dim, uiFollowR_congr hdq dim,
    PlacedAt_congr hdq hq hl hr hp, laidOut_congr hp]
  constructor
  · rintro ⟨a, b, d, e⟩
    exact ⟨fun h => (laidOut_congr (hl h)).mp (a h), fun h => (laidOut_congr (hr h)).mp (b h),
      d, e⟩
  · rintro ⟨a, b, d, e⟩
    exact ⟨fun h => (laidOut_congr (hl h)).mpr (a h), fun h => (laidOut_congr (hr h)).mpr (b h),
      d, e⟩

/-! ### One call of `uiLayoutChildItem`: what it guarantees -/

theorem SiblingRefs_of_decl {c c' : UIcontext} (hd : c'.decl = c.decl) (h : SiblingRefs c) :
    SiblingRefs c' := by
  intro i hi hp e he
  have hdi := decl_fields (get_decl_of_decl hd i)
  rw [count_of_decl hd] at hi
  rw [hdi.2.1, hdi.2.2.2.1]
  rw [hdi.2.2.2.1] at hp
  rcases h i hi hp e he with h1 | ⟨h1, h2, h3⟩
  · exact Or.inl h1
  · refine Or.inr ⟨h1, h2, ?_⟩
    rw [(decl_fields (get_decl_of_decl hd _)).2.2.2.1]
    exact h3

theorem get_place_ne (c : UIcontext) (p q dim : Nat) (wl wr : Int) (h : q ≠ p) :
    (uiLayoutPlace c p dim wl wr).get q = c.get q := by
  unfold uiLayoutPlace
  simp only
  split
  · exact get_modify_ne _ _ _ _ h
  · split
    · exact get_modify_ne _ _ _ _ h
    · split
      · rw [get_modify_ne _ _ _ _ h, get_modify_ne _ _ _ _ h]
      · exact get_modify_ne _ _ _ _ h

theorem place_spec (c : UIcontext) (p dim : Nat) (wl wr : Int) (hp : p < c.count)
    (hd : dim < 2) :
    ((uiLayoutPlace c p dim wl wr).get p).visited = (c.get p).visited ∧
    ((uiLayoutPlace c p dim wl wr).get p).decl = (c.get p).decl ∧
    (∀ d, d < 2 → d ≠ dim →
      ((uiLayoutPlace c p dim wl wr).get p).view d = (c.get p).view d) ∧
    PlaceEq (Int.land ((c.get p).layout_flags >>> dim) UI_HFILL) wl wr
      ((c.get p).margins.v dim) ((c.get p).margins.v (dim + 2))
      (((uiLayoutPlace c p dim wl wr).get p).rect.v dim)
      (((uiLayoutPlace c p dim wl wr).get p).rect.v (dim + 2)) := by
  have h4 : dim < 4 := by omega
  have h24 : dim + 2 < 4 := by omega
  unfold uiLayoutPlace PlaceEq
  simp only
  split
  · rw [get_modify_self _ _ _ hp]
    refine ⟨rfl, rfl, fun d hd2 hne => view_rect_setV d dim _ _ (Ne.symm hne) (by omega) hd2 h4, ?_⟩
    simp only [rect_setV_v _ _ _ _ h4 h4, if_true]
  · split
    · rw [get_modify_self _ _ _ hp]
      refine ⟨rfl, rfl, fun d hd2 hne => view_rect_setV d dim _ _ (Ne.symm hne) (by omega) hd2 h4,
        ?_⟩
      simp only [rect_setV_v _ _ _ _ h4 h4, rect_setV_v _ _ _ _ h4 h24, if_true]
      rw [if_neg (by omega)]
    · split
      · rw [get_modify_self _ _ _ (by rw [count_modify]; exact hp), get_modify_self _ _ _ hp]
        refine ⟨rfl, rfl, fun d hd2 hne => ?_, ?_⟩
        · rw [view_rect_setV d (dim + 2) _ _ (by omega) (by omega) hd2 h24]
          exact view_rect_setV d dim _ _ (Ne.symm hne) (by omega) hd2 h4
        · simp only [rect_setV_v _ _ _ _ h24 h4, rect_setV_v _ _ _ _ h24 h24,
            rect_setV_v _ _ _ _ h4 h4, if_true]
          rw [if_neg (by omega)]
          constructor <;> first | rfl | trivial
      · rw [get_modify_self _ _ _ hp]
        refine ⟨rfl, rfl,
          fun d hd2 hne => view_rect_setV d dim _ _ (Ne.symm hne) (by omega) hd2 h4, ?_⟩
        simp only [rect_setV_v _ _ _ _ h4 h4, rect_setV_v _ _ _ _ h4 h24, if_true]
        rw [if_neg (by omega)]

theorem view_uiLayoutPlace (c : UIcontext) (p dim d : Nat) (wl wr : Int) (hd : d < 2)
    (hdim : dim < 2) (hne : d ≠ dim) : (uiLayoutPlace c p dim wl wr).view d = c.view d := by
  have h4 : dim < 4 := by omega
  have h24 : dim + 2 < 4 := by omega
  unfold uiLayoutPlace
  simp only
  split
  · exact view_modify _ _ _ _ (fun i => view_rect_setV d dim i _ (Ne.symm hne) (by omega) hd h4)
  · split
    · exact view_modify _ _ _ _
        (fun i => view_rect_setV d dim i _ (Ne.symm hne) (by omega) hd h4)
    · split
      · rw [view_modify _ _ _ _
          (fun i => view_rect_setV d (dim + 2) i _ (by omega) (by omega) hd h24)]
        exact view_modify _ _ _ _
          (fun i => view_rect_setV d dim i _ (Ne.symm hne) (by omega) hd h4)
      · exact view_modify _ _ _ _
          (fun i => view_rect_setV d dim i _ (Ne.symm hne) (by omega) hd h4)

theorem NbPost.nb_refl (dim pp p : Nat) (c : UIcontext) : NbPost dim pp p c c :=
  ⟨rfl, fun _ _ _ => rfl, fun _ _ => rfl, fun _ _ => rfl, rfl, fun _ h1 h2 => absurd h2 h1⟩

theorem NbPost.nb_of_child {dim pp p pl : Nat} {c c' : UIcontext} (h : ChildPost dim pp pl c c')
    (hlt : pl < p) : NbPost dim pp p c c' := by
  obtain ⟨h1, h2, h3, h4, h5, -, h7⟩ := h
  refine ⟨h1, h2, h3, h4, h5, fun q a b => ?_⟩
  obtain ⟨x, y, z⟩ := h7 q a b
  exact ⟨by omega, y, z⟩

theorem Placed_stable {dim : Nat} {c c' : UIcontext} {q : Nat} (hd : c'.decl = c.decl)
    (hs : ∀ x, laidOut c x dim → c'.get x = c.get x) (h0 : c'.get 0 = c.get 0)
    (hq : laidOut c q dim) (h : Placed c q dim) : Placed c' q dim := by
  refine (Placed_congr hd ?_ ?_ ?_ ?_).mpr h
  · rw [hs q hq]
  · intro hf; rw [hs _ (h.1 hf)]
  · intro hf; rw [hs _ (h.2.1 hf)]
  · rcases h.2.2.1 with hz | hz
    · rw [hz, h0]
    · rw [hs _ hz]

theorem laidOut_of_get_eq {dim : Nat} {c c' : UIcontext} {q : Nat} (h : c'.get q = c.get q) :
    laidOut c' q dim ↔ laidOut c q dim := by
  unfold laidOut; rw [h]

theorem NbPost.nb_trans {dim pp p : Nat} {c0 c1 c2 : UIcontext} (h1 : NbPost dim pp p c0 c1)
    (h2 : NbPost dim pp p c1 c2) : NbPost dim pp p c0 c2 := by
  obtain ⟨a1, a2, a3, a4, a5, a6⟩ := h1
  obtain ⟨b1, b2, b3, b4, b5, b6⟩ := h2
  have mono : ∀ q, laidOut c0 q dim → laidOut c1 q dim :=
    fun q h => (laidOut_of_get_eq (a3 q h)).mpr h
  have mono2 : ∀ q, laidOut c1 q dim → laidOut c2 q dim :=
    fun q h => (laidOut_of_get_eq (b3 q h)).mpr h
  refine ⟨b1.trans a1, fun d hd hne => (b2 d hd hne).trans (a2 d hd hne), ?_, ?_,
    b5.trans a5, ?_⟩
  · intro q hq
    rw [b3 q (mono q hq), a3 q hq]
  · intro q hq
    have hq1 : ¬ laidOut c1 q dim := fun h => hq (mono2 q h)
    rw [b4 q hq, a4 q hq1]
  · intro q hq0 hq2
    by_cases hq1 : laidOut c1 q dim
    · obtain ⟨x, y, z⟩ := a6 q hq0 hq1
      exact ⟨x, y, Placed_stable b1 b3 b5 hq1 z⟩
    · obtain ⟨x, y, z⟩ := b6 q hq1 hq2
      refine ⟨x, ?_, z⟩
      rw [← y, a4 q hq1]

/-! ### One call of `uiLayoutChildItem`: proof -/

theorem sibling_lt {c : UIcontext} (hs : SiblingRefs c) {q e : Nat} {pp : Nat}
    (hq : q < c.count) (hpar : (c.get q).parent = (pp : Int)) (he : e < 4)
    (hrel : (c.get q).relto.v e > 0) :
    ((c.get q).relto.v e).toNat < q ∧ 0 < ((c.get q).relto.v e).toNat ∧
    (c.get ((c.get q).relto.v e).toNat).parent = (pp : Int) := by
  rcases hs q hq (by rw [hpar]; omega) e he with h | ⟨h1, h2, h3⟩
  · omega
  · exact ⟨by omega, by omega, by rw [h3, hpar]⟩

/-- one neighbor of `p` followed by `uiLayoutChildItem`, given the statement for the
recursive call -/
theorem nb_step {n : Nat}
    (IH : ∀ (c : UIcontext) (pp p dim : Nat) (c' : UIcontext),
      uiLayoutChildItem n c pp p dim = .ok c' → SiblingRefs c → dim < 2 → p < c.count → 0 < p →
      (c.get p).parent = (pp : Int) → (pp = 0 ∨ laidOut c pp dim) → ChildPost dim pp p c c')
    {c0 c1 : UIcontext} {pp p dim e pl : Nat}
    (hs : SiblingRefs c0) (hd : dim < 2) (he : e < 4) (hp : p < c0.count)
    (hpar : (c0.get p).parent = (pp : Int)) (hpp : pp = 0 ∨ laidOut c0 pp dim)
    (hrel : (c0.get p).relto.v e > 0) (hpl : uiItemPtr c0 ((c0.get p).relto.v e) = .ok pl)
    (hrec : uiLayoutChildItem n c0 pp pl dim = .ok c1) :
    NbPost dim pp p c0 c1 ∧ laidOut c1 pl dim ∧ pl = ((c0.get p).relto.v e).toNat ∧ pl < p := by
  obtain ⟨a1, a2, a3⟩ := sibling_lt hs hp hpar he hrel
  obtain ⟨-, -, b1, b2⟩ := uiItemPtr_ok hpl
  have e1 : pl = ((c0.get p).relto.v e).toNat := by omega
  rw [← e1] at a1 a2 a3
  have hc := IH c0 pp pl dim c1 hrec hs hd b2 a2 a3 hpp
  exact ⟨NbPost.nb_of_child hc a1, hc.2.2.2.2.2.1, e1, a1⟩

theorem laidOut_modify_self (c : UIcontext) (p dim : Nat) (hp : p < c.count) :
    laidOut (c.modify p (fun i => { i with visited := i.visited ||| (4 <<< dim) })) p dim := by
  unfold laidOut
  rw [get_modify_self _ _ _ hp]
  simp only [four_shl]
  exact or_pow_and_pow_self _ _

theorem child_post :
    ∀ (fuel : Nat) (c : UIcontext) (pp p dim : Nat) (c' : UIcontext),
      uiLayoutChildItem fuel c pp p dim = .ok c' → SiblingRefs c → dim < 2 → p < c.count → 0 < p →
      (c.get p).parent = (pp : Int) → (pp = 0 ∨ laidOut c pp dim) → ChildPost dim pp p c c' := by
  intro fuel
  induction fuel with
  | zero => intro c pp p dim c' h; simp [uiLayoutChildItem] at h
  | succ n ih =>
    intro c pp p dim c' h hs hd hp hp0 hpar hpp
    rcases uiLayoutChildItem_inv h with ⟨hv, rfl⟩ | ⟨hv, c0, c1, c2, wl, wr, wr2, h0, hl, hr, rfl⟩
    · exact ⟨rfl, fun _ _ _ => rfl, fun _ _ => rfl, fun _ _ => rfl, rfl, hv,
        fun _ h1 h2 => absurd h2 h1⟩
    · have hnl : ¬ laidOut c p dim := fun hx => hx hv
      have hppne : pp ≠ p := by
        rcases hpp with hz | hz
        · omega
        · intro he; rw [he] at hz; exact hnl hz
      -- the context after marking `p`
      have e0 : c0.decl = c.decl := by
        rw [h0]; exact decl_modify _ _ _ (fun i => decl_visited i _)
      have g0 : ∀ q, q ≠ p → c0.get q = c.get q := by
        intro q hq; rw [h0]; exact get_modify_ne _ _ _ _ hq
      have gp : c0.get p = { (c.get p) with visited := (c.get p).visited ||| (4 <<< dim) } := by
        rw [h0]; exact get_modify_self _ _ _ hp
      have l0 : laidOut c0 p dim := by rw [h0]; exact laidOut_modify_self c p dim hp
      have v0 : ∀ d, d < 2 → d ≠ dim → c0.view d = c.view d := by
        intro d hd2 hne
        rw [h0]
        exact view_modify _ _ _ _ (fun i => view_visited_or_four d dim i hne hd2 hd)
      have hs0 : SiblingRefs c0 := SiblingRefs_of_decl e0 hs
      have cnt0 : c0.count = c.count := count_of_decl e0
      have hp0c : p < c0.count := by rw [cnt0]; exact hp
      have hpar0 : (c0.get p).parent = (pp : Int) := by rw [gp]; exact hpar
      have hpp0 : pp = 0 ∨ laidOut c0 pp dim := by
        rcases hpp with hz | hz
        · exact Or.inl hz
        · exact Or.inr ((laidOut_of_get_eq (g0 pp hppne)).mpr hz)
      -- the left neighbor
      have HL : NbPost dim pp p c0 c1 ∧
          (uiFollowL (c0.get p) dim → laidOut c1 (c0.nl p dim) dim ∧ c0.nl p dim < p) ∧
          wl = spanL dim (c0.get p) (c1.get (c0.nl p dim)) ∧
          wr = if uiFollowL (c0.get p) dim then (c0.get pp).rect.v (dim + 2) - wl
               else (c0.get pp).rect.v (dim + 2) := by
        rcases hl with ⟨hf, hrel, pl, hpl, hrec, hwl, hwr⟩ | ⟨hf, hc1, hwl, hwr⟩
        · have hfl : uiFollowL (c0.get p) dim := ⟨hf, hrel⟩
          obtain ⟨x1, x2, x3, x4⟩ :=
            nb_step ih hs0 hd (show dim < 4 by omega) hp0c hpar0 hpp0 hrel hpl hrec
          have enl : c0.nl p dim = pl := x3.symm
          refine ⟨x1, fun _ => ⟨enl ▸ x2, enl ▸ x4⟩, ?_, ?_⟩
          · unfold spanL; rw [if_pos hfl, enl]; exact hwl
          · rw [if_pos hfl]; exact hwr
        · have hfl : ¬ uiFollowL (c0.get p) dim := hf
          rw [hc1]
          refine ⟨NbPost.nb_refl _ _ _ _, fun hx => absurd hx hfl, ?_, ?_⟩
          · unfold spanL; rw [if_neg hfl]; exact hwl
          · rw [if_neg hfl]; exact hwr
      obtain ⟨N1, HL1, HL2, HL3⟩ := HL
      have gp1 : c1.get p = c0.get p := N1.2.2.1 p l0
      have hs1 : SiblingRefs c1 := SiblingRefs_of_decl N1.1 hs0
      have hp1c : p < c1.count := by rw [count_of_decl N1.1]; exact hp0c
      have hpar1 : (c1.get p).parent = (pp : Int) := by rw [gp1]; exact hpar0
      have hpp1 : pp = 0 ∨ laidOut c1 pp dim := by
        rcases hpp0 with hz | hz
        · exact Or.inl hz
        · exact Or.inr ((laidOut_of_get_eq (N1.2.2.1 pp hz)).mpr hz)
      -- the right neighbor
      have HR : NbPost dim pp p c1 c2 ∧
          (uiFollowR (c0.get p) dim → laidOut c2 (c0.nr p dim) dim ∧ c0.nr p dim < p) ∧
          wr2 = if uiFollowR (c0.get p) dim then (c2.get (c0.nr p dim)).rect.v dim - wl
                else wr := by
        rw [gp1] at hr
        rcases hr with ⟨hf, hrel, pl, hpl, hrec, hwr⟩ | ⟨hf, hc2, hwr⟩
        · have hfr : uiFollowR (c0.get p) dim := ⟨hf, hrel⟩
          rw [← gp1] at hrel hpl
          obtain ⟨x1, x2, x3, x4⟩ :=
            nb_step ih hs1 hd (show dim + 2 < 4 by omega) hp1c hpar1 hpp1 hrel hpl hrec
          have enr : c0.nr p dim = pl := by
            unfold UIcontext.nr; rw [← gp1]; exact x3.symm
          refine ⟨x1, fun _ => ⟨enr ▸ x2, enr ▸ x4⟩, ?_⟩
          rw [if_pos hfr, enr]; exact hwr
        · have hfr : ¬ uiFollowR (c0.get p) dim := hf
          rw [hc2]
          refine ⟨NbPost.nb_refl _ _ _ _, fun hx => absurd hx hfr, ?_⟩
          rw [if_neg hfr]; exact hwr
      obtain ⟨N2, HR1, HR2⟩ := HR
      have N := NbPost.nb_trans N1 N2
      obtain ⟨n1, n2, n3, n4, n5, n6⟩ := N
      have gp2 : c2.get p = c0.get p := n3 p l0
      have hp2c : p < c2.count := by rw [count_of_decl n1]; exact hp0c
      obtain ⟨s1, s2, s3, s4⟩ := place_spec c2 p dim wl wr2 hp2c hd
      have gne : ∀ q, q ≠ p → (uiLayoutPlace c2 p dim wl wr2).get q = c2.get q :=
        fun q hq => get_place_ne c2 p q dim wl wr2 hq
      have lp : laidOut (uiLayoutPlace c2 p dim wl wr2) p dim := by
        unfold laidOut; rw [s1, gp2]; exact l0
      have dP : (uiLayoutPlace c2 p dim wl wr2).decl = c.decl :=
        (decl_uiLayoutPlace _ _ _ _ _).trans (n1.trans e0)
      have dP2 : (uiLayoutPlace c2 p dim wl wr2).decl = c2.decl := decl_uiLayoutPlace _ _ _ _ _
      refine ⟨dP, ?_, ?_, ?_, ?_, lp, ?_⟩
      · intro d hd2 hne
        rw [view_uiLayoutPlace _ _ _ _ _ _ hd2 hd hne, n2 d hd2 hne, v0 d hd2 hne]
      · intro q hq
        have hqp : q ≠ p := fun he => hnl (he ▸ hq)
        rw [gne q hqp, n3 q ((laidOut_of_get_eq (g0 q hqp)).mpr hq), g0 q hqp]
      · intro q hq
        have hqp : q ≠ p := fun he => hq (he ▸ lp)
        have hq2 : ¬ laidOut c2 q dim := fun hx => hq ((laidOut_of_get_eq (gne q hqp)).mpr hx)
        rw [gne q hqp, n4 q hq2, g0 q hqp]
      · rw [gne 0 (by omega), n5, g0 0 (by omega)]
      · intro q hq hq'
        by_cases hqp : q = p
        · subst hqp
          refine ⟨le_refl _, hpar, ?_⟩
          -- `p` itself
          have dq : ((uiLayoutPlace c2 q dim wl wr2).get q).decl = (c0.get q).decl := by
            rw [s2, gp2]
          have fl := uiFollowL_congr dq dim
          have fr := uiFollowR_congr dq dim
          have enl : (uiLayoutPlace c2 q dim wl wr2).nl q dim = c0.nl q dim := by
            unfold UIcontext.nl; rw [(decl_fields dq).2.1]
          have enr : (uiLayoutPlace c2 q dim wl wr2).nr q dim = c0.nr q dim := by
            unfold UIcontext.nr; rw [(decl_fields dq).2.1]
          have epar : (uiLayoutPlace c2 q dim wl wr2).par q = pp := by
            unfold UIcontext.par; rw [(decl_fields dq).2.2.2.1, hpar0]; simp
          have gpp : (uiLayoutPlace c2 q dim wl wr2).get pp = c0.get pp := by
            rw [gne pp hppne]
            rcases hpp0 with hz | hz
            · rw [hz]; exact n5
            · exact n3 pp hz
          have gnl : uiFollowL (c0.get q) dim →
              (uiLayoutPlace c2 q dim wl wr2).get (c0.nl q dim) = c1.get (c0.nl q dim) := by
            intro hf
            obtain ⟨y1, y2⟩ := HL1 hf
            rw [gne _ (by omega), N2.2.2.1 _ y1]
          have gnr : uiFollowR (c0.get q) dim →
              (uiLayoutPlace c2 q dim wl wr2).get (c0.nr q dim) = c2.get (c0.nr q dim) := by
            intro hf
            obtain ⟨y1, y2⟩ := HR1 hf
            rw [gne _ (by omega)]
          unfold Placed
          rw [enl, enr, epar, fl, fr]
          refine ⟨?_, ?_, ?_, ?_⟩
          · intro hf
            rw [laidOut_of_get_eq (gnl hf)]
            exact (HL1 hf).1
          · intro hf
            rw [laidOut_of_get_eq (gnr hf)]
            exact (HR1 hf).1
          · rcases hpp0 with hz | hz
            · exact Or.inl hz
            · exact Or.inr ((laidOut_of_get_eq gpp).mpr hz)
          · unfold PlacedAt
            have eL : spanL dim ((uiLayoutPlace c2 q dim wl wr2).get q)
                ((uiLayoutPlace c2 q dim wl wr2).get (c0.nl q dim)) = wl := by
              refine Eq.trans ?_ HL2.symm
              unfold spanL
              by_cases hf : uiFollowL (c0.get q) dim
              · rw [if_pos (fl.mpr hf), if_pos hf, gnl hf]
              · rw [if_neg (fun hx => hf (fl.mp hx)), if_neg hf]
            have eW : spanW dim ((uiLayoutPlace c2 q dim wl wr2).get q)
                ((uiLayoutPlace c2 q dim wl wr2).get (c0.nl q dim))
                ((uiLayoutPlace c2 q dim wl wr2).get (c0.nr q dim))
                ((uiLayoutPlace c2 q dim wl wr2).get pp) = wr2 := by
              refine Eq.trans ?_ HR2.symm
              unfold spanW
              rw [eL, gpp]
              by_cases hf : uiFollowR (c0.get q) dim
              · rw [if_pos (fr.mpr hf), if_pos hf, gnr hf]
              · rw [if_neg (fun hx => hf (fr.mp hx)), if_neg hf, HL3]
                by_cases hf2 : uiFollowL (c0.get q) dim
                · rw [if_pos (fl.mpr hf2), if_pos hf2]
                · rw [if_neg (fun hx => hf2 (fl.mp hx)), if_neg hf2]
            rw [eL, eW, (decl_fields s2).1, (decl_fields s2).2.2.1]
            exact s4
        · have hq2 : laidOut c2 q dim := (laidOut_of_get_eq (gne q hqp)).mp hq'
          have hq0 : ¬ laidOut c0 q dim := fun hx => hq ((laidOut_of_get_eq (g0 q hqp)).mp hx)
          obtain ⟨y1, y2, y3⟩ := n6 q hq0 hq2
          refine ⟨by omega, by rw [← g0 q hqp]; exact y2, ?_⟩
          have hs2 : SiblingRefs c2 := SiblingRefs_of_decl n1 hs0
          have hq2c : q < c2.count := by omega
          have hpar2 : (c2.get q).parent = (pp : Int) := by
            rw [(decl_fields (get_decl_of_decl n1 q)).2.2.2.1]; exact y2
          refine (Placed_congr dP2 ?_ ?_ ?_ ?_).mpr y3
          · rw [gne q hqp]
          · intro hf
            have := sibling_lt hs2 hq2c hpar2 (show dim < 4 by omega) hf.2
            rw [gne _ (by unfold UIcontext.nl; omega)]
          · intro hf
            have := sibling_lt hs2 hq2c hpar2 (show dim + 2 < 4 by omega) hf.2
            rw [gne _ (by unfold UIcontext.nr; omega)]
          · have : c2.par q = pp := by unfold UIcontext.par; rw [hpar2]; simp
            rw [this, gne pp hppne]

/-! ### The position pass places every item of the hierarchy -/

theorem ParentOK_of_decl {c c' : UIcontext} (hd : c'.decl = c.decl) :
    ∀ (t : KTree) (p : Nat), ParentOK c p t → ParentOK c' p t := by
  intro t
  induction t with
  | nil => intro p _; trivial
  | node i kids next ih1 ih2 =>
    intro p h
    obtain ⟨h1, h2, h3⟩ := h
    refine ⟨?_, ih1 _ h2, ih2 _ h3⟩
    rw [(decl_fields (get_decl_of_decl hd i)).2.2.2.1]; exact h1

theorem ParentOK_roots {c : UIcontext} :
    ∀ (t : KTree) (p : Nat), ParentOK c p t → ∀ k ∈ t.roots, (c.get k).parent = (p : Int) := by
  intro t
  induction t with
  | nil => intro p _ k hk; simp [KTree.roots] at hk
  | node i kids next ih1 ih2 =>
    intro p h k hk
    obtain ⟨h1, h2, h3⟩ := h
    simp only [KTree.roots, List.mem_cons] at hk
    rcases hk with hk | hk
    · rw [hk]; exact h1
    · exact ih2 _ h3 k hk

theorem LStep.step_refl (c : UIcontext) : LStep c c :=
  ⟨rfl, rfl, fun _ _ => ⟨fun _ _ => rfl, fun _ _ => rfl, fun _ h1 h2 => absurd h2 h1⟩⟩

theorem laidOut_of_view_eq {dim : Nat} {c c' : UIcontext} {q : Nat}
    (h : (c'.get q).view dim = (c.get q).view dim) : laidOut c' q dim ↔ laidOut c q dim :=
  laidOut_congr h

theorem LStep.mono {c c' : UIcontext} (h : LStep c c') {q dim : Nat} (hd : dim < 2)
    (hq : laidOut c q dim) : laidOut c' q dim :=
  (laidOut_of_view_eq ((h.2.2 dim hd).1 q hq)).mpr hq

theorem Placed_stable_view {dim : Nat} {c c' : UIcontext} {q : Nat} (hd : c'.decl = c.decl)
    (hs : ∀ x, laidOut c x dim → (c'.get x).view dim = (c.get x).view dim)
    (h0 : c'.get 0 = c.get 0)
    (hq : laidOut c q dim) (h : Placed c q dim) : Placed c' q dim := by
  refine (Placed_congr hd ?_ ?_ ?_ ?_).mpr h
  · exact hs q hq
  · intro hf; exact hs _ (h.1 hf)
  · intro hf; exact hs _ (h.2.1 hf)
  · rcases h.2.2.1 with hz | hz
    · rw [hz, h0]
    · exact hs _ hz

theorem LStep.step_trans {c0 c1 c2 : UIcontext} (h1 : LStep c0 c1) (h2 : LStep c1 c2) :
    LStep c0 c2 := by
  refine ⟨h2.1.trans h1.1, h2.2.1.trans h1.2.1, fun dim hd => ?_⟩
  obtain ⟨a3, a4, a6⟩ := h1.2.2 dim hd
  obtain ⟨b3, b4, b6⟩ := h2.2.2 dim hd
  refine ⟨?_, ?_, ?_⟩
  · intro q hq
    rw [b3 q (h1.mono hd hq), a3 q hq]
  · intro q hq
    have hq1 : ¬ laidOut c1 q dim := fun h => hq (h2.mono hd h)
    rw [b4 q hq, a4 q hq1]
  · intro q hq0 hq2
    by_cases hq1 : laidOut c1 q dim
    · exact Placed_stable_view h2.1 b3 h2.2.1 hq1 (a6 q hq0 hq1)
    · exact b6 q hq1 hq2

theorem LStep.step_of_child {dim pp p : Nat} {c c' : UIcontext} (hd : dim < 2)
    (h : ChildPost dim pp p c c') : LStep c c' := by
  obtain ⟨h1, h2, h3, h4, h5, h6, h7⟩ := h
  refine ⟨h1, h5, fun d hd2 => ?_⟩
  by_cases hne : d = dim
  · subst hne
    exact ⟨fun q hq => by rw [h3 q hq], fun q hq => by rw [h4 q hq],
      fun q a b => (h7 q a b).2.2⟩
  · have hv : ∀ q, (c'.get q).view d = (c.get q).view d :=
      fun q => get_view_of_view (h2 d hd2 hne) q
    exact ⟨fun q _ => hv q, fun q _ => hv q,
      fun q a b => absurd ((laidOut_of_view_eq (hv q)).mp b) a⟩

theorem layoutDimKids_post (lfuel pitem dim : Nat) (hd : dim < 2) :
    ∀ (fuel : Nat) (c : UIcontext) (kid : Int) (t : KTree) (c' : UIcontext),
      uiLayoutItemDimKids lfuel pitem dim fuel c kid = .ok c' → IsForest c kid t →
      (∀ k ∈ t.roots, (c.get k).parent = (pitem : Int)) → SiblingRefs c →
      (pitem = 0 ∨ laidOut c pitem dim) →
      LStep c c' ∧ ∀ k ∈ t.roots, laidOut c' k dim := by
  intro fuel
  induction fuel with
  | zero => intro c kid t c' h; simp [uiLayoutItemDimKids] at h
  | succ n ih =>
    intro c kid t c' h hf hpar hs hpp
    rcases uiLayoutItemDimKids_inv h with ⟨hk, rfl⟩ | ⟨hk, pkid, c1, hp, h1, -, h2⟩
    · cases t with
      | nil => exact ⟨LStep.step_refl _, fun k hk => by simp [KTree.roots] at hk⟩
      | node i kids next =>
        obtain ⟨e, h0, -⟩ := hf
        omega
    · cases t with
      | nil =>
        have : kid ≤ 0 := hf
        omega
      | node i kids next =>
        obtain ⟨e, h0, hi, hkids, hnext⟩ := hf
        obtain ⟨-, -, e2, -⟩ := uiItemPtr_ok hp
        have epk : pkid = i := by omega
        subst epk
        have hc := child_post lfuel c pitem pkid dim c1 h1 hs hd hi h0
          (hpar pkid (by simp [KTree.roots])) hpp
        have L1 := LStep.step_of_child hd hc
        have hd1 : c1.decl = c.decl := hc.1
        have enext : (c1.get pkid).nextitem = (c.get pkid).nextitem :=
          (decl_fields (get_decl_of_decl hd1 pkid)).2.2.2.2.2.2
        rw [enext] at h2
        have hf1 : IsForest c1 (c.get pkid).nextitem next := IsForest_of_decl hd1 _ _ hnext
        have hpar1 : ∀ k ∈ next.roots, (c1.get k).parent = (pitem : Int) := by
          intro k hk
          rw [(decl_fields (get_decl_of_decl hd1 k)).2.2.2.1]
          exact hpar k (by simp [KTree.roots, hk])
        have hpp1 : pitem = 0 ∨ laidOut c1 pitem dim := by
          rcases hpp with hz | hz
          · exact Or.inl hz
          · exact Or.inr (L1.mono hd hz)
        obtain ⟨L2, hall⟩ := ih c1 _ next c' h2 hf1 hpar1 (SiblingRefs_of_decl hd1 hs) hpp1
        refine ⟨L1.step_trans L2, ?_⟩
        intro k hk
        simp only [KTree.roots, List.mem_cons] at hk
        rcases hk with hk | hk
        · rw [hk]; exact L2.mono hd hc.2.2.2.2.2.1
        · exact hall k hk

theorem firstkid_of_decl {c c' : UIcontext} (hd : c'.decl = c.decl) (p : Nat) :
    (c'.get p).firstkid = (c.get p).firstkid :=
  (decl_fields (get_decl_of_decl hd p)).2.2.2.2.2.1

theorem nextitem_of_decl {c c' : UIcontext} (hd : c'.decl = c.decl) (p : Nat) :
    (c'.get p).nextitem = (c.get p).nextitem :=
  (decl_fields (get_decl_of_decl hd p)).2.2.2.2.2.2

theorem layoutItem_post (lfuel : Nat) :
    ∀ (fuel : Nat),
      (∀ (c : UIcontext) (p : Nat) (ks : KTree) (c' : UIcontext),
        uiLayoutItem lfuel fuel c (p : Int) = .ok c' → IsForest c (c.get p).firstkid ks →
        ParentOK c p ks → SiblingRefs c → (p = 0 ∨ ∀ dim, dim < 2 → laidOut c p dim) →
        LStep c c' ∧ ∀ q ∈ ks.indices, ∀ dim, dim < 2 → laidOut c' q dim) ∧
      (∀ (c : UIcontext) (kid : Int) (p : Nat) (t : KTree) (c' : UIcontext),
        uiLayoutItemKids lfuel fuel c kid = .ok c' → IsForest c kid t →
        ParentOK c p t → SiblingRefs c → (∀ k ∈ t.roots, ∀ dim, dim < 2 → laidOut c k dim) →
        LStep c c' ∧ ∀ q ∈ t.indices, ∀ dim, dim < 2 → laidOut c' q dim) := by
  intro fuel
  induction fuel with
  | zero =>
    constructor
    · intro c p ks c' h; simp [uiLayoutItem] at h
    · intro c kid p t c' h; simp [uiLayoutItemKids] at h
  | succ n ih =>
    constructor
    · intro c p ks c' h hf hpo hs hpp
      obtain ⟨p', c1, c2, hp, h1, h2, h3⟩ := uiLayoutItem_inv h
      obtain ⟨-, -, e2, hpc⟩ := uiItemPtr_ok hp
      have ep : p' = p := by omega
      subst ep
      -- dimension 0
      obtain ⟨L1, r1⟩ := layoutDimKids_post lfuel p' 0 (by omega) n c _ ks c1 h1 hf
        (ParentOK_roots ks p' hpo) hs
        (by rcases hpp with hz | hz
            · exact Or.inl hz
            · exact Or.inr (hz 0 (by omega)))
      have hd1 : c1.decl = c.decl := L1.1
      -- dimension 1
      have h2' : uiLayoutItemDimKids lfuel p' 1 n c1 (c.get p').firstkid = .ok c2 := by
        rw [← firstkid_of_decl hd1 p']; exact h2
      obtain ⟨L2, r2⟩ := layoutDimKids_post lfuel p' 1 (by omega) n c1 _ ks c2 h2'
        (IsForest_of_decl hd1 _ _ hf)
        (ParentOK_roots ks p' (ParentOK_of_decl hd1 _ _ hpo)) (SiblingRefs_of_decl hd1 hs)
        (by rcases hpp with hz | hz
            · exact Or.inl hz
            · exact Or.inr (L1.mono (by omega) (hz 1 (by omega))))
      have L12 := L1.step_trans L2
      have hd2 : c2.decl = c.decl := L12.1
      have h3' : uiLayoutItemKids lfuel n c2 (c.get p').firstkid = .ok c' := by
        rw [← firstkid_of_decl hd2 p']; exact h3
      have hroots : ∀ k ∈ ks.roots, ∀ dim, dim < 2 → laidOut c2 k dim := by
        intro k hk dim hd
        have : dim = 0 ∨ dim = 1 := by omega
        rcases this with rfl | rfl
        · exact L2.mono (by omega) (r1 k hk)
        · exact r2 k hk
      obtain ⟨L3, r3⟩ := ih.2 c2 _ p' ks c' h3' (IsForest_of_decl hd2 _ _ hf)
        (ParentOK_of_decl hd2 _ _ hpo) (SiblingRefs_of_decl hd2 hs) hroots
      exact ⟨L12.step_trans L3, r3⟩
    · intro c kid p t c' h hf hpo hs hroots
      rcases uiLayoutItemKids_inv h with ⟨hk, rfl⟩ | ⟨hk, c1, h1, -, h2⟩
      · cases t with
        | nil => exact ⟨LStep.step_refl _, fun q hq => by simp [KTree.indices] at hq⟩
        | node i kids next =>
          obtain ⟨e, h0, -⟩ := hf
          omega
      · cases t with
        | nil =>
          have : kid ≤ 0 := hf
          omega
        | node i kids next =>
          obtain ⟨e, h0, hi, hkids, hnext⟩ := hf
          obtain ⟨hp1, hp2, hp3⟩ := hpo
          subst e
          obtain ⟨L1, r1⟩ := ih.1 c i kids c1 h1 hkids hp2 hs
            (Or.inr (fun dim hd => hroots i (by simp [KTree.roots]) dim hd))
          have hd1 : c1.decl = c.decl := L1.1
          have h2' : uiLayoutItemKids lfuel n c1 (c.get i).nextitem = .ok c' := by
            rw [← nextitem_of_decl hd1 i]
            simpa using h2
          obtain ⟨L2, r2⟩ := ih.2 c1 _ p next c' h2' (IsForest_of_decl hd1 _ _ hnext)
            (ParentOK_of_decl hd1 _ _ hp3) (SiblingRefs_of_decl hd1 hs)
            (fun k hk dim hd => L1.mono hd (hroots k (by simp [KTree.roots, hk]) dim hd))
          refine ⟨L1.step_trans L2, ?_⟩
          intro q hq dim hd
          simp only [KTree.indices, List.mem_cons, List.mem_append] at hq
          rcases hq with hq | hq | hq
          · rw [hq]
            exact (L1.step_trans L2).mono hd (hroots i (by simp [KTree.roots]) dim hd)
          · exact L2.mono hd (r1 q hq dim hd)
          · exact r2 q hq dim hd

/-! ### The position pass keeps the extent of items that are not fill -/

theorem KeepsExtent.ext_refl (dim : Nat) (c : UIcontext) : KeepsExtent dim c c := fun _ _ => rfl

theorem KeepsExtent.ext_trans {dim : Nat} {c0 c1 c2 : UIcontext} (hd : c1.decl = c0.decl)
    (h1 : KeepsExtent dim c0 c1) (h2 : KeepsExtent dim c1 c2) : KeepsExtent dim c0 c2 := by
  intro q hq
  rw [h2 q (by rw [(decl_fields (get_decl_of_decl hd q)).1]; exact hq), h1 q hq]

theorem KeepsExtent.of_view {dim : Nat} {c c' : UIcontext} (h : c'.view dim = c.view dim) :
    KeepsExtent dim c c' :=
  fun q _ => (view_fields (get_view_of_view h q)).2.1

theorem get_modify_setV_other (c : UIcontext) (p q e j : Nat) (a : UIitem → Int)
    (he : e < 4) (hj : j < 4) (hne : j ≠ e) :
    ((c.modify p (fun i => { i with rect := i.rect.setV e (a i) })).get q).rect.v j =
      (c.get q).rect.v j := by
  rw [get_modify]
  split
  · rename_i hc
    simp only [rect_setV_v _ _ _ _ he hj, if_neg hne, hc.1]
  · rfl

theorem keepsExtent_place (c : UIcontext) (p dim : Nat) (wl wr : Int) (hd : dim < 2) :
    KeepsExtent dim c (uiLayoutPlace c p dim wl wr) := by
  intro q hq
  by_cases hqp : q = p
  · subst hqp
    have h4 : dim < 4 := by omega
    have h24 : dim + 2 < 4 := by omega
    unfold uiLayoutPlace
    simp only
    split_ifs with h1 h2
    · exact get_modify_setV_other c q q dim (dim + 2) _ h4 h24 (by omega)
    · exact get_modify_setV_other c q q dim (dim + 2) _ h4 h24 (by omega)
    · exact get_modify_setV_other c q q dim (dim + 2) _ h4 h24 (by omega)
  · rw [get_place_ne _ _ _ _ _ _ hqp]

theorem keepsExtent_child :
    ∀ (fuel : Nat) (c : UIcontext) (pp p dim : Nat) (c' : UIcontext),
      uiLayoutChildItem fuel c pp p dim = .ok c' → dim < 2 → KeepsExtent dim c c' := by
  intro fuel
  induction fuel with
  | zero => intro c pp p dim c' h; simp [uiLayoutChildItem] at h
  | succ n ih =>
    intro c pp p dim c' h hd
    rcases uiLayoutChildItem_inv h with ⟨-, rfl⟩ | ⟨-, c0, c1, c2, wl, wr, wr2, h0, hl, hr, rfl⟩
    · exact KeepsExtent.ext_refl _ _
    · have e0 : c0.decl = c.decl := by
        rw [h0]; exact decl_modify _ _ _ (fun i => decl_visited i _)
      have k0 : KeepsExtent dim c c0 := by
        intro q _
        rw [h0, get_modify]
        split
        · rename_i hc
          rw [hc.1]
        · rfl
      have k1 : KeepsExtent dim c0 c1 ∧ c1.decl = c0.decl := by
        rcases hl with ⟨-, -, pl, -, hrec, -, -⟩ | ⟨-, hc1, -, -⟩
        · exact ⟨ih _ _ _ _ _ hrec hd, decl_uiLayoutChildItem _ _ _ _ _ _ hrec⟩
        · rw [hc1]; exact ⟨KeepsExtent.ext_refl _ _, rfl⟩
      have k2 : KeepsExtent dim c1 c2 ∧ c2.decl = c1.decl := by
        rcases hr with ⟨-, -, pl, -, hrec, -⟩ | ⟨-, hc2, -⟩
        · exact ⟨ih _ _ _ _ _ hrec hd, decl_uiLayoutChildItem _ _ _ _ _ _ hrec⟩
        · rw [hc2]; exact ⟨KeepsExtent.ext_refl _ _, rfl⟩
      have k01 := KeepsExtent.ext_trans e0 k0 k1.1
      have k02 := KeepsExtent.ext_trans (k1.2.trans e0) k01 k2.1
      exact KeepsExtent.ext_trans (k2.2.trans (k1.2.trans e0)) k02 (keepsExtent_place c2 p dim wl wr2 hd)

theorem view_child_other :
    ∀ (fuel : Nat) (c : UIcontext) (pp p dim d : Nat) (c' : UIcontext),
      uiLayoutChildItem fuel c pp p dim = .ok c' → dim < 2 → d < 2 → d ≠ dim →
      c'.view d = c.view d := by
  intro fuel
  induction fuel with
  | zero => intro c pp p dim d c' h; simp [uiLayoutChildItem] at h
  | succ n ih =>
    intro c pp p dim d c' h hd hd2 hne
    rcases uiLayoutChildItem_inv h with ⟨-, rfl⟩ | ⟨-, c0, c1, c2, wl, wr, wr2, h0, hl, hr, rfl⟩
    · rfl
    · have v0 : c0.view d = c.view d := by
        rw [h0]
        exact view_modify _ _ _ _ (fun i => view_visited_or_four d dim i hne hd2 hd)
      have v1 : c1.view d = c0.view d := by
        rcases hl with ⟨-, -, pl, -, hrec, -, -⟩ | ⟨-, hc1, -, -⟩
        · exact ih _ _ _ _ _ _ hrec hd hd2 hne
        · rw [hc1]
      have v2 : c2.view d = c1.view d := by
        rcases hr with ⟨-, -, pl, -, hrec, -⟩ | ⟨-, hc2, -⟩
        · exact ih _ _ _ _ _ _ hrec hd hd2 hne
        · rw [hc2]
      rw [view_uiLayoutPlace _ _ _ _ _ _ hd2 hd hne, v2, v1, v0]

theorem KeepsExtents.exts_refl (c : UIcontext) : KeepsExtents c c := fun _ _ => KeepsExtent.ext_refl _ _

theorem KeepsExtents.exts_trans {c0 c1 c2 : UIcontext} (hd : c1.decl = c0.decl)
    (h1 : KeepsExtents c0 c1) (h2 : KeepsExtents c1 c2) : KeepsExtents c0 c2 :=
  fun dim hdim => KeepsExtent.ext_trans hd (h1 dim hdim) (h2 dim hdim)

theorem keepsExtents_child {fuel : Nat} {c : UIcontext} {pp p dim : Nat} {c' : UIcontext}
    (h : uiLayoutChildItem fuel c pp p dim = .ok c') (hd : dim < 2) : KeepsExtents c c' := by
  intro d hd2
  by_cases hne : d = dim
  · subst hne; exact keepsExtent_child _ _ _ _ _ _ h hd
  · exact KeepsExtent.of_view (view_child_other _ _ _ _ _ _ _ h hd hd2 hne)

theorem keepsExtents_dimKids (lfuel pitem dim : Nat) (hd : dim < 2) :
    ∀ (fuel : Nat) (c : UIcontext) (kid : Int) (c' : UIcontext),
      uiLayoutItemDimKids lfuel pitem dim fuel c kid = .ok c' → KeepsExtents c c' := by
  intro fuel
  induction fuel with
  | zero => intro c kid c' h; simp [uiLayoutItemDimKids] at h
  | succ n ih =>
    intro c kid c' h
    rcases uiLayoutItemDimKids_inv h with ⟨-, rfl⟩ | ⟨-, pkid, c1, -, h1, -, h2⟩
    · exact KeepsExtents.exts_refl _
    · exact KeepsExtents.exts_trans (decl_uiLayoutChildItem _ _ _ _ _ _ h1)
        (keepsExtents_child h1 hd) (ih _ _ _ h2)

theorem keepsExtents_layoutItem (lfuel : Nat) :
    ∀ (fuel : Nat),
      (∀ (c : UIcontext) (item : Int) (c' : UIcontext),
        uiLayoutItem lfuel fuel c item = .ok c' → KeepsExtents c c') ∧
      (∀ (c : UIcontext) (kid : Int) (c' : UIcontext),
        uiLayoutItemKids lfuel fuel c kid = .ok c' → KeepsExtents c c') := by
  intro fuel
  induction fuel with
  | zero =>
    constructor
    · intro c item c' h; simp [uiLayoutItem] at h
    · intro c kid c' h; simp [uiLayoutItemKids] at h
  | succ n ih =>
    constructor
    · intro c item c' h
      obtain ⟨p, c1, c2, -, h1, h2, h3⟩ := uiLayoutItem_inv h
      have d1 := decl_uiLayoutItemDimKids _ _ _ _ _ _ _ h1
      have d2 := decl_uiLayoutItemDimKids _ _ _ _ _ _ _ h2
      exact KeepsExtents.exts_trans (d2.trans d1)
        (KeepsExtents.exts_trans d1 (keepsExtents_dimKids _ _ 0 (by omega) _ _ _ _ h1)
          (keepsExtents_dimKids _ _ 1 (by omega) _ _ _ _ h2))
        (ih.2 _ _ _ h3)
    · intro c kid c' h
      rcases uiLayoutItemKids_inv h with ⟨-, rfl⟩ | ⟨-, c1, h1, -, h2⟩
      · exact KeepsExtents.exts_refl _
      · exact KeepsExtents.exts_trans ((decl_uiLayoutItem _ _).1 _ _ _ h1) (ih.1 _ _ _ h1)
          (ih.2 _ _ _ h2)

/-! ### The size pass marks no item as positioned -/

theorem NoLay.nolay_refl (c : UIcontext) : NoLay c c := fun _ _ _ h => h

theorem NoLay.nolay_trans {c0 c1 c2 : UIcontext} (h1 : NoLay c0 c1) (h2 : NoLay c1 c2) :
    NoLay c0 c2 := fun q d hd h => h2 q d hd (h1 q d hd h)

theorem noLay_or_one (c : UIcontext) (p dim : Nat) (hd : dim < 2) :
    NoLay c (c.modify p (fun i => { i with visited := i.visited ||| (1 <<< dim) })) := by
  intro q d hd2 h
  unfold laidOut at *
  rw [get_modify]
  split
  · rename_i hc
    simp only [one_shl, four_shl]
    rw [or_pow_and_pow_ne _ _ _ (by omega), ← four_shl, ← hc.1]
    exact h
  · exact h

theorem noLay_rect (c : UIcontext) (p : Nat) (r : UIitem → UIrect) :
    NoLay c (c.modify p (fun i => { i with rect := r i })) := by
  intro q d _ h
  unfold laidOut at *
  rw [get_modify]
  split
  · rename_i hc
    rw [← hc.1]; exact h
  · exact h

theorem noLay_uiChainWalk (dim : Nat) (flag : Int) (edge : Nat) (hd : dim < 2) :
    ∀ (fuel : Nat) (c : UIcontext) (p : Nat) (s : Int) (it : Nat) (c' : UIcontext) (s' : Int),
      uiChainWalk dim flag edge fuel c p s it = .ok (c', s') → NoLay c c' := by
  intro fuel
  induction fuel with
  | zero => intro c p s it c' s' h; simp [uiChainWalk] at h
  | succ n ih =>
    intro c p s it c' s' h
    rcases uiChainWalk_inv h with ⟨-, rfl, -⟩ | ⟨-, -, rfl, -⟩ | ⟨-, -, -, q, -, h1⟩
    · exact NoLay.nolay_refl _
    · exact NoLay.nolay_refl _
    · exact (noLay_or_one c q dim hd).nolay_trans (ih _ _ _ _ _ _ h1)

theorem uiComputeChainSize_inv {c : UIcontext} {p dim : Nat} {c' : UIcontext} {s' : Int}
    (h : uiComputeChainSize c p dim = .ok (c', s')) :
    ∃ c1 s1,
      uiChainWalk dim UI_LEFT dim 1000000
        (c.modify p (fun i => { i with visited := i.visited ||| (1 <<< dim) })) p
        ((c.get p).rect.v (dim + 2)) 0 = .ok (c1, s1) ∧
      uiChainWalk dim UI_RIGHT (dim + 2) 1000000 c1 p s1 0 = .ok (c', s') := by
  simp only [uiComputeChainSize] at h
  split at h
  · cases h
  · rename_i c1 s1 h1
    exact ⟨c1, s1, h1, h⟩

theorem noLay_uiComputeChainSize {c : UIcontext} {p dim : Nat} {c' : UIcontext} {s' : Int}
    (hd : dim < 2) (h : uiComputeChainSize c p dim = .ok (c', s')) : NoLay c c' := by
  obtain ⟨c1, s1, h1, h2⟩ := uiComputeChainSize_inv h
  exact (noLay_or_one c p dim hd).nolay_trans
    ((noLay_uiChainWalk _ _ _ hd _ _ _ _ _ _ _ h1).nolay_trans (noLay_uiChainWalk _ _ _ hd _ _ _ _ _ _ _ h2))

theorem noLay_uiComputeSizeDimKids (dim : Nat) (hd : dim < 2) :
    ∀ (fuel : Nat) (c : UIcontext) (kid s : Int) (c' : UIcontext) (s' : Int),
      uiComputeSizeDimKids dim fuel c kid s = .ok (c', s') → NoLay c c' := by
  intro fuel
  induction fuel with
  | zero => intro c kid s c' s' h; simp [uiComputeSizeDimKids] at h
  | succ n ih =>
    intro c kid s c' s' h
    rcases uiComputeSizeDimKids_inv h with ⟨-, rfl, -⟩ | ⟨-, pkid, -, hc⟩
    · exact NoLay.nolay_refl _
    · rcases hc with ⟨-, c1, chain, h1, h2⟩ | ⟨-, h2⟩
      · exact (noLay_uiComputeChainSize hd h1).nolay_trans (ih _ _ _ _ _ h2)
      · exact ih _ _ _ _ _ h2

theorem uiComputeSizeDim_inv {fuel : Nat} {c : UIcontext} {p dim : Nat} {c' : UIcontext}
    (h : uiComputeSizeDim fuel c p dim = .ok c') :
    ((c.get p).size.v dim ≠ 0 ∧
      c' = c.modify p (fun i => { i with rect := i.rect.setV (dim + 2) (i.size.v dim) })) ∨
    ((c.get p).size.v dim = 0 ∧ ∃ c1 size,
      uiComputeSizeDimKids dim fuel c (c.get p).firstkid 0 = .ok (c1, size) ∧
      c' = c1.modify p (fun i => { i with rect := i.rect.setV (dim + 2) size })) := by
  simp only [uiComputeSizeDim] at h
  split at h
  · rename_i hz
    left
    injection h with h
    exact ⟨hz, h.symm⟩
  · rename_i hz
    right
    split at h
    · cases h
    · rename_i c1 size h1
      injection h with h
      exact ⟨not_not.mp hz, c1, size, h1, h.symm⟩

theorem noLay_uiComputeSizeDim {fuel : Nat} {c : UIcontext} {p dim : Nat} {c' : UIcontext}
    (hd : dim < 2) (h : uiComputeSizeDim fuel c p dim = .ok c') : NoLay c c' := by
  rcases uiComputeSizeDim_inv h with ⟨-, rfl⟩ | ⟨-, c1, size, h1, rfl⟩
  · exact noLay_rect _ _ _
  · exact (noLay_uiComputeSizeDimKids dim hd _ _ _ _ _ _ h1).nolay_trans (noLay_rect _ _ _)

theorem noLay_visited_zero (c : UIcontext) (p : Nat) :
    NoLay c (c.modify p (fun i => { i with visited := 0 })) := by
  intro q d _ h
  unfold laidOut at *
  rw [get_modify]
  split
  · simp
  · exact h

theorem not_laidOut_visited_zero (c : UIcontext) (p d : Nat) (hp : p < c.count) :
    ¬ laidOut (c.modify p (fun i => { i with visited := 0 })) p d := by
  unfold laidOut
  rw [get_modify_self _ _ _ hp]
  simp

/-- the size pass leaves no item of the subtree it visits marked as positioned -/
theorem noLay_uiComputeBestSize :
    ∀ (fuel : Nat),
      (∀ (c : UIcontext) (p : Nat) (ks : KTree) (c' : UIcontext),
        uiComputeBestSize fuel c (p : Int) = .ok c' → IsForest c (c.get p).firstkid ks →
        NoLay c c' ∧ ∀ q, q = p ∨ q ∈ ks.indices → ∀ d, d < 2 → ¬ laidOut c' q d) ∧
      (∀ (c : UIcontext) (kid : Int) (t : KTree) (c' : UIcontext),
        uiComputeBestSizeKids fuel c kid = .ok c' → IsForest c kid t →
        NoLay c c' ∧ ∀ q ∈ t.indices, ∀ d, d < 2 → ¬ laidOut c' q d) := by
  intro fuel
  induction fuel with
  | zero =>
    constructor
    · intro c p ks c' h; simp [uiComputeBestSize] at h
    · intro c kid t c' h; simp [uiComputeBestSizeKids] at h
  | succ n ih =>
    constructor
    · intro c p ks c' h hf
      obtain ⟨p', c0, c1, c2, hp, h0, h1, h2, h3⟩ := uiComputeBestSize_inv h
      obtain ⟨-, -, e2, hpc⟩ := uiItemPtr_ok hp
      have ep : p' = p := by omega
      subst ep
      have d0 : c0.decl = c.decl := by rw [h0]; exact decl_modify _ _ _ (fun i => decl_visited i _)
      have hf0 : IsForest c0 (c0.get p').firstkid ks := by
        rw [firstkid_of_decl d0]; exact IsForest_of_decl d0 _ _ hf
      obtain ⟨n1, r1⟩ := ih.2 c0 _ ks c1 h1 hf0
      have n2 := noLay_uiComputeSizeDim (show 0 < 2 by omega) h2
      have n3 := noLay_uiComputeSizeDim (show 1 < 2 by omega) h3
      have n0 : NoLay c c0 := by rw [h0]; exact noLay_visited_zero c p'
      refine ⟨n0.nolay_trans (n1.nolay_trans (n2.nolay_trans n3)), ?_⟩
      intro q hq d hd
      rcases hq with hq | hq
      · subst hq
        apply (n1.nolay_trans (n2.nolay_trans n3)) q d hd
        rw [h0]
        exact not_laidOut_visited_zero c q d hpc
      · exact (n2.nolay_trans n3) q d hd (r1 q hq d hd)
    · intro c kid t c' h hf
      rcases uiComputeBestSizeKids_inv h with ⟨hk, rfl⟩ | ⟨hk, c1, h1, -, h2⟩
      · cases t with
        | nil => exact ⟨NoLay.nolay_refl _, fun q hq => by simp [KTree.indices] at hq⟩
        | node i kids next =>
          obtain ⟨e, h0, -⟩ := hf
          omega
      · cases t with
        | nil =>
          have : kid ≤ 0 := hf
          omega
        | node i kids next =>
          obtain ⟨e, h0, hi, hkids, hnext⟩ := hf
          subst e
          obtain ⟨n1, r1⟩ := ih.1 c i kids c1 h1 hkids
          have d1 : c1.decl = c.decl := (decl_uiComputeBestSize n).1 _ _ _ h1
          have h2' : uiComputeBestSizeKids n c1 (c.get i).nextitem = .ok c' := by
            rw [← nextitem_of_decl d1 i]
            simpa using h2
          obtain ⟨n2, r2⟩ := ih.2 c1 _ next c' h2' (IsForest_of_decl d1 _ _ hnext)
          refine ⟨n1.nolay_trans n2, ?_⟩
          intro q hq d hd
          simp only [KTree.indices, List.mem_cons, List.mem_append] at hq
          rcases hq with hq | hq | hq
          · exact n2 q d hd (r1 q (Or.inl hq) d hd)
          · exact n2 q d hd (r1 q (Or.inr hq) d hd)
          · exact r2 q hq d hd

/-! ### The size pass succeeds -/

theorem parent_modify_visited (c : UIcontext) (p q : Nat) (f : Nat → Nat) :
    ((c.modify p (fun i => { i with visited := f i.visited })).get q).parent =
      (c.get q).parent := by
  rw [get_modify]
  split
  · rename_i hc; rw [hc.1]
  · rfl

theorem uiChainWalk_total (dim : Nat) (flag : Int) (edge : Nat) (he : edge < 4) :
    ∀ (fuel : Nat) (c : UIcontext) (p : Nat) (s : Int) (it : Nat),
      SiblingRefs c → p < c.count → 0 ≤ (c.get p).parent → p < fuel → p + it < 1000000 →
      ∃ c' s', uiChainWalk dim flag edge fuel c p s it = .ok (c', s') := by
  intro fuel
  induction fuel with
  | zero => intro c p s it _ _ _ h; omega
  | succ n ih =>
    intro c p s it hs hp hpar hf hit
    simp only [uiChainWalk]
    split
    · split
      · exact ⟨_, _, rfl⟩
      · rename_i hrel
        rcases hs p hp hpar edge he with h | ⟨h1, h2, h3⟩
        · omega
        · rw [uiItemPtr_of_valid (show 0 ≤ (c.get p).relto.v edge by omega) (by omega)]
          simp only
          rw [if_pos (by omega)]
          have d1 := decl_modify c ((c.get p).relto.v edge).toNat
            (fun i => { i with visited := i.visited ||| (1 <<< dim) }) (fun i => decl_visited i _)
          apply ih
          · exact SiblingRefs_of_decl d1 hs
          · rw [count_of_decl d1]; omega
          · rw [(decl_fields (get_decl_of_decl d1 _)).2.2.2.1, h3]; exact hpar
          · omega
          · omega
    · exact ⟨_, _, rfl⟩

theorem uiComputeChainSize_total (c : UIcontext) (p dim : Nat) (hd : dim < 2)
    (hs : SiblingRefs c) (hp : p < c.count) (hpar : 0 ≤ (c.get p).parent)
    (hc : c.count ≤ 1000000) :
    ∃ c' s', uiComputeChainSize c p dim = .ok (c', s') := by
  simp only [uiComputeChainSize]
  have d0 := decl_modify c p
    (fun i => { i with visited := i.visited ||| (1 <<< dim) }) (fun i => decl_visited i _)
  obtain ⟨c1, s1, h1⟩ := uiChainWalk_total dim UI_LEFT dim (by omega) 1000000
    (c.modify p (fun i => { i with visited := i.visited ||| (1 <<< dim) })) p
    ((c.get p).rect.v (dim + 2)) 0 (SiblingRefs_of_decl d0 hs)
    (by rw [count_of_decl d0]; exact hp)
    (by rw [(decl_fields (get_decl_of_decl d0 _)).2.2.2.1]; exact hpar) (by omega) (by omega)
  rw [h1]
  simp only
  have d1 := decl_uiChainWalk _ _ _ _ _ _ _ _ _ _ h1
  exact uiChainWalk_total dim UI_RIGHT (dim + 2) (by omega) 1000000 c1 p s1 0
    (SiblingRefs_of_decl (d1.trans d0) hs)
    (by rw [count_of_decl (d1.trans d0)]; exact hp)
    (by rw [(decl_fields (get_decl_of_decl (d1.trans d0) _)).2.2.2.1]; exact hpar)
    (by omega) (by omega)

theorem uiComputeSizeDimKids_total (dim : Nat) (hd : dim < 2) :
    ∀ (fuel : Nat) (c : UIcontext) (kid : Int) (t : KTree) (p : Nat) (s : Int),
      IsForest c kid t → ParentOK c p t → SiblingRefs c → c.count ≤ 1000000 →
      t.roots.length < fuel →
      ∃ c' s', uiComputeSizeDimKids dim fuel c kid s = .ok (c', s') := by
  intro fuel
  induction fuel with
  | zero => intro c kid t p s _ _ _ _ h; omega
  | succ n ih =>
    intro c kid t p s hf hpo hs hc hfu
    cases t with
    | nil =>
      have hk : kid ≤ 0 := hf
      simp only [uiComputeSizeDimKids, if_neg (not_lt.mpr hk)]
      exact ⟨_, _, rfl⟩
    | node i kids next =>
      obtain ⟨e, h0, hi, hkids, hnext⟩ := hf
      obtain ⟨hp1, hp2, hp3⟩ := hpo
      subst e
      simp only [KTree.roots, List.length_cons] at hfu
      simp only [uiComputeSizeDimKids, if_pos (show (i : Int) > 0 by omega),
        uiItemPtr_nat hi]
      split
      · obtain ⟨c1, chain, h1⟩ := uiComputeChainSize_total c i dim hd hs hi
          (by rw [hp1]; omega) hc
        rw [h1]
        simp only
        have d1 := decl_uiComputeChainSize h1
        rw [uiNextSibling_valid (show (0 : Int) ≤ i by omega)
          (by rw [count_of_decl d1]; omega)]
        simp only [Int.toNat_ofNat]
        rw [nextitem_of_decl d1]
        exact ih c1 _ next p _ (IsForest_of_decl d1 _ _ hnext) (ParentOK_of_decl d1 _ _ hp3)
          (SiblingRefs_of_decl d1 hs) (by rw [count_of_decl d1]; exact hc) (by omega)
      · rw [uiNextSibling_valid (show (0 : Int) ≤ i by omega) (by omega)]
        simp only [Int.toNat_ofNat]
        exact ih c _ next p _ hnext hp3 hs hc (by omega)

theorem uiComputeSizeDim_total (fuel : Nat) (c : UIcontext) (p dim : Nat) (ks : KTree)
    (hd : dim < 2) (hf : IsForest c (c.get p).firstkid ks) (hpo : ParentOK c p ks)
    (hs : SiblingRefs c) (hc : c.count ≤ 1000000) (hfu : ks.roots.length < fuel) :
    ∃ c', uiComputeSizeDim fuel c p dim = .ok c' := by
  simp only [uiComputeSizeDim]
  split
  · exact ⟨_, rfl⟩
  · obtain ⟨c1, s1, h1⟩ := uiComputeSizeDimKids_total dim hd fuel c _ ks p 0 hf hpo hs hc hfu
    rw [h1]
    exact ⟨_, rfl⟩

theorem uiComputeBestSize_total :
    ∀ (fuel : Nat),
      (∀ (c : UIcontext) (p : Nat) (ks : KTree), p < c.count →
        IsForest c (c.get p).firstkid ks → ParentOK c p ks → SiblingRefs c →
        c.count ≤ 1000000 → ks.need < fuel →
        ∃ c', uiComputeBestSize fuel c (p : Int) = .ok c') ∧
      (∀ (c : UIcontext) (kid : Int) (p : Nat) (t : KTree),
        IsForest c kid t → ParentOK c p t → SiblingRefs c →
        c.count ≤ 1000000 → t.need ≤ fuel →
        ∃ c', uiComputeBestSizeKids fuel c kid = .ok c') := by
  intro fuel
  induction fuel with
  | zero =>
    constructor
    · intro c p ks _ _ _ _ _ h; omega
    · intro c kid p t _ _ _ _ h
      cases t <;> simp [KTree.need] at h
  | succ n ih =>
    constructor
    · intro c p ks hp hf hpo hs hc hfu
      simp only [uiComputeBestSize, uiItemPtr_nat hp]
      have d0 := decl_modify c p (fun i => { i with visited := 0 }) (fun i => decl_visited i _)
      rw [uiFirstChild_valid (show (0 : Int) ≤ p by omega) (by rw [count_of_decl d0]; omega)]
      simp only [Int.toNat_ofNat]
      rw [firstkid_of_decl d0]
      obtain ⟨c1, h1⟩ := ih.2 (c.modify p (fun i => { i with visited := 0 })) _ p ks
        (IsForest_of_decl d0 _ _ hf) (ParentOK_of_decl d0 _ _ hpo) (SiblingRefs_of_decl d0 hs)
        (by rw [count_of_decl d0]; exact hc) (by omega)
      rw [h1]
      simp only
      have d1 := ((decl_uiComputeBestSize n).2 _ _ _ h1).trans d0
      have hlen := roots_length_lt_need ks
      obtain ⟨c2, h2⟩ := uiComputeSizeDim_total n c1 p 0 ks (by omega)
        (by rw [firstkid_of_decl d1]; exact IsForest_of_decl d1 _ _ hf)
        (ParentOK_of_decl d1 _ _ hpo) (SiblingRefs_of_decl d1 hs)
        (by rw [count_of_decl d1]; exact hc) (by omega)
      rw [h2]
      simp only
      have d2 := (decl_uiComputeSizeDim h2).trans d1
      exact uiComputeSizeDim_total n c2 p 1 ks (by omega)
        (by rw [firstkid_of_decl d2]; exact IsForest_of_decl d2 _ _ hf)
        (ParentOK_of_decl d2 _ _ hpo) (SiblingRefs_of_decl d2 hs)
        (by rw [count_of_decl d2]; exact hc) (by omega)
    · intro c kid p t hf hpo hs hc hfu
      cases t with
      | nil =>
        have hk : kid ≤ 0 := hf
        simp only [uiComputeBestSizeKids, if_neg (not_lt.mpr hk)]
        exact ⟨_, rfl⟩
      | node i kids next =>
        obtain ⟨e, h0, hi, hkids, hnext⟩ := hf
        obtain ⟨hp1, hp2, hp3⟩ := hpo
        subst e
        simp only [KTree.need] at hfu
        simp only [uiComputeBestSizeKids, if_pos (show (i : Int) > 0 by omega)]
        obtain ⟨c1, h1⟩ := ih.1 c i kids hi hkids hp2 hs hc (by omega)
        rw [h1]
        simp only
        have d1 := (decl_uiComputeBestSize n).1 _ _ _ h1
        rw [uiNextSibling_valid (show (0 : Int) ≤ i by omega)
          (by rw [count_of_decl d1]; omega)]
        simp only [Int.toNat_ofNat]
        rw [nextitem_of_decl d1]
        exact ih.2 c1 _ p next (IsForest_of_decl d1 _ _ hnext) (ParentOK_of_decl d1 _ _ hp3)
          (SiblingRefs_of_decl d1 hs) (by rw [count_of_decl d1]; exact hc) (by omega)

/-! ### The position pass succeeds -/

theorem uiLayoutChildItem_total :
    ∀ (fuel : Nat) (c : UIcontext) (pp p dim : Nat),
      SiblingRefs c → dim < 2 → p < c.count → 0 ≤ (c.get p).parent → p < fuel →
      ∃ c', uiLayoutChildItem fuel c pp p dim = .ok c' := by
  intro fuel
  induction fuel with
  | zero => intro c pp p dim _ _ _ _ h; omega
  | succ n ih =>
    intro c pp p dim hs hd hp hpar hf
    cases hres : uiLayoutChildItem (n + 1) c pp p dim with
    | ok c' => exact ⟨c', rfl⟩
    | error err =>
      exfalso
      have d0 := decl_modify c p (fun i => { i with visited := i.visited ||| (4 <<< dim) })
        (fun i => decl_visited i _)
      -- a followed neighbor of `p` in a context with the declarations of `c`
      have step : ∀ (cx : UIcontext) (e : Nat), e < 4 → cx.decl = c.decl →
          (cx.get p).relto.v e > 0 →
          (∃ pl, uiItemPtr cx ((cx.get p).relto.v e) = .ok pl) ∧
          (∀ pl, uiItemPtr cx ((cx.get p).relto.v e) = .ok pl →
            ∃ c1, uiLayoutChildItem n cx pp pl dim = .ok c1) := by
        intro cx e he dx hrel
        have hsx := SiblingRefs_of_decl dx hs
        have hpx : p < cx.count := by rw [count_of_decl dx]; exact hp
        have hparx : 0 ≤ (cx.get p).parent := by
          rw [(decl_fields (get_decl_of_decl dx _)).2.2.2.1]; exact hpar
        rcases hsx p hpx hparx e he with h | ⟨h1, h2, h3⟩
        · omega
        · refine ⟨⟨_, uiItemPtr_of_valid (by omega) (by omega)⟩, ?_⟩
          intro pl hpl
          obtain ⟨-, -, b1, b2⟩ := uiItemPtr_ok hpl
          have epl : pl = ((cx.get p).relto.v e).toNat := by omega
          exact ih cx pp pl dim hsx hd b2 (by rw [epl, h3]; exact hparx) (by omega)
      simp only [uiLayoutChildItem] at hres
      split at hres
      · cases hres
      · split at hres
        · rename_i e1 h1
          split at h1
          · rename_i hc
            obtain ⟨⟨pl, hpl⟩, hrec⟩ := step _ dim (by omega) d0 hc.2
            rw [hpl] at h1
            simp only at h1
            obtain ⟨c1, h4⟩ := hrec pl hpl
            rw [h4] at h1
            cases h1
          · cases h1
        · rename_i c1 wl wr h1
          have d1 : c1.decl = c.decl := by
            split at h1
            · split at h1
              · cases h1
              · split at h1
                · cases h1
                · rename_i cc hcc
                  injection h1 with h1; injection h1 with h1 h3
                  rw [← h1, decl_uiLayoutChildItem _ _ _ _ _ _ hcc, d0]
            · injection h1 with h1; injection h1 with h1 h3
              rw [← h1, d0]
          split at hres
          · rename_i e2 h2
            split at h2
            · rename_i hc
              obtain ⟨⟨pl, hpl⟩, hrec⟩ := step c1 (dim + 2) (by omega) d1 hc.2
              rw [hpl] at h2
              simp only at h2
              obtain ⟨c2, h4⟩ := hrec pl hpl
              rw [h4] at h2
              cases h2
            · cases h2
          · cases hres

theorem uiLayoutItemDimKids_total (lfuel pitem dim : Nat) (hd : dim < 2) :
    ∀ (fuel : Nat) (c : UIcontext) (kid : Int) (t : KTree) (p : Nat),
      IsForest c kid t → ParentOK c p t → SiblingRefs c → c.count ≤ lfuel →
      t.roots.length < fuel →
      ∃ c', uiLayoutItemDimKids lfuel pitem dim fuel c kid = .ok c' := by
  intro fuel
  induction fuel with
  | zero => intro c kid t p _ _ _ _ h; omega
  | succ n ih =>
    intro c kid t p hf hpo hs hc hfu
    cases t with
    | nil =>
      have hk : kid ≤ 0 := hf
      simp only [uiLayoutItemDimKids, if_neg (not_lt.mpr hk)]
      exact ⟨_, rfl⟩
    | node i kids next =>
      obtain ⟨e, h0, hi, hkids, hnext⟩ := hf
      obtain ⟨hp1, hp2, hp3⟩ := hpo
      subst e
      simp only [KTree.roots, List.length_cons] at hfu
      simp only [uiLayoutItemDimKids, if_pos (show (i : Int) > 0 by omega), uiItemPtr_nat hi]
      obtain ⟨c1, h1⟩ := uiLayoutChildItem_total lfuel c pitem i dim hs hd hi
        (by rw [hp1]; omega) (by omega)
      rw [h1]
      simp only
      have d1 := decl_uiLayoutChildItem _ _ _ _ _ _ h1
      rw [uiNextSibling_valid (show (0 : Int) ≤ i by omega) (by rw [count_of_decl d1]; omega)]
      simp only [Int.toNat_ofNat]
      rw [nextitem_of_decl d1]
      exact ih c1 _ next p (IsForest_of_decl d1 _ _ hnext) (ParentOK_of_decl d1 _ _ hp3)
        (SiblingRefs_of_decl d1 hs) (by rw [count_of_decl d1]; exact hc) (by omega)

theorem uiLayoutItem_total (lfuel : Nat) :
    ∀ (fuel : Nat),
      (∀ (c : UIcontext) (p : Nat) (ks : KTree), p < c.count →
        IsForest c (c.get p).firstkid ks → ParentOK c p ks → SiblingRefs c →
        c.count ≤ lfuel → ks.need < fuel →
        ∃ c', uiLayoutItem lfuel fuel c (p : Int) = .ok c') ∧
      (∀ (c : UIcontext) (kid : Int) (p : Nat) (t : KTree),
        IsForest c kid t → ParentOK c p t → SiblingRefs c →
        c.count ≤ lfuel → t.need ≤ fuel →
        ∃ c', uiLayoutItemKids lfuel fuel c kid = .ok c') := by
  intro fuel
  induction fuel with
  | zero =>
    constructor
    · intro c p ks _ _ _ _ _ h; omega
    · intro c kid p t _ _ _ _ h
      cases t <;> simp [KTree.need] at h
  | succ n ih =>
    constructor
    · intro c p ks hp hf hpo hs hc hfu
      simp only [uiLayoutItem, uiItemPtr_nat hp, uiLayoutItemDim]
      have hlen := roots_length_lt_need ks
      obtain ⟨c1, h1⟩ := uiLayoutItemDimKids_total lfuel p 0 (by omega) n c _ ks p hf hpo hs hc
        (by omega)
      rw [h1]
      simp only
      have d1 := decl_uiLayoutItemDimKids _ _ _ _ _ _ _ h1
      obtain ⟨c2, h2⟩ := uiLayoutItemDimKids_total lfuel p 1 (by omega) n c1 (c1.get p).firstkid
        ks p (by rw [firstkid_of_decl d1]; exact IsForest_of_decl d1 _ _ hf)
        (ParentOK_of_decl d1 _ _ hpo) (SiblingRefs_of_decl d1 hs)
        (by rw [count_of_decl d1]; exact hc) (by omega)
      rw [h2]
      simp only
      have d2 := (decl_uiLayoutItemDimKids _ _ _ _ _ _ _ h2).trans d1
      rw [uiFirstChild_valid (show (0 : Int) ≤ p by omega) (by rw [count_of_decl d2]; omega)]
      simp only [Int.toNat_ofNat]
      rw [firstkid_of_decl d2]
      exact ih.2 c2 _ p ks (IsForest_of_decl d2 _ _ hf) (ParentOK_of_decl d2 _ _ hpo)
        (SiblingRefs_of_decl d2 hs) (by rw [count_of_decl d2]; exact hc) (by omega)
    · intro c kid p t hf hpo hs hc hfu
      cases t with
      | nil =>
        have hk : kid ≤ 0 := hf
        simp only [uiLayoutItemKids, if_neg (not_lt.mpr hk)]
        exact ⟨_, rfl⟩
      | node i kids next =>
        obtain ⟨e, h0, hi, hkids, hnext⟩ := hf
        obtain ⟨hp1, hp2, hp3⟩ := hpo
        subst e
        simp only [KTree.need] at hfu
        simp only [uiLayoutItemKids, if_pos (show (i : Int) > 0 by omega)]
        obtain ⟨c1, h1⟩ := ih.1 c i kids hi hkids hp2 hs hc (by omega)
        rw [h1]
        simp only
        have d1 := (decl_uiLayoutItem lfuel n).1 _ _ _ h1
        rw [uiNextSibling_valid (show (0 : Int) ≤ i by omega)
          (by rw [count_of_decl d1]; omega)]
        simp only [Int.toNat_ofNat]
        rw [nextitem_of_decl d1]
        exact ih.2 c1 _ p next (IsForest_of_decl d1 _ _ hnext) (ParentOK_of_decl d1 _ _ hp3)
          (SiblingRefs_of_decl d1 hs) (by rw [count_of_decl d1]; exact hc) (by omega)

/-! ### `uiProcess` succeeds on a hierarchy -/

theorem Hierarchy.of_decl {c c' : UIcontext} {t : KTree} (hd : c'.decl = c.decl)
    (h : Hierarchy c t) : Hierarchy c' t :=
  ⟨by rw [count_of_decl hd]; exact h.root,
   by rw [firstkid_of_decl hd]; exact IsForest_of_decl hd _ _ h.forest, h.nodup⟩

theorem uiFuel_of_decl {c c' : UIcontext} (hd : c'.decl = c.decl) : uiFuel c' = uiFuel c := by
  unfold uiFuel; rw [count_of_decl hd]

/-- the two solver passes succeed on a hierarchy whose neighbor references are earlier
siblings, and leave every item below the root placed by the rules of `uiLayoutChildItem` -/
theorem uiProcessLayout_placed (c : UIcontext) (t : KTree) (h : Hierarchy c t)
    (hpo : ParentOK c 0 t) (hs : SiblingRefs c) (hc : c.count ≤ UI_MAX_ITEMS) :
    ∃ c', uiProcessLayout c = .ok c' ∧ c'.decl = c.decl ∧
      ∀ q ∈ t.indices, ∀ dim, dim < 2 → Placed c' q dim := by
  have hc6 : c.count ≤ 1000000 := by unfold UI_MAX_ITEMS at hc; omega
  obtain ⟨c1, h1⟩ := (uiComputeBestSize_total (uiFuel c)).1 c 0 t h.root h.forest hpo hs hc6
    h.need_lt
  have d1 : c1.decl = c.decl := (decl_uiComputeBestSize _).1 _ _ _ h1
  obtain ⟨n1, r1⟩ := (noLay_uiComputeBestSize (uiFuel c)).1 c 0 t c1 h1 h.forest
  have hroot1 : 0 < c1.count := by rw [count_of_decl d1]; exact h.root
  obtain ⟨c2, hc2⟩ : ∃ c2, c2 =
      (c1.modify 0 (fun i => { i with rect := { i.rect with x := i.margins.v 0 } })).modify
        0 (fun i => { i with rect := { i.rect with y := i.margins.v 1 } }) := ⟨_, rfl⟩
  have d2 : c2.decl = c.decl := by
    rw [hc2, decl_modify _ _ _ (fun i => decl_rect i _),
      decl_modify _ _ _ (fun i => decl_rect i _), d1]
  have n2 : NoLay c1 c2 := by
    rw [hc2]
    exact (noLay_rect c1 0 _).nolay_trans (noLay_rect _ 0 _)
  have h2 := h.of_decl d2
  have hcnt2 : c2.count ≤ uiFuel c2 := by unfold uiFuel; omega
  obtain ⟨c', h3⟩ := (uiLayoutItem_total (uiFuel c2) (uiFuel c2)).1 c2 0 t h2.root h2.forest
    (ParentOK_of_decl d2 _ _ hpo) (SiblingRefs_of_decl d2 hs) hcnt2 h2.need_lt
  obtain ⟨L, r3⟩ := (layoutItem_post (uiFuel c2) (uiFuel c2)).1 c2 0 t c' h3 h2.forest
    (ParentOK_of_decl d2 _ _ hpo) (SiblingRefs_of_decl d2 hs) (Or.inl rfl)
  refine ⟨c', ?_, L.1.trans d2, ?_⟩
  · simp only [uiProcessLayout]
    have h1' : uiComputeBestSize (uiFuel c) c 0 = .ok c1 := h1
    rw [h1']
    simp only
    have hz : uiItemPtr c1 0 = .ok 0 := by simp [uiItemPtr, hroot1]
    rw [hz]
    simp only
    subst hc2
    exact h3
  · intro q hq dim hd
    exact (L.2.2 dim hd).2.2 q (n2 q dim hd (r1 q (Or.inr hq) dim hd)) (r3 q hq dim hd)

theorem uiProcessState_total (c : UIcontext) (hot : Int) (hhot : hot < c.items.length)
    (hh : c.hot_item < c.items.length) (ha : c.active_item < c.items.length) :
    ∃ cs evs, uiProcessState c hot = .ok (cs, evs) ∧ cs.items = c.items ∧
      cs.hot_item < cs.items.length ∧ cs.active_item < cs.items.length ∧
      cs.cursor = c.cursor ∧ cs.buttons = c.buttons := by
  have hm1 : (-1 : Int) < c.items.length := by omega
  cases hst : c.state with
  | UI_STATE_IDLE =>
    by_cases hb : uiGetButton c 0 ≠ 0
    · by_cases h0 : hot ≥ 0
      · simp only [uiProcessState, hst, if_pos hb, h0, if_true]
        rw [uiNotifyItem_items _ _ _ h0 (by exact hhot)]
        exact ⟨_, _, rfl, rfl, hm1, hhot, rfl, rfl⟩
      · simp only [uiProcessState, hst, if_pos hb, h0, if_false]
        exact ⟨_, _, rfl, rfl, hm1, hhot, rfl, rfl⟩
    · simp only [uiProcessState, hst, if_neg hb]
      exact ⟨_, _, rfl, rfl, hhot, ha, rfl, rfl⟩
  | UI_STATE_CAPTURE =>
    by_cases hb : uiGetButton c 0 ≠ 0
    · by_cases h0 : c.active_item ≥ 0
      · simp only [uiProcessState, hst, if_neg (not_not.mpr hb), h0, if_true]
        rw [uiNotifyItem_items _ _ _ h0 (by exact ha)]
        simp only
        split
        · exact ⟨_, _, rfl, rfl, hhot, ha, rfl, rfl⟩
        · exact ⟨_, _, rfl, rfl, hm1, ha, rfl, rfl⟩
      · simp only [uiProcessState, hst, if_neg (not_not.mpr hb), h0, if_false]
        split
        · exact ⟨_, _, rfl, rfl, hhot, ha, rfl, rfl⟩
        · exact ⟨_, _, rfl, rfl, hm1, ha, rfl, rfl⟩
    · by_cases h0 : c.active_item ≥ 0
      · simp only [uiProcessState, hst, if_pos hb, h0, if_true]
        rw [uiNotifyItem_items _ _ _ h0 (by exact ha)]
        simp only
        split
        · rw [uiNotifyItem_items _ _ _ h0 (by exact ha)]
          exact ⟨_, _, rfl, rfl, hh, hm1, rfl, rfl⟩
        · exact ⟨_, _, rfl, rfl, hh, hm1, rfl, rfl⟩
      · simp only [uiProcessState, hst, if_pos hb, h0, if_false]
        exact ⟨_, _, rfl, rfl, hh, hm1, rfl, rfl⟩

/-- `uiProcess` succeeds whenever the two solver passes do on a hierarchy, and returns the
items as the solver passes left them -/
theorem uiProcess_total {c cl : UIcontext} {t : KTree} (h : Hierarchy c t)
    (hlay : uiProcessLayout c = .ok cl)
    (hh : c.hot_item < c.count) (ha : c.active_item < c.count) :
    ∃ c' evs, uiProcess c = .ok (c', evs) ∧ c'.items = cl.items := by
  have hd := decl_uiProcessLayout hlay
  have hl := h.of_decl hd
  have hctx := ctx_of_decl hd
  have hcnt := count_of_decl hd
  obtain ⟨hot, hhit⟩ : ∃ hot, uiProcessHot cl = .ok hot :=
    ⟨_, uiFindItem_eq_hit cl 0 t _ _ (uiFuel cl) hl.root hl.forest hl.need_lt⟩
  obtain ⟨x1, -⟩ := hot_lt_of_hit hhit
  unfold UIcontext.count at hh ha hcnt
  obtain ⟨cs, evs, h1, h2, h3, h4, -, -⟩ := uiProcessState_total cl hot x1
    (by rw [hctx.2.2.2.2.2.2.2.1, hcnt]; exact hh)
    (by rw [hctx.2.2.2.2.2.2.2.2.1, hcnt]; exact ha)
  exact ⟨_, evs, uiProcess_eq hlay hhit h1 h3 h4, h2⟩

theorem get_of_items {c c' : UIcontext} (h : c'.items = c.items) (q : Nat) :
    c'.get q = c.get q := by
  unfold UIcontext.get; rw [h]

/-! ### Fill flags -/

theorem land_fill_bits (f : Int) (h : Int.land f UI_HFILL = UI_HFILL) :
    Int.land f UI_LEFT ≠ 0 ∧ Int.land f UI_RIGHT ≠ 0 := by
  have h0 := congrArg (fun x => Int.testBit x 0) h
  have h2 := congrArg (fun x => Int.testBit x 2) h
  simp only [Int.testBit_land] at h0 h2
  have t50 : Int.testBit UI_HFILL 0 = true := by decide
  have t52 : Int.testBit UI_HFILL 2 = true := by decide
  rw [t50] at h0
  rw [t52] at h2
  simp only [Bool.and_true] at h0 h2
  constructor
  · intro hz
    have := congrArg (fun x => Int.testBit x 0) hz
    simp only [Int.testBit_land, h0] at this
    revert this
    decide
  · intro hz
    have := congrArg (fun x => Int.testBit x 2) hz
    simp only [Int.testBit_land, h2] at this
    revert this
    decide

/-! ### Fill placement (C2) -/

theorem ParentOK_attached {c : UIcontext} :
    ∀ (t : KTree) (p : Nat), ParentOK c p t → ∀ k ∈ t.indices, 0 ≤ (c.get k).parent := by
  intro t
  induction t with
  | nil => intro p _ k hk; simp [KTree.indices] at hk
  | node i kids next ih1 ih2 =>
    intro p h k hk
    obtain ⟨h1, h2, h3⟩ := h
    simp only [KTree.indices, List.mem_cons, List.mem_append] at hk
    rcases hk with hk | hk | hk
    · rw [hk, h1]; omega
    · exact ih1 _ h2 k hk
    · exact ih2 _ h3 k hk

theorem placed_fill {c cl : UIcontext} {k dim : Nat} (hd : cl.decl = c.decl)
    (hs : SiblingRefs c) (hk : k < c.count) (hpar : 0 ≤ (c.get k).parent) (hdim : dim < 2)
    (hfill : Int.land ((c.get k).layout_flags >>> dim) UI_HFILL = UI_HFILL)
    (hp : Placed cl k dim) :
    (cl.get k).rect.v dim = nearEdge c cl k dim + (c.get k).margins.v dim ∧
    (cl.get k).rect.v (dim + 2) =
      farEdge c cl k dim - nearEdge c cl k dim - (c.get k).margins.v dim -
        (c.get k).margins.v (dim + 2) := by
  have hdk := decl_fields (get_decl_of_decl hd k)
  obtain ⟨-, -, -, h4⟩ := hp
  unfold PlacedAt PlaceEq at h4
  rw [hdk.1, hfill, hdk.2.2.1] at h4
  rw [if_neg (by decide), if_neg (by decide), if_pos rfl] at h4
  obtain ⟨b1, b2⟩ := land_fill_bits _ hfill
  have fl : uiFollowL (cl.get k) dim ↔ (c.get k).relto.v dim ≠ -1 := by
    unfold uiFollowL
    rw [hdk.1, hdk.2.1]
    rcases hs k hk hpar dim (by omega) with h | ⟨h1, -, -⟩
    · constructor
      · intro hx; omega
      · intro hx; exact absurd h hx
    · constructor
      · intro _; omega
      · intro _; exact ⟨b1, by omega⟩
  have fr : uiFollowR (cl.get k) dim ↔ (c.get k).relto.v (dim + 2) ≠ -1 := by
    unfold uiFollowR
    rw [hdk.1, hdk.2.1]
    rcases hs k hk hpar (dim + 2) (by omega) with h | ⟨h1, -, -⟩
    · constructor
      · intro hx; omega
      · intro hx; exact absurd h hx
    · constructor
      · intro _; omega
      · intro _; exact ⟨b2, by omega⟩
  have eL : spanL dim (cl.get k) (cl.get (cl.nl k dim)) = nearEdge c cl k dim := by
    unfold spanL nearEdge UIcontext.nl
    rw [hdk.2.1]
    by_cases hx : (c.get k).relto.v dim = -1
    · rw [if_neg (fun hf => (fl.mp hf) hx), if_pos hx]
    · rw [if_pos (fl.mpr hx), if_neg hx]
  have eW : spanW dim (cl.get k) (cl.get (cl.nl k dim)) (cl.get (cl.nr k dim))
      (cl.get (cl.par k)) = farEdge c cl k dim - nearEdge c cl k dim := by
    unfold spanW
    rw [eL]
    unfold farEdge UIcontext.nr UIcontext.par
    rw [hdk.2.1, hdk.2.2.2.1]
    by_cases hx : (c.get k).relto.v (dim + 2) = -1
    · rw [if_neg (fun hf => (fr.mp hf) hx), if_pos hx]
      by_cases hy : (c.get k).relto.v dim = -1
      · rw [if_neg (fun hf => (fl.mp hf) hy)]
        unfold nearEdge
        rw [if_pos hy]
        omega
      · rw [if_pos (fl.mpr hy)]
    · rw [if_pos (fr.mpr hx), if_neg hx]
  rw [eL, eW] at h4
  exact h4

/-- C2: fill placement. In a hierarchy whose neighbor references are `-1` or earlier-created
siblings, `uiProcess` succeeds, and afterwards every item `k` below the root whose flags in
dimension `dim` have both the near and the far bit set has position `L + near margin` and
extent `R - L - near margin - far margin`, where `L = nearEdge` is the far edge (position
plus extent) of its near neighbor, or 0 without one, and `R = farEdge` is the position of its
far neighbor, or the extent of its parent without one. -/
theorem fill_placement (c : UIcontext) (t : KTree) (h : Hierarchy c t)
    (hpo : ParentOK c 0 t) (hs : SiblingRefs c) (hc : c.count ≤ UI_MAX_ITEMS)
    (hh : c.hot_item < c.count) (ha : c.active_item < c.count) :
    ∃ c' evs, uiProcess c = .ok (c', evs) ∧
      ∀ k ∈ t.indices, ∀ dim : Nat, dim < 2 →
        Int.land ((c.get k).layout_flags >>> dim) UI_HFILL = UI_HFILL →
        (c'.get k).rect.v dim = nearEdge c c' k dim + (c.get k).margins.v dim ∧
        (c'.get k).rect.v (dim + 2) =
          farEdge c c' k dim - nearEdge c c' k dim - (c.get k).margins.v dim -
            (c.get k).margins.v (dim + 2) := by
  obtain ⟨cl, hlay, hd, hpl⟩ := uiProcessLayout_placed c t h hpo hs hc
  obtain ⟨c', evs, hp, hitems⟩ := uiProcess_total h hlay hh ha
  refine ⟨c', evs, hp, ?_⟩
  intro k hk dim hdim hfill
  have hkc : k < c.count := (IsForest_range t _ h.forest k hk).2
  have := placed_fill hd hs hkc (ParentOK_attached t 0 hpo k hk) hdim hfill (hpl k hk dim hdim)
  have e : ∀ q, c'.get q = cl.get q := get_of_items hitems
  unfold nearEdge farEdge at this ⊢
  simp only [e]
  exact this

/-! ### Two runs of the size pass in lock step -/

theorem SRel.weaken {Sv Sv' : Nat → Prop} {Sr Sr' : Nat → Nat → Prop} {a b : UIcontext}
    (h : SRel Sv Sr a b) (hv : ∀ q, Sv' q → Sv q) (hr : ∀ d q, d < 2 → Sr' d q → Sr d q) :
    SRel Sv' Sr' a b :=
  ⟨h.1, h.2.1, fun q hq => h.2.2.1 q (hv q hq),
    fun d q hd hq => h.2.2.2 d q hd (hr d q hd hq)⟩

/-- the same update of `visited` in both runs -/
theorem SRel.modify_visited {Sv : Nat → Prop} {Sr : Nat → Nat → Prop} {a b : UIcontext}
    (h : SRel Sv Sr a b) (p : Nat) (f : Nat → Nat) :
    SRel Sv Sr (a.modify p (fun i => { i with visited := f i.visited }))
      (b.modify p (fun i => { i with visited := f i.visited })) := by
  obtain ⟨h1, h2, h3, h4⟩ := h
  refine ⟨by rw [count_modify, count_modify, h1], ?_, ?_, ?_⟩
  · intro q
    rw [get_modify, get_modify, h1]
    split
    · exact h2 p
    · exact h2 q
  · intro q hq
    rw [get_modify, get_modify, h1]
    split
    · rename_i hc
      show f (a.get p).visited = f (b.get p).visited
      rw [← hc.1, h3 q hq]
    · exact h3 q hq
  · intro d q hd hq
    rw [get_modify, get_modify, h1]
    split
    · rename_i hc
      show (a.get p).rect.v (d + 2) = (b.get p).rect.v (d + 2)
      rw [← hc.1]; exact h4 d q hd hq
    · exact h4 d q hd hq

/-- `visited := 0` in both runs makes the item agree on `visited` -/
theorem SRel.modify_visited_zero {Sv : Nat → Prop} {Sr : Nat → Nat → Prop} {a b : UIcontext}
    (h : SRel Sv Sr a b) (p : Nat) :
    SRel (fun q => Sv q ∨ q = p) Sr (a.modify p (fun i => { i with visited := 0 }))
      (b.modify p (fun i => { i with visited := 0 })) := by
  obtain ⟨h1, h2, h3, h4⟩ := h
  refine ⟨by rw [count_modify, count_modify, h1], ?_, ?_, ?_⟩
  · intro q
    rw [get_modify, get_modify, h1]
    split
    · exact h2 p
    · exact h2 q
  · intro q hq
    rw [get_modify, get_modify, h1]
    split
    · rfl
    · rename_i hc
      rcases hq with hq | hq
      · exact h3 q hq
      · subst hq
        have hx : ¬ q < b.count := fun hx => hc ⟨rfl, hx⟩
        have ha : a.get q = default := by
          unfold UIcontext.get
          rw [List.getD_eq_default]
          unfold UIcontext.count at h1 hx
          omega
        have hb : b.get q = default := by
          unfold UIcontext.get
          rw [List.getD_eq_default]
          unfold UIcontext.count at hx
          omega
        rw [ha, hb]
  · intro d q hd hq
    rw [get_modify, get_modify, h1]
    split
    · rename_i hc
      show (a.get p).rect.v (d + 2) = (b.get p).rect.v (d + 2)
      rw [← hc.1]; exact h4 d q hd hq
    · exact h4 d q hd hq

/-- the same extent written in both runs makes the item agree on that extent -/
theorem SRel.modify_extent {Sv : Nat → Prop} {Sr : Nat → Nat → Prop} {a b : UIcontext}
    (h : SRel Sv Sr a b) (p dim : Nat) (hd : dim < 2) (fa fb : UIitem → Int)
    (hf : fa (a.get p) = fb (b.get p)) :
    SRel Sv (fun d q => Sr d q ∨ (d = dim ∧ q = p))
      (a.modify p (fun i => { i with rect := i.rect.setV (dim + 2) (fa i) }))
      (b.modify p (fun i => { i with rect := i.rect.setV (dim + 2) (fb i) })) := by
  obtain ⟨h1, h2, h3, h4⟩ := h
  refine ⟨by rw [count_modify, count_modify, h1], ?_, ?_, ?_⟩
  · intro q
    rw [get_modify, get_modify, h1]
    split
    · exact h2 p
    · exact h2 q
  · intro q hq
    rw [get_modify, get_modify, h1]
    split
    · rename_i hc
      show (a.get p).visited = (b.get p).visited
      rw [← hc.1]; exact h3 q hq
    · exact h3 q hq
  · intro d q hd2 hq
    rw [get_modify, get_modify, h1]
    split
    · rename_i hc
      simp only [rect_setV_v _ _ _ _ (show dim + 2 < 4 by omega) (show d + 2 < 4 by omega)]
      by_cases he : d = dim
      · rw [if_pos (by omega), if_pos (by omega)]; exact hf
      · rw [if_neg (by omega), if_neg (by omega)]
        rcases hq with hq | hq
        · rw [← hc.1]; exact h4 d q hd2 hq
        · exact absurd hq.1 he
    · rename_i hc
      rcases hq with hq | hq
      · exact h4 d q hd2 hq
      · obtain ⟨rfl, rfl⟩ := hq
        have hx : ¬ q < b.count := fun hx => hc ⟨rfl, hx⟩
        have ha : a.get q = default := by
          unfold UIcontext.get
          rw [List.getD_eq_default]
          unfold UIcontext.count at h1 hx
          omega
        have hb : b.get q = default := by
          unfold UIcontext.get
          rw [List.getD_eq_default]
          unfold UIcontext.count at hx
          omega
        rw [ha, hb]

theorem relto_of_decl {c c' : UIcontext} (hd : c'.decl = c.decl) (q : Nat) :
    (c'.get q).relto = (c.get q).relto :=
  (decl_fields (get_decl_of_decl hd q)).2.1

theorem ChainClosed_of_decl {c c' : UIcontext} (hd : c'.decl = c.decl) {t : KTree}
    (h : ChainClosed c t) : ChainClosed c' t := by
  intro k hk e he hr
  rw [relto_of_decl hd] at hr ⊢
  exact h k hk e he hr

theorem ClosedBelow_of_decl {c c' : UIcontext} (hd : c'.decl = c.decl) :
    ∀ (t : KTree), ClosedBelow c t → ClosedBelow c' t := by
  intro t
  induction t with
  | nil => intro _; trivial
  | node i kids next ih1 ih2 =>
    intro h
    exact ⟨ChainClosed_of_decl hd h.1, ih1 h.2.1, ih2 h.2.2⟩

theorem rel_uiChainWalk (dim : Nat) (flag : Int) (edge : Nat) (he : edge < 4)
    {Sv : Nat → Prop} {Sr : Nat → Nat → Prop} (K : Nat → Prop) (hdim : dim < 2) :
    ∀ (n : Nat) (a b : UIcontext) (p : Nat) (s : Int) (it : Nat) (a' : UIcontext) (sa : Int)
      (b' : UIcontext) (sb : Int),
      SRel Sv Sr a b →
      (∀ x, K x → ∀ e, e < 4 → 0 ≤ (a.get x).relto.v e → K ((a.get x).relto.v e).toNat) →
      (∀ x, K x → Sr dim x) → K p →
      uiChainWalk dim flag edge n a p s it = .ok (a', sa) →
      uiChainWalk dim flag edge n b p s it = .ok (b', sb) →
      SRel Sv Sr a' b' ∧ sa = sb := by
  intro n
  induction n with
  | zero => intro a b p s it a' sa b' sb _ _ _ _ h; simp [uiChainWalk] at h
  | succ n ih =>
    intro a b p s it a' sa b' sb hrel hcl hsr hkp ha hb
    have hdp := decl_fields (hrel.2.1 p)
    rcases uiChainWalk_inv ha with ⟨fa, rfl, rfl⟩ | ⟨fa, ra, rfl, rfl⟩ | ⟨fa, ra, -, qa, hqa, ha1⟩
    · rcases uiChainWalk_inv hb with ⟨fb, rfl, rfl⟩ | ⟨fb, rb, rfl, rfl⟩ | ⟨fb, rb, -, qb, hqb, hb1⟩
      · exact ⟨hrel, rfl⟩
      · rw [← hdp.1] at fb; exact absurd fa fb
      · rw [← hdp.1] at fb; exact absurd fa fb
    · rcases uiChainWalk_inv hb with ⟨fb, rfl, rfl⟩ | ⟨fb, rb, rfl, rfl⟩ | ⟨fb, rb, -, qb, hqb, hb1⟩
      · rw [← hdp.1] at fb; exact absurd fb fa
      · exact ⟨hrel, by rw [hdp.2.2.1]⟩
      · rw [← hdp.2.1] at rb; omega
    · rcases uiChainWalk_inv hb with ⟨fb, rfl, rfl⟩ | ⟨fb, rb, rfl, rfl⟩ | ⟨fb, rb, -, qb, hqb, hb1⟩
      · rw [← hdp.1] at fb; exact absurd fb fa
      · rw [← hdp.2.1] at rb; omega
      · obtain ⟨-, -, ea, hqac⟩ := uiItemPtr_ok hqa
        obtain ⟨-, -, eb, hqbc⟩ := uiItemPtr_ok hqb
        rw [← hdp.2.1] at eb
        have eq : qb = qa := by omega
        subst eq
        have eqa : qb = ((a.get p).relto.v edge).toNat := by omega
        have hkq : K qb := by rw [eqa]; exact hcl p hkp edge he ra
        have hrel0 := hrel.modify_visited qb (fun v => v ||| (1 <<< dim))
        have er : ((a.modify qb (fun i => { i with visited := i.visited ||| (1 <<< dim) })).get
              qb).rect.v (dim + 2) =
            ((b.modify qb (fun i => { i with visited := i.visited ||| (1 <<< dim) })).get
              qb).rect.v (dim + 2) :=
          hrel0.2.2.2 dim qb hdim (hsr qb hkq)
        rw [er, hdp.2.2.1] at ha1
        refine ih _ _ _ _ _ _ _ _ _ hrel0 ?_ hsr hkq ha1 hb1
        intro x hx e he2 hr
        have d0 := decl_modify a qb (fun i => { i with visited := i.visited ||| (1 <<< dim) })
          (fun i => decl_visited i _)
        rw [relto_of_decl d0] at hr ⊢
        exact hcl x hx e he2 hr

theorem rel_uiComputeChainSize {Sv : Nat → Prop} {Sr : Nat → Nat → Prop} (K : Nat → Prop)
    {a b : UIcontext} {p dim : Nat} {a' b' : UIcontext} {sa sb : Int} (hdim : dim < 2)
    (hrel : SRel Sv Sr a b)
    (hcl : ∀ x, K x → ∀ e, e < 4 → 0 ≤ (a.get x).relto.v e → K ((a.get x).relto.v e).toNat)
    (hsr : ∀ x, K x → Sr dim x) (hkp : K p)
    (ha : uiComputeChainSize a p dim = .ok (a', sa))
    (hb : uiComputeChainSize b p dim = .ok (b', sb)) :
    SRel Sv Sr a' b' ∧ sa = sb := by
  obtain ⟨a1, sa1, ha1, ha2⟩ := uiComputeChainSize_inv ha
  obtain ⟨b1, sb1, hb1, hb2⟩ := uiComputeChainSize_inv hb
  have hrel0 := hrel.modify_visited p (fun v => v ||| (1 <<< dim))
  have d0 := decl_modify a p (fun i => { i with visited := i.visited ||| (1 <<< dim) })
    (fun i => decl_visited i _)
  have hcl0 : ∀ x, K x → ∀ e, e < 4 →
      0 ≤ ((a.modify p (fun i => { i with visited := i.visited ||| (1 <<< dim) })).get
        x).relto.v e →
      K (((a.modify p (fun i => { i with visited := i.visited ||| (1 <<< dim) })).get
        x).relto.v e).toNat := by
    intro x hx e he2 hr
    rw [relto_of_decl d0] at hr ⊢
    exact hcl x hx e he2 hr
  rw [hrel.2.2.2 dim p hdim (hsr p hkp)] at ha1
  obtain ⟨r1, e1⟩ := rel_uiChainWalk dim UI_LEFT dim (by omega) K hdim _ _ _ _ _ _ _ _ _ _
    hrel0 hcl0 hsr hkp ha1 hb1
  subst e1
  have d1 := decl_uiChainWalk _ _ _ _ _ _ _ _ _ _ ha1
  have hcl1 : ∀ x, K x → ∀ e, e < 4 → 0 ≤ (a1.get x).relto.v e →
      K ((a1.get x).relto.v e).toNat := by
    intro x hx e he2 hr
    rw [relto_of_decl (d1.trans d0)] at hr ⊢
    exact hcl x hx e he2 hr
  exact rel_uiChainWalk dim UI_RIGHT (dim + 2) (by omega) K hdim _ _ _ _ _ _ _ _ _ _
    r1 hcl1 hsr hkp ha2 hb2

/-! ### Two runs of the size pass in lock step: the passes -/

theorem rel_uiComputeSizeDimKids (dim : Nat) (hdim : dim < 2)
    {Sv : Nat → Prop} {Sr : Nat → Nat → Prop} (K : Nat → Prop) :
    ∀ (n : Nat) (a b : UIcontext) (kid s : Int) (t : KTree) (a' : UIcontext) (sa : Int)
      (b' : UIcontext) (sb : Int),
      SRel Sv Sr a b → IsForest a kid t → (∀ k ∈ t.roots, K k ∧ Sv k) →
      (∀ x, K x → ∀ e, e < 4 → 0 ≤ (a.get x).relto.v e → K ((a.get x).relto.v e).toNat) →
      (∀ x, K x → Sr dim x) →
      uiComputeSizeDimKids dim n a kid s = .ok (a', sa) →
      uiComputeSizeDimKids dim n b kid s = .ok (b', sb) →
      SRel Sv Sr a' b' ∧ sa = sb := by
  intro n
  induction n with
  | zero => intro a b kid s t a' sa b' sb _ _ _ _ _ h; simp [uiComputeSizeDimKids] at h
  | succ n ih =>
    intro a b kid s t a' sa b' sb hrel hf hk hcl hsr ha hb
    cases t with
    | nil =>
      have hk0 : kid ≤ 0 := hf
      rcases uiComputeSizeDimKids_inv ha with ⟨-, rfl, rfl⟩ | ⟨h0, -⟩
      · rcases uiComputeSizeDimKids_inv hb with ⟨-, rfl, rfl⟩ | ⟨h0, -⟩
        · exact ⟨hrel, rfl⟩
        · omega
      · omega
    | node i kids next =>
      obtain ⟨hki, hi0, hic, -, hfn⟩ := hf
      have hKi := hk i (by simp [KTree.roots])
      rcases uiComputeSizeDimKids_inv ha with ⟨h0, -⟩ | ⟨-, pa, hpa, hA⟩
      · omega
      rcases uiComputeSizeDimKids_inv hb with ⟨h0, -⟩ | ⟨-, pb, hpb, hB⟩
      · omega
      have ea : i = pa := by have := (uiItemPtr_ok hpa).2.2.1; omega
      have eb : i = pb := by have := (uiItemPtr_ok hpb).2.2.1; omega
      subst ea; subst eb
      have hv := hrel.2.2.1 i hKi.2
      have hkn : ∀ k ∈ next.roots, K k ∧ Sv k := fun k hk2 =>
        hk k (by simp [KTree.roots, hk2])
      rcases hA with ⟨va, a1, ca, ha1, ha2⟩ | ⟨va, ha2⟩
      · rcases hB with ⟨vb, b1, cb, hb1, hb2⟩ | ⟨vb, hb2⟩
        · obtain ⟨r1, e1⟩ := rel_uiComputeChainSize K hdim hrel hcl hsr hKi.1 ha1 hb1
          subst e1
          have d1 := decl_uiComputeChainSize ha1
          rw [← (decl_fields (r1.2.1 i)).2.2.2.2.2.2] at hb2
          refine ih _ _ _ _ next _ _ _ _ r1 ?_ hkn ?_ hsr ha2 hb2
          · rw [nextitem_of_decl d1]; exact IsForest_of_decl d1 _ _ hfn
          · intro x hx e he hr
            rw [relto_of_decl d1] at hr ⊢
            exact hcl x hx e he hr
        · rw [hv] at va; exact absurd va vb
      · rcases hB with ⟨vb, b1, cb, hb1, hb2⟩ | ⟨vb, hb2⟩
        · rw [hv] at va; exact absurd vb va
        · rw [← (decl_fields (hrel.2.1 i)).2.2.2.2.2.2] at hb2
          exact ih _ _ _ _ next _ _ _ _ hrel hfn hkn hcl hsr ha2 hb2

theorem rel_uiComputeSizeDim {Sv : Nat → Prop} {Sr : Nat → Nat → Prop}
    {n : Nat} {a b : UIcontext} {p dim : Nat} {ks : KTree} {a' b' : UIcontext}
    (hdim : dim < 2) (hrel : SRel Sv Sr a b) (hf : IsForest a (a.get p).firstkid ks)
    (hk : ∀ k ∈ ks.roots, Sv k ∧ Sr dim k) (hcl : ChainClosed a ks)
    (ha : uiComputeSizeDim n a p dim = .ok a') (hb : uiComputeSizeDim n b p dim = .ok b') :
    SRel Sv (fun d q => Sr d q ∨ (d = dim ∧ q = p)) a' b' := by
  have hdp := decl_fields (hrel.2.1 p)
  rcases uiComputeSizeDim_inv ha with ⟨sa, rfl⟩ | ⟨sa, a1, za, ha1, rfl⟩
  · rcases uiComputeSizeDim_inv hb with ⟨sb, rfl⟩ | ⟨sb, -⟩
    · exact hrel.modify_extent p dim hdim (fun i => i.size.v dim) (fun i => i.size.v dim)
        (by show (a.get p).size.v dim = (b.get p).size.v dim; rw [hdp.2.2.2.2.1])
    · rw [← hdp.2.2.2.2.1] at sb; exact absurd sb sa
  · rcases uiComputeSizeDim_inv hb with ⟨sb, -⟩ | ⟨sb, b1, zb, hb1, rfl⟩
    · rw [← hdp.2.2.2.2.1] at sb; exact absurd sa sb
    · rw [← hdp.2.2.2.2.2.1] at hb1
      obtain ⟨r1, e1⟩ := rel_uiComputeSizeDimKids dim hdim (fun x => x ∈ ks.roots)
        _ _ _ _ _ ks _ _ _ _ hrel hf (fun k hk2 => ⟨hk2, (hk k hk2).1⟩) hcl
        (fun x hx => (hk x hx).2) ha1 hb1
      subst e1
      exact r1.modify_extent p dim hdim (fun _ => za) (fun _ => za) rfl

theorem rel_uiComputeBestSize :
    ∀ (n : Nat),
      (∀ (a b : UIcontext) (p : Nat) (ks : KTree) (a' b' : UIcontext)
        (Sv : Nat → Prop) (Sr : Nat → Nat → Prop),
        SRel Sv Sr a b → IsForest a (a.get p).firstkid ks → ChainClosed a ks →
        ClosedBelow a ks →
        uiComputeBestSize n a (p : Int) = .ok a' → uiComputeBestSize n b (p : Int) = .ok b' →
        SRel (fun q => Sv q ∨ q = p ∨ q ∈ ks.indices)
          (fun d q => Sr d q ∨ q = p ∨ q ∈ ks.indices) a' b') ∧
      (∀ (a b : UIcontext) (kid : Int) (t : KTree) (a' b' : UIcontext)
        (Sv : Nat → Prop) (Sr : Nat → Nat → Prop),
        SRel Sv Sr a b → IsForest a kid t → ClosedBelow a t →
        uiComputeBestSizeKids n a kid = .ok a' → uiComputeBestSizeKids n b kid = .ok b' →
        SRel (fun q => Sv q ∨ q ∈ t.indices) (fun d q => Sr d q ∨ q ∈ t.indices) a' b') := by
  intro n
  induction n with
  | zero =>
    exact ⟨fun a b p ks a' b' Sv Sr _ _ _ _ h => by simp [uiComputeBestSize] at h,
      fun a b kid t a' b' Sv Sr _ _ _ h => by simp [uiComputeBestSizeKids] at h⟩
  | succ n ih =>
    constructor
    · intro a b p ks a' b' Sv Sr hrel hf hcc hcb ha hb
      obtain ⟨pa, a0, a1, a2, hpa, ea0, hka, hsa0, hsa1⟩ := uiComputeBestSize_inv ha
      obtain ⟨pb, b0, b1, b2, hpb, eb0, hkb, hsb0, hsb1⟩ := uiComputeBestSize_inv hb
      have ea : p = pa := by have := (uiItemPtr_ok hpa).2.2.1; omega
      have eb : p = pb := by have := (uiItemPtr_ok hpb).2.2.1; omega
      subst ea; subst eb
      have r0 := hrel.modify_visited_zero p
      rw [← ea0, ← eb0] at r0
      have d0 : a0.decl = a.decl := by
        rw [ea0]; exact decl_modify _ _ _ (fun i => decl_visited i _)
      have f0 : IsForest a0 (a0.get p).firstkid ks := by
        rw [firstkid_of_decl d0]; exact IsForest_of_decl d0 _ _ hf
      rw [← (decl_fields (r0.2.1 p)).2.2.2.2.2.1] at hkb
      have r1 := ih.2 _ _ _ ks _ _ _ _ r0 f0 (ClosedBelow_of_decl d0 _ hcb) hka hkb
      have d1 : a1.decl = a.decl := ((decl_uiComputeBestSize _).2 _ _ _ hka).trans d0
      have f1 : IsForest a1 (a1.get p).firstkid ks := by
        rw [firstkid_of_decl d1]; exact IsForest_of_decl d1 _ _ hf
      have r2 := rel_uiComputeSizeDim (by decide : 0 < 2) r1 f1
        (fun k hk => ⟨Or.inr (roots_sub_indices _ k hk), Or.inr (roots_sub_indices _ k hk)⟩)
        (ChainClosed_of_decl d1 hcc) hsa0 hsb0
      have d2 : a2.decl = a.decl := (decl_uiComputeSizeDim hsa0).trans d1
      have f2 : IsForest a2 (a2.get p).firstkid ks := by
        rw [firstkid_of_decl d2]; exact IsForest_of_decl d2 _ _ hf
      have r3 := rel_uiComputeSizeDim (by decide : 1 < 2) r2 f2
        (fun k hk => ⟨Or.inr (roots_sub_indices _ k hk),
          Or.inl (Or.inr (roots_sub_indices _ k hk))⟩)
        (ChainClosed_of_decl d2 hcc) hsa1 hsb1
      refine r3.weaken ?_ ?_
      · intro q hq
        rcases hq with hq | hq | hq
        · exact Or.inl (Or.inl hq)
        · exact Or.inl (Or.inr hq)
        · exact Or.inr hq
      · intro d q hd hq
        rcases hq with hq | hq | hq
        · exact Or.inl (Or.inl (Or.inl hq))
        · have : d = 0 ∨ d = 1 := by omega
          rcases this with h0 | h1
          · exact Or.inl (Or.inr ⟨h0, hq⟩)
          · exact Or.inr ⟨h1, hq⟩
        · exact Or.inl (Or.inl (Or.inr hq))
    · intro a b kid t a' b' Sv Sr hrel hf hcb ha hb
      cases t with
      | nil =>
        have hk0 : kid ≤ 0 := hf
        rcases uiComputeBestSizeKids_inv ha with ⟨-, rfl⟩ | ⟨h0, -⟩
        · rcases uiComputeBestSizeKids_inv hb with ⟨-, rfl⟩ | ⟨h0, -⟩
          · exact hrel.weaken (fun q hq => by simpa [KTree.indices] using hq)
              (fun d q _ hq => by simpa [KTree.indices] using hq)
          · omega
        · omega
      | node i kids next =>
        obtain ⟨hki, hi0, hic, hfk, hfn⟩ := hf
        obtain ⟨hc1, hc2, hc3⟩ := hcb
        rcases uiComputeBestSizeKids_inv ha with ⟨h0, -⟩ | ⟨-, a1, ha1, -, ha2⟩
        · omega
        rcases uiComputeBestSizeKids_inv hb with ⟨h0, -⟩ | ⟨-, b1, hb1, -, hb2⟩
        · omega
        subst hki
        rw [Int.toNat_ofNat] at ha2 hb2
        have r1 := ih.1 _ _ _ kids _ _ _ _ hrel hfk hc1 hc2 ha1 hb1
        have d1 := (decl_uiComputeBestSize _).1 _ _ _ ha1
        rw [← (decl_fields (r1.2.1 i)).2.2.2.2.2.2] at hb2
        have f1 : IsForest a1 (a1.get i).nextitem next := by
          rw [nextitem_of_decl d1]; exact IsForest_of_decl d1 _ _ hfn
        have r2 := ih.2 _ _ _ next _ _ _ _ r1 f1 (ClosedBelow_of_decl d1 _ hc3) ha2 hb2
        refine r2.weaken ?_ ?_
        · intro q hq
          simp only [KTree.indices, List.mem_cons, List.mem_append] at hq
          rcases hq with hq | hq | hq | hq
          · exact Or.inl (Or.inl hq)
          · exact Or.inl (Or.inr (Or.inl hq))
          · exact Or.inl (Or.inr (Or.inr hq))
          · exact Or.inr hq
        · intro d q _ hq
          simp only [KTree.indices, List.mem_cons, List.mem_append] at hq
          rcases hq with hq | hq | hq | hq
          · exact Or.inl (Or.inl hq)
          · exact Or.inl (Or.inr (Or.inl hq))
          · exact Or.inl (Or.inr (Or.inr hq))
          · exact Or.inr hq

/-! ### Neighbor chains stay among siblings; what the passes leave untouched -/

theorem parent_of_decl {c c' : UIcontext} (hd : c'.decl = c.decl) (q : Nat) :
    (c'.get q).parent = (c.get q).parent :=
  (decl_fields (get_decl_of_decl hd q)).2.2.2.1

theorem CompleteKids_of_decl {c c' : UIcontext} (hd : c'.decl = c.decl) {p : Nat} {ks : KTree}
    (h : CompleteKids c p ks) : CompleteKids c' p ks := by
  intro j hj hp
  rw [count_of_decl hd] at hj
  rw [parent_of_decl hd] at hp
  exact h j hj hp

theorem CompleteBelow_of_decl {c c' : UIcontext} (hd : c'.decl = c.decl) :
    ∀ (t : KTree), CompleteBelow c t → CompleteBelow c' t := by
  intro t
  induction t with
  | nil => intro _; trivial
  | node i kids next ih1 ih2 =>
    intro h
    exact ⟨CompleteKids_of_decl hd h.1, ih1 h.2.1, ih2 h.2.2⟩

theorem ChainClosed_of_complete {c : UIcontext} {kid : Int} {p : Nat} {ks : KTree}
    (hf : IsForest c kid ks) (hpo : ParentOK c p ks) (hs : SiblingRefs c)
    (hck : CompleteKids c p ks) : ChainClosed c ks := by
  intro k hk e he hr
  have hkr := IsForest_range ks kid hf k (roots_sub_indices ks k hk)
  have hpar := ParentOK_roots ks p hpo k hk
  rcases hs k hkr.2 (by rw [hpar]; omega) e he with h1 | ⟨h1, h2, h3⟩
  · omega
  · apply hck
    · omega
    · rw [h3, hpar]

theorem ClosedBelow_of_complete {c : UIcontext} (hs : SiblingRefs c) :
    ∀ (t : KTree) (kid : Int) (p : Nat), IsForest c kid t → ParentOK c p t →
      CompleteBelow c t → ClosedBelow c t := by
  intro t
  induction t with
  | nil => intro _ _ _ _ _; trivial
  | node i kids next ih1 ih2 =>
    intro kid p hf hpo hcb
    obtain ⟨-, -, -, hfk, hfn⟩ := hf
    obtain ⟨-, hp2, hp3⟩ := hpo
    obtain ⟨hc1, hc2, hc3⟩ := hcb
    exact ⟨ChainClosed_of_complete hfk hp2 hs hc1, ih1 _ _ hfk hp2 hc2, ih2 _ _ hfn hp3 hc3⟩

theorem rect_modify_visited (c : UIcontext) (p : Nat) (f : UIitem → Nat) (q : Nat) :
    ((c.modify p (fun i => { i with visited := f i })).get q).rect = (c.get q).rect := by
  rw [get_modify]
  split
  · rename_i h; rw [h.1]
  · rfl

theorem rect_uiChainWalk (dim : Nat) (flag : Int) (edge : Nat) :
    ∀ (n : Nat) (c : UIcontext) (p : Nat) (s : Int) (it : Nat) (c' : UIcontext) (s' : Int),
      uiChainWalk dim flag edge n c p s it = .ok (c', s') →
      ∀ q, (c'.get q).rect = (c.get q).rect := by
  intro n
  induction n with
  | zero => intro c p s it c' s' h; simp [uiChainWalk] at h
  | succ n ih =>
    intro c p s it c' s' h q
    rcases uiChainWalk_inv h with ⟨-, rfl, -⟩ | ⟨-, -, rfl, -⟩ | ⟨-, -, -, x, -, h1⟩
    · rfl
    · rfl
    · rw [ih _ _ _ _ _ _ h1 q, rect_modify_visited]

theorem rect_uiComputeChainSize {c : UIcontext} {p dim : Nat} {c' : UIcontext} {s' : Int}
    (h : uiComputeChainSize c p dim = .ok (c', s')) (q : Nat) :
    (c'.get q).rect = (c.get q).rect := by
  obtain ⟨c1, s1, h1, h2⟩ := uiComputeChainSize_inv h
  rw [rect_uiChainWalk _ _ _ _ _ _ _ _ _ _ h2 q, rect_uiChainWalk _ _ _ _ _ _ _ _ _ _ h1 q,
    rect_modify_visited]

theorem rect_uiComputeSizeDimKids (dim : Nat) :
    ∀ (n : Nat) (c : UIcontext) (kid s : Int) (c' : UIcontext) (s' : Int),
      uiComputeSizeDimKids dim n c kid s = .ok (c', s') →
      ∀ q, (c'.get q).rect = (c.get q).rect := by
  intro n
  induction n with
  | zero => intro c kid s c' s' h; simp [uiComputeSizeDimKids] at h
  | succ n ih =>
    intro c kid s c' s' h q
    rcases uiComputeSizeDimKids_inv h with ⟨-, rfl, -⟩ | ⟨-, pk, -, hA⟩
    · rfl
    · rcases hA with ⟨-, c1, ch, h1, h2⟩ | ⟨-, h2⟩
      · rw [ih _ _ _ _ _ h2 q, rect_uiComputeChainSize h1 q]
      · exact ih _ _ _ _ _ h2 q

theorem rect_uiComputeSizeDim {n : Nat} {c : UIcontext} {p dim : Nat} {c' : UIcontext}
    (h : uiComputeSizeDim n c p dim = .ok c') (q : Nat) (hq : q ≠ p) :
    (c'.get q).rect = (c.get q).rect := by
  rcases uiComputeSizeDim_inv h with ⟨-, rfl⟩ | ⟨-, c1, size, h1, rfl⟩
  · rw [get_modify_ne _ _ _ _ hq]
  · rw [get_modify_ne _ _ _ _ hq, rect_uiComputeSizeDimKids _ _ _ _ _ _ _ h1 q]

theorem rect_uiComputeBestSize :
    ∀ (n : Nat),
      (∀ (c : UIcontext) (p : Nat) (ks : KTree) (c' : UIcontext),
        uiComputeBestSize n c (p : Int) = .ok c' → IsForest c (c.get p).firstkid ks →
        ∀ q, q ≠ p → q ∉ ks.indices → (c'.get q).rect = (c.get q).rect) ∧
      (∀ (c : UIcontext) (kid : Int) (t : KTree) (c' : UIcontext),
        uiComputeBestSizeKids n c kid = .ok c' → IsForest c kid t →
        ∀ q, q ∉ t.indices → (c'.get q).rect = (c.get q).rect) := by
  intro n
  induction n with
  | zero =>
    exact ⟨fun c p ks c' h => by simp [uiComputeBestSize] at h,
      fun c kid t c' h => by simp [uiComputeBestSizeKids] at h⟩
  | succ n ih =>
    constructor
    · intro c p ks c' h hf q hq hqk
      obtain ⟨p', c0, c1, c2, hp, h0, h1, h2, h3⟩ := uiComputeBestSize_inv h
      have ep : p = p' := by have := (uiItemPtr_ok hp).2.2.1; omega
      subst ep
      have d0 : c0.decl = c.decl := by
        rw [h0]; exact decl_modify _ _ _ (fun i => decl_visited i _)
      have hf0 : IsForest c0 (c0.get p).firstkid ks := by
        rw [firstkid_of_decl d0]; exact IsForest_of_decl d0 _ _ hf
      rw [rect_uiComputeSizeDim h3 q hq, rect_uiComputeSizeDim h2 q hq,
        ih.2 _ _ ks _ h1 hf0 q hqk, h0, rect_modify_visited]
    · intro c kid t c' h hf q hq
      cases t with
      | nil =>
        have hk0 : kid ≤ 0 := hf
        rcases uiComputeBestSizeKids_inv h with ⟨-, rfl⟩ | ⟨h0, -⟩
        · rfl
        · omega
      | node i kids next =>
        obtain ⟨hki, hi0, hic, hfk, hfn⟩ := hf
        rcases uiComputeBestSizeKids_inv h with ⟨h0, -⟩ | ⟨-, c1, h1, -, h2⟩
        · omega
        subst hki
        rw [Int.toNat_ofNat] at h2
        have d1 := (decl_uiComputeBestSize _).1 _ _ _ h1
        have f1 : IsForest c1 (c1.get i).nextitem next := by
          rw [nextitem_of_decl d1]; exact IsForest_of_decl d1 _ _ hfn
        simp only [KTree.indices, List.mem_cons, List.mem_append, not_or] at hq
        rw [ih.2 _ _ next _ h2 f1 q hq.2.2, ih.1 _ _ kids _ h1 hfk q hq.1 hq.2.1]

theorem Fresh.fresh_refl (S : Nat → Prop) (c : UIcontext) : Fresh S c c :=
  fun _ _ _ h1 h2 => absurd h2 h1

theorem Fresh.fresh_trans {S : Nat → Prop} {c0 c1 c2 : UIcontext} (h1 : Fresh S c0 c1)
    (h2 : Fresh S c1 c2) : Fresh S c0 c2 := by
  intro q dim hd a b
  by_cases hq : laidOut c1 q dim
  · exact h1 q dim hd a hq
  · exact h2 q dim hd hq b

theorem Fresh.fresh_weaken {S S' : Nat → Prop} {c c' : UIcontext} (h : Fresh S c c')
    (hs : ∀ q, S q → S' q) : Fresh S' c c' :=
  fun q dim hd a b => hs q (h q dim hd a b)

theorem Fresh.fresh_of_child {dim pp p : Nat} {c c' : UIcontext} {S : Nat → Prop} (hd : dim < 2)
    (h : ChildPost dim pp p c c') (hp : p < c.count)
    (hS : ∀ j, j < c.count → (c.get j).parent = (pp : Int) → S j) : Fresh S c c' := by
  obtain ⟨h1, h2, h3, h4, h5, h6, h7⟩ := h
  intro q d hd2 a b
  by_cases hne : d = dim
  · subst hne
    obtain ⟨x1, x2, -⟩ := h7 q a b
    exact hS q (by omega) x2
  · have hv : (c'.get q).view d = (c.get q).view d := get_view_of_view (h2 d hd2 hne) q
    exact absurd ((laidOut_of_view_eq hv).mp b) a

theorem fresh_dimKids (lfuel pitem dim : Nat) (hd : dim < 2) (S : Nat → Prop) :
    ∀ (fuel : Nat) (c : UIcontext) (kid : Int) (t : KTree) (c' : UIcontext),
      uiLayoutItemDimKids lfuel pitem dim fuel c kid = .ok c' → IsForest c kid t →
      (∀ k ∈ t.roots, (c.get k).parent = (pitem : Int)) → SiblingRefs c →
      (pitem = 0 ∨ laidOut c pitem dim) →
      (∀ j, j < c.count → (c.get j).parent = (pitem : Int) → S j) →
      Fresh S c c' := by
  intro fuel
  induction fuel with
  | zero => intro c kid t c' h; simp [uiLayoutItemDimKids] at h
  | succ n ih =>
    intro c kid t c' h hf hpar hs hpp hS
    rcases uiLayoutItemDimKids_inv h with ⟨hk, rfl⟩ | ⟨hk, pkid, c1, hp, h1, -, h2⟩
    · exact Fresh.fresh_refl _ _
    · cases t with
      | nil =>
        have : kid ≤ 0 := hf
        omega
      | node i kids next =>
        obtain ⟨e, h0, hi, hkids, hnext⟩ := hf
        obtain ⟨-, -, e2, -⟩ := uiItemPtr_ok hp
        have epk : pkid = i := by omega
        subst epk
        have hc := child_post lfuel c pitem pkid dim c1 h1 hs hd hi h0
          (hpar pkid (by simp [KTree.roots])) hpp
        have L1 := LStep.step_of_child hd hc
        have F1 : Fresh S c c1 := Fresh.fresh_of_child hd hc hi hS
        have hd1 : c1.decl = c.decl := hc.1
        rw [nextitem_of_decl hd1] at h2
        have hf1 : IsForest c1 (c.get pkid).nextitem next := IsForest_of_decl hd1 _ _ hnext
        have hpar1 : ∀ k ∈ next.roots, (c1.get k).parent = (pitem : Int) := by
          intro k hk
          rw [parent_of_decl hd1]
          exact hpar k (by simp [KTree.roots, hk])
        have hpp1 : pitem = 0 ∨ laidOut c1 pitem dim := by
          rcases hpp with hz | hz
          · exact Or.inl hz
          · exact Or.inr (L1.mono hd hz)
        have hS1 : ∀ j, j < c1.count → (c1.get j).parent = (pitem : Int) → S j := by
          intro j hj hp
          rw [count_of_decl hd1] at hj
          rw [parent_of_decl hd1] at hp
          exact hS j hj hp
        exact F1.fresh_trans (ih c1 _ next c' h2 hf1 hpar1 (SiblingRefs_of_decl hd1 hs) hpp1 hS1)

theorem fresh_layoutItem (lfuel : Nat) :
    ∀ (fuel : Nat),
      (∀ (c : UIcontext) (p : Nat) (ks : KTree) (c' : UIcontext),
        uiLayoutItem lfuel fuel c (p : Int) = .ok c' → IsForest c (c.get p).firstkid ks →
        ParentOK c p ks → SiblingRefs c → (p = 0 ∨ ∀ dim, dim < 2 → laidOut c p dim) →
        CompleteKids c p ks → CompleteBelow c ks →
        Fresh (fun q => q ∈ ks.indices) c c') ∧
      (∀ (c : UIcontext) (kid : Int) (p : Nat) (t : KTree) (c' : UIcontext),
        uiLayoutItemKids lfuel fuel c kid = .ok c' → IsForest c kid t →
        ParentOK c p t → SiblingRefs c → (∀ k ∈ t.roots, ∀ dim, dim < 2 → laidOut c k dim) →
        CompleteBelow c t →
        Fresh (fun q => q ∈ t.indices) c c') := by
  intro fuel
  induction fuel with
  | zero =>
    constructor
    · intro c p ks c' h; simp [uiLayoutItem] at h
    · intro c kid p t c' h; simp [uiLayoutItemKids] at h
  | succ n ih =>
    constructor
    · intro c p ks c' h hf hpo hs hpp hck hcb
      obtain ⟨p', c1, c2, hp, h1, h2, h3⟩ := uiLayoutItem_inv h
      obtain ⟨-, -, e2, hpc⟩ := uiItemPtr_ok hp
      have ep : p = p' := by omega
      subst ep
      have hpp0 : p = 0 ∨ laidOut c p 0 := by
        rcases hpp with hz | hz
        · exact Or.inl hz
        · exact Or.inr (hz 0 (by omega))
      obtain ⟨L1, r1⟩ := layoutDimKids_post lfuel p 0 (by omega) n c _ ks c1 h1 hf
        (ParentOK_roots ks p hpo) hs hpp0
      have F1 := fresh_dimKids lfuel p 0 (by omega) (fun q => q ∈ ks.indices) n c _ ks c1 h1 hf
        (ParentOK_roots ks p hpo) hs hpp0 (fun j hj hjp => roots_sub_indices _ j (hck j hj hjp))
      have hd1 : c1.decl = c.decl := L1.1
      have h2' : uiLayoutItemDimKids lfuel p 1 n c1 (c.get p).firstkid = .ok c2 := by
        rw [← firstkid_of_decl hd1 p]; exact h2
      have hpp1 : p = 0 ∨ laidOut c1 p 1 := by
        rcases hpp with hz | hz
        · exact Or.inl hz
        · exact Or.inr (L1.mono (by omega) (hz 1 (by omega)))
      obtain ⟨L2, r2⟩ := layoutDimKids_post lfuel p 1 (by omega) n c1 _ ks c2 h2'
        (IsForest_of_decl hd1 _ _ hf)
        (ParentOK_roots ks p (ParentOK_of_decl hd1 _ _ hpo)) (SiblingRefs_of_decl hd1 hs) hpp1
      have F2 := fresh_dimKids lfuel p 1 (by omega) (fun q => q ∈ ks.indices) n c1 _ ks c2 h2'
        (IsForest_of_decl hd1 _ _ hf)
        (ParentOK_roots ks p (ParentOK_of_decl hd1 _ _ hpo)) (SiblingRefs_of_decl hd1 hs) hpp1
        (fun j hj hjp => roots_sub_indices _ j
          (CompleteKids_of_decl hd1 hck j hj hjp))
      have L12 := L1.step_trans L2
      have hd2 : c2.decl = c.decl := L12.1
      have h3' : uiLayoutItemKids lfuel n c2 (c.get p).firstkid = .ok c' := by
        rw [← firstkid_of_decl hd2 p]; exact h3
      have hroots : ∀ k ∈ ks.roots, ∀ dim, dim < 2 → laidOut c2 k dim := by
        intro k hk dim hd
        have : dim = 0 ∨ dim = 1 := by omega
        rcases this with rfl | rfl
        · exact L2.mono (by omega) (r1 k hk)
        · exact r2 k hk
      have F3 := ih.2 c2 _ p ks c' h3' (IsForest_of_decl hd2 _ _ hf)
        (ParentOK_of_decl hd2 _ _ hpo) (SiblingRefs_of_decl hd2 hs) hroots
        (CompleteBelow_of_decl hd2 _ hcb)
      exact (F1.fresh_trans F2).fresh_trans F3
    · intro c kid p t c' h hf hpo hs hroots hcb
      rcases uiLayoutItemKids_inv h with ⟨hk, rfl⟩ | ⟨hk, c1, h1, -, h2⟩
      · exact Fresh.fresh_refl _ _
      · cases t with
        | nil =>
          have : kid ≤ 0 := hf
          omega
        | node i kids next =>
          obtain ⟨e, h0, hi, hkids, hnext⟩ := hf
          obtain ⟨hp1, hp2, hp3⟩ := hpo
          obtain ⟨hc1, hc2, hc3⟩ := hcb
          subst e
          have hpi : i = 0 ∨ ∀ dim, dim < 2 → laidOut c i dim :=
            Or.inr (fun dim hd => hroots i (by simp [KTree.roots]) dim hd)
          obtain ⟨L1, r1⟩ := (layoutItem_post lfuel n).1 c i kids c1 h1 hkids hp2 hs hpi
          have F1 := ih.1 c i kids c1 h1 hkids hp2 hs hpi hc1 hc2
          have hd1 : c1.decl = c.decl := L1.1
          have h2' : uiLayoutItemKids lfuel n c1 (c.get i).nextitem = .ok c' := by
            rw [← nextitem_of_decl hd1 i]
            simpa using h2
          have F2 := ih.2 c1 _ p next c' h2' (IsForest_of_decl hd1 _ _ hnext)
            (ParentOK_of_decl hd1 _ _ hp3) (SiblingRefs_of_decl hd1 hs)
            (fun k hk dim hd => L1.mono hd (hroots k (by simp [KTree.roots, hk]) dim hd))
            (CompleteBelow_of_decl hd1 _ hc3)
          refine (F1.fresh_weaken ?_).fresh_trans (F2.fresh_weaken ?_)
          · intro q hq
            simp only [KTree.indices, List.mem_cons, List.mem_append]
            exact Or.inr (Or.inl hq)
          · intro q hq
            simp only [KTree.indices, List.mem_cons, List.mem_append]
            exact Or.inr (Or.inr hq)

/-! ### The placement equations have one solution -/

theorem count_of_items {c c' : UIcontext} (h : c'.items = c.items) : c'.count = c.count := by
  unfold UIcontext.count; rw [h]

theorem IsForest_of_items {c c' : UIcontext} (h : c'.items = c.items) :
    ∀ (t : KTree) (kid : Int), IsForest c kid t → IsForest c' kid t := by
  intro t
  induction t with
  | nil => intro kid hf; exact hf
  | node i kids next ih1 ih2 =>
    intro kid hf
    obtain ⟨a1, a2, a3, a4, a5⟩ := hf
    refine ⟨a1, a2, by rw [count_of_items h]; exact a3, ?_, ?_⟩
    · rw [get_of_items h]; exact ih1 _ a4
    · rw [get_of_items h]; exact ih2 _ a5

theorem Hierarchy.of_items {c c' : UIcontext} {t : KTree} (h : c'.items = c.items)
    (hh : Hierarchy c t) : Hierarchy c' t :=
  ⟨by rw [count_of_items h]; exact hh.root,
    by rw [get_of_items h]; exact IsForest_of_items h _ _ hh.forest, hh.nodup⟩

theorem ParentOK_of_items {c c' : UIcontext} (h : c'.items = c.items) :
    ∀ (t : KTree) (p : Nat), ParentOK c p t → ParentOK c' p t := by
  intro t
  induction t with
  | nil => intro p _; trivial
  | node i kids next ih1 ih2 =>
    intro p hp
    obtain ⟨a1, a2, a3⟩ := hp
    exact ⟨by rw [get_of_items h]; exact a1, ih1 _ a2, ih2 _ a3⟩

theorem SiblingRefs_of_items {c c' : UIcontext} (h : c'.items = c.items)
    (hs : SiblingRefs c) : SiblingRefs c' := by
  intro i hi hp e he
  rw [count_of_items h] at hi
  simp only [get_of_items h] at hp ⊢
  exact hs i hi hp e he

theorem CompleteKids_of_items {c c' : UIcontext} (h : c'.items = c.items) {p : Nat}
    {ks : KTree} (hk : CompleteKids c p ks) : CompleteKids c' p ks := by
  intro j hj hp
  rw [count_of_items h] at hj
  rw [get_of_items h] at hp
  exact hk j hj hp

theorem CompleteBelow_of_items {c c' : UIcontext} (h : c'.items = c.items) :
    ∀ (t : KTree), CompleteBelow c t → CompleteBelow c' t := by
  intro t
  induction t with
  | nil => intro _; trivial
  | node i kids next ih1 ih2 =>
    intro hc
    exact ⟨CompleteKids_of_items h hc.1, ih1 hc.2.1, ih2 hc.2.2⟩

/-- `uiProcess` succeeds whenever the two solver passes do on a hierarchy; it returns the
items as the solver passes left them, and `hot_item` and `active_item` name live items
or none -/
theorem uiProcess_total_valid {c cl : UIcontext} {t : KTree} (h : Hierarchy c t)
    (hlay : uiProcessLayout c = .ok cl)
    (hh : c.hot_item < c.count) (ha : c.active_item < c.count) :
    ∃ c' evs, uiProcess c = .ok (c', evs) ∧ c'.items = cl.items ∧
      c'.hot_item < c'.count ∧ c'.active_item < c'.count ∧
      c'.cursor = c.cursor ∧ c'.buttons = c.buttons := by
  have hd := decl_uiProcessLayout hlay
  have hl := h.of_decl hd
  have hctx := ctx_of_decl hd
  have hcnt := count_of_decl hd
  obtain ⟨hot, hhit⟩ : ∃ hot, uiProcessHot cl = .ok hot :=
    ⟨_, uiFindItem_eq_hit cl 0 t _ _ (uiFuel cl) hl.root hl.forest hl.need_lt⟩
  obtain ⟨x1, -⟩ := hot_lt_of_hit hhit
  unfold UIcontext.count at hh ha hcnt
  obtain ⟨cs, evs, h1, h2, h3, h4, h5, h6⟩ := uiProcessState_total cl hot x1
    (by rw [hctx.2.2.2.2.2.2.2.1, hcnt]; exact hh)
    (by rw [hctx.2.2.2.2.2.2.2.2.1, hcnt]; exact ha)
  exact ⟨_, evs, uiProcess_eq hlay hhit h1 h3 h4, h2, h3, h4, h5.trans hctx.2.2.2.2.1,
    h6.trans hctx.1⟩

theorem rect_ext {a b : UIrect} (h : ∀ d, d < 4 → a.v d = b.v d) : a = b := by
  have h0 := h 0 (by omega)
  have h1 := h 1 (by omega)
  have h2 := h 2 (by omega)
  have h3 := h 3 (by omega)
  simp only [UIrect.v] at h0 h1 h2 h3
  simp at h0 h1 h2 h3
  cases a; cases b
  simp_all

theorem placedAt_unique {dim : Nat} {i1 i2 nl1 nl2 nr1 nr2 pp1 pp2 : UIitem}
    (hd : i1.decl = i2.decl)
    (hl : uiFollowL i1 dim → Agree dim nl1 nl2)
    (hr : uiFollowR i1 dim → nr1.rect.v dim = nr2.rect.v dim)
    (hp : pp1.rect.v (dim + 2) = pp2.rect.v (dim + 2))
    (hw : Int.land (i1.layout_flags >>> dim) UI_HFILL ≠ UI_HFILL →
      i1.rect.v (dim + 2) = i2.rect.v (dim + 2))
    (h1 : PlacedAt dim i1 nl1 nr1 pp1) (h2 : PlacedAt dim i2 nl2 nr2 pp2) :
    Agree dim i1 i2 := by
  have hf := decl_fields hd
  have eL : spanL dim i1 nl1 = spanL dim i2 nl2 := by
    unfold spanL
    by_cases h : uiFollowL i1 dim
    · rw [if_pos h, if_pos ((uiFollowL_congr hd dim).mp h), (hl h).1, (hl h).2]
    · rw [if_neg h, if_neg (fun x => h ((uiFollowL_congr hd dim).mpr x))]
  have eW : spanW dim i1 nl1 nr1 pp1 = spanW dim i2 nl2 nr2 pp2 := by
    unfold spanW
    by_cases h : uiFollowR i1 dim
    · rw [if_pos h, if_pos ((uiFollowR_congr hd dim).mp h), hr h, eL]
    · rw [if_neg h, if_neg (fun x => h ((uiFollowR_congr hd dim).mpr x))]
      by_cases h' : uiFollowL i1 dim
      · rw [if_pos h', if_pos ((uiFollowL_congr hd dim).mp h'), hp, eL]
      · rw [if_neg h', if_neg (fun x => h' ((uiFollowL_congr hd dim).mpr x)), hp]
  unfold PlacedAt at h1 h2
  rw [← hf.1, ← hf.2.2.1, ← eL, ← eW] at h2
  unfold PlaceEq at h1 h2
  unfold Agree
  split_ifs at h1 h2 with c1 c2 c3
  · have := hw (by rw [c1]; decide)
    exact ⟨by rw [h1, h2], this⟩
  · have := hw (by rw [c2]; decide)
    exact ⟨by rw [h1, h2, this], this⟩
  · exact ⟨by rw [h1.1, h2.1], by rw [h1.2, h2.2]⟩
  · have := hw c3
    exact ⟨by rw [h1, h2, this], this⟩

theorem agree_roots {dim : Nat} (hdim : dim < 2) {l1 l2 : UIcontext} {p : Nat} {ks : KTree}
    (hdecl : ∀ q, (l1.get q).decl = (l2.get q).decl)
    (hpar : ∀ k ∈ ks.roots, (l1.get k).parent = (p : Int))
    (hrange : ∀ k ∈ ks.roots, k < l1.count)
    (hs : SiblingRefs l1) (hck : CompleteKids l1 p ks)
    (hP1 : ∀ k ∈ ks.roots, Placed l1 k dim) (hP2 : ∀ k ∈ ks.roots, Placed l2 k dim)
    (hw : ∀ k ∈ ks.roots, Int.land ((l1.get k).layout_flags >>> dim) UI_HFILL ≠ UI_HFILL →
      (l1.get k).rect.v (dim + 2) = (l2.get k).rect.v (dim + 2))
    (hpp : (l1.get p).rect.v (dim + 2) = (l2.get p).rect.v (dim + 2)) :
    ∀ k ∈ ks.roots, Agree dim (l1.get k) (l2.get k) := by
  have main : ∀ n k, k < n → k ∈ ks.roots → Agree dim (l1.get k) (l2.get k) := by
    intro n
    induction n with
    | zero => intro k hk; omega
    | succ n ih =>
      intro k hk hkr
      have hf := decl_fields (hdecl k)
      have e1 : l2.nl k dim = l1.nl k dim := by unfold UIcontext.nl; rw [hf.2.1]
      have e2 : l2.nr k dim = l1.nr k dim := by unfold UIcontext.nr; rw [hf.2.1]
      have e3 : l2.par k = l1.par k := by unfold UIcontext.par; rw [hf.2.2.2.1]
      have e4 : l1.par k = p := by unfold UIcontext.par; rw [hpar k hkr]; simp
      have q1 := (hP1 k hkr).2.2.2
      have q2 := (hP2 k hkr).2.2.2
      rw [e1, e2, e3] at q2
      rw [e4] at q1 q2
      have nb : ∀ e, e < 4 → (l1.get k).relto.v e > 0 →
          Agree dim (l1.get ((l1.get k).relto.v e).toNat)
            (l2.get ((l1.get k).relto.v e).toNat) := by
        intro e he hr
        rcases hs k (hrange k hkr) (by rw [hpar k hkr]; omega) e he with h1 | ⟨h1, h2, h3⟩
        · omega
        · apply ih
          · omega
          · apply hck
            · have := hrange k hkr; omega
            · rw [h3, hpar k hkr]
      refine placedAt_unique (hdecl k) ?_ ?_ hpp (hw k hkr) q1 q2
      · intro hfl; exact nb dim (by omega) hfl.2
      · intro hfr; exact (nb (dim + 2) (by omega) hfr.2).1
  intro k hk
  exact main (k + 1) k (by omega) hk

theorem agree_tree {dim : Nat} (hdim : dim < 2) {l1 l2 : UIcontext}
    (hdecl : ∀ q, (l1.get q).decl = (l2.get q).decl) (hs : SiblingRefs l1) :
    ∀ (t : KTree) (kid : Int) (p : Nat), IsForest l1 kid t → ParentOK l1 p t →
      CompleteBelow l1 t →
      (∀ q ∈ t.indices, Placed l1 q dim ∧ Placed l2 q dim ∧
        (Int.land ((l1.get q).layout_flags >>> dim) UI_HFILL ≠ UI_HFILL →
          (l1.get q).rect.v (dim + 2) = (l2.get q).rect.v (dim + 2))) →
      (∀ k ∈ t.roots, Agree dim (l1.get k) (l2.get k)) →
      ∀ q ∈ t.indices, Agree dim (l1.get q) (l2.get q) := by
  intro t
  induction t with
  | nil => intro kid p _ _ _ _ _ q hq; simp [KTree.indices] at hq
  | node i kids next ih1 ih2 =>
    intro kid p hf hpo hcb hall hroots q hq
    obtain ⟨-, -, -, hfk, hfn⟩ := hf
    obtain ⟨-, hp2, hp3⟩ := hpo
    obtain ⟨hc1, hc2, hc3⟩ := hcb
    have hi := hroots i (by simp [KTree.roots])
    have hallk : ∀ q ∈ kids.indices, Placed l1 q dim ∧ Placed l2 q dim ∧
        (Int.land ((l1.get q).layout_flags >>> dim) UI_HFILL ≠ UI_HFILL →
          (l1.get q).rect.v (dim + 2) = (l2.get q).rect.v (dim + 2)) :=
      fun q hq => hall q (by simp [KTree.indices, hq])
    have hkr := agree_roots hdim hdecl (ParentOK_roots kids i hp2)
      (fun k hk => (IsForest_range kids _ hfk k (roots_sub_indices _ k hk)).2) hs hc1
      (fun k hk => (hallk k (roots_sub_indices _ k hk)).1)
      (fun k hk => (hallk k (roots_sub_indices _ k hk)).2.1)
      (fun k hk => (hallk k (roots_sub_indices _ k hk)).2.2) hi.2
    simp only [KTree.indices, List.mem_cons, List.mem_append] at hq
    rcases hq with hq | hq | hq
    · rw [hq]; exact hi
    · exact ih1 _ i hfk hp2 hc2 hallk hkr q hq
    · exact ih2 _ p hfn hp3 hc3 (fun q hq => hall q (by simp [KTree.indices, hq]))
        (fun k hk => hroots k (by simp [KTree.roots, hk])) q hq

/-! ### Idempotence of layout (C1) -/

theorem root_place_get (s : UIcontext) (q : Nat) :
    (((s.modify 0 (fun i => { i with rect := { i.rect with x := i.margins.v 0 } })).modify 0
        (fun i => { i with rect := { i.rect with y := i.margins.v 1 } })).get q).rect =
      if q = 0 ∧ 0 < s.count then
        { (s.get 0).rect with x := (s.get 0).margins.v 0, y := (s.get 0).margins.v 1 }
      else (s.get q).rect := by
  rw [get_modify, count_modify]
  by_cases h : q = 0 ∧ 0 < s.count
  · rw [if_pos h, if_pos h, get_modify_self _ _ _ h.2]
  · rw [if_neg h, if_neg h, get_modify, if_neg h]

/-- what one run of the two solver passes does to the rects -/
theorem layout_run {c cl : UIcontext} {t : KTree} (h : Hierarchy c t) (hpo : ParentOK c 0 t)
    (hs : SiblingRefs c) (hck : CompleteKids c 0 t) (hcb : CompleteBelow c t)
    (hlay : uiProcessLayout c = .ok cl) :
    ∃ s, uiComputeBestSize (uiFuel c) c 0 = .ok s ∧
      (cl.get 0).rect.v 0 = (c.get 0).margins.v 0 ∧
      (cl.get 0).rect.v 1 = (c.get 0).margins.v 1 ∧
      (∀ d, d < 2 → (cl.get 0).rect.v (d + 2) = (s.get 0).rect.v (d + 2)) ∧
      (∀ q ∈ t.indices, ∀ dim, dim < 2 → Placed cl q dim) ∧
      (∀ (q dim : Nat), dim < 2 →
        Int.land ((c.get q).layout_flags >>> dim) UI_HFILL ≠ UI_HFILL →
        (cl.get q).rect.v (dim + 2) = (s.get q).rect.v (dim + 2)) ∧
      (∀ q, q ≠ 0 → q ∉ t.indices → (cl.get q).rect = (c.get q).rect) := by
  obtain ⟨s, r, h1, hroot, hr, h3⟩ := uiProcessLayout_inv hlay
  have d1 : s.decl = c.decl := (decl_uiComputeBestSize _).1 _ _ _ h1
  obtain ⟨n1, r1⟩ := (noLay_uiComputeBestSize (uiFuel c)).1 c 0 t s h1 h.forest
  have d2 : r.decl = c.decl := by
    rw [hr, decl_modify _ _ _ (fun i => decl_rect i _),
      decl_modify _ _ _ (fun i => decl_rect i _), d1]
  have n2 : NoLay s r := by
    rw [hr]
    exact (noLay_rect s 0 _).nolay_trans (noLay_rect _ 0 _)
  have h2 := h.of_decl d2
  obtain ⟨L, r3⟩ := (layoutItem_post (uiFuel r) (uiFuel r)).1 r 0 t cl h3 h2.forest
    (ParentOK_of_decl d2 _ _ hpo) (SiblingRefs_of_decl d2 hs) (Or.inl rfl)
  have F := (fresh_layoutItem (uiFuel r) (uiFuel r)).1 r 0 t cl h3 h2.forest
    (ParentOK_of_decl d2 _ _ hpo) (SiblingRefs_of_decl d2 hs) (Or.inl rfl)
    (CompleteKids_of_decl d2 hck) (CompleteBelow_of_decl d2 _ hcb)
  have K := (keepsExtents_layoutItem (uiFuel r) (uiFuel r)).1 r 0 cl h3
  have hrq : ∀ q, (r.get q).rect =
      if q = 0 ∧ 0 < s.count then
        { (s.get 0).rect with x := (s.get 0).margins.v 0, y := (s.get 0).margins.v 1 }
      else (s.get q).rect := by
    intro q; rw [hr]; exact root_place_get s q
  have hext : ∀ q d, d < 2 → (r.get q).rect.v (d + 2) = (s.get q).rect.v (d + 2) := by
    intro q d hd
    rw [hrq q]
    split
    · rename_i hq
      rw [hq.1]
      have : d = 0 ∨ d = 1 := by omega
      rcases this with rfl | rfl <;> simp [UIrect.v]
    · rfl
  have hm : (s.get 0).margins = (c.get 0).margins := (decl_fields (get_decl_of_decl d1 0)).2.2.1
  have hr0 := hrq 0
  rw [if_pos ⟨rfl, hroot⟩, hm] at hr0
  refine ⟨s, h1, ?_, ?_, ?_, ?_, ?_, ?_⟩
  · rw [L.2.1, hr0]; simp [UIrect.v]
  · rw [L.2.1, hr0]; simp [UIrect.v]
  · intro d hd
    rw [L.2.1]; exact hext 0 d hd
  · intro q hq dim hd
    exact (L.2.2 dim hd).2.2 q (n2 q dim hd (r1 q (Or.inr hq) dim hd)) (r3 q hq dim hd)
  · intro q dim hd hq
    rw [← hext q dim hd]
    apply K dim hd q
    rw [(decl_fields (get_decl_of_decl d2 q)).1]
    exact hq
  · intro q hq0 hqt
    have e1 : (s.get q).rect = (c.get q).rect :=
      (rect_uiComputeBestSize (uiFuel c)).1 c 0 t s h1 h.forest q hq0 hqt
    have e2 : (r.get q).rect = (s.get q).rect := by
      rw [hrq q, if_neg (fun hx => hq0 hx.1)]
    rw [← e1, ← e2]
    have hv : ∀ dim, dim < 2 → (cl.get q).view dim = (r.get q).view dim := by
      intro dim hd
      by_cases ha : laidOut r q dim
      · exact (L.2.2 dim hd).1 q ha
      · by_cases hb : laidOut cl q dim
        · exact absurd (F q dim hd ha hb) hqt
        · exact (L.2.2 dim hd).2.1 q hb
    apply rect_ext
    intro d hd
    have : d = 0 ∨ d = 1 ∨ d = 0 + 2 ∨ d = 1 + 2 := by omega
    rcases this with rfl | rfl | rfl | rfl
    · exact (view_fields (hv 0 (by omega))).1
    · exact (view_fields (hv 1 (by omega))).1
    · exact (view_fields (hv 0 (by omega))).2.1
    · exact (view_fields (hv 1 (by omega))).2.1

theorem uiGetRect_of_items {c c' : UIcontext} (hc : c'.count = c.count)
    (hr : ∀ q, q < c.count → (c'.get q).rect = (c.get q).rect) (i : Int) :
    uiGetRect c' i = uiGetRect c i := by
  by_cases hv : 0 ≤ i ∧ i < c.count
  · rw [uiGetRect_valid hv.1 hv.2, uiGetRect_valid hv.1 (by rw [hc]; exact hv.2),
      hr _ (by omega)]
  · unfold uiGetRect uiItemPtr
    rw [hc, if_neg hv]
    rfl

/-- two runs of the solver passes on contexts with the same declarations, whose neighbor
references are earlier siblings, give every item of the hierarchy the same rect -/
theorem layout_runs_agree {c c1 cl1 cl2 : UIcontext} {t : KTree} (h : Hierarchy c t)
    (hpo : ParentOK c 0 t) (hs : SiblingRefs c) (hck : CompleteKids c 0 t)
    (hcb : CompleteBelow c t)
    (hcnt : c1.count = c.count) (hdq : ∀ q, (c.get q).decl = (c1.get q).decl)
    (H1 : Hierarchy c1 t) (hpo1 : ParentOK c1 0 t) (hs1 : SiblingRefs c1)
    (hck1 : CompleteKids c1 0 t) (hcb1 : CompleteBelow c1 t)
    (hl1 : uiProcessLayout c = .ok cl1) (hl2 : uiProcessLayout c1 = .ok cl2) :
    ∀ q, q = 0 ∨ q ∈ t.indices → (cl2.get q).rect = (cl1.get q).rect := by
  obtain ⟨s1, hz1, a1, a2, a3, a4, a5, -⟩ := layout_run h hpo hs hck hcb hl1
  obtain ⟨s2, hz2, b1, b2, b3, b4, b5, -⟩ := layout_run H1 hpo1 hs1 hck1 hcb1 hl2
  have hfuel : uiFuel c1 = uiFuel c := by unfold uiFuel; rw [hcnt]
  rw [hfuel] at hz2
  have R0 : SRel (fun _ => False) (fun _ _ => False) c c1 :=
    ⟨hcnt.symm, hdq, fun _ hq => absurd hq id, fun _ _ _ hq => absurd hq id⟩
  have R := (rel_uiComputeBestSize (uiFuel c)).1 c c1 0 t s1 s2 _ _ R0 h.forest
    (ChainClosed_of_complete h.forest hpo hs hck)
    (ClosedBelow_of_complete hs t _ 0 h.forest hpo hcb) hz1 hz2
  have dl1 := decl_uiProcessLayout hl1
  have dl2 := decl_uiProcessLayout hl2
  have hdl : ∀ q, (cl1.get q).decl = (cl2.get q).decl := by
    intro q
    rw [get_decl_of_decl dl1 q, get_decl_of_decl dl2 q]; exact hdq q
  have hsz : ∀ q, q = 0 ∨ q ∈ t.indices → ∀ d, d < 2 →
      (s1.get q).rect.v (d + 2) = (s2.get q).rect.v (d + 2) :=
    fun q hq d hd => R.2.2.2 d q hd (Or.inr hq)
  have hroot : ∀ dim, dim < 2 → Agree dim (cl1.get 0) (cl2.get 0) := by
    intro dim hd
    refine ⟨?_, ?_⟩
    · have : dim = 0 ∨ dim = 1 := by omega
      rcases this with rfl | rfl
      · rw [a1, b1, (decl_fields (hdq 0)).2.2.1]
      · rw [a2, b2, (decl_fields (hdq 0)).2.2.1]
    · rw [a3 dim hd, b3 dim hd]; exact hsz 0 (Or.inl rfl) dim hd
  have hall : ∀ dim, dim < 2 → ∀ q ∈ t.indices, Placed cl1 q dim ∧ Placed cl2 q dim ∧
      (Int.land ((cl1.get q).layout_flags >>> dim) UI_HFILL ≠ UI_HFILL →
        (cl1.get q).rect.v (dim + 2) = (cl2.get q).rect.v (dim + 2)) := by
    intro dim hd q hq
    refine ⟨a4 q hq dim hd, b4 q hq dim hd, ?_⟩
    intro hnf
    have f1 : Int.land ((c.get q).layout_flags >>> dim) UI_HFILL ≠ UI_HFILL := by
      rw [← (decl_fields (get_decl_of_decl dl1 q)).1]; exact hnf
    have f2 : Int.land ((c1.get q).layout_flags >>> dim) UI_HFILL ≠ UI_HFILL := by
      rw [← (decl_fields (hdq q)).1]; exact f1
    rw [a5 q dim hd f1, b5 q dim hd f2]
    exact hsz q (Or.inr hq) dim hd
  have Hl1 := h.of_decl dl1
  have hsl1 := SiblingRefs_of_decl dl1 hs
  have hagree : ∀ dim, dim < 2 → ∀ q, q = 0 ∨ q ∈ t.indices →
      Agree dim (cl1.get q) (cl2.get q) := by
    intro dim hd q hq
    rcases hq with rfl | hq
    · exact hroot dim hd
    · have hroots := agree_roots hd hdl (ParentOK_roots t 0 (ParentOK_of_decl dl1 _ _ hpo))
        (fun k hk => (IsForest_range t _ Hl1.forest k (roots_sub_indices _ k hk)).2) hsl1
        (CompleteKids_of_decl dl1 hck)
        (fun k hk => (hall dim hd k (roots_sub_indices _ k hk)).1)
        (fun k hk => (hall dim hd k (roots_sub_indices _ k hk)).2.1)
        (fun k hk => (hall dim hd k (roots_sub_indices _ k hk)).2.2) (hroot dim hd).2
      exact agree_tree hd hdl hsl1 t _ 0 Hl1.forest (ParentOK_of_decl dl1 _ _ hpo)
        (CompleteBelow_of_decl dl1 _ hcb) (hall dim hd) hroots q hq
  intro q hq
  apply rect_ext
  intro d hd
  have : d = 0 ∨ d = 1 ∨ d = 0 + 2 ∨ d = 1 + 2 := by omega
  rcases this with rfl | rfl | rfl | rfl
  · exact (hagree 0 (by omega) q hq).1.symm
  · exact (hagree 1 (by omega) q hq).1.symm
  · exact (hagree 0 (by omega) q hq).2.symm
  · exact (hagree 1 (by omega) q hq).2.symm

/-- C1, amended: idempotence of layout when every neighbor reference is `-1` or an
earlier-created sibling. Take a context whose items below the root form the tree `t`
(`Hierarchy`), in which every item of `t` carries its tree parent in `parent` (`ParentOK`),
every live item naming the root or an item of `t` as parent is in the child list of that item
(`CompleteKids`, `CompleteBelow`), and every neighbor reference of an attached item is `-1`
or an earlier-created item with the same parent (`SiblingRefs`). Then `uiProcess` succeeds,
a second `uiProcess` on its result (same cursor, same buttons, nothing declared in between)
succeeds too, and `uiGetRect` of every item is the same after the second call as after the
first. -/
theorem layout_idempotent (c : UIcontext) (t : KTree) (h : Hierarchy c t)
    (hpo : ParentOK c 0 t) (hck : CompleteKids c 0 t) (hcb : CompleteBelow c t)
    (hs : SiblingRefs c) (hc : c.count ≤ UI_MAX_ITEMS)
    (hh : c.hot_item < c.count) (ha : c.active_item < c.count) :
    ∃ c1 e1 c2 e2, uiProcess c = .ok (c1, e1) ∧ uiProcess c1 = .ok (c2, e2) ∧
      c1.cursor = c.cursor ∧ c1.buttons = c.buttons ∧
      ∀ i, uiGetRect c2 i = uiGetRect c1 i := by
  obtain ⟨cl1, hl1, d1, -⟩ := uiProcessLayout_placed c t h hpo hs hc
  obtain ⟨c1, e1, hp1, hi1, hh1, ha1, hcur⟩ := uiProcess_total_valid h hl1 hh ha
  have hcnt1 : c1.count = c.count := by rw [count_of_items hi1, count_of_decl d1]
  have hdq : ∀ q, (c.get q).decl = (c1.get q).decl := by
    intro q; rw [get_of_items hi1, get_decl_of_decl d1 q]
  have H1 : Hierarchy c1 t := (h.of_decl d1).of_items hi1
  have hpo1 : ParentOK c1 0 t := ParentOK_of_items hi1 _ _ (ParentOK_of_decl d1 _ _ hpo)
  have hs1 : SiblingRefs c1 := SiblingRefs_of_items hi1 (SiblingRefs_of_decl d1 hs)
  have hck1 : CompleteKids c1 0 t := CompleteKids_of_items hi1 (CompleteKids_of_decl d1 hck)
  have hcb1 : CompleteBelow c1 t := CompleteBelow_of_items hi1 _ (CompleteBelow_of_decl d1 _ hcb)
  obtain ⟨cl2, hl2, d2, -⟩ := uiProcessLayout_placed c1 t H1 hpo1 hs1 (by rw [hcnt1]; exact hc)
  obtain ⟨c2, e2, hp2, hi2, -⟩ := uiProcess_total_valid H1 hl2 hh1 ha1
  have hag := layout_runs_agree h hpo hs hck hcb hcnt1 hdq H1 hpo1 hs1 hck1 hcb1 hl1 hl2
  obtain ⟨-, -, -, -, -, -, -, fr⟩ := layout_run H1 hpo1 hs1 hck1 hcb1 hl2
  refine ⟨c1, e1, c2, e2, hp1, hp2, hcur.1, hcur.2, ?_⟩
  apply uiGetRect_of_items
  · rw [count_of_items hi2, count_of_decl d2]
  · intro q _
    rw [get_of_items hi2]
    by_cases hq : q = 0 ∨ q ∈ t.indices
    · rw [hag q hq, get_of_items hi1]
    · rw [not_or] at hq
      exact fr q hq.1 hq.2

/-! ### The examples (C3) and the theorems at the examples -/

theorem land_left_bit (f : Int) (h : Int.land f UI_HFILL = UI_LEFT) :
    Int.land f UI_LEFT ≠ 0 := by
  have h0 := congrArg (fun x => Int.testBit x 0) h
  simp only [Int.testBit_land] at h0
  have t50 : Int.testBit UI_HFILL 0 = true := by decide
  have t10 : Int.testBit UI_LEFT 0 = true := by decide
  rw [t50, t10] at h0
  simp only [Bool.and_true] at h0
  intro hz
  have := congrArg (fun x => Int.testBit x 0) hz
  simp only [Int.testBit_land, h0] at this
  revert this
  decide

/-- an item anchored at its near edge only, with a near neighbor, starts at the far edge of
that neighbor plus its own near margin -/
theorem placed_left {c cl : UIcontext} {k dim : Nat} (hd : cl.decl = c.decl)
    (hsel : Int.land ((c.get k).layout_flags >>> dim) UI_HFILL = UI_LEFT)
    (hrel : 0 < (c.get k).relto.v dim) (hp : Placed cl k dim) :
    (cl.get k).rect.v dim =
      (cl.get ((c.get k).relto.v dim).toNat).rect.v dim +
        (cl.get ((c.get k).relto.v dim).toNat).rect.v (dim + 2) + (c.get k).margins.v dim := by
  have hdk := decl_fields (get_decl_of_decl hd k)
  obtain ⟨-, -, -, h4⟩ := hp
  unfold PlacedAt PlaceEq at h4
  rw [hdk.1, hsel, hdk.2.2.1] at h4
  rw [if_pos rfl] at h4
  have fl : uiFollowL (cl.get k) dim := by
    unfold uiFollowL
    rw [hdk.1, hdk.2.1]
    exact ⟨land_left_bit _ hsel, hrel⟩
  unfold spanL UIcontext.nl at h4
  rw [if_pos fl, hdk.2.1] at h4
  exact h4

/-- what `uiProcess` computes for the chain example -/
theorem chain_example_rects :
    ∃ c' evs, uiProcess chainEx = .ok (c', evs) ∧ (c'.get 1).rect.w = 30 ∧
      (c'.get 2).rect.w = 10 ∧
      (c'.get 3).rect.x = (c'.get 2).rect.x + (c'.get 2).rect.w := by
  have H : Hierarchy chainEx chainTree := ⟨by decide, by decide, by decide⟩
  have hpo : ParentOK chainEx 0 chainTree := by decide
  have hs : SiblingRefs chainEx := by decide
  obtain ⟨cl, hl, hd, hpl⟩ := uiProcessLayout_placed chainEx chainTree H hpo hs (by decide)
  obtain ⟨c', evs, hp, hi, -⟩ := uiProcess_total_valid H hl (by decide) (by decide)
  obtain ⟨s, hs1, -, -, -, -, a5, -⟩ := layout_run H hpo hs (by decide) (by decide) hl
  have e : (uiComputeBestSize (uiFuel chainEx) chainEx 0).map
      (fun s => ((s.get 1).rect.v 2, (s.get 2).rect.v 2)) = .ok (30, 10) := by decide
  rw [hs1] at e
  have e1 : (s.get 1).rect.v 2 = 30 ∧ (s.get 2).rect.v 2 = 10 := by
    simpa [Except.map] using e
  have w1 := a5 1 0 (by decide) (by decide)
  have w2 := a5 2 0 (by decide) (by decide)
  have x3 := @placed_left chainEx cl 3 0 hd (by decide) (by decide)
    (hpl 3 (by decide) 0 (by decide))
  have r3 : ((chainEx.get 3).relto.v 0).toNat = 2 := by decide
  have m3 : (chainEx.get 3).margins.v 0 = 0 := by decide
  rw [r3, m3] at x3
  refine ⟨c', evs, hp, ?_, ?_, ?_⟩
  · rw [get_of_items hi]
    have : (cl.get 1).rect.v 2 = 30 := by rw [w1]; exact e1.1
    simpa [UIrect.v] using this
  · rw [get_of_items hi]
    have : (cl.get 2).rect.v 2 = 10 := by rw [w2]; exact e1.2
    simpa [UIrect.v] using this
  · simp only [get_of_items hi]
    simpa [UIrect.v] using x3

/-- C3 as stated fails: in the chain example the width of the parent is below 32, and B
does not start at `A.x + A.w + 2`. -/
theorem chain_example_refuted :
    ∃ c c' evs, uiCalls (uiMakeCurrent uiCreateContext) chainCalls = .ok c ∧
      uiProcess c = .ok (c', evs) ∧ (c'.get 1).rect.w < 32 ∧
      (c'.get 3).rect.x ≠ (c'.get 2).rect.x + (c'.get 2).rect.w + 2 := by
  obtain ⟨c', evs, h, h1, h2, h3⟩ := chain_example_rects
  exact ⟨chainEx, c', evs, by decide, h, by omega, by omega⟩

/-- C3, amended: in the chain example (auto-sized parent 1; A = item 2 of width 10 with right
margin 2; B = item 3 of width 20 with left margin 0, anchored left, left neighbor A)
`uiProcess` succeeds, the parent gets the width 30, which is the width of A plus the width
of B without the right margin of A, and B starts at the far edge of A plus its own left
margin: `B.x = A.x + A.w + 0`. -/
theorem chain_example :
    ∃ c c' evs, uiCalls (uiMakeCurrent uiCreateContext) chainCalls = .ok c ∧
      uiProcess c = .ok (c', evs) ∧ (c'.get 1).rect.w = 30 ∧
      (c'.get 3).rect.x = (c'.get 2).rect.x + (c'.get 2).rect.w + (c.get 3).margins.v0 := by
  obtain ⟨c', evs, h, h1, h2, h3⟩ := chain_example_rects
  have m : (chainEx.get 3).margins.v0 = 0 := by decide
  exact ⟨chainEx, c', evs, by decide, h, h1, by rw [m]; omega⟩

/-- C1 as stated fails. The child of `growEx` names the root, an item created earlier
that is not its sibling, as left neighbor. Both calls of `uiProcess` succeed, with the same
cursor and buttons, and the width of the root is 10 after the first call and 20 after the
second. -/
theorem layout_not_idempotent :
    uiCalls (uiMakeCurrent uiCreateContext) growCalls = .ok growEx ∧
    uiProcess growEx = .ok (growOnce, []) ∧ uiProcess growOnce = .ok (growTwice, []) ∧
    growOnce.cursor = growEx.cursor ∧ growOnce.buttons = growEx.buttons ∧
    uiGetRect growOnce 0 = .ok ⟨0, 0, 10, 10⟩ ∧ uiGetRect growTwice 0 = .ok ⟨0, 0, 20, 10⟩ :=
  ⟨by decide, by decide, by decide, by decide, by decide, by decide, by decide⟩

/-- C1, amended, at the chain example: the hypotheses of `layout_idempotent` hold for
`chainEx`, the context declared by `chainCalls`. -/
theorem layout_idempotent_witness :
    uiCalls (uiMakeCurrent uiCreateContext) chainCalls = .ok chainEx ∧
    ∃ c1 e1 c2 e2, uiProcess chainEx = .ok (c1, e1) ∧ uiProcess c1 = .ok (c2, e2) ∧
      c1.cursor = chainEx.cursor ∧ c1.buttons = chainEx.buttons ∧
      ∀ i, uiGetRect c2 i = uiGetRect c1 i :=
  ⟨by decide, layout_idempotent chainEx chainTree ⟨by decide, by decide, by decide⟩
    (by decide) (by decide) (by decide) (by decide) (by decide) (by decide) (by decide)⟩

/-- C2 at the fill example: a fill child without neighbors, with left margin 2 and right
margin 3, in a parent of width 100 gets `rect.x = 2` and `rect.w = 95`. -/
theorem fill_placement_witness :
    uiCalls (uiMakeCurrent uiCreateContext) fillCalls = .ok fillEx ∧
    ∃ c' evs, uiProcess fillEx = .ok (c', evs) ∧ (c'.get 0).rect.w = 100 ∧
      (c'.get 1).rect.x = 2 ∧ (c'.get 1).rect.w = 95 := by
  obtain ⟨c', evs, h, hk⟩ := fill_placement fillEx oneChild ⟨by decide, by decide, by decide⟩
    (by decide) (by decide) (by decide) (by decide) (by decide)
  have e : (uiProcess fillEx).map (fun r => (r.1.get 0).rect.v 2) = .ok 100 := by decide
  rw [h] at e
  have e0 : (c'.get 0).rect.v 2 = 100 := by simpa [Except.map] using e
  obtain ⟨k1, k2⟩ := hk 1 (by decide) 0 (by decide) (by decide)
  have n1 : nearEdge fillEx c' 1 0 = 0 := by
    unfold nearEdge; rw [if_pos (by decide)]
  have f1 : farEdge fillEx c' 1 0 = (c'.get 0).rect.v 2 := by
    unfold farEdge; rw [if_pos (by decide)]; rfl
  have m1 : (fillEx.get 1).margins.v 0 = 2 := by decide
  have m2 : (fillEx.get 1).margins.v (0 + 2) = 3 := by decide
  rw [n1, m1] at k1
  rw [n1, f1, m1, m2, e0] at k2
  refine ⟨by decide, c', evs, h, ?_, ?_, ?_⟩
  · simpa [UIrect.v] using e0
  · simpa [UIrect.v] using k1
  · simpa [UIrect.v] using k2

/-- C4 at the pointer example: with root rect (0, 0, 100, 100) and one child with rect
(10, 10, 20, 20), the point (15, 15) hits the child, item 1, and the point (50, 50) hits the
root. -/
theorem hit_test_priority_witness :
    uiGetRect idleEx 0 = .ok ⟨0, 0, 100, 100⟩ ∧ uiGetRect idleEx 1 = .ok ⟨10, 10, 20, 20⟩ ∧
    uiFindItem (uiFuel idleEx) idleEx 0 15 15 = .ok 1 ∧
    uiFindItem (uiFuel idleEx) idleEx 0 50 50 = .ok 0 :=
  ⟨by decide, by decide,
    (hit_test_priority idleEx 0 oneChild 15 15 (uiFuel idleEx) (by decide) (by decide)
      (by decide) (by decide)).trans (by decide),
    by decide⟩

/-- C5 at the pointer example: with root rect (0, 0, 100, 100) the point (200, 200) hits
nothing. -/
theorem hit_test_none_witness :
    uiGetRect idleEx 0 = .ok ⟨0, 0, 100, 100⟩ ∧
    uiFindItem (uiFuel idleEx) idleEx 0 200 200 = .ok (-1) := by
  obtain ⟨r, h, hiff⟩ := hit_test_none_iff_outside_root idleEx oneChild
    ⟨by decide, by decide, by decide⟩ 200 200
  have hr : r = -1 := hiff.mpr (by decide)
  rw [hr] at h
  exact ⟨by decide, h⟩

/-- C6 at the pointer example with button 0 pressed over the child. -/
theorem press_transition_witness :
    ∃ c', uiProcess pressEx = .ok (c', [⟨1, UI_BUTTON0_DOWN⟩]) ∧
      c'.state = .UI_STATE_CAPTURE ∧ c'.start_cursor = ⟨15, 15⟩ ∧ c'.hot_item = -1 ∧
      c'.active_item = 1 :=
  press_transition pressEx pressEx 1 (by decide) (by decide) (by decide) (by decide)

/-- C7 at the pointer example: the button is released over the captured child. -/
theorem release_transition_witness :
    ∃ c', uiProcess releaseEx = .ok (c', [⟨1, UI_BUTTON0_UP⟩, ⟨1, UI_BUTTON0_HOT_UP⟩]) ∧
      c'.active_item = -1 ∧ c'.state = .UI_STATE_IDLE :=
  release_transition releaseEx releaseEx 1 (by decide) (by decide) (by decide) (by decide)
    (by decide) (by decide) (by decide)

/-- C8 at the pointer example: the button stays down over the captured child. -/
theorem hold_transition_witness :
    ∃ c', uiProcess heldEx = .ok (c', [⟨1, UI_BUTTON0_CAPTURE⟩]) ∧
      c'.active_item = 1 ∧ c'.state = .UI_STATE_CAPTURE ∧ c'.hot_item = 1 :=
  hold_transition heldEx heldEx 1 (by decide) (by decide) (by decide) (by decide) (by decide)

/-- C9 at the pointer example: the cursor rests over the child. -/
theorem hover_transition_witness :
    ∃ c', uiProcess idleEx = .ok (c', []) ∧
      c'.state = .UI_STATE_IDLE ∧ c'.active_item = -1 ∧ c'.hot_item = 1 := by
  obtain ⟨c', h1, h2, h3, h4, -⟩ := hover_transition idleEx idleEx 1 (by decide) (by decide)
    (by decide) (by decide) (by decide)
  exact ⟨c', h1, h2, h3, h4⟩

/-- C10 at the pointer example: the child with handle 42 is hot at the end of the frame;
in the next frame `uiSetHandle(2, 42)` makes the new item 2 the hot item. -/
theorem handle_continuity_witness :
    uiProcess overEx = .ok (idleEx, []) ∧ idleEx.hot_item = 1 ∧
    uiGetHandle idleEx 1 = .ok 42 ∧ uiCalls (uiClear idleEx) nextCalls = .ok nextEx ∧
    ∃ c3, uiSetHandle nextEx 2 42 = .ok c3 ∧ c3.hot_item = 2 :=
  ⟨by decide, by decide, by decide, by decide,
    (handle_continuity overEx idleEx [] nextCalls nextEx 2 (by decide) (by decide) (by decide)
      (by decide) (by decide)).1 42 (by decide) (by decide) (by decide)⟩

/-! ### `uiSetParent`: when it fails and what it returns -/

theorem uiItemPtr_error {c : UIcontext} {item : Int} (h : ¬ (0 ≤ item ∧ item < c.count)) :
    uiItemPtr c item = .error .assertion := by
  unfold uiItemPtr; rw [if_neg h]

theorem uiSetParent_error_of {c : UIcontext} {item parent : Int}
    (h : item ≤ 0 ∨ ¬ (0 ≤ item ∧ item < c.count) ∨ ¬ (0 ≤ parent ∧ parent < c.count) ∨
      (c.get item.toNat).parent ≠ -1) :
    uiSetParent c item parent = .error .assertion := by
  by_cases h1 : item > 0
  · by_cases h2 : 0 ≤ item ∧ item < c.count
    · by_cases h3 : (c.get item.toNat).parent = -1
      · have h4 : ¬ (0 ≤ parent ∧ parent < c.count) := by
          rcases h with h | h | h | h
          · omega
          · exact absurd h2 h
          · exact h
          · exact absurd h3 h
        simp [uiSetParent, uiParent, uiItemPtr_of_valid h2.1 h2.2, uiItemPtr_error h4, h1, h3,
          bind, Except.bind, pure, Except.pure, throw, throwThe, MonadExceptOf.throw]
      · simp [uiSetParent, uiParent, uiItemPtr_of_valid h2.1 h2.2, h1, h3,
          bind, Except.bind, pure, Except.pure, throw, throwThe, MonadExceptOf.throw]
    · simp [uiSetParent, uiParent, uiItemPtr_error h2, h1,
        bind, Except.bind, pure, Except.pure, throw, throwThe, MonadExceptOf.throw]
  · simp [uiSetParent, h1, bind, Except.bind, pure, Except.pure, throw, throwThe,
      MonadExceptOf.throw]

theorem uiSetParent_inv {c : UIcontext} {item parent : Int} {c' : UIcontext}
    (h : uiSetParent c item parent = .ok c') :
    0 < item ∧ item < c.count ∧ 0 ≤ parent ∧ parent < c.count ∧
      (c.get item.toNat).parent = -1 ∧ c' = uiAttached c item parent := by
  have hc : ¬ (item ≤ 0 ∨ ¬ (0 ≤ item ∧ item < c.count) ∨ ¬ (0 ≤ parent ∧ parent < c.count) ∨
      (c.get item.toNat).parent ≠ -1) := by
    intro hx
    rw [uiSetParent_error_of hx] at h
    cases h
  simp only [not_or, not_not, not_le] at hc
  obtain ⟨h1, h2, h3, h4⟩ := hc
  refine ⟨h1, h2.2, h3.1, h3.2, h4, ?_⟩
  simp only [uiSetParent, uiParent, uiItemPtr_of_valid h2.1 h2.2, uiItemPtr_of_valid h3.1 h3.2,
    h1, h4, bind, Except.bind, pure, Except.pure] at h
  rw [if_neg (by simp), if_neg (by simp)] at h
  unfold uiAttached
  split at h
  · rename_i hlk
    simp only
    rw [if_pos hlk]
    injection h with h
    exact h.symm
  · rename_i hlk
    simp only
    rw [if_neg hlk]
    split at h
    · cases h
    · rename_i pl hpl
      have e := (uiItemPtr_ok hpl).2.2.1
      have e2 : pl = Int.toNat (pl : Int) := (Int.toNat_ofNat pl).symm
      rw [e] at e2
      injection h with h
      rw [← h, ← e2]

/-- a field that an update does not write reads the same afterwards -/
theorem get_modify_field {α : Type} (g : UIitem → α) (c : UIcontext) (p q : Nat)
    (f : UIitem → UIitem) (hf : ∀ i, g (f i) = g i) :
    g ((c.modify p f).get q) = g (c.get q) := by
  rw [get_modify]
  split
  · rename_i h; rw [hf, h.1]
  · rfl

theorem uiSetParent_ok {c : UIcontext} {item parent : Int} (h1 : 0 < item)
    (h2 : item < c.count) (h3 : 0 ≤ parent) (h4 : parent < c.count)
    (h5 : (c.get item.toNat).parent = -1) (hl : (c.get parent.toNat).lastkid < c.count) :
    uiSetParent c item parent = .ok (uiAttached c item parent) := by
  simp only [uiSetParent, uiParent, uiItemPtr_of_valid (by omega : 0 ≤ item) h2,
    uiItemPtr_of_valid h3 h4, h1, h5, bind, Except.bind, pure, Except.pure]
  rw [if_neg (by simp), if_neg (by simp)]
  unfold uiAttached
  simp only
  split
  · rfl
  · rename_i hlk
    have e : ∀ (c0 : UIcontext), (c0.get parent.toNat).lastkid = (c.get parent.toNat).lastkid →
        c0.count = c.count → ¬ (c0.get parent.toNat).lastkid < 0 →
        uiItemPtr c0 (c0.get parent.toNat).lastkid = .ok ((c0.get parent.toNat).lastkid).toNat := by
      intro c0 e1 e2 e3
      apply uiItemPtr_of_valid
      · omega
      · rw [e1, e2]; exact hl
    rw [e _ ?_ ?_ hlk]
    · refine (get_modify_field UIitem.lastkid _ _ _ _ ?_).trans
        ((get_modify_field UIitem.lastkid _ _ _ _ ?_).trans
          (get_modify_field UIitem.lastkid _ _ _ _ ?_)) <;> intro i <;> rfl
    · simp only [count_modify]

theorem count_uiAttached (c : UIcontext) (item parent : Int) :
    (uiAttached c item parent).count = c.count := by
  unfold uiAttached
  simp only
  split <;> simp only [count_modify]

/-! ### Inversion of `uiProcess` and of the event dispatch -/

theorem uiProcess_inv {c c' : UIcontext} {evs : List UIdispatch}
    (h : uiProcess c = .ok (c', evs)) :
    ∃ cl hot cs, uiProcessLayout c = .ok cl ∧ uiProcessHot cl = .ok hot ∧
      uiProcessState cl hot = .ok (cs, evs) ∧ uiProcessHandles cs = .ok c' := by
  unfold uiProcess at h
  split at h
  · cases h
  · rename_i cl hl
    split at h
    · cases h
    · rename_i hot hh
      split at h
      · cases h
      · rename_i cs evs' hs
        split at h
        · cases h
        · rename_i c1 h1
          injection h with h
          injection h with ha hb
          subst ha; subst hb
          exact ⟨cl, hot, cs, hl, hh, hs, h1⟩

/-- what `uiNotifyItem` dispatches goes to a live item that has a handler and whose mask
contains the event -/
theorem uiNotifyItem_inv {c : UIcontext} {item event : Int} {l : List UIdispatch}
    (h : uiNotifyItem c item event = .ok l) :
    ∀ d ∈ l, d = ⟨item, event⟩ ∧ 0 ≤ item ∧ item < c.count ∧
      (c.get item.toNat).handler ≠ 0 ∧ Int.land (c.get item.toNat).event_flags event ≠ 0 := by
  unfold uiNotifyItem at h
  split at h
  · cases h
  · rename_i p hp
    obtain ⟨h0, h1, e, -⟩ := uiItemPtr_ok hp
    have ep : item.toNat = p := by omega
    split at h
    · rename_i hc
      injection h with h
      subst h
      intro d hd
      simp only [List.mem_singleton] at hd
      rw [ep]
      exact ⟨hd, h0, h1, hc.1, hc.2⟩
    · injection h with h
      subst h
      intro d hd
      simp at hd

/-- the events of the state switch: each one is dispatched by `uiNotifyItem` on the items
of the context, and is one of the four button events -/
theorem uiProcessState_inv {c cs : UIcontext} {hot : Int} {evs : List UIdispatch}
    (h : uiProcessState c hot = .ok (cs, evs)) :
    cs.items = c.items ∧ cs.buttons = c.buttons ∧ cs.last_buttons = c.last_buttons ∧
    cs.cursor = c.cursor ∧ cs.datasize = c.datasize ∧
    ∀ d ∈ evs, 0 ≤ d.item ∧ d.item < c.count ∧ (c.get d.item.toNat).handler ≠ 0 ∧
      Int.land (c.get d.item.toNat).event_flags d.event ≠ 0 ∧
      (d.event = UI_BUTTON0_DOWN ∨ d.event = UI_BUTTON0_UP ∨ d.event = UI_BUTTON0_HOT_UP ∨
        d.event = UI_BUTTON0_CAPTURE) := by
  have key : ∀ (cx : UIcontext) (item event : Int) (l : List UIdispatch),
      cx.items = c.items → uiNotifyItem cx item event = .ok l →
      (event = UI_BUTTON0_DOWN ∨ event = UI_BUTTON0_UP ∨ event = UI_BUTTON0_HOT_UP ∨
        event = UI_BUTTON0_CAPTURE) →
      ∀ d ∈ l, 0 ≤ d.item ∧ d.item < c.count ∧ (c.get d.item.toNat).handler ≠ 0 ∧
        Int.land (c.get d.item.toNat).event_flags d.event ≠ 0 ∧
        (d.event = UI_BUTTON0_DOWN ∨ d.event = UI_BUTTON0_UP ∨ d.event = UI_BUTTON0_HOT_UP ∨
          d.event = UI_BUTTON0_CAPTURE) := by
    intro cx item event l hi hn he d hd
    obtain ⟨e, h0, h1, h2, h3⟩ := uiNotifyItem_inv hn d hd
    have hg : ∀ q, cx.get q = c.get q := fun q => by unfold UIcontext.get; rw [hi]
    have hcn : cx.count = c.count := by unfold UIcontext.count; rw [hi]
    rw [hg] at h2 h3
    rw [hcn] at h1
    rw [e]
    exact ⟨h0, h1, h2, h3, he⟩
  have nil : ∀ d ∈ ([] : List UIdispatch), 0 ≤ d.item ∧ d.item < c.count ∧
      (c.get d.item.toNat).handler ≠ 0 ∧
      Int.land (c.get d.item.toNat).event_flags d.event ≠ 0 ∧
      (d.event = UI_BUTTON0_DOWN ∨ d.event = UI_BUTTON0_UP ∨ d.event = UI_BUTTON0_HOT_UP ∨
        d.event = UI_BUTTON0_CAPTURE) := fun d hd => by simp at hd
  unfold uiProcessState at h
  simp only at h
  repeat' split at h
  all_goals cases h
  all_goals refine ⟨rfl, rfl, rfl, rfl, rfl, ?_⟩
  all_goals first
    | exact nil
    | (rename_i hn; exact key _ _ _ _ rfl hn (by decide))
    | (rename_i hn1 _ _ _ hn2
       intro d hd
       rcases List.mem_append.mp hd with hd | hd
       · exact key _ _ _ _ rfl hn1 (by decide) d hd
       · exact key _ _ _ _ rfl hn2 (by decide) d hd)

/-! ### Masks below 16, bit by bit -/

/-- the bits of `f & n` for a mask `n` that is not negative -/
theorem land_nat (f : Int) (n : Nat) :
    ∃ r : Nat, Int.land f (n : Int) = (r : Int) ∧
      ∀ k, r.testBit k = (f.testBit k && n.testBit k) := by
  cases f with
  | ofNat m =>
    exact ⟨m &&& n, rfl, fun k => by simp [Int.testBit]⟩
  | negSucc m =>
    refine ⟨Nat.ldiff n m, rfl, fun k => ?_⟩
    rw [Nat.testBit_ldiff]
    simp [Int.testBit, Bool.and_comm]

theorem testBit_lt_sixteen {x : Nat} (hx : x < 16) (k : Nat) : x.testBit (k + 4) = false := by
  apply Nat.testBit_lt_two_pow
  have := Nat.one_le_two_pow (n := k)
  rw [Nat.pow_add]; omega

theorem bits4_lt (x0 x1 x2 x3 : Bool) : bits4 x0 x1 x2 x3 < 16 := by
  cases x0 <;> cases x1 <;> cases x2 <;> cases x3 <;> decide

/-- the value of `f & n` for a mask `n` below 16, bit by bit -/
theorem land_small (f : Int) (n : Nat) (hn : n < 16) :
    Int.land f (n : Int) =
      (bits4 (f.testBit 0 && n.testBit 0) (f.testBit 1 && n.testBit 1)
        (f.testBit 2 && n.testBit 2) (f.testBit 3 && n.testBit 3) : Nat) := by
  obtain ⟨r, hr, hb⟩ := land_nat f n
  rw [hr]
  congr 1
  apply Nat.eq_of_testBit_eq
  intro k
  rw [hb]
  rcases k with _ | _ | _ | _ | k
  · cases f.testBit 0 <;> cases n.testBit 0 <;> cases (f.testBit 1 && n.testBit 1) <;>
      cases (f.testBit 2 && n.testBit 2) <;> cases (f.testBit 3 && n.testBit 3) <;> rfl
  · cases f.testBit 1 <;> cases n.testBit 1 <;> cases (f.testBit 0 && n.testBit 0) <;>
      cases (f.testBit 2 && n.testBit 2) <;> cases (f.testBit 3 && n.testBit 3) <;> rfl
  · cases f.testBit 2 <;> cases n.testBit 2 <;> cases (f.testBit 0 && n.testBit 0) <;>
      cases (f.testBit 1 && n.testBit 1) <;> cases (f.testBit 3 && n.testBit 3) <;> rfl
  · cases f.testBit 3 <;> cases n.testBit 3 <;> cases (f.testBit 0 && n.testBit 0) <;>
      cases (f.testBit 1 && n.testBit 1) <;> cases (f.testBit 2 && n.testBit 2) <;> rfl
  · rw [testBit_lt_sixteen hn, testBit_lt_sixteen (bits4_lt _ _ _ _)]
    simp

/-- the value of `f & UI_HFILL` in terms of the two anchor bits of `f` -/
theorem land_hfill (f : Int) :
    Int.land f UI_HFILL =
      (if f.testBit 0 then 1 else 0) + (if f.testBit 2 then 4 else 0) := by
  have h := land_small f 5 (by decide)
  rw [show Nat.testBit 5 0 = true from rfl, show Nat.testBit 5 1 = false from rfl,
    show Nat.testBit 5 2 = true from rfl, show Nat.testBit 5 3 = false from rfl] at h
  show Int.land f ((5 : Nat) : Int) = _
  rw [h]
  unfold bits4
  cases f.testBit 0 <;> cases f.testBit 2 <;> simp

theorem land_left (f : Int) : Int.land f UI_LEFT = if f.testBit 0 then 1 else 0 := by
  have h := land_small f 1 (by decide)
  rw [show Nat.testBit 1 0 = true from rfl, show Nat.testBit 1 1 = false from rfl,
    show Nat.testBit 1 2 = false from rfl, show Nat.testBit 1 3 = false from rfl] at h
  show Int.land f ((1 : Nat) : Int) = _
  rw [h]
  unfold bits4
  cases f.testBit 0 <;> simp

theorem land_right (f : Int) : Int.land f UI_RIGHT = if f.testBit 2 then 4 else 0 := by
  have h := land_small f 4 (by decide)
  rw [show Nat.testBit 4 0 = false from rfl, show Nat.testBit 4 1 = false from rfl,
    show Nat.testBit 4 2 = true from rfl, show Nat.testBit 4 3 = false from rfl] at h
  show Int.land f ((4 : Nat) : Int) = _
  rw [h]
  unfold bits4
  cases f.testBit 2 <;> simp

theorem land_up (f : Int) : Int.land f UI_BUTTON0_UP = if f.testBit 1 then 2 else 0 := by
  have h := land_small f 2 (by decide)
  rw [show Nat.testBit 2 0 = false from rfl, show Nat.testBit 2 1 = true from rfl,
    show Nat.testBit 2 2 = false from rfl, show Nat.testBit 2 3 = false from rfl] at h
  show Int.land f ((2 : Nat) : Int) = _
  rw [h]
  unfold bits4
  cases f.testBit 1 <;> simp

theorem land_capture (f : Int) : Int.land f UI_BUTTON0_CAPTURE = if f.testBit 3 then 8 else 0 := by
  have h := land_small f 8 (by decide)
  rw [show Nat.testBit 8 0 = false from rfl, show Nat.testBit 8 1 = false from rfl,
    show Nat.testBit 8 2 = false from rfl, show Nat.testBit 8 3 = true from rfl] at h
  show Int.land f ((8 : Nat) : Int) = _
  rw [h]
  unfold bits4
  cases f.testBit 3 <;> simp

theorem land_capture_up (f : Int) :
    Int.land f (Int.lor UI_BUTTON0_CAPTURE UI_BUTTON0_UP) =
      (if f.testBit 1 then 2 else 0) + (if f.testBit 3 then 8 else 0) := by
  have h := land_small f 10 (by decide)
  rw [show Nat.testBit 10 0 = false from rfl, show Nat.testBit 10 1 = true from rfl,
    show Nat.testBit 10 2 = false from rfl, show Nat.testBit 10 3 = true from rfl] at h
  show Int.land f ((10 : Nat) : Int) = _
  rw [h]
  unfold bits4
  cases f.testBit 1 <;> cases f.testBit 3 <;> simp

/-- the mask contains `CAPTURE` or `UP` exactly when `flags & (CAPTURE | UP)` is not zero -/
theorem land_capture_up_ne_zero (f : Int) :
    Int.land f (Int.lor UI_BUTTON0_CAPTURE UI_BUTTON0_UP) ≠ 0 ↔
      (Int.land f UI_BUTTON0_CAPTURE ≠ 0 ∨ Int.land f UI_BUTTON0_UP ≠ 0) := by
  rw [land_capture_up, land_capture, land_up]
  cases f.testBit 1 <;> cases f.testBit 3 <;> simp

/-- the four values of `flags & UI_HFILL` in terms of the near and the far flag -/
theorem land_hfill_cases (f : Int) :
    (Int.land f UI_HFILL = UI_LEFT ↔ Int.land f UI_LEFT ≠ 0 ∧ Int.land f UI_RIGHT = 0) ∧
    (Int.land f UI_HFILL = UI_RIGHT ↔ Int.land f UI_LEFT = 0 ∧ Int.land f UI_RIGHT ≠ 0) ∧
    (Int.land f UI_HFILL = UI_HFILL ↔ Int.land f UI_LEFT ≠ 0 ∧ Int.land f UI_RIGHT ≠ 0) ∧
    (Int.land f UI_HFILL = UI_HCENTER ↔ Int.land f UI_LEFT = 0 ∧ Int.land f UI_RIGHT = 0) := by
  rw [land_hfill, land_left, land_right]
  cases f.testBit 0 <;> cases f.testBit 2 <;> simp

/-! ### The size pass gives an item with a size hint that size -/

theorem size_of_decl {c c' : UIcontext} (hd : c'.decl = c.decl) (q : Nat) :
    (c'.get q).size = (c.get q).size :=
  (decl_fields (get_decl_of_decl hd q)).2.2.2.2.1

/-- `uiComputeSizeDim` writes one entry of one rect -/
theorem sizeDim_other {n : Nat} {c : UIcontext} {p dim : Nat} {c' : UIcontext} (hd : dim < 2)
    (h : uiComputeSizeDim n c p dim = .ok c') (q j : Nat) (hj : j < 4) (hne : j ≠ dim + 2) :
    (c'.get q).rect.v j = (c.get q).rect.v j := by
  rcases uiComputeSizeDim_inv h with ⟨-, rfl⟩ | ⟨-, c1, size, h1, rfl⟩
  · exact get_modify_setV_other c p q (dim + 2) j (fun i => i.size.v dim) (by omega) hj hne
  · rw [get_modify_setV_other c1 p q (dim + 2) j (fun _ => size) (by omega) hj hne,
      rect_uiComputeSizeDimKids _ _ _ _ _ _ _ h1 q]

/-- `uiComputeSizeDim` gives an item with a size hint the hint as extent -/
theorem sizeDim_hint {n : Nat} {c : UIcontext} {p dim : Nat} {c' : UIcontext} (hd : dim < 2)
    (hp : p < c.count) (h : uiComputeSizeDim n c p dim = .ok c')
    (hh : (c.get p).size.v dim ≠ 0) :
    (c'.get p).rect.v (dim + 2) = (c.get p).size.v dim := by
  rcases uiComputeSizeDim_inv h with ⟨-, rfl⟩ | ⟨hz, -⟩
  · rw [get_modify_self _ _ _ hp]
    show ((c.get p).rect.setV (dim + 2) ((c.get p).size.v dim)).v (dim + 2) = _
    rw [rect_setV_v _ _ _ _ (by omega) (by omega), if_pos rfl]
  · exact absurd hz hh

/-- after the size pass every item it visits that has a size hint in a dimension has the
hint as extent in that dimension -/
theorem hint_uiComputeBestSize :
    ∀ (n : Nat),
      (∀ (c : UIcontext) (p : Nat) (ks : KTree) (c' : UIcontext),
        uiComputeBestSize n c (p : Int) = .ok c' → IsForest c (c.get p).firstkid ks →
        p ∉ ks.indices → ks.indices.Nodup →
        ∀ q, q = p ∨ q ∈ ks.indices → ∀ dim, dim < 2 → (c.get q).size.v dim ≠ 0 →
          (c'.get q).rect.v (dim + 2) = (c.get q).size.v dim) ∧
      (∀ (c : UIcontext) (kid : Int) (t : KTree) (c' : UIcontext),
        uiComputeBestSizeKids n c kid = .ok c' → IsForest c kid t → t.indices.Nodup →
        ∀ q ∈ t.indices, ∀ dim, dim < 2 → (c.get q).size.v dim ≠ 0 →
          (c'.get q).rect.v (dim + 2) = (c.get q).size.v dim) := by
  intro n
  induction n with
  | zero =>
    exact ⟨fun c p ks c' h => by simp [uiComputeBestSize] at h,
      fun c kid t c' h => by simp [uiComputeBestSizeKids] at h⟩
  | succ n ih =>
    constructor
    · intro c p ks c' h hf hpk hnd q hq dim hdim hh
      obtain ⟨p', c0, c1, c2, hp, h0, h1, h2, h3⟩ := uiComputeBestSize_inv h
      have hpc := (uiItemPtr_ok hp).2.2.2
      have ep : p = p' := by have := (uiItemPtr_ok hp).2.2.1; omega
      subst ep
      have d0 : c0.decl = c.decl := by
        rw [h0]; exact decl_modify _ _ _ (fun i => decl_visited i _)
      have hf0 : IsForest c0 (c0.get p).firstkid ks := by
        rw [firstkid_of_decl d0]; exact IsForest_of_decl d0 _ _ hf
      have d1 : c1.decl = c.decl := ((decl_uiComputeBestSize _).2 _ _ _ h1).trans d0
      have d2 : c2.decl = c.decl := (decl_uiComputeSizeDim h2).trans d1
      have hd2 : dim = 0 ∨ dim = 1 := by omega
      rcases hq with hq | hq
      · subst hq
        rcases hd2 with rfl | rfl
        · rw [sizeDim_other (by omega : 1 < 2) h3 q 2 (by omega) (by omega),
            sizeDim_hint (by omega : 0 < 2) (by rw [count_of_decl d1]; exact hpc) h2
              (by rw [size_of_decl d1]; exact hh), size_of_decl d1]
        · rw [sizeDim_hint (by omega : 1 < 2) (by rw [count_of_decl d2]; exact hpc) h3
              (by rw [size_of_decl d2]; exact hh), size_of_decl d2]
      · have hne : q ≠ p := fun e => hpk (e ▸ hq)
        rw [rect_uiComputeSizeDim h3 q hne, rect_uiComputeSizeDim h2 q hne,
          ih.2 c0 _ ks c1 h1 hf0 hnd q hq dim hdim (by rw [size_of_decl d0]; exact hh),
          size_of_decl d0]
    · intro c kid t c' h hf hnd q hq dim hdim hh
      cases t with
      | nil => simp [KTree.indices] at hq
      | node i kids next =>
        obtain ⟨hki, hi0, hic, hfk, hfn⟩ := hf
        rcases uiComputeBestSizeKids_inv h with ⟨h0, -⟩ | ⟨-, c1, h1, -, h2⟩
        · omega
        subst hki
        rw [Int.toNat_ofNat] at h2
        have d1 := (decl_uiComputeBestSize _).1 _ _ _ h1
        have f1 : IsForest c1 (c1.get i).nextitem next := by
          rw [nextitem_of_decl d1]; exact IsForest_of_decl d1 _ _ hfn
        simp only [KTree.indices, List.nodup_cons, List.mem_append, not_or,
          List.nodup_append] at hnd
        obtain ⟨⟨hik, hin⟩, hndk, hndn, hdis⟩ := hnd
        simp only [KTree.indices, List.mem_cons, List.mem_append] at hq
        have keep : q ∉ next.indices →
            (c'.get q).rect.v (dim + 2) = (c1.get q).rect.v (dim + 2) := by
          intro hx
          rw [(rect_uiComputeBestSize n).2 c1 _ next c' h2 f1 q hx]
        rcases hq with hq | hq | hq
        · subst hq
          rw [keep hin]
          exact ih.1 c q kids c1 h1 hfk hik hndk q (Or.inl rfl) dim hdim hh
        · rw [keep (fun hx => hdis hq hx)]
          exact ih.1 c i kids c1 h1 hfk hik hndk q (Or.inr hq) dim hdim hh
        · rw [ih.2 c1 _ next c' h2 f1 hndn q hq dim hdim (by rw [size_of_decl d1]; exact hh),
            size_of_decl d1]

/-! ### Placement of anchored and centred items -/

/-- whether `uiLayoutChildItem` follows the neighbors of an attached item, in terms of its
anchor flags and neighbor references -/
theorem follow_iff {c cl : UIcontext} {k dim : Nat} (hd : cl.decl = c.decl)
    (hs : SiblingRefs c) (hk : k < c.count) (hpar : 0 ≤ (c.get k).parent) (hdim : dim < 2) :
    (uiFollowL (cl.get k) dim ↔
      Int.land ((c.get k).layout_flags >>> dim) UI_LEFT ≠ 0 ∧ (c.get k).relto.v dim ≠ -1) ∧
    (uiFollowR (cl.get k) dim ↔
      Int.land ((c.get k).layout_flags >>> dim) UI_RIGHT ≠ 0 ∧
        (c.get k).relto.v (dim + 2) ≠ -1) := by
  have hdk := decl_fields (get_decl_of_decl hd k)
  unfold uiFollowL uiFollowR
  rw [hdk.1, hdk.2.1]
  constructor
  · rcases hs k hk hpar dim (by omega) with h | ⟨h1, -, -⟩
    · constructor
      · intro hx; omega
      · intro hx; exact absurd h hx.2
    · constructor
      · intro hx; exact ⟨hx.1, by omega⟩
      · intro hx; exact ⟨hx.1, by omega⟩
  · rcases hs k hk hpar (dim + 2) (by omega) with h | ⟨h1, -, -⟩
    · constructor
      · intro hx; omega
      · intro hx; exact absurd h hx.2
    · constructor
      · intro hx; exact ⟨hx.1, by omega⟩
      · intro hx; exact ⟨hx.1, by omega⟩

/-- an item with the near flag only starts at the near end of its span plus its near margin -/
theorem placed_near {c cl : UIcontext} {k dim : Nat} (hd : cl.decl = c.decl)
    (hs : SiblingRefs c) (hk : k < c.count) (hpar : 0 ≤ (c.get k).parent) (hdim : dim < 2)
    (h1 : Int.land ((c.get k).layout_flags >>> dim) UI_LEFT ≠ 0)
    (h2 : Int.land ((c.get k).layout_flags >>> dim) UI_RIGHT = 0)
    (hp : Placed cl k dim) :
    (cl.get k).rect.v dim = nearEdge c cl k dim + (c.get k).margins.v dim := by
  have hdk := decl_fields (get_decl_of_decl hd k)
  have hsel := ((land_hfill_cases _).1).mpr ⟨h1, h2⟩
  obtain ⟨fl, -⟩ := follow_iff hd hs hk hpar hdim
  obtain ⟨-, -, -, h4⟩ := hp
  unfold PlacedAt PlaceEq at h4
  rw [hdk.1, hsel, hdk.2.2.1, if_pos rfl] at h4
  unfold spanL UIcontext.nl at h4
  unfold nearEdge
  rw [hdk.2.1] at h4
  by_cases hx : (c.get k).relto.v dim = -1
  · rw [if_neg (fun hf => (fl.mp hf).2 hx)] at h4
    rw [if_pos hx]
    exact h4
  · rw [if_pos (fl.mpr ⟨h1, hx⟩)] at h4
    rw [if_neg hx]
    exact h4

/-- an item with the far flag only ends at the far end of its span minus its far margin -/
theorem placed_far {c cl : UIcontext} {k dim : Nat} (hd : cl.decl = c.decl)
    (hs : SiblingRefs c) (hk : k < c.count) (hpar : 0 ≤ (c.get k).parent) (hdim : dim < 2)
    (h1 : Int.land ((c.get k).layout_flags >>> dim) UI_LEFT = 0)
    (h2 : Int.land ((c.get k).layout_flags >>> dim) UI_RIGHT ≠ 0)
    (hp : Placed cl k dim) :
    (cl.get k).rect.v dim =
      farEdge c cl k dim - (cl.get k).rect.v (dim + 2) - (c.get k).margins.v (dim + 2) := by
  have hdk := decl_fields (get_decl_of_decl hd k)
  have hsel := ((land_hfill_cases _).2.1).mpr ⟨h1, h2⟩
  obtain ⟨fl, fr⟩ := follow_iff hd hs hk hpar hdim
  have nfl : ¬ uiFollowL (cl.get k) dim := fun hf => (fl.mp hf).1 h1
  obtain ⟨-, -, -, h4⟩ := hp
  unfold PlacedAt PlaceEq at h4
  rw [hdk.1, hsel, hdk.2.2.1, if_neg (by decide), if_pos rfl] at h4
  unfold spanW spanL UIcontext.nr UIcontext.par at h4
  unfold farEdge
  rw [hdk.2.1, hdk.2.2.2.1, if_neg nfl] at h4
  by_cases hx : (c.get k).relto.v (dim + 2) = -1
  · rw [if_neg (fun hf => (fr.mp hf).2 hx)] at h4
    rw [if_pos hx, h4]
    omega
  · rw [if_pos (fr.mpr ⟨h2, hx⟩)] at h4
    rw [if_neg hx, h4]
    omega

/-- an item with neither the near nor the far flag is centred in the extent of its parent and
then moved by its near margin -/
theorem placed_centre {c cl : UIcontext} {k dim : Nat} (hd : cl.decl = c.decl)
    (h1 : Int.land ((c.get k).layout_flags >>> dim) UI_LEFT = 0)
    (h2 : Int.land ((c.get k).layout_flags >>> dim) UI_RIGHT = 0)
    (hp : Placed cl k dim) :
    (cl.get k).rect.v dim =
      Int.tdiv ((cl.get (c.get k).parent.toNat).rect.v (dim + 2) - (cl.get k).rect.v (dim + 2)) 2
        + (c.get k).margins.v dim := by
  have hdk := decl_fields (get_decl_of_decl hd k)
  have hsel := ((land_hfill_cases _).2.2.2).mpr ⟨h1, h2⟩
  have nfl : ¬ uiFollowL (cl.get k) dim := by
    unfold uiFollowL; rw [hdk.1]; exact fun hf => hf.1 h1
  have nfr : ¬ uiFollowR (cl.get k) dim := by
    unfold uiFollowR; rw [hdk.1]; exact fun hf => hf.1 h2
  obtain ⟨-, -, -, h4⟩ := hp
  unfold PlacedAt PlaceEq at h4
  rw [hdk.1, hsel, hdk.2.2.1, if_neg (by decide), if_neg (by decide), if_neg (by decide)] at h4
  unfold spanW spanL UIcontext.par at h4
  rw [hdk.2.2.2.1] at h4
  simp only [if_neg nfl, if_neg nfr] at h4
  rw [h4]
  omega

/-- the position pass keeps the extent the size pass resolved, for every item that is not
fill -/
theorem layout_keeps {c cl : UIcontext} (hlay : uiProcessLayout c = .ok cl) :
    ∃ s, uiComputeBestSize (uiFuel c) c 0 = .ok s ∧
      ∀ (q dim : Nat), dim < 2 →
        Int.land ((c.get q).layout_flags >>> dim) UI_HFILL ≠ UI_HFILL →
        (cl.get q).rect.v (dim + 2) = (s.get q).rect.v (dim + 2) := by
  obtain ⟨s, r, h1, hroot, hr, h3⟩ := uiProcessLayout_inv hlay
  have d1 : s.decl = c.decl := (decl_uiComputeBestSize _).1 _ _ _ h1
  have d2 : r.decl = c.decl := by
    rw [hr, decl_modify _ _ _ (fun i => decl_rect i _),
      decl_modify _ _ _ (fun i => decl_rect i _), d1]
  have K := (keepsExtents_layoutItem (uiFuel r) (uiFuel r)).1 r 0 cl h3
  refine ⟨s, h1, ?_⟩
  intro q dim hd hq
  have hext : (r.get q).rect.v (dim + 2) = (s.get q).rect.v (dim + 2) := by
    rw [hr, root_place_get s q]
    split
    · rename_i hq0
      rw [hq0.1]
      have : dim = 0 ∨ dim = 1 := by omega
      rcases this with rfl | rfl <;> simp [UIrect.v]
    · rfl
  rw [← hext]
  apply K dim hd q
  rw [(decl_fields (get_decl_of_decl d2 q)).1]
  exact hq

/-! ### Contexts reached by API calls -/

/-- a property that holds at the start and is kept by every successful call holds after a
sequence of calls -/
theorem uiCalls_invariant (P : UIcontext → Prop)
    (hstep : ∀ c call c', P c → uiCall c call = .ok c' → P c') :
    ∀ (calls : List UIcall) (c c' : UIcontext), P c → uiCalls c calls = .ok c' → P c' := by
  intro calls
  induction calls with
  | nil =>
    intro c c' hP h
    simp only [uiCalls] at h
    injection h with h
    rw [← h]; exact hP
  | cons call rest ih =>
    intro c c' hP h
    simp only [uiCalls] at h
    split at h
    · cases h
    · rename_i c1 h1
      exact ih c1 c' (hstep c call c1 hP h1) h

theorem links_of_decl {a b : UIitem} (h : a.decl = b.decl) : a.links = b.links := by
  have e : a.decl.links = b.decl.links := by rw [h]
  exact e

/-- what `uiProcess` returns has the items of the layout pass, which has the declarations of
the context the call started in -/
theorem uiProcess_items {c c' : UIcontext} {evs : List UIdispatch}
    (h : uiProcess c = .ok (c', evs)) :
    ∃ cl, uiProcessLayout c = .ok cl ∧ c'.items = cl.items ∧ cl.decl = c.decl := by
  obtain ⟨cl, hot, cs, h1, -, h3, h4⟩ := uiProcess_inv h
  refine ⟨cl, h1, ?_, decl_uiProcessLayout h1⟩
  rw [(uiProcessHandles_ok h4).1, (uiProcessState_inv h3).1]

/-- the result of `uiAllocData` in closed form -/
theorem uiAllocData_eq (c : UIcontext) (item size : Int) :
    uiAllocData c item size =
      if (size > 0 ∧ size < UI_MAX_DATASIZE) ∧ (0 ≤ item ∧ item < c.count) ∧
          (c.get item.toNat).data < 0 ∧ c.datasize + size ≤ UI_MAX_BUFFERSIZE then
        .ok { c.modify item.toNat (fun i => { i with data := c.datasize }) with
              datasize := c.datasize + size }
      else .error .assertion := by
  by_cases h1 : size > 0 ∧ size < UI_MAX_DATASIZE
  · by_cases h2 : 0 ≤ item ∧ item < c.count
    · by_cases h3 : (c.get item.toNat).data < 0
      · by_cases h4 : c.datasize + size ≤ UI_MAX_BUFFERSIZE
        · rw [if_pos ⟨h1, h2, h3, h4⟩]
          simp only [uiAllocData, uiItemPtr_of_valid h2.1 h2.2, h1, h3, h4, bind, Except.bind,
            pure, Except.pure, throw, throwThe, MonadExceptOf.throw]
          rfl
        · rw [if_neg (fun hx => h4 hx.2.2.2)]
          simp [uiAllocData, uiItemPtr_of_valid h2.1 h2.2, h1, h3, h4, bind, Except.bind,
            pure, Except.pure, throw, throwThe, MonadExceptOf.throw]
      · rw [if_neg (fun hx => h3 hx.2.2.1)]
        simp [uiAllocData, uiItemPtr_of_valid h2.1 h2.2, h1, h3, bind, Except.bind,
          pure, Except.pure, throw, throwThe, MonadExceptOf.throw]
    · rw [if_neg (fun hx => h2 hx.2.1)]
      simp [uiAllocData, uiItemPtr_error h2, h1, bind, Except.bind,
        pure, Except.pure, throw, throwThe, MonadExceptOf.throw]
  · rw [if_neg (fun hx => h1 hx.1)]
    simp [uiAllocData, h1, bind, Except.bind, pure, Except.pure, throw, throwThe,
      MonadExceptOf.throw]

/-- the items after `uiSetHandle` -/
theorem uiSetHandle_items {c c' : UIcontext} {item : Int} {handle : Nat}
    (h : uiSetHandle c item handle = .ok c') :
    c'.items = (c.modify item.toNat (fun i => { i with handle := handle })).items := by
  simp only [uiSetHandle, bind, Except.bind, pure, Except.pure] at h
  split at h
  · cases h
  · rename_i p hp
    have e := (uiItemPtr_ok hp).2.2.1
    have e2 : p = item.toNat := by omega
    subst e2
    repeat' split at h
    all_goals (injection h with h; rw [← h])

/-- the calls other than `uiItem`, `uiSetParent` and `uiClear` keep the number of items and
the tree links of every item -/
theorem links_uiCall {c c' : UIcontext} {call : UIcall} (h : uiCall c call = .ok c')
    (h1 : call ≠ .item) (h2 : ∀ i p, call ≠ .setParent i p) (h3 : call ≠ .clear) :
    c'.count = c.count ∧ ∀ q, (c'.get q).links = (c.get q).links := by
  have one : ∀ (p : Nat) (f : UIitem → UIitem), (∀ i, (f i).links = i.links) →
      (c.modify p f).count = c.count ∧ ∀ q, ((c.modify p f).get q).links = (c.get q).links :=
    fun p f hf => ⟨count_modify _ _ _, fun q => get_modify_field UIitem.links c p q f hf⟩
  have key : ∀ (c1 : UIcontext) (p : Nat) (f : UIitem → UIitem),
      c1.items = (c.modify p f).items → (∀ i, (f i).links = i.links) →
      c1.count = c.count ∧ ∀ q, (c1.get q).links = (c.get q).links := by
    intro c1 p f hi hf
    obtain ⟨a1, a2⟩ := one p f hf
    exact ⟨(count_of_items hi).trans a1, fun q => by rw [get_of_items hi]; exact a2 q⟩
  cases call with
  | item => exact absurd rfl h1
  | setParent i p => exact absurd rfl (h2 i p)
  | clear => exact absurd rfl h3
  | setSize item w hh =>
    simp only [uiCall, uiSetSize, bind, Except.bind, pure, Except.pure] at h
    split at h
    · cases h
    · injection h with h; rw [← h]; exact one _ _ (fun _ => rfl)
  | setLayout item flags =>
    simp only [uiCall, uiSetLayout, bind, Except.bind, pure, Except.pure] at h
    split at h
    · cases h
    · injection h with h; rw [← h]; exact one _ _ (fun _ => rfl)
  | setMargins item l t r b =>
    simp only [uiCall, uiSetMargins, bind, Except.bind, pure, Except.pure] at h
    split at h
    · cases h
    · injection h with h; rw [← h]; exact one _ _ (fun _ => rfl)
  | setRelativeTo item l t r b =>
    simp only [uiCall, uiSetRelativeTo, bind, Except.bind, pure, Except.pure] at h
    split at h
    · cases h
    · injection h with h; rw [← h]; exact one _ _ (fun _ => rfl)
  | allocData item size =>
    simp only [uiCall] at h
    rw [uiAllocData_eq] at h
    split at h
    · injection h with h; rw [← h]
      exact key _ item.toNat (fun i => { i with data := c.datasize }) rfl (fun _ => rfl)
    · cases h
  | setHandle item handle =>
    simp only [uiCall] at h
    exact key _ _ _ (uiSetHandle_items h) (fun _ => rfl)
  | setHandler item handler flags =>
    simp only [uiCall, uiSetHandler, bind, Except.bind, pure, Except.pure] at h
    split at h
    · cases h
    · injection h with h; rw [← h]
      refine ⟨(count_modify _ _ _).trans (count_modify _ _ _), fun q => ?_⟩
      refine (get_modify_field UIitem.links _ _ q _ ?_).trans
        (get_modify_field UIitem.links _ _ q _ ?_) <;> intro i <;> rfl
  | setButton button enabled =>
    simp only [uiCall] at h
    injection h with h; rw [← h]; exact ⟨rfl, fun _ => rfl⟩
  | setCursor x y =>
    simp only [uiCall] at h
    injection h with h; rw [← h]; exact ⟨rfl, fun _ => rfl⟩
  | process =>
    simp only [uiCall, Except.map] at h
    split at h
    · cases h
    · rename_i r hr
      injection h with h
      obtain ⟨cl, -, hi, hd⟩ := uiProcess_items (show uiProcess c = .ok (r.1, r.2) from hr)
      rw [← h]
      refine ⟨(count_of_items hi).trans (count_of_decl hd), fun q => ?_⟩
      rw [get_of_items hi]
      exact links_of_decl (get_decl_of_decl hd q)

theorem lastkid_modify (c0 c : UIcontext) (p : Nat) (f : UIitem → UIitem) (v : Int)
    (hf : ∀ i, (f i).lastkid = i.lastkid ∨ (f i).lastkid = v)
    (h : ∀ q, (c.get q).lastkid = (c0.get q).lastkid ∨ (c.get q).lastkid = v) :
    ∀ q, ((c.modify p f).get q).lastkid = (c0.get q).lastkid ∨
      ((c.modify p f).get q).lastkid = v := by
  intro q
  rw [get_modify]
  split
  · rename_i hq
    rw [← hq.1]
    rcases hf (c.get q) with e | e
    · rw [e]; exact h q
    · exact Or.inr e
  · exact h q

/-- after an attach every `lastkid` is what it was or the attached item -/
theorem lastkid_uiAttached (c : UIcontext) (item parent : Int) (q : Nat) :
    ((uiAttached c item parent).get q).lastkid = (c.get q).lastkid ∨
      ((uiAttached c item parent).get q).lastkid = item := by
  have h0 : ∀ q, (c.get q).lastkid = (c.get q).lastkid ∨ (c.get q).lastkid = item :=
    fun q => Or.inl rfl
  unfold uiAttached
  simp only
  revert q
  split
  all_goals
    refine lastkid_modify c _ _ _ item (fun i => ?_) ?_
    · exact Or.inr rfl
    refine lastkid_modify c _ _ _ item (fun i => ?_) ?_
    · exact Or.inl rfl
    refine lastkid_modify c _ _ _ item (fun i => ?_) ?_
    · exact Or.inl rfl
    refine lastkid_modify c _ _ _ item (fun i => ?_) ?_
    · exact Or.inl rfl
    refine lastkid_modify c _ _ _ item (fun i => ?_) ?_
    · exact Or.inl rfl
    exact h0

theorem get_uiItem (c : UIcontext) (q : Nat) :
    ({ c with items := c.items ++ [UIitem.fresh] } : UIcontext).get q =
      if q < c.count then c.get q else if q = c.count then UIitem.fresh else default := by
  unfold UIcontext.get UIcontext.count
  simp only [List.getD_eq_getElem?_getD]
  by_cases h : q < c.items.length
  · rw [if_pos h, List.getElem?_append_left h]
  · rw [if_neg h, List.getElem?_append_right (by omega)]
    by_cases h2 : q = c.items.length
    · rw [if_pos h2, h2]; simp
    · rw [if_neg h2]
      have : q - c.items.length ≠ 0 := by omega
      obtain ⟨k, hk⟩ := Nat.exists_eq_succ_of_ne_zero this
      rw [hk]; simp

theorem LastKidOK_uiClear (c : UIcontext) : LastKidOK (uiClear c) := by
  intro p hp
  have e : p = 0 := by
    have : (uiClear c).count = 1 := rfl
    omega
  subst e
  show (-1 : Int) < ((1 : Nat) : Int)
  decide

/-- every successful call keeps `LastKidOK` -/
theorem LastKidOK_uiCall (c : UIcontext) (call : UIcall) (c' : UIcontext) (hP : LastKidOK c)
    (h : uiCall c call = .ok c') : LastKidOK c' := by
  by_cases h1 : call = .item
  · subst h1
    simp only [uiCall, uiItem] at h
    by_cases hlim : c.count < UI_MAX_ITEMS
    · rw [if_pos hlim] at h
      simp only [Except.map] at h
      injection h with h
      rw [← h]
      intro p hp
      have hcnt : ({ c with items := c.items ++ [UIitem.fresh] } : UIcontext).count
          = c.count + 1 := by simp [UIcontext.count]
      show (UIcontext.get _ p).lastkid < ((UIcontext.count _ : Nat) : Int)
      rw [get_uiItem, hcnt]
      rw [hcnt] at hp
      by_cases hlt : p < c.count
      · rw [if_pos hlt]
        have := hP p hlt
        push_cast; omega
      · rw [if_neg hlt, if_pos (by omega)]
        show (-1 : Int) < _
        push_cast; omega
    · rw [if_neg hlim] at h
      simp only [Except.map] at h
      cases h
  · by_cases h2 : ∃ i p, call = .setParent i p
    · obtain ⟨i, p, rfl⟩ := h2
      simp only [uiCall] at h
      obtain ⟨a1, a2, a3, a4, a5, a6⟩ := uiSetParent_inv h
      rw [a6]
      intro q hq
      rw [count_uiAttached] at hq ⊢
      rcases lastkid_uiAttached c i p q with e | e
      · rw [e]; exact hP q hq
      · rw [e]; exact a2
    · by_cases h3 : call = .clear
      · subst h3
        simp only [uiCall] at h
        injection h with h
        rw [← h]
        exact LastKidOK_uiClear c
      · obtain ⟨e1, e2⟩ := links_uiCall h h1 (fun i p hx => h2 ⟨i, p, hx⟩) h3
        intro q hq
        rw [e1] at hq ⊢
        have := congrArg (fun x => x.2.2.1) (e2 q)
        have e3 : (c'.get q).lastkid = (c.get q).lastkid := this
        rw [e3]
        exact hP q hq

/-- in every context reached by API calls from a context made current, the `lastkid` field
of every live item names a live item or none -/
theorem LastKidOK_uiCalls (c0 : UIcontext) (calls : List UIcall) (c : UIcontext)
    (h : uiCalls (uiMakeCurrent c0) calls = .ok c) : LastKidOK c :=
  uiCalls_invariant LastKidOK LastKidOK_uiCall calls _ c (LastKidOK_uiClear c0) h

/-! ### The y dimension; what the claims on anchored items share -/

/-- what the claims on anchored items share: `uiProcess` succeeds, every item of the
hierarchy satisfies its placement equation, items that are not fill keep the extent of the
size pass, and the size pass gives every item with a size hint that size -/
theorem anchor_run (c : UIcontext) (t : KTree) (h : Hierarchy c t)
    (hpo : ParentOK c 0 t) (hs : SiblingRefs c) (hc : c.count ≤ UI_MAX_ITEMS)
    (hh : c.hot_item < c.count) (ha : c.active_item < c.count) :
    ∃ c' evs s cl, uiProcess c = .ok (c', evs) ∧ uiComputeBestSize (uiFuel c) c 0 = .ok s ∧
      cl.decl = c.decl ∧ (∀ q, c'.get q = cl.get q) ∧
      (∀ k ∈ t.indices, ∀ dim, dim < 2 → Placed cl k dim) ∧
      (∀ (q dim : Nat), dim < 2 →
        Int.land ((c.get q).layout_flags >>> dim) UI_HFILL ≠ UI_HFILL →
        (cl.get q).rect.v (dim + 2) = (s.get q).rect.v (dim + 2)) ∧
      (∀ q ∈ t.indices, ∀ dim, dim < 2 → (c.get q).size.v dim ≠ 0 →
        (s.get q).rect.v (dim + 2) = (c.get q).size.v dim) := by
  obtain ⟨cl, hlay, hd, hpl⟩ := uiProcessLayout_placed c t h hpo hs hc
  obtain ⟨c', evs, hp, hitems⟩ := uiProcess_total h hlay hh ha
  obtain ⟨s, hs1, hs2⟩ := layout_keeps hlay
  refine ⟨c', evs, s, cl, hp, hs1, hd, get_of_items hitems, hpl, hs2, ?_⟩
  intro q hq dim hdim hne
  have h0 : 0 ∉ t.indices := fun hx => by
    have := (IsForest_range t _ h.forest 0 hx).1
    omega
  exact (hint_uiComputeBestSize (uiFuel c)).1 c 0 t s hs1 h.forest h0 h.nodup q (Or.inr hq)
    dim hdim hne

/-! ### Presentation state, events, declarations and anchors (C11 to C20) -/

/-- when one of the four checks on the entry context fails, `uiSetParent` stops in the
entry context -/
theorem uiSetParentStop_error_of {c : UIcontext} {item parent : Int}
    (h : item ≤ 0 ∨ ¬ (0 ≤ item ∧ item < c.count) ∨ ¬ (0 ≤ parent ∧ parent < c.count) ∨
      (c.get item.toNat).parent ≠ -1) :
    uiSetParentStop c item parent = (c, some .assertion) := by
  by_cases h1 : item > 0
  · by_cases h2 : 0 ≤ item ∧ item < c.count
    · by_cases h3 : (c.get item.toNat).parent = -1
      · have h4 : ¬ (0 ≤ parent ∧ parent < c.count) := by
          rcases h with h | h | h | h
          · omega
          · exact absurd h2 h
          · exact h
          · exact absurd h3 h
        simp [uiSetParentStop, uiParent, uiItemPtr_of_valid h2.1 h2.2, uiItemPtr_error h4, h1,
          h3, bind, Except.bind, pure, Except.pure]
      · simp [uiSetParentStop, uiParent, uiItemPtr_of_valid h2.1 h2.2, h1, h3,
          bind, Except.bind, pure, Except.pure]
    · simp [uiSetParentStop, uiParent, uiItemPtr_error h2, h1,
        bind, Except.bind, pure, Except.pure]
  · simp [uiSetParentStop, h1]

/-- `uiSetParentStop` returns what `uiSetParent` returns -/
theorem uiSetParentStop_result (c : UIcontext) (item parent : Int) :
    stopResult (uiSetParentStop c item parent) = uiSetParent c item parent := by
  by_cases h : item ≤ 0 ∨ ¬ (0 ≤ item ∧ item < c.count) ∨ ¬ (0 ≤ parent ∧ parent < c.count) ∨
      (c.get item.toNat).parent ≠ -1
  · rw [uiSetParentStop_error_of h, uiSetParent_error_of h]
    rfl
  · simp only [not_or, not_not, not_le] at h
    obtain ⟨h1, h2, h3, h4⟩ := h
    simp only [uiSetParentStop, uiSetParent, uiParent, uiItemPtr_of_valid h2.1 h2.2,
      uiItemPtr_of_valid h3.1 h3.2, h1, h4, bind, Except.bind, pure, Except.pure]
    simp only [not_true_eq_false, ne_eq, not_not, if_false, if_true, reduceIte,
      not_false_eq_true]
    split
    · rename_i hl
      rfl
    · rename_i hl
      split <;> (rename_i heq; rw [heq]; rfl)

/-- `uiAllocDataStop` returns what `uiAllocData` returns, and stops in the entry context
when it fails -/
theorem uiAllocDataStop_result (c : UIcontext) (item size : Int) :
    stopResult (uiAllocDataStop c item size) = uiAllocData c item size ∧
    (∀ e, uiAllocData c item size = .error e → uiAllocDataStop c item size = (c, some e)) := by
  rw [uiAllocData_eq]
  by_cases h1 : size > 0 ∧ size < UI_MAX_DATASIZE
  · by_cases h2 : 0 ≤ item ∧ item < c.count
    · by_cases h3 : (c.get item.toNat).data < 0
      · by_cases h4 : c.datasize + size ≤ UI_MAX_BUFFERSIZE
        · rw [if_pos ⟨h1, h2, h3, h4⟩]
          refine ⟨?_, fun e he => by cases he⟩
          simp only [uiAllocDataStop, uiItemPtr_of_valid h2.1 h2.2, h1, h3, h4, stopResult]
          rfl
        · rw [if_neg (fun hx => h4 hx.2.2.2)]
          have e : uiAllocDataStop c item size = (c, some .assertion) := by
            simp [uiAllocDataStop, uiItemPtr_of_valid h2.1 h2.2, h1, h3, h4]
          rw [e]
          exact ⟨rfl, fun e he => by cases he; rfl⟩
      · rw [if_neg (fun hx => h3 hx.2.2.1)]
        have e : uiAllocDataStop c item size = (c, some .assertion) := by
          simp [uiAllocDataStop, uiItemPtr_of_valid h2.1 h2.2, h1, h3]
        rw [e]
        exact ⟨rfl, fun e he => by cases he; rfl⟩
    · rw [if_neg (fun hx => h2 hx.2.1)]
      have e : uiAllocDataStop c item size = (c, some .assertion) := by
        simp [uiAllocDataStop, uiItemPtr_error h2, h1]
      rw [e]
      exact ⟨rfl, fun e he => by cases he; rfl⟩
  · rw [if_neg (fun hx => h1 hx.1)]
    have e : uiAllocDataStop c item size = (c, some .assertion) := by
      simp [uiAllocDataStop, h1]
    rw [e]
    exact ⟨rfl, fun e he => by cases he; rfl⟩

/-- C11, amended: presentation state. `uiGetState` fails for an index that is not a live
item. For a live item it returns `UI_ACTIVE` when the item is the active item and its mask
contains `UI_BUTTON0_CAPTURE` or `UI_BUTTON0_UP`, or contains `UI_BUTTON0_HOT_UP` while the
item is also the hot item. For the active item it returns `UI_COLD` otherwise, also when that
item is the hot item. For an item that is not the active item it returns `UI_HOT` when the
item is the hot item and `UI_COLD` otherwise. -/
theorem presentation_state (c : UIcontext) (item : Int) :
    uiGetState c item =
      if 0 ≤ item ∧ item < c.count then
        .ok (if c.active_item = item then
              (if Int.land (c.get item.toNat).event_flags UI_BUTTON0_CAPTURE ≠ 0 ∨
                  Int.land (c.get item.toNat).event_flags UI_BUTTON0_UP ≠ 0 ∨
                  (Int.land (c.get item.toNat).event_flags UI_BUTTON0_HOT_UP ≠ 0 ∧
                    c.hot_item = item) then UI_ACTIVE
               else UI_COLD)
             else if c.hot_item = item then UI_HOT
             else UI_COLD)
      else .error .assertion := by
  by_cases hv : 0 ≤ item ∧ item < c.count
  · rw [if_pos hv]
    simp only [uiGetState, uiItemPtr_of_valid hv.1 hv.2, uiIsActive, uiIsHot, decide_eq_true_eq]
    by_cases ha : c.active_item = item
    · rw [if_pos ha, if_pos ha]
      by_cases h1 : Int.land (c.get item.toNat).event_flags
          (Int.lor UI_BUTTON0_CAPTURE UI_BUTTON0_UP) ≠ 0
      · rw [if_pos h1]
        have := (land_capture_up_ne_zero _).mp h1
        rw [if_pos (by tauto)]
      · rw [if_neg h1]
        have h2 := fun hx => h1 ((land_capture_up_ne_zero _).mpr hx)
        by_cases h3 : Int.land (c.get item.toNat).event_flags UI_BUTTON0_HOT_UP ≠ 0 ∧
            c.hot_item = item
        · rw [if_pos h3, if_pos (Or.inr (Or.inr h3))]
        · rw [if_neg h3, if_neg (by tauto)]
    · rw [if_neg ha, if_neg ha]
      by_cases hh : c.hot_item = item
      · rw [if_pos hh, if_pos hh]
      · rw [if_neg hh, if_neg hh]
  · rw [if_neg hv]
    simp only [uiGetState, uiItemPtr_error hv]

/-- C11 as stated fails. The context `downBoth` is reached from `downEx`, declared by
`downCalls`, by two calls of `uiProcess` with button 0 held over item 1. There item 1 is the
active item and the hot item, and its mask is `UI_BUTTON0_DOWN` alone, so that none of
`UI_BUTTON0_CAPTURE`, `UI_BUTTON0_UP`, `UI_BUTTON0_HOT_UP` is in it. `uiGetState` returns
`UI_COLD` for item 1, not `UI_HOT`. -/
theorem presentation_state_refuted :
    uiCalls (uiMakeCurrent uiCreateContext) downCalls = .ok downEx ∧
    uiProcess downEx = .ok (downHeld, [⟨1, UI_BUTTON0_DOWN⟩]) ∧
    uiProcess downHeld = .ok (downBoth, []) ∧
    downBoth.active_item = 1 ∧ downBoth.hot_item = 1 ∧
    (downBoth.get 1).event_flags = UI_BUTTON0_DOWN ∧
    Int.land (downBoth.get 1).event_flags UI_BUTTON0_CAPTURE = 0 ∧
    Int.land (downBoth.get 1).event_flags UI_BUTTON0_UP = 0 ∧
    Int.land (downBoth.get 1).event_flags UI_BUTTON0_HOT_UP = 0 ∧
    uiGetState downBoth 1 = .ok UI_COLD ∧ UI_COLD ≠ UI_HOT := by
  refine ⟨by decide, by decide, by decide, by decide, by decide, by decide, by decide,
    by decide, by decide, by decide, by decide⟩

/-- C12: subscription filter. Whenever `uiProcess` returns, each handler invocation
`(item, event)` it made goes to a live item that has a handler set (`handler ≠ 0`) and whose
subscription mask has the bit of `event`, and `event` is one of the four button events. The
handler and the mask are the ones declared before the call, which the call leaves as they
are. That `uiProcess` does return on a hierarchy is `uiProcess_total`. -/
theorem subscription_filter (c c' : UIcontext) (evs : List UIdispatch)
    (h : uiProcess c = .ok (c', evs)) :
    ∀ d ∈ evs, 0 ≤ d.item ∧ d.item < c.count ∧
      (c.get d.item.toNat).handler ≠ 0 ∧
      Int.land (c.get d.item.toNat).event_flags d.event ≠ 0 ∧
      (d.event = UI_BUTTON0_DOWN ∨ d.event = UI_BUTTON0_UP ∨ d.event = UI_BUTTON0_HOT_UP ∨
        d.event = UI_BUTTON0_CAPTURE) ∧
      (c'.get d.item.toNat).handler = (c.get d.item.toNat).handler ∧
      (c'.get d.item.toNat).event_flags = (c.get d.item.toNat).event_flags := by
  intro d hd
  obtain ⟨cl, hot, cs, h1, -, h3, h4⟩ := uiProcess_inv h
  have hdecl := decl_uiProcessLayout h1
  obtain ⟨hi, -, -, -, -, hev⟩ := uiProcessState_inv h3
  obtain ⟨a1, a2, a3, a4, a5⟩ := hev d hd
  have hitems : c'.items = cl.items := by rw [(uiProcessHandles_ok h4).1, hi]
  have e1 : ∀ q, (cl.get q).handler = (c.get q).handler := fun q =>
    by have e := congrArg UIitem.handler (get_decl_of_decl hdecl q); exact e
  have e2 : ∀ q, (cl.get q).event_flags = (c.get q).event_flags := fun q =>
    by have e := congrArg UIitem.event_flags (get_decl_of_decl hdecl q); exact e
  rw [count_of_decl hdecl] at a2
  rw [e1] at a3
  rw [e2] at a4
  refine ⟨a1, a2, a3, a4, a5, ?_, ?_⟩
  · rw [get_of_items hitems, e1]
  · rw [get_of_items hitems, e2]

/-- C12 at the pointer example: with button 0 going down over item 1, `uiProcess` makes
the one invocation `(1, UI_BUTTON0_DOWN)`, and item 1 has a handler whose mask contains
`UI_BUTTON0_DOWN`. -/
theorem subscription_filter_witness :
    uiProcess pressEx = .ok (heldEx, [⟨1, UI_BUTTON0_DOWN⟩]) ∧
    (pressEx.get 1).handler ≠ 0 ∧
    Int.land (pressEx.get 1).event_flags UI_BUTTON0_DOWN ≠ 0 := by
  have h := subscription_filter pressEx heldEx [⟨1, UI_BUTTON0_DOWN⟩] (by decide)
    ⟨1, UI_BUTTON0_DOWN⟩ (List.mem_singleton.mpr rfl)
  exact ⟨by decide, h.2.2.1, h.2.2.2.1⟩

/-- C13: attach failure. In every context `c` reached by API calls from a context made
current, `uiSetParent c item parent` fails exactly when `item ≤ 0`, or `item` or `parent` is
not the index of a live item, or the `parent` field of the item is not `-1`, whichever parent
it names. When it fails, the failed assertion comes before every write: `uiSetParentStop`,
which is `uiSetParent` returning also the context it stops in, stops in `c` itself. The last
part says that `uiSetParentStop` and `uiSetParent` return the same result. -/
theorem attach_failure (c0 : UIcontext) (calls : List UIcall) (c : UIcontext)
    (hr : uiCalls (uiMakeCurrent c0) calls = .ok c) (item parent : Int) :
    ((∃ e, uiSetParent c item parent = .error e) ↔
      (item ≤ 0 ∨ (c.count : Int) ≤ item ∨ parent < 0 ∨ (c.count : Int) ≤ parent ∨
        (c.get item.toNat).parent ≠ -1)) ∧
    (∀ e, uiSetParent c item parent = .error e →
      uiSetParentStop c item parent = (c, some e)) ∧
    stopResult (uiSetParentStop c item parent) = uiSetParent c item parent := by
  have hl := LastKidOK_uiCalls c0 calls c hr
  have key : (item ≤ 0 ∨ (c.count : Int) ≤ item ∨ parent < 0 ∨ (c.count : Int) ≤ parent ∨
        (c.get item.toNat).parent ≠ -1) →
      (item ≤ 0 ∨ ¬ (0 ≤ item ∧ item < c.count) ∨ ¬ (0 ≤ parent ∧ parent < c.count) ∨
        (c.get item.toNat).parent ≠ -1) := by
    intro hx
    rcases hx with hx | hx | hx | hx | hx
    · exact Or.inl hx
    · exact Or.inr (Or.inl (fun hy => by omega))
    · exact Or.inr (Or.inr (Or.inl (fun hy => by omega)))
    · exact Or.inr (Or.inr (Or.inl (fun hy => by omega)))
    · exact Or.inr (Or.inr (Or.inr hx))
  have ok : ¬ (item ≤ 0 ∨ (c.count : Int) ≤ item ∨ parent < 0 ∨ (c.count : Int) ≤ parent ∨
        (c.get item.toNat).parent ≠ -1) →
      uiSetParent c item parent = .ok (uiAttached c item parent) := by
    intro hx
    simp only [not_or, not_not, not_le, not_lt] at hx
    obtain ⟨h1, h2, h3, h4, h5⟩ := hx
    have hp : parent.toNat < c.count := by omega
    exact uiSetParent_ok h1 h2 h3 h4 h5 (hl _ hp)
  refine ⟨⟨?_, fun hx => ⟨_, uiSetParent_error_of (key hx)⟩⟩, ?_, uiSetParentStop_result c item parent⟩
  · intro ⟨e, he⟩
    by_contra hx
    rw [ok hx] at he
    cases he
  · intro e he
    by_cases hx : item ≤ 0 ∨ (c.count : Int) ≤ item ∨ parent < 0 ∨ (c.count : Int) ≤ parent ∨
        (c.get item.toNat).parent ≠ -1
    · rw [uiSetParent_error_of (key hx)] at he
      injection he with he
      rw [← he]
      exact uiSetParentStop_error_of (key hx)
    · rw [ok hx] at he
      cases he

/-- C13 at the pointer example: item 1 of `overEx` is attached to the root, so attaching
it to the root again fails, and the call stops in `overEx` unchanged. -/
theorem attach_failure_witness :
    uiCalls (uiMakeCurrent uiCreateContext) pointerCalls = .ok overEx ∧
    (overEx.get 1).parent = 0 ∧
    (∃ e, uiSetParent overEx 1 0 = .error e) ∧
    (∀ e, uiSetParent overEx 1 0 = .error e → uiSetParentStop overEx 1 0 = (overEx, some e)) :=
  ⟨by decide, by decide,
    (attach_failure uiCreateContext pointerCalls overEx (by decide) 1 0).1.mpr
      (Or.inr (Or.inr (Or.inr (Or.inr (by decide))))),
    (attach_failure uiCreateContext pointerCalls overEx (by decide) 1 0).2.1⟩

/-- C14: item creation. `UI_MAX_ITEMS` is 4096; `uiItem` fails exactly when the context
holds `UI_MAX_ITEMS` items or more, the root counted. Otherwise it returns the old item count
as the new index; the count grows by one, every old item is unchanged, and the new item has
no parent, no children, no next sibling, no data, handle 0, size hint 0, margins 0, flags 0
and all four neighbor references `-1`; the data size and the hot and active item are
unchanged. -/
theorem item_creation (c : UIcontext) :
    UI_MAX_ITEMS = 4096 ∧
    ((∃ e, uiItem c = .error e) ↔ UI_MAX_ITEMS ≤ c.count) ∧
    (c.count < UI_MAX_ITEMS →
      ∃ c', uiItem c = .ok (c', (c.count : Int)) ∧ c'.count = c.count + 1 ∧
        (∀ q, q < c.count → c'.get q = c.get q) ∧
        (c'.get c.count).parent = -1 ∧ (c'.get c.count).numkids = 0 ∧
        (c'.get c.count).firstkid = -1 ∧ (c'.get c.count).lastkid = -1 ∧
        (c'.get c.count).nextitem = -1 ∧ (c'.get c.count).data = -1 ∧
        (c'.get c.count).handle = 0 ∧ (c'.get c.count).size = ⟨0, 0⟩ ∧
        (c'.get c.count).margins = ⟨0, 0, 0, 0⟩ ∧ (c'.get c.count).layout_flags = 0 ∧
        (c'.get c.count).relto = ⟨-1, -1, -1, -1⟩ ∧
        c'.datasize = c.datasize ∧ c'.hot_item = c.hot_item ∧
        c'.active_item = c.active_item) := by
  refine ⟨rfl, ?_, ?_⟩
  · unfold uiItem
    by_cases h : c.count < UI_MAX_ITEMS
    · rw [if_pos h]
      constructor
      · intro ⟨e, he⟩; cases he
      · intro hx; omega
    · rw [if_neg h]
      exact ⟨fun _ => by omega, fun _ => ⟨_, rfl⟩⟩
  · intro h
    unfold uiItem
    rw [if_pos h]
    have hg : ({ c with items := c.items ++ [UIitem.fresh] } : UIcontext).get c.count
        = UIitem.fresh := by
      rw [get_uiItem, if_neg (lt_irrefl _), if_pos rfl]
    refine ⟨_, rfl, by simp [UIcontext.count], ?_, ?_⟩
    · intro q hq
      rw [get_uiItem, if_pos hq]
    · rw [hg]
      exact ⟨rfl, rfl, rfl, rfl, rfl, rfl, rfl, rfl, rfl, rfl, rfl, rfl, rfl, rfl⟩

/-- C15: data allocation. `uiAllocData c item size` fails when the item already holds data
(`0 ≤ data`; for an index that is not a live item the call fails as well) and fails when
`c.datasize + size` exceeds `UI_MAX_BUFFERSIZE`. Whenever it fails, it stops in the context
`c` itself: `uiAllocDataStop`, which is `uiAllocData` returning also the context it stops
in, returns the same result and `c` at a failure. It succeeds exactly when
`0 < size < UI_MAX_DATASIZE`, the item is live and holds no data, and the buffer has room;
then the data offset of the item is the old `datasize`, the new `datasize` is the old one
plus `size`, and nothing else in the items changes. -/
theorem alloc_data (c : UIcontext) (item size : Int) :
    (0 ≤ (c.get item.toNat).data → uiAllocData c item size = .error .assertion) ∧
    (UI_MAX_BUFFERSIZE < c.datasize + size → uiAllocData c item size = .error .assertion) ∧
    (∀ e, uiAllocData c item size = .error e → uiAllocDataStop c item size = (c, some e)) ∧
    stopResult (uiAllocDataStop c item size) = uiAllocData c item size ∧
    ((∃ c', uiAllocData c item size = .ok c') ↔
      (0 < size ∧ size < UI_MAX_DATASIZE) ∧ (0 ≤ item ∧ item < c.count) ∧
        (c.get item.toNat).data < 0 ∧ c.datasize + size ≤ UI_MAX_BUFFERSIZE) ∧
    (∀ c', uiAllocData c item size = .ok c' →
      (c'.get item.toNat).data = c.datasize ∧ c'.datasize = c.datasize + size ∧
      c'.count = c.count ∧ (∀ q, q ≠ item.toNat → c'.get q = c.get q) ∧
      c'.get item.toNat = { c.get item.toNat with data := c.datasize }) := by
  obtain ⟨s1, s2⟩ := uiAllocDataStop_result c item size
  refine ⟨?_, ?_, s2, s1, ?_, ?_⟩
  · intro h
    rw [uiAllocData_eq, if_neg (fun hx => by omega)]
  · intro h
    rw [uiAllocData_eq, if_neg (fun hx => by omega)]
  · rw [uiAllocData_eq]
    constructor
    · intro ⟨c', h⟩
      by_contra hx
      rw [if_neg hx] at h
      cases h
    · intro hx
      rw [if_pos hx]
      exact ⟨_, rfl⟩
  · intro c' h
    rw [uiAllocData_eq] at h
    split at h
    · rename_i hx
      injection h with h
      have hg : ∀ q, c'.get q =
          (c.modify item.toNat (fun i => { i with data := c.datasize })).get q := by
        intro q; rw [← h]; rfl
      have hi : c'.items =
          (c.modify item.toNat (fun i => { i with data := c.datasize })).items := by
        rw [← h]
      have hp : item.toNat < c.count := by omega
      refine ⟨?_, by rw [← h], (count_of_items hi).trans (count_modify _ _ _), ?_, ?_⟩
      · rw [hg, get_modify, if_pos ⟨rfl, hp⟩]
      · intro q hq
        rw [hg, get_modify, if_neg (fun hy => hq hy.1)]
      · rw [hg, get_modify, if_pos ⟨rfl, hp⟩]
    · cases h

/-- C16: the size limit of one allocation, evaluated on the code. `UI_MAX_DATASIZE` is
4096, and `uiAllocData` rejects the size `UI_MAX_DATASIZE` in every context and for every
item. In `overEx`, where item 1 holds no data and the buffer is empty, the size 4096 is
rejected and the size 4095 is accepted. For a live item without data and with room in the
buffer, `uiAllocData` succeeds exactly for `1 ≤ size ≤ UI_MAX_DATASIZE - 1`. -/
theorem alloc_data_size_limit :
    UI_MAX_DATASIZE = 4096 ∧
    (∀ (c : UIcontext) (item : Int), uiAllocData c item UI_MAX_DATASIZE = .error .assertion) ∧
    uiCalls (uiMakeCurrent uiCreateContext) pointerCalls = .ok overEx ∧
    (overEx.get 1).data < 0 ∧ overEx.datasize + 4096 ≤ UI_MAX_BUFFERSIZE ∧
    uiAllocData overEx 1 4096 = .error .assertion ∧
    (∃ c', uiAllocData overEx 1 4095 = .ok c') ∧
    (∀ (c : UIcontext) (item size : Int), 0 ≤ item → item < c.count →
      (c.get item.toNat).data < 0 → c.datasize + size ≤ UI_MAX_BUFFERSIZE →
      ((∃ c', uiAllocData c item size = .ok c') ↔ 1 ≤ size ∧ size ≤ UI_MAX_DATASIZE - 1)) := by
  refine ⟨rfl, ?_, by decide, by decide, by decide, ?_, ?_, ?_⟩
  · intro c item
    rw [uiAllocData_eq, if_neg (fun hx => lt_irrefl _ hx.1.2)]
  · rw [uiAllocData_eq, if_neg (fun hx => by have := hx.1.2; revert this; decide)]
  · rw [uiAllocData_eq, if_pos (by decide)]
    exact ⟨_, rfl⟩
  · intro c item size h0 h1 h2 h3
    rw [uiAllocData_eq]
    constructor
    · intro ⟨c', h⟩
      by_contra hx
      rw [if_neg (fun hy => hx ⟨by omega, by omega⟩)] at h
      cases h
    · intro hx
      rw [if_pos ⟨⟨by omega, by omega⟩, ⟨h0, h1⟩, h2, h3⟩]
      exact ⟨_, rfl⟩

/-- C17: frame reset. After `uiClear` the item count is 1; the root has no parent, no
children, no next sibling, no data, and zero size hint, margins and flags; the used data
size is 0 and `hot_item` and `active_item` are `-1`. The two handles, the interaction state,
the two button masks and the current, previous and drag-start cursors are unchanged. -/
theorem frame_reset (c : UIcontext) :
    (uiClear c).count = 1 ∧
    ((uiClear c).get 0).parent = -1 ∧ ((uiClear c).get 0).numkids = 0 ∧
    ((uiClear c).get 0).firstkid = -1 ∧ ((uiClear c).get 0).lastkid = -1 ∧
    ((uiClear c).get 0).nextitem = -1 ∧ ((uiClear c).get 0).data = -1 ∧
    ((uiClear c).get 0).size = ⟨0, 0⟩ ∧ ((uiClear c).get 0).margins = ⟨0, 0, 0, 0⟩ ∧
    ((uiClear c).get 0).layout_flags = 0 ∧
    (uiClear c).datasize = 0 ∧ (uiClear c).hot_item = -1 ∧ (uiClear c).active_item = -1 ∧
    (uiClear c).hot_handle = c.hot_handle ∧ (uiClear c).active_handle = c.active_handle ∧
    (uiClear c).state = c.state ∧ (uiClear c).buttons = c.buttons ∧
    (uiClear c).last_buttons = c.last_buttons ∧ (uiClear c).cursor = c.cursor ∧
    (uiClear c).last_cursor = c.last_cursor ∧ (uiClear c).start_cursor = c.start_cursor :=
  ⟨rfl, rfl, rfl, rfl, rfl, rfl, rfl, rfl, rfl, rfl, rfl, rfl, rfl, rfl, rfl, rfl, rfl, rfl,
    rfl, rfl, rfl⟩

/-- C18: anchor-left placement. In a hierarchy whose neighbor references are `-1` or
earlier-created siblings, `uiProcess` succeeds, and afterwards every item `k` below the root
whose flags in dimension `dim` have the near bit and not the far bit (`UI_LEFT` without
`UI_RIGHT` in `layout_flags >>> dim`, which for `dim = 1` are `UI_TOP` and `UI_DOWN`, see
`flags_y`) has position `L + near margin`, where `L = nearEdge` is the far edge (position
plus extent) of its near neighbor, or 0 without one. Its extent is the one the size pass
`uiComputeBestSize` gave it, which is its size hint when that is not zero. -/
theorem anchor_near_placement (c : UIcontext) (t : KTree) (h : Hierarchy c t)
    (hpo : ParentOK c 0 t) (hs : SiblingRefs c) (hc : c.count ≤ UI_MAX_ITEMS)
    (hh : c.hot_item < c.count) (ha : c.active_item < c.count) :
    ∃ c' evs s, uiProcess c = .ok (c', evs) ∧ uiComputeBestSize (uiFuel c) c 0 = .ok s ∧
      ∀ k ∈ t.indices, ∀ dim : Nat, dim < 2 →
        Int.land ((c.get k).layout_flags >>> dim) UI_LEFT ≠ 0 →
        Int.land ((c.get k).layout_flags >>> dim) UI_RIGHT = 0 →
        (c'.get k).rect.v dim = nearEdge c c' k dim + (c.get k).margins.v dim ∧
        (c'.get k).rect.v (dim + 2) = (s.get k).rect.v (dim + 2) ∧
        ((c.get k).size.v dim ≠ 0 → (c'.get k).rect.v (dim + 2) = (c.get k).size.v dim) := by
  obtain ⟨c', evs, s, cl, hp, hsz, hd, e, hpl, hkeep, hhint⟩ := anchor_run c t h hpo hs hc hh ha
  refine ⟨c', evs, s, hp, hsz, ?_⟩
  intro k hk dim hdim h1 h2
  have hkc : k < c.count := (IsForest_range t _ h.forest k hk).2
  have hnf : Int.land ((c.get k).layout_flags >>> dim) UI_HFILL ≠ UI_HFILL := fun hx =>
    (((land_hfill_cases _).2.2.1).mp hx).2 h2
  have hpos := placed_near hd hs hkc (ParentOK_attached t 0 hpo k hk) hdim h1 h2
    (hpl k hk dim hdim)
  have hext := hkeep k dim hdim hnf
  refine ⟨?_, ?_, ?_⟩
  · unfold nearEdge at hpos ⊢
    simp only [e]
    exact hpos
  · rw [e]; exact hext
  · intro hne
    rw [e, hext]
    exact hhint k hk dim hdim hne

/-- C19: anchor-right placement. In a hierarchy whose neighbor references are `-1` or
earlier-created siblings, `uiProcess` succeeds, and afterwards every item `k` below the root
whose flags in dimension `dim` have the far bit and not the near bit (`UI_RIGHT` without
`UI_LEFT` in `layout_flags >>> dim`, which for `dim = 1` are `UI_DOWN` and `UI_TOP`, see
`flags_y`) has position `R - own extent - far margin`, where `R = farEdge` is the position of
its far neighbor, or the extent of its parent without one. Its extent is the one the size
pass `uiComputeBestSize` gave it. -/
theorem anchor_far_placement (c : UIcontext) (t : KTree) (h : Hierarchy c t)
    (hpo : ParentOK c 0 t) (hs : SiblingRefs c) (hc : c.count ≤ UI_MAX_ITEMS)
    (hh : c.hot_item < c.count) (ha : c.active_item < c.count) :
    ∃ c' evs s, uiProcess c = .ok (c', evs) ∧ uiComputeBestSize (uiFuel c) c 0 = .ok s ∧
      ∀ k ∈ t.indices, ∀ dim : Nat, dim < 2 →
        Int.land ((c.get k).layout_flags >>> dim) UI_LEFT = 0 →
        Int.land ((c.get k).layout_flags >>> dim) UI_RIGHT ≠ 0 →
        (c'.get k).rect.v dim =
          farEdge c c' k dim - (c'.get k).rect.v (dim + 2) - (c.get k).margins.v (dim + 2) ∧
        (c'.get k).rect.v (dim + 2) = (s.get k).rect.v (dim + 2) := by
  obtain ⟨c', evs, s, cl, hp, hsz, hd, e, hpl, hkeep, -⟩ := anchor_run c t h hpo hs hc hh ha
  refine ⟨c', evs, s, hp, hsz, ?_⟩
  intro k hk dim hdim h1 h2
  have hkc : k < c.count := (IsForest_range t _ h.forest k hk).2
  have hnf : Int.land ((c.get k).layout_flags >>> dim) UI_HFILL ≠ UI_HFILL := fun hx =>
    (((land_hfill_cases _).2.2.1).mp hx).1 h1
  have hpos := placed_far hd hs hkc (ParentOK_attached t 0 hpo k hk) hdim h1 h2
    (hpl k hk dim hdim)
  refine ⟨?_, ?_⟩
  · unfold farEdge at hpos ⊢
    simp only [e]
    exact hpos
  · rw [e]; exact hkeep k dim hdim hnf

/-- C20, amended: centre placement. In a hierarchy whose neighbor references are `-1` or
earlier-created siblings, `uiProcess` succeeds, and afterwards every item `k` below the root
with neither the near nor the far bit in dimension `dim` has position
`0 + (parent extent - own extent) / 2 + near margin`, the division truncating toward zero.
Without the two bits the neighbor references of the item are not followed, so that the
equation holds with or without them. -/
theorem centre_placement (c : UIcontext) (t : KTree) (h : Hierarchy c t)
    (hpo : ParentOK c 0 t) (hs : SiblingRefs c) (hc : c.count ≤ UI_MAX_ITEMS)
    (hh : c.hot_item < c.count) (ha : c.active_item < c.count) :
    ∃ c' evs, uiProcess c = .ok (c', evs) ∧
      ∀ k ∈ t.indices, ∀ dim : Nat, dim < 2 →
        Int.land ((c.get k).layout_flags >>> dim) UI_LEFT = 0 →
        Int.land ((c.get k).layout_flags >>> dim) UI_RIGHT = 0 →
        (c'.get k).rect.v dim =
          0 + Int.tdiv ((c'.get (c.get k).parent.toNat).rect.v (dim + 2) -
            (c'.get k).rect.v (dim + 2)) 2 + (c.get k).margins.v dim := by
  obtain ⟨c', evs, s, cl, hp, hsz, hd, e, hpl, -, -⟩ := anchor_run c t h hpo hs hc hh ha
  refine ⟨c', evs, hp, ?_⟩
  intro k hk dim hdim h1 h2
  have hpos := placed_centre hd h1 h2 (hpl k hk dim hdim)
  simp only [e]
  rw [zero_add]
  exact hpos

/-- C18 at the pointer example: the child of `overEx` is anchored left and top with left
and top margin 10, size hint 20 x 20 and no neighbors; after `uiProcess` its rect is
(10, 10, 20, 20). -/
theorem anchor_near_placement_witness :
    uiCalls (uiMakeCurrent uiCreateContext) pointerCalls = .ok overEx ∧
    ∃ c' evs, uiProcess overEx = .ok (c', evs) ∧
      (c'.get 1).rect.x = 10 ∧ (c'.get 1).rect.y = 10 ∧
      (c'.get 1).rect.w = 20 ∧ (c'.get 1).rect.h = 20 := by
  obtain ⟨c', evs, s, h, -, hk⟩ := anchor_near_placement overEx oneChild
    ⟨by decide, by decide, by decide⟩ (by decide) (by decide) (by decide) (by decide)
    (by decide)
  obtain ⟨x1, -, x3⟩ := hk 1 (by decide) 0 (by decide) (by decide) (by decide)
  obtain ⟨y1, -, y3⟩ := hk 1 (by decide) 1 (by decide) (by decide) (by decide)
  have n0 : nearEdge overEx c' 1 0 = 0 := by
    unfold nearEdge; rw [if_pos (by decide)]
  have n1 : nearEdge overEx c' 1 1 = 0 := by
    unfold nearEdge; rw [if_pos (by decide)]
  have m0 : (overEx.get 1).margins.v 0 = 10 := by decide
  have m1 : (overEx.get 1).margins.v 1 = 10 := by decide
  have s0 : (overEx.get 1).size.v 0 = 20 := by decide
  have s1 : (overEx.get 1).size.v 1 = 20 := by decide
  rw [n0, m0] at x1
  rw [n1, m1] at y1
  have x4 := x3 (by decide)
  have y4 := y3 (by decide)
  rw [s0] at x4
  rw [s1] at y4
  refine ⟨by decide, c', evs, h, ?_, ?_, ?_, ?_⟩
  · simpa [UIrect.v] using x1
  · simpa [UIrect.v] using y1
  · simpa [UIrect.v] using x4
  · simpa [UIrect.v] using y4

/-- C19 at the far example: the child of `farEx` is anchored right and down with right
margin 3, bottom margin 4 and size 20 x 20 in a root of size 100 x 100; after `uiProcess` it
is at `x = 100 - 20 - 3 = 77` and `y = 100 - 20 - 4 = 76`. -/
theorem anchor_far_placement_witness :
    uiCalls (uiMakeCurrent uiCreateContext) farCalls = .ok farEx ∧
    ∃ c' evs, uiProcess farEx = .ok (c', evs) ∧
      (c'.get 0).rect.w = 100 ∧ (c'.get 0).rect.h = 100 ∧
      (c'.get 1).rect.w = 20 ∧ (c'.get 1).rect.h = 20 ∧
      (c'.get 1).rect.x = 77 ∧ (c'.get 1).rect.y = 76 := by
  obtain ⟨c', evs, s, h, -, hk⟩ := anchor_far_placement farEx oneChild
    ⟨by decide, by decide, by decide⟩ (by decide) (by decide) (by decide) (by decide)
    (by decide)
  have e : (uiProcess farEx).map (fun r => ((r.1.get 0).rect.v 2, (r.1.get 0).rect.v 3,
      (r.1.get 1).rect.v 2, (r.1.get 1).rect.v 3)) = .ok (100, 100, 20, 20) := by decide
  rw [h] at e
  simp only [Except.map, Except.ok.injEq, Prod.mk.injEq] at e
  obtain ⟨e0, e1, e2, e3⟩ := e
  obtain ⟨x1, -⟩ := hk 1 (by decide) 0 (by decide) (by decide) (by decide)
  obtain ⟨y1, -⟩ := hk 1 (by decide) 1 (by decide) (by decide) (by decide)
  have f0 : farEdge farEx c' 1 0 = (c'.get 0).rect.v 2 := by
    unfold farEdge; rw [if_pos (by decide)]; rfl
  have f1 : farEdge farEx c' 1 1 = (c'.get 0).rect.v 3 := by
    unfold farEdge; rw [if_pos (by decide)]; rfl
  have m0 : (farEx.get 1).margins.v (0 + 2) = 3 := by decide
  have m1 : (farEx.get 1).margins.v (1 + 2) = 4 := by decide
  rw [f0, m0, e0, e2] at x1
  rw [f1, m1, e1, e3] at y1
  refine ⟨by decide, c', evs, h, ?_, ?_, ?_, ?_, ?_, ?_⟩
  · simpa [UIrect.v] using e0
  · simpa [UIrect.v] using e1
  · simpa [UIrect.v] using e2
  · simpa [UIrect.v] using e3
  · simpa [UIrect.v] using x1
  · simpa [UIrect.v] using y1

/-- the layout of the cross example: item 2, a child of item 1 of width 50, is placed in the
span of the root, of width 100, because item 3, a child of the root, names it as neighbor -/
theorem cross_layout :
    ∃ c' evs, uiProcess crossEx = .ok (c', evs) ∧
      (c'.get 1).rect = ⟨0, 0, 50, 50⟩ ∧ (c'.get 2).rect = ⟨45, 20, 10, 10⟩ := by
  have s1 : uiComputeBestSize (uiFuel crossEx) crossEx 0 = .ok crossSized := by decide
  have s2 : (crossSized.modify 0
      (fun i => { i with rect := { i.rect with x := i.margins.v 0 } })).modify 0
      (fun i => { i with rect := { i.rect with y := i.margins.v 1 } }) = crossSized := by
    decide
  have s3 : (uiLayoutItem (uiFuel crossSized) (uiFuel crossSized) crossSized 0).map
      (fun r => ((r.get 1).rect, (r.get 2).rect))
        = .ok (⟨0, 0, 50, 50⟩, ⟨45, 20, 10, 10⟩) := by decide
  have e : uiProcessLayout crossEx =
      uiLayoutItem (uiFuel crossSized) (uiFuel crossSized) crossSized 0 := by
    unfold uiProcessLayout
    rw [s1]
    simp only
    rw [show uiItemPtr crossSized 0 = .ok 0 from by decide]
    simp only
    rw [s2]
  cases hl : uiLayoutItem (uiFuel crossSized) (uiFuel crossSized) crossSized 0 with
  | error err =>
    rw [hl] at s3
    cases s3
  | ok cl =>
    rw [hl] at s3 e
    simp only [Except.map, Except.ok.injEq, Prod.mk.injEq] at s3
    obtain ⟨c', evs, hp, hitems⟩ := uiProcess_total (t := crossTree)
      ⟨by decide, by decide, by decide⟩ e (by decide) (by decide)
    refine ⟨c', evs, hp, ?_, ?_⟩
    · rw [get_of_items hitems]; exact s3.1
    · rw [get_of_items hitems]; exact s3.2

/-- C20 as stated fails, in two ways. First, the child of `centreEx` has no flags, no
neighbors and left margin 10 in a root of width 100; after `uiProcess` it has width 20 and is
at `x = 50`, which is not `0 + (100 - 20) / 2`: the near margin is added. Second, in
`crossEx` item 2 has no flags, no neighbors and no margins, and its parent, item 1, has width
50; item 3, a child of the root, names item 2 as its left neighbor. After `uiProcess`
item 2 has width 10 and is at `x = 45`, which is not `0 + (50 - 10) / 2`: it was placed in
the span of the root, the parent of item 3. -/
theorem centre_placement_refuted :
    (uiCalls (uiMakeCurrent uiCreateContext) centreCalls = .ok centreEx ∧
      uiProcess centreEx = .ok (centreDone, []) ∧
      Int.land (centreEx.get 1).layout_flags UI_LEFT = 0 ∧
      Int.land (centreEx.get 1).layout_flags UI_RIGHT = 0 ∧
      (centreEx.get 1).relto = ⟨-1, -1, -1, -1⟩ ∧ (centreEx.get 1).parent = 0 ∧
      (centreEx.get 1).margins = ⟨10, 0, 0, 0⟩ ∧
      (centreDone.get 0).rect.w = 100 ∧ (centreDone.get 1).rect.w = 20 ∧
      (centreDone.get 1).rect.x = 50 ∧
      (centreDone.get 1).rect.x ≠
        0 + Int.tdiv ((centreDone.get 0).rect.w - (centreDone.get 1).rect.w) 2) ∧
    (uiCalls (uiMakeCurrent uiCreateContext) crossCalls = .ok crossEx ∧
      Int.land (crossEx.get 2).layout_flags UI_LEFT = 0 ∧
      Int.land (crossEx.get 2).layout_flags UI_RIGHT = 0 ∧
      (crossEx.get 2).relto = ⟨-1, -1, -1, -1⟩ ∧ (crossEx.get 2).parent = 1 ∧
      (crossEx.get 2).margins = ⟨0, 0, 0, 0⟩ ∧
      ∃ c' evs, uiProcess crossEx = .ok (c', evs) ∧
        (c'.get 1).rect.w = 50 ∧ (c'.get 2).rect.w = 10 ∧ (c'.get 2).rect.x = 45 ∧
        (c'.get 2).rect.x ≠ 0 + Int.tdiv ((c'.get 1).rect.w - (c'.get 2).rect.w) 2) := by
  refine ⟨⟨by decide, by decide, by decide, by decide, by decide, by decide, by decide,
    by decide, by decide, by decide, by decide⟩,
    by decide, by decide, by decide, by decide, by decide, by decide, ?_⟩
  obtain ⟨c', evs, hp, h1, h2⟩ := cross_layout
  refine ⟨c', evs, hp, ?_, ?_, ?_, ?_⟩
  · rw [h1]
  · rw [h2]
  · rw [h2]
  · rw [h1, h2]; decide

/-- C20, amended, at the centre example: the child of `centreEx` has no flags, size
20 x 20 and left margin 10 in a root of size 100 x 100; after `uiProcess` it is at
`x = (100 - 20) / 2 + 10 = 50` and `y = (100 - 20) / 2 = 40`. -/
theorem centre_placement_witness :
    uiCalls (uiMakeCurrent uiCreateContext) centreCalls = .ok centreEx ∧
    ∃ c' evs, uiProcess centreEx = .ok (c', evs) ∧
      (c'.get 0).rect.w = 100 ∧ (c'.get 0).rect.h = 100 ∧
      (c'.get 1).rect.w = 20 ∧ (c'.get 1).rect.h = 20 ∧
      (c'.get 1).rect.x = 50 ∧ (c'.get 1).rect.y = 40 := by
  obtain ⟨c', evs, h, hk⟩ := centre_placement centreEx oneChild
    ⟨by decide, by decide, by decide⟩ (by decide) (by decide) (by decide) (by decide)
    (by decide)
  have e : (uiProcess centreEx).map (fun r => ((r.1.get 0).rect.v 2, (r.1.get 0).rect.v 3,
      (r.1.get 1).rect.v 2, (r.1.get 1).rect.v 3)) = .ok (100, 100, 20, 20) := by decide
  rw [h] at e
  simp only [Except.map, Except.ok.injEq, Prod.mk.injEq] at e
  obtain ⟨e0, e1, e2, e3⟩ := e
  have x1 := hk 1 (by decide) 0 (by decide) (by decide) (by decide)
  have y1 := hk 1 (by decide) 1 (by decide) (by decide) (by decide)
  have p0 : (centreEx.get 1).parent.toNat = 0 := by decide
  have m0 : (centreEx.get 1).margins.v 0 = 10 := by decide
  have m1 : (centreEx.get 1).margins.v 1 = 0 := by decide
  rw [p0, m0, e0, e2] at x1
  rw [p0, m1, e1, e3] at y1
  refine ⟨by decide, c', evs, h, ?_, ?_, ?_, ?_, ?_, ?_⟩
  · simpa [UIrect.v] using e0
  · simpa [UIrect.v] using e1
  · simpa [UIrect.v] using e2
  · simpa [UIrect.v] using e3
  · simpa [UIrect.v] using x1
  · simpa [UIrect.v] using y1

/-! ### Button state (C30) -/

theorem uiButtonMask_lt {b : Nat} (hb : b < 64) : uiButtonMask b = 2 ^ b := by
  unfold uiButtonMask
  rw [Nat.shiftLeft_eq, one_mul]
  exact Nat.mod_eq_of_lt (Nat.pow_lt_pow_right (by decide) hb)

theorem and_two_pow_ne_zero (x b : Nat) : x &&& 2 ^ b ≠ 0 ↔ x.testBit b = true := by
  constructor
  · intro h
    by_contra hx
    apply h
    apply Nat.eq_of_testBit_eq
    intro k
    rw [Nat.testBit_and, Nat.testBit_two_pow, Nat.zero_testBit]
    by_cases hk : b = k
    · subst hk; simp [hx]
    · simp [hk]
  · intro h h0
    have := congrArg (fun y => y.testBit b) h0
    simp [Nat.testBit_and, Nat.testBit_two_pow, h] at this

/-- the bits of the mask that clears button `b` -/
theorem testBit_clear_mask {b : Nat} (hb : b < 64) (k : Nat) :
    (2 ^ 64 - 1 - 2 ^ b).testBit k = (decide (k < 64) && decide (k ≠ b)) := by
  have e : 2 ^ 64 - 1 - 2 ^ b = 2 ^ (b + 1) * (2 ^ (63 - b) - 1) + (2 ^ b - 1) := by
    have h1 : (2 : Nat) ^ 64 = 2 ^ (b + 1) * 2 ^ (63 - b) := by
      rw [← Nat.pow_add]; congr 1; omega
    have h2 : (2 : Nat) ^ (b + 1) = 2 * 2 ^ b := by rw [Nat.pow_succ]; ring
    have h3 : 0 < 2 ^ (63 - b) := Nat.pow_pos (by decide)
    have h4 : 0 < 2 ^ b := Nat.pow_pos (by decide)
    rw [h1, h2]
    generalize 2 ^ (63 - b) = u at h3 ⊢
    generalize 2 ^ b = v at h4 ⊢
    obtain ⟨u', rfl⟩ := Nat.exists_eq_succ_of_ne_zero (Nat.pos_iff_ne_zero.mp h3)
    obtain ⟨v', rfl⟩ := Nat.exists_eq_succ_of_ne_zero (Nat.pos_iff_ne_zero.mp h4)
    simp only [Nat.succ_eq_add_one, Nat.add_sub_cancel]
    have : 2 * (v' + 1) * (u' + 1) = 2 * (v' + 1) * u' + (v' + 1) + (v' + 1) := by ring
    omega
  rw [e, Nat.testBit_mul_pow_two_add _ (by
    have := Nat.pow_pos (n := b) (show 0 < 2 by decide)
    rw [Nat.pow_succ]; omega)]
  by_cases hk : k < b + 1
  · rw [if_pos hk, Nat.testBit_two_pow_sub_one]
    by_cases hkb : k = b
    · subst hkb; simp
    · have : k < b := by omega
      simp [this, hkb]; omega
  · rw [if_neg hk, Nat.testBit_two_pow_sub_one]
    have hkb : k ≠ b := by omega
    simp only [hkb, ne_eq, not_false_eq_true, decide_True, Bool.and_true]
    congr 1
    apply propext
    constructor <;> intro h <;> omega

theorem uiGetButton_eq (c : UIcontext) {b : Nat} (hb : b < 64) :
    uiGetButton c b = if c.buttons.testBit b = true then 1 else 0 := by
  unfold uiGetButton
  rw [uiButtonMask_lt hb]
  by_cases h : c.buttons.testBit b = true
  · rw [if_pos h, if_pos ((and_two_pow_ne_zero _ _).mpr h)]
  · rw [if_neg h, if_neg (fun hx => h ((and_two_pow_ne_zero _ _).mp hx))]

theorem testBit_uiSetButton (c : UIcontext) {b : Nat} (hb : b < 64) (e : Int) (k : Nat)
    (hk : k < 64) :
    (uiSetButton c b e).buttons.testBit k =
      if k = b then decide (e ≠ 0) else c.buttons.testBit k := by
  unfold uiSetButton
  simp only
  rw [uiButtonMask_lt hb]
  by_cases he : e ≠ 0
  · rw [if_pos he, Nat.testBit_or, Nat.testBit_two_pow]
    by_cases hkb : k = b
    · subst hkb; simp [he]
    · have : ¬ b = k := fun h => hkb h.symm
      simp [hkb, this]
  · rw [if_neg he, Nat.testBit_and, testBit_clear_mask hb]
    by_cases hkb : k = b
    · subst hkb; simp [he]
    · simp [hkb, hk]

/-- C30: button round trip. For every button `b < 64` and every value `e`, after
`uiSetButton b e` the function `uiGetButton b` returns 1 if `e` is non-zero and 0 if it is
zero, `uiGetButton b'` is unchanged for every other button `b' < 64`, and no field of the
context other than `buttons` changes. -/
theorem button_round_trip (c : UIcontext) (b : Nat) (e : Int) (hb : b < 64) :
    uiGetButton (uiSetButton c b e) b = (if e ≠ 0 then 1 else 0) ∧
    (∀ b', b' < 64 → b' ≠ b → uiGetButton (uiSetButton c b e) b' = uiGetButton c b') ∧
    (uiSetButton c b e).last_buttons = c.last_buttons ∧
    (uiSetButton c b e).start_cursor = c.start_cursor ∧
    (uiSetButton c b e).last_cursor = c.last_cursor ∧
    (uiSetButton c b e).cursor = c.cursor ∧
    (uiSetButton c b e).hot_handle = c.hot_handle ∧
    (uiSetButton c b e).active_handle = c.active_handle ∧
    (uiSetButton c b e).hot_item = c.hot_item ∧
    (uiSetButton c b e).active_item = c.active_item ∧
    (uiSetButton c b e).state = c.state ∧
    (uiSetButton c b e).items = c.items ∧
    (uiSetButton c b e).datasize = c.datasize := by
  refine ⟨?_, ?_, rfl, rfl, rfl, rfl, rfl, rfl, rfl, rfl, rfl, rfl, rfl⟩
  · rw [uiGetButton_eq _ hb, testBit_uiSetButton c hb e b hb, if_pos rfl]
    by_cases he : e ≠ 0
    · simp [he]
    · simp [he]
  · intro b' hb' hne
    rw [uiGetButton_eq _ hb', uiGetButton_eq _ hb', testBit_uiSetButton c hb e b' hb',
      if_neg hne]

/-- C30 at an example: in `idleEx`, setting button 3 makes `uiGetButton 3` return 1,
clearing it again makes it return 0, and clearing button 63 leaves button 3 set. -/
theorem button_round_trip_witness :
    uiGetButton (uiSetButton idleEx 3 1) 3 = 1 ∧
    uiGetButton (uiSetButton (uiSetButton idleEx 3 1) 3 0) 3 = 0 ∧
    uiGetButton (uiSetButton (uiSetButton idleEx 3 1) 63 0) 3 = 1 :=
  ⟨(button_round_trip idleEx 3 1 (by decide)).1,
    (button_round_trip (uiSetButton idleEx 3 1) 3 0 (by decide)).1,
    ((button_round_trip (uiSetButton idleEx 3 1) 63 0 (by decide)).2.1 3 (by decide)
      (by decide)).trans (button_round_trip idleEx 3 1 (by decide)).1⟩

/-! ### Spans, explicit sizes and margins (C21, C22, C27) -/

/-- the placement rule of an item of the hierarchy in terms of its span: the span starts at
the near neighbor only when the item has the near flag and ends at the far neighbor only
when it has the far flag -/
theorem placed_span {c cl : UIcontext} {k dim : Nat} (hd : cl.decl = c.decl)
    (hs : SiblingRefs c) (hk : k < c.count) (hpar : 0 ≤ (c.get k).parent) (hdim : dim < 2)
    (hp : Placed cl k dim) :
    PlaceEq (Int.land ((c.get k).layout_flags >>> dim) UI_HFILL)
      (spanStart c cl k dim) (spanEnd c cl k dim - spanStart c cl k dim)
      ((c.get k).margins.v dim) ((c.get k).margins.v (dim + 2))
      ((cl.get k).rect.v dim) ((cl.get k).rect.v (dim + 2)) := by
  obtain ⟨c1, c2, c3, c4⟩ := land_hfill_cases ((c.get k).layout_flags >>> dim)
  by_cases h1 : Int.land ((c.get k).layout_flags >>> dim) UI_LEFT = 0
  · by_cases h2 : Int.land ((c.get k).layout_flags >>> dim) UI_RIGHT = 0
    · have hx := placed_centre hd h1 h2 hp
      unfold PlaceEq spanStart spanEnd
      rw [c4.mpr ⟨h1, h2⟩, if_neg (by decide), if_neg (by decide), if_neg (by decide),
        if_neg (not_not.mpr h1), if_neg (not_not.mpr h2), hx]
      simp
    · have hx := placed_far hd hs hk hpar hdim h1 h2 hp
      unfold PlaceEq spanStart spanEnd
      rw [c2.mpr ⟨h1, h2⟩, if_neg (by decide), if_pos rfl, if_neg (not_not.mpr h1),
        if_pos h2, hx]
      omega
  · by_cases h2 : Int.land ((c.get k).layout_flags >>> dim) UI_RIGHT = 0
    · have hx := placed_near hd hs hk hpar hdim h1 h2 hp
      unfold PlaceEq spanStart
      rw [c1.mpr ⟨h1, h2⟩, if_pos rfl, if_pos h1, hx]
    · have hx := placed_fill hd hs hk hpar hdim (c3.mpr ⟨h1, h2⟩) hp
      unfold PlaceEq spanStart spanEnd
      rw [c3.mpr ⟨h1, h2⟩, if_neg (by decide), if_neg (by decide), if_pos rfl, if_pos h1,
        if_pos h2]
      refine ⟨hx.1, ?_⟩
      rw [hx.2]

/-- C21, amended: neighbors bound the span on the sides that are anchored. In a hierarchy
whose neighbor references are `-1` or earlier-created siblings, `uiProcess` succeeds, and
afterwards every item `k` below the root satisfies, in both dimensions, the placement equation
of its flags in the span from `spanStart` to `spanEnd`: the span starts at the far edge of the
near-side neighbor if `k` has the near flag and names one, and at 0 otherwise; it ends at the
near edge of the far-side neighbor if `k` has the far flag and names one, and at the extent of
the parent otherwise. In particular an item with neither flag is centred in the whole parent,
at `(parent extent - own extent) / 2 + near margin`, whatever neighbors it names. -/
theorem span_bounds (c : UIcontext) (t : KTree) (h : Hierarchy c t)
    (hpo : ParentOK c 0 t) (hs : SiblingRefs c) (hc : c.count ≤ UI_MAX_ITEMS)
    (hh : c.hot_item < c.count) (ha : c.active_item < c.count) :
    ∃ c' evs, uiProcess c = .ok (c', evs) ∧
      ∀ k ∈ t.indices, ∀ dim : Nat, dim < 2 →
        PlaceEq (Int.land ((c.get k).layout_flags >>> dim) UI_HFILL)
          (spanStart c c' k dim) (spanEnd c c' k dim - spanStart c c' k dim)
          ((c.get k).margins.v dim) ((c.get k).margins.v (dim + 2))
          ((c'.get k).rect.v dim) ((c'.get k).rect.v (dim + 2)) ∧
        (Int.land ((c.get k).layout_flags >>> dim) UI_LEFT = 0 →
          Int.land ((c.get k).layout_flags >>> dim) UI_RIGHT = 0 →
          (c'.get k).rect.v dim =
            Int.tdiv ((c'.get (c.get k).parent.toNat).rect.v (dim + 2) -
              (c'.get k).rect.v (dim + 2)) 2 + (c.get k).margins.v dim) := by
  obtain ⟨c', evs, s, cl, hp, hsz, hd, e, hpl, -, -⟩ := anchor_run c t h hpo hs hc hh ha
  refine ⟨c', evs, hp, ?_⟩
  intro k hk dim hdim
  have hkc : k < c.count := (IsForest_range t _ h.forest k hk).2
  have h1 := placed_span hd hs hkc (ParentOK_attached t 0 hpo k hk) hdim (hpl k hk dim hdim)
  constructor
  · unfold spanStart spanEnd nearEdge farEdge at h1 ⊢
    simp only [e]
    exact h1
  · intro f1 f2
    have h2 := placed_centre hd f1 f2 (hpl k hk dim hdim)
    simp only [e]
    exact h2

/-- the rects of the beside example -/
theorem beside_layout :
    ∃ c' evs, uiProcess besideEx = .ok (c', evs) ∧
      (c'.get 0).rect.v 2 = 100 ∧ (c'.get 1).rect.v 0 = 0 ∧ (c'.get 1).rect.v 2 = 30 ∧
      (c'.get 2).rect.v 2 = 10 ∧ (c'.get 2).rect.v 0 = 45 := by
  obtain ⟨c', evs, s, cl, hp, hsz, hd, e, hpl, hkeep, hhint⟩ := anchor_run besideEx besideTree
    ⟨by decide, by decide, by decide⟩ (by decide) (by decide) (by decide) (by decide)
    (by decide)
  have es : (uiComputeBestSize (uiFuel besideEx) besideEx 0).map
      (fun s => (s.get 0).rect.v 2) = .ok 100 := by decide
  rw [hsz] at es
  simp only [Except.map, Except.ok.injEq] at es
  have w0 : (cl.get 0).rect.v 2 = 100 := (hkeep 0 0 (by decide) (by decide)).trans es
  have w1 : (cl.get 1).rect.v 2 = 30 :=
    (hkeep 1 0 (by decide) (by decide)).trans (hhint 1 (by decide) 0 (by decide) (by decide))
  have w2 : (cl.get 2).rect.v 2 = 10 :=
    (hkeep 2 0 (by decide) (by decide)).trans (hhint 2 (by decide) 0 (by decide) (by decide))
  have x1 := placed_near hd (by decide) (show 1 < besideEx.count by decide) (by decide)
    (show 0 < 2 by decide) (by decide) (by decide) (hpl 1 (by decide) 0 (by decide))
  have x2 := placed_centre hd (show Int.land ((besideEx.get 2).layout_flags >>> 0) UI_LEFT = 0
    by decide) (by decide) (hpl 2 (by decide) 0 (by decide))
  have n1 : nearEdge besideEx cl 1 0 = 0 := by
    unfold nearEdge; rw [if_pos (by decide)]
  have m1 : (besideEx.get 1).margins.v 0 = 0 := by decide
  have m2 : (besideEx.get 2).margins.v 0 = 0 := by decide
  have p2 : (besideEx.get 2).parent.toNat = 0 := by decide
  rw [n1, m1] at x1
  rw [p2, m2, w0, w2] at x2
  refine ⟨c', evs, hp, ?_, ?_, ?_, ?_, ?_⟩
  · rw [e]; exact w0
  · rw [e]; simpa using x1
  · rw [e]; exact w1
  · rw [e]; exact w2
  · rw [e, x2]; decide

/-- C21 as stated fails. In `besideEx` the root is 100 wide, item 1 is 30 wide and
anchored left, and item 2 is 10 wide, has neither the left nor the right flag and names item 1
as its left neighbor. After `uiProcess` item 1 is at `x = 0` and item 2 is at `x = 45`, the
centre of the whole parent, and not at `0 + 30 + (100 - 30 - 10) / 2 = 60`: a neighbor on a
side without the anchor flag does not bound the span. -/
theorem span_bounds_refuted :
    uiCalls (uiMakeCurrent uiCreateContext) besideCalls = .ok besideEx ∧
    (besideEx.get 2).parent = 0 ∧ (besideEx.get 2).relto.v0 = 1 ∧
    Int.land (besideEx.get 2).layout_flags UI_LEFT = 0 ∧
    Int.land (besideEx.get 2).layout_flags UI_RIGHT = 0 ∧
    ∃ c' evs, uiProcess besideEx = .ok (c', evs) ∧
      (c'.get 0).rect.w = 100 ∧ (c'.get 1).rect.x = 0 ∧ (c'.get 1).rect.w = 30 ∧
      (c'.get 2).rect.w = 10 ∧ (c'.get 2).rect.x = 45 ∧
      (c'.get 2).rect.x ≠ (c'.get 1).rect.x + (c'.get 1).rect.w +
        Int.tdiv ((c'.get 0).rect.w - ((c'.get 1).rect.x + (c'.get 1).rect.w) -
          (c'.get 2).rect.w) 2 := by
  obtain ⟨c', evs, hp, a0, a1, a2, a3, a4⟩ := beside_layout
  have b0 : (c'.get 0).rect.w = 100 := by simpa [UIrect.v] using a0
  have b1 : (c'.get 1).rect.x = 0 := by simpa [UIrect.v] using a1
  have b2 : (c'.get 1).rect.w = 30 := by simpa [UIrect.v] using a2
  have b3 : (c'.get 2).rect.w = 10 := by simpa [UIrect.v] using a3
  have b4 : (c'.get 2).rect.x = 45 := by simpa [UIrect.v] using a4
  refine ⟨by decide, by decide, by decide, by decide, by decide, c', evs, hp, b0, b1, b2, b3,
    b4, ?_⟩
  rw [b0, b1, b2, b3, b4]
  decide

/-- C21, amended, at the beside example: item 2 of `besideEx`, without flags and with
item 1 as left neighbor, is after `uiProcess` at `(parent width - own width) / 2 + 0`. -/
theorem span_bounds_witness :
    ∃ c' evs, uiProcess besideEx = .ok (c', evs) ∧
      (c'.get 2).rect.v 0 =
        Int.tdiv ((c'.get 0).rect.v 2 - (c'.get 2).rect.v 2) 2 + 0 := by
  obtain ⟨c', evs, hp, hk⟩ := span_bounds besideEx besideTree
    ⟨by decide, by decide, by decide⟩ (by decide) (by decide) (by decide) (by decide)
    (by decide)
  exact ⟨c', evs, hp, (hk 2 (by decide) 0 (by decide)).2 (by decide) (by decide)⟩

/-- C22: explicit size wins. In a hierarchy, whenever `uiProcess` returns, every item
of the hierarchy, the root included, that has a non-zero size hint in a dimension and is not
fill in that dimension has the hint as its rect extent in that dimension; nothing is assumed
about its children, margins, neighbors or parent. -/
theorem explicit_size_wins (c : UIcontext) (t : KTree) (h : Hierarchy c t)
    (c' : UIcontext) (evs : List UIdispatch) (hp : uiProcess c = .ok (c', evs)) :
    ∀ q, q = 0 ∨ q ∈ t.indices → ∀ dim : Nat, dim < 2 →
      (c.get q).size.v dim ≠ 0 →
      Int.land ((c.get q).layout_flags >>> dim) UI_HFILL ≠ UI_HFILL →
      (c'.get q).rect.v (dim + 2) = (c.get q).size.v dim := by
  intro q hq dim hdim hne hnf
  obtain ⟨cl, hlay, hitems, -⟩ := uiProcess_items hp
  obtain ⟨s, hs1, hs2⟩ := layout_keeps hlay
  have h0 : 0 ∉ t.indices := fun hx => by
    have := (IsForest_range t _ h.forest 0 hx).1
    omega
  rw [get_of_items hitems, hs2 q dim hdim hnf]
  exact (hint_uiComputeBestSize (uiFuel c)).1 c 0 t s hs1 h.forest h0 h.nodup q hq dim hdim hne

/-- C22 at the cross example: `uiProcess` succeeds on `crossEx`, and afterwards the
root is 100 wide, item 1 is 50 wide, item 2 is 10 wide and item 3 is 10 high, as their size
hints say; item 2 is named as neighbor by an item of another parent, and item 1 has a child. -/
theorem explicit_size_wins_witness :
    ∃ c' evs, uiProcess crossEx = .ok (c', evs) ∧
      (c'.get 0).rect.v 2 = 100 ∧ (c'.get 1).rect.v 2 = 50 ∧ (c'.get 2).rect.v 2 = 10 ∧
      (c'.get 3).rect.v 3 = 10 := by
  obtain ⟨c', evs, hp, -, -⟩ := cross_layout
  have H := explicit_size_wins crossEx crossTree ⟨by decide, by decide, by decide⟩ c' evs hp
  exact ⟨c', evs, hp, H 0 (by decide) 0 (by decide) (by decide) (by decide),
    H 1 (by decide) 0 (by decide) (by decide) (by decide),
    H 2 (by decide) 0 (by decide) (by decide) (by decide),
    H 3 (by decide) 1 (by decide) (by decide) (by decide)⟩

/-- what the end of `uiProcess` leaves as it is -/
theorem uiProcessHandles_keeps {cs c1 : UIcontext} (h : uiProcessHandles cs = .ok c1) :
    c1.cursor = cs.cursor ∧ c1.state = cs.state ∧ c1.buttons = cs.buttons := by
  unfold uiProcessHandles at h
  simp only at h
  split at h
  · cases h
  · split at h
    · cases h
    · injection h with h
      subst h
      exact ⟨rfl, rfl, rfl⟩

theorem visited_modify_rect (c : UIcontext) (p q : Nat) (r : UIitem → UIrect) :
    ((c.modify p (fun i => { i with rect := r i })).get q).visited = (c.get q).visited := by
  rw [get_modify]
  split
  · rename_i h; rw [h.1]
  · rfl

theorem visited_uiLayoutPlace (c : UIcontext) (p dim : Nat) (wl wr : Int) (q : Nat) :
    ((uiLayoutPlace c p dim wl wr).get q).visited = (c.get q).visited := by
  unfold uiLayoutPlace
  simp only
  split
  · exact visited_modify_rect c p q _
  · split
    · exact visited_modify_rect c p q _
    · split
      · exact (visited_modify_rect _ p q _).trans (visited_modify_rect c p q _)
      · exact visited_modify_rect c p q _

theorem laidOut_uiLayoutPlace (c : UIcontext) (p dim : Nat) (wl wr : Int) (q d : Nat) :
    laidOut (uiLayoutPlace c p dim wl wr) q d ↔ laidOut c q d := by
  unfold laidOut
  rw [visited_uiLayoutPlace]

theorem mark_bit (v dim d : Nat) :
    ((v ||| (4 <<< dim)) &&& (4 <<< d) ≠ 0) ↔
      (v &&& (4 <<< d) ≠ 0 ∨ d = dim) := by
  simp only [four_shl]
  by_cases hd : d = dim
  · subst hd
    constructor
    · intro _; exact Or.inr rfl
    · intro _; exact or_pow_and_pow_self _ _
  · rw [or_pow_and_pow_ne _ _ _ (by omega)]
    constructor
    · intro hx; exact Or.inl hx
    · intro hx
      rcases hx with hx | hx
      · exact hx
      · exact absurd hx hd

/-- which items are marked as positioned after one item has been marked -/
theorem laidOut_mark (c : UIcontext) (p dim q d : Nat) :
    laidOut (c.modify p (fun i => { i with visited := i.visited ||| (4 <<< dim) })) q d ↔
      laidOut c q d ∨ (q = p ∧ p < c.count ∧ d = dim) := by
  unfold laidOut
  rw [get_modify]
  by_cases h : q = p ∧ p < c.count
  · rw [if_pos h]
    show ((c.get p).visited ||| (4 <<< dim)) &&& (4 <<< d) ≠ 0 ↔ _
    rw [mark_bit, h.1]
    constructor
    · intro hx
      rcases hx with hx | hx
      · exact Or.inl hx
      · exact Or.inr ⟨rfl, h.2, hx⟩
    · intro hx
      rcases hx with hx | hx
      · exact Or.inl hx
      · exact Or.inr hx.2.2
  · rw [if_neg h]
    constructor
    · intro hx; exact Or.inl hx
    · intro hx
      rcases hx with hx | ⟨h1, h2, -⟩
      · exact hx
      · exact absurd ⟨h1, h2⟩ h

theorem Dangling_of_decl {c c' : UIcontext} (hd : c'.decl = c.decl) {k dim : Nat} :
    Dangling c' k dim ↔ Dangling c k dim := by
  have hf := decl_fields (get_decl_of_decl hd k)
  unfold Dangling
  rw [hf.1, hf.2.1, count_of_decl hd]

/-- what every successful call of `uiLayoutChildItem` does to the marks: none is removed, the
marks of the other dimension stay, the item is marked, and an item with a dangling
reference on a flagged side stays unmarked -/
theorem marks_child :
    ∀ (n : Nat) (c : UIcontext) (pp p dim : Nat) (c' : UIcontext),
      uiLayoutChildItem n c pp p dim = .ok c' → p < c.count →
      (∀ q d, laidOut c q d → laidOut c' q d) ∧
      (∀ q d, d ≠ dim → laidOut c' q d → laidOut c q d) ∧
      laidOut c' p dim ∧
      (∀ k, Dangling c k dim → ¬ laidOut c k dim → ¬ laidOut c' k dim) := by
  intro n
  induction n with
  | zero => intro c pp p dim c' h; simp [uiLayoutChildItem] at h
  | succ n ih =>
    intro c pp p dim c' h hp
    rcases uiLayoutChildItem_inv h with ⟨hv, rfl⟩ | ⟨hv, c0, c1, c2, wl, wr, wr2, h0, hl, hr, rfl⟩
    · exact ⟨fun _ _ hq => hq, fun _ _ _ hq => hq, hv, fun _ _ hq => hq⟩
    · have d0 : c0.decl = c.decl := by
        rw [h0]; exact decl_modify _ _ _ (fun i => decl_visited i _)
      have hcnt0 : c0.count = c.count := count_of_decl d0
      have m0 : ∀ q d, laidOut c0 q d ↔ laidOut c q d ∨ (q = p ∧ p < c.count ∧ d = dim) := by
        intro q d; rw [h0]; exact laidOut_mark c p dim q d
      -- the left neighbor
      have L : c1.decl = c0.decl ∧ (∀ q d, laidOut c0 q d → laidOut c1 q d) ∧
          (∀ q d, d ≠ dim → laidOut c1 q d → laidOut c0 q d) ∧
          (∀ k, Dangling c0 k dim → ¬ laidOut c0 k dim → ¬ laidOut c1 k dim) ∧
          ¬ (Int.land ((c0.get p).layout_flags >>> dim) UI_LEFT ≠ 0 ∧
            (c0.count : Int) ≤ (c0.get p).relto.v dim) := by
        rcases hl with ⟨f1, f2, pl, hpl, hrec, -, -⟩ | ⟨f1, e1, -, -⟩
        · obtain ⟨-, x2, -, x4⟩ := uiItemPtr_ok hpl
          obtain ⟨a1, a2, -, a4⟩ := ih _ _ _ _ _ hrec x4
          exact ⟨decl_uiLayoutChildItem _ _ _ _ _ _ hrec, a1, a2, a4, fun hx => by omega⟩
        · rw [e1]
          refine ⟨rfl, fun _ _ hq => hq, fun _ _ _ hq => hq, fun _ _ hq => hq, ?_⟩
          intro hx
          apply f1
          refine ⟨hx.1, ?_⟩
          have : 0 < c0.count := by omega
          omega
      obtain ⟨d1, l1, l2, l4, l5⟩ := L
      have hcnt1 : c1.count = c0.count := count_of_decl d1
      have R : (∀ q d, laidOut c1 q d → laidOut c2 q d) ∧
          (∀ q d, d ≠ dim → laidOut c2 q d → laidOut c1 q d) ∧
          (∀ k, Dangling c1 k dim → ¬ laidOut c1 k dim → ¬ laidOut c2 k dim) ∧
          ¬ (Int.land ((c1.get p).layout_flags >>> dim) UI_RIGHT ≠ 0 ∧
            (c1.count : Int) ≤ (c1.get p).relto.v (dim + 2)) := by
        rcases hr with ⟨f1, f2, pl, hpl, hrec, -⟩ | ⟨f1, e1, -⟩
        · obtain ⟨-, x2, -, x4⟩ := uiItemPtr_ok hpl
          obtain ⟨a1, a2, -, a4⟩ := ih _ _ _ _ _ hrec x4
          exact ⟨a1, a2, a4, fun hx => by omega⟩
        · rw [e1]
          refine ⟨fun _ _ hq => hq, fun _ _ _ hq => hq, fun _ _ hq => hq, ?_⟩
          intro hx
          apply f1
          refine ⟨hx.1, ?_⟩
          have : 0 < c1.count := by omega
          omega
      obtain ⟨r1, r2, r4, r5⟩ := R
      refine ⟨?_, ?_, ?_, ?_⟩
      · intro q d hq
        rw [laidOut_uiLayoutPlace]
        exact r1 q d (l1 q d ((m0 q d).mpr (Or.inl hq)))
      · intro q d hd hq
        rw [laidOut_uiLayoutPlace] at hq
        rcases (m0 q d).mp (l2 q d hd (r2 q d hd hq)) with hx | ⟨-, -, hx⟩
        · exact hx
        · exact absurd hx hd
      · rw [laidOut_uiLayoutPlace]
        exact r1 p dim (l1 p dim ((m0 p dim).mpr (Or.inr ⟨rfl, hp, rfl⟩)))
      · intro k hk hnl
        rw [laidOut_uiLayoutPlace]
        have hne : k ≠ p := by
          intro e
          subst e
          rcases hk with hk | hk
          · apply l5
            rw [(decl_fields (get_decl_of_decl d0 k)).1, (decl_fields (get_decl_of_decl d0 k)).2.1,
              hcnt0]
            exact hk
          · apply r5
            rw [(decl_fields (get_decl_of_decl (d1.trans d0) k)).1,
              (decl_fields (get_decl_of_decl (d1.trans d0) k)).2.1, hcnt1, hcnt0]
            exact hk
        have n0 : ¬ laidOut c0 k dim := by
          intro hx
          rcases (m0 k dim).mp hx with hx | ⟨hx, -, -⟩
          · exact hnl hx
          · exact hne hx
        have n1 := l4 k ((Dangling_of_decl d0).mpr hk) n0
        exact r4 k ((Dangling_of_decl (d1.trans d0)).mpr hk) n1

theorem MStepD.dim_refl (dim : Nat) (c : UIcontext) : MStepD dim c c :=
  ⟨rfl, fun _ _ h => h, fun _ _ _ h => h, fun _ _ h => h⟩

theorem MStepD.dim_trans {dim : Nat} {a b c : UIcontext} (h1 : MStepD dim a b)
    (h2 : MStepD dim b c) : MStepD dim a c :=
  ⟨h2.1.trans h1.1, fun q d h => h2.2.1 q d (h1.2.1 q d h),
    fun q d hd h => h1.2.2.1 q d hd (h2.2.2.1 q d hd h),
    fun k hk hn => h2.2.2.2 k ((Dangling_of_decl h1.1).mpr hk) (h1.2.2.2 k hk hn)⟩

theorem MStep.marks_refl (c : UIcontext) : MStep c c :=
  ⟨rfl, fun _ _ h => h, fun _ _ _ _ h => h⟩

theorem MStep.marks_trans {a b c : UIcontext} (h1 : MStep a b) (h2 : MStep b c) : MStep a c :=
  ⟨h2.1.trans h1.1, fun q d h => h2.2.1 q d (h1.2.1 q d h),
    fun k dim hd hk hn => h2.2.2 k dim hd ((Dangling_of_decl h1.1).mpr hk) (h1.2.2 k dim hd hk hn)⟩

theorem MStep.of_dims {a b c : UIcontext} (h1 : MStepD 0 a b) (h2 : MStepD 1 b c) :
    MStep a c := by
  refine ⟨h2.1.trans h1.1, fun q d h => h2.2.1 q d (h1.2.1 q d h), ?_⟩
  intro k dim hd hk hn
  have : dim = 0 ∨ dim = 1 := by omega
  rcases this with rfl | rfl
  · intro hx
    exact h1.2.2.2 k hk hn (h2.2.2.1 k 0 (by omega) hx)
  · refine h2.2.2.2 k ((Dangling_of_decl h1.1).mpr hk) ?_
    intro hx
    exact hn (h1.2.2.1 k 1 (by omega) hx)

theorem marks_dimKids (lfuel pitem dim : Nat) :
    ∀ (fuel : Nat) (c : UIcontext) (kid : Int) (t : KTree) (c' : UIcontext),
      uiLayoutItemDimKids lfuel pitem dim fuel c kid = .ok c' → IsForest c kid t →
      MStepD dim c c' ∧ ∀ k ∈ t.roots, laidOut c' k dim := by
  intro fuel
  induction fuel with
  | zero => intro c kid t c' h; simp [uiLayoutItemDimKids] at h
  | succ n ih =>
    intro c kid t c' h hf
    rcases uiLayoutItemDimKids_inv h with ⟨hk, rfl⟩ | ⟨hk, pkid, c1, hp, h1, -, h2⟩
    · cases t with
      | nil => exact ⟨MStepD.dim_refl _ _, fun k hk => by simp [KTree.roots] at hk⟩
      | node i kids next =>
        obtain ⟨e, h0, -⟩ := hf
        omega
    · cases t with
      | nil =>
        have : kid ≤ 0 := hf
        omega
      | node i kids next =>
        obtain ⟨e, h0, hi, hkids, hnext⟩ := hf
        obtain ⟨-, -, e2, hpc⟩ := uiItemPtr_ok hp
        have epk : pkid = i := by omega
        subst epk
        obtain ⟨a1, a2, a3, a4⟩ := marks_child lfuel c pitem pkid dim c1 h1 hpc
        have hd1 : c1.decl = c.decl := decl_uiLayoutChildItem _ _ _ _ _ _ h1
        have L1 : MStepD dim c c1 := ⟨hd1, a1, a2, a4⟩
        have enext : (c1.get pkid).nextitem = (c.get pkid).nextitem :=
          (decl_fields (get_decl_of_decl hd1 pkid)).2.2.2.2.2.2
        rw [enext] at h2
        have hf1 : IsForest c1 (c.get pkid).nextitem next := IsForest_of_decl hd1 _ _ hnext
        obtain ⟨L2, hall⟩ := ih c1 _ next c' h2 hf1
        refine ⟨L1.dim_trans L2, ?_⟩
        intro k hk
        simp only [KTree.roots, List.mem_cons] at hk
        rcases hk with hk | hk
        · rw [hk]; exact L2.2.1 _ _ a3
        · exact hall k hk

theorem marks_layoutItem (lfuel : Nat) :
    ∀ (fuel : Nat),
      (∀ (c : UIcontext) (p : Nat) (ks : KTree) (c' : UIcontext),
        uiLayoutItem lfuel fuel c (p : Int) = .ok c' → IsForest c (c.get p).firstkid ks →
        MStep c c' ∧ ∀ q ∈ ks.indices, ∀ dim, dim < 2 → laidOut c' q dim) ∧
      (∀ (c : UIcontext) (kid : Int) (t : KTree) (c' : UIcontext),
        uiLayoutItemKids lfuel fuel c kid = .ok c' → IsForest c kid t →
        (∀ k ∈ t.roots, ∀ dim, dim < 2 → laidOut c k dim) →
        MStep c c' ∧ ∀ q ∈ t.indices, ∀ dim, dim < 2 → laidOut c' q dim) := by
  intro fuel
  induction fuel with
  | zero =>
    constructor
    · intro c p ks c' h; simp [uiLayoutItem] at h
    · intro c kid t c' h; simp [uiLayoutItemKids] at h
  | succ n ih =>
    constructor
    · intro c p ks c' h hf
      obtain ⟨p', c1, c2, hp, h1, h2, h3⟩ := uiLayoutItem_inv h
      obtain ⟨-, -, e2, hpc⟩ := uiItemPtr_ok hp
      have ep : p' = p := by omega
      subst ep
      obtain ⟨L1, r1⟩ := marks_dimKids lfuel p' 0 n c _ ks c1 h1 hf
      have hd1 : c1.decl = c.decl := L1.1
      have h2' : uiLayoutItemDimKids lfuel p' 1 n c1 (c.get p').firstkid = .ok c2 := by
        rw [← firstkid_of_decl hd1 p']; exact h2
      obtain ⟨L2, r2⟩ := marks_dimKids lfuel p' 1 n c1 _ ks c2 h2'
        (IsForest_of_decl hd1 _ _ hf)
      have L12 := MStep.of_dims L1 L2
      have hd2 : c2.decl = c.decl := L12.1
      have h3' : uiLayoutItemKids lfuel n c2 (c.get p').firstkid = .ok c' := by
        rw [← firstkid_of_decl hd2 p']; exact h3
      have hroots : ∀ k ∈ ks.roots, ∀ dim, dim < 2 → laidOut c2 k dim := by
        intro k hk dim hd
        have : dim = 0 ∨ dim = 1 := by omega
        rcases this with rfl | rfl
        · exact L2.2.1 _ _ (r1 k hk)
        · exact r2 k hk
      obtain ⟨L3, r3⟩ := ih.2 c2 _ ks c' h3' (IsForest_of_decl hd2 _ _ hf) hroots
      exact ⟨L12.marks_trans L3, r3⟩
    · intro c kid t c' h hf hroots
      rcases uiLayoutItemKids_inv h with ⟨hk, rfl⟩ | ⟨hk, c1, h1, -, h2⟩
      · cases t with
        | nil => exact ⟨MStep.marks_refl _, fun q hq => by simp [KTree.indices] at hq⟩
        | node i kids next =>
          obtain ⟨e, h0, -⟩ := hf
          omega
      · cases t with
        | nil =>
          have : kid ≤ 0 := hf
          omega
        | node i kids next =>
          obtain ⟨e, h0, hi, hkids, hnext⟩ := hf
          have ek : kid = (i : Int) := e
          subst ek
          obtain ⟨L1, r1⟩ := ih.1 c i kids c1 h1 hkids
          have hd1 : c1.decl = c.decl := L1.1
          have enext : (c1.get i).nextitem = (c.get i).nextitem :=
            (decl_fields (get_decl_of_decl hd1 i)).2.2.2.2.2.2
          rw [Int.toNat_ofNat, enext] at h2
          obtain ⟨L2, r2⟩ := ih.2 c1 _ next c' h2 (IsForest_of_decl hd1 _ _ hnext)
            (fun k hk dim hd => L1.2.1 _ _ (hroots k (by simp [KTree.roots, hk]) dim hd))
          refine ⟨L1.marks_trans L2, ?_⟩
          intro q hq dim hd
          simp only [KTree.indices, List.mem_cons, List.mem_append] at hq
          rcases hq with hq | hq | hq
          · rw [hq]; exact L2.2.1 _ _ (L1.2.1 _ _ (hroots i (by simp [KTree.roots]) dim hd))
          · exact L2.2.1 _ _ (r1 q hq dim hd)
          · exact r2 q hq dim hd

/-! ### The solver passes stop by an assertion or return, never for lack of fuel -/

theorem uiItemPtr_err_kind {c : UIcontext} {item : Int} {e : UIerror}
    (h : uiItemPtr c item = .error e) : e = .assertion := by
  unfold uiItemPtr at h
  split at h
  · cases h
  · injection h with h; exact h.symm

theorem uiNextSibling_err_kind {c : UIcontext} {item : Int} {e : UIerror}
    (h : uiNextSibling c item = .error e) : e = .assertion := by
  unfold uiNextSibling at h
  cases hp : uiItemPtr c item with
  | error e1 =>
    rw [hp] at h
    have := uiItemPtr_err_kind hp
    subst this
    injection h with h; exact h.symm
  | ok p => rw [hp] at h; cases h

theorem uiFirstChild_err_kind {c : UIcontext} {item : Int} {e : UIerror}
    (h : uiFirstChild c item = .error e) : e = .assertion := by
  unfold uiFirstChild at h
  cases hp : uiItemPtr c item with
  | error e1 =>
    rw [hp] at h
    have := uiItemPtr_err_kind hp
    subst this
    injection h with h; exact h.symm
  | ok p => rw [hp] at h; cases h

/-- the neighbor walk of the size pass never stops for lack of fuel: the iteration cap of the
code stops it first -/
theorem walk_ne_fuel (dim : Nat) (flag : Int) (edge : Nat) :
    ∀ (fuel : Nat) (c : UIcontext) (p : Nat) (s : Int) (it : Nat),
      1000000 ≤ fuel + it → it < 1000000 →
      uiChainWalk dim flag edge fuel c p s it ≠ .error .fuel := by
  intro fuel
  induction fuel with
  | zero => intro c p s it h1 h2; omega
  | succ n ih =>
    intro c p s it h1 h2
    simp only [uiChainWalk]
    split
    · split
      · intro h; cases h
      · cases hp : uiItemPtr c ((c.get p).relto.v edge) with
        | error e =>
          have := uiItemPtr_err_kind hp
          subst this
          intro h; cases h
        | ok q =>
          simp only
          split
          · exact ih _ _ _ _ (by omega) (by omega)
          · intro h; cases h
    · intro h; cases h

theorem chain_ne_fuel (c : UIcontext) (p dim : Nat) :
    uiComputeChainSize c p dim ≠ .error .fuel := by
  simp only [uiComputeChainSize]
  cases h1 : uiChainWalk dim UI_LEFT dim 1000000
      (c.modify p (fun i => { i with visited := i.visited ||| (1 <<< dim) })) p
      ((c.get p).rect.v (dim + 2)) 0 with
  | error e =>
    simp only
    intro h
    injection h with h
    subst h
    exact walk_ne_fuel _ _ _ _ _ _ _ _ (by omega) (by omega) h1
  | ok r =>
    obtain ⟨c1, s1⟩ := r
    simp only
    exact walk_ne_fuel _ _ _ _ _ _ _ _ (by omega) (by omega)

theorem sizeDimKids_ne_fuel (dim : Nat) :
    ∀ (fuel : Nat) (c : UIcontext) (kid : Int) (t : KTree) (s : Int),
      IsForest c kid t → t.roots.length < fuel →
      uiComputeSizeDimKids dim fuel c kid s ≠ .error .fuel := by
  intro fuel
  induction fuel with
  | zero => intro c kid t s _ h; omega
  | succ n ih =>
    intro c kid t s hf hfu
    cases t with
    | nil =>
      have hk : kid ≤ 0 := hf
      simp only [uiComputeSizeDimKids, if_neg (not_lt.mpr hk)]
      intro h; cases h
    | node i kids next =>
      obtain ⟨e, h0, hi, hkids, hnext⟩ := hf
      subst e
      simp only [KTree.roots, List.length_cons] at hfu
      simp only [uiComputeSizeDimKids, if_pos (show (i : Int) > 0 by omega), uiItemPtr_nat hi]
      split
      · cases h1 : uiComputeChainSize c i dim with
        | error e =>
          simp only
          intro h
          injection h with h
          subst h
          exact chain_ne_fuel _ _ _ h1
        | ok r =>
          obtain ⟨c1, s1⟩ := r
          simp only
          have d1 := decl_uiComputeChainSize h1
          rw [uiNextSibling_valid (show (0 : Int) ≤ i by omega)
            (by rw [count_of_decl d1]; omega)]
          simp only [Int.toNat_ofNat]
          rw [nextitem_of_decl d1]
          exact ih c1 _ next _ (IsForest_of_decl d1 _ _ hnext) (by omega)
      · rw [uiNextSibling_valid (show (0 : Int) ≤ i by omega) (by omega)]
        simp only [Int.toNat_ofNat]
        exact ih c _ next _ hnext (by omega)

theorem sizeDim_ne_fuel (fuel : Nat) (c : UIcontext) (p dim : Nat) (ks : KTree)
    (hf : IsForest c (c.get p).firstkid ks) (hfu : ks.roots.length < fuel) :
    uiComputeSizeDim fuel c p dim ≠ .error .fuel := by
  simp only [uiComputeSizeDim]
  split
  · intro h; cases h
  · cases h1 : uiComputeSizeDimKids dim fuel c (c.get p).firstkid 0 with
    | error e =>
      simp only
      intro h
      injection h with h
      subst h
      exact sizeDimKids_ne_fuel dim fuel c _ ks 0 hf hfu h1
    | ok r =>
      obtain ⟨c1, s1⟩ := r
      simp only
      intro h; cases h

theorem bestSize_ne_fuel :
    ∀ (fuel : Nat),
      (∀ (c : UIcontext) (p : Nat) (ks : KTree), p < c.count →
        IsForest c (c.get p).firstkid ks → ks.need < fuel →
        uiComputeBestSize fuel c (p : Int) ≠ .error .fuel) ∧
      (∀ (c : UIcontext) (kid : Int) (t : KTree),
        IsForest c kid t → t.need ≤ fuel →
        uiComputeBestSizeKids fuel c kid ≠ .error .fuel) := by
  intro fuel
  induction fuel with
  | zero =>
    constructor
    · intro c p ks _ _ h; omega
    · intro c kid t _ h
      cases t <;> simp [KTree.need] at h
  | succ n ih =>
    constructor
    · intro c p ks hp hf hfu
      simp only [uiComputeBestSize, uiItemPtr_nat hp]
      have d0 := decl_modify c p (fun i => { i with visited := 0 }) (fun i => decl_visited i _)
      rw [uiFirstChild_valid (show (0 : Int) ≤ p by omega) (by rw [count_of_decl d0]; omega)]
      simp only [Int.toNat_ofNat]
      rw [firstkid_of_decl d0]
      have hlen := roots_length_lt_need ks
      cases h1 : uiComputeBestSizeKids n (c.modify p (fun i => { i with visited := 0 }))
          (c.get p).firstkid with
      | error e =>
        simp only
        intro h
        injection h with h
        subst h
        exact ih.2 _ _ ks (IsForest_of_decl d0 _ _ hf) (by omega) h1
      | ok c1 =>
        simp only
        have d1 := ((decl_uiComputeBestSize n).2 _ _ _ h1).trans d0
        cases h2 : uiComputeSizeDim n c1 p 0 with
        | error e =>
          simp only
          intro h
          injection h with h
          subst h
          exact sizeDim_ne_fuel n c1 p 0 ks
            (by rw [firstkid_of_decl d1]; exact IsForest_of_decl d1 _ _ hf) (by omega) h2
        | ok c2 =>
          simp only
          have d2 := (decl_uiComputeSizeDim h2).trans d1
          exact sizeDim_ne_fuel n c2 p 1 ks
            (by rw [firstkid_of_decl d2]; exact IsForest_of_decl d2 _ _ hf) (by omega)
    · intro c kid t hf hfu
      cases t with
      | nil =>
        have hk : kid ≤ 0 := hf
        simp only [uiComputeBestSizeKids, if_neg (not_lt.mpr hk)]
        intro h; cases h
      | node i kids next =>
        obtain ⟨e, h0, hi, hkids, hnext⟩ := hf
        subst e
        simp only [KTree.need] at hfu
        simp only [uiComputeBestSizeKids, if_pos (show (i : Int) > 0 by omega)]
        cases h1 : uiComputeBestSize n c i with
        | error e =>
          simp only
          intro h
          injection h with h
          subst h
          exact ih.1 c i kids hi hkids (by omega) h1
        | ok c1 =>
          simp only
          have d1 := (decl_uiComputeBestSize n).1 _ _ _ h1
          rw [uiNextSibling_valid (show (0 : Int) ≤ i by omega)
            (by rw [count_of_decl d1]; omega)]
          simp only [Int.toNat_ofNat]
          rw [nextitem_of_decl d1]
          exact ih.2 c1 _ next (IsForest_of_decl d1 _ _ hnext) (by omega)

theorem mem_unmarked (c : UIcontext) (dim q : Nat) :
    q ∈ unmarked c dim ↔ q < c.count ∧ ¬ laidOut c q dim := by
  unfold unmarked laidOut
  rw [Finset.mem_filter, Finset.mem_range, not_not]

theorem unmarked_card_le (c : UIcontext) (dim : Nat) : (unmarked c dim).card ≤ c.count := by
  unfold unmarked
  exact (Finset.card_filter_le _ _).trans (by rw [Finset.card_range])

theorem unmarked_card_mono {c c' : UIcontext} {dim : Nat} (hc : c'.count = c.count)
    (hm : ∀ q, laidOut c q dim → laidOut c' q dim) :
    (unmarked c' dim).card ≤ (unmarked c dim).card := by
  apply Finset.card_le_card
  intro q hq
  rw [mem_unmarked] at hq ⊢
  exact ⟨by rw [← hc]; exact hq.1, fun h => hq.2 (hm q h)⟩

theorem unmarked_card_mark (c : UIcontext) (p dim : Nat) (hp : p < c.count)
    (hn : ¬ laidOut c p dim) :
    (unmarked (c.modify p (fun i => { i with visited := i.visited ||| (4 <<< dim) })) dim).card <
      (unmarked c dim).card := by
  apply Finset.card_lt_card
  rw [Finset.ssubset_iff_of_subset]
  · refine ⟨p, (mem_unmarked c dim p).mpr ⟨hp, hn⟩, ?_⟩
    intro h
    rw [mem_unmarked, laidOut_mark] at h
    exact h.2 (Or.inr ⟨rfl, hp, rfl⟩)
  · intro q hq
    rw [mem_unmarked] at hq ⊢
    rw [count_modify, laidOut_mark] at hq
    exact ⟨hq.1, fun h => hq.2 (Or.inl h)⟩

/-- the neighbor recursion of the position pass never stops for lack of fuel when the fuel
exceeds the number of unmarked items -/
theorem childItem_ne_fuel :
    ∀ (n : Nat) (c : UIcontext) (pp p dim : Nat),
      (unmarked c dim).card < n → p < c.count →
      uiLayoutChildItem n c pp p dim ≠ .error .fuel := by
  intro n
  induction n with
  | zero => intro c pp p dim h; omega
  | succ n ih =>
    intro c pp p dim hcard hp hres
    have d0 := decl_modify c p (fun i => { i with visited := i.visited ||| (4 <<< dim) })
      (fun i => decl_visited i _)
    simp only [uiLayoutChildItem] at hres
    split at hres
    · cases hres
    · rename_i hv
      have hc0 := unmarked_card_mark c p dim hp hv
      split at hres
      · rename_i e1 h1
        injection hres with hres
        subst hres
        split at h1
        · rename_i hc
          cases hq : uiItemPtr (c.modify p
              (fun i => { i with visited := i.visited ||| (4 <<< dim) }))
              (((c.modify p (fun i => { i with visited := i.visited ||| (4 <<< dim) })).get
                p).relto.v dim) with
          | error e =>
            rw [hq] at h1
            simp only at h1
            have := uiItemPtr_err_kind hq
            subst this
            cases h1
          | ok pl =>
            rw [hq] at h1
            simp only at h1
            obtain ⟨-, -, -, hpl⟩ := uiItemPtr_ok hq
            split at h1
            · rename_i e hr
              injection h1 with h1
              subst h1
              exact ih _ pp pl dim (by omega) hpl hr
            · cases h1
        · cases h1
      · rename_i c1 wl wr h1
        have f1 : c1.count = c.count ∧ (unmarked c1 dim).card < n := by
          split at h1
          · split at h1
            · cases h1
            · rename_i pl hq
              obtain ⟨-, -, -, hpl⟩ := uiItemPtr_ok hq
              split at h1
              · cases h1
              · rename_i cc hcc
                injection h1 with h1; injection h1 with h1 h3
                subst h1
                have dcc := decl_uiLayoutChildItem _ _ _ _ _ _ hcc
                have hm := (marks_child _ _ _ _ _ _ hcc hpl).1
                have := unmarked_card_mono (count_of_decl dcc) (fun q h => hm q dim h)
                exact ⟨(count_of_decl dcc).trans (count_of_decl d0), by omega⟩
          · injection h1 with h1; injection h1 with h1 h3
            subst h1
            exact ⟨count_of_decl d0, by omega⟩
        split at hres
        · rename_i e2 h2
          injection hres with hres
          subst hres
          split at h2
          · rename_i hc
            cases hq : uiItemPtr c1 ((c1.get p).relto.v (dim + 2)) with
            | error e =>
              rw [hq] at h2
              simp only at h2
              have := uiItemPtr_err_kind hq
              subst this
              cases h2
            | ok pl =>
              rw [hq] at h2
              simp only at h2
              obtain ⟨-, -, -, hpl⟩ := uiItemPtr_ok hq
              split at h2
              · rename_i e hr
                injection h2 with h2
                subst h2
                exact ih _ pp pl dim f1.2 hpl hr
              · cases h2
          · cases h2
        · cases hres

theorem layoutDimKids_ne_fuel (lfuel pitem dim : Nat) :
    ∀ (fuel : Nat) (c : UIcontext) (kid : Int) (t : KTree),
      IsForest c kid t → c.count < lfuel → t.roots.length < fuel →
      uiLayoutItemDimKids lfuel pitem dim fuel c kid ≠ .error .fuel := by
  intro fuel
  induction fuel with
  | zero => intro c kid t _ _ h; omega
  | succ n ih =>
    intro c kid t hf hc hfu
    cases t with
    | nil =>
      have hk : kid ≤ 0 := hf
      simp only [uiLayoutItemDimKids, if_neg (not_lt.mpr hk)]
      intro h; cases h
    | node i kids next =>
      obtain ⟨e, h0, hi, hkids, hnext⟩ := hf
      subst e
      simp only [KTree.roots, List.length_cons] at hfu
      simp only [uiLayoutItemDimKids, if_pos (show (i : Int) > 0 by omega), uiItemPtr_nat hi]
      cases h1 : uiLayoutChildItem lfuel c pitem i dim with
      | error e =>
        simp only
        intro h
        injection h with h
        subst h
        have := unmarked_card_le c dim
        exact childItem_ne_fuel lfuel c pitem i dim (by omega) hi h1
      | ok c1 =>
        simp only
        have d1 := decl_uiLayoutChildItem _ _ _ _ _ _ h1
        rw [uiNextSibling_valid (show (0 : Int) ≤ i by omega) (by rw [count_of_decl d1]; omega)]
        simp only [Int.toNat_ofNat]
        rw [nextitem_of_decl d1]
        exact ih c1 _ next (IsForest_of_decl d1 _ _ hnext) (by rw [count_of_decl d1]; exact hc)
          (by omega)

theorem layoutItem_ne_fuel (lfuel : Nat) :
    ∀ (fuel : Nat),
      (∀ (c : UIcontext) (p : Nat) (ks : KTree), p < c.count →
        IsForest c (c.get p).firstkid ks → c.count < lfuel → ks.need < fuel →
        uiLayoutItem lfuel fuel c (p : Int) ≠ .error .fuel) ∧
      (∀ (c : UIcontext) (kid : Int) (t : KTree),
        IsForest c kid t → c.count < lfuel → t.need ≤ fuel →
        uiLayoutItemKids lfuel fuel c kid ≠ .error .fuel) := by
  intro fuel
  induction fuel with
  | zero =>
    constructor
    · intro c p ks _ _ _ h; omega
    · intro c kid t _ _ h
      cases t <;> simp [KTree.need] at h
  | succ n ih =>
    constructor
    · intro c p ks hp hf hc hfu
      simp only [uiLayoutItem, uiItemPtr_nat hp, uiLayoutItemDim]
      have hlen := roots_length_lt_need ks
      cases h1 : uiLayoutItemDimKids lfuel p 0 n c (c.get p).firstkid with
      | error e =>
        simp only
        intro h
        injection h with h
        subst h
        exact layoutDimKids_ne_fuel lfuel p 0 n c _ ks hf hc (by omega) h1
      | ok c1 =>
        simp only
        have d1 := decl_uiLayoutItemDimKids _ _ _ _ _ _ _ h1
        rw [firstkid_of_decl d1]
        cases h2 : uiLayoutItemDimKids lfuel p 1 n c1 (c.get p).firstkid with
        | error e =>
          simp only
          intro h
          injection h with h
          subst h
          exact layoutDimKids_ne_fuel lfuel p 1 n c1 _ ks (IsForest_of_decl d1 _ _ hf)
            (by rw [count_of_decl d1]; exact hc) (by omega) h2
        | ok c2 =>
          simp only
          have d2 := (decl_uiLayoutItemDimKids _ _ _ _ _ _ _ h2).trans d1
          rw [uiFirstChild_valid (show (0 : Int) ≤ p by omega)
            (by rw [count_of_decl d2]; omega)]
          simp only [Int.toNat_ofNat]
          rw [firstkid_of_decl d2]
          exact ih.2 c2 _ ks (IsForest_of_decl d2 _ _ hf)
            (by rw [count_of_decl d2]; exact hc) (by omega)
    · intro c kid t hf hc hfu
      cases t with
      | nil =>
        have hk : kid ≤ 0 := hf
        simp only [uiLayoutItemKids, if_neg (not_lt.mpr hk)]
        intro h; cases h
      | node i kids next =>
        obtain ⟨e, h0, hi, hkids, hnext⟩ := hf
        subst e
        simp only [KTree.need] at hfu
        simp only [uiLayoutItemKids, if_pos (show (i : Int) > 0 by omega)]
        cases h1 : uiLayoutItem lfuel n c i with
        | error e =>
          simp only
          intro h
          injection h with h
          subst h
          exact ih.1 c i kids hi hkids hc (by omega) h1
        | ok c1 =>
          simp only
          have d1 := (decl_uiLayoutItem lfuel n).1 _ _ _ h1
          rw [uiNextSibling_valid (show (0 : Int) ≤ i by omega)
            (by rw [count_of_decl d1]; omega)]
          simp only [Int.toNat_ofNat]
          rw [nextitem_of_decl d1]
          exact ih.2 c1 _ next (IsForest_of_decl d1 _ _ hnext)
            (by rw [count_of_decl d1]; exact hc) (by omega)

/-! ### Dangling neighbor references (C25) -/

theorem laidOut_modify_rect (c : UIcontext) (p q d : Nat) (r : UIitem → UIrect) :
    laidOut (c.modify p (fun i => { i with rect := r i })) q d ↔ laidOut c q d := by
  unfold laidOut
  rw [visited_modify_rect]

/-- both passes of `uiProcess` never stop for lack of fuel on a hierarchy -/
theorem processLayout_ne_fuel {c : UIcontext} {t : KTree} (h : Hierarchy c t) :
    uiProcessLayout c ≠ .error .fuel := by
  simp only [uiProcessLayout]
  cases h1 : uiComputeBestSize (uiFuel c) c 0 with
  | error e =>
    simp only
    intro hx
    injection hx with hx
    subst hx
    exact (bestSize_ne_fuel (uiFuel c)).1 c 0 t h.root h.forest h.need_lt h1
  | ok c1 =>
    simp only
    have d1 : c1.decl = c.decl := (decl_uiComputeBestSize _).1 _ _ _ h1
    have hc1 : c1.count = c.count := count_of_decl d1
    rw [uiItemPtr_of_valid (le_refl (0 : Int)) (by rw [hc1]; exact_mod_cast h.root)]
    simp only [Int.toNat_zero]
    have d2 : ((c1.modify 0 (fun i => { i with rect := { i.rect with x := i.margins.v 0 } })).modify
        0 (fun i => { i with rect := { i.rect with y := i.margins.v 1 } })).decl = c.decl := by
      rw [decl_modify _ _ _ (fun i => decl_rect i _), decl_modify _ _ _ (fun i => decl_rect i _)]
      exact d1
    have h2 := h.of_decl d2
    exact (layoutItem_ne_fuel _ _).1 _ 0 t h2.root h2.forest
      (by unfold uiFuel; omega) h2.need_lt

/-- an item of the hierarchy with a dangling reference on a flagged side makes the layout
passes fail -/
theorem processLayout_dangling {c : UIcontext} {t : KTree} (h : Hierarchy c t) {k dim : Nat}
    (hk : k ∈ t.indices) (hdim : dim < 2) (hd : Dangling c k dim) (cl : UIcontext) :
    uiProcessLayout c ≠ .ok cl := by
  intro hl
  obtain ⟨c1, c2, h1, -, e2, h3⟩ := uiProcessLayout_inv hl
  have d1 : c1.decl = c.decl := (decl_uiComputeBestSize _).1 _ _ _ h1
  obtain ⟨-, hn⟩ := (noLay_uiComputeBestSize _).1 c 0 t c1 h1 h.forest
  have d2 : c2.decl = c.decl := by
    rw [e2, decl_modify _ _ _ (fun i => decl_rect i _), decl_modify _ _ _ (fun i => decl_rect i _)]
    exact d1
  have n2 : ¬ laidOut c2 k dim := by
    rw [e2, laidOut_modify_rect, laidOut_modify_rect]
    exact hn k (Or.inr hk) dim hdim
  have h2 := h.of_decl d2
  obtain ⟨m, r⟩ := (marks_layoutItem _ _).1 c2 0 t cl h3 h2.forest
  exact m.2.2 k dim hdim ((Dangling_of_decl d2).mpr hd) n2 (r k hk dim hdim)

theorem uiProcess_error_of_layout {c : UIcontext} {e : UIerror}
    (h : uiProcessLayout c = .error e) : uiProcess c = .error e := by
  simp only [uiProcess, h]

/-- when the layout passes neither succeed nor run out of fuel, an assertion has failed -/
theorem uiProcess_assertion {c : UIcontext} (h1 : ∀ cl, uiProcessLayout c ≠ .ok cl)
    (h2 : uiProcessLayout c ≠ .error .fuel) : uiProcess c = .error .assertion := by
  apply uiProcess_error_of_layout
  cases h : uiProcessLayout c with
  | ok cl => exact absurd h (h1 cl)
  | error e =>
    cases e with
    | assertion => rfl
    | fuel => exact absurd h h2

/-- C25, amended: dangling neighbor reporting. If an item of the hierarchy has, on a
side whose anchor flag is set, a neighbor reference that is at or above the number of items,
then `uiProcess` fails with an assertion: it neither returns a layout nor runs out of
fuel. -/
theorem dangling_reported (c : UIcontext) (t : KTree) (h : Hierarchy c t) (k dim : Nat)
    (hk : k ∈ t.indices) (hdim : dim < 2) (hd : Dangling c k dim) :
    uiProcess c = .error .assertion :=
  uiProcess_assertion (processLayout_dangling h hk hdim hd) (processLayout_ne_fuel h)

/-- C25 as stated fails. The child of `looseEx` is anchored to the top only and has the
left neighbor reference 99 and the top neighbor reference -5, in a context of two items:
neither is `-1` or the index of an item. The reference on the side without flag is never
read, and a negative reference counts as none: `uiProcess` returns the layout
`looseDone`. -/
theorem dangling_unreported :
    uiCalls (uiMakeCurrent uiCreateContext) looseCalls = .ok looseEx ∧
    (looseEx.get 1).parent = 0 ∧ (looseEx.get 1).relto = ⟨99, -5, -1, -1⟩ ∧
    looseEx.count = 2 ∧ uiProcess looseEx = .ok (looseDone, []) := by
  refine ⟨by decide, by decide, by decide, by decide, by decide⟩

/-- C25, amended, at the dangling example: the child of `danglingEx` is anchored left
and has the left neighbor reference 99 in a context of two items; `uiProcess` fails with an
assertion. -/
theorem dangling_reported_witness :
    uiCalls (uiMakeCurrent uiCreateContext) danglingCalls = .ok danglingEx ∧
    (danglingEx.get 1).relto.v 0 = 99 ∧ uiProcess danglingEx = .error .assertion :=
  ⟨by decide, by decide,
    dangling_reported danglingEx oneChild ⟨by decide, by decide, by decide⟩ 1 0 (by decide)
      (by decide) (by decide)⟩

/-! ### Closed loops of neighbor references -/

theorem KeepsUnchained.keep_refl (dim : Nat) (S : List Nat) (c : UIcontext) :
    KeepsUnchained dim S c c := ⟨rfl, fun _ _ h => h⟩

theorem KeepsUnchained.keep_trans {dim : Nat} {S : List Nat} {a b c : UIcontext}
    (h1 : KeepsUnchained dim S a b) (h2 : KeepsUnchained dim S b c) : KeepsUnchained dim S a c :=
  ⟨h2.1.trans h1.1, fun q hq h => h1.2 q hq (h2.2 q hq h)⟩

theorem ChainLoop_of_decl {c c' : UIcontext} (hd : c'.decl = c.decl) {dim : Nat} {flag : Int}
    {edge : Nat} {S : List Nat} (h : ChainLoop c dim flag edge S) :
    ChainLoop c' dim flag edge S := by
  intro q hq
  have hf := decl_fields (get_decl_of_decl hd q)
  rw [hf.1, hf.2.1, count_of_decl hd]
  exact h q hq

theorem Loops_of_decl {c c' : UIcontext} (hd : c'.decl = c.decl) {dim : Nat} {fA : Int}
    {eA : Nat} {fB : Int} {S : List Nat} (h : Loops c dim fA eA fB S) :
    Loops c' dim fA eA fB S := by
  refine ⟨ChainLoop_of_decl hd h.1, fun q e => ?_⟩
  have hf := decl_fields (get_decl_of_decl hd q)
  rw [hf.1, hf.2.1]
  exact h.2 q e

theorem under_of_decl {c c' : UIcontext} (hd : c'.decl = c.decl) (dim k : Nat) :
    ∀ (t : KTree), t.under c dim k → t.under c' dim k := by
  intro t
  induction t with
  | nil => intro h; exact h
  | node i kids next ih1 ih2 =>
    intro h
    simp only [KTree.under] at h ⊢
    rw [(decl_fields (get_decl_of_decl hd i)).2.2.2.2.1]
    rcases h with h | h | h
    · exact Or.inl h
    · exact Or.inr (Or.inl (ih1 h))
    · exact Or.inr (Or.inr (ih2 h))

/-- a walk that starts inside a loop never returns -/
theorem walk_loop (dim : Nat) (flag : Int) (edge : Nat) (S : List Nat) :
    ∀ (fuel : Nat) (c : UIcontext) (p : Nat) (s : Int) (it : Nat) (r : UIcontext × Int),
      ChainLoop c dim flag edge S → p ∈ S →
      uiChainWalk dim flag edge fuel c p s it ≠ .ok r := by
  intro fuel
  induction fuel with
  | zero => intro c p s it r _ _ h; simp [uiChainWalk] at h
  | succ n ih =>
    intro c p s it r hl hp h
    obtain ⟨c', s'⟩ := r
    obtain ⟨-, h1, h2, h3, h4⟩ := hl p hp
    rcases uiChainWalk_inv h with ⟨hz, -⟩ | ⟨-, hneg, -⟩ | ⟨-, -, -, q, hq, hrec⟩
    · exact h1 hz
    · omega
    · obtain ⟨-, -, e, -⟩ := uiItemPtr_ok hq
      have eq : q = ((c.get p).relto.v edge).toNat := by omega
      have d1 := decl_modify c q (fun i => { i with visited := i.visited ||| (1 <<< dim) })
        (fun i => decl_visited i _)
      exact ih _ _ _ _ _ (ChainLoop_of_decl d1 hl) (by rw [eq]; exact h4) hrec

theorem keep_mark (c : UIcontext) (q d dim : Nat) (S : List Nat) (h : d ≠ dim ∨ q ∉ S) :
    KeepsUnchained dim S c (c.modify q (fun i => { i with visited := i.visited ||| (1 <<< d) })) := by
  refine ⟨decl_modify _ _ _ (fun i => decl_visited i _), ?_⟩
  intro r hr hc
  unfold chained at hc ⊢
  rw [get_modify] at hc
  by_cases hq : r = q ∧ q < c.count
  · rw [if_pos hq] at hc
    rcases h with h | h
    · have hc' : ((c.get q).visited ||| (1 <<< d)) &&& (1 <<< dim) ≠ 0 := hc
      rw [one_shl, one_shl, or_pow_and_pow_ne _ _ _ h] at hc'
      rw [hq.1, one_shl]
      exact hc'
    · exact absurd (hq.1 ▸ hr) h
  · rw [if_neg hq] at hc
    exact hc

theorem keep_walk (dim : Nat) (fA : Int) (eA : Nat) (fB : Int) (S : List Nat) (d : Nat)
    (flag : Int) (edge : Nat)
    (hadm : d = dim → (flag = fA ∧ edge = eA) ∨ (flag = fB ∧ WalkEdge dim fB edge)) :
    ∀ (fuel : Nat) (c : UIcontext) (p : Nat) (s : Int) (it : Nat) (c' : UIcontext) (s' : Int),
      Loops c dim fA eA fB S → uiChainWalk d flag edge fuel c p s it = .ok (c', s') →
      KeepsUnchained dim S c c' := by
  intro fuel
  induction fuel with
  | zero => intro c p s it c' s' _ h; simp [uiChainWalk] at h
  | succ n ih =>
    intro c p s it c' s' hl h
    rcases uiChainWalk_inv h with ⟨-, e, -⟩ | ⟨-, -, e, -⟩ | ⟨hf, -, -, q, hq, hrec⟩
    · rw [e]; exact KeepsUnchained.keep_refl _ _ _
    · rw [e]; exact KeepsUnchained.keep_refl _ _ _
    · have d1 := decl_modify c q (fun i => { i with visited := i.visited ||| (1 <<< d) })
        (fun i => decl_visited i _)
      have hl1 := Loops_of_decl d1 hl
      have hmark : d ≠ dim ∨ q ∉ S := by
        by_cases hd : d = dim
        · right
          intro hqs
          rcases hadm hd with ⟨e1, e2⟩ | e1
          · subst e1; subst e2; subst hd
            exact walk_loop _ _ _ S _ _ _ _ _ _ hl1.1 hqs hrec
          · obtain ⟨e1, e2⟩ := e1
            subst e1; subst hd
            obtain ⟨h0, -, e, -⟩ := uiItemPtr_ok hq
            have eq : q = ((c.get p).relto.v edge).toNat := by omega
            rw [eq] at hqs
            exact hl.2 p edge hf e2 h0 hqs
        · exact Or.inl hd
      exact (keep_mark c q d dim S hmark).keep_trans (ih _ _ _ _ _ _ hl1 hrec)

theorem chain_loop {c : UIcontext} {dim : Nat} {fA : Int} {eA : Nat} {fB : Int} {S : List Nat}
    (hl : Loops c dim fA eA fB S) (hadm : Adm dim fA eA fB) {k : Nat} (hk : k ∈ S)
    (r : UIcontext × Int) : uiComputeChainSize c k dim ≠ .ok r := by
  intro h
  obtain ⟨c', s'⟩ := r
  obtain ⟨c1, s1, h1, h2⟩ := uiComputeChainSize_inv h
  have d0 := decl_modify c k (fun i => { i with visited := i.visited ||| (1 <<< dim) })
    (fun i => decl_visited i _)
  have d1 := (decl_uiChainWalk _ _ _ _ _ _ _ _ _ _ h1).trans d0
  rcases hadm.1 with ⟨e1, e2⟩ | e1
  · subst e1
    have hl0 := (Loops_of_decl d0 hl).1
    rw [← e2] at hl0
    exact walk_loop _ _ _ S _ _ _ _ _ _ hl0 hk h1
  · rcases hadm.2 with ⟨e3, e4⟩ | e3
    · subst e3
      have hl1 := (Loops_of_decl d1 hl).1
      rw [← e4] at hl1
      exact walk_loop _ _ _ S _ _ _ _ _ _ hl1 hk h2
    · rw [← e1] at e3
      exact absurd e3 (by decide)

theorem keep_chain {c : UIcontext} {dim : Nat} {fA : Int} {eA : Nat} {fB : Int} {S : List Nat}
    (hl : Loops c dim fA eA fB S) (hadm : Adm dim fA eA fB) {k d : Nat} {c' : UIcontext}
    {s' : Int} (h : uiComputeChainSize c k d = .ok (c', s')) : KeepsUnchained dim S c c' := by
  obtain ⟨c1, s1, h1, h2⟩ := uiComputeChainSize_inv h
  have d0 := decl_modify c k (fun i => { i with visited := i.visited ||| (1 <<< d) })
    (fun i => decl_visited i _)
  have d1 := (decl_uiChainWalk _ _ _ _ _ _ _ _ _ _ h1).trans d0
  have hmark : d ≠ dim ∨ k ∉ S := by
    by_cases hd : d = dim
    · right
      intro hks
      subst hd
      exact chain_loop hl hadm hks _ h
    · exact Or.inl hd
  have k1 := keep_walk dim fA eA fB S d UI_LEFT d
    (fun hd => by
      rcases hadm.1 with ⟨e1, e2⟩ | e1
      · exact Or.inl ⟨e1, by rw [hd]; exact e2⟩
      · exact Or.inr ⟨e1, Or.inl ⟨e1, hd⟩⟩) _ _ _ _ _ _ _ (Loops_of_decl d0 hl) h1
  have k2 := keep_walk dim fA eA fB S d UI_RIGHT (d + 2)
    (fun hd => by
      rcases hadm.2 with ⟨e1, e2⟩ | e1
      · exact Or.inl ⟨e1, by rw [hd]; exact e2⟩
      · exact Or.inr ⟨e1, Or.inr ⟨e1, by rw [hd]⟩⟩) _ _ _ _ _ _ _ (Loops_of_decl d1 hl) h2
  exact ((keep_mark c k d dim S hmark).keep_trans k1).keep_trans k2

theorem chained_modify_rect (c : UIcontext) (p q d : Nat) (r : UIitem → UIrect) :
    chained (c.modify p (fun i => { i with rect := r i })) q d ↔ chained c q d := by
  unfold chained
  rw [visited_modify_rect]

theorem keep_rect (dim : Nat) (S : List Nat) (c : UIcontext) (p : Nat) (r : UIitem → UIrect) :
    KeepsUnchained dim S c (c.modify p (fun i => { i with rect := r i })) :=
  ⟨decl_modify _ _ _ (fun i => decl_rect i _), fun q _ h => (chained_modify_rect c p q dim r).mp h⟩

theorem not_chained_reset (c : UIcontext) (p q dim : Nat) (hp : p < c.count) :
    (chained (c.modify p (fun i => { i with visited := 0 })) q dim → chained c q dim) ∧
    ¬ chained (c.modify p (fun i => { i with visited := 0 })) p dim := by
  unfold chained
  rw [get_modify, get_modify_self _ _ _ hp]
  constructor
  · intro h
    by_cases hq : q = p ∧ p < c.count
    · rw [if_pos hq] at h
      exact absurd (Nat.zero_and _) h
    · rw [if_neg hq] at h
      exact h
  · intro h
    exact h (Nat.zero_and _)

theorem keep_sizeDimKids {dim : Nat} {fA : Int} {eA : Nat} {fB : Int} {S : List Nat}
    (hadm : Adm dim fA eA fB) (d : Nat) :
    ∀ (fuel : Nat) (c : UIcontext) (kid s : Int) (c' : UIcontext) (s' : Int),
      Loops c dim fA eA fB S → uiComputeSizeDimKids d fuel c kid s = .ok (c', s') →
      KeepsUnchained dim S c c' := by
  intro fuel
  induction fuel with
  | zero => intro c kid s c' s' _ h; simp [uiComputeSizeDimKids] at h
  | succ n ih =>
    intro c kid s c' s' hl h
    rcases uiComputeSizeDimKids_inv h with ⟨-, e, -⟩ | ⟨-, pkid, -, ⟨-, c1, chain, h1, h2⟩ | ⟨-, h2⟩⟩
    · rw [e]; exact KeepsUnchained.keep_refl _ _ _
    · have k1 := keep_chain hl hadm h1
      exact k1.keep_trans (ih _ _ _ _ _ (Loops_of_decl k1.1 hl) h2)
    · exact ih _ _ _ _ _ hl h2

theorem keep_sizeDim {dim : Nat} {fA : Int} {eA : Nat} {fB : Int} {S : List Nat}
    (hadm : Adm dim fA eA fB) {fuel : Nat} {c : UIcontext} {p d : Nat} {c' : UIcontext}
    (hl : Loops c dim fA eA fB S) (h : uiComputeSizeDim fuel c p d = .ok c') :
    KeepsUnchained dim S c c' := by
  rcases uiComputeSizeDim_inv h with ⟨-, e⟩ | ⟨-, c1, size, h1, e⟩
  · rw [e]; exact keep_rect dim S c p _
  · rw [e]
    exact (keep_sizeDimKids hadm d _ _ _ _ _ _ hl h1).keep_trans (keep_rect dim S c1 p _)

theorem keep_reset (dim : Nat) (S : List Nat) (c : UIcontext) (p : Nat) :
    KeepsUnchained dim S c (c.modify p (fun i => { i with visited := 0 })) := by
  refine ⟨decl_modify _ _ _ (fun i => decl_visited i _), ?_⟩
  intro q _ h
  unfold chained at h ⊢
  rw [get_modify] at h
  by_cases hq : q = p ∧ p < c.count
  · rw [if_pos hq] at h
    exact absurd (Nat.zero_and _) h
  · rw [if_neg hq] at h
    exact h

theorem keep_bestSize {dim : Nat} {fA : Int} {eA : Nat} {fB : Int} {S : List Nat}
    (hadm : Adm dim fA eA fB) :
    ∀ (fuel : Nat),
      (∀ (c : UIcontext) (item : Int) (c' : UIcontext), Loops c dim fA eA fB S →
        uiComputeBestSize fuel c item = .ok c' →
        KeepsUnchained dim S c c' ∧ (item.toNat ∈ S → ¬ chained c' item.toNat dim)) ∧
      (∀ (c : UIcontext) (kid : Int) (c' : UIcontext), Loops c dim fA eA fB S →
        uiComputeBestSizeKids fuel c kid = .ok c' → KeepsUnchained dim S c c') := by
  intro fuel
  induction fuel with
  | zero =>
    constructor
    · intro c item c' _ h; simp [uiComputeBestSize] at h
    · intro c kid c' _ h; simp [uiComputeBestSizeKids] at h
  | succ n ih =>
    constructor
    · intro c item c' hl h
      obtain ⟨p, c0, c1, c2, hp, e0, h1, h2, h3⟩ := uiComputeBestSize_inv h
      obtain ⟨-, -, ep, hpc⟩ := uiItemPtr_ok hp
      have etn : item.toNat = p := by omega
      have k0 : KeepsUnchained dim S c c0 := by rw [e0]; exact keep_reset dim S c p
      have k1 := ih.2 c0 _ c1 (Loops_of_decl k0.1 hl) h1
      have k01 := k0.keep_trans k1
      have k2 := keep_sizeDim hadm (Loops_of_decl k01.1 hl) h2
      have k012 := k01.keep_trans k2
      have k3 := keep_sizeDim hadm (Loops_of_decl k012.1 hl) h3
      refine ⟨k012.keep_trans k3, ?_⟩
      intro hs hc
      rw [etn] at hs hc
      have := k1.2 p hs (k2.2 p hs (k3.2 p hs hc))
      rw [e0] at this
      exact (not_chained_reset c p p dim hpc).2 this
    · intro c kid c' hl h
      rcases uiComputeBestSizeKids_inv h with ⟨-, e⟩ | ⟨-, c1, h1, -, h2⟩
      · rw [e]; exact KeepsUnchained.keep_refl _ _ _
      · have k1 := (ih.1 c kid c1 hl h1).1
        exact k1.keep_trans (ih.2 c1 _ c' (Loops_of_decl k1.1 hl) h2)

/-- after the loop of `uiComputeBestSize` over a sibling list, no sibling that belongs to the
loop is marked -/
theorem clear_bestSizeKids {dim : Nat} {fA : Int} {eA : Nat} {fB : Int} {S : List Nat}
    (hadm : Adm dim fA eA fB) :
    ∀ (fuel : Nat) (c : UIcontext) (kid : Int) (t : KTree) (c' : UIcontext),
      Loops c dim fA eA fB S → IsForest c kid t →
      uiComputeBestSizeKids fuel c kid = .ok c' →
      ∀ r ∈ t.roots, r ∈ S → ¬ chained c' r dim := by
  intro fuel
  induction fuel with
  | zero => intro c kid t c' _ _ h; simp [uiComputeBestSizeKids] at h
  | succ n ih =>
    intro c kid t c' hl hf h
    rcases uiComputeBestSizeKids_inv h with ⟨hk, e⟩ | ⟨hk, c1, h1, -, h2⟩
    · cases t with
      | nil => intro r hr; simp [KTree.roots] at hr
      | node i kids next =>
        obtain ⟨e, h0, -⟩ := hf
        omega
    · cases t with
      | nil =>
        have : kid ≤ 0 := hf
        omega
      | node i kids next =>
        obtain ⟨e, h0, hi, hkids, hnext⟩ := hf
        subst e
        obtain ⟨k1, hclear⟩ := (keep_bestSize hadm n).1 c i c1 hl h1
        have hl1 := Loops_of_decl k1.1 hl
        rw [Int.toNat_ofNat] at h2 hclear
        rw [nextitem_of_decl k1.1] at h2
        have k2 := (keep_bestSize hadm n).2 c1 _ c' hl1 h2
        intro r hr hs
        simp only [KTree.roots, List.mem_cons] at hr
        rcases hr with hr | hr
        · subst hr
          exact fun hc => hclear hs (k2.2 r hs hc)
        · exact ih c1 _ next c' hl1 (IsForest_of_decl k1.1 _ _ hnext) h2 r hr hs

/-- the loop of `uiComputeSizeDim` over a sibling list with an unmarked item of the loop
never returns -/
theorem loop_sizeDimKids {dim : Nat} {fA : Int} {eA : Nat} {fB : Int} {S : List Nat}
    (hadm : Adm dim fA eA fB) (k : Nat) (hk : k ∈ S) :
    ∀ (fuel : Nat) (c : UIcontext) (kid : Int) (t : KTree) (s : Int) (r : UIcontext × Int),
      Loops c dim fA eA fB S → IsForest c kid t → k ∈ t.roots →
      (∀ q ∈ t.roots, q ∈ S → ¬ chained c q dim) →
      uiComputeSizeDimKids dim fuel c kid s ≠ .ok r := by
  intro fuel
  induction fuel with
  | zero => intro c kid t s r _ _ _ _ h; simp [uiComputeSizeDimKids] at h
  | succ n ih =>
    intro c kid t s r hl hf hkr hclear h
    obtain ⟨c', s'⟩ := r
    cases t with
    | nil => simp [KTree.roots] at hkr
    | node i kids next =>
      obtain ⟨e, h0, hi, hkids, hnext⟩ := hf
      subst e
      rcases uiComputeSizeDimKids_inv h with ⟨hle, -⟩ |
        ⟨-, pkid, hp, ⟨hv, c1, chain, h1, h2⟩ | ⟨hv, h2⟩⟩
      · omega
      · obtain ⟨-, -, ep, -⟩ := uiItemPtr_ok hp
        have epk : pkid = i := by omega
        subst epk
        have k1 := keep_chain hl hadm h1
        rw [nextitem_of_decl k1.1] at h2
        simp only [KTree.roots, List.mem_cons] at hkr
        rcases hkr with hkr | hkr
        · subst hkr
          exact chain_loop hl hadm hk _ h1
        · exact ih c1 _ next _ _ (Loops_of_decl k1.1 hl) (IsForest_of_decl k1.1 _ _ hnext) hkr
            (fun q hq hs hc => hclear q (by simp [KTree.roots, hq]) hs (k1.2 q hs hc)) h2
      · obtain ⟨-, -, ep, -⟩ := uiItemPtr_ok hp
        have epk : pkid = i := by omega
        subst epk
        simp only [KTree.roots, List.mem_cons] at hkr
        rcases hkr with hkr | hkr
        · subst hkr
          exact hclear k (by simp [KTree.roots]) hk hv
        · exact ih c _ next _ _ hl hnext hkr
            (fun q hq hs => hclear q (by simp [KTree.roots, hq]) hs) h2

theorem loop_sizeDim {dim : Nat} {fA : Int} {eA : Nat} {fB : Int} {S : List Nat}
    (hadm : Adm dim fA eA fB) {k : Nat} (hk : k ∈ S) {fuel : Nat} {c : UIcontext} {p : Nat}
    {ks : KTree} (hl : Loops c dim fA eA fB S) (hf : IsForest c (c.get p).firstkid ks)
    (hkr : k ∈ ks.roots) (hauto : (c.get p).size.v dim = 0)
    (hclear : ∀ q ∈ ks.roots, q ∈ S → ¬ chained c q dim) (c' : UIcontext) :
    uiComputeSizeDim fuel c p dim ≠ .ok c' := by
  intro h
  rcases uiComputeSizeDim_inv h with ⟨hz, -⟩ | ⟨-, c1, size, h1, -⟩
  · exact hz hauto
  · exact loop_sizeDimKids hadm k hk fuel c _ ks 0 _ hl hf hkr hclear h1

/-- the size pass never returns when an item without size hint has a child in a loop -/
theorem loop_bestSize {dim : Nat} {fA : Int} {eA : Nat} {fB : Int} {S : List Nat}
    (hadm : Adm dim fA eA fB) (hdim : dim < 2) (k : Nat) (hk : k ∈ S) :
    ∀ (fuel : Nat),
      (∀ (c : UIcontext) (p : Nat) (ks : KTree) (c' : UIcontext),
        Loops c dim fA eA fB S → IsForest c (c.get p).firstkid ks →
        (((c.get p).size.v dim = 0 ∧ k ∈ ks.roots) ∨ ks.under c dim k) →
        uiComputeBestSize fuel c (p : Int) ≠ .ok c') ∧
      (∀ (c : UIcontext) (kid : Int) (t : KTree) (c' : UIcontext),
        Loops c dim fA eA fB S → IsForest c kid t → t.under c dim k →
        uiComputeBestSizeKids fuel c kid ≠ .ok c') := by
  intro fuel
  induction fuel with
  | zero =>
    constructor
    · intro c p ks c' _ _ _ h; simp [uiComputeBestSize] at h
    · intro c kid t c' _ _ _ h; simp [uiComputeBestSizeKids] at h
  | succ n ih =>
    constructor
    · intro c p ks c' hl hf hu h
      obtain ⟨p', c0, c1, c2, hp, e0, h1, h2, h3⟩ := uiComputeBestSize_inv h
      obtain ⟨-, -, ep, hpc⟩ := uiItemPtr_ok hp
      have epp : p' = p := by omega
      subst epp
      have k0 : KeepsUnchained dim S c c0 := by rw [e0]; exact keep_reset dim S c p'
      have hl0 := Loops_of_decl k0.1 hl
      rw [firstkid_of_decl k0.1] at h1
      have hf0 := IsForest_of_decl k0.1 _ _ hf
      rcases hu with ⟨hauto, hkr⟩ | hu
      · have hclear := clear_bestSizeKids hadm n c0 _ ks c1 hl0 hf0 h1
        have d1 := ((decl_uiComputeBestSize n).2 _ _ _ h1).trans k0.1
        have hl1 := Loops_of_decl d1 hl
        have hf1 : IsForest c1 (c1.get p').firstkid ks := by
          rw [firstkid_of_decl d1]; exact IsForest_of_decl d1 _ _ hf
        have : dim = 0 ∨ dim = 1 := by omega
        rcases this with e | e
        · subst e
          exact loop_sizeDim hadm hk hl1 hf1 hkr
            (by rw [(decl_fields (get_decl_of_decl d1 p')).2.2.2.2.1]; exact hauto) hclear _ h2
        · subst e
          have k2 := keep_sizeDim hadm hl1 h2
          have d2 := k2.1.trans d1
          exact loop_sizeDim hadm hk (Loops_of_decl d2 hl)
            (by rw [firstkid_of_decl d2]; exact IsForest_of_decl d2 _ _ hf) hkr
            (by rw [(decl_fields (get_decl_of_decl d2 p')).2.2.2.2.1]; exact hauto)
            (fun q hq hs hc => hclear q hq hs (k2.2 q hs hc)) _ h3
      · exact ih.2 c0 _ ks c1 hl0 hf0 (under_of_decl k0.1 dim k ks hu) h1
    · intro c kid t c' hl hf hu h
      rcases uiComputeBestSizeKids_inv h with ⟨hle, -⟩ | ⟨-, c1, h1, -, h2⟩
      · cases t with
        | nil => exact hu
        | node i kids next =>
          obtain ⟨e, h0, -⟩ := hf
          omega
      · cases t with
        | nil => exact hu
        | node i kids next =>
          obtain ⟨e, h0, hi, hkids, hnext⟩ := hf
          subst e
          simp only [KTree.under] at hu
          have d1 := (decl_uiComputeBestSize n).1 _ _ _ h1
          rcases hu with hu | hu | hu
          · exact ih.1 c i kids c1 hl hkids (Or.inl hu) h1
          · exact ih.1 c i kids c1 hl hkids (Or.inr hu) h1
          · rw [Int.toNat_ofNat, nextitem_of_decl d1] at h2
            exact ih.2 c1 _ next c' (Loops_of_decl d1 hl) (IsForest_of_decl d1 _ _ hnext)
              (under_of_decl d1 dim k next hu) h2

theorem under_of_parent (c : UIcontext) (dim k : Nat)
    (hauto : (c.get (c.get k).parent.toNat).size.v dim = 0) :
    ∀ (t : KTree) (q : Nat), ParentOK c q t → k ∈ t.indices →
      ((c.get q).size.v dim = 0 ∧ k ∈ t.roots) ∨ t.under c dim k := by
  intro t
  induction t with
  | nil => intro q _ hk; simp [KTree.indices] at hk
  | node i kids next ih1 ih2 =>
    intro q hpo hk
    obtain ⟨hp1, hp2, hp3⟩ := hpo
    simp only [KTree.indices, List.mem_cons, List.mem_append] at hk
    simp only [KTree.under, KTree.roots, List.mem_cons]
    rcases hk with hk | hk | hk
    · subst hk
      rw [hp1, Int.toNat_ofNat] at hauto
      exact Or.inl ⟨hauto, Or.inl rfl⟩
    · rcases ih1 i hp2 hk with h | h
      · exact Or.inr (Or.inl h)
      · exact Or.inr (Or.inr (Or.inl h))
    · rcases ih2 q hp3 hk with h | h
      · exact Or.inl ⟨h.1, Or.inr h.2⟩
      · exact Or.inr (Or.inr (Or.inr h))

theorem zero_land (f : Int) : Int.land 0 f = 0 := by
  cases f with
  | ofNat n => show Int.land (Int.ofNat 0) (Int.ofNat n) = 0; simp [Int.land]
  | negSucc n => show Int.land (Int.ofNat 0) (Int.negSucc n) = 0; simp [Int.land, Nat.ldiff]

theorem flag_of_dead (c : UIcontext) (q dim : Nat) (f : Int) (hq : c.count ≤ q) :
    Int.land ((c.get q).layout_flags >>> dim) f = 0 := by
  have e : c.get q = default := by
    unfold UIcontext.get
    exact List.getD_eq_default _ _ hq
  rw [e]
  show Int.land ((0 : Int) >>> dim) f = 0
  rw [Int.zero_shiftRight]
  exact zero_land f

theorem Loops_of_live {c : UIcontext} {dim : Nat} {fA : Int} {eA : Nat} {fB : Int} {S : List Nat}
    (h1 : ChainLoop c dim fA eA S)
    (h2 : ∀ q e, q < c.count → Int.land ((c.get q).layout_flags >>> dim) fB ≠ 0 →
      WalkEdge dim fB e → 0 ≤ (c.get q).relto.v e → ((c.get q).relto.v e).toNat ∉ S) :
    Loops c dim fA eA fB S := by
  refine ⟨h1, fun q e hf => ?_⟩
  by_cases hq : q < c.count
  · exact h2 q e hq hf
  · exact absurd (flag_of_dead c q dim fB (by omega)) hf

/-- the chain walk fails with an assertion when it starts in a loop -/
theorem chain_loop_assertion {c : UIcontext} {dim : Nat} {fA : Int} {eA : Nat} {S : List Nat}
    (h1 : ChainLoop c dim fA eA S)
    (hside : (UI_LEFT = fA ∧ dim = eA) ∨ (UI_RIGHT = fA ∧ dim + 2 = eA)) {k : Nat} (hk : k ∈ S) :
    uiComputeChainSize c k dim = .error .assertion := by
  have hno : ∀ r, uiComputeChainSize c k dim ≠ .ok r := by
    intro r h
    obtain ⟨c', s'⟩ := r
    obtain ⟨c1, s1, w1, w2⟩ := uiComputeChainSize_inv h
    have d0 := decl_modify c k (fun i => { i with visited := i.visited ||| (1 <<< dim) })
      (fun i => decl_visited i _)
    have d1 := (decl_uiChainWalk _ _ _ _ _ _ _ _ _ _ w1).trans d0
    rcases hside with ⟨e1, e2⟩ | ⟨e1, e2⟩
    · subst e1; subst e2
      exact walk_loop _ _ _ S _ _ _ _ _ _ (ChainLoop_of_decl d0 h1) hk w1
    · subst e1; subst e2
      exact walk_loop _ _ _ S _ _ _ _ _ _ (ChainLoop_of_decl d1 h1) hk w2
  cases h : uiComputeChainSize c k dim with
  | ok r => exact absurd h (hno r)
  | error e =>
    cases e with
    | assertion => rfl
    | fuel => exact absurd h (chain_ne_fuel c k dim)

theorem processLayout_loop {c : UIcontext} {t : KTree} (h : Hierarchy c t)
    (hpo : ParentOK c 0 t) {dim : Nat} (hdim : dim < 2) {fA : Int} {eA : Nat} {fB : Int}
    {S : List Nat} (hadm : Adm dim fA eA fB) (hl : Loops c dim fA eA fB S) {k : Nat}
    (hk : k ∈ t.indices) (hkS : k ∈ S)
    (hauto : (c.get (c.get k).parent.toNat).size.v dim = 0) (cl : UIcontext) :
    uiProcessLayout c ≠ .ok cl := by
  intro hx
  obtain ⟨c1, c2, h1, -, -, -⟩ := uiProcessLayout_inv hx
  exact (loop_bestSize hadm hdim k hkS (uiFuel c)).1 c 0 t c1 hl h.forest
    (under_of_parent c dim k hauto t 0 hpo hk) h1

/-- the steps of `uiProcess` in sequence -/
theorem uiProcess_eq_bind (c : UIcontext) :
    uiProcess c = (uiProcessLayout c).bind (fun cl => (uiProcessHot cl).bind (fun hot =>
      (uiProcessState cl hot).bind (fun r =>
        (uiProcessHandles r.1).map (fun c' => (c', r.2))))) := by
  unfold uiProcess
  cases uiProcessLayout c with
  | error e => rfl
  | ok cl =>
    simp only [Except.bind]
    cases uiProcessHot cl with
    | error e => rfl
    | ok hot =>
      simp only
      cases uiProcessState cl hot with
      | error e => rfl
      | ok r =>
        obtain ⟨c1, evs⟩ := r
        simp only
        cases uiProcessHandles c1 with
        | error e => rfl
        | ok c2 => rfl

/-- the position pass starts from the context after the size pass when the root has no
margins -/
theorem uiProcessLayout_of_sized {c s : UIcontext}
    (s1 : uiComputeBestSize (uiFuel c) c 0 = .ok s)
    (s2 : (s.modify 0 (fun i => { i with rect := { i.rect with x := i.margins.v 0 } })).modify 0
      (fun i => { i with rect := { i.rect with y := i.margins.v 1 } }) = s) :
    uiProcessLayout c = uiLayoutItem (uiFuel s) (uiFuel s) s 0 := by
  have d1 : s.decl = c.decl := (decl_uiComputeBestSize _).1 _ _ _ s1
  obtain ⟨p, -, -, -, hp, -⟩ := uiComputeBestSize_inv
    (show uiComputeBestSize (c.count + (c.count + 1) + 1) c 0 = .ok s by
      rw [← s1]; unfold uiFuel; congr 1; omega)
  obtain ⟨-, h0, -, -⟩ := uiItemPtr_ok hp
  unfold uiProcessLayout
  rw [s1]
  simp only
  rw [uiItemPtr_of_valid (le_refl (0 : Int)) (by rw [count_of_decl d1]; exact h0)]
  simp only [Int.toNat_zero]
  rw [s2]

/-! ### Chain walks that revisit an item (C24) -/

theorem chainNext_some {c : UIcontext} {dim : Nat} {flag : Int} {edge : Nat} {p q : Nat}
    (h : chainNext c dim flag edge p = some q) :
    Int.land ((c.get p).layout_flags >>> dim) flag ≠ 0 ∧ 0 ≤ (c.get p).relto.v edge ∧
      (c.get p).relto.v edge < c.count ∧ q = ((c.get p).relto.v edge).toNat := by
  unfold chainNext at h
  split at h
  · rename_i hc
    injection h with h
    exact ⟨hc.1, hc.2.1, hc.2.2, h.symm⟩
  · cases h

theorem chainNext_of_decl {c c' : UIcontext} (hd : c'.decl = c.decl) (dim : Nat) (flag : Int)
    (edge : Nat) (p : Nat) : chainNext c' dim flag edge p = chainNext c dim flag edge p := by
  have hf := decl_fields (get_decl_of_decl hd p)
  unfold chainNext
  rw [hf.1, hf.2.1, count_of_decl hd]

theorem chainVisit_of_decl {c c' : UIcontext} (hd : c'.decl = c.decl) (dim : Nat) (flag : Int)
    (edge : Nat) (p : Nat) :
    ∀ i, chainVisit c' dim flag edge p i = chainVisit c dim flag edge p i := by
  intro i
  induction i with
  | zero => rfl
  | succ n ih =>
    simp only [chainVisit]
    rw [ih]
    congr 1
    funext q
    exact chainNext_of_decl hd dim flag edge q

theorem Revisits_of_decl {c c' : UIcontext} (hd : c'.decl = c.decl) {dim : Nat} {flag : Int}
    {edge : Nat} {p : Nat} (h : Revisits c dim flag edge p) : Revisits c' dim flag edge p := by
  obtain ⟨i, j, x, hij, h1, h2⟩ := h
  exact ⟨i, j, x, hij, by rw [chainVisit_of_decl hd]; exact h1,
    by rw [chainVisit_of_decl hd]; exact h2⟩

theorem WalkRevisits_of_decl {c c' : UIcontext} (hd : c'.decl = c.decl) {dim p : Nat}
    (h : WalkRevisits c dim p) : WalkRevisits c' dim p := by
  rcases h with h | h
  · exact Or.inl (Revisits_of_decl hd h)
  · exact Or.inr (Revisits_of_decl hd h)

/-- the loop has visited an item at every step before a step at which it visits an item -/
theorem chainVisit_before (c : UIcontext) (dim : Nat) (flag : Int) (edge : Nat) (p : Nat) :
    ∀ (j : Nat) (x : Nat), chainVisit c dim flag edge p j = some x →
      ∀ i, i ≤ j → ∃ y, chainVisit c dim flag edge p i = some y := by
  intro j
  induction j with
  | zero =>
    intro x h i hi
    have : i = 0 := by omega
    subst this
    exact ⟨x, h⟩
  | succ n ih =>
    intro x h i hi
    by_cases e : i = n + 1
    · subst e
      exact ⟨x, h⟩
    · simp only [chainVisit] at h
      cases hv : chainVisit c dim flag edge p n with
      | none => rw [hv] at h; cases h
      | some y => exact ih y hv i (by omega)

/-- the items that a loop visits before it revisits an item form a closed set of items that
name each other -/
theorem ChainLoop_of_Revisits {c : UIcontext} {dim : Nat} {flag : Int} {edge : Nat} {p : Nat}
    (h : Revisits c dim flag edge p) :
    ∃ S, ChainLoop c dim flag edge S ∧ p ∈ S ∧ ∀ y ∈ S, Reaches c dim flag edge p y := by
  obtain ⟨i, j, x, hij, h1, h2⟩ := h
  refine ⟨(List.range j).filterMap (chainVisit c dim flag edge p), ?_, ?_, ?_⟩
  · have step : ∀ m y, m < j → chainVisit c dim flag edge p m = some y →
        ∃ z, chainNext c dim flag edge y = some z ∧
          z ∈ (List.range j).filterMap (chainVisit c dim flag edge p) := by
      intro m y hm hy
      obtain ⟨z, hz⟩ := chainVisit_before c dim flag edge p j x h2 (m + 1) (by omega)
      have hz2 := hz
      simp only [chainVisit] at hz
      rw [hy] at hz
      refine ⟨z, hz, ?_⟩
      rw [List.mem_filterMap]
      by_cases e : m + 1 = j
      · refine ⟨i, List.mem_range.mpr hij, ?_⟩
        rw [h1, ← h2, ← e, hz2]
      · exact ⟨m + 1, List.mem_range.mpr (by omega), hz2⟩
    intro q hq
    rw [List.mem_filterMap] at hq
    obtain ⟨m, hm, hy⟩ := hq
    obtain ⟨z, hz, hzs⟩ := step m q (List.mem_range.mp hm) hy
    obtain ⟨f1, f2, f3, f4⟩ := chainNext_some hz
    refine ⟨?_, f1, f2, f3, by rw [← f4]; exact hzs⟩
    by_contra hlive
    exact f1 (flag_of_dead c q dim flag (by omega))
  · rw [List.mem_filterMap]
    exact ⟨0, List.mem_range.mpr (by omega), rfl⟩
  · intro y hy
    rw [List.mem_filterMap] at hy
    obtain ⟨m, -, hm⟩ := hy
    exact ⟨m, hm⟩

/-- the chain walk fails with an assertion when the references it follows revisit an item -/
theorem walk_revisits_assertion {c : UIcontext} {dim k : Nat} (h : WalkRevisits c dim k) :
    uiComputeChainSize c k dim = .error .assertion := by
  rcases h with h | h
  · obtain ⟨S, h1, h2, -⟩ := ChainLoop_of_Revisits h
    exact chain_loop_assertion h1 (Or.inl ⟨rfl, rfl⟩) h2
  · obtain ⟨S, h1, h2, -⟩ := ChainLoop_of_Revisits h
    exact chain_loop_assertion h1 (Or.inr ⟨rfl, rfl⟩) h2

/-- the loop of `uiComputeSizeDim` fails with an assertion when one of its chain walks
revisits an item -/
theorem walks_sizeDimKids {k dim : Nat} (d : Nat) :
    ∀ (fuel : Nat) (c : UIcontext) (kid s : Int),
      (k, dim) ∈ walksOfSizeDimKids d fuel c kid → WalkRevisits c dim k →
      uiComputeSizeDimKids d fuel c kid s = .error .assertion := by
  intro fuel
  induction fuel with
  | zero => intro c kid s hm _; simp [walksOfSizeDimKids] at hm
  | succ n ih =>
    intro c kid s hm hr
    simp only [walksOfSizeDimKids] at hm
    simp only [uiComputeSizeDimKids]
    by_cases hk : kid > 0
    · rw [if_pos hk] at hm ⊢
      cases hp : uiItemPtr c kid with
      | error e => rw [hp] at hm; simp at hm
      | ok pkid =>
        rw [hp] at hm
        simp only at hm ⊢
        by_cases hv : (c.get pkid).visited &&& (1 <<< d) = 0
        · rw [if_pos hv] at hm ⊢
          rcases List.mem_cons.mp hm with he | hm
          · injection he with e1 e2
            subst e1; subst e2
            rw [walk_revisits_assertion hr]
          · cases hc : uiComputeChainSize c pkid d with
            | error e => rw [hc] at hm; simp at hm
            | ok r =>
              obtain ⟨c1, chain⟩ := r
              rw [hc] at hm
              simp only at hm ⊢
              cases hn : uiNextSibling c1 kid with
              | error e => rw [hn] at hm; simp at hm
              | ok next =>
                rw [hn] at hm
                simp only at hm ⊢
                exact ih _ _ _ hm (WalkRevisits_of_decl (decl_uiComputeChainSize hc) hr)
        · rw [if_neg hv] at hm ⊢
          cases hn : uiNextSibling c kid with
          | error e => rw [hn] at hm; simp at hm
          | ok next =>
            rw [hn] at hm
            simp only at hm ⊢
            exact ih _ _ _ hm hr
    · rw [if_neg hk] at hm
      simp at hm

theorem walks_sizeDim {k dim : Nat} {fuel : Nat} {c : UIcontext} {p d : Nat}
    (hm : (k, dim) ∈ walksOfSizeDim fuel c p d) (hr : WalkRevisits c dim k) :
    uiComputeSizeDim fuel c p d = .error .assertion := by
  unfold walksOfSizeDim at hm
  simp only [uiComputeSizeDim]
  by_cases hs : (c.get p).size.v d ≠ 0
  · rw [if_pos hs] at hm
    simp at hm
  · rw [if_neg hs] at hm ⊢
    rw [walks_sizeDimKids d fuel c _ 0 hm hr]

/-- the size pass fails with an assertion when one of its chain walks revisits an item -/
theorem walks_bestSize {k dim : Nat} :
    ∀ (fuel : Nat),
      (∀ (c : UIcontext) (item : Int), (k, dim) ∈ walksOfBestSize fuel c item →
        WalkRevisits c dim k → uiComputeBestSize fuel c item = .error .assertion) ∧
      (∀ (c : UIcontext) (kid : Int), (k, dim) ∈ walksOfBestSizeKids fuel c kid →
        WalkRevisits c dim k → uiComputeBestSizeKids fuel c kid = .error .assertion) := by
  intro fuel
  induction fuel with
  | zero =>
    constructor
    · intro c item hm _; simp [walksOfBestSize] at hm
    · intro c kid hm _; simp [walksOfBestSizeKids] at hm
  | succ n ih =>
    constructor
    · intro c item hm hr
      simp only [walksOfBestSize] at hm
      simp only [uiComputeBestSize]
      cases hp : uiItemPtr c item with
      | error e => rw [hp] at hm; simp at hm
      | ok p =>
        rw [hp] at hm
        simp only at hm ⊢
        have d0 := decl_modify c p (fun i => { i with visited := 0 })
          (fun i => decl_visited i _)
        have hr0 := WalkRevisits_of_decl d0 hr
        cases hf : uiFirstChild (c.modify p (fun i => { i with visited := 0 })) item with
        | error e => rw [hf] at hm; simp at hm
        | ok kid =>
          rw [hf] at hm
          simp only at hm ⊢
          rcases List.mem_append.mp hm with hm | hm
          · rw [ih.2 _ _ hm hr0]
          · cases h1 : uiComputeBestSizeKids n
                (c.modify p (fun i => { i with visited := 0 })) kid with
            | error e => rw [h1] at hm; simp at hm
            | ok c1 =>
              rw [h1] at hm
              simp only at hm ⊢
              have d1 := (decl_uiComputeBestSize n).2 _ _ _ h1
              have hr1 := WalkRevisits_of_decl d1 hr0
              rcases List.mem_append.mp hm with hm | hm
              · rw [walks_sizeDim hm hr1]
              · cases h2 : uiComputeSizeDim n c1 p 0 with
                | error e => rw [h2] at hm; simp at hm
                | ok c2 =>
                  rw [h2] at hm
                  simp only at hm ⊢
                  exact walks_sizeDim hm (WalkRevisits_of_decl (decl_uiComputeSizeDim h2) hr1)
    · intro c kid hm hr
      simp only [walksOfBestSizeKids] at hm
      simp only [uiComputeBestSizeKids]
      by_cases hk : kid > 0
      · rw [if_pos hk] at hm ⊢
        rcases List.mem_append.mp hm with hm | hm
        · rw [ih.1 _ _ hm hr]
        · cases h1 : uiComputeBestSize n c kid with
          | error e => rw [h1] at hm; simp at hm
          | ok c1 =>
            rw [h1] at hm
            simp only at hm ⊢
            cases hn : uiNextSibling c1 kid with
            | error e => rw [hn] at hm; simp at hm
            | ok next =>
              rw [hn] at hm
              simp only at hm ⊢
              exact ih.2 _ _ hm (WalkRevisits_of_decl ((decl_uiComputeBestSize n).1 _ _ _ h1) hr)
      · rw [if_neg hk] at hm
        simp at hm

/-- `uiProcess` fails with an assertion when one of the chain walks it runs revisits an item -/
theorem walks_process {c : UIcontext} {k dim : Nat} (hm : (k, dim) ∈ walksOfProcess c)
    (hr : WalkRevisits c dim k) : uiProcess c = .error .assertion := by
  apply uiProcess_error_of_layout
  simp only [uiProcessLayout]
  rw [(walks_bestSize (uiFuel c)).1 c 0 hm hr]

/-- `uiProcess` fails with an assertion when an item of the hierarchy whose parent has no size
hint starts a loop that revisits an item, and the other loop leads to no item of it -/
theorem unmasked_process {c : UIcontext} {t : KTree} (h : Hierarchy c t) (hpo : ParentOK c 0 t)
    {dim : Nat} (hdim : dim < 2) {fA : Int} {eA : Nat} {fB : Int} {eB : Nat}
    (hadm : Adm dim fA eA fB) (hB : ∀ e, WalkEdge dim fB e → e = eB) {k : Nat}
    (hk : k ∈ t.indices) (hauto : (c.get (c.get k).parent.toNat).size.v dim = 0)
    (hr : Revisits c dim fA eA k) (hu : Unmasked c dim fA eA fB eB k) :
    uiProcess c = .error .assertion := by
  obtain ⟨S, h1, h2, h3⟩ := ChainLoop_of_Revisits hr
  refine uiProcess_assertion (processLayout_loop h hpo hdim hadm (Loops_of_live h1 ?_) hk h2 hauto)
    (processLayout_ne_fuel h)
  intro q e hq hf he h0 hs
  rw [hB e he] at h0 hs
  exact hu q hq hf h0 (h3 _ hs)

/-- C24: cycle reporting. Take any context `c`, an item `k` and a dimension `dim` such that the
neighbor references which the chain walk `uiComputeChainSize` follows from `k` revisit an item
(`WalkRevisits`: one of the two loops of the walk, the one along the left neighbors or the one
along the right neighbors, is at the same item after `i` steps and after `j > i` steps; for two
left-anchored siblings that name each other as left neighbor, the loop from either is back at
its start after two steps). Nothing else is assumed about `c`. Then
(1) the chain walk on `k` fails with an assertion, the `assert(it<1000000)` of its loop;
(2) if `uiProcess c` runs that chain walk, that is, `(k, dim)` is among the calls of
`uiComputeChainSize` that the size pass makes (`walksOfProcess c`), then `uiProcess c` fails
with an assertion: it neither returns a layout nor runs out of fuel;
(3) `uiProcess c` also fails with an assertion under a condition on the declarations alone:
the items below the root form a tree `t` (`Hierarchy`, `ParentOK`), `k` is an item of `t`,
the parent of `k` has size hint 0 in `dim < 2`, the loop along one side revisits an item, and
no item with the anchor flag of the other side names, as its neighbor on that other side, an
item that the loop visits (`Unmasked`; a walk along such a reference would mark the item, and
`uiComputeSizeDim` starts no walk from a marked item) -/
theorem cycle_reported (c : UIcontext) (k dim : Nat) (hrev : WalkRevisits c dim k) :
    uiComputeChainSize c k dim = .error .assertion ∧
    ((k, dim) ∈ walksOfProcess c → uiProcess c = .error .assertion) ∧
    (∀ t, Hierarchy c t → ParentOK c 0 t → dim < 2 → k ∈ t.indices →
      (c.get (c.get k).parent.toNat).size.v dim = 0 →
      (Revisits c dim UI_LEFT dim k ∧ Unmasked c dim UI_LEFT dim UI_RIGHT (dim + 2) k) ∨
        (Revisits c dim UI_RIGHT (dim + 2) k ∧
          Unmasked c dim UI_RIGHT (dim + 2) UI_LEFT dim k) →
      uiProcess c = .error .assertion) := by
  refine ⟨walk_revisits_assertion hrev, fun hm => walks_process hm hrev, ?_⟩
  intro t h hpo hdim hk hauto hside
  rcases hside with ⟨hr, hu⟩ | ⟨hr, hu⟩
  · refine unmasked_process h hpo hdim
      (show Adm dim UI_LEFT dim UI_RIGHT from ⟨Or.inl ⟨rfl, rfl⟩, Or.inr rfl⟩) ?_ hk hauto hr hu
    intro e he
    rcases he with ⟨e1, -⟩ | ⟨-, e2⟩
    · exact absurd e1 (by decide)
    · exact e2
  · refine unmasked_process h hpo hdim
      (show Adm dim UI_RIGHT (dim + 2) UI_LEFT from ⟨Or.inr rfl, Or.inl ⟨rfl, rfl⟩⟩) ?_ hk hauto
      hr hu
    intro e he
    rcases he with ⟨-, e2⟩ | ⟨e1, -⟩
    · exact e2
    · exact absurd e1 (by decide)

/-- with a size hint on the root, `uiComputeSizeDim` takes the hint and runs no chain walk:
the two siblings of `ringEx`, which name each other as left neighbor, are laid out and
`uiProcess` returns -/
theorem sized_root_runs_no_walk :
    uiCalls (uiMakeCurrent uiCreateContext) ringCalls = .ok ringEx ∧
    (ringEx.get 1).relto.v0 = 2 ∧ (ringEx.get 2).relto.v0 = 1 ∧
    walksOfProcess ringEx = [] ∧ uiProcess ringEx = .ok (ringDone, []) := by
  have s1 : uiComputeBestSize (uiFuel ringEx) ringEx 0 = .ok ringSized := by decide
  have s2 : (ringSized.modify 0
      (fun i => { i with rect := { i.rect with x := i.margins.v 0 } })).modify 0
      (fun i => { i with rect := { i.rect with y := i.margins.v 1 } }) = ringSized := by
    decide
  have s3 : (uiLayoutItem (uiFuel ringSized) (uiFuel ringSized) ringSized 0).bind
      (fun cl => (uiProcessHot cl).bind (fun hot => (uiProcessState cl hot).bind (fun r =>
        (uiProcessHandles r.1).map (fun c' => (c', r.2))))) = .ok (ringDone, []) := by decide
  refine ⟨by decide, by decide, by decide, by decide, ?_⟩
  rw [uiProcess_eq_bind, uiProcessLayout_of_sized s1 s2]
  exact s3

/-- C24 at two examples. `cycleEx` is the example of the claim, two left-anchored children of a
root without size hint that name each other as left neighbor: the loop along the left
neighbors from item 1 is at item 1 again after two steps, `uiProcess` runs the chain walk on
item 1 in dimension 0, the walk fails and `uiProcess` fails, by parts (1) and (2) of
`cycle_reported`. `cycleMoreEx` has in addition a right-anchored child of the root with a
child anchored to both sides: `uiProcess` runs the chain walks of that child first and then
the walk on item 1, and it fails, by part (3) -/
theorem cycle_reported_witness :
    uiCalls (uiMakeCurrent uiCreateContext) cycleCalls = .ok cycleEx ∧
    (cycleEx.get 1).parent = 0 ∧ (cycleEx.get 2).parent = 0 ∧
    (cycleEx.get 1).layout_flags = UI_LEFT ∧ (cycleEx.get 2).layout_flags = UI_LEFT ∧
    (cycleEx.get 1).relto.v0 = 2 ∧ (cycleEx.get 2).relto.v0 = 1 ∧
    WalkRevisits cycleEx 0 1 ∧ (1, 0) ∈ walksOfProcess cycleEx ∧
    uiComputeChainSize cycleEx 1 0 = .error .assertion ∧
    uiProcess cycleEx = .error .assertion ∧
    uiCalls (uiMakeCurrent uiCreateContext) cycleMoreCalls = .ok cycleMoreEx ∧
    WalkRevisits cycleMoreEx 0 1 ∧ (1, 0) ∈ walksOfProcess cycleMoreEx ∧
    Unmasked cycleMoreEx 0 UI_LEFT 0 UI_RIGHT 2 1 ∧
    uiProcess cycleMoreEx = .error .assertion :=
  have r1 : WalkRevisits cycleEx 0 1 := Or.inl ⟨0, 2, 1, by decide, by decide, by decide⟩
  have r2 : Revisits cycleMoreEx 0 UI_LEFT 0 1 := ⟨0, 2, 1, by decide, by decide, by decide⟩
  have key : ∀ a, a < cycleMoreEx.count →
      ¬ (Int.land ((cycleMoreEx.get a).layout_flags >>> (0 : Nat)) UI_RIGHT ≠ 0 ∧
        0 ≤ (cycleMoreEx.get a).relto.v 2) := by decide
  have u2 : Unmasked cycleMoreEx 0 UI_LEFT 0 UI_RIGHT 2 1 :=
    fun a ha hf h0 _ => key a ha ⟨hf, h0⟩
  ⟨by decide, by decide, by decide, by decide, by decide, by decide, by decide, r1, by decide,
    (cycle_reported cycleEx 1 0 r1).1, (cycle_reported cycleEx 1 0 r1).2.1 (by decide),
    by decide, Or.inl r2, by decide, u2,
    (cycle_reported cycleMoreEx 1 0 (Or.inl r2)).2.2 moreKids
      ⟨by decide, by decide, by decide⟩ (by decide) (by decide) (by decide) (by decide)
      (Or.inl ⟨r2, u2⟩)⟩

/-! ### The child lists (C26) -/

theorem get_modify_set {α : Type} (g : UIitem → α) (c : UIcontext) (p q : Nat)
    (f : UIitem → UIitem) (v : α) (hf : ∀ i, g (f i) = v) (hp : p < c.count) :
    g ((c.modify p f).get q) = if q = p then v else g (c.get q) := by
  rw [get_modify]
  by_cases h : q = p
  · rw [if_pos ⟨h, hp⟩, if_pos h, hf]
  · rw [if_neg (fun hx => h hx.1), if_neg h]

/-- the tree links of every item after a successful `uiSetParent` -/
theorem uiAttached_links (c : UIcontext) (item parent : Int) (h1 : 0 < item)
    (h2 : item < c.count) (h4 : parent < c.count)
    (hl : (c.get parent.toNat).lastkid < c.count) (q : Nat) :
    ((uiAttached c item parent).get q).parent =
      (if q = item.toNat then parent else (c.get q).parent) ∧
    ((uiAttached c item parent).get q).kidid =
      (if q = item.toNat then (c.get parent.toNat).numkids else (c.get q).kidid) ∧
    ((uiAttached c item parent).get q).numkids =
      (if q = parent.toNat then (c.get parent.toNat).numkids + 1 else (c.get q).numkids) ∧
    ((uiAttached c item parent).get q).firstkid =
      (if q = parent.toNat ∧ (c.get parent.toNat).lastkid < 0 then item
        else (c.get q).firstkid) ∧
    ((uiAttached c item parent).get q).lastkid =
      (if q = parent.toNat then item else (c.get q).lastkid) ∧
    ((uiAttached c item parent).get q).nextitem =
      (if 0 ≤ (c.get parent.toNat).lastkid ∧ q = ((c.get parent.toNat).lastkid).toNat then item
        else (c.get q).nextitem) := by
  have hi : item.toNat < c.count := by omega
  have hp : parent.toNat < c.count := by omega
  unfold uiAttached
  simp only
  by_cases hlk : (c.get parent.toNat).lastkid < 0
  · have e : ((((c.modify item.toNat (fun i => { i with parent := parent })).modify item.toNat
        (fun i => { i with kidid :=
          ((c.modify item.toNat (fun i => { i with parent := parent })).get
            parent.toNat).numkids })).modify parent.toNat
        (fun i => { i with numkids :=
          ((c.modify item.toNat (fun i => { i with parent := parent })).get
            parent.toNat).numkids + 1 })).get parent.toNat).lastkid =
        (c.get parent.toNat).lastkid := by
      refine (get_modify_field UIitem.lastkid _ _ _ _ ?_).trans
        ((get_modify_field UIitem.lastkid _ _ _ _ ?_).trans
          (get_modify_field UIitem.lastkid _ _ _ _ ?_)) <;> intro i <;> rfl
    rw [if_pos (by rw [e]; exact hlk)]
    simp only [get_modify, count_modify, hi, hp, and_true]
    refine ⟨?_, ?_, ?_, ?_, ?_, ?_⟩ <;> split_ifs <;> simp_all <;> omega
  · have e : ((((c.modify item.toNat (fun i => { i with parent := parent })).modify item.toNat
        (fun i => { i with kidid :=
          ((c.modify item.toNat (fun i => { i with parent := parent })).get
            parent.toNat).numkids })).modify parent.toNat
        (fun i => { i with numkids :=
          ((c.modify item.toNat (fun i => { i with parent := parent })).get
            parent.toNat).numkids + 1 })).get parent.toNat).lastkid =
        (c.get parent.toNat).lastkid := by
      refine (get_modify_field UIitem.lastkid _ _ _ _ ?_).trans
        ((get_modify_field UIitem.lastkid _ _ _ _ ?_).trans
          (get_modify_field UIitem.lastkid _ _ _ _ ?_)) <;> intro i <;> rfl
    rw [if_neg (by rw [e]; exact hlk), e]
    have hk : ((c.get parent.toNat).lastkid).toNat < c.count := by omega
    have en : ((c.modify item.toNat (fun i => { i with parent := parent })).get
        parent.toNat).numkids = (c.get parent.toNat).numkids := by
      refine get_modify_field UIitem.numkids _ _ _ _ ?_
      intro i; rfl
    rw [en]
    refine ⟨?_, ?_, ?_, ?_, ?_, ?_⟩
    · refine (get_modify_field UIitem.parent _ _ _ _ ?_).trans
        ((get_modify_field UIitem.parent _ _ _ _ ?_).trans
          ((get_modify_field UIitem.parent _ _ _ _ ?_).trans
            ((get_modify_field UIitem.parent _ _ _ _ ?_).trans
              (get_modify_set UIitem.parent c _ q _ parent ?_ hi)))) <;> intro i <;> rfl
    · refine (get_modify_field UIitem.kidid _ _ _ _ ?_).trans
        ((get_modify_field UIitem.kidid _ _ _ _ ?_).trans
          ((get_modify_field UIitem.kidid _ _ _ _ ?_).trans
            ((get_modify_set UIitem.kidid _ _ q _ (c.get parent.toNat).numkids ?_
              (by simp only [count_modify]; exact hi)).trans ?_)))
      · intro i; rfl
      · intro i; rfl
      · intro i; rfl
      · intro i; rfl
      · by_cases hq : q = item.toNat
        · rw [if_pos hq, if_pos hq]
        · rw [if_neg hq, if_neg hq]
          refine get_modify_field UIitem.kidid _ _ _ _ ?_
          intro i; rfl
    · refine (get_modify_field UIitem.numkids _ _ _ _ ?_).trans
        ((get_modify_field UIitem.numkids _ _ _ _ ?_).trans
          ((get_modify_set UIitem.numkids _ _ q _ ((c.get parent.toNat).numkids + 1) ?_
            (by simp only [count_modify]; exact hp)).trans ?_))
      · intro i; rfl
      · intro i; rfl
      · intro i; rfl
      · by_cases hq : q = parent.toNat
        · rw [if_pos hq, if_pos hq]
        · rw [if_neg hq, if_neg hq]
          refine (get_modify_field UIitem.numkids _ _ _ _ ?_).trans
            (get_modify_field UIitem.numkids _ _ _ _ ?_) <;> intro i <;> rfl
    · rw [if_neg (fun hx => hlk hx.2)]
      refine (get_modify_field UIitem.firstkid _ _ _ _ ?_).trans
        ((get_modify_field UIitem.firstkid _ _ _ _ ?_).trans
          ((get_modify_field UIitem.firstkid _ _ _ _ ?_).trans
            ((get_modify_field UIitem.firstkid _ _ _ _ ?_).trans
              (get_modify_field UIitem.firstkid _ _ _ _ ?_)))) <;> intro i <;> rfl
    · refine (get_modify_set UIitem.lastkid _ _ q _ item ?_
        (by simp only [count_modify]; exact hp)).trans ?_
      · intro i; rfl
      · by_cases hq : q = parent.toNat
        · rw [if_pos hq, if_pos hq]
        · rw [if_neg hq, if_neg hq]
          refine (get_modify_field UIitem.lastkid _ _ _ _ ?_).trans
            ((get_modify_field UIitem.lastkid _ _ _ _ ?_).trans
              ((get_modify_field UIitem.lastkid _ _ _ _ ?_).trans
                (get_modify_field UIitem.lastkid _ _ _ _ ?_))) <;> intro i <;> rfl
    · refine (get_modify_field UIitem.nextitem _ _ _ _ ?_).trans
        ((get_modify_set UIitem.nextitem _ _ q _ item ?_
          (by simp only [count_modify]; exact hk)).trans ?_)
      · intro i; rfl
      · intro i; rfl
      · by_cases hq : q = ((c.get parent.toNat).lastkid).toNat
        · rw [if_pos hq, if_pos ⟨by omega, hq⟩]
        · rw [if_neg hq, if_neg (fun hx => hq hx.2)]
          refine (get_modify_field UIitem.nextitem _ _ _ _ ?_).trans
            ((get_modify_field UIitem.nextitem _ _ _ _ ?_).trans
              (get_modify_field UIitem.nextitem _ _ _ _ ?_)) <;> intro i <;> rfl

theorem toNat_ne_of_pos {x y : Int} (hx : 0 < x) (hy : 0 < y) (h : x ≠ y) :
    x.toNat ≠ y.toNat := by omega

theorem Chain_congr {c c' : UIcontext} (hc : c.count ≤ c'.count) :
    ∀ (l : List Int) (kid : Int),
      (∀ x ∈ l, (c'.get x.toNat).nextitem = (c.get x.toNat).nextitem) →
      Chain c kid l → Chain c' kid l := by
  intro l
  induction l with
  | nil => intro kid _ h; exact h
  | cons x xs ih =>
    intro kid hn h
    obtain ⟨h1, h2, h3, h4⟩ := h
    refine ⟨h1, h2, by omega, ?_⟩
    rw [hn x (List.mem_cons_self _ _)]
    exact ih _ (fun y hy => hn y (List.mem_cons_of_mem _ hy)) h4

theorem Chain_snoc {c c' : UIcontext} (hc : c.count ≤ c'.count) (item z : Int)
    (h0 : 0 < item) (h1 : item < c'.count) (hni : (c'.get item.toNat).nextitem = -1)
    (hz : (c'.get z.toNat).nextitem = item) :
    ∀ (l : List Int) (kid : Int), l.getLast? = some z → l.Nodup →
      (∀ x ∈ l, x ≠ z → (c'.get x.toNat).nextitem = (c.get x.toNat).nextitem) →
      Chain c kid l → Chain c' kid (l ++ [item]) := by
  intro l
  induction l with
  | nil => intro kid hl; simp at hl
  | cons x xs ih =>
    intro kid hl hnd hn h
    obtain ⟨e1, e2, e3, e4⟩ := h
    cases xs with
    | nil =>
      simp only [List.getLast?_singleton, Option.some.injEq] at hl
      subst hl
      exact ⟨e1, e2, by omega, by rw [hz]; exact ⟨rfl, h0, h1, hni⟩⟩
    | cons y ys =>
      rw [List.getLast?_cons_cons] at hl
      have hzm : z ∈ y :: ys := List.mem_of_getLast?_eq_some hl
      have hxz : x ≠ z := by
        intro e
        rw [e] at hnd
        exact (List.nodup_cons.mp hnd).1 hzm
      refine ⟨e1, e2, by omega, ?_⟩
      rw [hn x (List.mem_cons_self _ _) hxz]
      exact ih _ hl (List.nodup_cons.mp hnd).2
        (fun w hw => hn w (List.mem_cons_of_mem _ hw)) e4

theorem KidsInv_of_links {c c' : UIcontext} {log : Int → List Int} (hc : c'.count = c.count)
    (hl : ∀ q, (c'.get q).links = (c.get q).links) (h : KidsInv c log) : KidsInv c' log := by
  have f : ∀ q, (c'.get q).numkids = (c.get q).numkids ∧
      (c'.get q).firstkid = (c.get q).firstkid ∧ (c'.get q).lastkid = (c.get q).lastkid ∧
      (c'.get q).parent = (c.get q).parent ∧ (c'.get q).kidid = (c.get q).kidid ∧
      (c'.get q).nextitem = (c.get q).nextitem := by
    intro q
    have := hl q
    simp only [UIitem.links, Prod.mk.injEq] at this
    exact this
  refine ⟨by rw [hc]; exact h.live, ?_, ?_, ?_, ?_, ?_, ?_, ?_, h.nodup⟩
  · intro p hp
    rw [(f p).2.1]
    exact Chain_congr (by omega) _ _ (fun x _ => (f _).2.2.2.2.2) (h.chain p (by omega))
  · intro p hp
    rw [(f p).2.2.1]
    exact h.last p (by omega)
  · intro p hp
    rw [(f p).1]
    exact h.num p (by omega)
  · intro p i x hx
    rw [(f _).2.2.2.2.1, (f _).2.2.2.1, hc]
    exact h.elem p i x hx
  · intro p hp
    rw [hc] at hp
    exact h.dead p hp
  · intro x hx hpar
    rw [(f x).2.2.2.1] at hpar
    rw [(f x).2.2.2.2.2]
    exact h.loose x (by omega) hpar
  · rw [(f 0).2.2.2.1]
    exact h.root

theorem KidsInv_uiClear (c : UIcontext) : KidsInv (uiClear c) (fun _ => []) := by
  have e0 : (uiClear c).get 0 = UIitem.root := rfl
  have hc : (uiClear c).count = 1 := rfl
  refine ⟨by rw [hc]; omega, ?_, ?_, ?_, ?_, ?_, ?_, ?_, ?_⟩
  · intro p hp
    have : p = 0 := by omega
    subst this
    rw [e0]
    rfl
  · intro p hp
    have : p = 0 := by omega
    subst this
    rw [e0]
    rfl
  · intro p hp
    have : p = 0 := by omega
    subst this
    rw [e0]
    rfl
  · intro p i x hx
    simp at hx
  · intro p _
    rfl
  · intro x hx _
    have : x = 0 := by omega
    subst this
    rw [e0]
    rfl
  · rw [e0]; rfl
  · intro p
    exact List.nodup_nil

theorem KidsInv_uiItem {c : UIcontext} {log : Int → List Int} (h : KidsInv c log) :
    KidsInv ({ c with items := c.items ++ [UIitem.fresh] } : UIcontext) log := by
  have hc : ({ c with items := c.items ++ [UIitem.fresh] } : UIcontext).count = c.count + 1 := by
    simp [UIcontext.count]
  have hlive := h.live
  have g : ∀ q, q < c.count →
      ({ c with items := c.items ++ [UIitem.fresh] } : UIcontext).get q = c.get q := by
    intro q hq
    rw [get_uiItem, if_pos hq]
  have gn : ({ c with items := c.items ++ [UIitem.fresh] } : UIcontext).get c.count =
      UIitem.fresh := by
    rw [get_uiItem, if_neg (by omega), if_pos rfl]
  have hmem : ∀ (p : Int) (x : Int), x ∈ log p → 0 < x ∧ x < c.count := by
    intro p x hx
    obtain ⟨i, hi⟩ := List.getElem?_of_mem hx
    exact ⟨(h.elem p i x hi).1, (h.elem p i x hi).2.1⟩
  have hdead : log (c.count : Int) = [] := h.dead _ (by omega)
  refine ⟨by omega, ?_, ?_, ?_, ?_, ?_, ?_, ?_, h.nodup⟩
  · intro p hp
    by_cases hq : p < c.count
    · rw [g p hq]
      refine Chain_congr (by omega) _ _ ?_ (h.chain p hq)
      intro x hx
      have := hmem _ x hx
      rw [g x.toNat (by omega)]
    · have : p = c.count := by omega
      subst this
      rw [gn, hdead]
      rfl
  · intro p hp
    by_cases hq : p < c.count
    · rw [g p hq]; exact h.last p hq
    · have : p = c.count := by omega
      subst this
      rw [gn, hdead]
      rfl
  · intro p hp
    by_cases hq : p < c.count
    · rw [g p hq]; exact h.num p hq
    · have : p = c.count := by omega
      subst this
      rw [gn, hdead]
      rfl
  · intro p i x hx
    obtain ⟨a1, a2, a3, a4⟩ := h.elem p i x hx
    rw [g x.toNat (by omega)]
    exact ⟨a1, by omega, a3, a4⟩
  · intro p hp
    exact h.dead p (by omega)
  · intro x hx hpar
    by_cases hq : x < c.count
    · rw [g x hq] at hpar ⊢
      exact h.loose x hq hpar
    · have : x = c.count := by omega
      subst this
      rw [gn]
      rfl
  · rw [g 0 hlive]
    exact h.root

/-- the child lists after a successful `uiSetParent` -/
theorem KidsInv_uiAttached {c : UIcontext} {log : Int → List Int} (h : KidsInv c log)
    {item parent : Int} (h1 : 0 < item) (h2 : item < c.count) (h3 : 0 ≤ parent)
    (h4 : parent < c.count) (h5 : (c.get item.toNat).parent = -1) :
    KidsInv (uiAttached c item parent)
      (fun p => if p = parent then log p ++ [item] else log p) := by
  have hpi : item.toNat < c.count := by omega
  have hpp : parent.toNat < c.count := by omega
  have epp : ((parent.toNat : Nat) : Int) = parent := Int.toNat_of_nonneg h3
  have hmem : ∀ (p : Int) (x : Int), x ∈ log p →
      0 < x ∧ x < c.count ∧ (c.get x.toNat).parent = p ∧ 0 ≤ p := by
    intro p x hx
    obtain ⟨i, hi⟩ := List.getElem?_of_mem hx
    obtain ⟨a1, a2, -, a4⟩ := h.elem p i x hi
    refine ⟨a1, a2, a4, ?_⟩
    by_contra hneg
    have := h.dead p (fun hv => hneg hv.1)
    rw [this] at hx
    simp at hx
  have hnot : ∀ p, item ∉ log p := by
    intro p hx
    obtain ⟨-, -, a3, a4⟩ := hmem p item hx
    rw [h5] at a3
    omega
  have hlast := h.last parent.toNat hpp
  rw [epp] at hlast
  -- the last child of the parent, if any
  have hz : (log parent = [] ∧ (c.get parent.toNat).lastkid = -1) ∨
      (∃ z, (log parent).getLast? = some z ∧ (c.get parent.toNat).lastkid = z ∧ 0 < z ∧
        z < c.count ∧ (c.get z.toNat).parent = parent) := by
    cases hg : (log parent).getLast? with
    | none =>
      left
      rw [hg] at hlast
      exact ⟨List.getLast?_eq_none_iff.mp hg, hlast⟩
    | some z =>
      right
      rw [hg] at hlast
      obtain ⟨a1, a2, a3, -⟩ := hmem parent z (List.mem_of_getLast?_eq_some hg)
      exact ⟨z, rfl, hlast, a1, a2, a3⟩
  have hl : (c.get parent.toNat).lastkid < c.count := by
    rcases hz with ⟨-, e⟩ | ⟨z, -, e, -, hzc, -⟩
    · rw [e]; omega
    · rw [e]; exact hzc
  have F := uiAttached_links c item parent h1 h2 h4 hl
  have hcnt := count_uiAttached c item parent
  have hnext : ∀ x : Nat, x < c.count → (c.get x).parent ≠ parent →
      ((uiAttached c item parent).get x).nextitem = (c.get x).nextitem := by
    intro x hx hne
    rw [(F x).2.2.2.2.2]
    rcases hz with ⟨-, e⟩ | ⟨z, -, e, hz0, -, hzp⟩
    · rw [if_neg (by rw [e]; omega)]
    · rw [if_neg]
      rintro ⟨-, hq⟩
      rw [e] at hq
      rw [hq] at hne
      exact hne hzp
  have hni : ((uiAttached c item parent).get item.toNat).nextitem = -1 := by
    rw [hnext item.toNat hpi (by rw [h5]; omega)]
    exact h.loose _ hpi h5
  refine ⟨by rw [hcnt]; exact h.live, ?_, ?_, ?_, ?_, ?_, ?_, ?_, ?_⟩
  · -- chain
    intro p hp
    rw [hcnt] at hp
    rw [(F p).2.2.2.1]
    by_cases hq : p = parent.toNat
    · subst hq
      simp only [epp, if_true, true_and]
      rcases hz with ⟨e0, e⟩ | ⟨z, hg, e, hz0, hzc, hzp⟩
      · rw [if_pos (by rw [e]; omega), e0]
        exact ⟨rfl, h1, by rw [hcnt]; exact h2, hni⟩
      · rw [if_neg (by rw [e]; omega)]
        have hc0 := h.chain parent.toNat hpp
        rw [epp] at hc0
        refine Chain_snoc (by omega) item z h1 (by rw [hcnt]; exact h2) hni ?_ _ _ hg
          (h.nodup parent) ?_ hc0
        · rw [(F _).2.2.2.2.2, if_pos ⟨by rw [e]; omega, by rw [e]⟩]
        · intro x hx hxz
          rw [(F _).2.2.2.2.2, if_neg]
          rintro ⟨-, hq⟩
          rw [e] at hq
          have := (hmem parent x hx).1
          omega
    · have hne : (p : Int) ≠ parent := by omega
      rw [if_neg (fun hx => hq hx.1), if_neg hne]
      refine Chain_congr (by omega) _ _ ?_ (h.chain p hp)
      intro x hx
      obtain ⟨a1, a2, a3, -⟩ := hmem _ x hx
      exact hnext x.toNat (by omega) (by rw [a3]; exact hne)
  · -- last
    intro p hp
    rw [hcnt] at hp
    rw [(F p).2.2.2.2.1]
    by_cases hq : p = parent.toNat
    · subst hq
      simp only [epp, if_true]
      rw [List.getLast?_append, List.getLast?_singleton]
      rfl
    · have hne : (p : Int) ≠ parent := by omega
      rw [if_neg hq, if_neg hne]
      exact h.last p hp
  · -- num
    intro p hp
    rw [hcnt] at hp
    rw [(F p).2.2.1]
    by_cases hq : p = parent.toNat
    · subst hq
      simp only [epp, if_true]
      rw [h.num parent.toNat hpp, epp, List.length_append]
      simp
    · have hne : (p : Int) ≠ parent := by omega
      rw [if_neg hq, if_neg hne]
      exact h.num p hp
  · -- elem
    intro p i x hx
    rw [hcnt, (F _).1, (F _).2.1]
    have old : ∀ i : Nat, (log p)[i]? = some x →
        0 < x ∧ x < c.count ∧
          (if x.toNat = item.toNat then (c.get parent.toNat).numkids
            else (c.get x.toNat).kidid) = (i : Int) ∧
          (if x.toNat = item.toNat then parent else (c.get x.toNat).parent) = p := by
      intro i hi
      obtain ⟨a1, a2, a3, a4⟩ := h.elem p i x hi
      have hxi : x ≠ item := fun e => hnot p (e ▸ List.getElem?_mem hi)
      rw [if_neg (toNat_ne_of_pos a1 h1 hxi), if_neg (toNat_ne_of_pos a1 h1 hxi)]
      exact ⟨a1, a2, a3, a4⟩
    by_cases hq : p = parent
    · subst hq
      rw [if_pos rfl] at hx
      by_cases hi : i < (log p).length
      · rw [List.getElem?_append_left hi] at hx
        exact old i hx
      · rw [List.getElem?_append_right (by omega)] at hx
        have hi0 : i - (log p).length = 0 := by
          by_contra hne
          obtain ⟨k, hk⟩ := Nat.exists_eq_succ_of_ne_zero hne
          rw [hk] at hx
          simp at hx
        rw [hi0] at hx
        simp only [List.getElem?_cons_zero, Option.some.injEq] at hx
        subst hx
        rw [if_pos rfl, if_pos rfl, h.num p.toNat hpp, epp]
        exact ⟨h1, h2, by congr 1; omega, rfl⟩
    · rw [if_neg hq] at hx
      exact old i hx
  · -- dead
    intro p hp
    rw [hcnt] at hp
    have hne : p ≠ parent := fun e => hp (e ▸ ⟨h3, h4⟩)
    rw [if_neg hne]
    exact h.dead p hp
  · -- loose
    intro x hx hpar
    rw [hcnt] at hx
    rw [(F x).1] at hpar
    by_cases hxi : x = item.toNat
    · rw [hxi]; exact hni
    · rw [if_neg hxi] at hpar
      rw [hnext x hx (by rw [hpar]; omega)]
      exact h.loose x hx hpar
  · -- root
    rw [(F 0).1, if_neg (by omega)]
    exact h.root
  · -- nodup
    intro p
    by_cases hq : p = parent
    · rw [if_pos hq]
      exact List.Nodup.append (h.nodup p) (List.nodup_singleton _)
        (by
          intro x hx hx2
          rw [List.mem_singleton] at hx2
          exact hnot p (hx2 ▸ hx))
    · rw [if_neg hq]
      exact h.nodup p

theorem uiItem_call {c c' : UIcontext} (h : uiCall c .item = .ok c') :
    c' = ({ c with items := c.items ++ [UIitem.fresh] } : UIcontext) := by
  simp only [uiCall, uiItem] at h
  by_cases hlim : c.count < UI_MAX_ITEMS
  · rw [if_pos hlim] at h
    simp only [Except.map] at h
    injection h with h
    exact h.symm
  · rw [if_neg hlim] at h
    simp only [Except.map] at h
    cases h

theorem attachedTo_cons (p : Int) (call : UIcall) (rest : List UIcall) :
    attachedTo p (call :: rest) = attachedTo p [call] ++ attachedTo p rest := by
  cases call <;> simp only [attachedTo, List.nil_append]
  split <;> rfl

theorem attachedTo_other (p : Int) (call : UIcall) (h2 : ∀ i q, call ≠ .setParent i q) :
    attachedTo p [call] = [] := by
  cases call <;> first | rfl | exact absurd rfl (h2 _ _)

theorem KidsInv_uiCall {c : UIcontext} {log : Int → List Int} {call : UIcall} {c' : UIcontext}
    (h : KidsInv c log) (hne : call ≠ .clear) (hc : uiCall c call = .ok c') :
    KidsInv c' (fun p => log p ++ attachedTo p [call]) := by
  by_cases h1 : call = .item
  · subst h1
    rw [uiItem_call hc]
    have e : (fun p => log p ++ attachedTo p [UIcall.item]) = log := by
      funext p
      simp [attachedTo]
    rw [e]
    exact KidsInv_uiItem h
  · by_cases h2 : ∃ i q, call = .setParent i q
    · obtain ⟨item, parent, rfl⟩ := h2
      obtain ⟨a1, a2, a3, a4, a5, a6⟩ := uiSetParent_inv (show uiSetParent c item parent = .ok c'
        from hc)
      rw [a6]
      have e : (fun p => log p ++ attachedTo p [UIcall.setParent item parent]) =
          (fun p => if p = parent then log p ++ [item] else log p) := by
        funext p
        simp only [attachedTo]
        by_cases hq : parent = p
        · rw [if_pos hq, if_pos hq.symm]
        · rw [if_neg hq, if_neg (fun e => hq e.symm), List.append_nil]
      rw [e]
      exact KidsInv_uiAttached h a1 a2 a3 a4 a5
    · have h2' : ∀ i q, call ≠ .setParent i q := fun i q e => h2 ⟨i, q, e⟩
      obtain ⟨b1, b2⟩ := links_uiCall hc h1 h2' hne
      have e : (fun p => log p ++ attachedTo p [call]) = log := by
        funext p
        rw [attachedTo_other p call h2', List.append_nil]
      rw [e]
      exact KidsInv_of_links b1 b2 h

theorem KidsInv_uiCalls :
    ∀ (calls : List UIcall) (c : UIcontext) (log : Int → List Int) (c' : UIcontext),
      KidsInv c log → UIcall.clear ∉ calls → uiCalls c calls = .ok c' →
      KidsInv c' (fun p => log p ++ attachedTo p calls) := by
  intro calls
  induction calls with
  | nil =>
    intro c log c' h _ hc
    simp only [uiCalls] at hc
    injection hc with hc
    rw [← hc]
    have e : (fun p => log p ++ attachedTo p []) = log := by
      funext p
      simp [attachedTo]
    rw [e]
    exact h
  | cons call rest ih =>
    intro c log c' h hno hc
    simp only [uiCalls] at hc
    split at hc
    · cases hc
    · rename_i c1 h1
      have hne : call ≠ .clear := fun e => hno (e ▸ List.mem_cons_self _ _)
      have k1 := KidsInv_uiCall h hne h1
      have k2 := ih c1 _ c' k1 (fun hx => hno (List.mem_cons_of_mem _ hx)) hc
      have e : (fun p => log p ++ attachedTo p (call :: rest)) =
          (fun p => (log p ++ attachedTo p [call]) ++ attachedTo p rest) := by
        funext p
        rw [attachedTo_cons, List.append_assoc]
      rw [e]
      exact k2

theorem IsChain_of_Chain (c : UIcontext) :
    ∀ (l : List Int) (kid : Int), Chain c kid l → IsChain c kid l := by
  intro l
  induction l with
  | nil => intro kid h; exact h
  | cons x xs ih =>
    intro kid h
    obtain ⟨h1, h2, h3, h4⟩ := h
    simp only [IsChain, uiNextSibling_valid (show 0 ≤ x by omega) h3]
    exact ⟨h1, ih _ h4⟩

theorem getter_valid {c : UIcontext} {item : Int} (h0 : 0 ≤ item) (h1 : item < c.count) :
    uiLastChild c item = .ok (c.get item.toNat).lastkid ∧
    uiGetChildCount c item = .ok (c.get item.toNat).numkids ∧
    uiGetChildId c item = .ok (c.get item.toNat).kidid ∧
    uiParent c item = .ok (c.get item.toNat).parent := by
  unfold uiLastChild uiGetChildCount uiGetChildId uiParent
  rw [uiItemPtr_of_valid h0 h1]
  exact ⟨rfl, rfl, rfl, rfl⟩

theorem uiParent_inv {c : UIcontext} {item q : Int} (h : uiParent c item = .ok q) :
    0 ≤ item ∧ item < c.count ∧ q = (c.get item.toNat).parent := by
  unfold uiParent at h
  cases hp : uiItemPtr c item with
  | error e => simp [hp, bind, Except.bind] at h
  | ok p =>
    obtain ⟨a1, a2, a3, -⟩ := uiItemPtr_ok hp
    simp only [hp, bind, Except.bind, pure, Except.pure] at h
    injection h with h
    have : item.toNat = p := by omega
    rw [this]
    exact ⟨a1, a2, h.symm⟩

theorem parent_uiAttached (c : UIcontext) (item parent : Int) (q : Nat) :
    ((uiAttached c item parent).get q).parent =
      if q = item.toNat ∧ item.toNat < c.count then parent else (c.get q).parent := by
  have e1 : ((c.modify item.toNat (fun i => { i with parent := parent })).get q).parent =
      if q = item.toNat ∧ item.toNat < c.count then parent else (c.get q).parent := by
    rw [get_modify]
    split <;> rfl
  unfold uiAttached
  simp only
  split
  · refine (get_modify_field UIitem.parent _ _ _ _ ?_).trans
      ((get_modify_field UIitem.parent _ _ _ _ ?_).trans
        ((get_modify_field UIitem.parent _ _ _ _ ?_).trans
          ((get_modify_field UIitem.parent _ _ _ _ ?_).trans e1)))
      <;> intro i <;> rfl
  · refine (get_modify_field UIitem.parent _ _ _ _ ?_).trans
      ((get_modify_field UIitem.parent _ _ _ _ ?_).trans
        ((get_modify_field UIitem.parent _ _ _ _ ?_).trans
          ((get_modify_field UIitem.parent _ _ _ _ ?_).trans e1)))
      <;> intro i <;> rfl

/-- no call other than `uiClear` changes a parent that has been set -/
theorem parent_uiCall {c : UIcontext} {call : UIcall} {c' : UIcontext} (hne : call ≠ .clear)
    (hc : uiCall c call = .ok c') :
    c.count ≤ c'.count ∧
      ∀ x : Nat, x < c.count → (c.get x).parent ≠ -1 → (c'.get x).parent = (c.get x).parent := by
  by_cases h1 : call = .item
  · subst h1
    rw [uiItem_call hc]
    refine ⟨by simp [UIcontext.count], ?_⟩
    intro x hx _
    rw [get_uiItem, if_pos hx]
  · by_cases h2 : ∃ i q, call = .setParent i q
    · obtain ⟨item, parent, rfl⟩ := h2
      obtain ⟨a1, a2, a3, a4, a5, a6⟩ := uiSetParent_inv (show uiSetParent c item parent = .ok c'
        from hc)
      rw [a6, count_uiAttached]
      refine ⟨le_refl _, ?_⟩
      intro x hx hp
      rw [parent_uiAttached, if_neg]
      rintro ⟨e, -⟩
      rw [e] at hp
      exact hp a5
    · have h2' : ∀ i q, call ≠ .setParent i q := fun i q e => h2 ⟨i, q, e⟩
      obtain ⟨b1, b2⟩ := links_uiCall hc h1 h2' hne
      refine ⟨by omega, ?_⟩
      intro x _ _
      have := b2 x
      simp only [UIitem.links, Prod.mk.injEq] at this
      exact this.2.2.2.1

theorem parent_uiCalls :
    ∀ (calls : List UIcall) (c c' : UIcontext), UIcall.clear ∉ calls →
      uiCalls c calls = .ok c' →
      c.count ≤ c'.count ∧
        ∀ x : Nat, x < c.count → (c.get x).parent ≠ -1 →
          (c'.get x).parent = (c.get x).parent := by
  intro calls
  induction calls with
  | nil =>
    intro c c' _ hc
    simp only [uiCalls] at hc
    injection hc with hc
    rw [← hc]
    exact ⟨le_refl _, fun _ _ _ => rfl⟩
  | cons call rest ih =>
    intro c c' hno hc
    simp only [uiCalls] at hc
    split at hc
    · cases hc
    · rename_i c1 h1
      have hne : call ≠ .clear := fun e => hno (e ▸ List.mem_cons_self _ _)
      obtain ⟨a1, a2⟩ := parent_uiCall hne h1
      obtain ⟨b1, b2⟩ := ih c1 c' (fun hx => hno (List.mem_cons_of_mem _ hx)) hc
      refine ⟨by omega, ?_⟩
      intro x hx hp
      rw [b2 x (by omega) (by rw [a2 x hx hp]; exact hp), a2 x hx hp]

/-- C26: the child-list invariant. Let `c` be reached from `uiClear` by calls none of
which is `uiClear`, all successful. Then for every item `p` of `c`, starting at
`uiFirstChild p` and following `uiNextSibling` yields exactly the items that the calls attached
to `p`, in the order of the calls, and then -1; `uiLastChild p` is the last of them, or -1 if
there is none; `uiGetChildCount p` is their number; none occurs twice; the `i`-th of them, from
0, has `uiGetChildId = i` and `uiParent = p`. The root has parent -1. And whatever calls other
than `uiClear` follow, an item whose parent is set keeps that parent. -/
theorem child_lists (c0 : UIcontext) (calls : List UIcall) (c : UIcontext)
    (hno : UIcall.clear ∉ calls) (h : uiCalls (uiClear c0) calls = .ok c) :
    (∀ p : Int, 0 ≤ p → p < c.count →
      (∃ kid, uiFirstChild c p = .ok kid ∧ IsChain c kid (attachedTo p calls)) ∧
      uiLastChild c p = .ok (((attachedTo p calls).getLast?).getD (-1)) ∧
      uiGetChildCount c p = .ok ((attachedTo p calls).length : Int) ∧
      (attachedTo p calls).Nodup ∧
      ∀ (i : Nat) (x : Int), (attachedTo p calls)[i]? = some x →
        uiGetChildId c x = .ok (i : Int) ∧ uiParent c x = .ok p) ∧
    uiParent c 0 = .ok (-1) ∧
    (∀ (more : List UIcall) (c2 : UIcontext), UIcall.clear ∉ more → uiCalls c more = .ok c2 →
      ∀ item q, uiParent c item = .ok q → q ≠ -1 → uiParent c2 item = .ok q) := by
  have k := KidsInv_uiCalls calls _ _ c (KidsInv_uiClear c0) hno h
  simp only [List.nil_append] at k
  refine ⟨?_, ?_, ?_⟩
  · intro p hp0 hp1
    have hpn : p.toNat < c.count := by omega
    have ep : ((p.toNat : Nat) : Int) = p := Int.toNat_of_nonneg hp0
    obtain ⟨g1, g2, -, -⟩ := getter_valid hp0 hp1
    have kc := k.chain p.toNat hpn
    have kl := k.last p.toNat hpn
    have kn := k.num p.toNat hpn
    rw [ep] at kc kl kn
    refine ⟨⟨_, uiFirstChild_valid hp0 hp1, IsChain_of_Chain c _ _ kc⟩, ?_, ?_, k.nodup p, ?_⟩
    · rw [g1, kl]
    · rw [g2, kn]
    · intro i x hx
      obtain ⟨b1, b2, b3, b4⟩ := k.elem p i x hx
      obtain ⟨-, -, g3, g4⟩ := getter_valid (show 0 ≤ x by omega) b2
      rw [g3, g4, b3, b4]
      exact ⟨rfl, rfl⟩
  · rw [(getter_valid (le_refl 0) (by exact_mod_cast k.live)).2.2.2]
    exact congrArg Except.ok k.root
  · intro more c2 hno2 h2 item q hq hne
    obtain ⟨a1, a2, a3⟩ := uiParent_inv hq
    obtain ⟨b1, b2⟩ := parent_uiCalls more c c2 hno2 h2
    rw [(getter_valid a1 (by omega)).2.2.2, b2 item.toNat (by omega) (by rw [← a3]; exact hne),
      ← a3]

/-- C26 at the cross example: the calls `crossCalls` attach items 1 and 3 to the root,
in this order, and the child list of the root of `crossEx` is as the invariant says. -/
theorem child_lists_witness :
    UIcall.clear ∉ crossCalls ∧ uiCalls (uiClear uiCreateContext) crossCalls = .ok crossEx ∧
    attachedTo 0 crossCalls = [1, 3] ∧
    ((∃ kid, uiFirstChild crossEx 0 = .ok kid ∧ IsChain crossEx kid (attachedTo 0 crossCalls)) ∧
      uiLastChild crossEx 0 = .ok (((attachedTo 0 crossCalls).getLast?).getD (-1)) ∧
      uiGetChildCount crossEx 0 = .ok ((attachedTo 0 crossCalls).length : Int) ∧
      (attachedTo 0 crossCalls).Nodup ∧
      ∀ (i : Nat) (x : Int), (attachedTo 0 crossCalls)[i]? = some x →
        uiGetChildId crossEx x = .ok (i : Int) ∧ uiParent crossEx x = .ok 0) :=
  ⟨by decide, by decide, by decide,
    (child_lists uiCreateContext crossCalls crossEx (by decide) (by decide)).1 0 (by decide)
      (by decide)⟩

/-! ### The extent of an item without size hint (C23) -/

theorem ui_max_eq (a b : Int) : ui_max a b = max a b := by
  unfold ui_max
  split <;> omega

/-- a walk that starts at an item whose parent is not the root marks no child of the root -/
theorem keep_walk_sib (dim : Nat) (S : List Nat) (d : Nat) (flag : Int) (edge : Nat)
    (he : edge < 4) :
    ∀ (fuel : Nat) (c : UIcontext) (p : Nat) (s : Int) (it : Nat) (c' : UIcontext) (s' : Int),
      SiblingRefs c → (∀ q ∈ S, (c.get q).parent = 0) → p < c.count → 0 < (c.get p).parent →
      uiChainWalk d flag edge fuel c p s it = .ok (c', s') → KeepsUnchained dim S c c' := by
  intro fuel
  induction fuel with
  | zero => intro c p s it c' s' _ _ _ _ h; simp [uiChainWalk] at h
  | succ n ih =>
    intro c p s it c' s' hs hS hp hpar h
    rcases uiChainWalk_inv h with ⟨-, e, -⟩ | ⟨-, -, e, -⟩ | ⟨-, h0, -, q, hq, hrec⟩
    · rw [e]; exact KeepsUnchained.keep_refl _ _ _
    · rw [e]; exact KeepsUnchained.keep_refl _ _ _
    · obtain ⟨-, -, eq, hqc⟩ := uiItemPtr_ok hq
      have etn : ((c.get p).relto.v edge).toNat = q := by omega
      have d1 := decl_modify c q (fun i => { i with visited := i.visited ||| (1 <<< d) })
        (fun i => decl_visited i _)
      have hqpar : (c.get q).parent = (c.get p).parent := by
        rcases hs p hp (by omega) edge he with hx | ⟨-, -, hx⟩
        · omega
        · rw [etn] at hx; exact hx
      have hqS : q ∉ S := by
        intro hx
        have := hS q hx
        omega
      refine (keep_mark c q d dim S (Or.inr hqS)).keep_trans
        (ih _ _ _ _ _ _ (SiblingRefs_of_decl d1 hs) ?_ (by rw [count_of_decl d1]; exact hqc) ?_
          hrec)
      · intro x hx
        rw [parent_of_decl d1]; exact hS x hx
      · rw [parent_of_decl d1, hqpar]; exact hpar

theorem keep_chain_sib {dim : Nat} {S : List Nat} {c : UIcontext} {k d : Nat} (hd : d < 2)
    (hs : SiblingRefs c) (hS : ∀ q ∈ S, (c.get q).parent = 0) (hk : k < c.count)
    (hpar : 0 < (c.get k).parent) {c' : UIcontext} {s' : Int}
    (h : uiComputeChainSize c k d = .ok (c', s')) : KeepsUnchained dim S c c' := by
  obtain ⟨c1, s1, h1, h2⟩ := uiComputeChainSize_inv h
  have d0 := decl_modify c k (fun i => { i with visited := i.visited ||| (1 <<< d) })
    (fun i => decl_visited i _)
  have d1 := (decl_uiChainWalk _ _ _ _ _ _ _ _ _ _ h1).trans d0
  have hkS : k ∉ S := by
    intro hx
    have := hS k hx
    omega
  have k1 := keep_walk_sib dim S d UI_LEFT d (by omega) _ _ _ _ _ _ _
    (SiblingRefs_of_decl d0 hs) (fun x hx => by rw [parent_of_decl d0]; exact hS x hx)
    (by rw [count_of_decl d0]; exact hk) (by rw [parent_of_decl d0]; exact hpar) h1
  have k2 := keep_walk_sib dim S d UI_RIGHT (d + 2) (by omega) _ _ _ _ _ _ _
    (SiblingRefs_of_decl d1 hs) (fun x hx => by rw [parent_of_decl d1]; exact hS x hx)
    (by rw [count_of_decl d1]; exact hk) (by rw [parent_of_decl d1]; exact hpar) h2
  exact ((keep_mark c k d dim S (Or.inr hkS)).keep_trans k1).keep_trans k2

theorem keep_sizeDimKids_sib (dim : Nat) (S : List Nat) (d : Nat) (hd : d < 2) :
    ∀ (fuel : Nat) (c : UIcontext) (kid : Int) (t : KTree) (s : Int) (c' : UIcontext) (s' : Int),
      SiblingRefs c → (∀ q ∈ S, (c.get q).parent = 0) → IsForest c kid t →
      (∀ r ∈ t.roots, 0 < (c.get r).parent) →
      uiComputeSizeDimKids d fuel c kid s = .ok (c', s') → KeepsUnchained dim S c c' := by
  intro fuel
  induction fuel with
  | zero => intro c kid t s c' s' _ _ _ _ h; simp [uiComputeSizeDimKids] at h
  | succ n ih =>
    intro c kid t s c' s' hs hS hf hpar h
    cases t with
    | nil =>
      have hk : kid ≤ 0 := hf
      rcases uiComputeSizeDimKids_inv h with ⟨-, e, -⟩ | ⟨hx, -⟩
      · rw [e]; exact KeepsUnchained.keep_refl _ _ _
      · omega
    | node i kids next =>
      obtain ⟨e, h0, hi, hkids, hnext⟩ := hf
      subst e
      rcases uiComputeSizeDimKids_inv h with ⟨hle, -⟩ |
        ⟨-, pkid, hp, ⟨-, c1, chain, h1, h2⟩ | ⟨-, h2⟩⟩
      · omega
      · obtain ⟨-, -, ep, -⟩ := uiItemPtr_ok hp
        have epk : pkid = i := by omega
        subst epk
        have k1 : KeepsUnchained dim S _ _ := keep_chain_sib hd hs hS hi
          (hpar pkid (by simp [KTree.roots])) h1
        rw [nextitem_of_decl k1.1] at h2
        exact k1.keep_trans (ih c1 _ next _ _ _ (SiblingRefs_of_decl k1.1 hs)
          (fun x hx => by rw [parent_of_decl k1.1]; exact hS x hx)
          (IsForest_of_decl k1.1 _ _ hnext)
          (fun r hr => by
            rw [parent_of_decl k1.1]; exact hpar r (by simp [KTree.roots, hr])) h2)
      · obtain ⟨-, -, ep, -⟩ := uiItemPtr_ok hp
        have epk : pkid = i := by omega
        subst epk
        exact ih c _ next _ _ _ hs hS hnext
          (fun r hr => hpar r (by simp [KTree.roots, hr])) h2

theorem keep_sizeDim_sib {dim : Nat} {S : List Nat} {fuel : Nat} {c : UIcontext} {p d : Nat}
    {ks : KTree} (hd : d < 2) (hs : SiblingRefs c) (hS : ∀ q ∈ S, (c.get q).parent = 0)
    (hf : IsForest c (c.get p).firstkid ks) (hpar : ∀ r ∈ ks.roots, 0 < (c.get r).parent)
    {c' : UIcontext} (h : uiComputeSizeDim fuel c p d = .ok c') : KeepsUnchained dim S c c' := by
  rcases uiComputeSizeDim_inv h with ⟨-, e⟩ | ⟨-, c1, size, h1, e⟩
  · rw [e]; exact keep_rect dim S c p _
  · rw [e]
    exact (keep_sizeDimKids_sib dim S d hd _ _ _ ks _ _ _ hs hS hf hpar h1).keep_trans
      (keep_rect dim S c1 p _)

/-- the size pass below an item other than the root marks no child of the root, and leaves
the item itself unmarked -/
theorem keep_bestSize_sib (dim : Nat) (S : List Nat) :
    ∀ (fuel : Nat),
      (∀ (c : UIcontext) (i : Nat) (ks : KTree) (c' : UIcontext),
        SiblingRefs c → (∀ q ∈ S, (c.get q).parent = 0) →
        IsForest c (c.get i).firstkid ks → ParentOK c i ks → 0 < i →
        uiComputeBestSize fuel c (i : Int) = .ok c' →
        KeepsUnchained dim S c c' ∧ (i ∈ S → ¬ chained c' i dim)) ∧
      (∀ (c : UIcontext) (kid : Int) (p : Nat) (t : KTree) (c' : UIcontext),
        SiblingRefs c → (∀ q ∈ S, (c.get q).parent = 0) →
        IsForest c kid t → ParentOK c p t →
        uiComputeBestSizeKids fuel c kid = .ok c' →
        KeepsUnchained dim S c c' ∧ ∀ r ∈ t.roots, r ∈ S → ¬ chained c' r dim) := by
  intro fuel
  induction fuel with
  | zero =>
    constructor
    · intro c i ks c' _ _ _ _ _ h; simp [uiComputeBestSize] at h
    · intro c kid p t c' _ _ _ _ h; simp [uiComputeBestSizeKids] at h
  | succ n ih =>
    constructor
    · intro c i ks c' hs hS hf hpo hi h
      obtain ⟨p, c0, c1, c2, hp, e0, h1, h2, h3⟩ := uiComputeBestSize_inv h
      obtain ⟨-, -, ep, hpc⟩ := uiItemPtr_ok hp
      have epp : p = i := by omega
      subst epp
      have k0 : KeepsUnchained dim S c c0 := by rw [e0]; exact keep_reset dim S c p
      have tr : ∀ {cx : UIcontext}, cx.decl = c.decl →
          SiblingRefs cx ∧ (∀ q ∈ S, (cx.get q).parent = 0) ∧
          IsForest cx (cx.get p).firstkid ks ∧ ParentOK cx p ks ∧
          ∀ r ∈ ks.roots, 0 < (cx.get r).parent := by
        intro cx dx
        refine ⟨SiblingRefs_of_decl dx hs, fun x hx => by rw [parent_of_decl dx]; exact hS x hx,
          by rw [firstkid_of_decl dx]; exact IsForest_of_decl dx _ _ hf,
          ParentOK_of_decl dx _ _ hpo, ?_⟩
        intro r hr
        rw [parent_of_decl dx, ParentOK_roots ks p hpo r hr]
        omega
      obtain ⟨a1, a2, a3, a4, -⟩ := tr k0.1
      obtain ⟨k1, -⟩ := ih.2 c0 _ p ks c1 a1 a2 a3 a4 h1
      have k01 := k0.keep_trans k1
      obtain ⟨b1, b2, b3, -, b5⟩ := tr k01.1
      have k2 : KeepsUnchained dim S _ _ := keep_sizeDim_sib (show 0 < 2 by omega) b1 b2 b3 b5 h2
      have k012 := k01.keep_trans k2
      obtain ⟨e1, e2, e3, -, e5⟩ := tr k012.1
      have k3 : KeepsUnchained dim S _ _ := keep_sizeDim_sib (show 1 < 2 by omega) e1 e2 e3 e5 h3
      refine ⟨k012.keep_trans k3, ?_⟩
      intro hiS hc
      have := k1.2 p hiS (k2.2 p hiS (k3.2 p hiS hc))
      rw [e0] at this
      exact (not_chained_reset c p p dim hpc).2 this
    · intro c kid p t c' hs hS hf hpo h
      rcases uiComputeBestSizeKids_inv h with ⟨hk, e⟩ | ⟨hk, c1, h1, -, h2⟩
      · cases t with
        | nil =>
          rw [e]
          exact ⟨KeepsUnchained.keep_refl _ _ _, fun r hr => by simp [KTree.roots] at hr⟩
        | node i kids next =>
          obtain ⟨e, h0, -⟩ := hf
          omega
      · cases t with
        | nil =>
          have : kid ≤ 0 := hf
          omega
        | node i kids next =>
          obtain ⟨e, h0, hi, hkids, hnext⟩ := hf
          obtain ⟨hp1, hp2, hp3⟩ := hpo
          subst e
          obtain ⟨k1, hclear⟩ := ih.1 c i kids c1 hs hS hkids hp2 (by omega) h1
          rw [Int.toNat_ofNat, nextitem_of_decl k1.1] at h2
          obtain ⟨k2, hrest⟩ := ih.2 c1 _ p next c' (SiblingRefs_of_decl k1.1 hs)
            (fun x hx => by rw [parent_of_decl k1.1]; exact hS x hx)
            (IsForest_of_decl k1.1 _ _ hnext) (ParentOK_of_decl k1.1 _ _ hp3) h2
          refine ⟨k1.keep_trans k2, ?_⟩
          intro r hr hrS
          simp only [KTree.roots, List.mem_cons] at hr
          rcases hr with hr | hr
          · subst hr
            exact fun hc => hclear hrS (k2.2 r hrS hc)
          · exact hrest r hr hrS

/-- a walk of another dimension marks nothing in dimension `dim` -/
theorem keep_walk_other (dim : Nat) (S : List Nat) (d : Nat) (hne : d ≠ dim) (flag : Int)
    (edge : Nat) :
    ∀ (fuel : Nat) (c : UIcontext) (p : Nat) (s : Int) (it : Nat) (c' : UIcontext) (s' : Int),
      uiChainWalk d flag edge fuel c p s it = .ok (c', s') → KeepsUnchained dim S c c' := by
  intro fuel
  induction fuel with
  | zero => intro c p s it c' s' h; simp [uiChainWalk] at h
  | succ n ih =>
    intro c p s it c' s' h
    rcases uiChainWalk_inv h with ⟨-, e, -⟩ | ⟨-, -, e, -⟩ | ⟨-, -, -, q, -, hrec⟩
    · rw [e]; exact KeepsUnchained.keep_refl _ _ _
    · rw [e]; exact KeepsUnchained.keep_refl _ _ _
    · exact (keep_mark c q d dim S (Or.inl hne)).keep_trans (ih _ _ _ _ _ _ hrec)

theorem keep_sizeDimKids_other (dim : Nat) (S : List Nat) (d : Nat) (hne : d ≠ dim) :
    ∀ (fuel : Nat) (c : UIcontext) (kid s : Int) (c' : UIcontext) (s' : Int),
      uiComputeSizeDimKids d fuel c kid s = .ok (c', s') → KeepsUnchained dim S c c' := by
  intro fuel
  induction fuel with
  | zero => intro c kid s c' s' h; simp [uiComputeSizeDimKids] at h
  | succ n ih =>
    intro c kid s c' s' h
    rcases uiComputeSizeDimKids_inv h with ⟨-, e, -⟩ | ⟨-, pkid, -, ⟨-, c1, chain, h1, h2⟩ | ⟨-, h2⟩⟩
    · rw [e]; exact KeepsUnchained.keep_refl _ _ _
    · obtain ⟨c2, s2, w1, w2⟩ := uiComputeChainSize_inv h1
      have k1 := ((keep_mark c pkid d dim S (Or.inl hne)).keep_trans
        (keep_walk_other dim S d hne _ _ _ _ _ _ _ _ _ w1)).keep_trans
        (keep_walk_other dim S d hne _ _ _ _ _ _ _ _ _ w2)
      exact k1.keep_trans (ih _ _ _ _ _ h2)
    · exact ih _ _ _ _ _ h2

theorem keep_sizeDim_other (dim : Nat) (S : List Nat) {d : Nat} (hne : d ≠ dim) {fuel : Nat}
    {c : UIcontext} {p : Nat} {c' : UIcontext} (h : uiComputeSizeDim fuel c p d = .ok c') :
    KeepsUnchained dim S c c' := by
  rcases uiComputeSizeDim_inv h with ⟨-, e⟩ | ⟨-, c1, size, h1, e⟩
  · rw [e]; exact keep_rect dim S c p _
  · rw [e]
    exact (keep_sizeDimKids_other dim S d hne _ _ _ _ _ _ h1).keep_trans (keep_rect dim S c1 p _)

theorem Back_of_decl {c c' : UIcontext} (hd : c'.decl = c.decl) (dim : Nat) :
    ∀ (l : List Nat), Back c dim l → Back c' dim l := by
  intro l
  induction l with
  | nil => intro h; exact h
  | cons k pre ih =>
    intro h
    have hf := decl_fields (get_decl_of_decl hd k)
    simp only [Back] at h ⊢
    rw [hf.1, hf.2.1]
    exact ⟨h.1, ih h.2⟩

theorem NearChained_of_decl {c c' : UIcontext} (hd : c'.decl = c.decl) (dim : Nat) :
    ∀ (l pre : List Nat), NearChained c dim pre l → NearChained c' dim pre l := by
  intro l
  induction l with
  | nil => intro pre h; exact h
  | cons k rest ih =>
    intro pre h
    have hf := decl_fields (get_decl_of_decl hd k)
    simp only [NearChained] at h ⊢
    rw [hf.1, hf.2.1]
    exact ⟨h.1, ih _ h.2⟩

theorem SameChain_of_step {dim : Nat} {cF c c' : UIcontext} {l : List Nat}
    (hd : c'.decl = c.decl) (hr : ∀ q, (c'.get q).rect = (c.get q).rect)
    (h : SameChain dim cF c l) : SameChain dim cF c' l := by
  intro q hq
  have hf := decl_fields (get_decl_of_decl hd q)
  rw [hr q, hf.2.1, hf.2.2.1]
  exact h q hq

/-- the part of a `Back` list that starts at one of its items -/
theorem Back_mem (c : UIcontext) (dim : Nat) :
    ∀ (l : List Nat) (q : Nat), Back c dim l → q ∈ l →
      ∃ pre, Back c dim (q :: pre) ∧ pre.length < l.length ∧ ∀ x ∈ q :: pre, x ∈ l := by
  intro l
  induction l with
  | nil => intro q _ hq; simp at hq
  | cons k pre ih =>
    intro q h hq
    by_cases e : q = k
    · subst e
      exact ⟨pre, h, by simp, fun x hx => hx⟩
    · have hq' : q ∈ pre := by
        rcases List.mem_cons.mp hq with hx | hx
        · exact absurd hx e
        · exact hx
      obtain ⟨pre', b1, b2, b3⟩ := ih q h.2 hq'
      exact ⟨pre', b1, by simp only [List.length_cons]; omega,
        fun x hx => List.mem_cons_of_mem _ (b3 x hx)⟩

theorem chained_mark (c : UIcontext) (p d q dim : Nat) :
    chained (c.modify p (fun i => { i with visited := i.visited ||| (1 <<< d) })) q dim →
      chained c q dim ∨ q = p := by
  intro h
  by_cases e : q = p
  · exact Or.inr e
  · left
    unfold chained at h ⊢
    rw [get_modify, if_neg (fun hx => e hx.1)] at h
    exact h

/-- the value that the near walk adds, and where it leaves marks -/
theorem walk_value (dim : Nat) (cF : UIcontext) :
    ∀ (n : Nat) (pre : List Nat), pre.length ≤ n →
      ∀ (k : Nat) (c : UIcontext) (s : Int) (it fuel : Nat) (c' : UIcontext) (s' : Int)
        (F : Nat),
        Back c dim (k :: pre) → SameChain dim cF c (k :: pre) → pre.length < F →
        uiChainWalk dim UI_LEFT dim fuel c k s it = .ok (c', s') →
        s' = s + (chainExtent cF dim F k - (cF.get k).rect.v (dim + 2)) ∧
        c'.decl = c.decl ∧ (∀ q, (c'.get q).rect = (c.get q).rect) ∧
        ∀ q, q ∉ pre → chained c' q dim → chained c q dim := by
  intro n
  induction n with
  | zero =>
    intro pre hlen k c s it fuel c' s' F hb hsame hF h
    have hnil : pre = [] := List.length_eq_zero.mp (by omega)
    subst hnil
    obtain ⟨F', rfl⟩ : ∃ F', F = F' + 1 := ⟨F - 1, by omega⟩
    obtain ⟨m, rfl⟩ : ∃ m, fuel = m + 1 := by
      cases fuel with
      | zero => simp [uiChainWalk] at h
      | succ m => exact ⟨m, rfl⟩
    obtain ⟨⟨f1, f2, f3⟩, -⟩ := hb
    obtain ⟨-, g2, g3⟩ := hsame k (List.mem_cons_self _ _)
    have hrel : (c.get k).relto.v dim = -1 := by
      rcases f3 with hx | ⟨-, hx⟩
      · exact hx
      · simp at hx
    rcases uiChainWalk_inv h with ⟨hz, -⟩ | ⟨-, -, e1, e2⟩ | ⟨-, h0, -⟩
    · exact absurd hz f1
    · refine ⟨?_, by rw [e1], fun q => by rw [e1], fun q _ hq => by rw [e1] at hq; exact hq⟩
      simp only [chainExtent]
      rw [g3, g2, hrel, e2]
      simp
    · omega
  | succ n ih =>
    intro pre hlen k c s it fuel c' s' F hb hsame hF h
    obtain ⟨F', rfl⟩ : ∃ F', F = F' + 1 := ⟨F - 1, by omega⟩
    obtain ⟨m, rfl⟩ : ∃ m, fuel = m + 1 := by
      cases fuel with
      | zero => simp [uiChainWalk] at h
      | succ m => exact ⟨m, rfl⟩
    obtain ⟨⟨f1, f2, f3⟩, hbp⟩ := hb
    obtain ⟨-, g2, g3⟩ := hsame k (List.mem_cons_self _ _)
    rcases uiChainWalk_inv h with ⟨hz, -⟩ | ⟨-, hneg, e1, e2⟩ | ⟨-, h0, -, q, hq, hrec⟩
    · exact absurd hz f1
    · have hrel : (c.get k).relto.v dim = -1 := by
        rcases f3 with hx | ⟨hx, -⟩
        · exact hx
        · omega
      refine ⟨?_, by rw [e1], fun q => by rw [e1], fun q _ hq => by rw [e1] at hq; exact hq⟩
      simp only [chainExtent]
      rw [g3, g2, hrel, e2]
      simp
    · obtain ⟨-, -, eq, hqc⟩ := uiItemPtr_ok hq
      have etn : ((c.get k).relto.v dim).toNat = q := by omega
      have hqpre : q ∈ pre := by
        rcases f3 with hx | ⟨-, hx⟩
        · omega
        · rw [etn] at hx; exact hx
      have hne : (c.get k).relto.v dim ≠ -1 := by omega
      obtain ⟨pre', b1, b2, b3⟩ := Back_mem c dim pre q hbp hqpre
      have d1 := decl_modify c q (fun i => { i with visited := i.visited ||| (1 <<< dim) })
        (fun i => decl_visited i _)
      have r1 : ∀ x, ((c.modify q
          (fun i => { i with visited := i.visited ||| (1 <<< dim) })).get x).rect =
          (c.get x).rect := fun x => rect_modify_visited c q _ x
      have hsame1 : SameChain dim cF (c.modify q
          (fun i => { i with visited := i.visited ||| (1 <<< dim) })) (q :: pre') :=
        SameChain_of_step d1 r1 (fun x hx => hsame x (List.mem_cons_of_mem _ (b3 x hx)))
      obtain ⟨v1, v2, v3, v4⟩ := ih pre' (by omega) q _ _ _ _ _ _ F' (Back_of_decl d1 dim _ b1)
        hsame1 (by omega) hrec
      obtain ⟨gq, -, -⟩ := hsame q (List.mem_cons_of_mem _ hqpre)
      refine ⟨?_, v2.trans d1, fun x => (v3 x).trans (r1 x), ?_⟩
      · rw [v1, r1 q]
        simp only [chainExtent]
        rw [g3, g2, if_pos hne, etn, gq]
        ring
      · intro x hx hc
        have hx' : x ∉ pre' := fun hm => hx (by
          have := b3 x (List.mem_cons_of_mem _ hm)
          exact this)
        rcases chained_mark c q dim x dim (v4 x hx' hc) with hy | hy
        · exact hy
        · exact absurd (hy ▸ hqpre) hx

/-- the value of `uiComputeChainSize` for an item that is anchored near only -/
theorem chain_value {dim : Nat} {cF c : UIcontext} {k : Nat} {pre : List Nat}
    (hb : Back c dim (k :: pre)) (hsame : SameChain dim cF c (k :: pre)) {F : Nat}
    (hF : pre.length < F) {c' : UIcontext} {v : Int}
    (h : uiComputeChainSize c k dim = .ok (c', v)) :
    v = chainExtent cF dim F k ∧ c'.decl = c.decl ∧ (∀ q, (c'.get q).rect = (c.get q).rect) ∧
      ∀ q, q ∉ k :: pre → chained c' q dim → chained c q dim := by
  obtain ⟨c1, s1, h1, h2⟩ := uiComputeChainSize_inv h
  have d0 := decl_modify c k (fun i => { i with visited := i.visited ||| (1 <<< dim) })
    (fun i => decl_visited i _)
  have r0 : ∀ x, ((c.modify k
      (fun i => { i with visited := i.visited ||| (1 <<< dim) })).get x).rect =
      (c.get x).rect := fun x => rect_modify_visited c k _ x
  obtain ⟨v1, v2, v3, v4⟩ := walk_value dim cF pre.length pre (le_refl _) k _ _ _ _ _ _ F
    (Back_of_decl d0 dim _ hb) (SameChain_of_step d0 r0 hsame) hF h1
  have hflag : Int.land ((c1.get k).layout_flags >>> dim) UI_RIGHT = 0 := by
    rw [(decl_fields (get_decl_of_decl (v2.trans d0) k)).1]
    exact hb.1.2.1
  have e2 : c' = c1 ∧ v = s1 := by
    cases hm : (1000000 : Nat) with
    | zero => omega
    | succ m =>
      rw [hm] at h2
      rcases uiChainWalk_inv h2 with ⟨-, a1, a2⟩ | ⟨hx, -⟩ | ⟨hx, -⟩
      · exact ⟨a1, a2⟩
      · exact absurd hflag hx
      · exact absurd hflag hx
  obtain ⟨gk, -, -⟩ := hsame k (List.mem_cons_self _ _)
  rw [e2.1, e2.2]
  refine ⟨?_, v2.trans d0, fun x => (v3 x).trans (r0 x), ?_⟩
  · rw [v1, gk]; ring
  · intro x hx hc
    have hx' : x ∉ pre := fun hm => hx (List.mem_cons_of_mem _ hm)
    rcases chained_mark c k dim x dim (v4 x hx' hc) with hy | hy
    · exact hy
    · exact absurd (hy ▸ List.mem_cons_self _ _) hx

/-- the value that the loop of `uiComputeSizeDim` computes over children that are anchored
near only and unmarked -/
theorem loop_value (dim : Nat) (cF : UIcontext) (F : Nat) :
    ∀ (fuel : Nat) (c : UIcontext) (kid : Int) (t : KTree) (acc : Int) (c' : UIcontext)
      (size : Int) (pre : List Nat),
      IsForest c kid t → NearChained c dim pre t.roots → Back c dim pre →
      (∀ r ∈ t.roots, ¬ chained c r dim) → t.roots.Nodup → (∀ r ∈ t.roots, r ∉ pre) →
      SameChain dim cF c (pre ++ t.roots) → pre.length + t.roots.length < F →
      uiComputeSizeDimKids dim fuel c kid acc = .ok (c', size) →
      size = t.roots.foldl (fun m k => max m (chainExtent cF dim F k)) acc := by
  intro fuel
  induction fuel with
  | zero => intro c kid t acc c' size pre _ _ _ _ _ _ _ _ h; simp [uiComputeSizeDimKids] at h
  | succ n ih =>
    intro c kid t acc c' size pre hf hn hb hclear hnd hdis hsame hF h
    cases t with
    | nil =>
      have hk : kid ≤ 0 := hf
      rcases uiComputeSizeDimKids_inv h with ⟨-, -, e⟩ | ⟨hx, -⟩
      · rw [e]; rfl
      · omega
    | node i kids next =>
      obtain ⟨e, h0, hi, hkids, hnext⟩ := hf
      subst e
      simp only [KTree.roots] at hn hclear hnd hdis hsame hF ⊢
      obtain ⟨hn1, hn2⟩ := hn
      have hbi : Back c dim (i :: pre) := ⟨hn1, hb⟩
      rcases uiComputeSizeDimKids_inv h with ⟨hle, -⟩ |
        ⟨-, pkid, hp, ⟨-, c1, chain, h1, h2⟩ | ⟨hv, -⟩⟩
      · omega
      · obtain ⟨-, -, ep, -⟩ := uiItemPtr_ok hp
        have epk : pkid = i := by omega
        subst epk
        have hsi : SameChain dim cF c (pkid :: pre) := by
          intro q hq
          apply hsame q
          rcases List.mem_cons.mp hq with hx | hx
          · rw [hx]; simp
          · simp [hx]
        obtain ⟨v1, v2, v3, v4⟩ := chain_value hbi hsi
          (show pre.length < F by simp only [List.length_cons] at hF; omega) h1
        rw [nextitem_of_decl v2] at h2
        have hnd' := List.nodup_cons.mp hnd
        rw [List.foldl_cons, ← v1, ← ui_max_eq]
        refine ih c1 _ next _ _ _ (pkid :: pre) (IsForest_of_decl v2 _ _ hnext)
          (NearChained_of_decl v2 dim _ _ hn2) (Back_of_decl v2 dim _ hbi) ?_ hnd'.2 ?_ ?_ ?_ h2
        · intro r hr hc
          refine hclear r (List.mem_cons_of_mem _ hr) (v4 r ?_ hc)
          intro hm
          rcases List.mem_cons.mp hm with hx | hx
          · exact hnd'.1 (hx ▸ hr)
          · exact hdis r (List.mem_cons_of_mem _ hr) hx
        · intro r hr hm
          rcases List.mem_cons.mp hm with hx | hx
          · exact hnd'.1 (hx ▸ hr)
          · exact hdis r (List.mem_cons_of_mem _ hr) hx
        · refine SameChain_of_step v2 v3 ?_
          intro q hq
          apply hsame q
          simp only [List.mem_append, List.mem_cons] at hq ⊢
          tauto
        · simp only [List.length_cons] at hF ⊢
          omega
      · obtain ⟨-, -, ep, -⟩ := uiItemPtr_ok hp
        have epk : pkid = i := by omega
        subst epk
        exact absurd hv (hclear pkid (List.mem_cons_self _ _))

/-- the extent that `uiComputeSizeDim` gives an item without size hint whose children are
anchored near only and unmarked -/
theorem sizeDim_value {dim : Nat} (hdim : dim < 2) {cF c : UIcontext} {t : KTree} {F n : Nat}
    (hroot : 0 < c.count) (hf : IsForest c (c.get 0).firstkid t)
    (hauto : (c.get 0).size.v dim = 0) (hn : NearChained c dim [] t.roots)
    (hclear : ∀ r ∈ t.roots, ¬ chained c r dim) (hnd : t.roots.Nodup)
    (hsame : SameChain dim cF c t.roots) (hF : t.roots.length < F) {c' : UIcontext}
    (h : uiComputeSizeDim n c 0 dim = .ok c') :
    (c'.get 0).rect.v (dim + 2) =
      t.roots.foldl (fun m k => max m (chainExtent cF dim F k)) 0 := by
  rcases uiComputeSizeDim_inv h with ⟨hz, -⟩ | ⟨-, c1, size, h1, e⟩
  · exact absurd hauto hz
  · have hv := loop_value dim cF F n c _ t 0 c1 size [] hf hn trivial hclear hnd
      (fun _ _ hx => by simp at hx) (by simpa using hsame) (by simpa using hF) h1
    have hc1 : 0 < c1.count := by
      rw [count_of_decl (decl_uiComputeSizeDimKids _ _ _ _ _ _ _ h1)]; exact hroot
    rw [e, get_modify_self _ _ _ hc1]
    show ((c1.get 0).rect.setV (dim + 2) size).v (dim + 2) = _
    rw [rect_setV_v _ _ _ _ (by omega) (by omega), if_pos rfl, hv]

theorem roots_nodup : ∀ (t : KTree), t.indices.Nodup → t.roots.Nodup := by
  intro t
  induction t with
  | nil => intro _; exact List.nodup_nil
  | node i kids next _ ih2 =>
    intro h
    simp only [KTree.indices, KTree.roots] at h ⊢
    obtain ⟨h1, h2⟩ := List.nodup_cons.mp h
    rw [List.nodup_cons]
    refine ⟨fun hx => h1 (List.mem_append_right _ (roots_sub_indices next i hx)), ?_⟩
    exact ih2 (List.Nodup.of_append_right h2)

theorem NearChained_flags (c : UIcontext) (dim : Nat) :
    ∀ (l pre : List Nat), NearChained c dim pre l → ∀ q ∈ l,
      Int.land ((c.get q).layout_flags >>> dim) UI_RIGHT = 0 := by
  intro l
  induction l with
  | nil => intro pre _ q hq; simp at hq
  | cons k rest ih =>
    intro pre h q hq
    rcases List.mem_cons.mp hq with hx | hx
    · rw [hx]; exact h.1.2.1
    · exact ih _ h.2 q hx

/-- the position pass leaves the root the extent that the size pass gave it -/
theorem root_keeps_extent {c cl : UIcontext} {t : KTree} (h : Hierarchy c t)
    (hpo : ParentOK c 0 t) (hs : SiblingRefs c) (hlay : uiProcessLayout c = .ok cl) :
    ∃ s, uiComputeBestSize (uiFuel c) c 0 = .ok s ∧
      ∀ dim, dim < 2 → (cl.get 0).rect.v (dim + 2) = (s.get 0).rect.v (dim + 2) := by
  obtain ⟨s, r, hsz, hroot, hr, h3⟩ := uiProcessLayout_inv hlay
  refine ⟨s, hsz, ?_⟩
  intro dim hdim
  have d1 : s.decl = c.decl := (decl_uiComputeBestSize _).1 _ _ _ hsz
  have d2 : r.decl = c.decl := by
    rw [hr, decl_modify _ _ _ (fun i => decl_rect i _),
      decl_modify _ _ _ (fun i => decl_rect i _), d1]
  have h2 := h.of_decl d2
  obtain ⟨L, -⟩ := (layoutItem_post (uiFuel r) (uiFuel r)).1 r 0 t cl h3 h2.forest
    (ParentOK_of_decl d2 _ _ hpo) (SiblingRefs_of_decl d2 hs) (Or.inl rfl)
  rw [L.2.1, hr, root_place_get s 0, if_pos ⟨rfl, hroot⟩]
  have : dim = 0 ∨ dim = 1 := by omega
  rcases this with rfl | rfl <;> simp [UIrect.v]

/-- the extent that the size pass gives a root without size hint whose children are anchored
near only: the maximum chain extent, read in the context after `uiProcess` -/
theorem auto_size_fold {c s' cl c' : UIcontext} {t : KTree} (h : Hierarchy c t)
    (hpo : ParentOK c 0 t) (hs : SiblingRefs c) {dim : Nat} (hdim : dim < 2)
    (hauto : (c.get 0).size.v dim = 0) (hnear : NearChained c dim [] t.roots)
    (hsz : uiComputeBestSize (uiFuel c) c 0 = .ok s') (hdl : cl.decl = c.decl)
    (hitems : c'.items = cl.items)
    (hkeep : ∀ (q dim : Nat), dim < 2 →
      Int.land ((c.get q).layout_flags >>> dim) UI_HFILL ≠ UI_HFILL →
      (cl.get q).rect.v (dim + 2) = (s'.get q).rect.v (dim + 2)) :
    (s'.get 0).rect.v (dim + 2) = maxChain c' dim t.roots := by
  -- the size pass, step by step
  obtain ⟨m, hm⟩ : ∃ m, uiFuel c = m + 1 := ⟨2 * c.count + 1, rfl⟩
  rw [hm] at hsz
  obtain ⟨p, c0, c1, c2, hp0, e0, hk, hd0, hd1⟩ := uiComputeBestSize_inv hsz
  obtain ⟨-, -, ep, -⟩ := uiItemPtr_ok hp0
  have ep0 : p = 0 := by omega
  subst ep0
  have dc0 : c0.decl = c.decl := by
    rw [e0]; exact decl_modify _ _ _ (fun i => decl_visited i _)
  have dc1 : c1.decl = c.decl := ((decl_uiComputeBestSize m).2 _ _ _ hk).trans dc0
  have dc2 : c2.decl = c.decl := (decl_uiComputeSizeDim hd0).trans dc1
  have hS : ∀ q ∈ t.roots, (c.get q).parent = 0 := fun q hq => ParentOK_roots t 0 hpo q hq
  have hpos : ∀ q ∈ t.roots, q ≠ 0 := fun q hq => by
    have := (IsForest_range t _ h.forest q (roots_sub_indices t q hq)).1
    omega
  have hclear1 : ∀ r ∈ t.roots, ¬ chained c1 r dim := by
    intro q hq
    exact ((keep_bestSize_sib dim t.roots m).2 c0 _ 0 t c1 (SiblingRefs_of_decl dc0 hs)
      (fun x hx => by rw [parent_of_decl dc0]; exact hS x hx)
      (by rw [firstkid_of_decl dc0] at hk; exact IsForest_of_decl dc0 _ _ h.forest)
      (ParentOK_of_decl dc0 _ _ hpo) (by rw [firstkid_of_decl dc0] at hk; exact hk)).2 q hq hq
  have hnd := roots_nodup t h.nodup
  have hlen : t.roots.length < c'.count := by
    have := length_le_of_nodup_range hnd
      (fun x hx => IsForest_range t _ h.forest x (roots_sub_indices t x hx))
    have hcnt : c'.count = c.count := (count_of_items hitems).trans (count_of_decl hdl)
    have := h.root
    omega
  -- the final context has the chain data of the size pass
  have hsame : ∀ cx : UIcontext, cx.decl = c.decl →
      (∀ q, q ≠ 0 → (s'.get q).rect = (cx.get q).rect) → SameChain dim c' cx t.roots := by
    intro cx dx hrx q hq
    have hfq := decl_fields (get_decl_of_decl (hdl.trans dx.symm) q)
    rw [get_of_items hitems]
    refine ⟨?_, hfq.2.2.1, hfq.2.1⟩
    rw [hkeep q dim hdim ?_, hrx q (hpos q hq)]
    intro hfill
    exact ((land_hfill_cases _).2.2.1.mp hfill).2 (NearChained_flags c dim _ _ hnear q hq)
  have hfold : (s'.get 0).rect.v (dim + 2) =
      t.roots.foldl (fun m k => max m (chainExtent c' dim c'.count k)) 0 := by
    have : dim = 0 ∨ dim = 1 := by omega
    rcases this with rfl | rfl
    · rw [sizeDim_other (show 1 < 2 by omega) hd1 0 2 (by omega) (by omega)]
      exact sizeDim_value (show 0 < 2 by omega) (by rw [count_of_decl dc1]; exact h.root)
        (by rw [firstkid_of_decl dc1]; exact IsForest_of_decl dc1 _ _ h.forest)
        (by rw [size_of_decl dc1]; exact hauto) (NearChained_of_decl dc1 0 _ _ hnear)
        hclear1 hnd
        (hsame c1 dc1 (fun q hq => by
          rw [rect_uiComputeSizeDim hd1 q hq, rect_uiComputeSizeDim hd0 q hq]))
        hlen hd0
    · have k2 := keep_sizeDim_other 1 t.roots (show 0 ≠ 1 by omega) hd0
      exact sizeDim_value (show 1 < 2 by omega) (by rw [count_of_decl dc2]; exact h.root)
        (by rw [firstkid_of_decl dc2]; exact IsForest_of_decl dc2 _ _ h.forest)
        (by rw [size_of_decl dc2]; exact hauto) (NearChained_of_decl dc2 1 _ _ hnear)
        (fun q hq hx => hclear1 q hq (k2.2 q hq hx)) hnd
        (hsame c2 dc2 (fun q hq => by rw [rect_uiComputeSizeDim hd1 q hq]))
        hlen hd1
  rw [hfold]
  rfl

/-- C23, amended: auto-size is the maximum chain extent. In a hierarchy whose neighbor
references are `-1` or earlier-created siblings, let the root have size hint 0 in dimension
`dim`, and let every child of the root be anchored in `dim` to the near side only and name as
near-side neighbor `-1` or a child of the root that comes before it in the child list. Then
`uiProcess` succeeds, and afterwards the extent of the root in `dim` is `maxChain`, the maximum
of 0 and of the chain extents of its children, where the chain extent of `k` is the extent of
`k` plus its near margin plus the chain extent of its near-side neighbor, if it names one;
without children it is 0. -/
theorem auto_size_chain (c : UIcontext) (t : KTree) (h : Hierarchy c t)
    (hpo : ParentOK c 0 t) (hs : SiblingRefs c) (hc : c.count ≤ UI_MAX_ITEMS)
    (hh : c.hot_item < c.count) (ha : c.active_item < c.count) (dim : Nat) (hdim : dim < 2)
    (hauto : (c.get 0).size.v dim = 0) (hnear : NearChained c dim [] t.roots) :
    ∃ c' evs, uiProcess c = .ok (c', evs) ∧
      (c'.get 0).rect.v (dim + 2) = maxChain c' dim t.roots := by
  obtain ⟨cl, hlay, hdl, -⟩ := uiProcessLayout_placed c t h hpo hs hc
  obtain ⟨c', evs, hp, hitems⟩ := uiProcess_total h hlay hh ha
  refine ⟨c', evs, hp, ?_⟩
  obtain ⟨s, hsz, hroot⟩ := root_keeps_extent h hpo hs hlay
  obtain ⟨s', hsz', hkeep⟩ := layout_keeps hlay
  have es : s' = s := by
    rw [hsz] at hsz'
    injection hsz' with hx
    exact hx.symm
  subst es
  -- the root keeps the extent of the size pass, which is the maximum chain extent
  rw [get_of_items hitems, hroot dim hdim]
  exact auto_size_fold h hpo hs hdim hauto hnear hsz hdl hitems hkeep

/-- the run of `uiProcess` on the mask example, pass by pass -/
theorem mask_run : uiProcess maskEx = .ok (maskDone, []) := by
  have s1 : uiComputeBestSize (uiFuel maskEx) maskEx 0 = .ok maskSized := by decide
  have s2 : (maskSized.modify 0
      (fun i => { i with rect := { i.rect with x := i.margins.v 0 } })).modify 0
      (fun i => { i with rect := { i.rect with y := i.margins.v 1 } }) = maskSized := by
    decide
  have s3 : uiLayoutItem (uiFuel maskSized) (uiFuel maskSized) maskSized 0 = .ok maskLaid := by
    decide
  have s4 : (uiProcessHot maskLaid).bind (fun hot => (uiProcessState maskLaid hot).bind
      (fun r => (uiProcessHandles r.1).map (fun c' => (c', r.2)))) = .ok (maskDone, []) := by
    decide
  rw [uiProcess_eq_bind, uiProcessLayout_of_sized s1 s2, s3]
  exact s4

/-- C23 as stated fails. In `maskEx` the root has no size hint and two children that are
anchored left only and name no neighbors: item 1, 10 wide with left margin 100, and item 2,
without width hint. Item 3, a child of item 2, is 5 wide, anchored right, and names item 1 as
its right neighbor. The chain walk for item 3 marks item 1 as visited, so that the root skips
it: after `uiProcess` the root is 15 wide, while the maximum of the chain extents of its
children is `10 + 100 = 110`. -/
theorem auto_size_masked :
    uiCalls (uiMakeCurrent uiCreateContext) maskCalls = .ok maskEx ∧
    (maskEx.get 0).size.v 0 = 0 ∧ NearChained maskEx 0 [] maskTree.roots ∧
    maskTree.roots = [1, 2] ∧
    uiProcess maskEx = .ok (maskDone, []) ∧
    (maskDone.get 0).rect.w = 15 ∧ (maskDone.get 1).rect.w = 10 ∧
    (maskDone.get 1).margins.v0 = 100 ∧ maxChain maskDone 0 [1, 2] = 110 := by
  refine ⟨by decide, by decide, by decide, by decide, mask_run, by decide, by decide,
    by decide, by decide⟩

/-- C23, amended, at the row example: in `rowEx` the root has no size hint and two
children anchored left only, the second naming the first as left neighbor; `uiProcess`
succeeds and the width of the root is the maximum chain extent of the two. -/
theorem auto_size_chain_witness :
    uiCalls (uiMakeCurrent uiCreateContext) rowCalls = .ok rowEx ∧
    ∃ c' evs, uiProcess rowEx = .ok (c', evs) ∧
      (c'.get 0).rect.v 2 = maxChain c' 0 twoKids.roots :=
  ⟨by decide,
    auto_size_chain rowEx twoKids ⟨by decide, by decide, by decide⟩ (by decide) (by decide)
      (by decide) (by decide) (by decide) 0 (by decide) (by decide) (by decide)⟩

/-! ### Independence of the dimensions (C28) -/

theorem IRel.fields {d : Nat} {i j : UIitem} (h : IRel d i j) :
    i.size.v d = j.size.v d ∧ i.margins.v d = j.margins.v d ∧
    i.margins.v (d + 2) = j.margins.v (d + 2) ∧ i.relto.v d = j.relto.v d ∧
    i.relto.v (d + 2) = j.relto.v (d + 2) ∧
    Int.land (i.layout_flags >>> d) UI_LEFT = Int.land (j.layout_flags >>> d) UI_LEFT ∧
    Int.land (i.layout_flags >>> d) UI_RIGHT = Int.land (j.layout_flags >>> d) UI_RIGHT ∧
    i.firstkid = j.firstkid ∧ i.nextitem = j.nextitem := by
  have := h.1
  unfold UIitem.inputs at this
  simp only [List.cons.injEq, and_true] at this
  exact this

theorem IRel.irel_trans {d : Nat} {i j k : UIitem} (h1 : IRel d i j) (h2 : IRel d j k) :
    IRel d i k := ⟨h1.1.trans h2.1, h1.2.trans h2.2⟩

theorem IRel.irel_symm {d : Nat} {i j : UIitem} (h : IRel d i j) : IRel d j i :=
  ⟨h.1.symm, h.2.symm⟩

theorem inputs_of_decl {d : Nat} {i j : UIitem} (h : i.decl = j.decl) :
    i.inputs d = j.inputs d := by
  have hf := decl_fields h
  unfold UIitem.inputs
  rw [hf.1, hf.2.1, hf.2.2.1, hf.2.2.2.2.1, hf.2.2.2.2.2.1, hf.2.2.2.2.2.2]

/-- the same kind of update on both sides -/
theorem DRel.modify {d : Nat} {a b : UIcontext} (h : DRel d a b) (p : Nat)
    (f g : UIitem → UIitem) (hfg : ∀ i j, IRel d i j → IRel d (f i) (g j)) :
    DRel d (a.modify p f) (b.modify p g) := by
  refine ⟨by rw [count_modify, count_modify, h.1], fun q => ?_⟩
  rw [get_modify, get_modify, h.1]
  split
  · exact hfg _ _ (h.2 p)
  · exact h.2 q

/-- a step on the left side that keeps the declarations and the state of dimension `d` -/
theorem DRel.left {d : Nat} {a a' b : UIcontext} (h : DRel d a b) (hd : a'.decl = a.decl)
    (hv : a'.view d = a.view d) : DRel d a' b :=
  ⟨(count_of_decl hd).trans h.1, fun q =>
    IRel.irel_trans ⟨inputs_of_decl (get_decl_of_decl hd q), get_view_of_view hv q⟩ (h.2 q)⟩

theorem DRel.right {d : Nat} {a b b' : UIcontext} (h : DRel d a b) (hd : b'.decl = b.decl)
    (hv : b'.view d = b.view d) : DRel d a b' :=
  ⟨h.1.trans (count_of_decl hd).symm, fun q =>
    IRel.irel_trans (h.2 q)
      (IRel.irel_symm ⟨inputs_of_decl (get_decl_of_decl hd q), get_view_of_view hv q⟩)⟩

theorem or_pow_and_pow_eq (v a : Nat) : (v ||| 2 ^ a) &&& 2 ^ a = 2 ^ a := by
  apply Nat.eq_of_testBit_eq
  intro i
  simp only [Nat.testBit_and, Nat.testBit_or, Nat.testBit_two_pow]
  by_cases hb : a = i
  · simp [hb]
  · simp [hb]

theorem IRel.mark_one {d : Nat} {i j : UIitem} (h : IRel d i j) :
    IRel d { i with visited := i.visited ||| (1 <<< d) }
      { j with visited := j.visited ||| (1 <<< d) } := by
  refine ⟨h.1, ?_⟩
  have hv := view_fields h.2
  unfold UIitem.view
  simp only [one_shl, four_shl] at hv ⊢
  rw [or_pow_and_pow_eq, or_pow_and_pow_eq, or_pow_and_pow_ne _ _ _ (by omega),
    or_pow_and_pow_ne _ _ _ (by omega), hv.1, hv.2.1, hv.2.2.2]

theorem IRel.mark_four {d : Nat} {i j : UIitem} (h : IRel d i j) :
    IRel d { i with visited := i.visited ||| (4 <<< d) }
      { j with visited := j.visited ||| (4 <<< d) } := by
  refine ⟨h.1, ?_⟩
  have hv := view_fields h.2
  unfold UIitem.view
  simp only [one_shl, four_shl] at hv ⊢
  rw [or_pow_and_pow_eq, or_pow_and_pow_eq, or_pow_and_pow_ne _ _ _ (by omega),
    or_pow_and_pow_ne _ _ _ (by omega), hv.1, hv.2.1, hv.2.2.1]

theorem IRel.reset {d : Nat} {i j : UIitem} (h : IRel d i j) :
    IRel d { i with visited := 0 } { j with visited := 0 } := by
  refine ⟨h.1, ?_⟩
  have hv := view_fields h.2
  unfold UIitem.view
  simp only [Nat.zero_and]
  rw [hv.1, hv.2.1]

theorem IRel.setV {d : Nat} (hd : d < 2) {i j : UIitem} (h : IRel d i j) (e : Nat) (he : e < 4)
    (x y : Int) (hxy : e = d ∨ e = d + 2 → x = y) :
    IRel d { i with rect := i.rect.setV e x } { j with rect := j.rect.setV e y } := by
  refine ⟨h.1, ?_⟩
  have hv := view_fields h.2
  unfold UIitem.view
  simp only [rect_setV_v _ _ _ _ he (show d < 4 by omega),
    rect_setV_v _ _ _ _ he (show d + 2 < 4 by omega)]
  rw [hv.2.2.1, hv.2.2.2]
  by_cases h1 : d = e
  · rw [if_pos h1, if_pos h1, if_neg (by omega), if_neg (by omega), hv.2.1,
      hxy (Or.inl h1.symm)]
  · by_cases h2 : d + 2 = e
    · rw [if_neg h1, if_neg h1, if_pos h2, if_pos h2, hv.1, hxy (Or.inr h2.symm)]
    · rw [if_neg h1, if_neg h1, if_neg h2, if_neg h2, hv.1, hv.2.1]

/-- what a walk of dimension `dim` reads of an item -/
theorem IRel.edge {dim : Nat} {flag : Int} {edge : Nat}
    (hfe : (flag = UI_LEFT ∧ edge = dim) ∨ (flag = UI_RIGHT ∧ edge = dim + 2)) {i j : UIitem}
    (h : IRel dim i j) :
    Int.land (i.layout_flags >>> dim) flag = Int.land (j.layout_flags >>> dim) flag ∧
    i.margins.v edge = j.margins.v edge ∧ i.relto.v edge = j.relto.v edge := by
  obtain ⟨-, f2, f3, f4, f5, f6, f7, -, -⟩ := h.fields
  rcases hfe with ⟨rfl, rfl⟩ | ⟨rfl, rfl⟩
  · exact ⟨f6, f2, f4⟩
  · exact ⟨f7, f3, f5⟩

/-- two walks of dimension `dim` from related contexts stay related and add the same -/
theorem lock_walk (dim : Nat) (flag : Int) (edge : Nat)
    (hfe : (flag = UI_LEFT ∧ edge = dim) ∨ (flag = UI_RIGHT ∧ edge = dim + 2)) :
    ∀ (n : Nat) (a b : UIcontext) (p : Nat) (s : Int) (it : Nat) (a' : UIcontext) (sa : Int)
      (b' : UIcontext) (sb : Int),
      DRel dim a b →
      uiChainWalk dim flag edge n a p s it = .ok (a', sa) →
      uiChainWalk dim flag edge n b p s it = .ok (b', sb) →
      DRel dim a' b' ∧ sa = sb := by
  intro n
  induction n with
  | zero => intro a b p s it a' sa b' sb _ h; simp [uiChainWalk] at h
  | succ n ih =>
    intro a b p s it a' sa b' sb hrel ha hb
    obtain ⟨e1, e2, e3⟩ := (hrel.2 p).edge hfe
    rcases uiChainWalk_inv ha with ⟨fa, rfl, rfl⟩ | ⟨fa, ra, rfl, rfl⟩ | ⟨fa, ra, -, qa, hqa, ha1⟩
    · rcases uiChainWalk_inv hb with ⟨fb, rfl, rfl⟩ | ⟨fb, rb, rfl, rfl⟩ | ⟨fb, rb, -, qb, hqb, hb1⟩
      · exact ⟨hrel, rfl⟩
      · rw [← e1] at fb; exact absurd fa fb
      · rw [← e1] at fb; exact absurd fa fb
    · rcases uiChainWalk_inv hb with ⟨fb, rfl, rfl⟩ | ⟨fb, rb, rfl, rfl⟩ | ⟨fb, rb, -, qb, hqb, hb1⟩
      · rw [← e1] at fb; exact absurd fb fa
      · exact ⟨hrel, by rw [e2]⟩
      · rw [← e3] at rb; omega
    · rcases uiChainWalk_inv hb with ⟨fb, rfl, rfl⟩ | ⟨fb, rb, rfl, rfl⟩ | ⟨fb, rb, -, qb, hqb, hb1⟩
      · rw [← e1] at fb; exact absurd fb fa
      · rw [← e3] at rb; omega
      · obtain ⟨-, -, ea, -⟩ := uiItemPtr_ok hqa
        obtain ⟨-, -, eb, -⟩ := uiItemPtr_ok hqb
        rw [← e3] at eb
        have eq : qb = qa := by omega
        subst eq
        have hrel0 : DRel dim
            (a.modify qb (fun i => { i with visited := i.visited ||| (1 <<< dim) }))
            (b.modify qb (fun i => { i with visited := i.visited ||| (1 <<< dim) })) :=
          hrel.modify qb _ _ (fun i j hij => hij.mark_one)
        have er := (view_fields (hrel0.2 qb).2).2.1
        rw [er, e2] at ha1
        exact ih _ _ _ _ _ _ _ _ _ hrel0 ha1 hb1

theorem lock_chain {dim : Nat} {a b : UIcontext} {p : Nat} {a' b' : UIcontext} {sa sb : Int}
    (hrel : DRel dim a b) (ha : uiComputeChainSize a p dim = .ok (a', sa))
    (hb : uiComputeChainSize b p dim = .ok (b', sb)) : DRel dim a' b' ∧ sa = sb := by
  obtain ⟨a1, sa1, ha1, ha2⟩ := uiComputeChainSize_inv ha
  obtain ⟨b1, sb1, hb1, hb2⟩ := uiComputeChainSize_inv hb
  have hrel0 : DRel dim
      (a.modify p (fun i => { i with visited := i.visited ||| (1 <<< dim) }))
      (b.modify p (fun i => { i with visited := i.visited ||| (1 <<< dim) })) :=
    hrel.modify p _ _ (fun i j hij => hij.mark_one)
  rw [(view_fields (hrel.2 p).2).2.1] at ha1
  obtain ⟨r1, e1⟩ := lock_walk dim UI_LEFT dim (Or.inl ⟨rfl, rfl⟩) _ _ _ _ _ _ _ _ _ _
    hrel0 ha1 hb1
  subst e1
  exact lock_walk dim UI_RIGHT (dim + 2) (Or.inr ⟨rfl, rfl⟩) _ _ _ _ _ _ _ _ _ _ r1 ha2 hb2

theorem lock_sizeDimKids (dim : Nat) :
    ∀ (n : Nat) (a b : UIcontext) (kid s : Int) (a' : UIcontext) (sa : Int) (b' : UIcontext)
      (sb : Int),
      DRel dim a b →
      uiComputeSizeDimKids dim n a kid s = .ok (a', sa) →
      uiComputeSizeDimKids dim n b kid s = .ok (b', sb) →
      DRel dim a' b' ∧ sa = sb := by
  intro n
  induction n with
  | zero => intro a b kid s a' sa b' sb _ h; simp [uiComputeSizeDimKids] at h
  | succ n ih =>
    intro a b kid s a' sa b' sb hrel ha hb
    rcases uiComputeSizeDimKids_inv ha with ⟨ka, rfl, rfl⟩ | ⟨ka, pa, hpa, hA⟩
    · rcases uiComputeSizeDimKids_inv hb with ⟨-, rfl, rfl⟩ | ⟨kb, -⟩
      · exact ⟨hrel, rfl⟩
      · omega
    · rcases uiComputeSizeDimKids_inv hb with ⟨kb, -⟩ | ⟨-, pb, hpb, hB⟩
      · omega
      · obtain ⟨-, -, ea, -⟩ := uiItemPtr_ok hpa
        obtain ⟨-, -, eb, -⟩ := uiItemPtr_ok hpb
        have eq : pb = pa := by omega
        subst eq
        have hv := (view_fields (hrel.2 pb).2).2.2.1
        rcases hA with ⟨va, a1, ca, ha1, ha2⟩ | ⟨va, ha2⟩
        · rcases hB with ⟨vb, b1, cb, hb1, hb2⟩ | ⟨vb, -⟩
          · obtain ⟨r1, e1⟩ := lock_chain hrel ha1 hb1
            subst e1
            rw [(r1.2 pb).fields.2.2.2.2.2.2.2.2] at ha2
            exact ih _ _ _ _ _ _ _ _ r1 ha2 hb2
          · rw [hv] at va; exact absurd va vb
        · rcases hB with ⟨vb, -⟩ | ⟨vb, hb2⟩
          · rw [hv] at va; exact absurd vb va
          · rw [(hrel.2 pb).fields.2.2.2.2.2.2.2.2] at ha2
            exact ih _ _ _ _ _ _ _ _ hrel ha2 hb2

theorem lock_sizeDim {dim : Nat} (hd : dim < 2) {n : Nat} {a b : UIcontext} {p : Nat}
    {a' b' : UIcontext} (hrel : DRel dim a b) (ha : uiComputeSizeDim n a p dim = .ok a')
    (hb : uiComputeSizeDim n b p dim = .ok b') : DRel dim a' b' := by
  have hs := (hrel.2 p).fields.1
  have hk := (hrel.2 p).fields.2.2.2.2.2.2.2.1
  rcases uiComputeSizeDim_inv ha with ⟨za, rfl⟩ | ⟨za, a1, sa, ha1, rfl⟩
  · rcases uiComputeSizeDim_inv hb with ⟨zb, rfl⟩ | ⟨zb, -⟩
    · exact hrel.modify p _ _ (fun i j hij =>
        hij.setV hd (dim + 2) (by omega) _ _ (fun _ => hij.fields.1))
    · rw [hs] at za; exact absurd zb za
  · rcases uiComputeSizeDim_inv hb with ⟨zb, -⟩ | ⟨zb, b1, sb, hb1, rfl⟩
    · rw [hs] at za; exact absurd za zb
    · rw [hk] at ha1
      obtain ⟨r1, e1⟩ := lock_sizeDimKids dim n _ _ _ _ _ _ _ _ hrel ha1 hb1
      subst e1
      exact r1.modify p _ _ (fun i j hij => hij.setV hd (dim + 2) (by omega) _ _ (fun _ => rfl))

/-- a walk of another dimension keeps the state of dimension `d` -/
theorem view_walk_other (d dim : Nat) (hne : d ≠ dim) (hd : d < 2) (hdim : dim < 2)
    (flag : Int) (edge : Nat) :
    ∀ (n : Nat) (c : UIcontext) (p : Nat) (s : Int) (it : Nat) (c' : UIcontext) (s' : Int),
      uiChainWalk dim flag edge n c p s it = .ok (c', s') → c'.view d = c.view d := by
  intro n
  induction n with
  | zero => intro c p s it c' s' h; simp [uiChainWalk] at h
  | succ n ih =>
    intro c p s it c' s' h
    rcases uiChainWalk_inv h with ⟨-, e, -⟩ | ⟨-, -, e, -⟩ | ⟨-, -, -, q, -, hrec⟩
    · rw [e]
    · rw [e]
    · rw [ih _ _ _ _ _ _ hrec]
      exact view_modify _ _ _ _ (fun i => view_visited_or_one d dim i hne hd hdim)

theorem view_sizeDimKids_other (d dim : Nat) (hne : d ≠ dim) (hd : d < 2) (hdim : dim < 2) :
    ∀ (n : Nat) (c : UIcontext) (kid s : Int) (c' : UIcontext) (s' : Int),
      uiComputeSizeDimKids dim n c kid s = .ok (c', s') → c'.view d = c.view d := by
  intro n
  induction n with
  | zero => intro c kid s c' s' h; simp [uiComputeSizeDimKids] at h
  | succ n ih =>
    intro c kid s c' s' h
    rcases uiComputeSizeDimKids_inv h with ⟨-, e, -⟩ | ⟨-, pkid, -, ⟨-, c1, chain, h1, h2⟩ | ⟨-, h2⟩⟩
    · rw [e]
    · obtain ⟨c2, s2, w1, w2⟩ := uiComputeChainSize_inv h1
      rw [ih _ _ _ _ _ h2, view_walk_other d dim hne hd hdim _ _ _ _ _ _ _ _ _ w2,
        view_walk_other d dim hne hd hdim _ _ _ _ _ _ _ _ _ w1]
      exact view_modify _ _ _ _ (fun i => view_visited_or_one d dim i hne hd hdim)
    · exact ih _ _ _ _ _ h2

theorem view_sizeDim_other {d dim : Nat} (hne : d ≠ dim) (hd : d < 2) (hdim : dim < 2)
    {n : Nat} {c : UIcontext} {p : Nat} {c' : UIcontext}
    (h : uiComputeSizeDim n c p dim = .ok c') : c'.view d = c.view d := by
  rcases uiComputeSizeDim_inv h with ⟨-, e⟩ | ⟨-, c1, size, h1, e⟩
  · rw [e]
    exact view_modify _ _ _ _
      (fun i => view_rect_setV d (dim + 2) i _ (by omega) (by omega) hd (by omega))
  · rw [e, view_modify _ _ _ _
      (fun i => view_rect_setV d (dim + 2) i _ (by omega) (by omega) hd (by omega))]
    exact view_sizeDimKids_other d dim hne hd hdim _ _ _ _ _ _ h1

/-- the size passes of two related contexts end in related contexts -/
theorem lock_bestSize {d : Nat} (hd : d < 2) :
    ∀ (n : Nat),
      (∀ (a b : UIcontext) (item : Int) (a' b' : UIcontext), DRel d a b →
        uiComputeBestSize n a item = .ok a' → uiComputeBestSize n b item = .ok b' →
        DRel d a' b') ∧
      (∀ (a b : UIcontext) (kid : Int) (a' b' : UIcontext), DRel d a b →
        uiComputeBestSizeKids n a kid = .ok a' → uiComputeBestSizeKids n b kid = .ok b' →
        DRel d a' b') := by
  intro n
  induction n with
  | zero =>
    constructor
    · intro a b item a' b' _ h; simp [uiComputeBestSize] at h
    · intro a b kid a' b' _ h; simp [uiComputeBestSizeKids] at h
  | succ n ih =>
    constructor
    · intro a b item a' b' hrel ha hb
      obtain ⟨pa, a0, a1, a2, hpa, ea0, ha1, ha2, ha3⟩ := uiComputeBestSize_inv ha
      obtain ⟨pb, b0, b1, b2, hpb, eb0, hb1, hb2, hb3⟩ := uiComputeBestSize_inv hb
      obtain ⟨-, -, ea, -⟩ := uiItemPtr_ok hpa
      obtain ⟨-, -, eb, -⟩ := uiItemPtr_ok hpb
      have eq : pb = pa := by omega
      subst eq
      have r0 : DRel d a0 b0 := by
        rw [ea0, eb0]
        exact hrel.modify pb _ _ (fun i j hij => hij.reset)
      rw [(r0.2 pb).fields.2.2.2.2.2.2.2.1] at ha1
      have r1 := ih.2 a0 b0 _ a1 b1 r0 ha1 hb1
      have : d = 0 ∨ d = 1 := by omega
      rcases this with rfl | rfl
      · have r2 := lock_sizeDim (show 0 < 2 by omega) r1 ha2 hb2
        exact (r2.left (decl_uiComputeSizeDim ha3)
          (view_sizeDim_other (by omega) (by omega) (by omega) ha3)).right
          (decl_uiComputeSizeDim hb3) (view_sizeDim_other (by omega) (by omega) (by omega) hb3)
      · have r2 := (r1.left (decl_uiComputeSizeDim ha2)
          (view_sizeDim_other (by omega) (by omega) (by omega) ha2)).right
          (decl_uiComputeSizeDim hb2) (view_sizeDim_other (by omega) (by omega) (by omega) hb2)
        exact lock_sizeDim (show 1 < 2 by omega) r2 ha3 hb3
    · intro a b kid a' b' hrel ha hb
      rcases uiComputeBestSizeKids_inv ha with ⟨ka, rfl⟩ | ⟨ka, a1, ha1, -, ha2⟩
      · rcases uiComputeBestSizeKids_inv hb with ⟨-, rfl⟩ | ⟨kb, -⟩
        · exact hrel
        · omega
      · rcases uiComputeBestSizeKids_inv hb with ⟨kb, -⟩ | ⟨-, b1, hb1, -, hb2⟩
        · omega
        · have r1 := ih.1 a b kid a1 b1 hrel ha1 hb1
          rw [(r1.2 kid.toNat).fields.2.2.2.2.2.2.2.2] at ha2
          exact ih.2 a1 b1 _ a' b' r1 ha2 hb2

theorem land_hfill_split (f : Int) :
    Int.land f UI_HFILL = Int.land f UI_LEFT + Int.land f UI_RIGHT := by
  rw [land_hfill, land_left, land_right]

theorem IRel.sel {d : Nat} {i j : UIitem} (h : IRel d i j) :
    Int.land (i.layout_flags >>> d) UI_HFILL = Int.land (j.layout_flags >>> d) UI_HFILL := by
  rw [land_hfill_split, land_hfill_split, h.fields.2.2.2.2.2.1, h.fields.2.2.2.2.2.2.1]

/-- the same placement in two related contexts -/
theorem lock_place {dim : Nat} (hd : dim < 2) {a b : UIcontext} (hrel : DRel dim a b)
    (p : Nat) (wl wr : Int) :
    DRel dim (uiLayoutPlace a p dim wl wr) (uiLayoutPlace b p dim wl wr) := by
  unfold uiLayoutPlace
  simp only
  rw [(hrel.2 p).sel]
  split
  · exact hrel.modify p _ _ (fun i j hij =>
      hij.setV hd dim (by omega) _ _ (fun _ => by rw [hij.fields.2.1]))
  · split
    · exact hrel.modify p _ _ (fun i j hij =>
        hij.setV hd dim (by omega) _ _
          (fun _ => by rw [(view_fields hij.2).2.1, hij.fields.2.2.1]))
    · split
      · refine (hrel.modify p _ _ (fun i j hij =>
          hij.setV hd dim (by omega) _ _ (fun _ => by rw [hij.fields.2.1]))).modify p _ _
          (fun i j hij => hij.setV hd (dim + 2) (by omega) _ _
            (fun _ => by rw [hij.fields.2.1, hij.fields.2.2.1]))
      · exact hrel.modify p _ _ (fun i j hij =>
          hij.setV hd dim (by omega) _ _
            (fun _ => by rw [(view_fields hij.2).2.1, hij.fields.2.1]))

/-- two runs of `uiLayoutChildItem` from related contexts end in related contexts -/
theorem lock_child {dim : Nat} (hd : dim < 2) :
    ∀ (n : Nat) (a b : UIcontext) (pp p : Nat) (a' b' : UIcontext), DRel dim a b →
      uiLayoutChildItem n a pp p dim = .ok a' → uiLayoutChildItem n b pp p dim = .ok b' →
      DRel dim a' b' := by
  intro n
  induction n with
  | zero => intro a b pp p a' b' _ h; simp [uiLayoutChildItem] at h
  | succ n ih =>
    intro a b pp p a' b' hrel ha hb
    have hv := (view_fields (hrel.2 p).2).2.2.2
    rcases uiLayoutChildItem_inv ha with ⟨va, rfl⟩ |
      ⟨va, a0, a1, a2, wla, wra, wra2, ea0, hla, hra, rfl⟩
    · rcases uiLayoutChildItem_inv hb with ⟨vb, rfl⟩ | ⟨vb, -⟩
      · exact hrel
      · rw [hv] at va; exact absurd vb va
    · rcases uiLayoutChildItem_inv hb with ⟨vb, -⟩ |
        ⟨vb, b0, b1, b2, wlb, wrb, wrb2, eb0, hlb, hrb, rfl⟩
      · rw [hv] at va; exact absurd va vb
      · have r0 : DRel dim a0 b0 := by
          rw [ea0, eb0]
          exact hrel.modify p _ _ (fun i j hij => hij.mark_four)
        have f0 := (r0.2 p).fields
        have hpp0 := (view_fields (r0.2 pp).2).2.1
        -- the left neighbor
        have L : DRel dim a1 b1 ∧ wla = wlb ∧ wra = wrb := by
          rcases hla with ⟨fa, ra, pla, hpla, hreca, ewa, ewra⟩ | ⟨na, ea1, ewa, ewra⟩
          · rcases hlb with ⟨fb, rb, plb, hplb, hrecb, ewb, ewrb⟩ | ⟨nb, -⟩
            · obtain ⟨-, -, ea, -⟩ := uiItemPtr_ok hpla
              obtain ⟨-, -, eb, -⟩ := uiItemPtr_ok hplb
              rw [← f0.2.2.2.1] at eb
              have eq : plb = pla := by omega
              subst eq
              have r1 := ih _ _ _ _ _ _ r0 hreca hrecb
              have hv1 := view_fields (r1.2 plb).2
              have ew : wla = wlb := by rw [ewa, ewb, hv1.1, hv1.2.1]
              exact ⟨r1, ew, by rw [ewra, ewrb, ew, hpp0]⟩
            · exfalso
              apply nb
              rw [← f0.2.2.2.2.2.1, ← f0.2.2.2.1]
              exact ⟨fa, ra⟩
          · rcases hlb with ⟨fb, rb, -⟩ | ⟨nb, eb1, ewb, ewrb⟩
            · exfalso
              apply na
              rw [f0.2.2.2.2.2.1, f0.2.2.2.1]
              exact ⟨fb, rb⟩
            · rw [ea1, eb1, ewa, ewb, ewra, ewrb]
              exact ⟨r0, rfl, hpp0⟩
        obtain ⟨r1, ewl, ewr⟩ := L
        subst ewl
        subst ewr
        have f1 := (r1.2 p).fields
        have R : DRel dim a2 b2 ∧ wra2 = wrb2 := by
          rcases hra with ⟨fa, ra, pla, hpla, hreca, ewa⟩ | ⟨na, ea2, ewa⟩
          · rcases hrb with ⟨fb, rb, plb, hplb, hrecb, ewb⟩ | ⟨nb, -⟩
            · obtain ⟨-, -, ea, -⟩ := uiItemPtr_ok hpla
              obtain ⟨-, -, eb, -⟩ := uiItemPtr_ok hplb
              rw [← f1.2.2.2.2.1] at eb
              have eq : plb = pla := by omega
              subst eq
              have r2 := ih _ _ _ _ _ _ r1 hreca hrecb
              have hv2 := view_fields (r2.2 plb).2
              exact ⟨r2, by rw [ewa, ewb, hv2.1]⟩
            · exfalso
              apply nb
              rw [← f1.2.2.2.2.2.2.1, ← f1.2.2.2.2.1]
              exact ⟨fa, ra⟩
          · rcases hrb with ⟨fb, rb, -⟩ | ⟨nb, eb2, ewb⟩
            · exfalso
              apply na
              rw [f1.2.2.2.2.2.2.1, f1.2.2.2.2.1]
              exact ⟨fb, rb⟩
            · rw [ea2, eb2, ewa, ewb]
              exact ⟨r1, rfl⟩
        obtain ⟨r2, ew2⟩ := R
        subst ew2
        exact lock_place hd r2 p _ _

theorem lock_dimKids {dim : Nat} (hd : dim < 2) (lfuel pitem : Nat) :
    ∀ (n : Nat) (a b : UIcontext) (kid : Int) (a' b' : UIcontext), DRel dim a b →
      uiLayoutItemDimKids lfuel pitem dim n a kid = .ok a' →
      uiLayoutItemDimKids lfuel pitem dim n b kid = .ok b' → DRel dim a' b' := by
  intro n
  induction n with
  | zero => intro a b kid a' b' _ h; simp [uiLayoutItemDimKids] at h
  | succ n ih =>
    intro a b kid a' b' hrel ha hb
    rcases uiLayoutItemDimKids_inv ha with ⟨ka, rfl⟩ | ⟨ka, pa, a1, hpa, ha1, -, ha2⟩
    · rcases uiLayoutItemDimKids_inv hb with ⟨-, rfl⟩ | ⟨kb, -⟩
      · exact hrel
      · omega
    · rcases uiLayoutItemDimKids_inv hb with ⟨kb, -⟩ | ⟨-, pb, b1, hpb, hb1, -, hb2⟩
      · omega
      · obtain ⟨-, -, ea, -⟩ := uiItemPtr_ok hpa
        obtain ⟨-, -, eb, -⟩ := uiItemPtr_ok hpb
        have eq : pb = pa := by omega
        subst eq
        have r1 := lock_child hd lfuel a b pitem pb a1 b1 hrel ha1 hb1
        rw [(r1.2 pb).fields.2.2.2.2.2.2.2.2] at ha2
        exact ih _ _ _ _ _ r1 ha2 hb2

theorem view_dimKids_other (d dim : Nat) (hne : d ≠ dim) (hd : d < 2) (hdim : dim < 2)
    (lfuel pitem : Nat) :
    ∀ (n : Nat) (c : UIcontext) (kid : Int) (c' : UIcontext),
      uiLayoutItemDimKids lfuel pitem dim n c kid = .ok c' → c'.view d = c.view d := by
  intro n
  induction n with
  | zero => intro c kid c' h; simp [uiLayoutItemDimKids] at h
  | succ n ih =>
    intro c kid c' h
    rcases uiLayoutItemDimKids_inv h with ⟨-, e⟩ | ⟨-, pk, c1, -, h1, -, h2⟩
    · rw [e]
    · rw [ih _ _ _ h2]
      exact view_child_other _ _ _ _ _ _ _ h1 hdim hd hne

/-- the position passes of two related contexts end in related contexts -/
theorem lock_layoutItem {d : Nat} (hd : d < 2) (lfuel : Nat) :
    ∀ (n : Nat),
      (∀ (a b : UIcontext) (item : Int) (a' b' : UIcontext), DRel d a b →
        uiLayoutItem lfuel n a item = .ok a' → uiLayoutItem lfuel n b item = .ok b' →
        DRel d a' b') ∧
      (∀ (a b : UIcontext) (kid : Int) (a' b' : UIcontext), DRel d a b →
        uiLayoutItemKids lfuel n a kid = .ok a' → uiLayoutItemKids lfuel n b kid = .ok b' →
        DRel d a' b') := by
  intro n
  induction n with
  | zero =>
    constructor
    · intro a b item a' b' _ h; simp [uiLayoutItem] at h
    · intro a b kid a' b' _ h; simp [uiLayoutItemKids] at h
  | succ n ih =>
    constructor
    · intro a b item a' b' hrel ha hb
      obtain ⟨pa, a1, a2, hpa, ha1, ha2, ha3⟩ := uiLayoutItem_inv ha
      obtain ⟨pb, b1, b2, hpb, hb1, hb2, hb3⟩ := uiLayoutItem_inv hb
      obtain ⟨-, -, ea, -⟩ := uiItemPtr_ok hpa
      obtain ⟨-, -, eb, -⟩ := uiItemPtr_ok hpb
      have eq : pb = pa := by omega
      subst eq
      unfold uiLayoutItemDim at ha1 ha2 hb1 hb2
      have r2 : DRel d a2 b2 := by
        have : d = 0 ∨ d = 1 := by omega
        rcases this with rfl | rfl
        · rw [(hrel.2 pb).fields.2.2.2.2.2.2.2.1] at ha1
          have r1 := lock_dimKids (show 0 < 2 by omega) lfuel pb n _ _ _ _ _ hrel ha1 hb1
          exact (r1.left (decl_uiLayoutItemDimKids _ _ _ _ _ _ _ ha2)
            (view_dimKids_other 0 1 (by omega) (by omega) (by omega) _ _ _ _ _ _ ha2)).right
            (decl_uiLayoutItemDimKids _ _ _ _ _ _ _ hb2)
            (view_dimKids_other 0 1 (by omega) (by omega) (by omega) _ _ _ _ _ _ hb2)
        · have r1 := (hrel.left (decl_uiLayoutItemDimKids _ _ _ _ _ _ _ ha1)
            (view_dimKids_other 1 0 (by omega) (by omega) (by omega) _ _ _ _ _ _ ha1)).right
            (decl_uiLayoutItemDimKids _ _ _ _ _ _ _ hb1)
            (view_dimKids_other 1 0 (by omega) (by omega) (by omega) _ _ _ _ _ _ hb1)
          rw [(r1.2 pb).fields.2.2.2.2.2.2.2.1] at ha2
          exact lock_dimKids (show 1 < 2 by omega) lfuel pb n _ _ _ _ _ r1 ha2 hb2
      rw [(r2.2 pb).fields.2.2.2.2.2.2.2.1] at ha3
      exact ih.2 a2 b2 _ a' b' r2 ha3 hb3
    · intro a b kid a' b' hrel ha hb
      rcases uiLayoutItemKids_inv ha with ⟨ka, rfl⟩ | ⟨ka, a1, ha1, -, ha2⟩
      · rcases uiLayoutItemKids_inv hb with ⟨-, rfl⟩ | ⟨kb, -⟩
        · exact hrel
        · omega
      · rcases uiLayoutItemKids_inv hb with ⟨kb, -⟩ | ⟨-, b1, hb1, -, hb2⟩
        · omega
        · have r1 := ih.1 a b kid a1 b1 hrel ha1 hb1
          rw [(r1.2 kid.toNat).fields.2.2.2.2.2.2.2.2] at ha2
          exact ih.2 a1 b1 _ a' b' r1 ha2 hb2

theorem IRel.rootx {d : Nat} (hd : d < 2) {i j : UIitem} (h : IRel d i j) :
    IRel d { i with rect := { i.rect with x := i.margins.v 0 } }
      { j with rect := { j.rect with x := j.margins.v 0 } } := by
  refine ⟨h.1, ?_⟩
  have hv := view_fields h.2
  have hm := h.fields.2.1
  unfold UIitem.view
  have : d = 0 ∨ d = 1 := by omega
  rcases this with rfl | rfl
  · exact Prod.ext hm (Prod.ext hv.2.1 (Prod.ext hv.2.2.1 hv.2.2.2))
  · exact Prod.ext hv.1 (Prod.ext hv.2.1 (Prod.ext hv.2.2.1 hv.2.2.2))

theorem IRel.rooty {d : Nat} (hd : d < 2) {i j : UIitem} (h : IRel d i j) :
    IRel d { i with rect := { i.rect with y := i.margins.v 1 } }
      { j with rect := { j.rect with y := j.margins.v 1 } } := by
  refine ⟨h.1, ?_⟩
  have hv := view_fields h.2
  have hm := h.fields.2.1
  unfold UIitem.view
  have : d = 0 ∨ d = 1 := by omega
  rcases this with rfl | rfl
  · exact Prod.ext hv.1 (Prod.ext hv.2.1 (Prod.ext hv.2.2.1 hv.2.2.2))
  · exact Prod.ext hm (Prod.ext hv.2.1 (Prod.ext hv.2.2.1 hv.2.2.2))

/-- both solver passes of two related contexts end in related contexts -/
theorem lock_processLayout {d : Nat} (hd : d < 2) {a b a' b' : UIcontext} (hrel : DRel d a b)
    (ha : uiProcessLayout a = .ok a') (hb : uiProcessLayout b = .ok b') : DRel d a' b' := by
  obtain ⟨a1, a2, ha1, -, ea2, ha3⟩ := uiProcessLayout_inv ha
  obtain ⟨b1, b2, hb1, -, eb2, hb3⟩ := uiProcessLayout_inv hb
  have hf : uiFuel a = uiFuel b := by unfold uiFuel; rw [hrel.1]
  rw [hf] at ha1
  have r1 := (lock_bestSize hd (uiFuel b)).1 a b 0 a1 b1 hrel ha1 hb1
  have r2 : DRel d a2 b2 := by
    rw [ea2, eb2]
    exact (r1.modify 0 _ _ (fun i j hij => hij.rootx hd)).modify 0 _ _
      (fun i j hij => hij.rooty hd)
  have hf2 : uiFuel a2 = uiFuel b2 := by unfold uiFuel; rw [r2.1]
  rw [hf2] at ha3
  exact (lock_layoutItem hd (uiFuel b2) (uiFuel b2)).1 a2 b2 0 a' b' r2 ha3 hb3

theorem DRel_of_lists {d : Nat} {a b : UIcontext} (hin : a.inputs d = b.inputs d)
    (hview : a.view d = b.view d) : DRel d a b := by
  have hlen : a.items.length = b.items.length := by
    have := congrArg List.length hview
    simpa [UIcontext.view] using this
  refine ⟨hlen, fun q => ⟨?_, get_view_of_view hview q⟩⟩
  have h2 := congrArg (fun x => x[q]?) hin
  simp only [UIcontext.inputs, List.getElem?_map] at h2
  unfold UIcontext.get
  rw [List.getD_eq_getElem?_getD, List.getD_eq_getElem?_getD]
  cases h1 : a.items[q]? <;> cases h3 : b.items[q]? <;> simp_all

/-- C28: dimension independence. Let two contexts agree, item by item, on the inputs of
dimension `d` (size hint, margins, neighbor references and anchor flags of that dimension, first
child and next sibling) and on the state of dimension `d` (position, extent and the marks of
the two passes); the inputs of the other dimension may differ. If `uiProcess` returns on both,
every item has the same position and the same extent in dimension `d` in both results. For
`d = 0` these are `rect.x` and `rect.w`, for `d = 1` they are `rect.y` and `rect.h`. -/
theorem dimension_independent (a b : UIcontext) (d : Nat) (hd : d < 2)
    (hin : a.inputs d = b.inputs d) (hview : a.view d = b.view d) (a' b' : UIcontext)
    (eva evb : List UIdispatch) (ha : uiProcess a = .ok (a', eva))
    (hb : uiProcess b = .ok (b', evb)) :
    ∀ q, (a'.get q).rect.v d = (b'.get q).rect.v d ∧
      (a'.get q).rect.v (d + 2) = (b'.get q).rect.v (d + 2) := by
  obtain ⟨al, hal, ia, -⟩ := uiProcess_items ha
  obtain ⟨bl, hbl, ib, -⟩ := uiProcess_items hb
  have r := lock_processLayout hd (DRel_of_lists hin hview) hal hbl
  intro q
  rw [get_of_items ia, get_of_items ib]
  have hv := view_fields (r.2 q).2
  exact ⟨hv.1, hv.2.1⟩

/-- C28 at an example: `flatEx` and `tallEx` agree on the inputs of the x dimension
and differ in the heights, the top and bottom flags and the top and bottom margins;
`uiProcess` returns on both, and every item has the same `rect.x` and `rect.w` in both
results. -/
theorem dimension_independent_witness :
    flatEx.inputs 0 = tallEx.inputs 0 ∧ flatEx.view 0 = tallEx.view 0 ∧
    (flatEx.get 1).size ≠ (tallEx.get 1).size ∧
    (flatEx.get 1).layout_flags ≠ (tallEx.get 1).layout_flags ∧
    uiProcess flatEx = .ok (flatDone, []) ∧ uiProcess tallEx = .ok (tallDone, []) ∧
    ∀ q, (flatDone.get q).rect.v 0 = (tallDone.get q).rect.v 0 ∧
      (flatDone.get q).rect.v (0 + 2) = (tallDone.get q).rect.v (0 + 2) :=
  ⟨by decide, by decide, by decide, by decide, by decide, by decide,
    dimension_independent flatEx tallEx 0 (by decide) (by decide) (by decide) flatDone tallDone
      [] [] (by decide) (by decide)⟩

/-! ### Corner selection of the drawing helper (C31) -/

/-- a mask test with one bit reads that bit of the flag word -/
theorem land_two_pow_ne_zero (f : Int) (i : Nat) :
    Int.land f ((2 ^ i : Nat) : Int) ≠ 0 ↔ f.testBit i = true := by
  obtain ⟨r, hr, hbit⟩ := land_nat f (2 ^ i)
  rw [hr]
  constructor
  · intro h
    by_contra hx
    apply h
    have : r = 0 := by
      apply Nat.eq_of_testBit_eq
      intro k
      rw [hbit, Nat.testBit_two_pow, Nat.zero_testBit]
      by_cases hk : i = k
      · subst hk; simp [hx]
      · simp [hk]
    rw [this]; rfl
  · intro h h0
    have h0' : r = 0 := by exact_mod_cast h0
    have := hbit i
    rw [h0', Nat.zero_testBit, h, Nat.testBit_two_pow_self] at this
    simp at this

/-- C31: corner selection. For every radius `r`, every flag word and every array `radiuses` of
at least four entries, `bndSelectCorners` writes at index `i = 0, 1, 2, 3` (top left, top right,
bottom right, bottom left) the value 0 if bit `i` of `flags` is set and `r` otherwise, and leaves
the length of the array and the entries from index 4 on as they were. So `BND_CORNER_NONE`
gives `r` at all four indices and `BND_CORNER_ALL` gives 0 at all four. The four corner flags
are the masks `2 ^ 0`, `2 ^ 1`, `2 ^ 2`, `2 ^ 3`, and bit `i` is set exactly if the test
`flags & 2 ^ i` of the code is non-zero. -/
theorem corner_selection {α : Type} [OfNat α 0] (radiuses : List α) (r : α) (flags : Int)
    (hlen : 4 ≤ radiuses.length) :
    (∀ i : Nat, i < 4 →
      (bndSelectCorners radiuses r flags)[i]? = some (if flags.testBit i = true then 0 else r)) ∧
    (bndSelectCorners radiuses r flags).length = radiuses.length ∧
    (∀ i : Nat, 4 ≤ i → (bndSelectCorners radiuses r flags)[i]? = radiuses[i]?) ∧
    (flags = BND_CORNER_NONE →
      (bndSelectCorners radiuses r flags).take 4 = [r, r, r, r]) ∧
    (flags = BND_CORNER_ALL →
      (bndSelectCorners radiuses r flags).take 4 = [0, 0, 0, 0]) ∧
    [BND_CORNER_TOP_LEFT, BND_CORNER_TOP_RIGHT, BND_CORNER_DOWN_RIGHT, BND_CORNER_DOWN_LEFT] =
      [2 ^ 0, 2 ^ 1, 2 ^ 2, 2 ^ 3] ∧
    ∀ i : Nat, flags.testBit i = true ↔ Int.land flags (2 ^ i) ≠ 0 := by
  have b0 := land_two_pow_ne_zero flags 0
  have b1 := land_two_pow_ne_zero flags 1
  have b2 := land_two_pow_ne_zero flags 2
  have b3 := land_two_pow_ne_zero flags 3
  have key : ∀ i : Nat, i < 4 →
      (bndSelectCorners radiuses r flags)[i]? =
        some (if flags.testBit i = true then 0 else r) := by
    intro i hi
    unfold bndSelectCorners
    have h4 : i = 0 ∨ i = 1 ∨ i = 2 ∨ i = 3 := by omega
    rcases h4 with rfl | rfl | rfl | rfl
    · simp only [List.getElem?_set, List.length_set]
      simp only [show (3 : Nat) ≠ 0 by decide, show (2 : Nat) ≠ 0 by decide,
        show (1 : Nat) ≠ 0 by decide, if_false, if_true, show 0 < radiuses.length by omega]
      congr 1
      exact if_congr b0 rfl rfl
    · simp only [List.getElem?_set, List.length_set]
      simp only [show (3 : Nat) ≠ 1 by decide, show (2 : Nat) ≠ 1 by decide,
        if_false, if_true, show 1 < radiuses.length by omega]
      congr 1
      exact if_congr b1 rfl rfl
    · simp only [List.getElem?_set, List.length_set]
      simp only [show (3 : Nat) ≠ 2 by decide, if_false, if_true,
        show 2 < radiuses.length by omega]
      congr 1
      exact if_congr b2 rfl rfl
    · simp only [List.getElem?_set, List.length_set]
      simp only [if_true, show 3 < radiuses.length by omega]
      congr 1
      exact if_congr b3 rfl rfl
  have hl : (bndSelectCorners radiuses r flags).length = radiuses.length := by
    unfold bndSelectCorners; simp only [List.length_set]
  have take4 : ∀ (l : List α) (a b c d : α), l[0]? = some a → l[1]? = some b →
      l[2]? = some c → l[3]? = some d → l.take 4 = [a, b, c, d] := by
    intro l a b c d h0 h1 h2 h3
    match l, h0, h1, h2, h3 with
    | x0 :: x1 :: x2 :: x3 :: rest, h0, h1, h2, h3 =>
      simp only [List.getElem?_cons_zero, List.getElem?_cons_succ, Option.some.injEq] at h0 h1 h2 h3
      simp [h0, h1, h2, h3]
  refine ⟨key, hl, ?_, ?_, ?_, rfl, fun i => ?_⟩
  rotate_right
  · have := land_two_pow_ne_zero flags i
    rw [Nat.cast_pow] at this
    exact this.symm
  · intro i hi
    unfold bndSelectCorners
    simp only [List.getElem?_set]
    rw [if_neg (by omega), if_neg (by omega), if_neg (by omega), if_neg (by omega)]
  · intro hf
    subst hf
    exact take4 _ _ _ _ _ (key 0 (by decide)) (key 1 (by decide)) (key 2 (by decide))
      (key 3 (by decide))
  · intro hf
    subst hf
    exact take4 _ _ _ _ _ (key 0 (by decide)) (key 1 (by decide)) (key 2 (by decide))
      (key 3 (by decide))

/-- C31 at an example: with radius 5 and the flags 6, which are `BND_CORNER_TOP_RIGHT` and
`BND_CORNER_DOWN_RIGHT`, the array `[7, 7, 7, 7, 9]` becomes `[5, 0, 0, 5, 9]`. -/
theorem corner_selection_witness :
    bndSelectCorners [(7 : Int), 7, 7, 7, 9] 5 6 = [5, 0, 0, 5, 9] ∧
    ∀ i : Nat, i < 4 →
      (bndSelectCorners [(7 : Int), 7, 7, 7, 9] 5 6)[i]? =
        some (if (6 : Int).testBit i = true then 0 else 5) :=
  ⟨by decide, (corner_selection [(7 : Int), 7, 7, 7, 9] 5 6 (by decide)).1⟩

/-! ### What the calls do to the interaction fields of the context -/

theorem state_modify (c : UIcontext) (p : Nat) (f : UIitem → UIitem) :
    (c.modify p f).state = c.state := rfl

theorem active_item_modify (c : UIcontext) (p : Nat) (f : UIitem → UIitem) :
    (c.modify p f).active_item = c.active_item := rfl

theorem last_buttons_modify (c : UIcontext) (p : Nat) (f : UIitem → UIitem) :
    (c.modify p f).last_buttons = c.last_buttons := rfl

/-- what a call other than `uiProcess` does to the interaction fields of the context -/
theorem uiCall_ctx {c c' : UIcontext} {call : UIcall} (hp : call ≠ .process)
    (h : uiCall c call = .ok c') :
    c'.state = c.state ∧ c'.last_buttons = c.last_buttons ∧
    c'.active_handle = c.active_handle ∧ c'.hot_handle = c.hot_handle := by
  cases call with
  | process => exact absurd rfl hp
  | clear =>
    simp only [uiCall] at h
    injection h with h
    subst h
    exact ⟨rfl, rfl, rfl, rfl⟩
  | setButton b e =>
    simp only [uiCall] at h
    injection h with h
    subst h
    exact ⟨rfl, rfl, rfl, rfl⟩
  | setCursor x y =>
    simp only [uiCall] at h
    injection h with h
    subst h
    exact ⟨rfl, rfl, rfl, rfl⟩
  | item =>
    simp only [uiCall, uiItem] at h
    split at h
    · simp only [Except.map] at h
      injection h with h
      subst h
      exact ⟨rfl, rfl, rfl, rfl⟩
    · simp [Except.map] at h
  | setParent item parent =>
    simp only [uiCall, uiSetParent, uiParent, bind, Except.bind, pure, Except.pure] at h
    repeat' split at h
    all_goals first | (injection h with h; subst h; exact ⟨by simp only [state_modify], by simp only [last_buttons_modify], by simp only [active_handle_modify], by simp only [hot_handle_modify]⟩) | cases h
  | setSize item w hh =>
    simp only [uiCall, uiSetSize, bind, Except.bind, pure, Except.pure] at h
    repeat' split at h
    all_goals first | (injection h with h; subst h; exact ⟨by simp only [state_modify], by simp only [last_buttons_modify], by simp only [active_handle_modify], by simp only [hot_handle_modify]⟩) | cases h
  | setLayout item flags =>
    simp only [uiCall, uiSetLayout, bind, Except.bind, pure, Except.pure] at h
    repeat' split at h
    all_goals first | (injection h with h; subst h; exact ⟨by simp only [state_modify], by simp only [last_buttons_modify], by simp only [active_handle_modify], by simp only [hot_handle_modify]⟩) | cases h
  | setMargins item l t r b =>
    simp only [uiCall, uiSetMargins, bind, Except.bind, pure, Except.pure] at h
    repeat' split at h
    all_goals first | (injection h with h; subst h; exact ⟨by simp only [state_modify], by simp only [last_buttons_modify], by simp only [active_handle_modify], by simp only [hot_handle_modify]⟩) | cases h
  | setRelativeTo item l t r b =>
    simp only [uiCall, uiSetRelativeTo, bind, Except.bind, pure, Except.pure] at h
    repeat' split at h
    all_goals first | (injection h with h; subst h; exact ⟨by simp only [state_modify], by simp only [last_buttons_modify], by simp only [active_handle_modify], by simp only [hot_handle_modify]⟩) | cases h
  | allocData item size =>
    simp only [uiCall, uiAllocData, bind, Except.bind, pure, Except.pure] at h
    repeat' split at h
    all_goals first | (injection h with h; subst h; exact ⟨by simp only [state_modify], by simp only [last_buttons_modify], by simp only [active_handle_modify], by simp only [hot_handle_modify]⟩) | cases h
  | setHandle item handle =>
    simp only [uiCall, uiSetHandle, bind, Except.bind, pure, Except.pure] at h
    repeat' split at h
    all_goals first | (injection h with h; subst h; exact ⟨by simp only [state_modify], by simp only [last_buttons_modify], by simp only [active_handle_modify], by simp only [hot_handle_modify]⟩) | cases h
  | setHandler item handler flags =>
    simp only [uiCall, uiSetHandler, bind, Except.bind, pure, Except.pure] at h
    repeat' split at h
    all_goals first | (injection h with h; subst h; exact ⟨by simp only [state_modify], by simp only [last_buttons_modify], by simp only [active_handle_modify], by simp only [hot_handle_modify]⟩) | cases h

/-- a sequence of calls without `uiProcess` keeps the interaction state, the previous button
mask and the handles -/
theorem uiCalls_ctx :
    ∀ (calls : List UIcall) (c c' : UIcontext), UIcall.process ∉ calls →
      uiCalls c calls = .ok c' →
      c'.state = c.state ∧ c'.last_buttons = c.last_buttons ∧
      c'.active_handle = c.active_handle ∧ c'.hot_handle = c.hot_handle := by
  intro calls
  induction calls with
  | nil =>
    intro c c' _ h
    simp only [uiCalls] at h
    injection h with h; subst h; exact ⟨rfl, rfl, rfl, rfl⟩
  | cons call rest ih =>
    intro c c' hn h
    simp only [uiCalls] at h
    split at h
    · cases h
    · rename_i c1 h1
      have a := uiCall_ctx (fun e => hn (by simp [e])) h1
      have b := ih c1 c' (fun e => hn (by simp [e])) h
      exact ⟨b.1.trans a.1, b.2.1.trans a.2.1, b.2.2.1.trans a.2.2.1, b.2.2.2.trans a.2.2.2⟩

/-- the state switch of `uiProcess`: the state afterwards follows button 0, and the active
item is cleared or kept when the state afterwards is idle -/
theorem uiProcessState_state {c cs : UIcontext} {hot : Int} {evs : List UIdispatch}
    (h : uiProcessState c hot = .ok (cs, evs)) :
    (cs.state = .UI_STATE_CAPTURE ↔ uiGetButton c 0 ≠ 0) ∧
    (cs.state = .UI_STATE_IDLE →
      (c.state = .UI_STATE_IDLE ∧ cs.active_item = c.active_item) ∨ cs.active_item = -1) ∧
    cs.active_handle = c.active_handle := by
  unfold uiProcessState at h
  by_cases hb : uiGetButton c 0 ≠ 0
  · cases hst : c.state <;> rw [hst] at h <;> simp only [hb, not_true_eq_false, if_true, if_false] at h
    · repeat' split at h
      all_goals first
        | cases h; done
        | contradiction
        | (injection h with h; injection h with h h'; subst h
           exact ⟨⟨fun _ => hb, fun _ => rfl⟩, fun e => (by cases e), rfl⟩)
    · repeat' split at h
      all_goals first
        | cases h; done
        | contradiction
        | (injection h with h; injection h with h h'; subst h
           exact ⟨⟨fun _ => hb, fun _ => rfl⟩, fun e => (by cases e), rfl⟩)
  · cases hst : c.state <;> rw [hst] at h <;> simp only [hb, not_false_eq_true, if_true, if_false] at h
    · injection h with h; injection h with h h'; subst h
      exact ⟨⟨fun e => (by cases e), fun e => absurd e hb⟩,
        fun _ => Or.inl ⟨rfl, rfl⟩, rfl⟩
    · repeat' split at h
      all_goals first
        | cases h; done
        | contradiction
        | (injection h with h; injection h with h h'; subst h
           exact ⟨⟨fun e => (by cases e), fun e => absurd e hb⟩, fun _ => Or.inr rfl, rfl⟩)

theorem uiProcessHandles_last {cs c1 : UIcontext} (h : uiProcessHandles cs = .ok c1) :
    c1.last_buttons = cs.last_buttons := by
  unfold uiProcessHandles at h
  simp only at h
  repeat' split at h
  all_goals first | cases h; done | (injection h with h; rw [← h])

/-- the fields of the context after `uiProcess`, as far as the button and the interaction
state are concerned -/
theorem uiProcess_ctx {c c' : UIcontext} {evs : List UIdispatch}
    (h : uiProcess c = .ok (c', evs)) :
    (c'.state = .UI_STATE_CAPTURE ↔ uiGetButton c 0 ≠ 0) ∧
    c'.last_buttons = c.last_buttons ∧ c'.buttons = c.buttons ∧
    (c'.state = .UI_STATE_IDLE →
      (c.state = .UI_STATE_IDLE ∧ c'.active_item = c.active_item) ∨ c'.active_item = -1) ∧
    (c'.active_item < 0 → c'.active_handle = 0) := by
  obtain ⟨cl, hot, cs, h1, h2, h3, h4⟩ := uiProcess_inv h
  have hd := decl_uiProcessLayout h1
  have hctx := ctx_of_decl hd
  obtain ⟨k1, k2, k3⟩ := uiProcessHandles_keeps h4
  obtain ⟨i1, i2, i3, -, -⟩ := uiProcessHandles_ok h4
  obtain ⟨j1, j2, j3, -, -, -⟩ := uiProcessState_inv h3
  obtain ⟨s1, s2, s3⟩ := uiProcessState_state h3
  have hb : uiGetButton cl 0 = uiGetButton c 0 := uiGetButton_of_decl hd 0
  have hs : cl.state = c.state := hctx.2.2.2.2.2.2.2.2.2.1
  have ha : cl.active_item = c.active_item := hctx.2.2.2.2.2.2.2.2.1
  refine ⟨?_, ?_, ?_, ?_, ?_⟩
  · rw [k2, s1, hb]
  · rw [uiProcessHandles_last h4, j3]; exact hctx.2.1
  · rw [k3, j2]; exact hctx.1
  · intro e
    rw [k2] at e
    rcases s2 e with ⟨a, b⟩ | a
    · exact Or.inl ⟨by rw [← hs]; exact a, by rw [i3, b, ha]⟩
    · exact Or.inr (by rw [i3, a])
  · intro e
    unfold uiProcessHandles at h4
    simp only at h4
    split at h4
    · cases h4
    · rename_i hh _
      rw [i3] at e
      rw [if_neg (by simp only [ge_iff_le, not_le]; exact e)] at h4
      injection h4 with h4
      rw [← h4]

/-! ### The button, the interaction state and the active item (C34, C35, C39) -/

/-- a declaration or input call other than `uiSetHandle` keeps the active item -/
theorem uiCall_active {c c' : UIcontext} {call : UIcall} (hp : call ≠ .process)
    (hc : call ≠ .clear) (hh : ∀ item handle, call ≠ .setHandle item handle)
    (h : uiCall c call = .ok c') : c'.active_item = c.active_item := by
  cases call with
  | process => exact absurd rfl hp
  | clear => exact absurd rfl hc
  | setHandle item handle => exact absurd rfl (hh item handle)
  | setButton b e =>
    simp only [uiCall] at h
    injection h with h
    subst h
    rfl
  | setCursor x y =>
    simp only [uiCall] at h
    injection h with h
    subst h
    rfl
  | item =>
    simp only [uiCall, uiItem] at h
    split at h
    · simp only [Except.map] at h
      injection h with h
      subst h
      rfl
    · simp [Except.map] at h
  | setParent item parent =>
    simp only [uiCall, uiSetParent, uiParent, bind, Except.bind, pure, Except.pure] at h
    repeat' split at h
    all_goals first | (injection h with h; subst h; simp only [active_item_modify]) | cases h
  | setSize item w hh =>
    simp only [uiCall, uiSetSize, bind, Except.bind, pure, Except.pure] at h
    repeat' split at h
    all_goals first | (injection h with h; subst h; simp only [active_item_modify]) | cases h
  | setLayout item flags =>
    simp only [uiCall, uiSetLayout, bind, Except.bind, pure, Except.pure] at h
    repeat' split at h
    all_goals first | (injection h with h; subst h; simp only [active_item_modify]) | cases h
  | setMargins item l t r b =>
    simp only [uiCall, uiSetMargins, bind, Except.bind, pure, Except.pure] at h
    repeat' split at h
    all_goals first | (injection h with h; subst h; simp only [active_item_modify]) | cases h
  | setRelativeTo item l t r b =>
    simp only [uiCall, uiSetRelativeTo, bind, Except.bind, pure, Except.pure] at h
    repeat' split at h
    all_goals first | (injection h with h; subst h; simp only [active_item_modify]) | cases h
  | allocData item size =>
    simp only [uiCall, uiAllocData, bind, Except.bind, pure, Except.pure] at h
    repeat' split at h
    all_goals first | (injection h with h; subst h; simp only [active_item_modify]) | cases h
  | setHandler item handler flags =>
    simp only [uiCall, uiSetHandler, bind, Except.bind, pure, Except.pure] at h
    repeat' split at h
    all_goals first | (injection h with h; subst h; simp only [active_item_modify]) | cases h

theorem IdleClean_uiCall {c c' : UIcontext} {call : UIcall} (hi : IdleClean c)
    (h : uiCall c call = .ok c') : IdleClean c' := by
  by_cases hp : call = .process
  · subst hp
    simp only [uiCall] at h
    cases hq : uiProcess c with
    | error e => rw [hq] at h; simp [Except.map] at h
    | ok r =>
      obtain ⟨c1, evs⟩ := r
      rw [hq] at h
      simp only [Except.map] at h
      injection h with h
      subst h
      obtain ⟨-, -, -, a, b⟩ := uiProcess_ctx hq
      intro hs
      have ha : c1.active_item = -1 := by
        rcases a hs with ⟨s, e⟩ | e
        · rw [e]; exact (hi s).1
        · exact e
      exact ⟨ha, b (by rw [ha]; decide)⟩
  · obtain ⟨s, -, ah, -⟩ := uiCall_ctx hp h
    intro hs
    rw [s] at hs
    obtain ⟨i1, i2⟩ := hi hs
    refine ⟨?_, by rw [ah]; exact i2⟩
    by_cases hc : call = .clear
    · subst hc
      simp only [uiCall] at h
      injection h with h
      subst h
      rfl
    · by_cases hh : ∃ item handle, call = .setHandle item handle
      · obtain ⟨item, handle, rfl⟩ := hh
        have := (uiSetHandle_ok h).2.2.2.2.2
        rw [this, if_neg (by rw [i2]; intro x; exact x.1 x.2)]
        exact i1
      · rw [uiCall_active hp hc (fun item handle e => hh ⟨item, handle, e⟩) h]
        exact i1

theorem IdleClean_fresh : IdleClean (uiMakeCurrent uiCreateContext) := fun _ => ⟨rfl, rfl⟩

/-- without an active item no item is reported active -/
theorem uiGetState_not_active {c : UIcontext} (h : c.active_item = -1) (item : Int) :
    uiGetState c item ≠ .ok UI_ACTIVE := by
  unfold uiGetState
  cases hp : uiItemPtr c item with
  | error e => simp
  | ok p =>
    obtain ⟨h0, -, -, -⟩ := uiItemPtr_ok hp
    have hna : uiIsActive c item = false := by
      unfold uiIsActive
      rw [h]
      simp only [decide_eq_false_iff_not]
      omega
    simp only [hna, Bool.false_eq_true, if_false]
    split <;> simp [UI_ACTIVE, UI_HOT, UI_COLD]

/-- C39: the previous-frame button mask is never written. No API call changes
`last_buttons`. So in every context reached from the fresh context made current by API
calls, `last_buttons` is 0, and for every button `uiGetLastButton` and `uiButtonReleased`
return 0 and `uiButtonPressed` returns what `uiGetButton` returns. -/
theorem last_buttons_unwritten :
    (∀ (c : UIcontext) (call : UIcall) (c' : UIcontext),
      uiCall c call = .ok c' → c'.last_buttons = c.last_buttons) ∧
    ∀ (calls : List UIcall) (c : UIcontext),
      uiCalls (uiMakeCurrent uiCreateContext) calls = .ok c →
      c.last_buttons = 0 ∧
      ∀ b : Nat, uiGetLastButton c b = 0 ∧ uiButtonReleased c b = 0 ∧
        uiButtonPressed c b = uiGetButton c b := by
  have step : ∀ (c : UIcontext) (call : UIcall) (c' : UIcontext),
      uiCall c call = .ok c' → c'.last_buttons = c.last_buttons := by
    intro c call c' h
    by_cases hp : call = .process
    · subst hp
      simp only [uiCall] at h
      cases hq : uiProcess c with
      | error e => rw [hq] at h; simp [Except.map] at h
      | ok r =>
        obtain ⟨c1, evs⟩ := r
        rw [hq] at h
        simp only [Except.map] at h
        injection h with h
        subst h
        exact (uiProcess_ctx hq).2.1
    · exact (uiCall_ctx hp h).2.1
  refine ⟨step, ?_⟩
  intro calls c h
  have h0 : c.last_buttons = 0 :=
    uiCalls_invariant (fun c => c.last_buttons = 0)
      (fun c call c' hc hcall => (step c call c' hcall).trans hc) calls _ c rfl h
  refine ⟨h0, ?_⟩
  intro b
  have hl : uiGetLastButton c b = 0 := by
    unfold uiGetLastButton
    rw [h0]
    simp
  refine ⟨hl, ?_, ?_⟩
  · unfold uiButtonReleased
    rw [hl]
    simp
  · unfold uiButtonPressed
    rw [hl]
    unfold uiGetButton
    split <;> simp_all

/-- C39 at the pointer example: in `overEx`, reached by `pointerCalls`, `last_buttons`
is 0 and the three queries are as stated for every button. -/
theorem last_buttons_unwritten_witness :
    uiCalls (uiMakeCurrent uiCreateContext) pointerCalls = .ok overEx ∧
    overEx.last_buttons = 0 ∧
    ∀ b : Nat, uiGetLastButton overEx b = 0 ∧ uiButtonReleased overEx b = 0 ∧
      uiButtonPressed overEx b = uiGetButton overEx b :=
  ⟨by decide, last_buttons_unwritten.2 pointerCalls overEx (by decide)⟩

/-- C34: the state tracks the button. Whenever `uiProcess` returns, the interaction state
afterwards is Capture if and only if button 0 is down at that call, and Idle if and only if
button 0 is up at that call. Calls other than `uiProcess` do not change the state; hence if
after such calls the state is Idle, so that the next `uiProcess` runs in state Idle, then
button 0 was up at the `uiProcess` call before. -/
theorem state_tracks_button (c c' : UIcontext) (evs : List UIdispatch)
    (h : uiProcess c = .ok (c', evs)) :
    (c'.state = .UI_STATE_CAPTURE ↔ uiGetButton c 0 ≠ 0) ∧
    (c'.state = .UI_STATE_IDLE ↔ uiGetButton c 0 = 0) ∧
    ∀ (calls : List UIcall) (c2 : UIcontext), UIcall.process ∉ calls →
      uiCalls c' calls = .ok c2 →
      c2.state = c'.state ∧ (c2.state = .UI_STATE_IDLE → uiGetButton c 0 = 0) := by
  obtain ⟨a, -, -, -, -⟩ := uiProcess_ctx h
  have b : c'.state = .UI_STATE_IDLE ↔ uiGetButton c 0 = 0 := by
    constructor
    · intro e
      by_contra hne
      have := a.2 hne
      rw [e] at this
      cases this
    · intro e
      cases hs : c'.state with
      | UI_STATE_IDLE => rfl
      | UI_STATE_CAPTURE => exact absurd e (a.1 hs)
  refine ⟨a, b, ?_⟩
  intro calls c2 hn hc
  have := (uiCalls_ctx calls c' c2 hn hc).1
  exact ⟨this, fun e => b.1 (by rw [← this]; exact e)⟩

/-- C34 at the pointer example: `uiProcess` on `pushEx`, where button 0 is down, ends in
state Capture, and `uiProcess` on `dropEx`, where button 0 is up, ends in state Idle. -/
theorem state_tracks_button_witness :
    uiProcess pushEx = .ok (heldEx, [⟨1, UI_BUTTON0_DOWN⟩]) ∧ uiGetButton pushEx 0 = 1 ∧
    heldEx.state = .UI_STATE_CAPTURE ∧
    uiProcess dropEx = .ok (droppedEx, [⟨1, UI_BUTTON0_UP⟩]) ∧ uiGetButton dropEx 0 = 0 ∧
    droppedEx.state = .UI_STATE_IDLE :=
  ⟨by decide, by decide,
    (state_tracks_button pushEx heldEx [⟨1, UI_BUTTON0_DOWN⟩] (by decide)).1.2 (by decide),
    by decide, by decide,
    (state_tracks_button dropEx droppedEx [⟨1, UI_BUTTON0_UP⟩] (by decide)).2.1.2 (by decide)⟩

/-- C35: no active item while idle. In every context reached from the fresh context made
current by API calls (`uiClear`, declarations, `uiSetHandle`, input setters, `uiProcess`), if
the state is Idle then the active item is -1, the active handle is 0, and `uiGetState` returns
Active for no item. In particular, if button 0 is up and `uiProcess` returns, the state
afterwards is Idle and `uiGetState` returns Active for no item. -/
theorem idle_has_no_active_item (calls : List UIcall) (c : UIcontext)
    (h : uiCalls (uiMakeCurrent uiCreateContext) calls = .ok c) :
    (c.state = .UI_STATE_IDLE →
      c.active_item = -1 ∧ c.active_handle = 0 ∧
      ∀ item, uiGetState c item ≠ .ok UI_ACTIVE) ∧
    ∀ (c' : UIcontext) (evs : List UIdispatch), uiGetButton c 0 = 0 →
      uiProcess c = .ok (c', evs) →
      c'.state = .UI_STATE_IDLE ∧ c'.active_item = -1 ∧ c'.active_handle = 0 ∧
      ∀ item, uiGetState c' item ≠ .ok UI_ACTIVE := by
  have inv : IdleClean c :=
    uiCalls_invariant IdleClean (fun c call c' hc hcall => IdleClean_uiCall hc hcall)
      calls _ c IdleClean_fresh h
  constructor
  · intro hs
    obtain ⟨a, b⟩ := inv hs
    exact ⟨a, b, uiGetState_not_active a⟩
  · intro c' evs hb hp
    have hcall : uiCall c .process = .ok c' := by
      simp only [uiCall, hp, Except.map]
    have inv' := IdleClean_uiCall inv hcall
    obtain ⟨s, -, -, -, -⟩ := uiProcess_ctx hp
    have hs : c'.state = .UI_STATE_IDLE := by
      cases hs : c'.state with
      | UI_STATE_IDLE => rfl
      | UI_STATE_CAPTURE => exact absurd hb (s.1 hs)
    obtain ⟨a, b⟩ := inv' hs
    exact ⟨hs, a, b, uiGetState_not_active a⟩

/-- C35 at the pointer example: `overEx` is reached by `pointerCalls`, button 0 is up,
and after `uiProcess` the state is Idle, the active item is -1, the active handle is 0 and no
item is reported Active. -/
theorem idle_has_no_active_item_witness :
    uiCalls (uiMakeCurrent uiCreateContext) pointerCalls = .ok overEx ∧
    uiGetButton overEx 0 = 0 ∧ uiProcess overEx = .ok (idleEx, []) ∧
    idleEx.state = .UI_STATE_IDLE ∧ idleEx.active_item = -1 ∧ idleEx.active_handle = 0 ∧
    ∀ item, uiGetState idleEx item ≠ .ok UI_ACTIVE :=
  ⟨by decide, by decide, by decide,
    (idle_has_no_active_item pointerCalls overEx (by decide)).2 idleEx [] (by decide)
      (by decide)⟩

/-! ### The data buffer (C37) -/

theorem datasize_modify (c : UIcontext) (p : Nat) (f : UIitem → UIitem) :
    (c.modify p f).datasize = c.datasize := rfl

/-- a modification that leaves the field `data` alone -/
theorem data_modify (c : UIcontext) (p q : Nat) (f : UIitem → UIitem)
    (hf : ∀ i, (f i).data = i.data) : ((c.modify p f).get q).data = (c.get q).data :=
  get_modify_field UIitem.data c p q f hf

theorem data_uiAttached (c : UIcontext) (item parent : Int) (q : Nat) :
    ((uiAttached c item parent).get q).data = (c.get q).data ∧
    (uiAttached c item parent).datasize = c.datasize := by
  unfold uiAttached
  simp only
  split
  · refine ⟨?_, by simp only [datasize_modify]⟩
    refine (data_modify _ _ q _ ?_).trans ((data_modify _ _ q _ ?_).trans
      ((data_modify _ _ q _ ?_).trans ((data_modify _ _ q _ ?_).trans
        (data_modify _ _ q _ ?_)))) <;> intro i <;> rfl
  · refine ⟨?_, by simp only [datasize_modify]⟩
    refine (data_modify _ _ q _ ?_).trans ((data_modify _ _ q _ ?_).trans
      ((data_modify _ _ q _ ?_).trans ((data_modify _ _ q _ ?_).trans
        (data_modify _ _ q _ ?_)))) <;> intro i <;> rfl

theorem uiProcessHandles_datasize {cs c1 : UIcontext} (h : uiProcessHandles cs = .ok c1) :
    c1.datasize = cs.datasize := by
  unfold uiProcessHandles at h
  simp only at h
  repeat' split at h
  all_goals first | cases h; done | (injection h with h; rw [← h])

theorem data_of_decl {i j : UIitem} (h : i.decl = j.decl) : i.data = j.data := by
  have := congrArg UIitem.data h
  exact this

/-- a call other than `uiClear` and `uiAllocData` keeps the data offsets of the items and the
number of bytes in use -/
theorem data_uiCall {c c' : UIcontext} {call : UIcall} (h : uiCall c call = .ok c')
    (h1 : call ≠ .clear) (h2 : ∀ i s, call ≠ .allocData i s) :
    c'.datasize = c.datasize ∧ c.count ≤ c'.count ∧
      ∀ q, q < c.count → (c'.get q).data = (c.get q).data := by
  have one : ∀ (p : Nat) (f : UIitem → UIitem), (∀ i, (f i).data = i.data) →
      (c.modify p f).datasize = c.datasize ∧ c.count ≤ (c.modify p f).count ∧
        ∀ q, q < c.count → ((c.modify p f).get q).data = (c.get q).data :=
    fun p f hf => ⟨rfl, le_of_eq (count_modify _ _ _).symm, fun q _ => data_modify c p q f hf⟩
  cases call with
  | clear => exact absurd rfl h1
  | allocData i s => exact absurd rfl (h2 i s)
  | item =>
    simp only [uiCall, uiItem] at h
    split at h
    · simp only [Except.map] at h
      injection h with h
      subst h
      refine ⟨rfl, ?_, ?_⟩
      · show c.items.length ≤ (c.items ++ [UIitem.fresh]).length
        simp
      · intro q hq
        rw [get_uiItem, if_pos hq]
    · simp [Except.map] at h
  | setParent item parent =>
    simp only [uiCall] at h
    obtain ⟨-, -, -, -, -, e⟩ := uiSetParent_inv h
    subst e
    exact ⟨(data_uiAttached c item parent 0).2, le_of_eq (count_uiAttached _ _ _).symm,
      fun q _ => (data_uiAttached c item parent q).1⟩
  | setSize item w hh =>
    simp only [uiCall, uiSetSize, bind, Except.bind, pure, Except.pure] at h
    split at h
    · cases h
    · injection h with h; rw [← h]; exact one _ _ (fun _ => rfl)
  | setLayout item flags =>
    simp only [uiCall, uiSetLayout, bind, Except.bind, pure, Except.pure] at h
    split at h
    · cases h
    · injection h with h; rw [← h]; exact one _ _ (fun _ => rfl)
  | setMargins item l t r b =>
    simp only [uiCall, uiSetMargins, bind, Except.bind, pure, Except.pure] at h
    split at h
    · cases h
    · injection h with h; rw [← h]; exact one _ _ (fun _ => rfl)
  | setRelativeTo item l t r b =>
    simp only [uiCall, uiSetRelativeTo, bind, Except.bind, pure, Except.pure] at h
    split at h
    · cases h
    · injection h with h; rw [← h]; exact one _ _ (fun _ => rfl)
  | setHandle item handle =>
    simp only [uiCall] at h
    have hi := uiSetHandle_items h
    have hds : c'.datasize = c.datasize := by
      simp only [uiSetHandle, bind, Except.bind, pure, Except.pure] at h
      repeat' split at h
      all_goals first | cases h; done | (injection h with h; subst h; rfl)
    refine ⟨hds, ?_, ?_⟩
    · rw [count_of_items hi, count_modify]
    · intro q _
      rw [get_of_items hi]
      exact data_modify c _ q _ (fun _ => rfl)
  | setHandler item handler flags =>
    simp only [uiCall, uiSetHandler, bind, Except.bind, pure, Except.pure] at h
    split at h
    · cases h
    · injection h with h; rw [← h]
      refine ⟨rfl, le_of_eq ((count_modify _ _ _).trans (count_modify _ _ _)).symm, fun q _ => ?_⟩
      refine (data_modify _ _ q _ ?_).trans (data_modify _ _ q _ ?_) <;> intro i <;> rfl
  | setButton button enabled =>
    simp only [uiCall] at h
    injection h with h; rw [← h]; exact ⟨rfl, le_refl _, fun _ _ => rfl⟩
  | setCursor x y =>
    simp only [uiCall] at h
    injection h with h; rw [← h]; exact ⟨rfl, le_refl _, fun _ _ => rfl⟩
  | process =>
    simp only [uiCall, Except.map] at h
    split at h
    · cases h
    · rename_i r hr
      injection h with h
      obtain ⟨cl, -, hi, hd⟩ := uiProcess_items (show uiProcess c = .ok (r.1, r.2) from hr)
      obtain ⟨cl', hot, cs, k1, -, k3, k4⟩ := uiProcess_inv (show uiProcess c = .ok (r.1, r.2) from hr)
      rw [← h]
      refine ⟨?_, ?_, ?_⟩
      · rw [uiProcessHandles_datasize k4, (uiProcessState_inv k3).2.2.2.2.1]
        exact (ctx_of_decl (decl_uiProcessLayout k1)).2.2.2.2.2.2.2.2.2.2
      · rw [count_of_items hi, count_of_decl hd]
      · intro q _
        rw [get_of_items hi]
        exact data_of_decl (get_decl_of_decl hd q)

theorem offsetOf_succ (l : List (Int × Int)) (i : Nat) :
    offsetOf l (i + 1) = offsetOf l i + ((l[i]?).map Prod.snd).getD 0 := by
  unfold offsetOf
  rw [List.take_succ]
  cases h : l[i]? with
  | none => simp
  | some x => simp

theorem offsetOf_append (l m : List (Int × Int)) (i : Nat) (h : i ≤ l.length) :
    offsetOf (l ++ m) i = offsetOf l i := by
  unfold offsetOf
  rw [List.take_append_of_le_length h]

theorem offsetOf_le_succ (l : List (Int × Int)) (hpos : ∀ x ∈ l, 0 < x.2) (i : Nat) :
    offsetOf l i ≤ offsetOf l (i + 1) := by
  rw [offsetOf_succ]
  cases h : l[i]? with
  | none => simp
  | some x =>
    have := hpos x (List.getElem?_mem h)
    simp only [Option.map_some', Option.getD_some]
    omega

theorem offsetOf_mono (l : List (Int × Int)) (hpos : ∀ x ∈ l, 0 < x.2) (i j : Nat)
    (h : i ≤ j) : offsetOf l i ≤ offsetOf l j := by
  induction j with
  | zero =>
    have : i = 0 := by omega
    rw [this]
  | succ j ih =>
    by_cases e : i = j + 1
    · rw [e]
    · exact le_trans (ih (by omega)) (offsetOf_le_succ l hpos j)

theorem offsetOf_zero (l : List (Int × Int)) : offsetOf l 0 = 0 := by
  unfold offsetOf
  simp

/-- an allocation ends before every later one begins -/
theorem offsetOf_lt (l : List (Int × Int)) (hpos : ∀ x ∈ l, 0 < x.2) (i j : Nat)
    (item s : Int) (hi : l[i]? = some (item, s)) (h : i < j) :
    offsetOf l i + s ≤ offsetOf l j := by
  have h1 : offsetOf l (i + 1) = offsetOf l i + s := by
    rw [offsetOf_succ, hi]
    rfl
  rw [← h1]
  exact offsetOf_mono l hpos _ _ h

theorem DataInv.pos {c : UIcontext} {log : List (Int × Int)} (h : DataInv c log) :
    ∀ x ∈ log, 0 < x.2 := by
  intro x hx
  obtain ⟨i, hi⟩ := List.getElem?_of_mem hx
  exact (h.entry i x.1 x.2 hi).2.2.1

theorem DataInv_uiClear (c : UIcontext) : DataInv (uiClear c) [] :=
  ⟨rfl, by show (0 : Int) ≤ UI_MAX_BUFFERSIZE; decide, fun i item s h => by simp at h⟩

theorem allocations_cons (call : UIcall) (rest : List UIcall) :
    allocations (call :: rest) = allocations [call] ++ allocations rest := by
  cases call <;> rfl

theorem DataInv_uiCall {c : UIcontext} {log : List (Int × Int)} {call : UIcall}
    {c' : UIcontext} (h : DataInv c log) (hne : call ≠ .clear) (hc : uiCall c call = .ok c') :
    DataInv c' (log ++ allocations [call]) := by
  by_cases ha : ∃ i s, call = .allocData i s
  · obtain ⟨item, size, rfl⟩ := ha
    simp only [uiCall] at hc
    obtain ⟨-, -, -, -, hex, hres⟩ := alloc_data c item size
    obtain ⟨⟨hs0, hs1⟩, ⟨hi0, hi1⟩, hd, hb⟩ := hex.1 ⟨c', hc⟩
    obtain ⟨r1, r2, r3, r4, -⟩ := hres c' hc
    have hlog : allocations [UIcall.allocData item size] = [(item, size)] := rfl
    rw [hlog]
    have hpos : ∀ x ∈ log ++ [(item, size)], 0 < x.2 := by
      intro x hx
      rcases List.mem_append.1 hx with hx | hx
      · exact h.pos x hx
      · simp only [List.mem_singleton] at hx
        rw [hx]; exact hs0
    have hfull : offsetOf (log ++ [(item, size)]) log.length = c.datasize := by
      rw [offsetOf_append _ _ _ (le_refl _)]
      exact h.size.symm
    refine ⟨?_, ?_, ?_⟩
    · rw [r2, List.length_append, List.length_singleton, offsetOf_succ, hfull]
      simp
    · rw [r2]; exact hb
    · intro i it s hi
      by_cases hlt : i < log.length
      · rw [List.getElem?_append_left hlt] at hi
        obtain ⟨e1, e2, e3, e4, e5⟩ := h.entry i it s hi
        have hne : it.toNat ≠ item.toNat := by
          intro e
          rw [e] at e5
          have := offsetOf_mono log h.pos 0 i (Nat.zero_le _)
          rw [offsetOf_zero] at this
          omega
        refine ⟨e1, by rw [r3]; exact e2, e3, e4, ?_⟩
        rw [r4 _ hne, e5, offsetOf_append _ _ _ (le_of_lt hlt)]
      · have hi' := hi
        rw [List.getElem?_append_right (by omega)] at hi'
        have hz : i - log.length = 0 := by
          by_contra hz
          rw [List.getElem?_eq_none (by simp; omega)] at hi'
          cases hi'
        rw [hz] at hi'
        simp only [List.getElem?_cons_zero, Option.some.injEq, Prod.mk.injEq] at hi'
        obtain ⟨rfl, rfl⟩ := hi'
        have hil : i = log.length := by omega
        subst hil
        exact ⟨hi0, by rw [r3]; exact hi1, hs0, hs1, by rw [r1, hfull]⟩
  · have hlog : allocations [call] = [] := by
      cases call <;> first | rfl | exact absurd ⟨_, _, rfl⟩ ha
    rw [hlog, List.append_nil]
    obtain ⟨d1, d2, d3⟩ := data_uiCall hc hne (fun i s e => ha ⟨i, s, e⟩)
    refine ⟨by rw [d1]; exact h.size, by rw [d1]; exact h.bound, ?_⟩
    intro i it s hi
    obtain ⟨e1, e2, e3, e4, e5⟩ := h.entry i it s hi
    have hlt : it.toNat < c.count := by omega
    exact ⟨e1, by omega, e3, e4, by rw [d3 _ hlt]; exact e5⟩

theorem DataInv_uiCalls :
    ∀ (calls : List UIcall) (c : UIcontext) (log : List (Int × Int)) (c' : UIcontext),
      DataInv c log → UIcall.clear ∉ calls → uiCalls c calls = .ok c' →
      DataInv c' (log ++ allocations calls) := by
  intro calls
  induction calls with
  | nil =>
    intro c log c' h _ hc
    simp only [uiCalls] at hc
    injection hc with hc
    subst hc
    simpa [allocations] using h
  | cons call rest ih =>
    intro c log c' h hn hc
    simp only [uiCalls] at hc
    split at hc
    · cases hc
    · rename_i c1 h1
      have s1 := DataInv_uiCall h (fun e => hn (by simp [e])) h1
      have s2 := ih c1 _ c' s1 (fun e => hn (by simp [e])) hc
      rw [allocations_cons, ← List.append_assoc]
      exact s2

/-- C37: data blobs never overlap. Let `c` be reached from `uiClear` by calls none of which
is `uiClear`, all successful, and let `allocations calls` list the item and the size of every
`uiAllocData` call, in order. Then the number of bytes in use is the sum of the sizes, it lies
between 0 and `UI_MAX_BUFFERSIZE`, and no item allocates twice. Allocation number `i`, of
item `item` and size `s > 0`, has its offset, the field `data` of the item, equal to the sum
of the sizes of the allocations before it, and `0 ≤ offset` and `offset + s ≤` bytes in use.
For `i < j` the items are distinct, allocation `i` ends at or before the offset of allocation
`j`, and the offset of `i` is strictly below that of `j`. -/
theorem data_blobs_disjoint (c0 : UIcontext) (calls : List UIcall) (c : UIcontext)
    (hno : UIcall.clear ∉ calls) (h : uiCalls (uiClear c0) calls = .ok c) :
    c.datasize = offsetOf (allocations calls) (allocations calls).length ∧
    0 ≤ c.datasize ∧ c.datasize ≤ UI_MAX_BUFFERSIZE ∧
    ((allocations calls).map Prod.fst).Nodup ∧
    (∀ (i : Nat) (item s : Int), (allocations calls)[i]? = some (item, s) →
      0 ≤ item ∧ item < c.count ∧ 0 < s ∧
      (c.get item.toNat).data = offsetOf (allocations calls) i ∧
      0 ≤ offsetOf (allocations calls) i ∧
      offsetOf (allocations calls) i + s ≤ c.datasize) ∧
    ∀ (i j : Nat) (item1 s1 item2 s2 : Int), i < j →
      (allocations calls)[i]? = some (item1, s1) →
      (allocations calls)[j]? = some (item2, s2) →
      item1 ≠ item2 ∧ (c.get item1.toNat).data < (c.get item2.toNat).data ∧
      (c.get item1.toNat).data + s1 ≤ (c.get item2.toNat).data := by
  have inv := DataInv_uiCalls calls _ [] c (DataInv_uiClear c0) hno h
  rw [List.nil_append] at inv
  have hpos := inv.pos
  have h0 : ∀ i, 0 ≤ offsetOf (allocations calls) i := by
    intro i
    have := offsetOf_mono _ hpos 0 i (Nat.zero_le _)
    rwa [offsetOf_zero] at this
  have pair : ∀ (i j : Nat) (item1 s1 item2 s2 : Int), i < j →
      (allocations calls)[i]? = some (item1, s1) →
      (allocations calls)[j]? = some (item2, s2) →
      item1 ≠ item2 ∧ (c.get item1.toNat).data < (c.get item2.toNat).data ∧
      (c.get item1.toNat).data + s1 ≤ (c.get item2.toNat).data := by
    intro i j item1 s1 item2 s2 hij h1 h2
    obtain ⟨-, -, p1, -, d1⟩ := inv.entry i item1 s1 h1
    obtain ⟨-, -, -, -, d2⟩ := inv.entry j item2 s2 h2
    have hlt := offsetOf_lt _ hpos i j item1 s1 h1 hij
    refine ⟨?_, by rw [d1, d2]; omega, by rw [d1, d2]; exact hlt⟩
    intro e
    rw [e] at d1
    omega
  refine ⟨inv.size, ?_, inv.bound, ?_, ?_, pair⟩
  · rw [inv.size]; exact h0 _
  · rw [List.nodup_iff_getElem?_ne_getElem?]
    intro i j hij hj e
    rw [List.length_map] at hj
    have hi : i < (allocations calls).length := by omega
    rw [List.getElem?_map, List.getElem?_map, List.getElem?_eq_getElem hi,
      List.getElem?_eq_getElem hj] at e
    simp only [Option.map_some', Option.some.injEq] at e
    exact (pair i j _ _ _ _ hij (List.getElem?_eq_getElem hi) (List.getElem?_eq_getElem hj)).1 e
  · intro i item s hi
    obtain ⟨e1, e2, e3, -, e5⟩ := inv.entry i item s hi
    refine ⟨e1, e2, e3, e5, h0 i, ?_⟩
    rw [inv.size]
    have hlen : i < (allocations calls).length := by
      by_contra hge
      rw [List.getElem?_eq_none (by omega)] at hi
      cases hi
    exact offsetOf_lt _ hpos i _ item s hi hlen

/-- C37 at an example: `blobCalls` allocates 16 bytes for item 2, 8 for the root and 100
for item 1; the offsets are 0, 16 and 24, and 124 bytes are in use. -/
theorem data_blobs_disjoint_witness :
    uiCalls (uiClear uiCreateContext) blobCalls = .ok blobEx ∧
    allocations blobCalls = [(2, 16), (0, 8), (1, 100)] ∧
    (blobEx.get 2).data = 0 ∧ (blobEx.get 0).data = 16 ∧ (blobEx.get 1).data = 24 ∧
    blobEx.datasize = 124 ∧
    ∀ (i j : Nat) (item1 s1 item2 s2 : Int), i < j →
      (allocations blobCalls)[i]? = some (item1, s1) →
      (allocations blobCalls)[j]? = some (item2, s2) →
      item1 ≠ item2 ∧ (blobEx.get item1.toNat).data < (blobEx.get item2.toNat).data ∧
      (blobEx.get item1.toNat).data + s1 ≤ (blobEx.get item2.toNat).data :=
  ⟨by decide, by decide, by decide, by decide, by decide, by decide,
    (data_blobs_disjoint uiCreateContext blobCalls blobEx (by decide) (by decide)).2.2.2.2.2⟩

/-! ### Soundness of the hit test (C38) -/

theorem uiInside_iff (r : UIrect) (x y : Int) : uiInside r x y ↔ inRect r x y := by
  unfold uiInside inRect
  constructor
  · rintro ⟨a, b, c, d⟩; exact ⟨by omega, by omega, by omega, by omega⟩
  · rintro ⟨a, b, c, d⟩; exact ⟨by omega, by omega, by omega, by omega⟩

/-- the tree read off from an index is determined by the context -/
theorem IsForest_unique {c : UIcontext} :
    ∀ (t1 t2 : KTree) (kid : Int), IsForest c kid t1 → IsForest c kid t2 → t1 = t2 := by
  intro t1
  induction t1 with
  | nil =>
    intro t2 kid h1 h2
    cases t2 with
    | nil => rfl
    | node i kids next =>
      simp only [IsForest] at h1 h2
      omega
  | node i kids next ih1 ih2 =>
    intro t2 kid h1 h2
    cases t2 with
    | nil =>
      simp only [IsForest] at h1 h2
      omega
    | node j kids2 next2 =>
      simp only [IsForest] at h1 h2
      obtain ⟨a1, -, -, a4, a5⟩ := h1
      obtain ⟨b1, -, -, b4, b5⟩ := h2
      have e : i = j := by omega
      subst e
      rw [ih1 kids2 _ a4 b4, ih2 next2 _ a5 b5]

/-- a sibling list in which the hit test finds nothing has no item containing the point -/
theorem hit_none (c : UIcontext) :
    ∀ (t : KTree) (x y : Int), t.hit c x y = none →
      ∀ k ∈ t.roots, ¬ inRect (c.get k).rect x y := by
  intro t
  induction t with
  | nil => intro x y _ k hk; simp [KTree.roots] at hk
  | node i kids next _ ih2 =>
    intro x y h k hk
    simp only [KTree.hit] at h
    split at h
    · cases h
    · rename_i hin
      simp only [KTree.roots, List.mem_cons] at hk
      rcases hk with rfl | hk
      · exact fun hx => hin ((uiInside_iff _ _ _).2 hx)
      · exact ih2 x y h k hk

/-- the hit of a sibling list lies at the end of a path of nested rects below the list -/
theorem hit_some (c : UIcontext) :
    ∀ (t : KTree) (kid : Int) (x y : Int) (r : Int), IsForest c kid t →
      t.hit c x y = some r →
      ∃ (a : Nat) (path : List Nat), a ∈ t.roots ∧ (a :: path).getLast? = some r.toNat ∧
        0 < r ∧ r.toNat ∈ t.indices ∧ HitPath c (a :: path) x y ∧
        ∀ k, ChildOf c r.toNat k →
          ¬ inRect (c.get k).rect (translated c (a :: path) x y).1
            (translated c (a :: path) x y).2 := by
  intro t
  induction t with
  | nil => intro kid x y r _ h; simp [KTree.hit] at h
  | node i kids next ih1 ih2 =>
    intro kid x y r hf h
    simp only [IsForest] at hf
    obtain ⟨-, hi0, hic, hkids, hnext⟩ := hf
    simp only [KTree.hit] at h
    split at h
    · rename_i hin
      have hin' := (uiInside_iff _ _ _).1 hin
      injection h with h
      cases hk : kids.hit c (x - (c.get i).rect.x) (y - (c.get i).rect.y) with
      | none =>
        rw [hk] at h
        simp only [Option.getD_none] at h
        subst h
        refine ⟨i, [], by simp [KTree.roots], by simp, by omega, by simp [KTree.indices],
          hin', ?_⟩
        intro k hc
        obtain ⟨ks, hks, hmem⟩ := hc
        rw [Int.toNat_ofNat] at hks
        have := IsForest_unique _ _ _ hks hkids
        subst this
        simp only [translated]
        exact hit_none c _ _ _ hk k hmem
      | some r' =>
        rw [hk] at h
        simp only [Option.getD_some] at h
        subst h
        obtain ⟨a, path, h1, h2, h3, h4, h5, h6⟩ := ih1 _ _ _ _ hkids hk
        refine ⟨i, a :: path, by simp [KTree.roots], ?_, h3, ?_, ?_, ?_⟩
        · rw [List.getLast?_cons_cons]; exact h2
        · simp only [KTree.indices, List.mem_cons, List.mem_append]
          exact Or.inr (Or.inl h4)
        · exact ⟨hin', ⟨kids, hkids, h1⟩, h5⟩
        · intro k hc
          simp only [translated] at h6 ⊢
          exact h6 k hc
    · obtain ⟨a, path, h1, h2, h3, h4, h5, h6⟩ := ih2 _ _ _ _ hnext h
      refine ⟨a, path, by simp [KTree.roots, h1], h2, h3, ?_, h5, h6⟩
      simp only [KTree.indices, List.mem_cons, List.mem_append]
      exact Or.inr (Or.inr h4)

/-- C38: soundness of the hit test. In a hierarchy, if `uiFindItem(0, x, y)` returns an
item `r ≥ 0`, then `r` is the root or an item of the tree, and there is a path from the root
down to `r`, each item a child of the one before, such that the rect of every item of the
path, `r` included, contains the point translated by the rect origins of the items before it
(`x0 ≤ x < x0 + w` and `y0 ≤ y < y0 + h`), and no child of `r` contains the point translated
by the origins of all items of the path. -/
theorem hit_test_sound (c : UIcontext) (t : KTree) (h : Hierarchy c t) (x y r : Int)
    (hr : uiFindItem (uiFuel c) c 0 x y = .ok r) (h0 : 0 ≤ r) :
    (r = 0 ∨ r.toNat ∈ t.indices) ∧
    ∃ path : List Nat, (0 :: path).getLast? = some r.toNat ∧ HitPath c (0 :: path) x y ∧
      ∀ k, ChildOf c r.toNat k →
        ¬ inRect (c.get k).rect (translated c (0 :: path) x y).1
          (translated c (0 :: path) x y).2 := by
  have hfuel : t.need < uiFuel c := Hierarchy.need_lt h
  have he : uiFindItem (uiFuel c) c 0 x y = _ :=
    uiFindItem_eq_hit c 0 t x y (uiFuel c) h.root h.forest hfuel
  rw [he] at hr
  injection hr with hr
  split at hr
  · rename_i hin
    have hin' := (uiInside_iff _ _ _).1 hin
    cases hk : t.hit c (x - (c.get 0).rect.x) (y - (c.get 0).rect.y) with
    | none =>
      rw [hk] at hr
      simp only [Option.getD_none] at hr
      subst hr
      refine ⟨Or.inl rfl, [], by simp, hin', ?_⟩
      intro k hc
      obtain ⟨ks, hks, hmem⟩ := hc
      have : ks = t := IsForest_unique _ _ _ hks h.forest
      subst this
      simp only [translated]
      exact hit_none c _ _ _ hk k hmem
    | some r' =>
      rw [hk] at hr
      simp only [Option.getD_some] at hr
      subst hr
      obtain ⟨a, path, h1, h2, h3, h4, h5, h6⟩ := hit_some c t _ _ _ _ h.forest hk
      refine ⟨Or.inr h4, a :: path, ?_, ⟨hin', ⟨t, h.forest, h1⟩, h5⟩, ?_⟩
      · rw [List.getLast?_cons_cons]; exact h2
      · intro k hc
        simp only [translated] at h6 ⊢
        exact h6 k hc
  · omega

/-- C38 at the pointer example: in `idleEx` the hit test for (15, 15) returns item 1,
whose rect (10, 10, 20, 20) contains the point; the path is the root followed by item 1. -/
theorem hit_test_sound_witness :
    uiGetRect idleEx 0 = .ok ⟨0, 0, 100, 100⟩ ∧ uiGetRect idleEx 1 = .ok ⟨10, 10, 20, 20⟩ ∧
    uiFindItem (uiFuel idleEx) idleEx 0 15 15 = .ok 1 ∧
    ∃ path : List Nat, (0 :: path).getLast? = some (1 : Int).toNat ∧
      HitPath idleEx (0 :: path) 15 15 ∧
      ∀ k, ChildOf idleEx (1 : Int).toNat k →
        ¬ inRect (idleEx.get k).rect (translated idleEx (0 :: path) 15 15).1
          (translated idleEx (0 :: path) 15 15).2 :=
  ⟨by decide, by decide, by decide,
    (hit_test_sound idleEx oneChild ⟨by decide, by decide, by decide⟩ 15 15 1 (by decide)
      (by decide)).2⟩

/-! ### An auto-sized root encloses its chains (C33) -/

/-- the loop of `uiComputeSizeDim` only raises the running maximum -/
theorem sizeDimKids_ge (dim : Nat) :
    ∀ (n : Nat) (c : UIcontext) (kid s : Int) (c' : UIcontext) (s' : Int),
      uiComputeSizeDimKids dim n c kid s = .ok (c', s') → s ≤ s' := by
  intro n
  induction n with
  | zero => intro c kid s c' s' h; simp [uiComputeSizeDimKids] at h
  | succ n ih =>
    intro c kid s c' s' h
    rcases uiComputeSizeDimKids_inv h with ⟨-, -, e⟩ | ⟨-, p, -, hx⟩
    · rw [e]
    · rcases hx with ⟨-, c1, chain, -, h2⟩ | ⟨-, h2⟩
      · have := ih _ _ _ _ _ h2
        rw [ui_max_eq] at this
        exact le_trans (le_max_left _ _) this
      · exact ih _ _ _ _ _ h2

/-- `uiComputeSizeDim` gives an item with a non-negative size hint a non-negative extent -/
theorem sizeDim_nonneg {n : Nat} {c : UIcontext} {p dim : Nat} {c' : UIcontext} (hd : dim < 2)
    (hp : p < c.count) (h : uiComputeSizeDim n c p dim = .ok c')
    (hh : 0 ≤ (c.get p).size.v dim) : 0 ≤ (c'.get p).rect.v (dim + 2) := by
  rcases uiComputeSizeDim_inv h with ⟨-, rfl⟩ | ⟨-, c1, size, h1, rfl⟩
  · rw [get_modify_self _ _ _ hp]
    show 0 ≤ ((c.get p).rect.setV (dim + 2) ((c.get p).size.v dim)).v (dim + 2)
    rw [rect_setV_v _ _ _ _ (by omega) (by omega), if_pos rfl]
    exact hh
  · have hc1 : p < c1.count := by
      rw [count_of_decl (decl_uiComputeSizeDimKids _ _ _ _ _ _ _ h1)]; exact hp
    rw [get_modify_self _ _ _ hc1]
    show 0 ≤ ((c1.get p).rect.setV (dim + 2) size).v (dim + 2)
    rw [rect_setV_v _ _ _ _ (by omega) (by omega), if_pos rfl]
    exact sizeDimKids_ge dim _ _ _ _ _ _ h1

/-- after the size pass every item it visits that has a non-negative size hint in a dimension
has a non-negative extent in that dimension -/
theorem nonneg_uiComputeBestSize :
    ∀ (n : Nat),
      (∀ (c : UIcontext) (p : Nat) (ks : KTree) (c' : UIcontext),
        uiComputeBestSize n c (p : Int) = .ok c' → IsForest c (c.get p).firstkid ks →
        p ∉ ks.indices → ks.indices.Nodup →
        ∀ q, q = p ∨ q ∈ ks.indices → ∀ dim, dim < 2 → 0 ≤ (c.get q).size.v dim →
          0 ≤ (c'.get q).rect.v (dim + 2)) ∧
      (∀ (c : UIcontext) (kid : Int) (t : KTree) (c' : UIcontext),
        uiComputeBestSizeKids n c kid = .ok c' → IsForest c kid t → t.indices.Nodup →
        ∀ q ∈ t.indices, ∀ dim, dim < 2 → 0 ≤ (c.get q).size.v dim →
          0 ≤ (c'.get q).rect.v (dim + 2)) := by
  intro n
  induction n with
  | zero =>
    exact ⟨fun c p ks c' h => by simp [uiComputeBestSize] at h,
      fun c kid t c' h => by simp [uiComputeBestSizeKids] at h⟩
  | succ n ih =>
    constructor
    · intro c p ks c' h hf hpk hnd q hq dim hdim hh
      obtain ⟨p', c0, c1, c2, hp, h0, h1, h2, h3⟩ := uiComputeBestSize_inv h
      have hpc := (uiItemPtr_ok hp).2.2.2
      have ep : p = p' := by have := (uiItemPtr_ok hp).2.2.1; omega
      subst ep
      have d0 : c0.decl = c.decl := by
        rw [h0]; exact decl_modify _ _ _ (fun i => decl_visited i _)
      have hf0 : IsForest c0 (c0.get p).firstkid ks := by
        rw [firstkid_of_decl d0]; exact IsForest_of_decl d0 _ _ hf
      have d1 : c1.decl = c.decl := ((decl_uiComputeBestSize _).2 _ _ _ h1).trans d0
      have d2 : c2.decl = c.decl := (decl_uiComputeSizeDim h2).trans d1
      have hd2 : dim = 0 ∨ dim = 1 := by omega
      rcases hq with hq | hq
      · subst hq
        rcases hd2 with rfl | rfl
        · rw [sizeDim_other (by omega : 1 < 2) h3 q 2 (by omega) (by omega)]
          exact sizeDim_nonneg (by omega : 0 < 2) (by rw [count_of_decl d1]; exact hpc) h2
            (by rw [size_of_decl d1]; exact hh)
        · exact sizeDim_nonneg (by omega : 1 < 2) (by rw [count_of_decl d2]; exact hpc) h3
            (by rw [size_of_decl d2]; exact hh)
      · have hne : q ≠ p := fun e => hpk (e ▸ hq)
        rw [rect_uiComputeSizeDim h3 q hne, rect_uiComputeSizeDim h2 q hne]
        exact ih.2 c0 _ ks c1 h1 hf0 hnd q hq dim hdim (by rw [size_of_decl d0]; exact hh)
    · intro c kid t c' h hf hnd q hq dim hdim hh
      cases t with
      | nil => simp [KTree.indices] at hq
      | node i kids next =>
        obtain ⟨hki, hi0, hic, hfk, hfn⟩ := hf
        rcases uiComputeBestSizeKids_inv h with ⟨h0, -⟩ | ⟨-, c1, h1, -, h2⟩
        · omega
        subst hki
        rw [Int.toNat_ofNat] at h2
        have d1 := (decl_uiComputeBestSize _).1 _ _ _ h1
        have f1 : IsForest c1 (c1.get i).nextitem next := by
          rw [nextitem_of_decl d1]; exact IsForest_of_decl d1 _ _ hfn
        simp only [KTree.indices, List.nodup_cons, List.mem_append, not_or,
          List.nodup_append] at hnd
        obtain ⟨⟨hik, hin⟩, hndk, hndn, hdis⟩ := hnd
        simp only [KTree.indices, List.mem_cons, List.mem_append] at hq
        have keep : q ∉ next.indices →
            (c'.get q).rect.v (dim + 2) = (c1.get q).rect.v (dim + 2) := by
          intro hx
          rw [(rect_uiComputeBestSize n).2 c1 _ next c' h2 f1 q hx]
        rcases hq with hq | hq | hq
        · subst hq
          rw [keep hin]
          exact ih.1 c q kids c1 h1 hfk hik hndk q (Or.inl rfl) dim hdim hh
        · rw [keep (fun hx => hdis hq hx)]
          exact ih.1 c i kids c1 h1 hfk hik hndk q (Or.inr hq) dim hdim hh
        · exact ih.2 c1 _ next c' h2 f1 hndn q hq dim hdim (by rw [size_of_decl d1]; exact hh)

/-- a list in which every item names an earlier item, read backwards -/
theorem Back_of_NearChained (c : UIcontext) (dim : Nat) :
    ∀ (l pre : List Nat), NearChained c dim pre l → Back c dim pre →
      Back c dim (l.reverse ++ pre) := by
  intro l
  induction l with
  | nil => intro pre _ hb; simpa using hb
  | cons k rest ih =>
    intro pre h hb
    simp only [NearChained] at h
    have hb' : Back c dim (k :: pre) := ⟨h.1, hb⟩
    have := ih (k :: pre) h.2 hb'
    simpa using this

/-- the running maximum is at least its start value and every value met -/
theorem foldl_max_ge (g : Nat → Int) :
    ∀ (l : List Nat) (init : Int),
      init ≤ l.foldl (fun m k => max m (g k)) init ∧
      ∀ k ∈ l, g k ≤ l.foldl (fun m k => max m (g k)) init := by
  intro l
  induction l with
  | nil => intro init; exact ⟨le_refl _, fun k hk => by simp at hk⟩
  | cons a rest ih =>
    intro init
    simp only [List.foldl_cons]
    obtain ⟨h1, h2⟩ := ih (max init (g a))
    refine ⟨le_trans (le_max_left _ _) h1, ?_⟩
    intro k hk
    rcases List.mem_cons.mp hk with hx | hx
    · rw [hx]; exact le_trans (le_max_right _ _) h1
    · exact h2 k hx

/-- along a chain of near neighbors the chain extent of an item is its far edge, and its
position is non-negative when the margins and extents below it are -/
theorem chain_far_edge (c c' : UIcontext) (dim : Nat)
    (hfld : ∀ q, (c'.get q).relto = (c.get q).relto ∧ (c'.get q).margins = (c.get q).margins) :
    ∀ (n : Nat) (k : Nat) (pre : List Nat), (k :: pre).length ≤ n → Back c dim (k :: pre) →
      (∀ q ∈ k :: pre, (c'.get q).rect.v dim =
        nearEdge c c' q dim + (c.get q).margins.v dim) →
      (∀ f, (k :: pre).length ≤ f →
        chainExtent c' dim f k = (c'.get k).rect.v dim + (c'.get k).rect.v (dim + 2)) ∧
      ((∀ q ∈ k :: pre, 0 ≤ (c.get q).margins.v dim ∧ 0 ≤ (c'.get q).rect.v (dim + 2)) →
        0 ≤ (c'.get k).rect.v dim) := by
  intro n
  induction n with
  | zero => intro k pre hl; simp at hl
  | succ n ih =>
    intro k pre hl hb hpl
    have hk := hpl k (List.mem_cons_self _ _)
    obtain ⟨⟨-, -, hrel⟩, hbp⟩ := hb
    rcases hrel with hrel | ⟨hrel0, hmem⟩
    · constructor
      · intro f hf
        obtain ⟨f', rfl⟩ : ∃ f', f = f' + 1 := ⟨f - 1, by simp at hf; omega⟩
        simp only [chainExtent]
        rw [(hfld k).1, (hfld k).2, hk]
        unfold nearEdge
        rw [if_pos hrel, if_neg (fun hx => hx hrel)]
        omega
      · intro hnn
        rw [hk]
        unfold nearEdge
        rw [if_pos hrel]
        have := (hnn k (List.mem_cons_self _ _)).1
        omega
    · have hne : (c.get k).relto.v dim ≠ -1 := by omega
      obtain ⟨pre', b1, b2, b3⟩ := Back_mem c dim pre _ hbp hmem
      have hl' : (((c.get k).relto.v dim).toNat :: pre').length ≤ n := by
        simp only [List.length_cons] at hl ⊢
        omega
      obtain ⟨i1, i2⟩ := ih _ pre' hl' b1
        (fun q hq => hpl q (List.mem_cons_of_mem _ (b3 q hq)))
      constructor
      · intro f hf
        obtain ⟨f', rfl⟩ : ∃ f', f = f' + 1 := ⟨f - 1, by simp at hf; omega⟩
        simp only [chainExtent]
        rw [(hfld k).1, (hfld k).2, if_pos hne, i1 f' (by
          simp only [List.length_cons] at hf ⊢
          omega), hk]
        unfold nearEdge
        rw [if_neg hne]
        omega
      · intro hnn
        have hn0 := i2 (fun q hq => hnn q (List.mem_cons_of_mem _ (b3 q hq)))
        have hnx := (hnn _ (List.mem_cons_of_mem _ hmem)).2
        have hm := (hnn k (List.mem_cons_self _ _)).1
        rw [hk]
        unfold nearEdge
        rw [if_neg hne]
        omega

/-- C33, amended: an auto-sized root encloses its chains. In a hierarchy whose neighbor
references are `-1` or earlier-created siblings, let the root have size hint 0 in dimension
`dim`, and let every child of the root be anchored in `dim` to the near side only and name as
near-side neighbor `-1` or a child of the root that comes before it in the child list. Then
`uiProcess` succeeds, and afterwards every child `k` of the root satisfies
`position k + extent k ≤ extent of the root`; it has `position k ≥ 0` if the near margins and
the size hints of all children of the root are non-negative in `dim`; and if it names a
near-side neighbor `n`, then `position k = position n + extent n + near margin of k`. -/
theorem auto_size_encloses (c : UIcontext) (t : KTree) (h : Hierarchy c t)
    (hpo : ParentOK c 0 t) (hs : SiblingRefs c) (hc : c.count ≤ UI_MAX_ITEMS)
    (hh : c.hot_item < c.count) (ha : c.active_item < c.count) (dim : Nat) (hdim : dim < 2)
    (hauto : (c.get 0).size.v dim = 0) (hnear : NearChained c dim [] t.roots) :
    ∃ c' evs, uiProcess c = .ok (c', evs) ∧
      ∀ k ∈ t.roots,
        (c'.get k).rect.v dim + (c'.get k).rect.v (dim + 2) ≤ (c'.get 0).rect.v (dim + 2) ∧
        ((∀ q ∈ t.roots, 0 ≤ (c.get q).margins.v dim ∧ 0 ≤ (c.get q).size.v dim) →
          0 ≤ (c'.get k).rect.v dim) ∧
        ((c.get k).relto.v dim ≠ -1 →
          (c'.get k).rect.v dim =
            (c'.get ((c.get k).relto.v dim).toNat).rect.v dim +
              (c'.get ((c.get k).relto.v dim).toNat).rect.v (dim + 2) +
              (c.get k).margins.v dim) := by
  obtain ⟨c', evs, s, cl, hp, hsz, hd, e, hpl, hkeep, -⟩ := anchor_run c t h hpo hs hc hh ha
  refine ⟨c', evs, hp, ?_⟩
  obtain ⟨cl2, hlay, hitems, hd2⟩ := uiProcess_items hp
  obtain ⟨s2, hsz2, hroot⟩ := root_keeps_extent h hpo hs hlay
  obtain ⟨s3, hsz3, hkeep3⟩ := layout_keeps hlay
  have es2 : s2 = s := by
    rw [hsz] at hsz2; injection hsz2 with hx; exact hx.symm
  have es3 : s3 = s := by
    rw [hsz] at hsz3; injection hsz3 with hx; exact hx.symm
  subst es2
  subst es3
  -- the extent of the root is the maximum chain extent
  have hmax : (c'.get 0).rect.v (dim + 2) = maxChain c' dim t.roots := by
    rw [get_of_items hitems, hroot dim hdim]
    exact auto_size_fold h hpo hs hdim hauto hnear hsz hd2 hitems hkeep3
  -- every child sits at its near edge plus its near margin
  have hfl : ∀ q ∈ t.roots, Int.land ((c.get q).layout_flags >>> dim) UI_LEFT ≠ 0 ∧
      Int.land ((c.get q).layout_flags >>> dim) UI_RIGHT = 0 := by
    have hb := Back_of_NearChained c dim t.roots [] hnear trivial
    rw [List.append_nil] at hb
    intro q hq
    obtain ⟨pre, b1, -, -⟩ := Back_mem c dim _ q hb (List.mem_reverse.mpr hq)
    exact ⟨b1.1.1, b1.1.2.1⟩
  have hpos : ∀ q ∈ t.roots, (c'.get q).rect.v dim =
      nearEdge c c' q dim + (c.get q).margins.v dim := by
    intro q hq
    have hqi := roots_sub_indices t q hq
    have hkc : q < c.count := (IsForest_range t _ h.forest q hqi).2
    have := placed_near hd hs hkc (ParentOK_attached t 0 hpo q hqi) hdim (hfl q hq).1
      (hfl q hq).2 (hpl q hqi dim hdim)
    unfold nearEdge at this ⊢
    simp only [e]
    exact this
  have hfld : ∀ q, (c'.get q).relto = (c.get q).relto ∧
      (c'.get q).margins = (c.get q).margins := by
    intro q
    have hf := decl_fields (get_decl_of_decl hd q)
    rw [e q]
    exact ⟨hf.2.1, hf.2.2.1⟩
  have hnd := roots_nodup t h.nodup
  have hlen : t.roots.length < c'.count := by
    have := length_le_of_nodup_range hnd
      (fun x hx => IsForest_range t _ h.forest x (roots_sub_indices t x hx))
    have hcnt : c'.count = c.count := (count_of_items hitems).trans (count_of_decl hd2)
    have := h.root
    omega
  have hb := Back_of_NearChained c dim t.roots [] hnear trivial
  rw [List.append_nil] at hb
  intro k hk
  obtain ⟨pre, b1, b2, b3⟩ := Back_mem c dim _ k hb (List.mem_reverse.mpr hk)
  have hsub : ∀ q ∈ k :: pre, q ∈ t.roots := fun q hq => List.mem_reverse.mp (b3 q hq)
  have hlk : (k :: pre).length ≤ c'.count := by
    simp only [List.length_cons, List.length_reverse] at b2 ⊢
    omega
  obtain ⟨v1, v2⟩ := chain_far_edge c c' dim hfld _ k pre (le_refl _) b1
    (fun q hq => hpos q (hsub q hq))
  refine ⟨?_, ?_, ?_⟩
  · rw [← v1 c'.count hlk, hmax]
    exact (foldl_max_ge (fun k => chainExtent c' dim c'.count k) t.roots 0).2 k hk
  · intro hnn
    apply v2
    intro q hq
    have hqr := hsub q hq
    have hqi := roots_sub_indices t q hqr
    refine ⟨(hnn q hqr).1, ?_⟩
    have hnf : Int.land ((c.get q).layout_flags >>> dim) UI_HFILL ≠ UI_HFILL := fun hx =>
      (((land_hfill_cases _).2.2.1).mp hx).2 (hfl q hqr).2
    rw [e q, hkeep q dim hdim hnf]
    have hroot0 : (0 : Nat) ∉ t.indices := fun hx => by
      have := (IsForest_range t _ h.forest 0 hx).1
      omega
    exact (nonneg_uiComputeBestSize (uiFuel c)).1 c 0 t _ hsz h.forest hroot0 h.nodup q
      (Or.inr hqi) dim hdim (hnn q hqr).2
  · intro hne
    rw [hpos k hk]
    unfold nearEdge
    rw [if_neg hne]

/-- C33 as stated fails, in two ways. In `maskEx` the root has no size hint and the
children 1 and 2 are anchored left only and name no neighbors; item 3, a child of item 2, is
anchored right and names item 1 as right neighbor, which makes the root skip item 1: after
`uiProcess` item 1 is at `x = 100` with width 10 and the root is 15 wide, so item 1 is not
enclosed. In `negEx`, a hierarchy with sibling references only and all margins zero, item 1
has the size hint -50 and item 2 names item 1 as left neighbor: after `uiProcess` item 2 is at
`x = 0 + (-50) + 0 = -50`, a negative position. -/
theorem auto_size_overflows :
    (uiCalls (uiMakeCurrent uiCreateContext) maskCalls = .ok maskEx ∧
      (maskEx.get 0).size.v 0 = 0 ∧ NearChained maskEx 0 [] maskTree.roots ∧
      maskTree.roots = [1, 2] ∧ uiProcess maskEx = .ok (maskDone, []) ∧
      (maskDone.get 1).rect.x = 100 ∧ (maskDone.get 1).rect.w = 10 ∧
      (maskDone.get 0).rect.w = 15 ∧
      ¬ (maskDone.get 1).rect.x + (maskDone.get 1).rect.w ≤ (maskDone.get 0).rect.w) ∧
    (uiCalls (uiMakeCurrent uiCreateContext) negCalls = .ok negEx ∧
      (negEx.get 0).size.v 0 = 0 ∧ NearChained negEx 0 [] twoKids.roots ∧
      twoKids.roots = [1, 2] ∧ Hierarchy negEx twoKids ∧ SiblingRefs negEx ∧
      (∀ q ∈ twoKids.roots, 0 ≤ (negEx.get q).margins.v 0) ∧
      uiProcess negEx = .ok (negDone, []) ∧
      (negDone.get 1).rect.w = -50 ∧ (negDone.get 2).rect.x = -50 ∧
      ¬ 0 ≤ (negDone.get 2).rect.x) := by
  have s1 : uiComputeBestSize (uiFuel negEx) negEx 0 = .ok negSized := by decide
  have s2 : (negSized.modify 0
      (fun i => { i with rect := { i.rect with x := i.margins.v 0 } })).modify 0
      (fun i => { i with rect := { i.rect with y := i.margins.v 1 } }) = negSized := by
    decide
  have s3 : (uiLayoutItem (uiFuel negSized) (uiFuel negSized) negSized 0).bind
      (fun cl => (uiProcessHot cl).bind (fun hot => (uiProcessState cl hot).bind (fun r =>
        (uiProcessHandles r.1).map (fun c' => (c', r.2))))) = .ok (negDone, []) := by decide
  have hneg : uiProcess negEx = .ok (negDone, []) := by
    rw [uiProcess_eq_bind, uiProcessLayout_of_sized s1 s2]
    exact s3
  exact ⟨⟨by decide, by decide, by decide, by decide, mask_run, by decide, by decide,
    by decide, by decide⟩, ⟨by decide, by decide, by decide, by decide,
    ⟨by decide, by decide, by decide⟩, by decide, by decide, hneg, by decide, by decide,
    by decide⟩⟩

/-- C33, amended, at the row example: in `rowEx` the root has no size hint and two children
anchored left only, the second naming the first as left neighbor; `uiProcess` succeeds and
both children end inside the width of the root, at non-negative positions, the second right
after the first. -/
theorem auto_size_encloses_witness :
    uiCalls (uiMakeCurrent uiCreateContext) rowCalls = .ok rowEx ∧
    ∃ c' evs, uiProcess rowEx = .ok (c', evs) ∧
      ∀ k ∈ twoKids.roots,
        (c'.get k).rect.v 0 + (c'.get k).rect.v (0 + 2) ≤ (c'.get 0).rect.v (0 + 2) ∧
        ((∀ q ∈ twoKids.roots, 0 ≤ (rowEx.get q).margins.v 0 ∧ 0 ≤ (rowEx.get q).size.v 0) →
          0 ≤ (c'.get k).rect.v 0) ∧
        ((rowEx.get k).relto.v 0 ≠ -1 →
          (c'.get k).rect.v 0 =
            (c'.get ((rowEx.get k).relto.v 0).toNat).rect.v 0 +
              (c'.get ((rowEx.get k).relto.v 0).toNat).rect.v (0 + 2) +
              (rowEx.get k).margins.v 0) :=
  ⟨by decide, auto_size_encloses rowEx twoKids ⟨by decide, by decide, by decide⟩ (by decide)
    (by decide) (by decide) (by decide) (by decide) 0 (by decide) (by decide) (by decide)⟩

/-! ### The layout depends on the declarations only (C32) -/

theorem withState_decl_items :
    ∀ (l1 l2 : List UIitem), l1.length = l2.length →
      (List.zipWith (fun i j => { i with rect := j.rect, visited := j.visited }) l1 l2).map
        UIitem.decl = l1.map UIitem.decl := by
  intro l1
  induction l1 with
  | nil => intro l2 _; simp
  | cons x xs ih =>
    intro l2 h
    cases l2 with
    | nil => simp at h
    | cons y ys =>
      simp only [List.zipWith_cons_cons, List.map_cons, List.cons.injEq]
      exact ⟨rfl, ih ys (by simpa using h)⟩

theorem withState_inputs_items (d : Nat) :
    ∀ (l1 l2 : List UIitem), l1.length = l2.length →
      (List.zipWith (fun i j => { i with rect := j.rect, visited := j.visited }) l1 l2).map
        (UIitem.inputs d) = l1.map (UIitem.inputs d) := by
  intro l1
  induction l1 with
  | nil => intro l2 _; simp
  | cons x xs ih =>
    intro l2 h
    cases l2 with
    | nil => simp at h
    | cons y ys =>
      simp only [List.zipWith_cons_cons, List.map_cons, List.cons.injEq]
      exact ⟨rfl, ih ys (by simpa using h)⟩

theorem withState_view_items (d : Nat) :
    ∀ (l1 l2 : List UIitem), l1.length = l2.length →
      (List.zipWith (fun i j => { i with rect := j.rect, visited := j.visited }) l1 l2).map
        (UIitem.view d) = l2.map (UIitem.view d) := by
  intro l1
  induction l1 with
  | nil =>
    intro l2 h
    cases l2 with
    | nil => simp
    | cons y ys => simp at h
  | cons x xs ih =>
    intro l2 h
    cases l2 with
    | nil => simp at h
    | cons y ys =>
      simp only [List.zipWith_cons_cons, List.map_cons, List.cons.injEq]
      exact ⟨rfl, ih ys (by simpa using h)⟩

/-- C32: the layout depends on the declarations only. Let `a` be a hierarchy whose neighbor
references are `-1` or earlier-created siblings, and let `b` agree with `a`, item by item and
in both dimensions, on the size hint, the margins, the neighbor references, the anchor flags,
the first child and the next sibling; the fields `rect` and `visited` of `b`, and every other
field, are arbitrary. If `uiProcess` returns on both, every item of the hierarchy, the root
included, has the same rect in both results. -/
theorem layout_from_declarations (a b : UIcontext) (t : KTree) (h : Hierarchy a t)
    (hpo : ParentOK a 0 t) (hs : SiblingRefs a) (hck : CompleteKids a 0 t)
    (hcb : CompleteBelow a t) (hc : a.count ≤ UI_MAX_ITEMS)
    (hin : ∀ d, d < 2 → a.inputs d = b.inputs d)
    (a' b' : UIcontext) (eva evb : List UIdispatch)
    (ha : uiProcess a = .ok (a', eva)) (hb : uiProcess b = .ok (b', evb)) :
    ∀ q, q = 0 ∨ q ∈ t.indices → (b'.get q).rect = (a'.get q).rect := by
  obtain ⟨al, hal, ia, -⟩ := uiProcess_items ha
  obtain ⟨bl, hbl, ib, -⟩ := uiProcess_items hb
  have hlen : a.items.length = b.items.length := by
    have := congrArg List.length (hin 0 (by decide))
    simpa [UIcontext.inputs] using this
  -- the declarations of `a` with the state of `b`
  have hdm : (withState a b).decl = a.decl := by
    unfold UIcontext.decl withState
    simp only [withState_decl_items _ _ hlen]
  have hm := h.of_decl hdm
  have hpom := ParentOK_of_decl hdm _ _ hpo
  have hsm := SiblingRefs_of_decl hdm hs
  have hckm := CompleteKids_of_decl hdm hck
  have hcbm := CompleteBelow_of_decl hdm _ hcb
  obtain ⟨ml, hml, -, -⟩ := uiProcessLayout_placed (withState a b) t hm hpom hsm
    (by rw [count_of_decl hdm]; exact hc)
  have agree := layout_runs_agree h hpo hs hck hcb (count_of_decl hdm)
    (fun q => (get_decl_of_decl hdm q).symm) hm hpom hsm hckm hcbm hal hml
  have rel : ∀ d, d < 2 → DRel d ml bl := by
    intro d hd
    refine lock_processLayout hd (DRel_of_lists ?_ ?_) hml hbl
    · rw [← hin d hd]
      unfold UIcontext.inputs withState
      exact withState_inputs_items d _ _ hlen
    · unfold UIcontext.view withState
      exact withState_view_items d _ _ hlen
  intro q hq
  rw [get_of_items ia, get_of_items ib, ← agree q hq]
  have v0 := view_fields ((rel 0 (by decide)).2 q).2
  have v1 := view_fields ((rel 1 (by decide)).2 q).2
  apply rect_ext
  intro d hd
  have : d = 0 ∨ d = 1 ∨ d = 2 ∨ d = 3 := by omega
  rcases this with rfl | rfl | rfl | rfl
  · exact v0.1.symm
  · exact v1.1.symm
  · exact v0.2.1.symm
  · exact v1.2.1.symm

/-- C32 at an example: `staleEx` has the declarations of `overEx`, but the rect
(77, 88, 99, 11) and the marks 15 in item 1 where `overEx` has zeros; `uiProcess` returns on
both, and the rects of the root and of item 1 are the same in both results. -/
theorem layout_from_declarations_witness :
    overEx.inputs 0 = staleEx.inputs 0 ∧ overEx.inputs 1 = staleEx.inputs 1 ∧
    (overEx.get 1).rect = ⟨0, 0, 0, 0⟩ ∧ (staleEx.get 1).rect = ⟨77, 88, 99, 11⟩ ∧
    (overEx.get 1).visited = 0 ∧ (staleEx.get 1).visited = 15 ∧
    uiProcess overEx = .ok (idleEx, []) ∧ uiProcess staleEx = .ok (staleDone, []) ∧
    ∀ q, q = 0 ∨ q ∈ oneChild.indices → (staleDone.get q).rect = (idleEx.get q).rect :=
  ⟨by decide, by decide, by decide, by decide, by decide, by decide, by decide, by decide,
    layout_from_declarations overEx staleEx oneChild ⟨by decide, by decide, by decide⟩
      (by decide) (by decide) (by decide) (by decide) (by decide)
      (fun d hd => by
        have : d = 0 ∨ d = 1 := by omega
        rcases this with rfl | rfl <;> decide)
      idleEx staleDone [] [] (by decide) (by decide)⟩

/-! ### Contexts built by API calls are hierarchies; the traversals are total (C36) -/

theorem forestOf_nil (sub : Int → KTree) : forestOf sub [] = .nil := rfl

theorem forestOf_cons (sub : Int → KTree) (x : Int) (xs : List Int) :
    forestOf sub (x :: xs) = .node x.toNat (sub x) (forestOf sub xs) := rfl

theorem buildForest_succ (log : Int → List Int) (n : Nat) (l : List Int) :
    buildForest log (n + 1) l = forestOf (fun x => buildForest log n (log x)) l := rfl

theorem forestOf_roots (sub : Int → KTree) :
    ∀ l : List Int, (forestOf sub l).roots = l.map Int.toNat := by
  intro l
  induction l with
  | nil => rfl
  | cons x xs ih => rw [forestOf_cons]; simp only [KTree.roots, List.map_cons, ih]

/-- the root is at depth 0 only -/
theorem AtDepth_root {c : UIcontext} (hr : (c.get 0).parent = -1) {d : Nat}
    (h : AtDepth c d 0) : d = 0 := by
  cases d with
  | zero => rfl
  | succ d =>
    simp only [AtDepth] at h
    omega

/-- an item has one depth -/
theorem AtDepth_unique {c : UIcontext} (hr : (c.get 0).parent = -1) :
    ∀ (d d' x : Nat), AtDepth c d x → AtDepth c d' x → d = d' := by
  intro d
  induction d with
  | zero =>
    intro d' x h h'
    simp only [AtDepth] at h
    subst h
    exact (AtDepth_root hr h').symm
  | succ d ih =>
    intro d' x h h'
    cases d' with
    | zero =>
      simp only [AtDepth] at h'
      subst h'
      exact AtDepth_root hr h
    | succ d' =>
      simp only [AtDepth] at h h'
      rw [ih d' _ h.2.2 h'.2.2]

theorem AtDepth_live {c : UIcontext} (h0 : 0 < c.count) :
    ∀ (d x : Nat), AtDepth c d x → x < c.count := by
  intro d x h
  cases d with
  | zero => simp only [AtDepth] at h; omega
  | succ d => exact h.1

theorem ancestors_mem {c : UIcontext} :
    ∀ (d x y : Nat), AtDepth c d x → y ∈ ancestors c d x →
      ∃ k, 1 ≤ k ∧ k ≤ d ∧ AtDepth c k y := by
  intro d
  induction d with
  | zero => intro x y _ hy; simp [ancestors] at hy
  | succ d ih =>
    intro x y h hy
    simp only [ancestors, List.mem_cons] at hy
    rcases hy with rfl | hy
    · exact ⟨d + 1, by omega, le_refl _, h⟩
    · obtain ⟨k, k1, k2, k3⟩ := ih _ y h.2.2 hy
      exact ⟨k, k1, by omega, k3⟩

theorem ancestors_length (c : UIcontext) : ∀ (d x : Nat), (ancestors c d x).length = d := by
  intro d
  induction d with
  | zero => intro x; rfl
  | succ d ih => intro x; simp only [ancestors, List.length_cons, ih]

theorem ancestors_nodup {c : UIcontext} (hr : (c.get 0).parent = -1) :
    ∀ (d x : Nat), AtDepth c d x → (ancestors c d x).Nodup := by
  intro d
  induction d with
  | zero => intro x _; exact List.nodup_nil
  | succ d ih =>
    intro x h
    simp only [ancestors, List.nodup_cons]
    refine ⟨?_, ih _ h.2.2⟩
    intro hx
    obtain ⟨k, -, k2, k3⟩ := ancestors_mem d _ x h.2.2 hx
    have := AtDepth_unique hr _ _ _ h k3
    omega

/-- the depth of an item is below the number of items -/
theorem AtDepth_lt {c : UIcontext} (hr : (c.get 0).parent = -1) (h0 : 0 < c.count)
    (d x : Nat) (h : AtDepth c d x) : d < c.count := by
  have hn := ancestors_nodup hr d x h
  have hrange : ∀ y ∈ ancestors c d x, 0 < y ∧ y < c.count := by
    intro y hy
    obtain ⟨k, k1, -, k3⟩ := ancestors_mem d x y h hy
    refine ⟨?_, AtDepth_live h0 k y k3⟩
    by_contra hz
    have : y = 0 := by omega
    subst this
    have := AtDepth_root hr k3
    omega
  have := length_le_of_nodup_range hn hrange
  rw [ancestors_length] at this
  omega

theorem up_succ (c : UIcontext) :
    ∀ (j x : Nat), up c (j + 1) x = (c.get (up c j x)).parent.toNat := by
  intro j
  induction j with
  | zero => intro x; rfl
  | succ j ih =>
    intro x
    show up c (j + 1) (c.get x).parent.toNat = _
    rw [ih]
    rfl

/-- a sibling list whose subtrees are trees is a tree -/
theorem isForest_forestOf {c : UIcontext} (sub : Int → KTree) :
    ∀ (l : List Int) (kid : Int), Chain c kid l →
      (∀ x ∈ l, IsForest c (c.get x.toNat).firstkid (sub x)) →
      IsForest c kid (forestOf sub l) := by
  intro l
  induction l with
  | nil =>
    intro kid h _
    simp only [Chain] at h
    rw [forestOf_nil]
    simp only [IsForest]
    omega
  | cons x xs ih =>
    intro kid h hs
    simp only [Chain] at h
    obtain ⟨h1, h2, h3, h4⟩ := h
    rw [forestOf_cons]
    simp only [IsForest]
    refine ⟨by omega, by omega, by omega, hs x (List.mem_cons_self _ _), ?_⟩
    exact ih _ h4 (fun y hy => hs y (List.mem_cons_of_mem _ hy))

/-- the item lists of a context built by API calls describe a tree below every item that is
reached from the root -/
theorem isForest_buildForest {c : UIcontext} {log : Int → List Int} (inv : KidsInv c log) :
    ∀ (n d p : Nat), AtDepth c d p → c.count ≤ d + n →
      IsForest c (c.get p).firstkid (buildForest log n (log p)) := by
  intro n
  induction n with
  | zero =>
    intro d p h hn
    have := AtDepth_lt inv.root inv.live d p h
    omega
  | succ n ih =>
    intro d p h hn
    have hp := AtDepth_live inv.live d p h
    rw [buildForest_succ]
    apply isForest_forestOf _ _ _ (inv.chain p hp)
    intro x hx
    obtain ⟨i, hi⟩ := List.getElem?_of_mem hx
    obtain ⟨e1, e2, -, e4⟩ := inv.elem p i x hi
    have hd : AtDepth c (d + 1) x.toNat := by
      refine ⟨by omega, by rw [e4]; omega, ?_⟩
      rw [e4, Int.toNat_ofNat]
      exact h
    have := ih (d + 1) x.toNat hd (by omega)
    rw [Int.toNat_of_nonneg (by omega)] at this
    exact this

/-- in the tree built from the item lists no item occurs twice, and every item of it lies
below the item whose list the tree starts from -/
theorem nodup_buildForest {c : UIcontext} {log : Int → List Int} (inv : KidsInv c log) :
    ∀ (n d p : Nat), AtDepth c d p →
      (buildForest log n (log p)).indices.Nodup ∧
      ∀ y ∈ (buildForest log n (log p)).indices,
        ∃ j, AtDepth c (d + 1 + j) y ∧ up c (j + 1) y = p := by
  intro n
  induction n with
  | zero =>
    intro d p _
    exact ⟨List.nodup_nil, fun y hy => by simp [buildForest, KTree.indices] at hy⟩
  | succ n ih =>
    intro d p h
    rw [buildForest_succ]
    -- the sibling lists that are part of the list of `p`
    have inner : ∀ l : List Int, (∀ x ∈ l, x ∈ log p) → l.Nodup →
        (forestOf (fun x => buildForest log n (log x)) l).indices.Nodup ∧
        ∀ y ∈ (forestOf (fun x => buildForest log n (log x)) l).indices,
          ∃ j, AtDepth c (d + 1 + j) y ∧ up c (j + 1) y = p ∧ ((up c j y : Nat) : Int) ∈ l := by
      intro l
      induction l with
      | nil =>
        intro _ _
        exact ⟨List.nodup_nil, fun y hy => by simp [forestOf_nil, KTree.indices] at hy⟩
      | cons x xs ihl =>
        intro hsub hnd
        obtain ⟨hx1, hx2⟩ := List.nodup_cons.mp hnd
        obtain ⟨i1, i2⟩ := ihl (fun y hy => hsub y (List.mem_cons_of_mem _ hy)) hx2
        obtain ⟨i, hi⟩ := List.getElem?_of_mem (hsub x (List.mem_cons_self _ _))
        obtain ⟨e1, e2, -, e4⟩ := inv.elem p i x hi
        have hxx : ((x.toNat : Nat) : Int) = x := Int.toNat_of_nonneg (by omega)
        have hd : AtDepth c (d + 1) x.toNat := by
          refine ⟨by omega, by rw [e4]; omega, ?_⟩
          rw [e4, Int.toNat_ofNat]
          exact h
        have hsubx := ih (d + 1) x.toNat hd
        rw [hxx] at hsubx
        obtain ⟨s1, s2⟩ := hsubx
        rw [forestOf_cons]
        simp only [KTree.indices]
        -- what lies below `x`
        have below : ∀ y ∈ (buildForest log n (log x)).indices,
            ∃ j, AtDepth c (d + 1 + (j + 1)) y ∧ up c (j + 1 + 1) y = p ∧
              ((up c (j + 1) y : Nat) : Int) = x := by
          intro y hy
          obtain ⟨j, j1, j2⟩ := s2 y hy
          refine ⟨j, by rw [show d + 1 + (j + 1) = d + 1 + 1 + j by omega]; exact j1, ?_, ?_⟩
          · rw [up_succ, j2, e4, Int.toNat_ofNat]
          · rw [j2, hxx]
        constructor
        · rw [List.nodup_cons, List.nodup_append]
          refine ⟨?_, s1, i1, ?_⟩
          · intro hmem
            rcases List.mem_append.mp hmem with hy | hy
            · obtain ⟨j, j1, -, -⟩ := below _ hy
              have := AtDepth_unique inv.root _ _ _ hd j1
              omega
            · obtain ⟨j, j1, -, j3⟩ := i2 _ hy
              have := AtDepth_unique inv.root _ _ _ hd j1
              have hj : j = 0 := by omega
              subst hj
              simp only [up] at j3
              rw [hxx] at j3
              exact hx1 j3
          · intro y hy1 hy2
            obtain ⟨j, j1, -, j3⟩ := below y hy1
            obtain ⟨j', j1', -, j3'⟩ := i2 y hy2
            have := AtDepth_unique inv.root _ _ _ j1 j1'
            have hj : j' = j + 1 := by omega
            subst hj
            rw [j3] at j3'
            exact hx1 j3'
        · intro y hy
          simp only [List.mem_cons, List.mem_append] at hy
          rcases hy with rfl | hy | hy
          · refine ⟨0, hd, ?_, ?_⟩
            · show up c 0 (c.get x.toNat).parent.toNat = p
              rw [e4, Int.toNat_ofNat]
              rfl
            · simp only [up]
              rw [hxx]
              exact List.mem_cons_self _ _
          · obtain ⟨j, j1, j2, j3⟩ := below y hy
            exact ⟨j + 1, j1, j2, by rw [j3]; exact List.mem_cons_self _ _⟩
          · obtain ⟨j, j1, j2, j3⟩ := i2 y hy
            exact ⟨j, j1, j2, List.mem_cons_of_mem _ j3⟩
    obtain ⟨r1, r2⟩ := inner (log p) (fun x hx => hx) (inv.nodup p)
    refine ⟨r1, fun y hy => ?_⟩
    obtain ⟨j, j1, j2, -⟩ := r2 y hy
    exact ⟨j, j1, j2⟩

theorem parentOK_forestOf {c : UIcontext} (sub : Int → KTree) (p : Nat) :
    ∀ (l : List Int), (∀ x ∈ l, (c.get x.toNat).parent = (p : Int) ∧ ParentOK c x.toNat (sub x)) →
      ParentOK c p (forestOf sub l) := by
  intro l
  induction l with
  | nil => intro _; rw [forestOf_nil]; trivial
  | cons x xs ih =>
    intro h
    rw [forestOf_cons]
    simp only [ParentOK]
    exact ⟨(h x (List.mem_cons_self _ _)).1, (h x (List.mem_cons_self _ _)).2,
      ih (fun y hy => h y (List.mem_cons_of_mem _ hy))⟩

/-- every item of the tree built from the item lists has the item above it as parent -/
theorem parentOK_buildForest {c : UIcontext} {log : Int → List Int} (inv : KidsInv c log) :
    ∀ (n : Nat) (p : Nat), ParentOK c p (buildForest log n (log p)) := by
  intro n
  induction n with
  | zero => intro p; trivial
  | succ n ih =>
    intro p
    rw [buildForest_succ]
    apply parentOK_forestOf
    intro x hx
    obtain ⟨i, hi⟩ := List.getElem?_of_mem hx
    obtain ⟨e1, e2, -, e4⟩ := inv.elem p i x hi
    refine ⟨e4, ?_⟩
    have := ih x.toNat
    rw [Int.toNat_of_nonneg (by omega)] at this
    exact this

/-- a context whose child lists are the lists of attached items is a hierarchy -/
theorem hierarchy_of_KidsInv {c : UIcontext} {log : Int → List Int} (inv : KidsInv c log) :
    Hierarchy c (buildForest log c.count (log 0)) ∧
    ParentOK c 0 (buildForest log c.count (log 0)) := by
  have h0 : AtDepth c 0 0 := rfl
  refine ⟨⟨inv.live, ?_, ?_⟩, ?_⟩
  · exact isForest_buildForest inv c.count 0 0 h0 (by omega)
  · exact (nodup_buildForest inv c.count 0 0 h0).1
  · exact parentOK_buildForest inv c.count 0

theorem Built_uiClear (c : UIcontext) : Built (uiClear c) := by
  refine ⟨fun _ => [], KidsInv_uiClear c, ?_⟩
  intro x hx hp
  have hx0 : x = 0 := by
    have : (uiClear c).count = 1 := rfl
    omega
  subst hx0
  have : ((uiClear c).get 0).parent = -1 := rfl
  omega

theorem parent_of_links {i j : UIitem} (h : i.links = j.links) : i.parent = j.parent := by
  have := congrArg (fun l => l.2.2.2.1) h
  exact this

theorem Built_uiCall {c c' : UIcontext} {call : UIcall} (hb : Built c)
    (hc : uiCall c call = .ok c') : Built c' := by
  by_cases hcl : call = .clear
  · subst hcl
    simp only [uiCall] at hc
    injection hc with hc
    rw [← hc]
    exact Built_uiClear c
  obtain ⟨log, inv, hlog⟩ := hb
  refine ⟨fun p => log p ++ attachedTo p [call], KidsInv_uiCall inv hcl hc, ?_⟩
  by_cases h1 : call = .item
  · subst h1
    rw [uiItem_call hc]
    intro x hx hp
    rw [get_uiItem] at hp ⊢
    have hcnt : ({ c with items := c.items ++ [UIitem.fresh] } : UIcontext).count =
        c.count + 1 := by
      show (c.items ++ [UIitem.fresh]).length = c.items.length + 1
      simp
    by_cases hlt : x < c.count
    · rw [if_pos hlt] at hp ⊢
      exact List.mem_append_left _ (hlog x hlt hp)
    · rw [if_neg hlt, if_pos (by omega)] at hp
      have : UIitem.fresh.parent = -1 := rfl
      omega
  · by_cases h2 : ∃ i q, call = .setParent i q
    · obtain ⟨item, parent, rfl⟩ := h2
      obtain ⟨a1, a2, a3, a4, a5, a6⟩ := uiSetParent_inv (show uiSetParent c item parent = .ok c'
        from hc)
      have hl : (c.get parent.toNat).lastkid < c.count := by
        have hpl : parent.toNat < c.count := by omega
        rw [inv.last parent.toNat hpl]
        cases hg : (log (parent.toNat : Int)).getLast? with
        | none => simp only [Option.getD_none]; omega
        | some z =>
          simp only [Option.getD_some]
          have hz := List.mem_of_mem_getLast? hg
          obtain ⟨i, hi⟩ := List.getElem?_of_mem hz
          exact (inv.elem _ i z hi).2.1
      rw [a6]
      intro x hx hp
      rw [count_uiAttached] at hx
      have hpar := (uiAttached_links c item parent a1 a2 a4 hl x).1
      rw [hpar] at hp ⊢
      simp only [attachedTo]
      by_cases hxi : x = item.toNat
      · rw [if_pos hxi]
        rw [if_pos rfl]
        refine List.mem_append_right _ ?_
        rw [hxi, Int.toNat_of_nonneg (by omega)]
        exact List.mem_cons_self _ _
      · rw [if_neg hxi] at hp ⊢
        exact List.mem_append_left _ (hlog x hx hp)
    · have h2' : ∀ i q, call ≠ .setParent i q := fun i q e => h2 ⟨i, q, e⟩
      obtain ⟨b1, b2⟩ := links_uiCall hc h1 h2' hcl
      intro x hx hp
      rw [parent_of_links (b2 x)] at hp ⊢
      rw [b1] at hx
      exact List.mem_append_left _ (hlog x hx hp)

/-- every context that API calls build from a cleared one has the child-list invariant -/
theorem Built_uiCalls (c0 : UIcontext) (calls : List UIcall) (c : UIcontext)
    (h : uiCalls (uiClear c0) calls = .ok c) : Built c :=
  uiCalls_invariant Built (fun _ _ _ hb hc => Built_uiCall hb hc) calls _ c
    (Built_uiClear c0) h

theorem completeBelow_forestOf {c : UIcontext} (sub : Int → KTree) :
    ∀ (l : List Int), (∀ x ∈ l, CompleteKids c x.toNat (sub x) ∧ CompleteBelow c (sub x)) →
      CompleteBelow c (forestOf sub l) := by
  intro l
  induction l with
  | nil => intro _; rw [forestOf_nil]; trivial
  | cons x xs ih =>
    intro h
    rw [forestOf_cons]
    simp only [CompleteBelow]
    exact ⟨(h x (List.mem_cons_self _ _)).1, (h x (List.mem_cons_self _ _)).2,
      ih (fun y hy => h y (List.mem_cons_of_mem _ hy))⟩

/-- the tree built from the item lists holds every item that has a parent in it -/
theorem complete_buildForest {c : UIcontext} {log : Int → List Int} (inv : KidsInv c log)
    (hlog : ∀ x : Nat, x < c.count → 0 ≤ (c.get x).parent →
      (x : Int) ∈ log (c.get x).parent) :
    ∀ (n d p : Nat), AtDepth c d p → c.count ≤ d + n →
      CompleteKids c p (buildForest log n (log p)) ∧
      CompleteBelow c (buildForest log n (log p)) := by
  intro n
  induction n with
  | zero =>
    intro d p h hn
    have := AtDepth_lt inv.root inv.live d p h
    omega
  | succ n ih =>
    intro d p h hn
    rw [buildForest_succ]
    constructor
    · intro j hj hp
      rw [forestOf_roots]
      have := hlog j hj (by rw [hp]; omega)
      rw [hp] at this
      exact List.mem_map.mpr ⟨(j : Int), this, Int.toNat_ofNat j⟩
    · apply completeBelow_forestOf
      intro x hx
      obtain ⟨i, hi⟩ := List.getElem?_of_mem hx
      obtain ⟨e1, e2, -, e4⟩ := inv.elem p i x hi
      have hd : AtDepth c (d + 1) x.toNat := by
        refine ⟨by omega, by rw [e4]; omega, ?_⟩
        rw [e4, Int.toNat_ofNat]
        exact h
      have := ih (d + 1) x.toNat hd (by omega)
      rw [Int.toNat_of_nonneg (by omega)] at this
      exact this

/-- the items that are reached from the root of a context built by API calls form a tree -/
theorem hierarchy_of_Built {c : UIcontext} (hb : Built c) :
    ∃ t, Hierarchy c t ∧ ParentOK c 0 t ∧ CompleteKids c 0 t ∧ CompleteBelow c t := by
  obtain ⟨log, inv, hlog⟩ := hb
  obtain ⟨h1, h2⟩ := hierarchy_of_KidsInv inv
  have h0 : AtDepth c 0 0 := rfl
  obtain ⟨h3, h4⟩ := complete_buildForest inv hlog c.count 0 0 h0 (by omega)
  exact ⟨_, h1, h2, h3, h4⟩

theorem uiNotifyItem_err_kind {c : UIcontext} {item event : Int} {e : UIerror}
    (h : uiNotifyItem c item event = .error e) : e = .assertion := by
  unfold uiNotifyItem at h
  split at h
  · rename_i e' he
    injection h with h
    rw [← h]
    exact uiItemPtr_err_kind he
  · split at h <;> cases h

theorem uiGetHandle_err_kind {c : UIcontext} {item : Int} {e : UIerror}
    (h : uiGetHandle c item = .error e) : e = .assertion := by
  simp only [uiGetHandle, bind, Except.bind] at h
  split at h
  · rename_i e' he
    injection h with h
    rw [← h]
    exact uiItemPtr_err_kind he
  · cases h

/-- the state switch of `uiProcess` fails by an assertion only -/
theorem uiProcessState_err_kind {c : UIcontext} {hot : Int} {e : UIerror}
    (h : uiProcessState c hot = .error e) : e = .assertion := by
  unfold uiProcessState at h
  split at h
  · split at h
    · simp only at h
      repeat' split at h
      all_goals first
        | cases h; done
        | (injection h with h; rw [← h]; exact uiNotifyItem_err_kind ‹_›)
    · cases h
  · repeat' split at h
    all_goals first
      | cases h; done
      | (injection h with h; rw [← h]; exact uiNotifyItem_err_kind ‹_›)

/-- the end of `uiProcess` fails by an assertion only -/
theorem uiProcessHandles_err_kind {c : UIcontext} {e : UIerror}
    (h : uiProcessHandles c = .error e) : e = .assertion := by
  unfold uiProcessHandles at h
  simp only at h
  split at h
  · rename_i e' he
    injection h with h
    rw [← h]
    split at he
    · exact uiGetHandle_err_kind he
    · cases he
  · split at h
    · rename_i e' he
      injection h with h
      rw [← h]
      split at he
      · exact uiGetHandle_err_kind he
      · cases he
    · cases h

/-- on a hierarchy `uiProcess` returns or stops at an assertion: no recursion of it runs out
of fuel -/
theorem uiProcess_ne_fuel {c : UIcontext} {t : KTree} (h : Hierarchy c t) :
    uiProcess c ≠ .error .fuel := by
  intro hx
  unfold uiProcess at hx
  split at hx
  · rename_i e he
    injection hx with hx
    subst hx
    exact processLayout_ne_fuel h he
  · rename_i cl hl
    have hd := decl_uiProcessLayout hl
    have hcl := h.of_decl hd
    have hhot : uiProcessHot cl =
        .ok (if uiInside (cl.get 0).rect cl.cursor.x cl.cursor.y then
          (t.hit cl (cl.cursor.x - (cl.get 0).rect.x) (cl.cursor.y - (cl.get 0).rect.y)).getD
            ((0 : Nat) : Int) else -1) :=
      uiFindItem_eq_hit cl 0 t _ _ (uiFuel cl) hcl.root hcl.forest hcl.need_lt
    rw [hhot] at hx
    simp only at hx
    split at hx
    · rename_i e he
      injection hx with hx
      subst hx
      have := uiProcessState_err_kind he
      cases this
    · rename_i cs evs hs
      split at hx
      · rename_i e he
        injection hx with hx
        subst hx
        have := uiProcessHandles_err_kind he
        cases this
      · cases hx

/-- C36: the traversals are total. In every context reached from `uiClear` by API calls
(`uiItem`, `uiSetParent` also of an item to itself or in a cycle, all setters with arbitrary
neighbor references, `uiClear`, `uiProcess`), the items reached from the root through
`firstkid` and `nextitem` form a finite tree in which no item occurs twice, every item of
which has the item above it as parent, and which holds every item that has an item of it as
parent. For every contents of the fields `rect` and `visited`, neither the size pass nor the
position pass runs out of fuel, and the hit test returns for every point. `uiProcess` on such
a context returns or stops at an assertion. -/
theorem traversals_total (c0 : UIcontext) (calls : List UIcall) (c : UIcontext)
    (h : uiCalls (uiClear c0) calls = .ok c) :
    ∃ t, Hierarchy c t ∧ ParentOK c 0 t ∧ CompleteKids c 0 t ∧ CompleteBelow c t ∧
      (∀ s : UIcontext, s.decl = c.decl →
        uiComputeBestSize (uiFuel s) s 0 ≠ .error .fuel ∧
        uiLayoutItem (uiFuel s) (uiFuel s) s 0 ≠ .error .fuel ∧
        ∀ x y, ∃ r, uiFindItem (uiFuel s) s 0 x y = .ok r) ∧
      uiProcess c ≠ .error .fuel ∧
      ((∃ r, uiProcess c = .ok r) ∨ uiProcess c = .error .assertion) := by
  obtain ⟨t, h1, h2, h3, h4⟩ := hierarchy_of_Built (Built_uiCalls c0 calls c h)
  refine ⟨t, h1, h2, h3, h4, ?_, uiProcess_ne_fuel h1, ?_⟩
  · intro s hs
    have hh := h1.of_decl hs
    refine ⟨(bestSize_ne_fuel (uiFuel s)).1 s 0 t hh.root hh.forest hh.need_lt,
      (layoutItem_ne_fuel _ _).1 s 0 t hh.root hh.forest (by unfold uiFuel; omega) hh.need_lt,
      ?_⟩
    intro x y
    exact ⟨_, uiFindItem_eq_hit s 0 t x y (uiFuel s) hh.root hh.forest hh.need_lt⟩
  · cases hp : uiProcess c with
    | ok r => exact Or.inl ⟨r, rfl⟩
    | error e =>
      right
      cases e with
      | assertion => rfl
      | fuel => exact absurd hp (uiProcess_ne_fuel h1)

/-- C36 at an example: in `loopEx` item 1, the only child of the root, names itself as
left neighbor, item 2 is attached to itself, and items 3 and 4 are attached to each other;
`uiProcess` returns the layout `loopDone`, and the items reached from the root form a
tree. -/
theorem traversals_total_witness :
    uiCalls (uiClear uiCreateContext) loopCalls = .ok loopEx ∧
    (loopEx.get 1).relto.v0 = 1 ∧ (loopEx.get 2).parent = 2 ∧ (loopEx.get 2).firstkid = 2 ∧
    (loopEx.get 3).parent = 4 ∧ (loopEx.get 4).parent = 3 ∧
    uiProcess loopEx = .ok (loopDone, []) ∧
    ∃ t, Hierarchy loopEx t ∧ ParentOK loopEx 0 t ∧ CompleteKids loopEx 0 t ∧
      CompleteBelow loopEx t ∧
      (∀ s : UIcontext, s.decl = loopEx.decl →
        uiComputeBestSize (uiFuel s) s 0 ≠ .error .fuel ∧
        uiLayoutItem (uiFuel s) (uiFuel s) s 0 ≠ .error .fuel ∧
        ∀ x y, ∃ r, uiFindItem (uiFuel s) s 0 x y = .ok r) ∧
      uiProcess loopEx ≠ .error .fuel ∧
      ((∃ r, uiProcess loopEx = .ok r) ∨ uiProcess loopEx = .error .assertion) := by
  have s1 : uiComputeBestSize (uiFuel loopEx) loopEx 0 = .ok loopSized := by decide
  have s2 : (loopSized.modify 0
      (fun i => { i with rect := { i.rect with x := i.margins.v 0 } })).modify 0
      (fun i => { i with rect := { i.rect with y := i.margins.v 1 } }) = loopSized := by
    decide
  have s3 : (uiLayoutItem (uiFuel loopSized) (uiFuel loopSized) loopSized 0).bind
      (fun cl => (uiProcessHot cl).bind (fun hot => (uiProcessState cl hot).bind (fun r =>
        (uiProcessHandles r.1).map (fun c' => (c', r.2))))) = .ok (loopDone, []) := by decide
  have hrun : uiProcess loopEx = .ok (loopDone, []) := by
    rw [uiProcess_eq_bind, uiProcessLayout_of_sized s1 s2]
    exact s3
  exact ⟨by decide, by decide, by decide, by decide, by decide, by decide, hrun,
    traversals_total uiCreateContext loopCalls loopEx (by decide)⟩

end OUI
